import Mathlib

/-!
# Symbolic heap of predator (`sl/symheap.cc`, `sl/symcmp.cc`, `sl/symseg.cc`)

A shallow embedding of the symbolic-heap engine.  Handles (`TValId`, `TObjId`)
and byte offsets (`TOffset`) are integers.  The entity store `ents` is a list of slots; a
slot holds either nothing (the slot reserved for `VAL_NULL`) or one entity.
Stateful member functions take the heap and return the heap they leave behind.
An operation that runs into `CL_BREAK_IF`, `CL_TRAP`, a failed `DCAST` or an
out-of-range slot returns `none`.

`std::set` and `std::map` are lists: an insertion leaves the list alone when
the key is present and puts a new key at its sorted position otherwise, so that
`BOOST_FOREACH` visits the elements in the order the list has.
-/

namespace Predator

/-! ## Handles and enumerations -/

/-! Value handles (`TValId`), object handles (`TObjId`) and byte offsets
(`TOffset`) are written `Int` throughout. -/

/-- Type descriptors (`const struct cl_type *`) are referred to by their index
in the type table of the code storage; the null pointer is `none`. -/
abbrev TObjType := Option Nat

/-! The enumerators of `symid.hh` and `symheap.hh` (headers that are not among
the sources).  The code fixes `VAL_NULL` as slot 0 of the entity store,
`VAL_ADDR_OF_RET` as the first value a heap creates, and treats every handle
`<= 0` as special; the negative numbers below are the ones of the headers. -/

def VAL_NULL : Int := 0
def VAL_FALSE : Int := 0
def VAL_INVALID : Int := -1
def VAL_DEREF_FAILED : Int := -2
def VAL_TRUE : Int := -3
def VAL_ADDR_OF_RET : Int := 1

def OBJ_INVALID : Int := -1
def OBJ_DEREF_FAILED : Int := -2
def OBJ_UNKNOWN : Int := -3

/-! `TOffset` is a 4-byte signed integer: its values are the integers from
`OFF_MIN` to `OFF_MAX`. -/

def OFF_MIN : Int := -2147483648
def OFF_MAX : Int := 2147483647

/-- The integer is a value of `TOffset`. -/
def isOffset (x : Int) : Bool := decide (OFF_MIN ≤ x ∧ x ≤ OFF_MAX)

/-- The sum of two offsets as the code computes it in `TOffset` (`off +=
valData->offRoot`): a sum that leaves the range of the type wraps around by
`2^32`.  Integers outside the range are no offsets of the program; their sum is
taken as it is. -/
def offAdd (a b : Int) : Int :=
  if isOffset a && isOffset b then
    if OFF_MAX < a + b then a + b - 4294967296
    else if a + b < OFF_MIN then a + b + 4294967296
    else a + b
  else a + b

inductive EValueTarget where
  | VT_INVALID
  | VT_UNKNOWN
  | VT_COMPOSITE
  | VT_CUSTOM
  | VT_STATIC
  | VT_ON_STACK
  | VT_ON_HEAP
  | VT_LOST
  | VT_DELETED
  | VT_ABSTRACT
  deriving DecidableEq, Repr

inductive EValueOrigin where
  | VO_INVALID
  | VO_ASSIGNED
  | VO_UNKNOWN
  | VO_REINTERPRET
  | VO_DEREF_FAILED
  | VO_STATIC
  | VO_STACK
  | VO_HEAP
  deriving DecidableEq, Repr

inductive ENeqOp where
  | NEQ_NOP
  | NEQ_ADD
  | NEQ_DEL
  deriving DecidableEq, Repr

inductive EObjKind where
  | OK_CONCRETE
  | OK_SLS
  | OK_DLS
  | OK_MAY_EXIST
  | OK_OBJ_OR_NULL
  | OK_SEE_THROUGH
  | OK_SEE_THROUGH_2N
  deriving DecidableEq, Repr

open EValueTarget EValueOrigin ENeqOp EObjKind

/-! ## Ordered containers -/

/-- Insertion of `x` in front of the first element it is smaller than. -/
def insertBy {α : Type} (lt : α → α → Bool) (x : α) : List α → List α
  | [] => [x]
  | y :: ys => if lt x y then x :: y :: ys else y :: insertBy lt x ys

/-- The call `std::set::insert`: nothing happens when the key is present. -/
def setInsert {α : Type} [DecidableEq α] (lt : α → α → Bool) (x : α) (s : List α) : List α :=
  if x ∈ s then s else insertBy lt x s

/-- The call `std::set::erase(key)`: the set without the key. -/
def setErase {α : Type} [DecidableEq α] (x : α) (s : List α) : List α :=
  s.filter (fun y => decide (y ≠ x))

/-- The call `std::map::find`. -/
def mapFind {κ β : Type} [DecidableEq κ] (k : κ) : List (κ × β) → Option β
  | [] => none
  | (k', v) :: m => if k' = k then some v else mapFind k m

/-- Insertion of a key that is absent, at its sorted position. -/
def mapInsertNew {κ β : Type} (lt : κ → κ → Bool) (k : κ) (v : β) : List (κ × β) → List (κ × β)
  | [] => [(k, v)]
  | (k', v') :: m => if lt k k' then (k, v) :: (k', v') :: m else (k', v') :: mapInsertNew lt k v m

/-- Replacement of the value stored under a key that is present. -/
def mapReplace {κ β : Type} [DecidableEq κ] (k : κ) (v : β) : List (κ × β) → List (κ × β)
  | [] => []
  | (k', v') :: m => if k' = k then (k, v) :: m else (k', v') :: mapReplace k v m

/-- The assignment `m[k] = v` of `std::map`. -/
def mapSet {κ β : Type} [DecidableEq κ] (lt : κ → κ → Bool) (k : κ) (v : β) (m : List (κ × β)) :
    List (κ × β) :=
  match mapFind k m with
  | some _ => mapReplace k v m
  | none => mapInsertNew lt k v m

/-- The call `std::map::erase(key)`. -/
def mapErase {κ β : Type} [DecidableEq κ] (k : κ) (m : List (κ × β)) : List (κ × β) :=
  m.filter (fun p => decide (p.1 ≠ k))

def intLt (a b : Int) : Bool := decide (a < b)

/-- The order of `std::pair<TValId, TValId>`. -/
def pairLt (p q : Int × Int) : Bool :=
  decide (p.1 < q.1) || (decide (p.1 = q.1) && decide (p.2 < q.2))

/-! ## Neq predicates store -/

/-- The helper `sortValues` of `util.hh` (not among the sources): the two
values swapped when the second one is the smaller. -/
def sortValues (a b : Int) : Int × Int :=
  if b < a then (b, a) else (a, b)

structure NeqDb where
  cont_ : List (Int × Int) := []
  deriving DecidableEq, Repr

namespace NeqDb

def areNeq (db : NeqDb) (valLt valGt : Int) : Bool :=
  let item := sortValues valLt valGt
  decide (item ∈ db.cont_)

def add (db : NeqDb) (valLt valGt : Int) : Option NeqDb :=
  if valLt = valGt then none
  else
    let item := sortValues valLt valGt
    some { cont_ := setInsert pairLt item db.cont_ }

def del (db : NeqDb) (valLt valGt : Int) : Option NeqDb :=
  if valLt = valGt then none
  else
    let item := sortValues valLt valGt
    some { cont_ := setErase item db.cont_ }

def empty (db : NeqDb) : Bool := db.cont_.isEmpty

def gatherRelatedValues (db : NeqDb) (dst : List Int) (val : Int) : List Int :=
  db.cont_.foldl
    (fun acc item =>
      if item.1 = val then acc ++ [item.2]
      else if item.2 = val then acc ++ [item.1]
      else acc)
    dst

/-- The states of the store: the empty one a heap starts with, and what `add`
and `del`, the only members that write `cont_`, make of a state. -/
inductive Reachable : NeqDb → Prop where
  | init : Reachable {}
  | add {db db' : NeqDb} (a b : Int) : Reachable db → db.add a b = some db' → Reachable db'
  | del {db db' : NeqDb} (a b : Int) : Reachable db → db.del a b = some db' → Reachable db'

end NeqDb

/-! ## Code storage (types and variables) -/

inductive ClTypeE where
  | CL_TYPE_VOID
  | CL_TYPE_UNKNOWN
  | CL_TYPE_PTR
  | CL_TYPE_STRUCT
  | CL_TYPE_UNION
  | CL_TYPE_ARRAY
  | CL_TYPE_FNC
  | CL_TYPE_INT
  | CL_TYPE_CHAR
  | CL_TYPE_BOOL
  | CL_TYPE_ENUM
  | CL_TYPE_REAL
  | CL_TYPE_STRING
  deriving DecidableEq, Repr

open ClTypeE

structure ClTypeItem where
  type : TObjType
  offset : Int
  deriving DecidableEq, Repr

/-- Modelled from the spec: the type descriptor `struct cl_type` of the code
listener (`cl/code_listener.h` is not among the sources): a type-kind tag, a
byte size, and for aggregate kinds the ordered list of (member type, byte
offset); a pointer type has its target type as its only item. -/
structure ClType where
  code : ClTypeE
  size : Int
  items : List ClTypeItem := []
  deriving DecidableEq, Repr

/-- Modelled from the spec: a variable of the variable catalog
(`cl/storage.hh` is not among the sources): its declared type and its storage
class. -/
structure Var where
  type : TObjType
  isOnStack : Bool
  deriving DecidableEq, Repr

/-- Modelled from the spec: the code storage `CodeStorage::Storage`, reduced to
the type table and the variable catalog (keyed by `uid`). -/
structure Storage where
  types : List ClType := []
  vars : List (Int × Var) := []
  deriving DecidableEq, Repr

def Storage.cltData (stor : Storage) (clt : TObjType) : Option ClType :=
  match clt with
  | none => none
  | some i => stor.types[i]?

/-- Modelled from the spec: `isComposite` of `cl/clutil.hh` (not among the
sources): the type is an aggregate (structure, union or array); false for the
null type. -/
def isComposite (stor : Storage) (clt : TObjType) : Bool :=
  match stor.cltData clt with
  | some t => decide (t.code = CL_TYPE_STRUCT) || decide (t.code = CL_TYPE_UNION)
      || decide (t.code = CL_TYPE_ARRAY)
  | none => false

/-- Modelled from the spec: `targetTypeOfPtr` of `cl/clutil.hh` (not among the
sources): the type of the only item of a pointer type. -/
def targetTypeOfPtr (stor : Storage) (clt : TObjType) : Option ClType :=
  match stor.cltData clt with
  | some t =>
    match t.items with
    | [item] => stor.cltData item.type
    | _ => none
  | none => none

/-- Modelled from the spec: `isDataPtr` of `cl/clutil.hh` (not among the
sources): a pointer type whose target is not a function, the test `ptrAt` and
`objAt` of `symheap.cc` spell out. -/
def isDataPtr (stor : Storage) (clt : TObjType) : Bool :=
  match stor.cltData clt with
  | some t =>
    if t.code = CL_TYPE_PTR then
      match targetTypeOfPtr stor clt with
      | some tt => decide (tt.code ≠ CL_TYPE_FNC)
      | none => false
    else false
  | none => false

/-! ## Heap entities -/

/-- The program variable a root stands for (`struct CVar` of `symheap.hh`):
`uid` is `-1` for a heap object. -/
structure CVar where
  uid : Int := -1
  inst : Int := -1
  deriving DecidableEq, Repr

def cVarLt (a b : CVar) : Bool :=
  decide (a.uid < b.uid) || (decide (a.uid = b.uid) && decide (a.inst < b.inst))

abbrev TUsedBy := List Int
abbrev TOffMap := List (Int × Int)
abbrev TObjByType := List (TObjType × Int)
abbrev TGrid := List (Int × TObjByType)
abbrev TLiveObjs := List (Int × Bool)
abbrev TCValueMap := List (Int × Int)
abbrev TObjList := List Int
abbrev TValList := List Int

/-- The order of type descriptors (pointer comparison): the null type first. -/
def cltLt (a b : TObjType) : Bool :=
  match a, b with
  | none, none => false
  | none, some _ => true
  | some _, none => false
  | some i, some j => decide (i < j)

structure HeapObject where
  value : Int := VAL_INVALID
  root : Int := VAL_INVALID
  off : Int := 0
  clt : TObjType := none
  deriving DecidableEq, Repr

structure BaseValue where
  code : EValueTarget
  origin : EValueOrigin
  offRoot : Int := 0
  usedBy : TUsedBy := []
  deriving DecidableEq, Repr

/-- The members `RootValue` adds to `BaseValue`. -/
structure RootValue where
  offMap : TOffMap := []
  addr : Int := VAL_NULL
  lastKnownClt : TObjType := none
  cbSize : Nat := 0
  cVar : CVar := {}
  allObjs : TObjList := []
  liveObjs : TLiveObjs := []
  isProto : Bool := false
  usedByGl : TUsedBy := []
  grid : TGrid := []
  deriving DecidableEq, Repr

/-- The dynamic type of a value entity, with the members the subclass adds to
`BaseValue`. -/
inductive ValueExt where
  | BaseValue
  | CompValue (compObj : Int)
  | CustomValue (customData : Int)
  | OffValue (root : Int)
  | RootValue (rd : RootValue)
  deriving DecidableEq, Repr

inductive IHeapEntity where
  | HeapObject (o : HeapObject)
  | Value (b : BaseValue) (x : ValueExt)
  deriving DecidableEq, Repr

/-! ## Classification of value targets -/

def isAbstract (code : EValueTarget) : Bool := decide (code = VT_ABSTRACT)

def isKnownObject (code : EValueTarget) : Bool :=
  match code with
  | VT_STATIC | VT_ON_HEAP | VT_ON_STACK => true
  | _ => false

def isGone (code : EValueTarget) : Bool :=
  match code with
  | VT_DELETED | VT_LOST => true
  | _ => false

def isOnHeap (code : EValueTarget) : Bool :=
  match code with
  | VT_ON_HEAP | VT_ABSTRACT => true
  | _ => false

def isProgramVar (code : EValueTarget) : Bool :=
  match code with
  | VT_STATIC | VT_ON_STACK => true
  | _ => false

def isPossibleToDeref (code : EValueTarget) : Bool :=
  isOnHeap code || isProgramVar code

/-! ## `SymHeapCore::Private` -/

structure SymHeapCore.Private where
  cVarMap : List (CVar × Int) := []
  cValueMap : TCValueMap := []
  ents : List (Option IHeapEntity) := [none]
  liveRoots : List Int := []
  neqDb : NeqDb := {}
  deriving DecidableEq, Repr

namespace SymHeapCore.Private

def nextId (d : Private) : Int := d.ents.length

def lastId (d : Private) : Int := (d.ents.length : Int) - 1

def valOutOfRange (d : Private) (val : Int) : Bool :=
  decide (val ≤ 0) || decide (d.lastId < val)

def objOutOfRange (d : Private) (obj : Int) : Bool :=
  decide (obj < 0) || decide (d.lastId < obj)

/-- The entity in slot `id`, if the slot exists and is not the null pointer. -/
def ent (d : Private) (id : Int) : Option IHeapEntity :=
  if id < 0 then none else (d.ents[id.toNat]?).join

/-- The assignment through the pointer held by slot `id`. -/
def setEnt (d : Private) (id : Int) (e : IHeapEntity) : Private :=
  { d with ents := d.ents.set id.toNat (some e) }

def pushEnt (d : Private) (e : IHeapEntity) : Private :=
  { d with ents := d.ents ++ [some e] }

def objData (d : Private) (obj : Int) : Option HeapObject :=
  if d.objOutOfRange obj then none
  else
    match d.ent obj with
    | some (.HeapObject o) => some o
    | _ => none

def valData (d : Private) (val : Int) : Option (BaseValue × ValueExt) :=
  if d.valOutOfRange val then none
  else
    match d.ent val with
    | some (.Value b x) => some (b, x)
    | _ => none

def rootData (d : Private) (val : Int) : Option (BaseValue × RootValue) :=
  if d.valOutOfRange val then none
  else
    match d.ent val with
    | some (.Value b (.RootValue rd)) => some (b, rd)
    | _ => none

/-- The overload `valRoot(val, ent)`: `ent` is the data of `val`. -/
def valRootOf (d : Private) (val : Int) (ent : BaseValue × ValueExt) : Option Int :=
  if ent.1.offRoot = 0 then some val
  else
    match ent.2 with
    | .OffValue valRoot => if d.valOutOfRange valRoot then none else some valRoot
    | _ => none

def valRoot (d : Private) (val : Int) : Option Int := do
  let ent ← d.valData val
  d.valRootOf val ent

def releaseValueOf (d : Private) (obj : Int) (val : Int) : Option Private :=
  if val ≤ 0 then some d
  else do
    let (b, x) ← d.valData val
    if obj ∉ b.usedBy then none
    else
      let b1 : BaseValue := { b with usedBy := setErase obj b.usedBy }
      let d1 := d.setEnt val (.Value b1 x)
      let root ← d1.valRootOf val (b1, x)
      let (rb, rx) ← d1.valData root
      if !isPossibleToDeref rb.code then some d1
      else
        match rx with
        | .RootValue rd =>
          if obj ∉ rd.usedByGl then none
          else some (d1.setEnt root (.Value rb (.RootValue { rd with usedByGl := setErase obj rd.usedByGl })))
        | _ => none

def setValueOf (d : Private) (obj : Int) (val : Int) : Option Private := do
  let objData ← d.objData obj
  let d1 ← d.releaseValueOf obj objData.value
  let d2 := d1.setEnt obj (.HeapObject { objData with value := val })
  if val ≤ 0 then some d2
  else do
    let (b, x) ← d2.valData val
    let b1 : BaseValue := { b with usedBy := setInsert intLt obj b.usedBy }
    let d3 := d2.setEnt val (.Value b1 x)
    if !isPossibleToDeref b1.code then some d3
    else do
      let root ← d3.valRootOf val (b1, x)
      let (rb, rd) ← d3.rootData root
      some (d3.setEnt root (.Value rb (.RootValue { rd with usedByGl := setInsert intLt obj rd.usedByGl })))

def objCreate (d : Private) : Private × Int :=
  let d1 := d.pushEnt (.HeapObject {})
  (d1, d1.lastId)

def valCreate (d : Private) (code : EValueTarget) (origin : EValueOrigin) :
    Option (Private × Int) :=
  match code with
  | VT_INVALID | VT_UNKNOWN | VT_DELETED | VT_LOST =>
    let d1 := d.pushEnt (.Value { code := code, origin := origin } .BaseValue)
    some (d1, d1.lastId)
  | VT_COMPOSITE =>
    let d1 := d.pushEnt (.Value { code := code, origin := origin } (.CompValue OBJ_INVALID))
    some (d1, d1.lastId)
  | VT_CUSTOM =>
    let d1 := d.pushEnt (.Value { code := code, origin := origin } (.CustomValue 0))
    some (d1, d1.lastId)
  | VT_ABSTRACT => none
  | VT_ON_HEAP | VT_ON_STACK | VT_STATIC =>
    let d1 := d.pushEnt (.Value { code := code, origin := origin } (.RootValue {}))
    some (d1, d1.lastId)

def valDup (d : Private) (val : Int) : Option (Private × Int) := do
  let (tpl, x) ← d.valData val
  let d1 := d.pushEnt (.Value { tpl with usedBy := [] } x)
  some (d1, d1.lastId)

def neqOpWrap (d : Private) (op : ENeqOp) (valA valB : Int) : Option Private :=
  match op with
  | NEQ_NOP => some d
  | NEQ_ADD => do
    let db ← d.neqDb.add valA valB
    some { d with neqDb := db }
  | NEQ_DEL => do
    let db ← d.neqDb.del valA valB
    some { d with neqDb := db }

/-- The loop of `objDestroy` over `rootData->allObjs`: the type of each
object is dropped and its value released. -/
def objDestroyLoop (d : Private) : List Int → Option Private
  | [] => some d
  | obj :: rest => do
    let objData ← d.objData obj
    let d1 ← d.releaseValueOf obj objData.value
    let d2 := d1.setEnt obj (.HeapObject { objData with clt := none, value := VAL_INVALID })
    objDestroyLoop d2 rest

/-- The first step of `objDestroy`: the program variable of the root, if it
has one, is removed from `cVarMap`; the result carries the target code the
root ends up with. -/
def objDestroyCVar (d : Private) (cv : CVar) : Option (Private × EValueTarget) :=
  if cv.uid ≠ -1 then
    (if (mapFind cv d.cVarMap).isNone then none
     else some ({ d with cVarMap := mapErase cv d.cVarMap }, VT_LOST))
  else some (d, VT_DELETED)

def objDestroy (d : Private) (root : Int) : Option Private := do
  let (_, rootData) ← d.rootData root
  let (d1, code) ← d.objDestroyCVar rootData.cVar
  let d2 : Private := { d1 with liveRoots := setErase root d1.liveRoots }
  let d3 ← d2.objDestroyLoop rootData.allObjs
  let (rb, rd) ← d3.rootData root
  some (d3.setEnt root (.Value { rb with code := code }
    (.RootValue { rd with lastKnownClt := none, allObjs := [], liveObjs := [], grid := [] })))

/-- The assignment `grid[off][clt] = obj`. -/
def gridSet (grid : TGrid) (off : Int) (clt : TObjType) (obj : Int) : TGrid :=
  let row := (mapFind off grid).getD []
  mapSet intLt off (mapSet cltLt clt obj row) grid

/-- The loop of `objDup` over the objects of the source root; `liveSrc` is the
live set of the source root and `imageAt` the address of the clone. -/
def objDupLoop (d : Private) (liveSrc : TLiveObjs) (imageAt : Int) :
    List Int → Option Private
  | [] => some d
  | src :: rest => do
    let objDataSrc ← d.objData src
    let (d1, dst) := d.objCreate
    let d2 ← d1.setValueOf dst objDataSrc.value
    let objDataDst ← d2.objData dst
    let objDataDst1 : HeapObject :=
      { objDataDst with off := objDataSrc.off, clt := objDataSrc.clt, root := imageAt }
    let d3 := d2.setEnt dst (.HeapObject objDataDst1)
    let (rb, rd) ← d3.rootData imageAt
    let live1 := match mapFind src liveSrc with
      | some isPtr => mapSet intLt dst isPtr rd.liveObjs
      | none => rd.liveObjs
    let rd1 : RootValue :=
      { rd with liveObjs := live1, allObjs := rd.allObjs ++ [dst],
                grid := gridSet rd.grid objDataDst1.off objDataDst1.clt dst }
    objDupLoop (d3.setEnt imageAt (.Value rb (.RootValue rd1))) liveSrc imageAt rest

def objDup (d : Private) (rootAt : Int) : Option (Private × Int) := do
  let (srcB, rootDataSrc) ← d.rootData rootAt
  let (d1, image) := d.objCreate
  let cltRoot := rootDataSrc.lastKnownClt
  let objDataDst ← d1.objData image
  let (d2, imageAt) ← d1.valCreate srcB.code VO_ASSIGNED
  let (rb, rd) ← d2.rootData imageAt
  let d3 := d2.setEnt image (.HeapObject { objDataDst with clt := cltRoot, root := imageAt })
  let rd1 : RootValue :=
    { rd with addr := imageAt, grid := gridSet rd.grid 0 cltRoot image,
              cVar := rootDataSrc.cVar, isProto := rootDataSrc.isProto,
              cbSize := rootDataSrc.cbSize, lastKnownClt := rootDataSrc.lastKnownClt,
              allObjs := rd.allObjs ++ [image] }
  let d4 := d3.setEnt imageAt (.Value rb (.RootValue rd1))
  let d5 : Private := { d4 with liveRoots := setInsert intLt imageAt d4.liveRoots }
  let d6 ← d5.objDupLoop rootDataSrc.liveObjs imageAt rootDataSrc.allObjs
  some (d6, imageAt)

end SymHeapCore.Private

/-! ## `SymHeapCore` -/

structure SymHeapCore where
  stor_ : Storage := {}
  d : SymHeapCore.Private := {}
  deriving DecidableEq, Repr

namespace SymHeapCore

/-- The constructor `SymHeapCore(TStorRef)`: slot 0 is reserved for `VAL_NULL`
and `VAL_ADDR_OF_RET` is the first value. -/
def create (stor : Storage) : Option SymHeapCore := do
  let d0 : Private := {}
  let (d1, addrRet) ← d0.valCreate VT_ON_STACK VO_ASSIGNED
  if VAL_ADDR_OF_RET ≠ addrRet then none
  else do
    let (rb, rd) ← d1.rootData addrRet
    some { stor_ := stor, d := d1.setEnt addrRet (.Value rb (.RootValue { rd with addr := addrRet })) }

def originByCode (code : EValueTarget) : Option EValueOrigin :=
  match code with
  | VT_INVALID => some VO_INVALID
  | VT_ON_HEAP => some VO_HEAP
  | VT_ON_STACK => some VO_STACK
  | VT_STATIC => some VO_STATIC
  | _ => none

/-- The delayed creation of the value of the object `obj` in `valueOf`: a
composite value, or an uninitialized value whose origin follows the root. -/
def valueOfCreate (sh : SymHeapCore) (obj : Int) (objData : HeapObject) : Option (Private × Int) :=
  if isComposite sh.stor_ objData.clt then do
    let (d1, val) ← sh.d.valCreate VT_COMPOSITE VO_INVALID
    let (b, _) ← d1.valData val
    some (d1.setEnt val (.Value b (.CompValue obj)), val)
  else do
    let (rootData, _) ← sh.d.rootData objData.root
    let vo ← originByCode rootData.code
    sh.d.valCreate VT_UNKNOWN vo

def valueOf (sh : SymHeapCore) (obj : Int) : Option (SymHeapCore × Int) :=
  if obj = OBJ_UNKNOWN ∨ obj = OBJ_INVALID then some (sh, VAL_INVALID)
  else if obj = OBJ_DEREF_FAILED then some (sh, VAL_DEREF_FAILED)
  else do
    let objData ← sh.d.objData obj
    if VAL_INVALID ≠ objData.value then some (sh, objData.value)
    else do
      let (d1, val) ← sh.valueOfCreate obj objData
      let d2 := d1.setEnt obj (.HeapObject { objData with value := val })
      let (b, x) ← d2.valData val
      some ({ sh with d := d2.setEnt val (.Value { b with usedBy := setInsert intLt obj b.usedBy } x) },
            val)

def usedBy (sh : SymHeapCore) (dst : TObjList) (val : Int) : Option TObjList :=
  if VAL_NULL = val then some dst
  else do
    let (valData, _) ← sh.d.valData val
    some (dst ++ valData.usedBy)

def lastId (sh : SymHeapCore) : Int := sh.d.lastId

def objSetValue (sh : SymHeapCore) (obj : Int) (val : Int) : Option SymHeapCore := do
  let objData ← sh.d.objData obj
  let clt := objData.clt
  if isComposite sh.stor_ clt then none
  else do
    let root := objData.root
    let (rb, rootData) ← sh.d.rootData root
    let d1 := sh.d.setEnt root
      (.Value rb (.RootValue { rootData with
        liveObjs := mapSet intLt obj (isDataPtr sh.stor_ clt) rootData.liveObjs }))
    let d2 ← d1.setValueOf obj val
    some { sh with d := d2 }

def valByOffset (sh : SymHeapCore) (at_ : Int) (off : Int) :
    Option (SymHeapCore × Int) :=
  if off = 0 ∨ at_ ≤ 0 then some (sh, at_)
  else do
    let valData ← sh.d.valData at_
    let valRoot ← sh.d.valRootOf at_ valData
    let off := offAdd off valData.1.offRoot
    if off = 0 then some (sh, valRoot)
    else
      let code := valData.1.code
      if VT_UNKNOWN = code ∨ isGone code then do
        let (d1, dup) ← sh.d.valDup at_
        some ({ sh with d := d1 }, dup)
      else do
        let (rb, rootData) ← sh.d.rootData valRoot
        match mapFind off rootData.offMap with
        | some v => some (sh, v)
        | none =>
          let d1 := sh.d.pushEnt
            (.Value { code := code, origin := valData.1.origin, offRoot := off } (.OffValue valRoot))
          let val := d1.lastId
          let d2 := d1.setEnt valRoot
            (.Value rb (.RootValue { rootData with offMap := mapSet intLt off val rootData.offMap }))
          some ({ sh with d := d2 }, val)

def valRoot (sh : SymHeapCore) (val : Int) : Option Int :=
  if val ≤ 0 then some val else sh.d.valRoot val

def valOffset (sh : SymHeapCore) (val : Int) : Option Int :=
  if val ≤ 0 then some 0
  else do
    let (valData, _) ← sh.d.valData val
    some valData.offRoot

def neqOp (sh : SymHeapCore) (op : ENeqOp) (valA valB : Int) : Option SymHeapCore := do
  let d1 ← sh.d.neqOpWrap op valA valB
  let sh1 : SymHeapCore := { sh with d := d1 }
  let off ← sh1.valOffset valA
  if off = 0 then some sh1
  else do
    let offB ← sh1.valOffset valB
    if off ≠ offB then some sh1
    else do
      let valA ← sh1.valRoot valA
      let valB ← sh1.valRoot valB
      let d2 ← sh1.d.neqOpWrap op valA valB
      some { sh1 with d := d2 }

def gatherRelatedValues (sh : SymHeapCore) (dst : TValList) (val : Int) : TValList :=
  sh.d.neqDb.gatherRelatedValues dst val

/-- The first loop of `valReplace`: every object of the copied `usedBy` set
gets the value `replaceBy`. -/
def valReplaceObjs (sh : SymHeapCore) (replaceBy : Int) : List Int → Option SymHeapCore
  | [] => some sh
  | obj :: rest => do
    let sh1 ← sh.objSetValue obj replaceBy
    valReplaceObjs sh1 replaceBy rest

/-- The second loop of `valReplace`: each Neq predicate of `val` moves to
`replaceBy`. -/
def valReplaceNeqs (sh : SymHeapCore) (val replaceBy : Int) : List Int → Option SymHeapCore
  | [] => some sh
  | valNeq :: rest => do
    let sh1 ← sh.neqOp NEQ_DEL valNeq val
    let sh2 ← sh1.neqOp NEQ_ADD valNeq replaceBy
    valReplaceNeqs sh2 val replaceBy rest

def valReplace (sh : SymHeapCore) (val replaceBy : Int) : Option SymHeapCore := do
  let (valData, _) ← sh.d.valData val
  let usedBy := valData.usedBy
  let sh1 ← sh.valReplaceObjs replaceBy usedBy
  let sh2 ← sh1.neqOp NEQ_DEL val replaceBy
  let neqs := sh2.d.neqDb.gatherRelatedValues [] val
  sh2.valReplaceNeqs val replaceBy neqs

def heapAlloc (sh : SymHeapCore) (cbSize : Nat) : Option (SymHeapCore × Int) := do
  let (d1, addr) ← sh.d.valCreate VT_ON_HEAP VO_ASSIGNED
  let (rb, rootData) ← d1.rootData addr
  some ({ sh with d := d1.setEnt addr (.Value rb (.RootValue { rootData with addr := addr, cbSize := cbSize })) },
        addr)

def valDestroyTarget (sh : SymHeapCore) (val : Int) : Option (SymHeapCore × Bool) :=
  if VAL_NULL = val then some (sh, false)
  else do
    let (valData, _) ← sh.d.valData val
    if valData.offRoot ≠ 0 ∨ !isPossibleToDeref valData.code then some (sh, false)
    else do
      let d1 ← sh.d.objDestroy val
      some ({ sh with d := d1 }, true)

def valClone (sh : SymHeapCore) (val : Int) : Option (SymHeapCore × Int) := do
  let valData ← sh.d.valData val
  let code := valData.1.code
  if !isPossibleToDeref code then do
    let (d1, dup) ← sh.d.valDup val
    some ({ sh with d := d1 }, dup)
  else do
    let root ← sh.d.valRootOf val valData
    let (d1, dupAt) ← sh.d.objDup root
    valByOffset { sh with d := d1 } dupAt valData.1.offRoot

/-- The template `valMapLookup`: special values need no mapping. -/
def valMapLookup (valMap : List (Int × Int)) (val : Int) : Option Int :=
  if val ≤ VAL_NULL then some val else mapFind val valMap

/-- The loop of `copyRelevantPreds` over the Neq predicates of the source. -/
def copyRelevantPredsLoop (dst : SymHeapCore) (valMap : List (Int × Int)) :
    List (Int × Int) → Option SymHeapCore
  | [] => some dst
  | item :: rest =>
    match valMapLookup valMap item.1, valMapLookup valMap item.2 with
    | some valLt, some valGt => do
      let dst1 ← dst.neqOp NEQ_ADD valLt valGt
      copyRelevantPredsLoop dst1 valMap rest
    | _, _ => copyRelevantPredsLoop dst valMap rest

def copyRelevantPreds (sh dst : SymHeapCore) (valMap : List (Int × Int)) :
    Option SymHeapCore :=
  copyRelevantPredsLoop dst valMap sh.d.neqDb.cont_

/-- The loop of `matchPreds` over the Neq predicates of this heap. -/
def matchPredsLoop (ref : SymHeapCore) (valMap : List (Int × Int)) :
    List (Int × Int) → Bool
  | [] => true
  | item :: rest =>
    match valMapLookup valMap item.1, valMapLookup valMap item.2 with
    | some valLt, some valGt =>
      if !ref.d.neqDb.areNeq valLt valGt then false
      else matchPredsLoop ref valMap rest
    | _, _ => matchPredsLoop ref valMap rest

def matchPreds (sh ref : SymHeapCore) (valMap : List (Int × Int)) : Bool :=
  matchPredsLoop ref valMap sh.d.neqDb.cont_

end SymHeapCore

/-! ## Representation invariants -/

namespace SymHeapCore.Private

def rootCodeOk (code : EValueTarget) : Bool :=
  isKnownObject code || isGone code

/-- The offset bookkeeping of the entity in slot `i`: an `OffValue` has a
non-zero offset, the target code of a known object, and is the value its root
keeps under that offset in `offMap`; every other value has offset zero; the
values a root keeps in `offMap` carry the offset they are kept under. -/
def entOffOk (d : Private) (i : Int) : Bool :=
  match d.ent i with
  | some (.Value b x) =>
    (match x with
     | .OffValue R =>
       decide (b.offRoot ≠ 0) && isKnownObject b.code &&
       (match d.rootData R with
        | some (_, rd) => decide (mapFind b.offRoot rd.offMap = some i)
        | none => false)
     | .RootValue rd =>
       decide (b.offRoot = 0) && rootCodeOk b.code &&
       rd.offMap.all (fun p =>
         match d.valData p.2 with
         | some (b', _) => decide (b'.offRoot = p.1)
         | none => false)
     | _ => decide (b.offRoot = 0) && !isPossibleToDeref b.code)
  | _ => true

/-- The offset bookkeeping of every slot of the entity store. -/
def OffInv (d : Private) : Bool :=
  (List.range d.ents.length).all (fun i => d.entOffOk (i : Int))

end SymHeapCore.Private

/-! ## Example heaps -/

/-- A fresh heap with one heap block of 8 bytes: the heap and the block's
address. -/
def exHeapAlloc : Option (SymHeapCore × Int) := do
  let sh0 ← SymHeapCore.create {}
  sh0.heapAlloc 8

/-- The heap of `exHeapAlloc` after the block was destroyed. -/
def exHeapDestroyed : Option (SymHeapCore × Int) := do
  let (sh1, r) ← exHeapAlloc
  let (sh2, _) ← sh1.valDestroyTarget r
  some (sh2, r)

namespace SymHeapCore

/-- The heap `valByOffset` leaves when it creates a new off-value of the root
`r` at offset `o`. -/
def withOffValue (sh : SymHeapCore) (r : Int) (rb : BaseValue) (rd : RootValue) (o : Int) :
    SymHeapCore :=
  let d1 := sh.d.pushEnt (.Value { code := rb.code, origin := rb.origin, offRoot := o } (.OffValue r))
  let rd1 : RootValue := { rd with offMap := mapSet intLt o (sh.d.ents.length : Int) rd.offMap }
  { sh with d := d1.setEnt r (.Value rb (.RootValue rd1)) }

end SymHeapCore

/-- The heap of `exHeapAlloc`: a live heap block of 8 bytes at address 2. -/
def exAllocHeap : SymHeapCore := (exHeapAlloc.map Prod.fst).getD {}

/-- The heap of `exHeapDestroyed`: the destroyed heap block at address 2. -/
def exDestroyedHeap : SymHeapCore := (exHeapDestroyed.map Prod.fst).getD {}

namespace SymHeapCore

/-- The member `valTarget`; `hasAbstractTarget` is the virtual member that
`SymHeap` overrides. -/
def valTarget (sh : SymHeapCore) (hasAbstractTarget : Int → Bool) (val : Int) :
    Option EValueTarget :=
  if val ≤ 0 then some VT_INVALID
  else if hasAbstractTarget val then some VT_ABSTRACT
  else do
    let valData ← sh.d.valData val
    let off := valData.1.offRoot
    if off < 0 then some VT_UNKNOWN
    else
      let code := valData.1.code
      if !isPossibleToDeref code || decide (off = 0) then some code
      else do
        let valRoot ← sh.d.valRootOf val valData
        let (rb, _) ← sh.d.valData valRoot
        some rb.code

/-- The member `SymHeapCore::proveNeq`.  The helper `moveKnownValueToLeft` of
`symutil.hh` is not among the sources: it is the parameter of the same name,
which returns the two values in the order the helper leaves them in. -/
def proveNeq (sh : SymHeapCore) (moveKnownValueToLeft : SymHeapCore → Int → Int → Int × Int)
    (hasAbstractTarget : Int → Bool) (valA valB : Int) : Option Bool :=
  if VAL_INVALID = valA ∨ VAL_INVALID = valB then some false
  else if valA = valB then some false
  else
    let (valA, valB) := moveKnownValueToLeft sh valA valB
    if VAL_TRUE = valA then some (decide (VAL_FALSE = valB))
    else if sh.d.valOutOfRange valB then none
    else do
      let code ← sh.valTarget hasAbstractTarget valB
      if isKnownObject code then some true
      else if sh.d.neqDb.areNeq valA valB then some true
      else if valA ≤ 0 ∨ valB ≤ 0 then some false
      else do
        let root1 ← sh.d.valRoot valA
        let root2 ← sh.d.valRoot valB
        if root1 = root2 then none
        else do
          let off ← sh.valOffset valA
          if off = 0 then some false
          else do
            let offB ← sh.valOffset valB
            if off ≠ offB then some false
            else some (sh.d.neqDb.areNeq root1 root2)

/-- The member `SymHeapCore::valMerge`. -/
def valMerge (sh : SymHeapCore) (moveKnownValueToLeft : SymHeapCore → Int → Int → Int × Int)
    (hasAbstractTarget : Int → Bool) (val replaceBy : Int) : Option SymHeapCore := do
  let neq ← sh.proveNeq moveKnownValueToLeft hasAbstractTarget val replaceBy
  if neq then none
  else
    let (replaceBy, val) := moveKnownValueToLeft sh replaceBy val
    sh.valReplace val replaceBy

/-- The heaps a freshly constructed heap turns into by the public operations
of `SymHeapCore` that return normally. -/
inductive Reachable : SymHeapCore → Prop where
  | create {stor : Storage} {sh : SymHeapCore} : create stor = some sh → Reachable sh
  | neqOp {sh sh' : SymHeapCore} (op : ENeqOp) (valA valB : Int) :
      Reachable sh → sh.neqOp op valA valB = some sh' → Reachable sh'
  | valReplace {sh sh' : SymHeapCore} (val replaceBy : Int) :
      Reachable sh → sh.valReplace val replaceBy = some sh' → Reachable sh'
  | valMerge {sh sh' : SymHeapCore} (mk : SymHeapCore → Int → Int → Int × Int)
      (abs : Int → Bool) (val replaceBy : Int) :
      Reachable sh → sh.valMerge mk abs val replaceBy = some sh' → Reachable sh'
  | copyRelevantPreds {src sh sh' : SymHeapCore} (valMap : List (Int × Int)) :
      Reachable sh → src.copyRelevantPreds sh valMap = some sh' → Reachable sh'
  | valByOffset {sh sh' : SymHeapCore} (at_ off : Int) (v : Int) :
      Reachable sh → sh.valByOffset at_ off = some (sh', v) → Reachable sh'
  | valClone {sh sh' : SymHeapCore} (val : Int) (v : Int) :
      Reachable sh → sh.valClone val = some (sh', v) → Reachable sh'
  | valDestroyTarget {sh sh' : SymHeapCore} (val : Int) (r : Bool) :
      Reachable sh → sh.valDestroyTarget val = some (sh', r) → Reachable sh'
  | heapAlloc {sh sh' : SymHeapCore} (cbSize : Nat) (v : Int) :
      Reachable sh → sh.heapAlloc cbSize = some (sh', v) → Reachable sh'
  | valCreate {sh : SymHeapCore} {d' : Private} (code : EValueTarget) (origin : EValueOrigin)
      (v : Int) :
      Reachable sh → sh.d.valCreate code origin = some (d', v) → Reachable { sh with d := d' }
  | objSetValue {sh sh' : SymHeapCore} (obj val : Int) :
      Reachable sh → sh.objSetValue obj val = some sh' → Reachable sh'
  | valueOf {sh sh' : SymHeapCore} (obj : Int) (v : Int) :
      Reachable sh → sh.valueOf obj = some (sh', v) → Reachable sh'

end SymHeapCore

/-- A fresh heap. -/
def exFreshHeap : SymHeapCore := (SymHeapCore.create {}).getD {}

/-- A fresh heap after `neqOp(NEQ_ADD, VAL_ADDR_OF_RET, VAL_NULL)`. -/
def exNeqHeap : SymHeapCore := (exFreshHeap.neqOp NEQ_ADD VAL_ADDR_OF_RET VAL_NULL).getD {}

/-! ## Entity updates

The writes of the member functions, as functions on one entity. -/

namespace IHeapEntity

def eraseUsedBy (obj : Int) : IHeapEntity → IHeapEntity
  | .Value b x => .Value { b with usedBy := setErase obj b.usedBy } x
  | e => e

def insertUsedBy (obj : Int) : IHeapEntity → IHeapEntity
  | .Value b x => .Value { b with usedBy := setInsert intLt obj b.usedBy } x
  | e => e

def eraseUsedByGl (obj : Int) : IHeapEntity → IHeapEntity
  | .Value b (.RootValue rd) => .Value b (.RootValue { rd with usedByGl := setErase obj rd.usedByGl })
  | e => e

def insertUsedByGl (obj : Int) : IHeapEntity → IHeapEntity
  | .Value b (.RootValue rd) =>
    .Value b (.RootValue { rd with usedByGl := setInsert intLt obj rd.usedByGl })
  | e => e

def setLive (obj : Int) (isPtr : Bool) : IHeapEntity → IHeapEntity
  | .Value b (.RootValue rd) =>
    .Value b (.RootValue { rd with liveObjs := mapSet intLt obj isPtr rd.liveObjs })
  | e => e

def setValue (val : Int) : IHeapEntity → IHeapEntity
  | .HeapObject o => .HeapObject { o with value := val }
  | e => e

/-- The `usedBy` set of a value entity. -/
def usedBy : IHeapEntity → TUsedBy
  | .Value b _ => b.usedBy
  | _ => []

/-- The `usedByGl` set of a root entity. -/
def usedByGl : IHeapEntity → TUsedBy
  | .Value _ (.RootValue rd) => rd.usedByGl
  | _ => []

/-- The entity without its `usedBy` and `usedByGl` sets, its live objects and
the value it holds: what `objSetValue` never changes. -/
def skel : IHeapEntity → IHeapEntity
  | .HeapObject o => .HeapObject { o with value := 0 }
  | .Value b (.RootValue rd) =>
    .Value { b with usedBy := [] } (.RootValue { rd with usedByGl := [], liveObjs := [] })
  | .Value b x => .Value { b with usedBy := [] } x

end IHeapEntity

namespace SymHeapCore.Private

/-- The write `f` through the pointer held by slot `id`. -/
def modEnt (d : Private) (id : Int) (f : IHeapEntity → IHeapEntity) : Private :=
  match d.ent id with
  | some e => d.setEnt id (f e)
  | none => d

end SymHeapCore.Private

namespace SymHeapCore.Private

/-- Two states of the entity store with the same slots and, slot by slot, the
same entity up to the `usedBy` and `usedByGl` sets, the live objects and the
values held. -/
def SameSkel (d d' : Private) : Prop :=
  d'.ents.length = d.ents.length ∧
  ∀ j : Int, (d'.ent j).map IHeapEntity.skel = (d.ent j).map IHeapEntity.skel

end SymHeapCore.Private

namespace SymHeapCore.Private

/-- The state `releaseValueOf(obj, old)` leaves: `R` is the root of `old` and
`derefR` tells whether the root's target is possible to dereference. -/
def released (d : Private) (obj old R : Int) (derefR : Bool) : Private :=
  if old ≤ 0 then d
  else if derefR then
    (d.modEnt old (IHeapEntity.eraseUsedBy obj)).modEnt R (IHeapEntity.eraseUsedByGl obj)
  else d.modEnt old (IHeapEntity.eraseUsedBy obj)

/-- The state the second half of `setValueOf(obj, val)` leaves: `Rw` is the
root of `val` and `derefW` tells whether the target of `val` is possible to
dereference. -/
def written (d : Private) (obj val Rw : Int) (derefW : Bool) : Private :=
  if val ≤ 0 then d.modEnt obj (IHeapEntity.setValue val)
  else if derefW then
    (((d.modEnt obj (IHeapEntity.setValue val)).modEnt val (IHeapEntity.insertUsedBy obj)).modEnt Rw
      (IHeapEntity.insertUsedByGl obj))
  else (d.modEnt obj (IHeapEntity.setValue val)).modEnt val (IHeapEntity.insertUsedBy obj)

end SymHeapCore.Private

namespace SymHeapCore.Private

/-- The `usedBy` set of the value in slot `j` (empty when there is none). -/
def usedByAt (d : Private) (j : Int) : TUsedBy :=
  match d.ent j with
  | some e => e.usedBy
  | none => []

/-- The `usedByGl` set of the root in slot `j` (empty when there is none). -/
def usedByGlAt (d : Private) (j : Int) : TUsedBy :=
  match d.ent j with
  | some e => e.usedByGl
  | none => []

end SymHeapCore.Private

namespace SymHeapCore

/-- What `releaseValueOf(obj, val)` needs of the value `val` it releases: `val`
is a special value, or a value that lists `obj` in `usedBy` and whose root, if
its target is possible to dereference, lists `obj` in `usedByGl`. -/
def Releasable (d : Private) (obj val : Int) : Prop :=
  0 < val → ∃ b x R rb rx, d.valData val = some (b, x) ∧ obj ∈ b.usedBy ∧
    d.valRootOf val (b, x) = some R ∧ d.valData R = some (rb, rx) ∧
    (isPossibleToDeref rb.code = true → ∃ rd, rx = .RootValue rd ∧ obj ∈ rd.usedByGl)

/-- What `setValueOf(obj, val)` needs of the value `val` it stores: `val` is a
special value, or a value whose root, if the target of `val` is possible to
dereference, is a root entity. -/
def Storable (d : Private) (val : Int) : Prop :=
  0 < val → ∃ wb wx, d.valData val = some (wb, wx) ∧
    (isPossibleToDeref wb.code = true →
      ∃ Rw, d.valRootOf val (wb, wx) = some Rw ∧ (d.rootData Rw).isSome = true)

end SymHeapCore

namespace SymHeapCore

/-- What the first loop of `valReplace(v, w)` needs with the objects `rest`
still to visit: `v` is a value whose `usedBy` set is `rest`; each object of
`rest` holds `v`, has a scalar type and a root; the root of `v`, if its target
is possible to dereference, lists the objects of `rest` in `usedByGl`; and `w`
can be stored. -/
def ReplaceReady (sh : SymHeapCore) (v w : Int) (rest : List Int) : Prop :=
  (∃ b x R rb rx, sh.d.valData v = some (b, x) ∧ b.usedBy = rest ∧
      sh.d.valRootOf v (b, x) = some R ∧ sh.d.valData R = some (rb, rx) ∧
      (isPossibleToDeref rb.code = true →
        ∃ rd, rx = .RootValue rd ∧ ∀ obj ∈ rest, obj ∈ rd.usedByGl)) ∧
  Storable sh.d w ∧ rest.Nodup ∧
  ∀ obj ∈ rest, ∃ o, sh.d.objData obj = some o ∧ o.value = v ∧
    isComposite sh.stor_ o.clt = false ∧ (sh.d.rootData o.root).isSome = true

end SymHeapCore

namespace SymHeapCore

/-- The pair of roots to which `neqOp(op, valA, valB)` propagates the
operation: present when both values have the same non-zero offset. -/
def crossRoots (sh : SymHeapCore) (valA valB : Int) : Option (Int × Int) :=
  match sh.valOffset valA with
  | none => none
  | some off =>
    if off = 0 then none
    else
      match sh.valOffset valB with
      | none => none
      | some offB =>
        if off ≠ offB then none
        else
          match sh.valRoot valA, sh.valRoot valB with
          | some ra, some rb => some (ra, rb)
          | _, _ => none

/-- A handle that `valOffset` accepts: a special value or a value of the
heap. -/
def validVal (d : Private) (val : Int) : Bool :=
  decide (val ≤ 0) || (d.valData val).isSome

end SymHeapCore

namespace SymHeapCore.Private

/-- What the offset bookkeeping says about a value with a non-zero offset: it
is an `OffValue`, and its root keeps it in `offMap` under that offset. -/
def OffFacts (d : Private) : Prop :=
  ∀ (a : Int) (b : BaseValue) (x : ValueExt), d.valData a = some (b, x) →
    (b.offRoot ≠ 0 →
      ∃ R rb rd, x = .OffValue R ∧ d.rootData R = some (rb, rd) ∧
        mapFind b.offRoot rd.offMap = some a) ∧
    (isPossibleToDeref b.code = true → b.offRoot = 0 → ∃ rd, x = .RootValue rd)

end SymHeapCore.Private

namespace NeqDb

/-- The store after `neqOpWrap(op, a, b)` with `a != b`. -/
def applyOp (db : NeqDb) (op : ENeqOp) (a b : Int) : NeqDb :=
  match op with
  | NEQ_NOP => db
  | NEQ_ADD => { cont_ := setInsert pairLt (sortValues a b) db.cont_ }
  | NEQ_DEL => { cont_ := setErase (sortValues a b) db.cont_ }

end NeqDb

namespace SymHeapCore

/-- The heap with another disequality store. -/
def withNeqDb (sh : SymHeapCore) (db : NeqDb) : SymHeapCore :=
  { sh with d := { sh.d with neqDb := db } }

/-- The store `neqOp(op, a, b)` leaves on valid values `a != b`. -/
def neqDbAfter (sh : SymHeapCore) (op : ENeqOp) (a b : Int) : NeqDb :=
  match sh.crossRoots a b with
  | none => sh.d.neqDb.applyOp op a b
  | some (ra, rb) => (sh.d.neqDb.applyOp op a b).applyOp op ra rb

end SymHeapCore

namespace NeqDb

/-- Each pair of the store has the smaller value first. -/
def ordered (db : NeqDb) : Bool :=
  db.cont_.all (fun p => decide (p.1 < p.2))

end NeqDb

namespace SymHeapCore.Private

/-- The use bookkeeping of the entity in slot `i`.  An object has a root
entity as its root, and the value it holds, unless special, is a value that
lists the object in `usedBy` and whose root, if its target is possible to
dereference, lists the object in `usedByGl`.  A value lists in `usedBy`, once
each, objects that hold it. -/
def entUseOk (d : Private) (i : Int) : Bool :=
  match d.ent i with
  | some (.HeapObject o) =>
    (d.rootData o.root).isSome &&
    (decide (o.value ≤ 0) ||
      match d.valData o.value with
      | some (b, x) =>
        decide (i ∈ b.usedBy) &&
        (match d.valRootOf o.value (b, x) with
         | some R =>
           (match d.valData R with
            | some (rb, rx) =>
              !isPossibleToDeref rb.code ||
              (match rx with
               | .RootValue rd => decide (i ∈ rd.usedByGl)
               | _ => false)
            | none => false)
         | none => false)
      | none => false)
  | some (.Value b _) =>
    decide b.usedBy.Nodup &&
    b.usedBy.all (fun obj =>
      match d.objData obj with
      | some o => decide (o.value = i)
      | none => false)
  | none => true

/-- The use bookkeeping of every slot of the entity store. -/
def UseInv (d : Private) : Bool :=
  (List.range d.ents.length).all (fun i => d.entUseOk (i : Int))

/-- Every value the disequality store mentions is a special value or a value
of the heap. -/
def neqValid (d : Private) : Bool :=
  d.neqDb.cont_.all (fun p => SymHeapCore.validVal d p.1 && SymHeapCore.validVal d p.2)

end SymHeapCore.Private

namespace SymHeapCore

/-- The representation invariant of a heap: the offset bookkeeping, the use
bookkeeping, and a disequality store of ordered pairs of valid values. -/
def HeapInv (sh : SymHeapCore) : Bool :=
  sh.d.OffInv && sh.d.UseInv && sh.d.neqValid && sh.d.neqDb.ordered

end SymHeapCore

namespace SymHeapCore

/-- Every object of `objs` is an object of scalar type. -/
def holdersScalar (sh : SymHeapCore) (objs : List Int) : Bool :=
  objs.all (fun obj =>
    match sh.d.objData obj with
    | some o => !isComposite sh.stor_ o.clt
    | none => false)

end SymHeapCore

/-- A heap with a heap block at address 2, a clone of it at address 4 whose
object 3 holds the unknown value 5. -/
def exHolderHeap : SymHeapCore :=
  (do
    let sh0 ← SymHeapCore.create {}
    let (sh1, r) ← sh0.heapAlloc 8
    let (sh2, _) ← sh1.valClone r
    let (d3, v) ← sh2.d.valCreate VT_UNKNOWN VO_ASSIGNED
    let sh3 : SymHeapCore := { sh2 with d := d3 }
    sh3.objSetValue 3 v).getD {}

namespace SymHeapCore

/-- None of the `neqOp` calls of `valReplace(v, w)` propagates to a pair of
roots: `v` shares no non-zero offset with `w` or with a value recorded
distinct from `v`, and `w` shares none with such a value. -/
def noCross (sh : SymHeapCore) (v w : Int) : Bool :=
  (sh.crossRoots v w).isNone &&
  (sh.d.neqDb.gatherRelatedValues [] v).all (fun x =>
    (sh.crossRoots x v).isNone && (sh.crossRoots x w).isNone)

end SymHeapCore

/-- A heap with two heap blocks, at the addresses 2 and 3. -/
def exTwoBlocks : SymHeapCore :=
  (do
    let sh0 ← SymHeapCore.create {}
    let (sh1, _) ← sh0.heapAlloc 8
    let (sh2, _) ← sh1.heapAlloc 8
    some sh2).getD {}

/-- The heap `exTwoBlocks` with the fact that block 2 is not `VAL_NULL`. -/
def exNeqNullHeap : SymHeapCore := (exTwoBlocks.neqOp NEQ_ADD 2 VAL_NULL).getD {}

/-- The heap `exTwoBlocks` with the fact that the blocks 2 and 3 differ. -/
def exNeqPairHeap : SymHeapCore := (exTwoBlocks.neqOp NEQ_ADD 2 3).getD {}

/-! ## Typed objects, the grid and program variables -/

namespace SymHeapCore.Private

/-- The member `gridLookup`: the row of the grid the value `val` points at
(right), or the fail code (left). -/
def gridLookup (d : Private) (val : Int) : Option (Int ⊕ TObjByType) :=
  if val ≤ 0 then some (.inl OBJ_INVALID)
  else do
    let valData ← d.valData val
    let code := valData.1.code
    if code = VT_UNKNOWN then some (.inl OBJ_UNKNOWN)
    else if !isPossibleToDeref code then some (.inl OBJ_INVALID)
    else do
      let valRoot ← d.valRootOf val valData
      let (_, rootData) ← d.rootData valRoot
      if rootData.grid.isEmpty then none
      else
        match mapFind valData.1.offRoot rootData.grid with
        | none => some (.inl OBJ_UNKNOWN)
        | some row => if row.isEmpty then none else some (.inr row)

/-- The inner loop of `subsCreate`: one sub-object per member of a composite
type, each pushed on the stack `todo` (its head is the top). -/
def subsCreateItems (d : Private) (rootAt : Int) (offRoot : Int) :
    List ClTypeItem → List (Int × TObjType) → Option (Private × List (Int × TObjType))
  | [], todo => some (d, todo)
  | item :: rest, todo => do
    let subClt := item.type
    let (d1, subObj) := d.objCreate
    let subData ← d1.objData subObj
    let offTotal := offRoot + item.offset
    let d2 := d1.setEnt subObj
      (.HeapObject { subData with clt := subClt, root := rootAt, off := offTotal })
    let (rb, rootData) ← d2.rootData rootAt
    let d3 := d2.setEnt rootAt
      (.Value rb (.RootValue { rootData with
        grid := gridSet rootData.grid offTotal subClt subObj,
        allObjs := rootData.allObjs ++ [subObj] }))
    subsCreateItems d3 rootAt offRoot rest ((subObj, subClt) :: todo)

/-- The loop `while (!todo.empty())` of `subsCreate`, run for at most `fuel`
iterations: `none` when the stack is not empty by then. -/
def subsCreateLoop (stor : Storage) (rootAt : Int) :
    Nat → Private → List (Int × TObjType) → Option Private
  | _, d, [] => some d
  | 0, _, _ :: _ => none
  | fuel + 1, d, (obj, clt) :: todo =>
    match stor.cltData clt with
    | none => none
    | some t =>
      if !isComposite stor clt then subsCreateLoop stor rootAt fuel d todo
      else do
        let objData ← d.objData obj
        let (d1, todo1) ← subsCreateItems d rootAt objData.off t.items todo
        subsCreateLoop stor rootAt fuel d1 todo1

/-- The member `subsCreate`; `fuel` bounds the iterations of its loop. -/
def subsCreate (d : Private) (stor : Storage) (fuel : Nat) (rootAt : Int) : Option Private := do
  let d1 : Private := { d with liveRoots := setInsert intLt rootAt d.liveRoots }
  let (rb, rootData) ← d1.rootData rootAt
  let clt := rootData.lastKnownClt
  let t ← stor.cltData clt
  match rootData.allObjs with
  | [obj] =>
    let d2 := d1.setEnt rootAt
      (.Value rb (.RootValue { rootData with
        cbSize := t.size.toNat, grid := gridSet rootData.grid 0 clt obj }))
    subsCreateLoop stor rootAt fuel d2 [(obj, clt)]
  | _ => none

/-- The member `CVarMap::find`. -/
def cVarMapFind (cont : List (CVar × Int)) (cVar : CVar) : Option Int :=
  let iter := mapFind cVar cont
  if cVar.inst = 0 then some (iter.getD VAL_INVALID)
  else
    match iter, mapFind ({ cVar with inst := 0 } : CVar) cont with
    | none, none => some VAL_INVALID
    | some _, some _ => none
    | some v, none => some v
    | none, some v => some v

/-- The member `CVarMap::insert`. -/
def cVarMapInsert (cont : List (CVar × Int)) (cVar : CVar) (val : Int) :
    Option (List (CVar × Int)) :=
  match mapFind cVar cont with
  | some _ => none
  | none => some (mapSet cVarLt cVar val cont)

end SymHeapCore.Private

namespace SymHeapCore

def ptrAtRow (stor : Storage) : TObjByType → Option Int
  | [] => some OBJ_UNKNOWN
  | (clt, obj) :: rest =>
    match stor.cltData clt with
    | none => ptrAtRow stor rest
    | some t =>
      if t.code ≠ CL_TYPE_PTR then ptrAtRow stor rest
      else
        match targetTypeOfPtr stor clt with
        | none => none
        | some cltTarget =>
          if CL_TYPE_FNC ≠ cltTarget.code then some obj else ptrAtRow stor rest

def ptrAt (sh : SymHeapCore) (at_ : Int) : Option Int := do
  match (← sh.d.gridLookup at_) with
  | .inl failCode => some failCode
  | .inr row => ptrAtRow sh.stor_ row

/-- The loop of the semantic match of `objAt(at, clt)`: the first object of
the row whose type descriptor equals the given one. -/
def objAtSemantic (stor : Storage) (t : ClType) : TObjByType → Int
  | [] => OBJ_UNKNOWN
  | (cltItem, obj) :: rest =>
    match stor.cltData cltItem with
    | some ti => if ti = t then obj else objAtSemantic stor t rest
    | none => objAtSemantic stor t rest

/-- The tail of `objAt(at, clt)` after the grid lookup: the exact match of the
row, else the semantic match. -/
def objAtRow (stor : Storage) (clt : TObjType) : Int ⊕ TObjByType → Int
  | .inl failCode => failCode
  | .inr row =>
    match mapFind clt row with
    | some obj => obj
    | none =>
      match stor.cltData clt with
      | none => OBJ_UNKNOWN
      | some t => objAtSemantic stor t row

/-- The overload `objAt(TValId, TObjType)`. -/
def objAt (sh : SymHeapCore) (at_ : Int) (clt : TObjType) : Option Int :=
  match sh.stor_.cltData clt with
  | none => (sh.d.gridLookup at_).map (objAtRow sh.stor_ clt)
  | some t =>
    if t.code = CL_TYPE_PTR then
      match targetTypeOfPtr sh.stor_ clt with
      | none => none
      | some cltTarget =>
        if CL_TYPE_FNC ≠ cltTarget.code then sh.ptrAt at_
        else (sh.d.gridLookup at_).map (objAtRow sh.stor_ clt)
    else (sh.d.gridLookup at_).map (objAtRow sh.stor_ clt)

def placedAt (sh : SymHeapCore) (obj : Int) : Option (SymHeapCore × Int) :=
  if obj < 0 then some (sh, VAL_INVALID)
  else do
    let objData ← sh.d.objData obj
    let (_, rootData) ← sh.d.rootData objData.root
    let addr := rootData.addr
    if addr ≤ 0 then none
    else sh.valByOffset addr objData.off

def objType (sh : SymHeapCore) (obj : Int) : Option TObjType :=
  if obj < 0 then some none
  else do
    let objData ← sh.d.objData obj
    some objData.clt

def gatherLiveObjects (sh : SymHeapCore) (dst : TObjList) (root : Int) : Option TObjList := do
  let (_, rootData) ← sh.d.rootData root
  some (dst ++ rootData.liveObjs.map Prod.fst)

def gatherCVars (sh : SymHeapCore) (dst : List CVar) : List CVar :=
  dst ++ sh.d.cVarMap.map Prod.fst

/-- The member `addrOfVar`; `fuel` bounds the loop of `subsCreate` when the
variable is created. -/
def addrOfVar (sh : SymHeapCore) (fuel : Nat) (cv : CVar) : Option (SymHeapCore × Int) := do
  let addr ← Private.cVarMapFind sh.d.cVarMap cv
  if 0 < addr then some (sh, addr)
  else do
    let var ← mapFind cv.uid sh.stor_.vars
    let clt := var.type
    let t ← sh.stor_.cltData clt
    if t.code = CL_TYPE_VOID then none
    else do
      let (d1, root) := sh.d.objCreate
      let objData ← d1.objData root
      let code := if var.isOnStack then VT_ON_STACK else VT_STATIC
      let (d2, addr) ← d1.valCreate code VO_ASSIGNED
      let d3 := d2.setEnt root (.HeapObject { objData with clt := clt, root := addr })
      let (rb, rootData) ← d3.rootData addr
      let d4 := d3.setEnt addr
        (.Value rb (.RootValue { rootData with
          cVar := cv, addr := addr, lastKnownClt := clt, allObjs := rootData.allObjs ++ [root] }))
      let d5 ← d4.subsCreate sh.stor_ fuel addr
      let cVarMap ← Private.cVarMapInsert d5.cVarMap cv addr
      some ({ sh with d := { d5 with cVarMap := cVarMap } }, addr)

/-- The member `valSetLastKnownTypeOfTarget`; `fuel` bounds the loop of
`subsCreate`. -/
def valSetLastKnownTypeOfTarget (sh : SymHeapCore) (fuel : Nat) (root : Int) (clt : TObjType) :
    Option SymHeapCore := do
  let _ ← sh.d.rootData root
  let d1 ← if VAL_ADDR_OF_RET = root then sh.d.objDestroy root else some sh.d
  let (d2, obj) := d1.objCreate
  let d3 ← if VAL_ADDR_OF_RET = root then do
      let (rb, rd) ← d2.rootData root
      some (d2.setEnt root (.Value { rb with code := VT_ON_STACK } (.RootValue rd)))
    else some d2
  let objData ← d3.objData obj
  let d4 := d3.setEnt obj (.HeapObject { objData with root := root, clt := clt })
  let (rb, rootData) ← d4.rootData root
  let d5 := d4.setEnt root
    (.Value rb (.RootValue { rootData with
      allObjs := rootData.allObjs ++ [obj], lastKnownClt := clt }))
  let d6 ← d5.subsCreate sh.stor_ fuel root
  some { sh with d := d6 }

def valCreateCustom (sh : SymHeapCore) (cVal : Int) : Option (SymHeapCore × Int) :=
  match mapFind cVal sh.d.cValueMap with
  | some v => some (sh, v)
  | none => do
    let (d1, val) ← sh.d.valCreate VT_CUSTOM VO_ASSIGNED
    match d1.ent val with
    | some (.Value b (.CustomValue _)) =>
      let d2 := d1.setEnt val (.Value b (.CustomValue cVal))
      some ({ sh with d := { d2 with cValueMap := mapSet intLt cVal val d2.cValueMap } }, val)
    | _ => none

def valGetCustom (sh : SymHeapCore) (val : Int) : Option Int := do
  let valData ← sh.d.valData val
  if VT_CUSTOM ≠ valData.1.code then none
  else
    match valData.2 with
    | .CustomValue customData => some customData
    | _ => none

def valTargetIsProto (sh : SymHeapCore) (val : Int) : Option Bool :=
  if val ≤ 0 then some false
  else do
    let valData ← sh.d.valData val
    if !isPossibleToDeref valData.1.code then some false
    else do
      let root ← sh.d.valRootOf val valData
      let (_, rootData) ← sh.d.rootData root
      some rootData.isProto

end SymHeapCore
/-! ## `SymHeap`: abstract objects -/

/-- Modelled from the spec: the binding offsets of a segment (`struct
BindingOff` of `symheap.hh`, which is not among the sources): the offset of the
head, of the forward pointer `next`, and of the pointer `prev`, which in a
doubly-linked segment is the selector of the peer (`segClone` of `symseg.cc`). -/
structure BindingOff where
  head : Int := 0
  next : Int := 0
  prev : Int := 0
  deriving DecidableEq, Repr

/-- The record `SymHeap::Private::AbstractObject`. -/
structure AbstractObject where
  kind : EObjKind := OK_CONCRETE
  off : BindingOff := {}
  deriving DecidableEq, Repr

/-- The class `SymHeap`: the base class and the map `SymHeap::Private::data`. -/
structure SymHeap extends SymHeapCore where
  data : List (Int × AbstractObject) := []
  deriving DecidableEq, Repr

namespace SymHeap

/-- The heap with the base-class part replaced. -/
def withCore (sh : SymHeap) (core : SymHeapCore) : SymHeap :=
  { sh with toSymHeapCore := core }

def valTargetKind (sh : SymHeap) (val : Int) : Option EObjKind :=
  if val ≤ 0 then some OK_CONCRETE
  else do
    let valRoot ← sh.toSymHeapCore.valRoot val
    match mapFind valRoot sh.data with
    | some ao => some ao.kind
    | none => some OK_CONCRETE

def hasAbstractTarget (sh : SymHeap) (val : Int) : Option Bool := do
  let kind ← sh.valTargetKind val
  some (decide (OK_CONCRETE ≠ kind))

/-- The member `valTarget` of the base class, with `hasAbstractTarget` as
overridden by `SymHeap`. -/
def valTarget (sh : SymHeap) (val : Int) : Option EValueTarget :=
  if val ≤ 0 then some VT_INVALID
  else do
    let abs ← sh.hasAbstractTarget val
    sh.toSymHeapCore.valTarget (fun _ => abs) val

def segBinding (sh : SymHeap) (at_ : Int) : Option BindingOff := do
  let valRoot ← sh.toSymHeapCore.valRoot at_
  match mapFind valRoot sh.data with
  | some ao => some ao.off
  | none => none

def valTargetSetAbstract (sh : SymHeap) (at_ : Int) (kind : EObjKind) (off : BindingOff) :
    Option SymHeap := do
  let valRoot ← sh.toSymHeapCore.valRoot at_
  match mapFind valRoot sh.data with
  | some aoData =>
    if OK_SLS = kind then
      if OK_MAY_EXIST ≠ aoData.kind ∨ off ≠ aoData.off then none
      else some { sh with data := mapSet intLt valRoot { aoData with kind := kind } sh.data }
    else none
  | none =>
    if OK_CONCRETE = kind then none
    else some { sh with data := mapSet intLt valRoot { kind := kind, off := off } sh.data }

def valTargetSetConcrete (sh : SymHeap) (at_ : Int) : Option SymHeap := do
  let valRoot ← sh.toSymHeapCore.valRoot at_
  match mapFind valRoot sh.data with
  | some _ => some { sh with data := mapErase valRoot sh.data }
  | none => none

end SymHeap

/-! ## Segments (`symseg.cc`)

The inline helpers of `symseg.hh` are not among the sources.  The functions of
`symseg.cc` are written against a later interface of the heap, where the kind
of a segment is `objKind(objByAddr(seg))`; over the heap of `symheap.cc` that is
`valTargetKind(seg)`. -/

/-- Modelled from the spec: `isAbstractValue` of `symseg.hh` (not among the
sources): the target of the value is classified as abstract. -/
def isAbstractValue (sh : SymHeap) (val : Int) : Option Bool := do
  let code ← sh.valTarget val
  some (decide (code = VT_ABSTRACT))

/-- Modelled from the spec: `segHeadAt` of `symseg.hh` (not among the
sources): the head address of a segment, the address of the root shifted by
the binding offset `head`. -/
def segHeadAt (sh : SymHeap) (seg : Int) : Option (SymHeap × Int) := do
  let off ← sh.segBinding seg
  let (core, head) ← sh.toSymHeapCore.valByOffset seg off.head
  some (sh.withCore core, head)

/-- Modelled from the spec: `nextPtrFromSeg` of `symseg.hh` (not among the
sources): the forward pointer of a segment, the pointer object at the binding
offset `next` of the root. -/
def nextPtrFromSeg (sh : SymHeap) (seg : Int) : Option (SymHeap × Int) := do
  let off ← sh.segBinding seg
  let (core, addr) ← sh.toSymHeapCore.valByOffset seg off.next
  let ptr ← core.ptrAt addr
  some (sh.withCore core, ptr)

/-- Modelled from the spec: `dlSegPeer` of `symseg.hh` (not among the
sources): the peer root of a doubly-linked segment, the root of the value held
by the pointer object at the binding offset `prev` (the peer selector that
`segClone` of `symseg.cc` sets to the head address of the peer). -/
def dlSegPeer (sh : SymHeap) (dls : Int) : Option (SymHeap × Int) := do
  let off ← sh.segBinding dls
  let (core, addr) ← sh.toSymHeapCore.valByOffset dls off.prev
  let ptr ← core.ptrAt addr
  let (core1, peer) ← core.valueOf ptr
  let root ← core1.valRoot peer
  some (sh.withCore core1, root)

/-- Modelled from the spec: `nextValFromSeg` of `symseg.hh` (not among the
sources): the value of the forward pointer of a segment. -/
def nextValFromSeg (sh : SymHeap) (seg : Int) : Option (SymHeap × Int) := do
  let (sh1, ptr) ← nextPtrFromSeg sh seg
  let (core, val) ← sh1.toSymHeapCore.valueOf ptr
  some (sh1.withCore core, val)

/-- The function `haveSeg` of `symseg.cc`. -/
def haveSeg (sh : SymHeap) (atAddr pointingTo : Int) (kind : EObjKind) :
    Option (SymHeap × Bool) := do
  if !(← isAbstractValue sh atAddr) then some (sh, false)
  else do
    let seg ← sh.toSymHeapCore.valRoot atAddr
    if kind ≠ (← sh.valTargetKind seg) then some (sh, false)
    else if OK_DLS = kind then do
      let (sh1, seg) ← dlSegPeer sh seg
      if OK_DLS ≠ (← sh1.valTargetKind seg) then some (sh1, false)
      else do
        let (sh2, valNext) ← nextValFromSeg sh1 seg
        some (sh2, decide (valNext = pointingTo))
    else do
      let (sh2, valNext) ← nextValFromSeg sh seg
      some (sh2, decide (valNext = pointingTo))

/-- The function `haveDlSegAt` of `symseg.cc`. -/
def haveDlSegAt (sh : SymHeap) (atAddr peerAddr : Int) : Option (SymHeap × Bool) :=
  if atAddr ≤ 0 ∨ peerAddr ≤ 0 then some (sh, false)
  else do
    if !(← isAbstractValue sh atAddr) then some (sh, false)
    else if !(← isAbstractValue sh peerAddr) then some (sh, false)
    else do
      let seg ← sh.toSymHeapCore.valRoot atAddr
      if OK_DLS ≠ (← sh.valTargetKind seg) then some (sh, false)
      else do
        let (sh1, peer) ← dlSegPeer sh seg
        if OK_DLS ≠ (← sh1.valTargetKind peer) then some (sh1, false)
        else do
          let (sh2, head) ← segHeadAt sh1 peer
          some (sh2, decide (head = peerAddr))

namespace SymHeap

/-- The base-class member `SymHeapCore::neqOp` called on a `SymHeap`. -/
def coreNeqOp (sh : SymHeap) (op : ENeqOp) (valA valB : Int) : Option SymHeap := do
  let core ← sh.toSymHeapCore.neqOp op valA valB
  some (sh.withCore core)

def dlSegCrossNeqOp (sh : SymHeap) (op : ENeqOp) (seg1 : Int) : Option SymHeap := do
  let seg1 ← sh.toSymHeapCore.valRoot seg1
  let (sh, seg2) ← dlSegPeer sh seg1
  let (sh, ptr1) ← nextPtrFromSeg sh seg1
  let (core, val1) ← sh.toSymHeapCore.valueOf ptr1
  let sh := sh.withCore core
  let (sh, ptr2) ← nextPtrFromSeg sh seg2
  let (core, val2) ← sh.toSymHeapCore.valueOf ptr2
  let sh := sh.withCore core
  let (sh, head2) ← segHeadAt sh seg2
  let sh ← sh.coreNeqOp op val1 head2
  let (sh, head1) ← segHeadAt sh seg1
  let sh ← sh.coreNeqOp op val2 head1
  if NEQ_DEL = op then sh.coreNeqOp NEQ_DEL seg1 seg2
  else some sh

/-- The branch of `neqOp` taken when the operands are not the two ends of one
doubly-linked segment (or the operation is not `NEQ_ADD`). -/
def neqOpSeg (sh : SymHeap) (op : ENeqOp) (valA valB : Int) : Option SymHeap := do
  let (sh1, seg) ← haveSeg sh valA valB OK_DLS
  if seg then sh1.dlSegCrossNeqOp op valA
  else do
    let (sh2, seg) ← haveSeg sh1 valB valA OK_DLS
    if seg then sh2.dlSegCrossNeqOp op valB
    else sh2.coreNeqOp op valA valB

def neqOp (sh : SymHeap) (op : ENeqOp) (valA valB : Int) : Option SymHeap :=
  if NEQ_ADD = op then do
    let (sh1, dls) ← haveDlSegAt sh valA valB
    if dls then do
      let sh2 ← sh1.dlSegCrossNeqOp op valA
      sh2.coreNeqOp op valA valB
    else sh1.neqOpSeg op valA valB
  else sh.neqOpSeg op valA valB

end SymHeap

/-! ## Doubly-linked segment pairs -/

/-- The addresses and values `dlSegCrossNeqOp` reads from a doubly-linked
segment pair. -/
structure DlsView where
  seg1 : Int
  seg2 : Int
  ptr1 : Int
  ptr2 : Int
  val1 : Int
  val2 : Int
  head1 : Int
  head2 : Int
  deriving DecidableEq, Repr

/-- A resolved doubly-linked segment pair at the addresses `a` and `b`: `a`
points into the segment root `seg1`, `b` is the head address of its peer
`seg2`, and the peer selectors, the forward pointers with their values and the
head addresses of both ends exist in the heap, so that reading them creates
nothing. -/
structure DlsPair (sh : SymHeap) (a b : Int) (w : DlsView) : Prop where
  dls : haveDlSegAt sh a b = some (sh, true)
  root : sh.toSymHeapCore.valRoot a = some w.seg1
  peer : dlSegPeer sh w.seg1 = some (sh, w.seg2)
  next1 : nextPtrFromSeg sh w.seg1 = some (sh, w.ptr1)
  value1 : sh.toSymHeapCore.valueOf w.ptr1 = some (sh.toSymHeapCore, w.val1)
  next2 : nextPtrFromSeg sh w.seg2 = some (sh, w.ptr2)
  value2 : sh.toSymHeapCore.valueOf w.ptr2 = some (sh.toSymHeapCore, w.val2)
  head1 : segHeadAt sh w.seg1 = some (sh, w.head1)
  head2 : segHeadAt sh w.seg2 = some (sh, w.head2)
  valid : (SymHeapCore.validVal sh.d w.val1 && SymHeapCore.validVal sh.d w.val2
    && SymHeapCore.validVal sh.d w.head1 && SymHeapCore.validVal sh.d w.head2
    && SymHeapCore.validVal sh.d a && SymHeapCore.validVal sh.d b) = true

namespace SymHeap

/-- The heap with another disequality store. -/
def withNeqDb (sh : SymHeap) (db : NeqDb) : SymHeap :=
  sh.withCore (sh.toSymHeapCore.withNeqDb db)

end SymHeap

/-- The type table of the example heaps: a list node of two pointers, `next`
at offset 0 and `prev` at offset 8, the pointer to it, and an integer. -/
def exStor : Storage :=
  { types := [{ code := CL_TYPE_STRUCT, size := 16,
                items := [{ type := some 1, offset := 0 }, { type := some 1, offset := 8 }] },
              { code := CL_TYPE_PTR, size := 8, items := [{ type := some 0, offset := 0 }] },
              { code := CL_TYPE_INT, size := 4 }] }

/-- The binding of the example segments: head 0, `next` at 0, peer selector at 8. -/
def exBinding : BindingOff := { head := 0, next := 0, prev := 8 }

/-- Two heap blocks of the node type at the addresses 2 and 6, made the two
ends of one doubly-linked segment: the peer selectors (objects 5 and 9) point
at the head of the other end, the forward pointers (objects 4 and 8) are null. -/
def exDlsBuild : Option SymHeap := do
  let sh0 ← SymHeapCore.create exStor
  let (sh1, r1) ← sh0.heapAlloc 16
  let sh2 ← sh1.valSetLastKnownTypeOfTarget 8 r1 (some 0)
  let (sh3, r2) ← sh2.heapAlloc 16
  let sh4 ← sh3.valSetLastKnownTypeOfTarget 8 r2 (some 0)
  let (sh5, _) ← sh4.valByOffset r1 8
  let (sh6, _) ← sh5.valByOffset r2 8
  let sh7 ← sh6.objSetValue 5 r2
  let sh8 ← sh7.objSetValue 9 r1
  let sh9 ← sh8.objSetValue 4 VAL_NULL
  let sh10 ← sh9.objSetValue 8 VAL_NULL
  let sh11 ← ({ toSymHeapCore := sh10 } : SymHeap).valTargetSetAbstract r1 OK_DLS exBinding
  sh11.valTargetSetAbstract r2 OK_DLS exBinding

def exDlsHeap : SymHeap := exDlsBuild.getD {}

def exDlsView : DlsView :=
  { seg1 := 2, seg2 := 6, ptr1 := 4, ptr2 := 8, val1 := 0, val2 := 0, head1 := 2, head2 := 6 }

/-! ## Heap comparison (`symcmp.cc`) -/

/-- Modelled from the spec: the kinds of unknown value `matchValues` switches
over (`enum EUnknownValue` of `symheap.hh`, which is not among the sources). -/
inductive EUnknownValue where
  | UV_KNOWN
  | UV_ABSTRACT
  | UV_UNKNOWN
  | UV_DONT_CARE
  | UV_UNINITIALIZED
  deriving DecidableEq, Repr

open EUnknownValue

def isUninitialized (code : EValueOrigin) : Bool :=
  match code with
  | VO_STATIC | VO_HEAP | VO_STACK => true
  | _ => false

namespace SymHeap

/-- Modelled from the spec: the member `valGetUnknown` the comparator calls,
which `symheap.cc` does not define: the kind of unknown value, read off the
target classification: abstract for an abstract target, uninitialized or
unknown (by the origin) for an unknown target, known for every other value of
the heap and for the null and true constants. -/
def valGetUnknown (sh : SymHeap) (val : Int) : Option EUnknownValue :=
  if val ≤ 0 then
    if val = VAL_NULL ∨ val = VAL_TRUE then some UV_KNOWN else some UV_UNKNOWN
  else do
    let code ← sh.valTarget val
    match code with
    | VT_ABSTRACT => some UV_ABSTRACT
    | VT_UNKNOWN => do
      let valData ← sh.d.valData val
      if isUninitialized valData.1.origin then some UV_UNINITIALIZED else some UV_UNKNOWN
    | _ => some UV_KNOWN

end SymHeap

/-- Modelled from the spec: the work list of `worklist.hh` (not among the
sources), the "DFS stack" of `areEqual`: a stack of items to process and the
set of items seen so far. -/
structure WorkList where
  todo : List (Int × Int) := []
  seen : List (Int × Int) := []
  deriving DecidableEq, Repr

namespace WorkList

/-- Modelled from the spec: `schedule` pushes an item that was not seen before
and tells whether it did. -/
def schedule (wl : WorkList) (item : Int × Int) : WorkList × Bool :=
  if item ∈ wl.seen then (wl, false)
  else ({ todo := item :: wl.todo, seen := setInsert pairLt item wl.seen }, true)

/-- Modelled from the spec: `next` pops the top item, if there is one. -/
def next (wl : WorkList) : Option ((Int × Int) × WorkList) :=
  match wl.todo with
  | [] => none
  | item :: rest => some (item, { wl with todo := rest })

end WorkList

abbrev TValMap := List (Int × Int)

/-- The pair of maps `TValMapBidir`: left-to-right and right-to-left. -/
structure TValMapBidir where
  ltr : TValMap := []
  rtl : TValMap := []
  deriving DecidableEq, Repr

/-- Modelled from the spec: `checkNonPosValues` of `symutil.hh` (not among the
sources): two positive values pass, a special value passes only against
itself ("null vs. non-null, etc." fails). -/
def checkNonPosValues (a b : Int) : Bool :=
  if 0 < a ∧ 0 < b then true else decide (a = b)

def matchPlainValuesCore (valMapping : TValMapBidir) (v1 v2 : Int) : TValMapBidir × Bool :=
  match mapFind v1 valMapping.ltr with
  | some x => (valMapping, decide (x = v2))
  | none =>
    match mapFind v2 valMapping.rtl with
    | some y => (valMapping, decide (y = v1))
    | none =>
      ({ ltr := mapSet intLt v1 v2 valMapping.ltr, rtl := mapSet intLt v2 v1 valMapping.rtl },
        true)

def matchPlainValues (valMapping : TValMapBidir) (sh1 sh2 : SymHeap) (v1 v2 : Int)
    (symHeapNG : Bool) : Option (TValMapBidir × Bool) :=
  if !checkNonPosValues v1 v2 then some (valMapping, false)
  else if v1 ≤ VAL_NULL then some (valMapping, true)
  else do
    let isValidPtr1 := isPossibleToDeref (← sh1.valTarget v1)
    let isValidPtr2 := isPossibleToDeref (← sh2.valTarget v2)
    if !isValidPtr1 || !isValidPtr2 then some (matchPlainValuesCore valMapping v1 v2)
    else do
      let off1 ← sh1.toSymHeapCore.valOffset v1
      let off2 ← sh2.toSymHeapCore.valOffset v2
      if off1 ≠ off2 then some (valMapping, false)
      else do
        let root1 ← sh1.toSymHeapCore.valRoot v1
        let root2 ← sh2.toSymHeapCore.valRoot v2
        let r := matchPlainValuesCore valMapping root1 root2
        if !r.2 then some (r.1, false)
        else if symHeapNG then some (r.1, true)
        else some (matchPlainValuesCore r.1 v1 v2)

/-- The part of `matchValues` after the kinds of unknown value were found
equal and known: custom values, prototypes, offsets, kinds and bindings. -/
def matchValuesKnown (sh1 sh2 : SymHeap) (v1 v2 : Int) : Option Bool := do
  let cVal1 ← sh1.toSymHeapCore.valGetCustom v1
  let cVal2 ← sh2.toSymHeapCore.valGetCustom v2
  if decide (-1 = cVal1) ≠ decide (-1 = cVal2) then some false
  else if -1 ≠ cVal1 then some (decide (cVal1 = cVal2))
  else do
    let isProto1 ← sh1.toSymHeapCore.valTargetIsProto v1
    let isProto2 ← sh2.toSymHeapCore.valTargetIsProto v2
    if isProto1 ≠ isProto2 then some false
    else do
      let off1 ← sh1.toSymHeapCore.valOffset v1
      let off2 ← sh2.toSymHeapCore.valOffset v2
      if off1 ≠ off2 then some false
      else do
        let kind1 ← sh1.valTargetKind v1
        let kind2 ← sh2.valTargetKind v2
        if kind1 ≠ kind2 then some false
        else if OK_CONCRETE ≠ kind1 then do
          let bf1 ← sh1.segBinding v1
          let bf2 ← sh2.segBinding v2
          some (decide (bf1 = bf2))
        else some true

def matchValues (vMap : TValMapBidir) (sh1 sh2 : SymHeap) (v1 v2 : Int) :
    Option (TValMapBidir × Bool) := do
  let r ← matchPlainValues vMap sh1 sh2 v1 v2 true
  if !r.2 then some (r.1, false)
  else
    let isSpecial := decide (v1 ≤ 0)
    if isSpecial && decide (0 < v2) then none
    else if isSpecial then some (r.1, true)
    else do
      let code ← sh1.valGetUnknown v1
      let code2 ← sh2.valGetUnknown v2
      if code ≠ code2 then some (r.1, false)
      else
        match code with
        | UV_KNOWN | UV_ABSTRACT => do
          let ok ← matchValuesKnown sh1 sh2 v1 v2
          some (r.1, ok)
        | UV_UNKNOWN | UV_DONT_CARE | UV_UNINITIALIZED => some (r.1, true)

/-- The state of the comparison: the work list, the value mapping and the two
heaps (which the comparison writes to through `const_cast`). -/
structure CmpState where
  wl : WorkList := {}
  vMap : TValMapBidir := {}
  sh1 : SymHeap
  sh2 : SymHeap
  deriving DecidableEq, Repr

/-- The visitor `ValueComparator::operator()` on the pair of objects `item`. -/
def valueComparator (st : CmpState) (item : Int × Int) : Option (CmpState × Bool) := do
  let (core1, v1) ← st.sh1.toSymHeapCore.valueOf item.1
  let (core2, v2) ← st.sh2.toSymHeapCore.valueOf item.2
  let sh1 := st.sh1.withCore core1
  let sh2 := st.sh2.withCore core2
  let r ← matchValues st.vMap sh1 sh2 v1 v2
  if !r.2 then some ({ st with vMap := r.1, sh1 := sh1, sh2 := sh2 }, false)
  else some ({ wl := (st.wl.schedule (v1, v2)).1, vMap := r.1, sh1 := sh1, sh2 := sh2 }, true)

/-- Modelled from the spec: the order of the set of (offset, type) pairs the
traversal of live objects goes through. -/
def offCltLt (a b : Int × TObjType) : Bool :=
  decide (a.1 < b.1) || (decide (a.1 = b.1) && cltLt a.2 b.2)

/-- Modelled from the spec: the first pass of `traverseLiveObjsGeneric` over
one heap: the (offset, type) of every live object of the root, added to the
set `all`. -/
def gatherLiveItems (sh : SymHeap) (all : List (Int × TObjType)) :
    List Int → Option (SymHeap × List (Int × TObjType))
  | [] => some (sh, all)
  | obj :: rest => do
    let (core, objAt) ← sh.toSymHeapCore.placedAt obj
    let off ← core.valOffset objAt
    let clt ← core.objType obj
    gatherLiveItems (sh.withCore core) (setInsert offCltLt (off, clt) all) rest

/-- Modelled from the spec: the second pass of `traverseLiveObjsGeneric`: for
every (offset, type) of the set, the visitor is given the pair of objects the
two heaps have at this offset of their roots; it stops at the first `false`. -/
def visitLiveItems (roots : Int × Int) : CmpState → List (Int × TObjType) →
    Option (CmpState × Bool)
  | st, [] => some (st, true)
  | st, (off, clt) :: rest => do
    let (core1, addr1) ← st.sh1.toSymHeapCore.valByOffset roots.1 off
    let obj1 ← core1.objAt addr1 clt
    let (core2, addr2) ← st.sh2.toSymHeapCore.valByOffset roots.2 off
    let obj2 ← core2.objAt addr2 clt
    let r ← valueComparator { st with sh1 := st.sh1.withCore core1, sh2 := st.sh2.withCore core2 }
      (obj1, obj2)
    if !r.2 then some r
    else visitLiveItems roots r.1 rest

/-- Modelled from the spec: `traverseLiveObjsGeneric<2>` of `symutil.hh` (not
among the sources) with the visitor `ValueComparator`: "the pair of every live
object at corresponding offsets of both roots" is visited; an object that one
heap lacks is the unknown object, whose value is then read and compared. -/
def traverseLiveObjs (st : CmpState) (roots : Int × Int) : Option (CmpState × Bool) := do
  let objs1 ← if roots.1 ≤ 0 then some [] else st.sh1.toSymHeapCore.gatherLiveObjects [] roots.1
  let (sh1, all1) ← gatherLiveItems st.sh1 [] objs1
  let objs2 ← if roots.2 ≤ 0 then some [] else st.sh2.toSymHeapCore.gatherLiveObjects [] roots.2
  let (sh2, all) ← gatherLiveItems st.sh2 all1 objs2
  visitLiveItems roots { st with sh1 := sh1, sh2 := sh2 } all

def digRoots (st : CmpState) (v1 v2 : Int) : Option (CmpState × Bool) := do
  let root1 ← st.sh1.toSymHeapCore.valRoot v1
  let root2 ← st.sh2.toSymHeapCore.valRoot v2
  traverseLiveObjs st (root1, root2)

/-- The function `dfsCmp`: its loop is run for at most `fuel` iterations,
`none` when the work list is not empty by then. -/
def dfsCmp : Nat → CmpState → Option (CmpState × Bool)
  | 0, st =>
    match st.wl.next with
    | none => some (st, true)
    | some _ => none
  | fuel + 1, st =>
    match st.wl.next with
    | none => some (st, true)
    | some ((v1, v2), wl) => do
      let st1 : CmpState := { st with wl := wl }
      let code1 ← st1.sh1.valTarget v1
      let code2 ← st1.sh2.valTarget v2
      if code1 ≠ code2 then some (st1, false)
      else do
        let r ← matchValues st1.vMap st1.sh1 st1.sh2 v1 v2
        let st2 : CmpState := { st1 with vMap := r.1 }
        if !r.2 then some (st2, false)
        else if !isPossibleToDeref code1 then dfsCmp fuel st2
        else do
          let r2 ← digRoots st2 v1 v2
          if !r2.2 then some r2
          else dfsCmp fuel r2.1

/-- The loop of `areEqual` over the program variables: the pair of addresses
of each variable is scheduled. -/
def scheduleCVars (fuel : Nat) : CmpState → List CVar → Option CmpState
  | st, [] => some st
  | st, cv :: rest => do
    let (core1, v1) ← st.sh1.toSymHeapCore.addrOfVar fuel cv
    let (core2, v2) ← st.sh2.toSymHeapCore.addrOfVar fuel cv
    scheduleCVars fuel
      { st with wl := (st.wl.schedule (v1, v2)).1, sh1 := st.sh1.withCore core1,
                sh2 := st.sh2.withCore core2 } rest

/-- The function `areEqual`: the verdict with the maps `srcToDst` and
`dstToSrc`, which are written on a full match only.  The two heaps are passed
as two values; `fuel` bounds the loop of `dfsCmp` (and of `subsCreate`, should
`addrOfVar` create a variable). -/
def areEqual (fuel : Nat) (sh1 sh2 : SymHeap) : Option (Bool × TValMap × TValMap) :=
  let cVars1 := sh1.toSymHeapCore.gatherCVars []
  let cVars2 := sh2.toSymHeapCore.gatherCVars []
  if cVars1 ≠ cVars2 then some (false, [], [])
  else do
    let st ← scheduleCVars fuel { sh1 := sh1, sh2 := sh2 } cVars1
    let r ← dfsCmp fuel st
    if !r.2 then some (false, [], [])
    else if !(sh1.toSymHeapCore.matchPreds sh2.toSymHeapCore r.1.vMap.ltr)
        || !(sh2.toSymHeapCore.matchPreds sh1.toSymHeapCore r.1.vMap.rtl) then
      some (false, [], [])
    else some (true, r.1.vMap.ltr, r.1.vMap.rtl)

/-! ## Example heaps with program variables -/

/-- The type table and the variable of the list examples: `int`, the pointer
to a list node, the node (pointer `next` at offset 0, `int` payload at offset
8), and the stack variable 1 of the pointer type. -/
def exListStor : Storage :=
  { types := [{ code := CL_TYPE_INT, size := 4 },
              { code := CL_TYPE_PTR, size := 8, items := [{ type := some 2, offset := 0 }] },
              { code := CL_TYPE_STRUCT, size := 16,
                items := [{ type := some 1, offset := 0 }, { type := some 0, offset := 8 }] }],
    vars := [(1, { type := some 1, isOnStack := true })] }

/-- The variable of the list examples. -/
def exVar : CVar := { uid := 1, inst := 1 }

/-- A fresh heap in which the variable `exVar` was created: its address is the
value 3. -/
def exVarHeap : SymHeap :=
  ((SymHeapCore.create exListStor).bind (fun sh => sh.addrOfVar 4 exVar)).elim {}
    (fun p => { toSymHeapCore := p.1 })

/-- The variable `exVar` (object 2, address 3) and two blocks of the node type
at the addresses 4 and 8, not linked yet. -/
def exListBlocks : Option SymHeapCore := do
  let sh0 ← SymHeapCore.create exListStor
  let (sh1, _) ← sh0.addrOfVar 4 exVar
  let (sh2, n1) ← sh1.heapAlloc 16
  let sh3 ← sh2.valSetLastKnownTypeOfTarget 4 n1 (some 2)
  let (sh4, n2) ← sh3.heapAlloc 16
  let sh5 ← sh4.valSetLastKnownTypeOfTarget 4 n2 (some 2)
  let (sh6, _) ← sh5.valByOffset n1 8
  let (sh7, _) ← sh6.valByOffset n2 8
  some sh7

/-- The pointers of the list: the variable points to the first node, the first
node to the second, the second to null. -/
def exListLinks (sh : SymHeapCore) : Option SymHeapCore := do
  let sh1 ← sh.objSetValue 2 4
  let p1 ← sh1.ptrAt 4
  let sh2 ← sh1.objSetValue p1 8
  let p2 ← sh2.ptrAt 8
  sh2.objSetValue p2 VAL_NULL

/-- The payloads of the two nodes: the custom constants `c1` and `c2`. -/
def exListPayloads (sh : SymHeapCore) (c1 c2 : Int) : Option SymHeapCore := do
  let (sh1, k1) ← sh.valCreateCustom c1
  let (sh2, k2) ← sh1.valCreateCustom c2
  let (sh3, a1) ← sh2.valByOffset 4 8
  let d1 ← sh3.objAt a1 (some 0)
  let sh4 ← sh3.objSetValue d1 k1
  let (sh5, a2) ← sh4.valByOffset 8 8
  let d2 ← sh5.objAt a2 (some 0)
  sh5.objSetValue d2 k2

/-- The variable `exVar` pointing to a null-terminated list of two nodes (at
the addresses 4 and 8) with the payloads `c1` and `c2`, custom constants. -/
def exListBuild (c1 c2 : Int) : Option SymHeapCore := do
  let sh1 ← exListBlocks
  let sh2 ← exListLinks sh1
  exListPayloads sh2 c1 c2

def exListHeap (c1 c2 : Int) : SymHeap :=
  { toSymHeapCore := (exListBuild c1 c2).getD {} }

namespace SymHeapCore

/-- The fact `(a, b)` is recorded the way `neqOp(NEQ_ADD, a, b)` records it:
the pair itself and, when both values have the same non-zero offset, the pair
of their roots. -/
def factRecorded (sh : SymHeapCore) (a b : Int) : Bool :=
  sh.d.neqDb.areNeq a b &&
    (match sh.crossRoots a b with
     | none => true
     | some (ra, rb) => sh.d.neqDb.areNeq ra rb)

/-- Nothing of what `neqOp(NEQ_ADD, a, b)` records is recorded: neither the
pair `(a, b)` nor, when both values have the same non-zero offset, the pair of
their roots. -/
def factAbsent (sh : SymHeapCore) (a b : Int) : Bool :=
  !sh.d.neqDb.areNeq a b &&
    (match sh.crossRoots a b with
     | none => true
     | some (ra, rb) => !sh.d.neqDb.areNeq ra rb)

end SymHeapCore

/-- The segment pair of `exDlsHeap` with minimum length 1: the heap after
`neqOp(NEQ_ADD, 2, VAL_NULL)`, which records the two cross facts `(0, 6)` and
`(0, 2)`. -/
def exDls1Heap : SymHeap := (exDlsHeap.neqOp NEQ_ADD 2 VAL_NULL).getD {}

/-- The pair of a heap and a result, with another disequality store. -/
def liftNeqDb {α : Type} (db : NeqDb) (p : SymHeap × α) : SymHeap × α :=
  (p.1.withNeqDb db, p.2)

/-! ## Destruction of a root -/

namespace IHeapEntity

/-- The write of `objDestroy` to an object of the root: no type, no value. -/
def wipeObject : IHeapEntity → IHeapEntity
  | .HeapObject o => .HeapObject { o with clt := none, value := VAL_INVALID }
  | e => e

/-- The entity without what `objDestroy` writes in its loop: a value without
its `usedBy` and `usedByGl` sets and live objects, an object with its root and
offset only. -/
def skelV : IHeapEntity → IHeapEntity
  | .HeapObject o => .HeapObject { root := o.root, off := o.off }
  | e => e.skel

end IHeapEntity

namespace SymHeapCore.Private

/-- Two states of the entity store with the same slots and, slot by slot, the
same entity up to the type and value of an object and the `usedBy` and
`usedByGl` sets and live objects of a value. -/
def SameVals (d d' : Private) : Prop :=
  d'.ents.length = d.ents.length ∧
  ∀ j : Int, (d'.ent j).map IHeapEntity.skelV = (d.ent j).map IHeapEntity.skelV

/-- The object `y` is one of `objs` and holds the value `j`. -/
def heldIn (d : Private) (objs : List Int) (j : Int) (y : Int) : Bool :=
  decide (y ∈ objs) && decide ((d.objData y).map (fun o => o.value) = some j)

/-- The list of objects of the root entity `rd` is in order: no object twice,
every entry an object of the heap. -/
def rootObjsOk (d : Private) (rd : RootValue) : Bool :=
  decide rd.allObjs.Nodup && rd.allObjs.all (fun obj => (d.objData obj).isSome)

end SymHeapCore.Private

namespace SymHeapCore

def gatherLivePointers (sh : SymHeapCore) (dst : TObjList) (root : Int) : Option TObjList := do
  let (_, rootData) ← sh.d.rootData root
  some (dst ++ (rootData.liveObjs.filter (fun item => item.2)).map Prod.fst)

end SymHeapCore

namespace SymHeap

/-- The loop of `gatherRootObjects` over the live roots. -/
def gatherRootObjectsLoop (sh : SymHeap) (filter : EValueTarget → Bool) :
    TValList → List Int → Option TValList
  | dst, [] => some dst
  | dst, at_ :: rest => do
    let code ← sh.valTarget at_
    gatherRootObjectsLoop sh filter (if filter code then dst ++ [at_] else dst) rest

/-- The member `gatherRootObjects`; a null `filter` is the filter that accepts
every target. -/
def gatherRootObjects (sh : SymHeap) (dst : TValList) (filter : Option (EValueTarget → Bool)) :
    Option TValList :=
  sh.gatherRootObjectsLoop (filter.getD (fun _ => true)) dst sh.d.liveRoots

def valDestroyTarget (sh : SymHeap) (val : Int) : Option (SymHeap × Bool) := do
  let valRoot ← sh.toSymHeapCore.valRoot val
  let (core, ok) ← sh.toSymHeapCore.valDestroyTarget val
  if !ok then some (sh.withCore core, false)
  else if valRoot ≤ 0 then none
  else some ({ toSymHeapCore := core, data := mapErase valRoot sh.data }, true)

end SymHeap

/-- The heap of `exAllocHeap` with the off-value 3 of the block at the
negative offset -4. -/
def exNegOffHeap : SymHeap :=
  { toSymHeapCore := ((exAllocHeap.valByOffset 2 (-4)).map Prod.fst).getD {} }

/-- The heap `exVarHeap` with a clone (the root 5) of the variable, after the
variable itself was destroyed. -/
def exVarCloneHeap : SymHeap :=
  { toSymHeapCore :=
      ((exVarHeap.toSymHeapCore.valClone 3).bind
        (fun p => (p.1.valDestroyTarget 3).map Prod.fst)).getD {} }

namespace SymHeapCore.Private

/-- The state one round of the loop of `objDestroy` leaves on the object `obj`
that holds the value `val`: the value is released (see `released`) and the
object is wiped. -/
def destroyedObj (d : Private) (obj val R : Int) (derefR : Bool) : Private :=
  (d.released obj val R derefR).modEnt obj IHeapEntity.wipeObject

end SymHeapCore.Private

namespace SymHeapCore

/-- The target code `objDestroy` gives a root with the variable `cv`. -/
def goneCode (cv : CVar) : EValueTarget :=
  if cv.uid ≠ -1 then VT_LOST else VT_DELETED

/-- The variable map `objDestroy` leaves for a root with the variable `cv`. -/
def goneCVarMap (cVarMap : List (CVar × Int)) (cv : CVar) : List (CVar × Int) :=
  if cv.uid ≠ -1 then mapErase cv cVarMap else cVarMap

end SymHeapCore

/-! ## Untyped lookup of an object -/

namespace SymHeapCore

/-- The size `objAt(TValId, TObjCode)` gives an object of the row: the size of
its type, or the size of the root (`cbSize`, if the root data is there) for an
object without a type. -/
def itemSize (stor : Storage) (cbSize : Option Nat) (cltItem : TObjType) : Option Int :=
  match cltItem with
  | none => cbSize.map (fun n => (n : Int))
  | some _ => (stor.cltData cltItem).map (fun t => t.size)

/-- One round of the loop of `objAt(TValId, TObjCode)` that was not skipped by
the filter on the type code: the maximum `(maxSize, max)` after an object of
the given size. -/
def objAtStep (stor : Storage) (acc : Int × Int) (cltItem : TObjType) (obj : Int) (size : Int) :
    Int × Int :=
  if size < acc.1 then acc
  else if size = acc.1 ∧ !isComposite stor cltItem then acc
  else (size, obj)

/-- The loop of `objAt(TValId, TObjCode)` over the row; `acc` is the pair
`(maxSize, max)`. -/
def objAtCodeLoop (sh : SymHeapCore) (code : ClTypeE) (cbSize : Option Nat) :
    Int × Int → TObjByType → Option Int
  | acc, [] => some acc.2
  | acc, (cltItem, obj) :: rest =>
    if sh.d.objOutOfRange obj then none
    else
      match cltItem, sh.stor_.cltData cltItem with
      | some _, none => none
      | none, _ =>
        if CL_TYPE_VOID ≠ code then objAtCodeLoop sh code cbSize acc rest
        else
          match cbSize with
          | none => none
          | some n => objAtCodeLoop sh code cbSize (objAtStep sh.stor_ acc cltItem obj n) rest
      | some _, some t =>
        if CL_TYPE_VOID ≠ code ∧ t.code ≠ code then objAtCodeLoop sh code cbSize acc rest
        else objAtCodeLoop sh code cbSize (objAtStep sh.stor_ acc cltItem obj t.size) rest

/-- The overload `objAt(TValId, TObjCode)`.  The root data is looked up before
the grid but read only in the loop, for an object without a type. -/
def objAtCode (sh : SymHeapCore) (at_ : Int) (code : ClTypeE) : Option Int :=
  if at_ ≤ 0 then some OBJ_INVALID
  else do
    let valData ← sh.d.valData at_
    let vt := valData.1.code
    if vt = VT_COMPOSITE ∨ vt = VT_CUSTOM then some OBJ_INVALID
    else do
      let root ← sh.d.valRootOf at_ valData
      let cbSize := (sh.d.rootData root).map (fun p => p.2.cbSize)
      match (← sh.d.gridLookup at_) with
      | .inl failCode => some failCode
      | .inr row => objAtCodeLoop sh code cbSize (0, OBJ_UNKNOWN) row

end SymHeapCore

/-- A heap block of size 0 at the address 2 and its clone at the address 4,
whose only object (3) has no type. -/
def exZeroCloneHeap : SymHeapCore :=
  (((SymHeapCore.create {}).bind (fun sh => sh.heapAlloc 0)).bind
    (fun p => p.1.valClone p.2)).elim {} Prod.fst

/-- The type table of the union example: `int`, pointer to `int`, `char`,
pointer to `char`, and the union of the two pointers. -/
def exUnionStor : Storage :=
  { types := [{ code := CL_TYPE_INT, size := 4 },
              { code := CL_TYPE_PTR, size := 8, items := [{ type := some 0, offset := 0 }] },
              { code := CL_TYPE_CHAR, size := 1 },
              { code := CL_TYPE_PTR, size := 8, items := [{ type := some 2, offset := 0 }] },
              { code := CL_TYPE_UNION, size := 8,
                items := [{ type := some 1, offset := 0 }, { type := some 3, offset := 0 }] }] }

/-- A heap block of the union type at the address 2: the row at offset 0 holds
the object 4 under the pointer to `int`, the object 5 under the pointer to
`char`, and the object 3 under the union type. -/
def exUnionHeap : SymHeapCore :=
  (((SymHeapCore.create exUnionStor).bind (fun sh => sh.heapAlloc 8)).bind
    (fun p => p.1.valSetLastKnownTypeOfTarget 4 p.2 (some 4))).getD {}

namespace SymHeapCore

/-- The size of an item of a row, zero when `itemSize` has none. -/
def rowSize (stor : Storage) (cbSize : Option Nat) (it : TObjType × Int) : Int :=
  (itemSize stor cbSize it.1).getD 0

/-- The loop of `objAt(TValId, TObjCode)` meets no trap on the row: every
object is in range and has a size. -/
def rowOk (sh : SymHeapCore) (cbSize : Option Nat) (row : TObjByType) : Bool :=
  row.all (fun it => !sh.d.objOutOfRange it.2 && (itemSize sh.stor_ cbSize it.1).isSome)

/-- The row has an object the loop of `objAt(TValId, TObjCode)` can pick: one
of positive size, or of size zero and composite type. -/
def rowPickable (stor : Storage) (cbSize : Option Nat) (row : TObjByType) : Bool :=
  row.any (fun it => decide (0 < rowSize stor cbSize it) ||
    (decide (rowSize stor cbSize it = 0) && isComposite stor it.1))

/-- The invariant of the loop of `objAt(TValId, TObjCode)` after the items
`seen`: `acc.1` bounds their sizes, and `acc.2` is still `OBJ_UNKNOWN` (no item
was pickable) or the object of a seen item of that size, of composite type if
a seen item of that size has one. -/
def ObjAtInv (stor : Storage) (cbSize : Option Nat) (seen : TObjByType) (acc : Int × Int) :
    Prop :=
  0 ≤ acc.1 ∧ (∀ it ∈ seen, rowSize stor cbSize it ≤ acc.1) ∧
  ((acc.1 = 0 ∧ acc.2 = OBJ_UNKNOWN ∧ rowPickable stor cbSize seen = false) ∨
   (∃ it ∈ seen, acc.2 = it.2 ∧ rowSize stor cbSize it = acc.1 ∧
      (∀ it2 ∈ seen, rowSize stor cbSize it2 = acc.1 → isComposite stor it2.1 = true →
        isComposite stor it.1 = true)))

end SymHeapCore

namespace SymHeapCore

/-- The type can be tested for a pointer to data without a trap: if it is a
pointer type, its target type is there. -/
def ptrTypeOk (stor : Storage) (clt : TObjType) : Bool :=
  match stor.cltData clt with
  | some t => decide (t.code ≠ CL_TYPE_PTR) || (targetTypeOfPtr stor clt).isSome
  | none => true

/-- The three lookups `ptrAt(at)`, `objAt(at, clt)` and `objAt(at, code)` all
return `r`. -/
def lookupsGive (sh : SymHeapCore) (at_ : Int) (clt : TObjType) (code : ClTypeE) (r : Int) :
    Prop :=
  sh.ptrAt at_ = some r ∧ sh.objAt at_ clt = some r ∧ sh.objAtCode at_ code = some r

end SymHeapCore

/-- The heap of `exListHeap 7 8` after `valDestroyTarget` of the first node
(the root 4). -/
def exListGoneHeap : SymHeap :=
  (((exListHeap 7 8).valDestroyTarget 4).map Prod.fst).getD {}

namespace SymHeapCore

/-- No item of the row passes the filter of `objAt(TValId, TObjCode)` for the
type code `code`, and the loop meets no trap: every object is in range, and
every item has no type or a type of another code. -/
def rowMisses (sh : SymHeapCore) (code : ClTypeE) (row : TObjByType) : Bool :=
  row.all (fun it => !sh.d.objOutOfRange it.2 &&
    (match it.1, sh.stor_.cltData it.1 with
     | none, _ => true
     | some _, some t => decide (t.code ≠ code)
     | some _, none => false))

end SymHeapCore

/-! ## Look-through and the prover of `symseg.cc`

The functions `lookThrough` and `segProveNeq` of `symseg.cc` are written
against a later interface of the heap.  The operations they call that neither
`symheap.cc` nor `symseg.cc` defines are the fields of `SegApi`; the theorems
hold for every implementation of them that meets the stated hypotheses.  The
target code `VT_RANGE` is no target code of the heap of `symheap.cc`: the test
`VT_RANGE == sh.valTarget(val)` evaluates `valTarget` and is false.  The object
`objByAddr(segAt)` is addressed by its root `segAt`. -/

/-- The outcome of a run with bounded fuel: a result, a trap (a failed
assertion), or no result within the fuel. -/
inductive Run (α : Type) where
  | done (a : α)
  | trap
  | fuelOut
  deriving DecidableEq, Repr

namespace Run

def ofOption {α : Type} : Option α → Run α
  | some a => .done a
  | none => .trap

def bind {α β : Type} (r : Run α) (f : α → Run β) : Run β :=
  match r with
  | .done a => f a
  | .trap => .trap
  | .fuelOut => .fuelOut

end Run

/-- The set of values `TValSet`. -/
abbrev TValSet := List Int

/-- The helper `insertOnce` of `util.hh` (not among the sources), as
`lookThrough` uses it: the value is inserted, and the result tells whether it
was not there before. -/
def insertOnce (s : TValSet) (val : Int) : Bool × TValSet :=
  if val ∈ s then (false, s) else (true, setInsert intLt val s)

/-- The operations of the later heap interface that `symseg.cc` calls and the
sources do not define.  Each takes the heap; those that read the value of a
pointer return the heap as well, since reading can create a value. -/
structure SegApi where
  /-- The function `proveNeq(sh, ref, val)`. -/
  proveNeq : SymHeap → Int → Int → Option Bool
  /-- The function `moveKnownValueToLeft(sh, valA, valB)`: the two values in
  the order it leaves them in. -/
  moveKnownValueToLeft : SymHeap → Int → Int → Int × Int
  /-- The lower bound `valSizeOfTarget(sh, val).lo`. -/
  valSizeOfTargetLo : SymHeap → Int → Option Int
  /-- The function `objMinLength(sh, root)`. -/
  objMinLength : SymHeap → Int → Option Nat
  /-- The member `segMinLength(seg)`. -/
  segMinLength : SymHeap → Int → Option Nat
  /-- The function `segPeer(sh, root)`. -/
  segPeer : SymHeap → Int → Option (SymHeap × Int)
  /-- The value `prevPtrFromSeg(sh, root).value()`. -/
  prevValFromSeg : SymHeap → Int → Option (SymHeap × Int)

/-- One round of the loop of `lookThrough`, entered with `0 < val`: the flag
tells whether the loop goes on (`true`) or was left by `break` (`false`). -/
def lookThroughStep (api : SegApi) (off : Int) (sh : SymHeap) (val : Int)
    (pSeen : Option TValSet) : Option (Bool × SymHeap × Int × Option TValSet) :=
  let fresh : Bool × Option TValSet :=
    match pSeen with
    | none => (true, none)
    | some s => ((insertOnce s val).1, some (insertOnce s val).2)
  if !fresh.1 then some (false, sh, val, fresh.2)
  else do
    if !(← isAbstractValue sh val) then some (false, sh, val, fresh.2)
    else do
      let root ← sh.toSymHeapCore.valRoot val
      let (sh1, segAt) ← api.segPeer sh root
      if (← api.segMinLength sh1 segAt) ≠ 0 then some (false, sh1, val, fresh.2)
      else do
        let kind ← sh1.valTargetKind segAt
        if OK_OBJ_OR_NULL = kind then some (true, sh1, VAL_NULL, fresh.2)
        else do
          let bOff ← sh1.segBinding segAt
          let shiftBy := off - bOff.head
          let sh2 ←
            if root ≠ segAt then do
              let (shp, valPrev) ← api.prevValFromSeg sh1 root
              let (core, _) ← shp.toSymHeapCore.valByOffset valPrev shiftBy
              some (shp.withCore core)
            else some sh1
          let (sh3, valNext) ← nextValFromSeg sh2 segAt
          let (core, val1) ← sh3.toSymHeapCore.valByOffset valNext shiftBy
          some (true, sh3.withCore core, val1, fresh.2)

/-- The loop `while (0 < val)` of `lookThrough`; `fuel` bounds the number of
rounds. -/
def lookThroughLoop (api : SegApi) (off : Int) :
    Nat → SymHeap → Int → Option TValSet → Run (SymHeap × Int × Option TValSet)
  | 0, sh, val, pSeen => if 0 < val then .fuelOut else .done (sh, val, pSeen)
  | fuel + 1, sh, val, pSeen =>
    if 0 < val then
      match lookThroughStep api off sh val pSeen with
      | none => .trap
      | some (false, r) => .done r
      | some (true, sh1, val1, seen1) => lookThroughLoop api off fuel sh1 val1 seen1
    else .done (sh, val, pSeen)

/-- The function `lookThrough` of `symseg.cc`: the heap (values can be created
on the way), the value reached and the set `*pSeen` at the end. -/
def lookThrough (api : SegApi) (fuel : Nat) (sh : SymHeap) (val : Int)
    (pSeen : Option TValSet) : Run (SymHeap × Int × Option TValSet) :=
  match sh.valTarget val, sh.toSymHeapCore.valOffset val with
  | some _, some off => lookThroughLoop api off fuel sh val pSeen
  | _, _ => .trap

/-- The part of `segProveNeq` after the values were looked through and found
different. -/
def segProveNeqTail (api : SegApi) (sh : SymHeap) (ref val : Int) : Option (SymHeap × Bool) := do
  if (← api.proveNeq sh ref val) then some (sh, true)
  else
    let (ref, val) := api.moveKnownValueToLeft sh ref val
    let size2 ← api.valSizeOfTargetLo sh val
    if size2 ≤ 0 then some (sh, false)
    else do
      let root2 ← sh.toSymHeapCore.valRoot val
      let len2 ← api.objMinLength sh root2
      if len2 = 0 then some (sh, false)
      else if VAL_NULL = ref then some (sh, true)
      else do
        let size1 ← api.valSizeOfTargetLo sh ref
        if size1 ≤ 0 then some (sh, false)
        else do
          let root1 ← sh.toSymHeapCore.valRoot ref
          let len1 ← api.objMinLength sh root1
          if len1 = 0 then some (sh, false)
          else if !(← isAbstractValue sh ref) then some (sh, true)
          else do
            let (sh1, peer) ← api.segPeer sh root1
            if root2 ≠ peer then some (sh1, true)
            else if len1 ≠ len2 then none
            else some (sh1, decide (1 < len1))

/-- The function `segProveNeq` of `symseg.cc`; `fuel` bounds each of the four
calls of `lookThrough`. -/
def segProveNeq (api : SegApi) (fuel : Nat) (sh : SymHeap) (ref val : Int) :
    Run (SymHeap × Bool) :=
  match api.proveNeq sh ref val with
  | none => .trap
  | some true => .done (sh, true)
  | some false =>
    (lookThrough api fuel sh ref (some [])).bind (fun r1 =>
      if VAL_INVALID = r1.2.1 then .done (r1.1, false)
      else
        (lookThrough api fuel r1.1 val (some [])).bind (fun r2 =>
          if VAL_INVALID = r2.2.1 then .done (r2.1, false)
          else
            (lookThrough api fuel r2.1 ref r2.2.2).bind (fun r3 =>
              (lookThrough api fuel r3.1 val r1.2.2).bind (fun r4 =>
                if r3.2.1 = r4.2.1 then .done (r4.1, false)
                else Run.ofOption (segProveNeqTail api r4.1 r3.2.1 r4.2.1)))))

/-! ### An implementation of the missing operations -/

/-- Modelled from the spec: `moveKnownValueToLeft` of `symutil.hh` (not among
the sources): the values sorted, and swapped when the smaller one is a value of
the heap that is not of known kind. -/
def moveKnownValueToLeft (sh : SymHeap) (valA valB : Int) : Int × Int :=
  let p := sortValues valA valB
  if 0 < p.1 ∧ sh.valGetUnknown p.1 ≠ some UV_KNOWN then (p.2, p.1) else p

/-- Modelled from the spec: `segPeer` (not among the sources): the peer root of
a doubly-linked segment, the root itself for every other kind. -/
def segPeer (sh : SymHeap) (seg : Int) : Option (SymHeap × Int) := do
  if (← sh.valTargetKind seg) = OK_DLS then dlSegPeer sh seg else some (sh, seg)

/-- Modelled from the spec: the minimum length of a segment (the member
`segMinLength`, not among the sources), co-derived with the disequality store
as `SymHeap::neqOp` of `symheap.cc` records it: a singly-linked segment has
length 1 when its head address and its forward value are recorded distinct; a
doubly-linked segment has length 1 when the forward value of each end and the
head address of the other end are recorded distinct, and length 2 when the two
ends are recorded distinct as well; every other case is length 0. -/
def segMinLength (sh : SymHeap) (seg : Int) : Option Nat := do
  let kind ← sh.valTargetKind seg
  if kind = OK_SLS then do
    let (sh1, head) ← segHeadAt sh seg
    let (sh2, next) ← nextValFromSeg sh1 seg
    some (if sh2.d.neqDb.areNeq head next then 1 else 0)
  else if kind = OK_DLS then do
    let (sh1, peer) ← dlSegPeer sh seg
    let (sh2, head1) ← segHeadAt sh1 seg
    let (sh3, head2) ← segHeadAt sh2 peer
    let (sh4, val1) ← nextValFromSeg sh3 seg
    let (sh5, val2) ← nextValFromSeg sh4 peer
    if sh5.d.neqDb.areNeq val1 head2 ∧ sh5.d.neqDb.areNeq val2 head1 then
      some (if sh5.d.neqDb.areNeq seg peer then 2 else 1)
    else some 0
  else some 0

/-- Modelled from the spec: `objMinLength` (not among the sources): the minimum
length of an abstract root, 1 for a concrete root that can be dereferenced, 0
for every other value. -/
def objMinLength (sh : SymHeap) (root : Int) : Option Nat := do
  if (← isAbstractValue sh root) then segMinLength sh root
  else
    let code ← sh.valTarget root
    some (if isPossibleToDeref code then 1 else 0)

/-- Modelled from the spec: the lower bound of `valSizeOfTarget` (not among the
sources): the size of the root less the offset of the value, 0 for a value
that cannot be dereferenced. -/
def valSizeOfTargetLo (sh : SymHeap) (val : Int) : Option Int :=
  if val ≤ 0 then some 0
  else do
    let code ← sh.valTarget val
    if !isPossibleToDeref code then some 0
    else do
      let root ← sh.toSymHeapCore.valRoot val
      let (_, rootData) ← sh.d.rootData root
      let off ← sh.toSymHeapCore.valOffset val
      some ((rootData.cbSize : Int) - off)

/-- Modelled from the spec: the value of the peer selector of a segment,
`prevPtrFromSeg(sh, seg).value()` (not among the sources): the value of the
pointer object at the binding offset `prev`. -/
def prevValFromSeg (sh : SymHeap) (seg : Int) : Option (SymHeap × Int) := do
  let off ← sh.segBinding seg
  let (core, addr) ← sh.toSymHeapCore.valByOffset seg off.prev
  let ptr ← core.ptrAt addr
  let (core1, val) ← core.valueOf ptr
  some (sh.withCore core1, val)

/-- The missing operations as modelled above; `proveNeq(sh, ref, val)` is the
member `SymHeapCore::proveNeq` of `symheap.cc`. -/
def specSegApi : SegApi :=
  { proveNeq := fun sh a b =>
      sh.toSymHeapCore.proveNeq (fun _ x y => moveKnownValueToLeft sh x y)
        (fun v => (sh.hasAbstractTarget v).getD false) a b
    moveKnownValueToLeft := moveKnownValueToLeft
    valSizeOfTargetLo := valSizeOfTargetLo
    objMinLength := objMinLength
    segMinLength := segMinLength
    segPeer := segPeer
    prevValFromSeg := prevValFromSeg }

/-- A heap block of the node type at the address 2, made a singly-linked
segment whose forward pointer (object 4) holds `next`. -/
def exSlsBuild (next : Int) : Option SymHeap := do
  let sh0 ← SymHeapCore.create exStor
  let (sh1, r1) ← sh0.heapAlloc 16
  let sh2 ← sh1.valSetLastKnownTypeOfTarget 8 r1 (some 0)
  let sh3 ← sh2.objSetValue 4 next
  ({ toSymHeapCore := sh3 } : SymHeap).valTargetSetAbstract r1 OK_SLS exBinding

/-- The singly-linked segment at the address 2 whose forward pointer is null. -/
def exSlsHeap : SymHeap := (exSlsBuild VAL_NULL).getD {}

/-- The singly-linked segment at the address 2 whose forward pointer holds its
own head address. -/
def exCycleHeap : SymHeap := (exSlsBuild 2).getD {}

/-- The singly-linked segment at the address 2 with the forward value 6, the
address of a second heap block, recorded distinct from the head address: a
segment of minimum length 1. -/
def exSls1Heap : SymHeap :=
  (do
    let sh0 ← SymHeapCore.create exStor
    let (sh1, r1) ← sh0.heapAlloc 16
    let sh2 ← sh1.valSetLastKnownTypeOfTarget 8 r1 (some 0)
    let (sh3, r2) ← sh2.heapAlloc 16
    let sh4 ← sh3.objSetValue 4 r2
    let sh5 ← ({ toSymHeapCore := sh4 } : SymHeap).valTargetSetAbstract r1 OK_SLS exBinding
    sh5.coreNeqOp NEQ_ADD r1 r2).getD {}

/-- The set `*pSeen` after `lookThrough` has entered the loop with `val`. -/
def seenAfter (pSeen : Option TValSet) (val : Int) : Option TValSet :=
  pSeen.map (fun s => (insertOnce s val).2)

/-- The value is not looked through by `lookThrough`: it is a value of the heap
whose target is not abstract, or is an abstract segment whose minimum length
(`segMinLength` of the peer, read without a change of the heap) is not zero. -/
def NotLookedThrough (api : SegApi) (sh : SymHeap) (val : Int) : Prop :=
  0 < val ∧ (sh.toSymHeapCore.valOffset val).isSome = true ∧
  (isAbstractValue sh val = some false ∨
   (isAbstractValue sh val = some true ∧
    ∃ root segAt n, sh.toSymHeapCore.valRoot val = some root ∧
      api.segPeer sh root = some (sh, segAt) ∧ api.segMinLength sh segAt = some n ∧ n ≠ 0))

namespace SymHeapCore

/-- The member `valGetComposite`. -/
def valGetComposite (sh : SymHeapCore) (val : Int) : Option Int := do
  let valData ← sh.d.valData val
  if VT_COMPOSITE ≠ valData.1.code then none
  else
    match valData.2 with
    | .CompValue compObj => some compObj
    | _ => none

end SymHeapCore

/-- A heap block of the node type of `exListStor` at the address 2: the objects
3 (the node), 4 (the pointer `next`) and 5 (the payload), none of them written. -/
def exTypedHeap : SymHeapCore :=
  (((SymHeapCore.create exListStor).bind (fun sh => sh.heapAlloc 16)).bind
    (fun p => p.1.valSetLastKnownTypeOfTarget 4 p.2 (some 2))).getD {}

/-- The heap `exTypedHeap` after the block was destroyed. -/
def exTypedGoneHeap : SymHeapCore :=
  ((exTypedHeap.valDestroyTarget 2).map Prod.fst).getD {}

namespace IHeapEntity

/-- The live objects of a root entity. -/
def liveObjs : IHeapEntity → TLiveObjs
  | .Value _ (.RootValue rd) => rd.liveObjs
  | _ => []

end IHeapEntity

namespace SymHeapCore.Private

/-- The live objects of the root in slot `j` (none when there is no root). -/
def liveAt (d : Private) (j : Int) : TLiveObjs :=
  match d.ent j with
  | some e => e.liveObjs
  | none => []

end SymHeapCore.Private

namespace SymHeapCore.Private

/-- The values the root `R` keeps in `offMap` are its own offset values, each
under the offset it carries. -/
def offMapOk (d : Private) (R : Int) : Bool :=
  match d.rootData R with
  | some (_, rd) =>
    rd.offMap.all (fun p =>
      match d.valData p.2 with
      | some (b, .OffValue R1) => decide (R1 = R) && decide (b.offRoot = p.1)
      | _ => false)
  | none => false

end SymHeapCore.Private

/-- The heap `exTwoBlocks` with the offset values 4 and 5 of the two blocks at
offset 4, after both blocks were destroyed. -/
def exOffGoneHeap : SymHeapCore :=
  (do
    let (sh1, _) ← exTwoBlocks.valByOffset 2 4
    let (sh2, _) ← sh1.valByOffset 3 4
    let (sh3, _) ← sh2.valDestroyTarget 2
    let (sh4, _) ← sh3.valDestroyTarget 3
    some sh4).getD {}

/-- The heap `exTwoBlocks` with the offset values 4 and 5 of the two blocks at
offset 4. -/
def exOffPairHeap : SymHeapCore :=
  (do
    let (sh1, _) ← exTwoBlocks.valByOffset 2 4
    let (sh2, _) ← sh1.valByOffset 3 4
    some sh2).getD {}

namespace SymHeapCore

/-- The member `cVarByRoot`. -/
def cVarByRoot (sh : SymHeapCore) (valRoot : Int) : Option CVar := do
  let (_, rootData) ← sh.d.rootData valRoot
  some rootData.cVar

/-- The target code `addrOfVar` gives the root of a variable. -/
def varCode (var : Var) : EValueTarget :=
  if var.isOnStack then VT_ON_STACK else VT_STATIC

/-- The variable map is consistent: each entry `(cv, addr)` names a root at
offset zero that carries the variable `cv` and the target code of its storage
class. -/
def cVarMapOk (sh : SymHeapCore) : Bool :=
  sh.d.cVarMap.all (fun p =>
    decide (0 < p.2) &&
    match sh.d.rootData p.2, mapFind p.1.uid sh.stor_.vars with
    | some (rb, rd), some var =>
      decide (rd.cVar = p.1) && decide (rb.code = varCode var) && decide (rb.offRoot = 0)
    | _, _ => false)

end SymHeapCore

namespace SymHeapCore.Private

/-- What `subsCreate(rootAt)` leaves alone: the variable map, every entity but
the root, and the members of the root other than its size, its grid and the
list of its objects. -/
def SubsFrame (rootAt : Int) (d d' : Private) : Prop :=
  d'.cVarMap = d.cVarMap ∧ d.ents.length ≤ d'.ents.length ∧
  (∀ j e, j ≠ rootAt → d.ent j = some e → d'.ent j = some e) ∧
  (∀ rb rd, d.rootData rootAt = some (rb, rd) →
    ∃ rd', d'.rootData rootAt = some (rb, rd') ∧ rd'.cVar = rd.cVar ∧ rd'.addr = rd.addr ∧
      rd'.lastKnownClt = rd.lastKnownClt ∧ rd'.offMap = rd.offMap ∧
      rd'.liveObjs = rd.liveObjs ∧ rd'.usedByGl = rd.usedByGl ∧ rd'.isProto = rd.isProto)

end SymHeapCore.Private

/-- The type table of `exListStor` with the variable 1 declared static. -/
def exGlStor : Storage :=
  { exListStor with vars := [(1, { type := some 1, isOnStack := false })] }

/-- A fresh heap in which the static variable 1 was created as the global
variable (instance 0): its address is the value 3. -/
def exGlHeap : SymHeapCore :=
  (((SymHeapCore.create exGlStor).bind (fun sh => sh.addrOfVar 4 { uid := 1, inst := 0 })).map
    Prod.fst).getD {}

namespace IHeapEntity

/-- The entity without what the loop of `objDup` changes in an entity that was
there before: the `usedBy` and `usedByGl` sets, the value held, and the live
objects, the list of objects and the grid of a root. -/
def skelD : IHeapEntity → IHeapEntity
  | .HeapObject o => .HeapObject { o with value := 0 }
  | .Value b (.RootValue rd) =>
    .Value { b with usedBy := [] }
      (.RootValue { rd with usedByGl := [], liveObjs := [], allObjs := [], grid := [] })
  | .Value b x => .Value { b with usedBy := [] } x

end IHeapEntity

namespace SymHeapCore.Private

/-- What a run of the loop of `objDup` with the clone at `imageAt` keeps: the
objects that were there, every entity that was there up to `skelD`, and the
live objects already recorded for the clone. -/
def DupStep (imageAt : Int) (d d' : Private) : Prop :=
  d.ents.length ≤ d'.ents.length ∧
  (∀ j o, d.objData j = some o → d'.objData j = some o) ∧
  (∀ j e, d.ent j = some e → ∃ e', d'.ent j = some e' ∧ e'.skelD = e.skelD) ∧
  (∀ k f, mapFind k (d.liveAt imageAt) = some f → mapFind k (d'.liveAt imageAt) = some f)

/-- The live objects recorded for the root at `imageAt` are slots of the entity
store. -/
def LiveBound (imageAt : Int) (d : Private) : Prop :=
  ∀ k f, mapFind k (d.liveAt imageAt) = some f → k < d.ents.length

end SymHeapCore.Private

namespace SymHeap

/-- The member `SymHeap::valClone`. -/
def valClone (sh : SymHeap) (val : Int) : Option (SymHeap × Int) := do
  let (core1, dup) ← sh.toSymHeapCore.valClone val
  if dup ≤ 0 then some ({ sh with toSymHeapCore := core1 }, dup)
  else do
    let valRoot ← core1.valRoot val
    let dupRoot ← core1.valRoot dup
    if valRoot ≤ 0 ∨ dupRoot ≤ 0 then none
    else
      match mapFind valRoot sh.data with
      | some ao => some ({ toSymHeapCore := core1, data := mapSet intLt dupRoot ao sh.data }, dup)
      | none => some ({ sh with toSymHeapCore := core1 }, dup)

end SymHeap

/-- The heap `exSls1Heap` with the off-value 7 of the segment's head address 2
at the offset 8. -/
def exSlsOffHeap : SymHeap :=
  { exSls1Heap with
    toSymHeapCore := ((exSls1Heap.toSymHeapCore.valByOffset 2 8).map Prod.fst).getD {} }

/-! ## Snapshots in memory

A `SymHeap` object holds two pointers: `SymHeapCore::d`, to a
`SymHeapCore::Private`, whose vector `ents` holds a pointer per slot, and
`SymHeap::d`, to a `SymHeap::Private`.  To speak of two snapshots that may share
entities, the free store is made explicit: a cell per allocated entity, per
`SymHeapCore::Private` and per `SymHeap::Private`; a freed cell is `none`. -/

/-- The object `SymHeapCore::Private` as it lies in memory: the containers by
value, the vector `ents` as pointers (null, or the address of an entity). -/
structure PPrivate where
  cVarMap : List (CVar × Int) := []
  cValueMap : TCValueMap := []
  ents : List (Option Nat) := []
  liveRoots : List Int := []
  neqDb : NeqDb := {}
  deriving DecidableEq, Repr

/-- The free store: the entities, the `SymHeapCore::Private` objects and the
`SymHeap::Private` objects (the map `data`). -/
structure Mem where
  ents : List (Option IHeapEntity) := []
  privs : List (Option PPrivate) := []
  datas : List (Option (List (Int × AbstractObject))) := []
  deriving DecidableEq, Repr

/-- An object of class `SymHeap`: the reference `stor_` and the two pointers
`SymHeapCore::d` and `SymHeap::d`. -/
structure SymHeapObj where
  stor_ : Storage := {}
  d : Nat := 0
  dAbs : Nat := 0
  deriving DecidableEq, Repr

/-- The dereference of the pointer `a`: nothing when the cell was freed or never
allocated. -/
def cell {α : Type} (l : List (Option α)) (a : Nat) : Option α := (l[a]?).join

/-- The entities that the pointers of `ents` denote. -/
def derefEnts (cells : List (Option IHeapEntity)) :
    List (Option Nat) → Option (List (Option IHeapEntity))
  | [] => some []
  | none :: ps => (derefEnts cells ps).map (fun es => none :: es)
  | some a :: ps =>
    match cell cells a, derefEnts cells ps with
    | some e, some es => some (some e :: es)
    | _, _ => none

/-- The state of `SymHeapCore::Private` that the object `p` denotes. -/
def viewPrivate (m : Mem) (p : PPrivate) : Option SymHeapCore.Private :=
  (derefEnts m.ents p.ents).map (fun es =>
    { cVarMap := p.cVarMap, cValueMap := p.cValueMap, ents := es, liveRoots := p.liveRoots,
      neqDb := p.neqDb })

/-- The heap that the object `o` denotes: what its member functions see. -/
def view (m : Mem) (o : SymHeapObj) : Option SymHeap :=
  match cell m.privs o.d with
  | none => none
  | some p =>
    match viewPrivate m p, cell m.datas o.dAbs with
    | some d, some data => some { stor_ := o.stor_, d := d, data := data }
    | _, _ => none

/-- The loop of the copy constructor of `SymHeapCore::Private` over the copied
vector `ents`: `if (ent) ent = ent->clone();`, where `clone()` allocates a copy
of the entity. -/
def cloneEnts (cells : List (Option IHeapEntity)) :
    List (Option Nat) → Option (List (Option IHeapEntity) × List (Option Nat))
  | [] => some (cells, [])
  | none :: rest =>
    match cloneEnts cells rest with
    | some (c, ps) => some (c, none :: ps)
    | none => none
  | some a :: rest =>
    match cell cells a with
    | none => none
    | some e =>
      match cloneEnts (cells ++ [some e]) rest with
      | some (c, ps) => some (c, some cells.length :: ps)
      | none => none

/-- The copy constructor `SymHeapCore::Private::Private(const Private &)`: the
containers are copied by value, the entities are cloned. -/
def copyPrivate (m : Mem) (ref : PPrivate) : Option (Mem × PPrivate) :=
  match cloneEnts m.ents ref.ents with
  | some (c, ps) => some ({ m with ents := c }, { ref with ents := ps })
  | none => none

/-- The destructor `SymHeapCore::Private::~Private()`: `delete ent` for every
entry of `ents`. -/
def freeEnts (cells : List (Option IHeapEntity)) : List (Option Nat) → List (Option IHeapEntity)
  | [] => cells
  | none :: rest => freeEnts cells rest
  | some a :: rest => freeEnts (cells.set a none) rest

namespace SymHeapObj

/-- The copy constructor `SymHeap::SymHeap(const SymHeap &)`:
`SymHeapCore(ref)`, that is `d(new Private(*ref.d))`, and then
`d(new Private(*ref.d))` for the part of `SymHeap`. -/
def copy (m : Mem) (ref : SymHeapObj) : Option (Mem × SymHeapObj) :=
  match cell m.privs ref.d with
  | none => none
  | some p =>
    match copyPrivate m p with
    | none => none
    | some (m1, p1) =>
      match cell m1.datas ref.dAbs with
      | none => none
      | some data =>
        some ({ m1 with privs := m1.privs ++ [some p1], datas := m1.datas ++ [some data] },
          { stor_ := ref.stor_, d := m1.privs.length, dAbs := m1.datas.length })

/-- The assignment `SymHeap::operator=`: `SymHeapCore::operator=(ref)`, that is
the assertion on `stor_`, `delete d` and `d = new Private(*ref.d)`, and then the
same two steps for the part of `SymHeap`. -/
def assign (m : Mem) (self ref : SymHeapObj) : Option (Mem × SymHeapObj) :=
  if self.stor_ ≠ ref.stor_ then none
  else
    match cell m.privs self.d with
    | none => none
    | some old =>
      let m1 : Mem :=
        { m with ents := freeEnts m.ents old.ents, privs := m.privs.set self.d none }
      match cell m1.privs ref.d with
      | none => none
      | some p =>
        match copyPrivate m1 p with
        | none => none
        | some (m2, p1) =>
          match cell m2.datas self.dAbs with
          | none => none
          | some _ =>
            let datas1 := m2.datas.set self.dAbs none
            match cell datas1 ref.dAbs with
            | none => none
            | some data =>
              some ({ m2 with privs := m2.privs ++ [some p1], datas := datas1 ++ [some data] },
                { self with d := m2.privs.length, dAbs := datas1.length })

end SymHeapObj

/-- The entities of a state written back through the pointers of `ents`: an
entity that is there is written in place, an entity that is gone is deleted and
its pointer set to null, an entity of a new slot (or of a slot whose pointer was
null) is allocated. -/
def writeEnts (cells : List (Option IHeapEntity)) :
    List (Option Nat) → List (Option IHeapEntity) →
      List (Option IHeapEntity) × List (Option Nat)
  | _, [] => (cells, [])
  | some a :: ptrs, some e :: es =>
    let r := writeEnts (cells.set a (some e)) ptrs es
    (r.1, some a :: r.2)
  | some a :: ptrs, none :: es =>
    let r := writeEnts (cells.set a none) ptrs es
    (r.1, none :: r.2)
  | none :: ptrs, some e :: es =>
    let r := writeEnts (cells ++ [some e]) ptrs es
    (r.1, some cells.length :: r.2)
  | none :: ptrs, none :: es =>
    let r := writeEnts cells ptrs es
    (r.1, none :: r.2)
  | [], some e :: es =>
    let r := writeEnts (cells ++ [some e]) [] es
    (r.1, some cells.length :: r.2)
  | [], none :: es =>
    let r := writeEnts cells [] es
    (r.1, none :: r.2)

/-- A member function run on the object `o`: `op` is its effect on the heap the
object denotes, and the new state is written through the pointers of the
object. -/
def runOn (m : Mem) (o : SymHeapObj) (op : SymHeap → Option SymHeap) : Option Mem :=
  match view m o, cell m.privs o.d with
  | some sh, some p =>
    match op sh with
    | none => none
    | some sh1 =>
      let r := writeEnts m.ents p.ents sh1.d.ents
      some { ents := r.1,
             privs := m.privs.set o.d (some
               { cVarMap := sh1.d.cVarMap, cValueMap := sh1.d.cValueMap, ents := r.2,
                 liveRoots := sh1.d.liveRoots, neqDb := sh1.d.neqDb }),
             datas := m.datas.set o.dAbs (some sh1.data) }
  | _, _ => none

/-- The addresses held by a vector of pointers. -/
def addrs (ptrs : List (Option Nat)) : List Nat := ptrs.filterMap id

/-- The object is in order: its two pointers and the pointers of `ents` denote
live cells, and no entity is pointed to twice. -/
def WF (m : Mem) (o : SymHeapObj) : Bool :=
  match cell m.privs o.d with
  | none => false
  | some p =>
    (derefEnts m.ents p.ents).isSome && decide (addrs p.ents).Nodup &&
    (cell m.datas o.dAbs).isSome

/-- The two objects share no cell. -/
def Separate (m : Mem) (a b : SymHeapObj) : Bool :=
  decide (a.d ≠ b.d) && decide (a.dAbs ≠ b.dAbs) &&
  match cell m.privs a.d, cell m.privs b.d with
  | some pa, some pb => (addrs pa.ents).all (fun x => !(addrs pb.ents).contains x)
  | _, _ => false

/-- Two snapshots in order that share no cell. -/
def Indep (m : Mem) (a b : SymHeapObj) : Bool :=
  WF m a && WF m b && Separate m a b

/-- A heap laid out in a fresh memory: the entity of slot `i` at the address
`i`. -/
def Mem.ofHeap (sh : SymHeap) : Mem × SymHeapObj :=
  let r := writeEnts [] [] sh.d.ents
  ({ ents := r.1,
     privs := [some { cVarMap := sh.d.cVarMap, cValueMap := sh.d.cValueMap, ents := r.2,
                      liveRoots := sh.d.liveRoots, neqDb := sh.d.neqDb }],
     datas := [some sh.data] },
   { stor_ := sh.stor_, d := 0, dAbs := 0 })

/-! ## The tree of sub-objects -/

/-- The entry `grid[off][clt]`, if there is one. -/
def gridGet (grid : TGrid) (off : Int) (clt : TObjType) : Option Int :=
  (mapFind off grid).bind (fun row => mapFind clt row)

/-- The number of nodes of the tree of nested composite types under `clt`, if
the tree is finite, of depth less than `n`, and names types of the table only:
one node per type, and under a composite type one subtree per member. -/
def typeSize (stor : Storage) : Nat → TObjType → Option Nat
  | 0, _ => none
  | n + 1, clt =>
    match stor.cltData clt with
    | none => none
    | some t =>
      if isComposite stor clt then
        t.items.foldr (fun item acc =>
          match typeSize stor n item.type, acc with
          | some a, some b => some (a + b)
          | _, _ => none) (some 1)
      else some 1

/-- The members reachable through nested composite types of `T`: the type `T`
itself at offset 0, and every member of a reachable composite type, at the
cumulative offset. -/
inductive Member (stor : Storage) (T : TObjType) : Int → TObjType → Prop
  | root : Member stor T 0 T
  | step {off : Int} {c : TObjType} {ct : ClType} {item : ClTypeItem} :
      Member stor T off c → stor.cltData c = some ct → isComposite stor c = true →
      item ∈ ct.items → Member stor T (off + item.offset) item.type

/-- Every pointer type of the table has its target type. -/
def ptrTypesOk (stor : Storage) : Bool :=
  (List.range stor.types.length).all (fun i => SymHeapCore.ptrTypeOk stor (some i))

namespace SymHeapCore.Private

/-- Every object the grid of the root `rootAt` registers at `(off, clt)` is a
sub-object of that root with that offset and that type, holding no value yet. -/
def GridOk (d : Private) (rootAt : Int) (grid : TGrid) : Prop :=
  ∀ off row, mapFind off grid = some row → ∀ q ∈ row,
    d.objData q.2 = some { value := VAL_INVALID, root := rootAt, off := off, clt := q.1 }

/-- The loop of `subsCreate` with the stack `todo`: every entry of the grid is
still on the stack, or has all its members in the grid. -/
def GridClosed (stor : Storage) (d : Private) (grid : TGrid) (todo : List (Int × TObjType)) :
    Prop :=
  ∀ off c, gridGet grid off c ≠ none →
    (∃ obj od, (obj, c) ∈ todo ∧ d.objData obj = some od ∧ od.off = off) ∨
    (∀ ct, stor.cltData c = some ct → isComposite stor c = true →
      ∀ item ∈ ct.items, gridGet grid (off + item.offset) item.type ≠ none)

/-- The types of the list have finite trees with `k` nodes together. -/
def typesSize (stor : Storage) : List TObjType → Nat → Prop
  | [], k => k = 0
  | c :: rest, k => ∃ n a b, typeSize stor n c = some a ∧ typesSize stor rest b ∧ k = a + b

end SymHeapCore.Private

/-- The type table of `exUnionStor` with the stack variable 1 of the union
type. -/
def exUnionVarStor : Storage :=
  { exUnionStor with vars := [(1, { type := some 4, isOnStack := true })] }

/-- A fresh heap in which the variable `exVar` of the union type was created:
its address is the value 3. -/
def exUnionVarHeap : SymHeapCore :=
  (((SymHeapCore.create exUnionVarStor).bind (fun sh => sh.addrOfVar 4 exVar)).map
    Prod.fst).getD {}

/-- The two maps are mutually inverse: `ltr[a] == b` if and only if
`rtl[b] == a`. -/
def TValMapBidir.Inverse (m : TValMapBidir) : Prop :=
  ∀ a b : Int, mapFind a m.ltr = some b ↔ mapFind b m.rtl = some a

/-- The pairs of maps that a sequence of `matchPlainValuesCore` calls arrives
at when it starts from two empty maps. -/
inductive MapsReached : TValMapBidir → Prop
  | empty : MapsReached {}
  | call (m : TValMapBidir) (v1 v2 : Int) :
      MapsReached m → MapsReached (matchPlainValuesCore m v1 v2).1

/-- The heap `exSlsHeap` with the off-value 6 of the segment's address 2 at the
negative offset -4. -/
def exSlsNegHeap : SymHeap :=
  { exSlsHeap with
    toSymHeapCore := ((exSlsHeap.toSymHeapCore.valByOffset 2 (-4)).map Prod.fst).getD {} }

/-- A heap block of the node type at the address 2 with a null forward
pointer, made a segment of the kind `kind` with the binding `off`. -/
def exSegHeap (kind : EObjKind) (off : BindingOff) : SymHeap :=
  (do
    let sh0 ← SymHeapCore.create exStor
    let (sh1, r1) ← sh0.heapAlloc 16
    let sh2 ← sh1.valSetLastKnownTypeOfTarget 8 r1 (some 0)
    let sh3 ← sh2.objSetValue 4 VAL_NULL
    ({ toSymHeapCore := sh3 } : SymHeap).valTargetSetAbstract r1 kind off).getD {}

namespace SymHeap

/-- The call `SymHeapCore::proveNeq(a, b)` on a `SymHeap` object: the base-class
member with the virtual `hasAbstractTarget` as overridden by `SymHeap`. -/
def coreProveNeq (sh : SymHeap) (moveKnownValueToLeft : SymHeap → Int → Int → Int × Int)
    (valA valB : Int) : Option Bool :=
  sh.toSymHeapCore.proveNeq (fun _ x y => moveKnownValueToLeft sh x y)
    (fun v => (sh.hasAbstractTarget v).getD false) valA valB

/-- One round of the loop of `SymHeap::proveNeq`, entered with a value `val`
that was not seen before: the heap (reading the forward pointer can create its
value), the verdict if the round returns, and the value the loop goes on
with. -/
def proveNeqStep (sh : SymHeap) (moveKnownValueToLeft : SymHeap → Int → Int → Int × Int)
    (ref val : Int) : Option (SymHeap × Option Bool × Int) := do
  let code ← sh.valTarget val
  match code with
  | VT_ON_STACK | VT_ON_HEAP | VT_STATIC | VT_DELETED | VT_LOST | VT_CUSTOM =>
    some (sh, some (decide (val ≠ ref)), val)
  | VT_ABSTRACT => do
    if (← sh.coreProveNeq moveKnownValueToLeft ref val) then some (sh, some true, val)
    else do
      let seg0 ← sh.toSymHeapCore.valRoot val
      let kind ← sh.valTargetKind val
      let (sh1, seg) ← if OK_DLS = kind then dlSegPeer sh seg0 else some (sh, seg0)
      if seg < 0 then some (sh1, some false, val)
      else do
        let (sh2, ptr) ← nextPtrFromSeg sh1 seg
        let (core, valNext) ← sh2.toSymHeapCore.valueOf ptr
        let sh3 := sh2.withCore core
        if (← sh3.coreProveNeq moveKnownValueToLeft val valNext) then some (sh3, some true, val)
        else some (sh3, none, valNext)
  | _ => some (sh, some false, val)

/-- The loop `while (0 < val && insertOnce(haveSeen, val))` of
`SymHeap::proveNeq`; `fuel` bounds the number of rounds. -/
def proveNeqLoop (moveKnownValueToLeft : SymHeap → Int → Int → Int × Int) (ref : Int) :
    Nat → SymHeap → Int → TValSet → Run (SymHeap × Bool)
  | 0, sh, val, haveSeen =>
    if 0 < val ∧ (insertOnce haveSeen val).1 = true then .fuelOut else .done (sh, false)
  | fuel + 1, sh, val, haveSeen =>
    if 0 < val ∧ (insertOnce haveSeen val).1 = true then
      match proveNeqStep sh moveKnownValueToLeft ref val with
      | none => .trap
      | some (sh1, some verdict, _) => .done (sh1, verdict)
      | some (sh1, none, valNext) =>
        proveNeqLoop moveKnownValueToLeft ref fuel sh1 valNext (insertOnce haveSeen val).2
    else .done (sh, false)

/-- The member `SymHeap::proveNeq`.  The helper `moveKnownValueToLeft` of
`symutil.hh` is not among the sources: it is the parameter of the same name,
which returns the two values in the order the helper leaves them in.  The
inline helpers `dlSegPeer` and `nextPtrFromSeg` of `symseg.hh` write to the
heap through `const_cast`, so the heap is returned with the verdict. -/
def proveNeq (sh : SymHeap) (moveKnownValueToLeft : SymHeap → Int → Int → Int × Int)
    (fuel : Nat) (ref val : Int) : Run (SymHeap × Bool) :=
  match sh.coreProveNeq moveKnownValueToLeft ref val with
  | none => .trap
  | some true => .done (sh, true)
  | some false =>
    let p := moveKnownValueToLeft sh ref val
    match sh.valTarget p.1 with
    | none => .trap
    | some code =>
      if isAbstract code then .done (sh, false)
      else proveNeqLoop moveKnownValueToLeft p.1 fuel sh p.2 []

end SymHeap

namespace IHeapEntity

/-- The value an object entity holds. -/
def held : IHeapEntity → Option Int
  | .HeapObject o => some o.value
  | _ => none

/-- The `usedBy` set of a value entity, nothing for an object entity. -/
def users : IHeapEntity → Option TUsedBy
  | .Value b _ => some b.usedBy
  | _ => none

end IHeapEntity

namespace SymHeapCore.Private

/-- The backward references of the entity store: an object that holds a
positive value is in the `usedBy` set of that value, which is a value of the
store; and every member of the `usedBy` set of a positive value is an object
that holds the value. -/
def UsedByOk (d : Private) : Prop :=
  (∀ o od, d.ent o = some (.HeapObject od) → 0 < od.value →
    ∃ b x, d.ent od.value = some (.Value b x) ∧ o ∈ b.usedBy) ∧
  (∀ v b x, 0 < v → d.ent v = some (.Value b x) → ∀ o ∈ b.usedBy,
    ∃ od, d.ent o = some (.HeapObject od) ∧ od.value = v)

end SymHeapCore.Private

namespace SymHeapCore

/-- The heaps a freshly constructed heap turns into by the public operations of
`SymHeapCore` that return normally: those of `Reachable`, and `addrOfVar`,
`valSetLastKnownTypeOfTarget` and `valCreateCustom`. -/
inductive Built : SymHeapCore → Prop where
  | create {stor : Storage} {sh : SymHeapCore} : create stor = some sh → Built sh
  | valueOf {sh sh' : SymHeapCore} (obj : Int) (v : Int) :
      Built sh → sh.valueOf obj = some (sh', v) → Built sh'
  | objSetValue {sh sh' : SymHeapCore} (obj val : Int) :
      Built sh → sh.objSetValue obj val = some sh' → Built sh'
  | valReplace {sh sh' : SymHeapCore} (val replaceBy : Int) :
      Built sh → sh.valReplace val replaceBy = some sh' → Built sh'
  | valMerge {sh sh' : SymHeapCore} (mk : SymHeapCore → Int → Int → Int × Int)
      (abs : Int → Bool) (val replaceBy : Int) :
      Built sh → sh.valMerge mk abs val replaceBy = some sh' → Built sh'
  | valClone {sh sh' : SymHeapCore} (val : Int) (v : Int) :
      Built sh → sh.valClone val = some (sh', v) → Built sh'
  | valByOffset {sh sh' : SymHeapCore} (at_ off : Int) (v : Int) :
      Built sh → sh.valByOffset at_ off = some (sh', v) → Built sh'
  | addrOfVar {sh sh' : SymHeapCore} (fuel : Nat) (cv : CVar) (v : Int) :
      Built sh → sh.addrOfVar fuel cv = some (sh', v) → Built sh'
  | valSetLastKnownTypeOfTarget {sh sh' : SymHeapCore} (fuel : Nat) (root : Int)
      (clt : TObjType) :
      Built sh → sh.valSetLastKnownTypeOfTarget fuel root clt = some sh' → Built sh'
  | valDestroyTarget {sh sh' : SymHeapCore} (val : Int) (r : Bool) :
      Built sh → sh.valDestroyTarget val = some (sh', r) → Built sh'
  | heapAlloc {sh sh' : SymHeapCore} (cbSize : Nat) (v : Int) :
      Built sh → sh.heapAlloc cbSize = some (sh', v) → Built sh'
  | valCreateCustom {sh sh' : SymHeapCore} (cVal : Int) (v : Int) :
      Built sh → sh.valCreateCustom cVal = some (sh', v) → Built sh'
  | neqOp {sh sh' : SymHeapCore} (op : ENeqOp) (valA valB : Int) :
      Built sh → sh.neqOp op valA valB = some sh' → Built sh'
  | copyRelevantPreds {src sh sh' : SymHeapCore} (valMap : List (Int × Int)) :
      Built sh → src.copyRelevantPreds sh valMap = some sh' → Built sh'

end SymHeapCore

namespace SymHeapCore.Private

/-- The value held by the object in slot `j`, if the slot holds an object. -/
def heldAt (d : Private) (j : Int) : Option Int := (d.ent j).bind IHeapEntity.held

/-- The `usedBy` set of the value in slot `j`, if the slot holds a value. -/
def usersAt (d : Private) (j : Int) : Option TUsedBy := (d.ent j).bind IHeapEntity.users

end SymHeapCore.Private

/-- The heap `exTypedHeap` after the address 2 of the block was stored in its
pointer `next` (object 4). -/
def exSelfHeap : SymHeapCore := (exTypedHeap.objSetValue 4 2).getD {}

/-! # Theorems -/

/-! ## Sums of offsets -/

@[simp] theorem offAdd_zero (a : Int) : offAdd a 0 = a := by
  unfold offAdd isOffset OFF_MIN OFF_MAX
  split
  · rename_i h
    simp only [Bool.and_eq_true, decide_eq_true_eq] at h
    rw [if_neg (by omega), if_neg (by omega)]
    omega
  · omega

@[simp] theorem zero_offAdd (a : Int) : offAdd 0 a = a := by
  unfold offAdd isOffset OFF_MIN OFF_MAX
  split
  · rename_i h
    simp only [Bool.and_eq_true, decide_eq_true_eq] at h
    rw [if_neg (by omega), if_neg (by omega)]
    omega
  · omega

theorem offAdd_comm (a b : Int) : offAdd a b = offAdd b a := by
  unfold offAdd
  rw [Bool.and_comm, add_comm a b]

@[simp] theorem offAdd_neg_self (a : Int) : offAdd (-a) a = 0 := by
  unfold offAdd isOffset OFF_MIN OFF_MAX
  split
  · rw [if_neg (by omega), if_neg (by omega)]
    omega
  · omega

/-- The sum of two offsets is their integer sum whenever that is an offset. -/
theorem offAdd_of_isOffset {a b : Int} (h : isOffset (a + b) = true) : offAdd a b = a + b := by
  unfold isOffset OFF_MIN OFF_MAX at h
  simp only [decide_eq_true_eq] at h
  unfold offAdd OFF_MIN OFF_MAX
  split
  · rw [if_neg (by omega), if_neg (by omega)]
  · rfl

/-- The sum of two offsets is an offset, congruent to their integer sum modulo
`2^32`. -/
theorem offAdd_isOffset {a b : Int} (ha : isOffset a = true) (hb : isOffset b = true) :
    isOffset (offAdd a b) = true ∧ (offAdd a b - (a + b)) % 4294967296 = 0 := by
  unfold isOffset OFF_MIN OFF_MAX at ha hb
  simp only [decide_eq_true_eq] at ha hb
  unfold offAdd isOffset OFF_MIN OFF_MAX
  simp only [ha, hb, and_self, decide_True, Bool.and_self, if_true, decide_eq_true_eq]
  split
  · constructor <;> omega
  · split
    · constructor <;> omega
    · constructor <;> omega

/-! ## Ordered containers -/

theorem insertBy_perm {α : Type} (lt : α → α → Bool) (x : α) (l : List α) :
    (insertBy lt x l).Perm (x :: l) := by
  induction l with
  | nil => simp [insertBy]
  | cons y ys ih =>
    simp only [insertBy]
    split
    · exact List.Perm.refl _
    · exact (List.Perm.cons y ih).trans (List.Perm.swap x y ys)

theorem mem_insertBy {α : Type} (lt : α → α → Bool) (x y : α) (l : List α) :
    y ∈ insertBy lt x l ↔ y = x ∨ y ∈ l := by
  rw [(insertBy_perm lt x l).mem_iff]; simp

theorem mem_setInsert {α : Type} [DecidableEq α] (lt : α → α → Bool) (x y : α) (s : List α) :
    y ∈ setInsert lt x s ↔ y = x ∨ y ∈ s := by
  unfold setInsert
  split
  · constructor
    · intro h; exact Or.inr h
    · rintro (h | h)
      · subst h; assumption
      · exact h
  · exact mem_insertBy lt x y s

theorem nodup_setInsert {α : Type} [DecidableEq α] (lt : α → α → Bool) (x : α) (s : List α)
    (h : s.Nodup) : (setInsert lt x s).Nodup := by
  unfold setInsert
  split
  · exact h
  · rename_i hx
    rw [(insertBy_perm lt x s).nodup_iff]
    exact List.nodup_cons.mpr ⟨hx, h⟩

theorem mem_setErase {α : Type} [DecidableEq α] (x y : α) (s : List α) :
    y ∈ setErase x s ↔ y ∈ s ∧ y ≠ x := by
  simp [setErase]

theorem nodup_setErase {α : Type} [DecidableEq α] (x : α) (s : List α) (h : s.Nodup) :
    (setErase x s).Nodup := by
  unfold setErase
  exact h.filter _

theorem mem_of_mapFind {κ β : Type} [DecidableEq κ] {k : κ} {v : β} {m : List (κ × β)}
    (h : mapFind k m = some v) : (k, v) ∈ m := by
  induction m with
  | nil => cases h
  | cons q m ih =>
    obtain ⟨k', v'⟩ := q
    unfold mapFind at h
    split at h
    · rename_i hk
      cases h; subst hk; exact List.mem_cons_self _ _
    · exact List.mem_cons_of_mem _ (ih h)

/-- A set holds each of its elements once. -/
theorem length_filter_eq_of_nodup {α : Type} [DecidableEq α] (x : α) (l : List α)
    (hn : l.Nodup) (hx : x ∈ l) : (l.filter (fun p => decide (p = x))).length = 1 := by
  induction l with
  | nil => cases hx
  | cons y ys ih =>
    rw [List.nodup_cons] at hn
    by_cases hyx : y = x
    · subst hyx
      have hnone : ys.filter (fun p => decide (p = y)) = [] := by
        rw [List.filter_eq_nil_iff]
        intro a ha
        simp only [decide_eq_true_eq]
        intro h; subst h; exact hn.1 ha
      simp [List.filter_cons, hnone]
    · have hx' : x ∈ ys := by
        rcases List.mem_cons.mp hx with h | h
        · exact absurd h.symm hyx
        · exact h
      simp [List.filter_cons, hyx, ih hn.2 hx']

/-! ## Neq predicates store -/

theorem sortValues_comm (a b : Int) : sortValues a b = sortValues b a := by
  unfold sortValues
  by_cases h1 : b < a <;> by_cases h2 : a < b <;> simp [h1, h2]
  · omega
  · omega

theorem sortValues_lt (a b : Int) (h : a ≠ b) : (sortValues a b).1 < (sortValues a b).2 := by
  unfold sortValues
  split
  · assumption
  · show a < b
    omega

theorem sortValues_cases (a b : Int) : sortValues a b = (a, b) ∨ sortValues a b = (b, a) := by
  unfold sortValues
  split <;> simp

namespace NeqDb

/-- The representation invariant of the store: a set of pairs, each with the
smaller value first. -/
def Inv (db : NeqDb) : Prop :=
  db.cont_.Nodup ∧ ∀ p ∈ db.cont_, p.1 < p.2

theorem inv_init : Inv {} := by
  constructor
  · exact List.nodup_nil
  · intro p hp; cases hp

theorem inv_add {db db' : NeqDb} {a b : Int} (h : Inv db) (hadd : db.add a b = some db') :
    Inv db' := by
  unfold add at hadd
  split at hadd
  · cases hadd
  · rename_i hab
    cases hadd
    refine ⟨nodup_setInsert _ _ _ h.1, ?_⟩
    intro p hp
    rcases (mem_setInsert _ _ _ _).mp hp with hp | hp
    · subst hp; exact sortValues_lt a b hab
    · exact h.2 p hp

theorem inv_del {db db' : NeqDb} {a b : Int} (h : Inv db) (hdel : db.del a b = some db') :
    Inv db' := by
  unfold del at hdel
  split at hdel
  · cases hdel
  · cases hdel
    refine ⟨nodup_setErase _ _ h.1, ?_⟩
    intro p hp
    exact h.2 p ((mem_setErase _ _ _).mp hp).1

theorem inv_of_reachable {db : NeqDb} (h : Reachable db) : Inv db := by
  induction h with
  | init => exact inv_init
  | add a b _ hadd ih => exact inv_add ih hadd
  | del a b _ hdel ih => exact inv_del ih hdel

theorem areNeq_comm (db : NeqDb) (a b : Int) : db.areNeq a b = db.areNeq b a := by
  unfold areNeq
  rw [sortValues_comm a b]

theorem areNeq_iff (db : NeqDb) (a b : Int) :
    db.areNeq a b = true ↔ sortValues a b ∈ db.cont_ := by
  simp [areNeq]

/-- No pair of the store relates a value to itself. -/
theorem areNeq_self_of_inv {db : NeqDb} (h : Inv db) (a : Int) : db.areNeq a a = false := by
  cases hn : db.areNeq a a with
  | false => rfl
  | true =>
    have hm := (areNeq_iff db a a).mp hn
    have := h.2 _ hm
    simp [sortValues] at this

end NeqDb

/-! ## Entity store -/

namespace SymHeapCore.Private

theorem ent_eq_some {d : Private} {id : Int} {e : IHeapEntity} (h : d.ent id = some e) :
    0 ≤ id ∧ id < d.ents.length ∧ d.ents[id.toNat]? = some (some e) := by
  unfold ent at h
  split at h
  · cases h
  · rename_i hid
    have h0 : 0 ≤ id := by omega
    cases hget : d.ents[id.toNat]? with
    | none => rw [hget] at h; cases h
    | some o =>
      rw [hget] at h
      have hlt : id.toNat < d.ents.length := (List.getElem?_eq_some.mp hget).1
      refine ⟨h0, by omega, ?_⟩
      cases o with
      | none => cases h
      | some e' => simp at h; subst h; rfl

theorem ent_of_get {d : Private} {id : Int} {e : IHeapEntity} (h0 : 0 ≤ id)
    (h : d.ents[id.toNat]? = some (some e)) : d.ent id = some e := by
  unfold ent
  rw [if_neg (by omega), h]; rfl

theorem ent_setEnt_same {d : Private} {id : Int} (e : IHeapEntity) (h0 : 0 ≤ id)
    (hlt : id < d.ents.length) : (d.setEnt id e).ent id = some e := by
  apply ent_of_get h0
  simp only [setEnt]
  rw [List.getElem?_set_self (by omega)]

theorem ent_setEnt_ne {d : Private} {id id' : Int} (e : IHeapEntity) (h0 : 0 ≤ id)
    (hne : id' ≠ id) : (d.setEnt id e).ent id' = d.ent id' := by
  unfold ent
  split
  · rfl
  · simp only [setEnt]
    rw [List.getElem?_set_ne (by omega)]

theorem length_setEnt (d : Private) (id : Int) (e : IHeapEntity) :
    (d.setEnt id e).ents.length = d.ents.length := by
  simp [setEnt]

theorem length_pushEnt (d : Private) (e : IHeapEntity) :
    (d.pushEnt e).ents.length = d.ents.length + 1 := by
  simp [pushEnt]

theorem ent_pushEnt_lt {d : Private} {id : Int} (e : IHeapEntity) (hlt : id < d.ents.length) :
    (d.pushEnt e).ent id = d.ent id := by
  unfold ent
  split
  · rfl
  · simp only [pushEnt]
    rw [List.getElem?_append_left (by omega)]

theorem ent_pushEnt_last (d : Private) (e : IHeapEntity) :
    (d.pushEnt e).ent d.ents.length = some e := by
  apply ent_of_get (by omega)
  simp [pushEnt]

theorem ent_pushEnt_of_some {d : Private} {id : Int} {e0 : IHeapEntity} (e : IHeapEntity)
    (h : d.ent id = some e0) : (d.pushEnt e).ent id = some e0 := by
  rw [ent_pushEnt_lt e (ent_eq_some h).2.1]; exact h

theorem lastId_pushEnt (d : Private) (e : IHeapEntity) :
    (d.pushEnt e).lastId = d.ents.length := by
  simp [lastId, pushEnt]

theorem valData_eq_some {d : Private} {val : Int} {p : BaseValue × ValueExt} :
    d.valData val = some p ↔ 0 < val ∧ d.ent val = some (.Value p.1 p.2) := by
  unfold valData valOutOfRange lastId
  constructor
  · intro h
    split at h
    · cases h
    · rename_i hr
      simp only [Bool.or_eq_true, decide_eq_true_eq, not_or, not_le, not_lt] at hr
      split at h
      · rename_i b x he
        cases h
        exact ⟨hr.1, he⟩
      · cases h
  · rintro ⟨h0, he⟩
    have hlt := (ent_eq_some he).2.1
    rw [if_neg (by simp only [Bool.or_eq_true, decide_eq_true_eq, not_or, not_le, not_lt]; omega),
      he]

theorem rootData_eq_some {d : Private} {val : Int} {p : BaseValue × RootValue} :
    d.rootData val = some p ↔ 0 < val ∧ d.ent val = some (.Value p.1 (.RootValue p.2)) := by
  unfold rootData valOutOfRange lastId
  constructor
  · intro h
    split at h
    · cases h
    · rename_i hr
      simp only [Bool.or_eq_true, decide_eq_true_eq, not_or, not_le, not_lt] at hr
      split at h
      · rename_i b x he
        cases h
        exact ⟨hr.1, he⟩
      · cases h
  · rintro ⟨h0, he⟩
    have hlt := (ent_eq_some he).2.1
    rw [if_neg (by simp only [Bool.or_eq_true, decide_eq_true_eq, not_or, not_le, not_lt]; omega),
      he]

theorem objData_eq_some {d : Private} {obj : Int} {o : HeapObject} :
    d.objData obj = some o ↔ d.ent obj = some (.HeapObject o) := by
  unfold objData objOutOfRange lastId
  constructor
  · intro h
    split at h
    · cases h
    · split at h
      · rename_i o' he
        cases h
        exact he
      · cases h
  · intro he
    have hr := ent_eq_some he
    rw [if_neg (by simp only [Bool.or_eq_true, decide_eq_true_eq, not_or, not_le, not_lt]; omega),
      he]

theorem valData_of_rootData {d : Private} {val : Int} {rb : BaseValue} {rd : RootValue}
    (h : d.rootData val = some (rb, rd)) : d.valData val = some (rb, .RootValue rd) := by
  have := rootData_eq_some.mp h
  exact valData_eq_some.mpr this

theorem entOffOk_of_inv {d : Private} (h : d.OffInv = true) (i : Int) : d.entOffOk i = true := by
  by_cases hi : 0 ≤ i ∧ i < d.ents.length
  · unfold OffInv at h
    rw [List.all_eq_true] at h
    have := h i.toNat (List.mem_range.mpr (by omega))
    rwa [Int.toNat_of_nonneg hi.1] at this
  · unfold entOffOk
    cases he : d.ent i with
    | none => rfl
    | some e => exact absurd ⟨(ent_eq_some he).1, (ent_eq_some he).2.1⟩ hi

/-- A value that is a root has offset zero. -/
theorem root_offRoot_of_inv {d : Private} (h : d.OffInv = true) {r : Int} {rb : BaseValue}
    {rd : RootValue} (hr : d.rootData r = some (rb, rd)) : rb.offRoot = 0 := by
  have hok := entOffOk_of_inv h r
  unfold entOffOk at hok
  rw [(rootData_eq_some.mp hr).2] at hok
  simp only [Bool.and_eq_true, decide_eq_true_eq] at hok
  exact hok.1.1

/-- A value a root keeps in `offMap` carries the offset it is kept under. -/
theorem offMap_offRoot_of_inv {d : Private} (h : d.OffInv = true) {r : Int} {rb : BaseValue}
    {rd : RootValue} (hr : d.rootData r = some (rb, rd)) {o v : Int}
    (hv : mapFind o rd.offMap = some v) : ∃ b x, d.valData v = some (b, x) ∧ b.offRoot = o := by
  have hok := entOffOk_of_inv h r
  unfold entOffOk at hok
  rw [(rootData_eq_some.mp hr).2] at hok
  simp only [Bool.and_eq_true, decide_eq_true_eq, List.all_eq_true] at hok
  have hmem : (o, v) ∈ rd.offMap := mem_of_mapFind hv
  have := hok.2 (o, v) hmem
  simp only at this
  split at this
  · rename_i b' x' hvd
    exact ⟨b', x', hvd, by simpa using this⟩
  · cases this

end SymHeapCore.Private

/-- C3: in every state of the disequality store, `areNeq` does not depend on
the order of its operands; for `a != b` the call `add(a, b)` succeeds, after it
both `areNeq(a, b)` and `areNeq(b, a)` hold, and of the two ordered pairs
`(a, b)` and `(b, a)` the store holds exactly one, once. -/
theorem C3_neqDb_symmetric (db : NeqDb) (hdb : NeqDb.Reachable db) (a b : Int) (hab : a ≠ b) :
    db.areNeq a b = db.areNeq b a ∧
    ∃ db', db.add a b = some db' ∧ db'.areNeq a b = true ∧ db'.areNeq b a = true ∧
      (db'.cont_.filter (fun p => decide (p = (a, b) ∨ p = (b, a)))).length = 1 := by
  refine ⟨NeqDb.areNeq_comm db a b, ?_⟩
  have hinv' : NeqDb.Inv { cont_ := setInsert pairLt (sortValues a b) db.cont_ } :=
    NeqDb.inv_add (NeqDb.inv_of_reachable hdb) (by simp [NeqDb.add, hab] : db.add a b = some _)
  refine ⟨{ cont_ := setInsert pairLt (sortValues a b) db.cont_ }, by simp [NeqDb.add, hab], ?_, ?_, ?_⟩
  · rw [NeqDb.areNeq_iff]; exact (mem_setInsert _ _ _ _).mpr (Or.inl rfl)
  · rw [NeqDb.areNeq_comm, NeqDb.areNeq_iff]; exact (mem_setInsert _ _ _ _).mpr (Or.inl rfl)
  · have hmem : sortValues a b ∈ setInsert pairLt (sortValues a b) db.cont_ :=
      (mem_setInsert _ _ _ _).mpr (Or.inl rfl)
    rw [← length_filter_eq_of_nodup (sortValues a b) _ hinv'.1 hmem]
    congr 1
    apply List.filter_congr
    intro p hp
    have hlt := hinv'.2 p hp
    have hlt2 := sortValues_lt a b hab
    rcases sortValues_cases a b with hs | hs
    · rw [hs] at hlt2 ⊢
      simp only at hlt2
      by_cases h1 : p = (a, b)
      · simp [h1]
      · have h2 : p ≠ (b, a) := by
          intro h2; rw [h2] at hlt; simp only at hlt; omega
        simp [h1, h2]
    · rw [hs] at hlt2 ⊢
      simp only at hlt2
      by_cases h1 : p = (b, a)
      · simp [h1]
      · have h2 : p ≠ (a, b) := by
          intro h2; rw [h2] at hlt; simp only at hlt; omega
        simp [h1, h2]

theorem C3_neqDb_symmetric_witness :
    (NeqDb.areNeq {} 5 3 = NeqDb.areNeq {} 3 5) ∧
    ∃ db', NeqDb.add {} 5 3 = some db' ∧ db'.areNeq 5 3 = true ∧ db'.areNeq 3 5 = true ∧
      (db'.cont_.filter (fun p => decide (p = ((5 : Int), (3 : Int)) ∨ p = (3, 5)))).length = 1 :=
  C3_neqDb_symmetric {} NeqDb.Reachable.init 5 3 (by decide)

theorem mapFind_mapInsertNew_same {κ β : Type} [DecidableEq κ] (lt : κ → κ → Bool) (k : κ) (v : β)
    (m : List (κ × β)) (h : mapFind k m = none) : mapFind k (mapInsertNew lt k v m) = some v := by
  induction m with
  | nil => simp [mapInsertNew, mapFind]
  | cons q m ih =>
    obtain ⟨k', v'⟩ := q
    unfold mapFind at h
    split at h
    · cases h
    · rename_i hk
      unfold mapInsertNew
      split
      · simp [mapFind]
      · simp only [mapFind, if_neg hk]; exact ih h

theorem mapFind_mapInsertNew_ne {κ β : Type} [DecidableEq κ] (lt : κ → κ → Bool) (k k0 : κ) (v : β)
    (m : List (κ × β)) (hne : k0 ≠ k) : mapFind k0 (mapInsertNew lt k v m) = mapFind k0 m := by
  induction m with
  | nil => simp [mapInsertNew, mapFind, hne.symm]
  | cons q m ih =>
    obtain ⟨k', v'⟩ := q
    unfold mapInsertNew
    split
    · simp [mapFind, hne.symm]
    · simp only [mapFind]; rw [ih]

theorem mapFind_mapReplace_same {κ β : Type} [DecidableEq κ] (k : κ) (v : β)
    (m : List (κ × β)) (h : (mapFind k m).isSome) : mapFind k (mapReplace k v m) = some v := by
  induction m with
  | nil => cases h
  | cons q m ih =>
    obtain ⟨k', v'⟩ := q
    unfold mapFind at h
    unfold mapReplace
    split at h
    · rename_i hk
      simp [hk, mapFind]
    · rename_i hk
      simp only [if_neg hk, mapFind]; exact ih h

theorem mapFind_mapReplace_ne {κ β : Type} [DecidableEq κ] (k k0 : κ) (v : β)
    (m : List (κ × β)) (hne : k0 ≠ k) : mapFind k0 (mapReplace k v m) = mapFind k0 m := by
  induction m with
  | nil => rfl
  | cons q m ih =>
    obtain ⟨k', v'⟩ := q
    unfold mapReplace
    split
    · rename_i hk
      subst hk
      simp [mapFind, hne.symm]
    · simp only [mapFind]; rw [ih]

theorem mapFind_mapSet_same {κ β : Type} [DecidableEq κ] (lt : κ → κ → Bool) (k : κ) (v : β)
    (m : List (κ × β)) : mapFind k (mapSet lt k v m) = some v := by
  unfold mapSet
  split
  · rename_i hf; exact mapFind_mapReplace_same k v m (by simp [hf])
  · rename_i hf; exact mapFind_mapInsertNew_same lt k v m hf

theorem mapFind_mapSet_ne {κ β : Type} [DecidableEq κ] (lt : κ → κ → Bool) (k k0 : κ) (v : β)
    (m : List (κ × β)) (hne : k0 ≠ k) : mapFind k0 (mapSet lt k v m) = mapFind k0 m := by
  unfold mapSet
  split
  · exact mapFind_mapReplace_ne k k0 v m hne
  · exact mapFind_mapInsertNew_ne lt k k0 v m hne

namespace SymHeapCore

open SymHeapCore.Private

theorem not_unknown_gone_of_deref {code : EValueTarget} (h : isPossibleToDeref code = true) :
    ¬ (VT_UNKNOWN = code ∨ isGone code = true) := by
  revert h; cases code <;> simp [isPossibleToDeref, isOnHeap, isProgramVar, isGone]

theorem valByOffset_zero (sh : SymHeapCore) (r : Int) : sh.valByOffset r 0 = some (sh, r) := by
  simp [valByOffset]

theorem valByOffset_root_found {sh : SymHeapCore} {r : Int} {rb : BaseValue} {rd : RootValue}
    (hr : sh.d.rootData r = some (rb, rd)) (hoff : rb.offRoot = 0)
    (hlive : isPossibleToDeref rb.code = true) {o v : Int} (ho : o ≠ 0)
    (hfind : mapFind o rd.offMap = some v) : sh.valByOffset r o = some (sh, v) := by
  have hvd := valData_of_rootData hr
  have hpos : 0 < r := (rootData_eq_some.mp hr).1
  have hcode := not_unknown_gone_of_deref hlive
  simp [valByOffset, ho, not_le.mpr hpos, hvd, valRootOf, hoff, hcode, hr, hfind]

theorem valByOffset_root_new {sh : SymHeapCore} {r : Int} {rb : BaseValue} {rd : RootValue}
    (hr : sh.d.rootData r = some (rb, rd)) (hoff : rb.offRoot = 0)
    (hlive : isPossibleToDeref rb.code = true) {o : Int} (ho : o ≠ 0)
    (hfind : mapFind o rd.offMap = none) :
    sh.valByOffset r o = some (sh.withOffValue r rb rd o, (sh.d.ents.length : Int)) := by
  have hvd := valData_of_rootData hr
  have hpos : 0 < r := (rootData_eq_some.mp hr).1
  have hcode := not_unknown_gone_of_deref hlive
  simp [valByOffset, ho, not_le.mpr hpos, hvd, valRootOf, hoff, hcode, hr, hfind, withOffValue,
    lastId_pushEnt]

theorem valData_withOffValue_new {sh : SymHeapCore} {r : Int} {rb : BaseValue} {rd : RootValue}
    (hr : sh.d.rootData r = some (rb, rd)) (o : Int) :
    (sh.withOffValue r rb rd o).d.valData sh.d.ents.length
      = some ({ code := rb.code, origin := rb.origin, offRoot := o }, .OffValue r) := by
  have hpos : 0 < r := (rootData_eq_some.mp hr).1
  have hlen := (ent_eq_some (rootData_eq_some.mp hr).2).2.1
  rw [valData_eq_some]
  refine ⟨by omega, ?_⟩
  simp only [withOffValue]
  rw [ent_setEnt_ne _ (by omega) (by omega)]
  exact ent_pushEnt_last _ _

theorem rootData_withOffValue_root {sh : SymHeapCore} {r : Int} {rb : BaseValue} {rd : RootValue}
    (hr : sh.d.rootData r = some (rb, rd)) (o : Int) :
    (sh.withOffValue r rb rd o).d.rootData r
      = some (rb, { rd with offMap := mapSet intLt o (sh.d.ents.length : Int) rd.offMap }) := by
  have hpos : 0 < r := (rootData_eq_some.mp hr).1
  have hlen := (ent_eq_some (rootData_eq_some.mp hr).2).2.1
  rw [rootData_eq_some]
  refine ⟨hpos, ?_⟩
  simp only [withOffValue]
  exact ent_setEnt_same _ (by omega) (by rw [length_pushEnt]; push_cast; omega)

end SymHeapCore

open SymHeapCore.Private in
/-- C1 (amended): in a heap whose offset bookkeeping is intact, for every root
value `r` whose target is possible to dereference and every byte offset `o`,
`valByOffset(r, o)` returns a value and `valOffset` of that value is `o`. -/
theorem C1_offset_roundtrip (sh : SymHeapCore) (hinv : sh.d.OffInv = true) (r : Int)
    (rb : BaseValue) (rd : RootValue) (hr : sh.d.rootData r = some (rb, rd))
    (hlive : isPossibleToDeref rb.code = true) (o : Int) :
    ∃ sh' v, sh.valByOffset r o = some (sh', v) ∧ sh'.valOffset v = some o := by
  have hoff := root_offRoot_of_inv hinv hr
  have hvd := valData_of_rootData hr
  have hpos : 0 < r := (rootData_eq_some.mp hr).1
  have hlen := (ent_eq_some (rootData_eq_some.mp hr).2).2.1
  by_cases ho : o = 0
  · subst ho
    refine ⟨sh, r, SymHeapCore.valByOffset_zero sh r, ?_⟩
    simp [SymHeapCore.valOffset, hvd, hoff, not_le.mpr hpos]
  · cases hfind : mapFind o rd.offMap with
    | some v =>
      obtain ⟨b, x, hv, hbo⟩ := offMap_offRoot_of_inv hinv hr hfind
      refine ⟨sh, v, SymHeapCore.valByOffset_root_found hr hoff hlive ho hfind, ?_⟩
      have hvpos := (valData_eq_some.mp hv).1
      simp [SymHeapCore.valOffset, not_le.mpr hvpos, hv, hbo]
    | none =>
      refine ⟨_, _, SymHeapCore.valByOffset_root_new hr hoff hlive ho hfind, ?_⟩
      simp only [SymHeapCore.valOffset]
      rw [if_neg (by omega), SymHeapCore.valData_withOffValue_new hr o]
      rfl

open SymHeapCore.Private in
/-- C2 (amended): in a heap whose offset bookkeeping is intact, for every root
value `r` whose target is possible to dereference and every offset `o`, the
call `valByOffset(r, o)` returns a handle `v`, and a second call returns the
same handle `v` and leaves the heap as it is: no entity is allocated and
`lastId()` is unchanged. -/
theorem C2_offset_interned (sh : SymHeapCore) (hinv : sh.d.OffInv = true) (r : Int)
    (rb : BaseValue) (rd : RootValue) (hr : sh.d.rootData r = some (rb, rd))
    (hlive : isPossibleToDeref rb.code = true) (o : Int) :
    ∃ sh1 v, sh.valByOffset r o = some (sh1, v) ∧
      ∃ sh2, sh1.valByOffset r o = some (sh2, v) ∧ sh2 = sh1 ∧ sh2.lastId = sh1.lastId := by
  have hoff := root_offRoot_of_inv hinv hr
  by_cases ho : o = 0
  · subst ho
    exact ⟨sh, r, SymHeapCore.valByOffset_zero sh r, sh, SymHeapCore.valByOffset_zero sh r, rfl, rfl⟩
  · cases hfind : mapFind o rd.offMap with
    | some v =>
      have h1 := SymHeapCore.valByOffset_root_found hr hoff hlive ho hfind
      exact ⟨sh, v, h1, sh, h1, rfl, rfl⟩
    | none =>
      refine ⟨_, _, SymHeapCore.valByOffset_root_new hr hoff hlive ho hfind, _, ?_, rfl, rfl⟩
      exact SymHeapCore.valByOffset_root_found (SymHeapCore.rootData_withOffValue_root hr o) hoff hlive ho
        (mapFind_mapSet_same _ _ _ _)

theorem C1_offset_roundtrip_witness :
    ∃ sh' v, exAllocHeap.valByOffset 2 4 = some (sh', v) ∧ sh'.valOffset v = some 4 :=
  C1_offset_roundtrip exAllocHeap (by decide) 2
    { code := VT_ON_HEAP, origin := VO_ASSIGNED } { addr := 2, cbSize := 8 } (by decide)
    (by decide) 4

/-- C1 fails as stated: the block at address 2 was destroyed, 2 is still a
root value, and `valByOffset(2, 4)` returns a value whose `valOffset` is 0. -/
theorem C1_counterexample :
    exDestroyedHeap.d.OffInv = true ∧
    exDestroyedHeap.d.rootData 2
      = some ({ code := VT_DELETED, origin := VO_ASSIGNED }, { addr := 2, cbSize := 8 }) ∧
    (do let (sh', v) ← exDestroyedHeap.valByOffset 2 4
        sh'.valOffset v) = some 0 := by
  decide

theorem C2_offset_interned_witness :
    ∃ sh1 v, exAllocHeap.valByOffset 2 4 = some (sh1, v) ∧
      ∃ sh2, sh1.valByOffset 2 4 = some (sh2, v) ∧ sh2 = sh1 ∧ sh2.lastId = sh1.lastId :=
  C2_offset_interned exAllocHeap (by decide) 2
    { code := VT_ON_HEAP, origin := VO_ASSIGNED } { addr := 2, cbSize := 8 } (by decide)
    (by decide) 4

/-- C2 fails as stated: for the destroyed block at address 2, two successive
calls `valByOffset(2, 4)` return the handles 3 and 4, and the second call
raises `lastId()` from 3 to 4. -/
theorem C2_counterexample :
    exDestroyedHeap.d.rootData 2
      = some ({ code := VT_DELETED, origin := VO_ASSIGNED }, { addr := 2, cbSize := 8 }) ∧
    (do let (sh1, v1) ← exDestroyedHeap.valByOffset 2 4
        let (sh2, v2) ← sh1.valByOffset 2 4
        some (v1, v2, sh1.lastId, sh2.lastId)) = some (3, 4, 3, 4) := by
  decide

namespace SymHeapCore.Private

@[simp] theorem neqDb_setEnt (d : Private) (id : Int) (e : IHeapEntity) :
    (d.setEnt id e).neqDb = d.neqDb := rfl

@[simp] theorem neqDb_pushEnt (d : Private) (e : IHeapEntity) :
    (d.pushEnt e).neqDb = d.neqDb := rfl

theorem releaseValueOf_neqDb {d d' : Private} {obj val : Int}
    (h : d.releaseValueOf obj val = some d') : d'.neqDb = d.neqDb := by
  unfold releaseValueOf at h
  split at h
  · cases h; rfl
  · simp only [Option.bind_eq_bind, Option.bind_eq_some] at h
    obtain ⟨⟨b, x⟩, -, h⟩ := h
    simp only at h
    split at h
    · cases h
    · simp only [Option.bind_eq_bind, Option.bind_eq_some] at h
      obtain ⟨root, -, ⟨rb, rx⟩, -, h⟩ := h
      simp only at h
      split at h
      · cases h; rfl
      · split at h
        · split at h
          · cases h
          · cases h; rfl
        · cases h

theorem setValueOf_neqDb {d d' : Private} {obj val : Int}
    (h : d.setValueOf obj val = some d') : d'.neqDb = d.neqDb := by
  unfold setValueOf at h
  simp only [Option.bind_eq_bind, Option.bind_eq_some] at h
  obtain ⟨o, -, d1, h1, h⟩ := h
  have e1 := releaseValueOf_neqDb h1
  split at h
  · cases h; simpa using e1
  · simp only [Option.bind_eq_bind, Option.bind_eq_some] at h
    obtain ⟨⟨b, x⟩, -, h⟩ := h
    simp only at h
    split at h
    · cases h; simpa using e1
    · simp only [Option.bind_eq_bind, Option.bind_eq_some] at h
      obtain ⟨root, -, ⟨rb, rd⟩, -, h⟩ := h
      cases h; simpa using e1

theorem valCreate_neqDb {d d' : Private} {code : EValueTarget} {origin : EValueOrigin} {v : Int}
    (h : d.valCreate code origin = some (d', v)) : d'.neqDb = d.neqDb := by
  unfold valCreate at h
  split at h <;> first | (cases h; rfl) | cases h

theorem valDup_neqDb {d d' : Private} {val v : Int}
    (h : d.valDup val = some (d', v)) : d'.neqDb = d.neqDb := by
  unfold valDup at h
  simp only [Option.bind_eq_bind, Option.bind_eq_some] at h
  obtain ⟨⟨b, x⟩, -, h⟩ := h
  cases h; rfl

theorem objDestroyLoop_neqDb {d d' : Private} {objs : List Int}
    (h : d.objDestroyLoop objs = some d') : d'.neqDb = d.neqDb := by
  induction objs generalizing d with
  | nil => unfold objDestroyLoop at h; cases h; rfl
  | cons obj rest ih =>
    unfold objDestroyLoop at h
    simp only [Option.bind_eq_bind, Option.bind_eq_some] at h
    obtain ⟨o, -, d1, h1, h⟩ := h
    rw [ih h]; simpa using releaseValueOf_neqDb h1

theorem objDestroy_neqDb {d d' : Private} {root : Int}
    (h : d.objDestroy root = some d') : d'.neqDb = d.neqDb := by
  unfold objDestroy at h
  simp only [Option.bind_eq_bind, Option.bind_eq_some] at h
  obtain ⟨⟨rb, rd⟩, -, ⟨d1, code⟩, h1, d3, h3, ⟨rb', rd'⟩, -, h⟩ := h
  cases h
  have e3 := objDestroyLoop_neqDb h3
  simp only [neqDb_setEnt, e3]
  unfold objDestroyCVar at h1
  split at h1
  · split at h1
    · cases h1
    · cases h1; rfl
  · cases h1; rfl

theorem objDupLoop_neqDb {d d' : Private} {liveSrc : TLiveObjs} {imageAt : Int}
    {objs : List Int} (h : d.objDupLoop liveSrc imageAt objs = some d') :
    d'.neqDb = d.neqDb := by
  induction objs generalizing d with
  | nil => unfold objDupLoop at h; cases h; rfl
  | cons obj rest ih =>
    unfold objDupLoop at h
    simp only [Option.bind_eq_bind, Option.bind_eq_some, objCreate] at h
    obtain ⟨o, -, d2, h2, o2, -, ⟨rb, rd⟩, -, h⟩ := h
    rw [ih h]; simpa using setValueOf_neqDb h2

theorem objDup_neqDb {d d' : Private} {rootAt v : Int}
    (h : d.objDup rootAt = some (d', v)) : d'.neqDb = d.neqDb := by
  unfold objDup at h
  simp only [Option.bind_eq_bind, Option.bind_eq_some, objCreate] at h
  obtain ⟨⟨sb, srd⟩, -, o, -, ⟨d2, imageAt⟩, h2, ⟨rb, rd⟩, -, d6, h6, h⟩ := h
  cases h
  rw [objDupLoop_neqDb h6]
  simpa using valCreate_neqDb h2

theorem neqOpWrap_inv {d d' : Private} {op : ENeqOp} {a b : Int} (hinv : d.neqDb.Inv)
    (h : d.neqOpWrap op a b = some d') : d'.neqDb.Inv ∧ d'.ents = d.ents := by
  unfold neqOpWrap at h
  split at h
  · cases h; exact ⟨hinv, rfl⟩
  · simp only [Option.bind_eq_bind, Option.bind_eq_some] at h
    obtain ⟨db, hdb, h⟩ := h
    cases h; exact ⟨NeqDb.inv_add hinv hdb, rfl⟩
  · simp only [Option.bind_eq_bind, Option.bind_eq_some] at h
    obtain ⟨db, hdb, h⟩ := h
    cases h; exact ⟨NeqDb.inv_del hinv hdb, rfl⟩

end SymHeapCore.Private

namespace SymHeapCore

open SymHeapCore.Private

theorem neqOp_inv {sh sh' : SymHeapCore} {op : ENeqOp} {a b : Int} (hinv : sh.d.neqDb.Inv)
    (h : sh.neqOp op a b = some sh') : sh'.d.neqDb.Inv := by
  unfold neqOp at h
  simp only [Option.bind_eq_bind, Option.bind_eq_some] at h
  obtain ⟨d1, h1, off, -, h⟩ := h
  have i1 := (neqOpWrap_inv hinv h1).1
  split at h
  · cases h; exact i1
  · simp only [Option.bind_eq_bind, Option.bind_eq_some] at h
    obtain ⟨offB, -, h⟩ := h
    split at h
    · cases h; exact i1
    · simp only [Option.bind_eq_bind, Option.bind_eq_some] at h
      obtain ⟨ra, -, rb, -, d2, h2, h⟩ := h
      cases h
      exact (neqOpWrap_inv i1 h2).1

theorem valReplaceNeqs_inv {sh sh' : SymHeapCore} {val replaceBy : Int} {neqs : List Int}
    (hinv : sh.d.neqDb.Inv) (h : sh.valReplaceNeqs val replaceBy neqs = some sh') :
    sh'.d.neqDb.Inv := by
  induction neqs generalizing sh with
  | nil => unfold valReplaceNeqs at h; cases h; exact hinv
  | cons x rest ih =>
    unfold valReplaceNeqs at h
    simp only [Option.bind_eq_bind, Option.bind_eq_some] at h
    obtain ⟨sh1, h1, sh2, h2, h⟩ := h
    exact ih (neqOp_inv (neqOp_inv hinv h1) h2) h

theorem objSetValue_neqDb {sh sh' : SymHeapCore} {obj val : Int}
    (h : sh.objSetValue obj val = some sh') : sh'.d.neqDb = sh.d.neqDb := by
  unfold objSetValue at h
  simp only [Option.bind_eq_bind, Option.bind_eq_some] at h
  obtain ⟨o, -, h⟩ := h
  split at h
  · cases h
  · simp only [Option.bind_eq_bind, Option.bind_eq_some] at h
    obtain ⟨⟨rb, rd⟩, -, d2, h2, h⟩ := h
    cases h
    simpa using setValueOf_neqDb h2

theorem valReplaceObjs_neqDb {sh sh' : SymHeapCore} {replaceBy : Int} {objs : List Int}
    (h : sh.valReplaceObjs replaceBy objs = some sh') : sh'.d.neqDb = sh.d.neqDb := by
  induction objs generalizing sh with
  | nil => unfold valReplaceObjs at h; cases h; rfl
  | cons x rest ih =>
    unfold valReplaceObjs at h
    simp only [Option.bind_eq_bind, Option.bind_eq_some] at h
    obtain ⟨sh1, h1, h⟩ := h
    rw [ih h, objSetValue_neqDb h1]

theorem valReplace_inv {sh sh' : SymHeapCore} {val replaceBy : Int} (hinv : sh.d.neqDb.Inv)
    (h : sh.valReplace val replaceBy = some sh') : sh'.d.neqDb.Inv := by
  unfold valReplace at h
  simp only [Option.bind_eq_bind, Option.bind_eq_some] at h
  obtain ⟨⟨b, x⟩, -, sh1, h1, sh2, h2, h⟩ := h
  have i1 : sh1.d.neqDb.Inv := by rw [valReplaceObjs_neqDb h1]; exact hinv
  exact valReplaceNeqs_inv (neqOp_inv i1 h2) h

theorem valMerge_inv {sh sh' : SymHeapCore} {mk : SymHeapCore → Int → Int → Int × Int}
    {abs : Int → Bool} {val replaceBy : Int} (hinv : sh.d.neqDb.Inv)
    (h : sh.valMerge mk abs val replaceBy = some sh') : sh'.d.neqDb.Inv := by
  unfold valMerge at h
  simp only [Option.bind_eq_bind, Option.bind_eq_some] at h
  obtain ⟨neq, -, h⟩ := h
  split at h
  · cases h
  · exact valReplace_inv hinv h

theorem copyRelevantPredsLoop_inv {dst dst' : SymHeapCore} {valMap : List (Int × Int)}
    {items : List (Int × Int)} (hinv : dst.d.neqDb.Inv)
    (h : copyRelevantPredsLoop dst valMap items = some dst') : dst'.d.neqDb.Inv := by
  induction items generalizing dst with
  | nil => unfold copyRelevantPredsLoop at h; cases h; exact hinv
  | cons x rest ih =>
    unfold copyRelevantPredsLoop at h
    split at h
    · simp only [Option.bind_eq_bind, Option.bind_eq_some] at h
      obtain ⟨dst1, h1, h⟩ := h
      exact ih (neqOp_inv hinv h1) h
    · exact ih hinv h

theorem valByOffset_neqDb {sh sh' : SymHeapCore} {at_ off v : Int}
    (h : sh.valByOffset at_ off = some (sh', v)) : sh'.d.neqDb = sh.d.neqDb := by
  unfold valByOffset at h
  split at h
  · cases h; rfl
  · simp only [Option.bind_eq_bind, Option.bind_eq_some] at h
    obtain ⟨vd, -, vr, -, h⟩ := h
    split at h
    · cases h; rfl
    · split at h
      · simp only [Option.bind_eq_bind, Option.bind_eq_some] at h
        obtain ⟨⟨d1, dup⟩, h1, h⟩ := h
        cases h
        exact valDup_neqDb h1
      · simp only [Option.bind_eq_bind, Option.bind_eq_some] at h
        obtain ⟨⟨rb, rd⟩, -, h⟩ := h
        simp only at h
        split at h
        · cases h; rfl
        · cases h; rfl

theorem valClone_neqDb {sh sh' : SymHeapCore} {val v : Int}
    (h : sh.valClone val = some (sh', v)) : sh'.d.neqDb = sh.d.neqDb := by
  unfold valClone at h
  simp only [Option.bind_eq_bind, Option.bind_eq_some] at h
  obtain ⟨vd, -, h⟩ := h
  split at h
  · simp only [Option.bind_eq_bind, Option.bind_eq_some] at h
    obtain ⟨⟨d1, dup⟩, h1, h⟩ := h
    cases h
    exact valDup_neqDb h1
  · simp only [Option.bind_eq_bind, Option.bind_eq_some] at h
    obtain ⟨root, -, ⟨d1, dupAt⟩, h1, h⟩ := h
    rw [valByOffset_neqDb h]
    exact objDup_neqDb h1

theorem valDestroyTarget_neqDb {sh sh' : SymHeapCore} {val : Int} {r : Bool}
    (h : sh.valDestroyTarget val = some (sh', r)) : sh'.d.neqDb = sh.d.neqDb := by
  unfold valDestroyTarget at h
  split at h
  · cases h; rfl
  · simp only [Option.bind_eq_bind, Option.bind_eq_some] at h
    obtain ⟨vd, -, h⟩ := h
    split at h
    · cases h; rfl
    · simp only [Option.bind_eq_bind, Option.bind_eq_some] at h
      obtain ⟨d1, h1, h⟩ := h
      cases h
      exact objDestroy_neqDb h1

theorem heapAlloc_neqDb {sh sh' : SymHeapCore} {cbSize : Nat} {v : Int}
    (h : sh.heapAlloc cbSize = some (sh', v)) : sh'.d.neqDb = sh.d.neqDb := by
  unfold heapAlloc at h
  simp only [Option.bind_eq_bind, Option.bind_eq_some] at h
  obtain ⟨⟨d1, addr⟩, h1, ⟨rb, rd⟩, -, h⟩ := h
  cases h
  simpa using valCreate_neqDb h1

theorem valueOf_neqDb {sh sh' : SymHeapCore} {obj v : Int}
    (h : sh.valueOf obj = some (sh', v)) : sh'.d.neqDb = sh.d.neqDb := by
  unfold valueOf at h
  split at h
  · cases h; rfl
  · split at h
    · cases h; rfl
    · simp only [Option.bind_eq_bind, Option.bind_eq_some] at h
      obtain ⟨o, -, h⟩ := h
      split at h
      · cases h; rfl
      · simp only [Option.bind_eq_bind, Option.bind_eq_some] at h
        obtain ⟨⟨d1, val⟩, h1, ⟨b, x⟩, -, h⟩ := h
        cases h
        simp only [neqDb_setEnt]
        unfold valueOfCreate at h1
        split at h1
        · simp only [Option.bind_eq_bind, Option.bind_eq_some] at h1
          obtain ⟨⟨d0, val0⟩, h0, ⟨b0, x0⟩, -, h1⟩ := h1
          cases h1
          simpa using valCreate_neqDb h0
        · simp only [Option.bind_eq_bind, Option.bind_eq_some] at h1
          obtain ⟨⟨rb, rd⟩, -, vo, -, h1⟩ := h1
          exact valCreate_neqDb h1

theorem create_neqDb {stor : Storage} {sh : SymHeapCore} (h : create stor = some sh) :
    sh.d.neqDb = {} := by
  unfold create at h
  simp only [Option.bind_eq_bind, Option.bind_eq_some] at h
  obtain ⟨⟨d1, addrRet⟩, h1, h⟩ := h
  simp only at h
  split at h
  · cases h
  · simp only [Option.bind_eq_bind, Option.bind_eq_some] at h
    obtain ⟨⟨rb, rd⟩, -, h⟩ := h
    cases h
    simpa using valCreate_neqDb h1

/-- Each pair of the disequality store of a reachable heap has the smaller
value first, and the store holds no pair twice. -/
theorem neqDb_inv_of_reachable {sh : SymHeapCore} (h : Reachable sh) : sh.d.neqDb.Inv := by
  induction h with
  | create hc => rw [create_neqDb hc]; exact NeqDb.inv_init
  | neqOp op a b _ hop ih => exact neqOp_inv ih hop
  | valReplace v w _ hop ih => exact valReplace_inv ih hop
  | valMerge mk abs v w _ hop ih => exact valMerge_inv ih hop
  | copyRelevantPreds m _ hop ih => exact copyRelevantPredsLoop_inv ih hop
  | valByOffset a o v _ hop ih => rw [valByOffset_neqDb hop]; exact ih
  | valClone a v _ hop ih => rw [valClone_neqDb hop]; exact ih
  | valDestroyTarget a r _ hop ih => rw [valDestroyTarget_neqDb hop]; exact ih
  | heapAlloc c v _ hop ih => rw [heapAlloc_neqDb hop]; exact ih
  | valCreate c o v _ hop ih =>
    show Private.neqDb _ |>.Inv
    rw [valCreate_neqDb hop]; exact ih
  | objSetValue o v _ hop ih => rw [objSetValue_neqDb hop]; exact ih
  | valueOf o v _ hop ih => rw [valueOf_neqDb hop]; exact ih

end SymHeapCore

/-- C4: in every heap reachable from a freshly constructed heap by the public
operations (`neqOp`, `valReplace`, `valMerge`, `copyRelevantPreds`,
`valByOffset`, `valClone`, `valDestroyTarget`, and `heapAlloc`, `valCreate`,
`objSetValue`, `valueOf`), the disequality store holds no pair `(v, v)`, and
`areNeq(a, a)` is false for every value `a`. -/
theorem C4_no_self_neq (sh : SymHeapCore) (h : SymHeapCore.Reachable sh) :
    (∀ v : Int, (v, v) ∉ sh.d.neqDb.cont_) ∧ ∀ a : Int, sh.d.neqDb.areNeq a a = false := by
  have hinv := SymHeapCore.neqDb_inv_of_reachable h
  refine ⟨?_, fun a => NeqDb.areNeq_self_of_inv hinv a⟩
  intro v hv
  have := hinv.2 _ hv
  simp at this

theorem C4_no_self_neq_witness :
    (∀ v : Int, (v, v) ∉ exNeqHeap.d.neqDb.cont_) ∧
    ∀ a : Int, exNeqHeap.d.neqDb.areNeq a a = false :=
  C4_no_self_neq exNeqHeap
    (SymHeapCore.Reachable.neqOp NEQ_ADD VAL_ADDR_OF_RET VAL_NULL
      (SymHeapCore.Reachable.create (by decide : SymHeapCore.create {} = some exFreshHeap))
      (by decide))

namespace IHeapEntity

@[simp] theorem skel_eraseUsedBy (obj : Int) (e : IHeapEntity) : (eraseUsedBy obj e).skel = e.skel := by
  cases e with
  | HeapObject o => rfl
  | Value b x => cases x <;> rfl

@[simp] theorem skel_insertUsedBy (obj : Int) (e : IHeapEntity) : (insertUsedBy obj e).skel = e.skel := by
  cases e with
  | HeapObject o => rfl
  | Value b x => cases x <;> rfl

@[simp] theorem skel_eraseUsedByGl (obj : Int) (e : IHeapEntity) : (eraseUsedByGl obj e).skel = e.skel := by
  cases e with
  | HeapObject o => rfl
  | Value b x => cases x <;> rfl

@[simp] theorem skel_insertUsedByGl (obj : Int) (e : IHeapEntity) :
    (insertUsedByGl obj e).skel = e.skel := by
  cases e with
  | HeapObject o => rfl
  | Value b x => cases x <;> rfl

@[simp] theorem skel_setLive (obj : Int) (p : Bool) (e : IHeapEntity) : (setLive obj p e).skel = e.skel := by
  cases e with
  | HeapObject o => rfl
  | Value b x => cases x <;> rfl

@[simp] theorem skel_setValue (v : Int) (e : IHeapEntity) : (setValue v e).skel = e.skel := by
  cases e with
  | HeapObject o => rfl
  | Value b x => cases x <;> rfl

end IHeapEntity

namespace SymHeapCore.Private

theorem ent_setEnt {d : Private} {id : Int} {e0 : IHeapEntity} (e : IHeapEntity)
    (h : d.ent id = some e0) (j : Int) :
    (d.setEnt id e).ent j = if j = id then some e else d.ent j := by
  have hr := ent_eq_some h
  split
  · rename_i hj; subst hj; exact ent_setEnt_same e hr.1 hr.2.1
  · rename_i hj; exact ent_setEnt_ne e hr.1 hj

theorem ent_modEnt (d : Private) (id : Int) (f : IHeapEntity → IHeapEntity) (j : Int) :
    (d.modEnt id f).ent j = if j = id then (d.ent j).map f else d.ent j := by
  unfold modEnt
  cases h : d.ent id with
  | none =>
    simp only
    split
    · rename_i hj; subst hj; rw [h]; rfl
    · rfl
  | some e =>
    simp only
    rw [ent_setEnt _ h]
    split
    · rename_i hj; subst hj; rw [h]; rfl
    · rfl

theorem setEnt_eq_modEnt {d : Private} {id : Int} {e0 : IHeapEntity} (h : d.ent id = some e0)
    (f : IHeapEntity → IHeapEntity) : d.setEnt id (f e0) = d.modEnt id f := by
  unfold modEnt; rw [h]

@[simp] theorem length_modEnt (d : Private) (id : Int) (f : IHeapEntity → IHeapEntity) :
    (d.modEnt id f).ents.length = d.ents.length := by
  unfold modEnt; split <;> simp [setEnt]

@[simp] theorem neqDb_modEnt (d : Private) (id : Int) (f : IHeapEntity → IHeapEntity) :
    (d.modEnt id f).neqDb = d.neqDb := by
  unfold modEnt; split <;> rfl

theorem valOutOfRange_congr {d d' : Private} (h : d'.ents.length = d.ents.length) (v : Int) :
    d'.valOutOfRange v = d.valOutOfRange v := by
  simp [valOutOfRange, lastId, h]

end SymHeapCore.Private

namespace SymHeapCore.Private

theorem valRootOf_congr {d d' : Private} (h : d'.ents.length = d.ents.length) (v : Int)
    (p : BaseValue × ValueExt) : d'.valRootOf v p = d.valRootOf v p := by
  unfold valRootOf
  split
  · rfl
  · split
    · rw [valOutOfRange_congr h]
    · rfl

/-- The value data of a slot after a write `f` that keeps the skeleton. -/
theorem valData_modEnt_eraseUsedBy {d : Private} {v : Int} {b : BaseValue} {x : ValueExt}
    (obj id : Int) (h : d.valData v = some (b, x)) :
    (d.modEnt id (IHeapEntity.eraseUsedBy obj)).valData v
      = some (if v = id then { b with usedBy := setErase obj b.usedBy } else b, x) := by
  rw [valData_eq_some] at h ⊢
  refine ⟨h.1, ?_⟩
  rw [ent_modEnt]
  split
  · rw [h.2]; rfl
  · exact h.2

theorem releaseValueOf_eq {d : Private} {obj val R : Int} {b rb : BaseValue} {x rx : ValueExt}
    (hv : d.valData val = some (b, x)) (hmem : obj ∈ b.usedBy)
    (hroot : d.valRootOf val (b, x) = some R) (hR : d.valData R = some (rb, rx))
    (hgl : isPossibleToDeref rb.code = true → ∃ rd, rx = .RootValue rd ∧ obj ∈ rd.usedByGl) :
    d.releaseValueOf obj val
      = some (if isPossibleToDeref rb.code
          then (d.modEnt val (IHeapEntity.eraseUsedBy obj)).modEnt R (IHeapEntity.eraseUsedByGl obj)
          else d.modEnt val (IHeapEntity.eraseUsedBy obj)) := by
  have hpos := (valData_eq_some.mp hv).1
  have hent := (valData_eq_some.mp hv).2
  have hd1 : d.setEnt val (.Value { b with usedBy := setErase obj b.usedBy } x)
      = d.modEnt val (IHeapEntity.eraseUsedBy obj) :=
    setEnt_eq_modEnt hent (IHeapEntity.eraseUsedBy obj)
  have hroot1 : (d.modEnt val (IHeapEntity.eraseUsedBy obj)).valRootOf val
      ({ b with usedBy := setErase obj b.usedBy }, x) = some R := by
    rw [valRootOf_congr (length_modEnt _ _ _)]
    unfold valRootOf at hroot ⊢
    exact hroot
  have hR1 := valData_modEnt_eraseUsedBy obj val hR
  unfold releaseValueOf
  rw [if_neg (by omega)]
  simp only [Option.bind_eq_bind, hv, Option.some_bind, hmem, not_true_eq_false, if_false, hd1,
    hroot1, hR1]
  by_cases hderef : isPossibleToDeref rb.code = true
  · obtain ⟨rd, hrx, hgm⟩ := hgl hderef
    subst hrx
    have hcode : (if R = val then { rb with usedBy := setErase obj rb.usedBy } else rb).code = rb.code := by
      split <;> rfl
    simp only [hcode, hderef, Bool.not_true, Bool.false_eq_true, if_false, hgm, not_true_eq_false,
      if_true]
    congr 1
    exact setEnt_eq_modEnt (valData_eq_some.mp hR1).2 (IHeapEntity.eraseUsedByGl obj)
  · have hcode : (if R = val then { rb with usedBy := setErase obj rb.usedBy } else rb).code = rb.code := by
      split <;> rfl
    simp only [hcode, hderef, Bool.not_false, if_true, if_false]
    simp [hderef]

end SymHeapCore.Private

namespace IHeapEntity

theorem skel_eq_value {e' : IHeapEntity} {b : BaseValue} {x : ValueExt}
    (h : e'.skel = (IHeapEntity.Value b x).skel) :
    ∃ b' x', e' = .Value b' x' ∧ b'.code = b.code ∧ b'.origin = b.origin ∧
      b'.offRoot = b.offRoot ∧
      ((∃ rd rd', x = .RootValue rd ∧ x' = .RootValue rd' ∧
          rd'.offMap = rd.offMap ∧ rd'.allObjs = rd.allObjs ∧ rd'.cVar = rd.cVar) ∨
        ((∀ rd, x ≠ .RootValue rd) ∧ x' = x)) := by
  cases e' with
  | HeapObject o => cases x <;> simp [skel] at h
  | Value b' x' =>
    refine ⟨b', x', rfl, ?_⟩
    cases x with
    | RootValue rd =>
      cases x' with
      | RootValue rd' =>
        simp only [skel, IHeapEntity.Value.injEq, ValueExt.RootValue.injEq] at h
        obtain ⟨hb, hx⟩ := h
        injection hb with hc ho hf _
        injection hx with h1 h2 h3 h4 h5 h6 h7 h8 h9 h10
        exact ⟨hc, ho, hf, Or.inl ⟨rd, rd', rfl, rfl, h1, h6, h5⟩⟩
      | _ => simp [skel] at h
    | BaseValue =>
      cases x' <;> simp only [skel, IHeapEntity.Value.injEq, reduceCtorEq, and_false] at h
      obtain ⟨hb, hx⟩ := h
      injection hb with hc ho hf _
      exact ⟨hc, ho, hf, Or.inr ⟨by intro rd; simp, rfl⟩⟩
    | CompValue c =>
      cases x' <;> simp only [skel, IHeapEntity.Value.injEq, reduceCtorEq, and_false] at h
      obtain ⟨hb, hx⟩ := h
      injection hb with hc ho hf _
      exact ⟨hc, ho, hf, Or.inr ⟨by intro rd; simp, hx⟩⟩
    | CustomValue c =>
      cases x' <;> simp only [skel, IHeapEntity.Value.injEq, reduceCtorEq, and_false] at h
      obtain ⟨hb, hx⟩ := h
      injection hb with hc ho hf _
      exact ⟨hc, ho, hf, Or.inr ⟨by intro rd; simp, hx⟩⟩
    | OffValue c =>
      cases x' <;> simp only [skel, IHeapEntity.Value.injEq, reduceCtorEq, and_false] at h
      obtain ⟨hb, hx⟩ := h
      injection hb with hc ho hf _
      exact ⟨hc, ho, hf, Or.inr ⟨by intro rd; simp, hx⟩⟩

theorem skel_eq_obj {e' : IHeapEntity} {o : Predator.HeapObject}
    (h : e'.skel = (IHeapEntity.HeapObject o).skel) :
    ∃ o', e' = .HeapObject o' ∧ o'.root = o.root ∧ o'.off = o.off ∧ o'.clt = o.clt := by
  cases e' with
  | HeapObject o' =>
    simp only [skel, IHeapEntity.HeapObject.injEq] at h
    injection h with h1 h2 h3 h4
    exact ⟨o', rfl, h2, h3, h4⟩
  | Value b' x' => cases x' <;> simp [skel] at h

end IHeapEntity

namespace SymHeapCore.Private

theorem SameSkel.refl (d : Private) : SameSkel d d := ⟨rfl, fun _ => rfl⟩

theorem SameSkel.trans {d1 d2 d3 : Private} (h12 : SameSkel d1 d2) (h23 : SameSkel d2 d3) :
    SameSkel d1 d3 :=
  ⟨h23.1.trans h12.1, fun j => (h23.2 j).trans (h12.2 j)⟩

theorem SameSkel.modEnt (d : Private) (id : Int) {f : IHeapEntity → IHeapEntity}
    (hf : ∀ e, (f e).skel = e.skel) : SameSkel d (d.modEnt id f) := by
  refine ⟨length_modEnt d id f, fun j => ?_⟩
  rw [ent_modEnt]
  split
  · cases d.ent j with
    | none => rfl
    | some e => simp [hf]
  · rfl

theorem SameSkel.ent_value {d d' : Private} (h : SameSkel d d') {v : Int} {b : BaseValue}
    {x : ValueExt} (hv : d.ent v = some (.Value b x)) :
    ∃ b' x', d'.ent v = some (.Value b' x') ∧ b'.code = b.code ∧ b'.origin = b.origin ∧
      b'.offRoot = b.offRoot ∧
      ((∃ rd rd', x = .RootValue rd ∧ x' = .RootValue rd' ∧
          rd'.offMap = rd.offMap ∧ rd'.allObjs = rd.allObjs ∧ rd'.cVar = rd.cVar) ∨
        ((∀ rd, x ≠ .RootValue rd) ∧ x' = x)) := by
  have hj := h.2 v
  rw [hv] at hj
  cases he : d'.ent v with
  | none => rw [he] at hj; cases hj
  | some e' =>
    rw [he] at hj
    simp only [Option.map_some', Option.some.injEq] at hj
    obtain ⟨b', x', rfl, hrest⟩ := IHeapEntity.skel_eq_value hj
    exact ⟨b', x', rfl, hrest⟩

theorem SameSkel.valData {d d' : Private} (h : SameSkel d d') {v : Int} {b : BaseValue}
    {x : ValueExt} (hv : d.valData v = some (b, x)) :
    ∃ b' x', d'.valData v = some (b', x') ∧ b'.code = b.code ∧ b'.origin = b.origin ∧
      b'.offRoot = b.offRoot ∧ d'.valRootOf v (b', x') = d.valRootOf v (b, x) := by
  obtain ⟨hpos, hent⟩ := valData_eq_some.mp hv
  obtain ⟨b', x', he', hc, ho, hf, hx⟩ := h.ent_value hent
  refine ⟨b', x', valData_eq_some.mpr ⟨hpos, he'⟩, hc, ho, hf, ?_⟩
  rw [valRootOf_congr h.1]
  unfold valRootOf
  simp only [hf]
  split
  · rfl
  · rcases hx with ⟨rd, rd', h1, h2, -⟩ | ⟨-, h2⟩
    · subst h1; subst h2; rfl
    · subst h2; rfl

theorem SameSkel.rootData {d d' : Private} (h : SameSkel d d') {v : Int} {b : BaseValue}
    {rd : RootValue} (hv : d.rootData v = some (b, rd)) :
    ∃ b' rd', d'.rootData v = some (b', rd') ∧ b'.code = b.code ∧ b'.offRoot = b.offRoot ∧
      rd'.offMap = rd.offMap := by
  obtain ⟨hpos, hent⟩ := rootData_eq_some.mp hv
  obtain ⟨b', x', he', hc, ho, hf, hx⟩ := h.ent_value hent
  rcases hx with ⟨rd0, rd', h1, h2, h3, -⟩ | ⟨h1, -⟩
  · cases h1; subst h2
    exact ⟨b', rd', rootData_eq_some.mpr ⟨hpos, he'⟩, hc, hf, h3⟩
  · exact absurd rfl (h1 rd)

theorem SameSkel.objData {d d' : Private} (h : SameSkel d d') {obj : Int} {o : HeapObject}
    (ho : d.objData obj = some o) :
    ∃ o', d'.objData obj = some o' ∧ o'.root = o.root ∧ o'.off = o.off ∧ o'.clt = o.clt := by
  have hent := objData_eq_some.mp ho
  have hj := h.2 obj
  rw [hent] at hj
  cases he : d'.ent obj with
  | none => rw [he] at hj; cases hj
  | some e' =>
    rw [he] at hj
    simp only [Option.map_some', Option.some.injEq] at hj
    obtain ⟨o', rfl, hrest⟩ := IHeapEntity.skel_eq_obj hj
    exact ⟨o', objData_eq_some.mpr he, hrest⟩

theorem SameSkel.symm {d d' : Private} (h : SameSkel d d') : SameSkel d' d :=
  ⟨h.1.symm, fun j => (h.2 j).symm⟩

end SymHeapCore.Private

namespace SymHeapCore.Private

theorem valRootOf_usedBy (d : Private) (v : Int) (b : BaseValue) (x : ValueExt) (u : TUsedBy) :
    d.valRootOf v ({ b with usedBy := u }, x) = d.valRootOf v (b, x) := rfl

theorem SameSkel.released (d : Private) (obj old R : Int) (derefR : Bool) :
    SameSkel d (d.released obj old R derefR) := by
  unfold Private.released
  split
  · exact SameSkel.refl d
  · split
    · exact (SameSkel.modEnt d old (IHeapEntity.skel_eraseUsedBy obj)).trans
        (SameSkel.modEnt _ R (IHeapEntity.skel_eraseUsedByGl obj))
    · exact SameSkel.modEnt d old (IHeapEntity.skel_eraseUsedBy obj)

theorem SameSkel.written (d : Private) (obj val Rw : Int) (derefW : Bool) :
    SameSkel d (d.written obj val Rw derefW) := by
  unfold Private.written
  split
  · exact SameSkel.modEnt d obj (IHeapEntity.skel_setValue val)
  · split
    · exact ((SameSkel.modEnt d obj (IHeapEntity.skel_setValue val)).trans
        (SameSkel.modEnt _ val (IHeapEntity.skel_insertUsedBy obj))).trans
        (SameSkel.modEnt _ Rw (IHeapEntity.skel_insertUsedByGl obj))
    · exact (SameSkel.modEnt d obj (IHeapEntity.skel_setValue val)).trans
        (SameSkel.modEnt _ val (IHeapEntity.skel_insertUsedBy obj))

/-- The second half of `setValueOf`, after the old value was released into
the state `d1`: the object gets the value and the value and its root get the
object. -/
theorem setValueOf_eq {d d1 : Private} {obj val Rw : Int} {o : HeapObject}
    {wb : BaseValue} {wx : ValueExt}
    (ho : d.objData obj = some o) (h1 : d.releaseValueOf obj o.value = some d1)
    (ho1 : d1.objData obj = some o)
    (hw : 0 < val → d1.valData val = some (wb, wx) ∧
      (isPossibleToDeref wb.code = true →
        d1.valRootOf val (wb, wx) = some Rw ∧ (d1.rootData Rw).isSome = true)) :
    d.setValueOf obj val = some (d1.written obj val Rw (isPossibleToDeref wb.code)) := by
  unfold setValueOf
  simp only [Option.bind_eq_bind, ho, Option.some_bind, h1]
  have hd2 : d1.setEnt obj (.HeapObject { o with value := val })
      = d1.modEnt obj (IHeapEntity.setValue val) :=
    setEnt_eq_modEnt (objData_eq_some.mp ho1) (IHeapEntity.setValue val)
  rw [hd2]
  unfold Private.written
  by_cases hval : val ≤ 0
  · simp only [hval, if_true]
  · simp only [hval, if_false]
    obtain ⟨hwd, hwr⟩ := hw (by omega)
    have hs2 : SameSkel d1 (d1.modEnt obj (IHeapEntity.setValue val)) :=
      SameSkel.modEnt d1 obj (IHeapEntity.skel_setValue val)
    obtain ⟨wb2, wx2, hw2, hc2, -, hf2, hr2⟩ := hs2.valData hwd
    simp only [hw2, Option.some_bind]
    have hd3 : (d1.modEnt obj (IHeapEntity.setValue val)).setEnt val
        (.Value { wb2 with usedBy := setInsert intLt obj wb2.usedBy } wx2)
        = (d1.modEnt obj (IHeapEntity.setValue val)).modEnt val (IHeapEntity.insertUsedBy obj) :=
      setEnt_eq_modEnt (valData_eq_some.mp hw2).2 (IHeapEntity.insertUsedBy obj)
    rw [hd3]
    have hdc : isPossibleToDeref wb2.code = isPossibleToDeref wb.code := by rw [hc2]
    simp only [hdc]
    by_cases hderef : isPossibleToDeref wb.code = true
    · simp only [hderef, Bool.not_true, Bool.false_eq_true, if_false, if_true]
      obtain ⟨hroot, hR⟩ := hwr hderef
      have hs3 : SameSkel d1 ((d1.modEnt obj (IHeapEntity.setValue val)).modEnt val
          (IHeapEntity.insertUsedBy obj)) :=
        hs2.trans (SameSkel.modEnt _ val (IHeapEntity.skel_insertUsedBy obj))
      have hroot3 : ((d1.modEnt obj (IHeapEntity.setValue val)).modEnt val
          (IHeapEntity.insertUsedBy obj)).valRootOf val
            ({ wb2 with usedBy := setInsert intLt obj wb2.usedBy }, wx2) = some Rw := by
        rw [valRootOf_usedBy, valRootOf_congr (length_modEnt _ _ _), hr2, hroot]
      obtain ⟨⟨rb, rd⟩, hrd⟩ := Option.isSome_iff_exists.mp hR
      obtain ⟨rb3, rd3, hrd3, -⟩ := hs3.rootData hrd
      rw [hroot3]
      simp only [Option.some_bind, hrd3]
      congr 1
      exact setEnt_eq_modEnt (rootData_eq_some.mp hrd3).2 (IHeapEntity.insertUsedByGl obj)
    · simp [hderef]

end SymHeapCore.Private

namespace IHeapEntity

@[simp] theorem usedBy_eraseUsedBy (obj : Int) (e : IHeapEntity) :
    (eraseUsedBy obj e).usedBy = setErase obj e.usedBy := by
  cases e with
  | HeapObject o => rfl
  | Value b x => rfl

theorem usedBy_insertUsedBy_value (obj : Int) (b : BaseValue) (x : ValueExt) :
    (insertUsedBy obj (.Value b x)).usedBy = setInsert intLt obj b.usedBy := rfl

@[simp] theorem usedBy_eraseUsedByGl (obj : Int) (e : IHeapEntity) :
    (eraseUsedByGl obj e).usedBy = e.usedBy := by
  cases e with
  | HeapObject o => rfl
  | Value b x => cases x <;> rfl

@[simp] theorem usedBy_insertUsedByGl (obj : Int) (e : IHeapEntity) :
    (insertUsedByGl obj e).usedBy = e.usedBy := by
  cases e with
  | HeapObject o => rfl
  | Value b x => cases x <;> rfl

@[simp] theorem usedBy_setLive (obj : Int) (p : Bool) (e : IHeapEntity) :
    (setLive obj p e).usedBy = e.usedBy := by
  cases e with
  | HeapObject o => rfl
  | Value b x => cases x <;> rfl

@[simp] theorem usedBy_setValue (v : Int) (e : IHeapEntity) : (setValue v e).usedBy = e.usedBy := by
  cases e with
  | HeapObject o => rfl
  | Value b x => rfl

@[simp] theorem usedByGl_eraseUsedBy (obj : Int) (e : IHeapEntity) :
    (eraseUsedBy obj e).usedByGl = e.usedByGl := by
  cases e with
  | HeapObject o => rfl
  | Value b x => cases x <;> rfl

@[simp] theorem usedByGl_insertUsedBy (obj : Int) (e : IHeapEntity) :
    (insertUsedBy obj e).usedByGl = e.usedByGl := by
  cases e with
  | HeapObject o => rfl
  | Value b x => cases x <;> rfl

@[simp] theorem usedByGl_eraseUsedByGl (obj : Int) (e : IHeapEntity) :
    (eraseUsedByGl obj e).usedByGl = setErase obj e.usedByGl := by
  cases e with
  | HeapObject o => rfl
  | Value b x => cases x <;> rfl

theorem mem_usedByGl_insertUsedByGl {obj y : Int} {e : IHeapEntity} (h : y ∈ e.usedByGl) :
    y ∈ (insertUsedByGl obj e).usedByGl := by
  cases e with
  | HeapObject o => exact h
  | Value b x =>
    cases x with
    | RootValue rd => exact (mem_setInsert _ _ _ _).mpr (Or.inr h)
    | _ => exact h

@[simp] theorem usedByGl_setLive (obj : Int) (p : Bool) (e : IHeapEntity) :
    (setLive obj p e).usedByGl = e.usedByGl := by
  cases e with
  | HeapObject o => rfl
  | Value b x => cases x <;> rfl

@[simp] theorem usedByGl_setValue (v : Int) (e : IHeapEntity) :
    (setValue v e).usedByGl = e.usedByGl := by
  cases e with
  | HeapObject o => rfl
  | Value b x => cases x <;> rfl

end IHeapEntity

namespace SymHeapCore.Private

theorem objData_modEnt_of_fix {d : Private} (id : Int) {f : IHeapEntity → IHeapEntity}
    (hf : ∀ o, f (.HeapObject o) = .HeapObject o) {j : Int} {o : HeapObject}
    (h : d.objData j = some o) : (d.modEnt id f).objData j = some o := by
  rw [objData_eq_some] at h ⊢
  rw [ent_modEnt]
  split
  · rw [h]; simp [hf]
  · exact h

theorem objData_modEnt_ne {d : Private} {id j : Int} (f : IHeapEntity → IHeapEntity)
    (hne : j ≠ id) : (d.modEnt id f).objData j = d.objData j := by
  cases h : d.objData j with
  | some o =>
    rw [objData_eq_some] at h ⊢
    rw [ent_modEnt, if_neg hne]; exact h
  | none =>
    cases h' : (d.modEnt id f).objData j with
    | none => rfl
    | some o' =>
      rw [objData_eq_some, ent_modEnt, if_neg hne] at h'
      rw [objData_eq_some.mpr h'] at h; cases h

theorem objData_modEnt_setValue {d : Private} {obj : Int} {o : HeapObject} (val : Int)
    (h : d.objData obj = some o) :
    (d.modEnt obj (IHeapEntity.setValue val)).objData obj = some { o with value := val } := by
  rw [objData_eq_some] at h ⊢
  rw [ent_modEnt, if_pos rfl, h]; rfl

theorem usedByAt_modEnt_of_eq (d : Private) (id : Int) {f : IHeapEntity → IHeapEntity}
    (hf : ∀ e, (f e).usedBy = e.usedBy) (j : Int) :
    (d.modEnt id f).usedByAt j = d.usedByAt j := by
  unfold usedByAt
  rw [ent_modEnt]
  by_cases hj : j = id
  · rw [if_pos hj]
    cases d.ent j with
    | none => rfl
    | some e => simp [hf]
  · rw [if_neg hj]

theorem usedByAt_modEnt_ne (d : Private) {id j : Int} (f : IHeapEntity → IHeapEntity)
    (hne : j ≠ id) : (d.modEnt id f).usedByAt j = d.usedByAt j := by
  unfold usedByAt
  rw [ent_modEnt, if_neg hne]

theorem usedByAt_modEnt_erase (d : Private) (id obj : Int) :
    (d.modEnt id (IHeapEntity.eraseUsedBy obj)).usedByAt id = setErase obj (d.usedByAt id) := by
  unfold usedByAt
  rw [ent_modEnt, if_pos rfl]
  cases d.ent id with
  | none => rfl
  | some e => simp

theorem mem_usedByGlAt_modEnt (d : Private) (id : Int) {f : IHeapEntity → IHeapEntity} {y : Int}
    (hf : ∀ e, y ∈ e.usedByGl → y ∈ (f e).usedByGl) {j : Int} (h : y ∈ d.usedByGlAt j) :
    y ∈ (d.modEnt id f).usedByGlAt j := by
  unfold usedByGlAt at h ⊢
  rw [ent_modEnt]
  by_cases hj : j = id
  · rw [if_pos hj]
    cases he : d.ent j with
    | none => rw [he] at h; cases h
    | some e => rw [he] at h; exact hf e h
  · rw [if_neg hj]; exact h

theorem usedByAt_of_valData {d : Private} {v : Int} {b : BaseValue} {x : ValueExt}
    (h : d.valData v = some (b, x)) : d.usedByAt v = b.usedBy := by
  unfold usedByAt
  rw [(valData_eq_some.mp h).2]; rfl

theorem usedByGlAt_of_rootData {d : Private} {v : Int} {b : BaseValue} {rd : RootValue}
    (h : d.rootData v = some (b, rd)) : d.usedByGlAt v = rd.usedByGl := by
  unfold usedByGlAt
  rw [(rootData_eq_some.mp h).2]; rfl

end SymHeapCore.Private

namespace SymHeapCore.Private

theorem objData_released {d : Private} (obj old R : Int) (dr : Bool) {j : Int} {o : HeapObject}
    (h : d.objData j = some o) : (d.released obj old R dr).objData j = some o := by
  unfold Private.released
  split
  · exact h
  · split
    · exact objData_modEnt_of_fix _ (fun _ => rfl) (objData_modEnt_of_fix _ (fun _ => rfl) h)
    · exact objData_modEnt_of_fix _ (fun _ => rfl) h

theorem usedByAt_released (d : Private) (obj old R : Int) (dr : Bool) (j : Int) :
    (d.released obj old R dr).usedByAt j
      = if j = old ∧ 0 < old then setErase obj (d.usedByAt j) else d.usedByAt j := by
  unfold Private.released
  by_cases hold : old ≤ 0
  · rw [if_pos hold, if_neg (by omega)]
  · rw [if_neg hold]
    have key : (d.modEnt old (IHeapEntity.eraseUsedBy obj)).usedByAt j
        = if j = old ∧ 0 < old then setErase obj (d.usedByAt j) else d.usedByAt j := by
      by_cases hj : j = old
      · subst hj
        rw [if_pos ⟨rfl, by omega⟩]
        exact usedByAt_modEnt_erase d j obj
      · rw [if_neg (by tauto)]
        exact usedByAt_modEnt_ne d _ hj
    split
    · rw [usedByAt_modEnt_of_eq _ _ (IHeapEntity.usedBy_eraseUsedByGl obj)]
      exact key
    · exact key

theorem mem_usedByGlAt_released (d : Private) {obj old R : Int} (dr : Bool) {j y : Int}
    (hy : y ≠ obj) (h : y ∈ d.usedByGlAt j) : y ∈ (d.released obj old R dr).usedByGlAt j := by
  unfold Private.released
  split
  · exact h
  · have h1 : y ∈ (d.modEnt old (IHeapEntity.eraseUsedBy obj)).usedByGlAt j :=
      mem_usedByGlAt_modEnt d old (fun e he => by rw [IHeapEntity.usedByGl_eraseUsedBy]; exact he) h
    split
    · exact mem_usedByGlAt_modEnt _ R
        (fun e he => by
          rw [IHeapEntity.usedByGl_eraseUsedByGl]
          exact (mem_setErase _ _ _).mpr ⟨he, hy⟩) h1
    · exact h1

theorem objData_written_same {d : Private} {obj : Int} (val Rw : Int) (dw : Bool) {o : HeapObject}
    (h : d.objData obj = some o) :
    (d.written obj val Rw dw).objData obj = some { o with value := val } := by
  have h1 := objData_modEnt_setValue val h
  unfold Private.written
  split
  · exact h1
  · split
    · exact objData_modEnt_of_fix _ (fun _ => rfl) (objData_modEnt_of_fix _ (fun _ => rfl) h1)
    · exact objData_modEnt_of_fix _ (fun _ => rfl) h1

theorem objData_written_ne {d : Private} {obj j : Int} (val Rw : Int) (dw : Bool) {o : HeapObject}
    (hne : j ≠ obj) (h : d.objData j = some o) : (d.written obj val Rw dw).objData j = some o := by
  have h1 : (d.modEnt obj (IHeapEntity.setValue val)).objData j = some o := by
    rw [objData_modEnt_ne _ hne]; exact h
  unfold Private.written
  split
  · exact h1
  · split
    · exact objData_modEnt_of_fix _ (fun _ => rfl) (objData_modEnt_of_fix _ (fun _ => rfl) h1)
    · exact objData_modEnt_of_fix _ (fun _ => rfl) h1

theorem usedByAt_written_ne (d : Private) (obj : Int) {val : Int} (Rw : Int) (dw : Bool) {j : Int}
    (hne : j ≠ val) : (d.written obj val Rw dw).usedByAt j = d.usedByAt j := by
  have h1 : (d.modEnt obj (IHeapEntity.setValue val)).usedByAt j = d.usedByAt j :=
    usedByAt_modEnt_of_eq _ _ (IHeapEntity.usedBy_setValue val) j
  unfold Private.written
  split
  · exact h1
  · split
    · rw [usedByAt_modEnt_of_eq _ _ (IHeapEntity.usedBy_insertUsedByGl obj),
        usedByAt_modEnt_ne _ _ hne, h1]
    · rw [usedByAt_modEnt_ne _ _ hne, h1]

theorem mem_usedByGlAt_written (d : Private) (obj val Rw : Int) (dw : Bool) {j y : Int}
    (h : y ∈ d.usedByGlAt j) : y ∈ (d.written obj val Rw dw).usedByGlAt j := by
  have h1 : y ∈ (d.modEnt obj (IHeapEntity.setValue val)).usedByGlAt j :=
    mem_usedByGlAt_modEnt d obj (fun e he => by rw [IHeapEntity.usedByGl_setValue]; exact he) h
  have h2 : y ∈ ((d.modEnt obj (IHeapEntity.setValue val)).modEnt val
      (IHeapEntity.insertUsedBy obj)).usedByGlAt j :=
    mem_usedByGlAt_modEnt _ val (fun e he => by rw [IHeapEntity.usedByGl_insertUsedBy]; exact he) h1
  unfold Private.written
  split
  · exact h1
  · split
    · exact mem_usedByGlAt_modEnt _ Rw (fun e he => IHeapEntity.mem_usedByGl_insertUsedByGl he) h2
    · exact h2

@[simp] theorem neqDb_released (d : Private) (obj old R : Int) (dr : Bool) :
    (d.released obj old R dr).neqDb = d.neqDb := by
  unfold Private.released
  split
  · rfl
  · split <;> simp

@[simp] theorem neqDb_written (d : Private) (obj val Rw : Int) (dw : Bool) :
    (d.written obj val Rw dw).neqDb = d.neqDb := by
  unfold Private.written
  split
  · simp
  · split <;> simp

end SymHeapCore.Private

namespace SymHeapCore

open SymHeapCore.Private

theorem Storable.transport {d d' : Private} {val : Int} (hs : SameSkel d d')
    (h : Storable d val) : Storable d' val := by
  intro hpos
  obtain ⟨wb, wx, hv, hrest⟩ := h hpos
  obtain ⟨wb', wx', hv', hc, -, -, hr⟩ := hs.valData hv
  refine ⟨wb', wx', hv', ?_⟩
  intro hd
  rw [hc] at hd
  obtain ⟨Rw, hroot, hR⟩ := hrest hd
  obtain ⟨⟨rb, rd⟩, hrd⟩ := Option.isSome_iff_exists.mp hR
  obtain ⟨rb', rd', hrd', -⟩ := hs.rootData hrd
  exact ⟨Rw, by rw [hr, hroot], by rw [hrd']; rfl⟩

/-- The effect of `objSetValue(obj, val)` on an object of scalar type whose old
value can be released and whose new value can be stored. -/
theorem objSetValue_spec {sh : SymHeapCore} {obj val : Int} {o : HeapObject}
    (ho : sh.d.objData obj = some o) (hnc : isComposite sh.stor_ o.clt = false)
    (hr : (sh.d.rootData o.root).isSome = true)
    (hold : Releasable sh.d obj o.value) (hw : Storable sh.d val) :
    ∃ sh', sh.objSetValue obj val = some sh' ∧ sh'.stor_ = sh.stor_ ∧
      sh'.d.neqDb = sh.d.neqDb ∧ SameSkel sh.d sh'.d ∧
      sh'.d.objData obj = some { o with value := val } ∧
      (∀ j o', j ≠ obj → sh.d.objData j = some o' → sh'.d.objData j = some o') ∧
      (∀ j, j ≠ val → sh'.d.usedByAt j
        = if j = o.value ∧ 0 < o.value then setErase obj (sh.d.usedByAt j) else sh.d.usedByAt j) ∧
      (∀ j y, y ≠ obj → y ∈ sh.d.usedByGlAt j → y ∈ sh'.d.usedByGlAt j) := by
  obtain ⟨⟨rb0, rd0⟩, hrd0⟩ := Option.isSome_iff_exists.mp hr
  -- the root of the object gets the object as a live object
  let p := isDataPtr sh.stor_ o.clt
  let d1 := sh.d.modEnt o.root (IHeapEntity.setLive obj p)
  have hd1 : sh.d.setEnt o.root
      (.Value rb0 (.RootValue { rd0 with liveObjs := mapSet intLt obj p rd0.liveObjs })) = d1 :=
    setEnt_eq_modEnt (rootData_eq_some.mp hrd0).2 (IHeapEntity.setLive obj p)
  have hs1 : SameSkel sh.d d1 := SameSkel.modEnt _ _ (IHeapEntity.skel_setLive obj p)
  have ho1 : d1.objData obj = some o := objData_modEnt_of_fix _ (fun _ => rfl) ho
  have hub1 : ∀ j, d1.usedByAt j = sh.d.usedByAt j :=
    usedByAt_modEnt_of_eq _ _ (IHeapEntity.usedBy_setLive obj p)
  have hgl1 : ∀ j y, y ∈ sh.d.usedByGlAt j → y ∈ d1.usedByGlAt j := fun j y hy =>
    mem_usedByGlAt_modEnt _ _ (fun e he => by rw [IHeapEntity.usedByGl_setLive]; exact he) hy
  -- the old value is released
  have hrel : ∃ R dr, d1.releaseValueOf obj o.value = some (d1.released obj o.value R dr) := by
    by_cases hpos : 0 < o.value
    · obtain ⟨b, x, R, rb, rx, hv, hmem, hroot, hR, hgl⟩ := hold hpos
      obtain ⟨b1, x1, hv1, -, -, -, hroot1⟩ := hs1.valData hv
      obtain ⟨rb1, rx1, hR1, hc1, -, -, -⟩ := hs1.valData hR
      have hmem1 : obj ∈ b1.usedBy := by
        rw [← usedByAt_of_valData hv1, hub1, usedByAt_of_valData hv]; exact hmem
      have hgl1' : isPossibleToDeref rb1.code = true →
          ∃ rd, rx1 = .RootValue rd ∧ obj ∈ rd.usedByGl := by
        intro hd
        rw [hc1] at hd
        obtain ⟨rd, hrx, hm⟩ := hgl hd
        subst hrx
        have hrdR : sh.d.rootData R = some (rb, rd) :=
          rootData_eq_some.mpr (valData_eq_some.mp hR)
        obtain ⟨rb1', rd1, hrd1, -⟩ := hs1.rootData hrdR
        have := valData_of_rootData hrd1
        rw [hR1] at this
        cases this
        refine ⟨rd1, rfl, ?_⟩
        rw [← usedByGlAt_of_rootData hrd1]
        apply hgl1
        rw [usedByGlAt_of_rootData hrdR]; exact hm
      refine ⟨R, isPossibleToDeref rb1.code, ?_⟩
      rw [releaseValueOf_eq hv1 hmem1 (hroot1.trans hroot) hR1 hgl1']
      have h0 : ¬ o.value ≤ 0 := by omega
      simp only [Private.released, h0, if_false]
    · refine ⟨0, false, ?_⟩
      have h0 : o.value ≤ 0 := by omega
      simp only [Private.released, releaseValueOf, h0, if_true]
  obtain ⟨R, dr, hrel⟩ := hrel
  have hs2 : SameSkel sh.d (d1.released obj o.value R dr) := hs1.trans (SameSkel.released _ _ _ _ _)
  have ho2 : (d1.released obj o.value R dr).objData obj = some o := objData_released _ _ _ _ ho1
  -- the new value is stored
  have hw2 := hw.transport hs2
  have hset : ∃ Rw dw, d1.setValueOf obj val
      = some ((d1.released obj o.value R dr).written obj val Rw dw) := by
    by_cases hpos : 0 < val
    · obtain ⟨wb, wx, hv, hrest⟩ := hw2 hpos
      by_cases hd : isPossibleToDeref wb.code = true
      · obtain ⟨Rw, hroot, hR⟩ := hrest hd
        exact ⟨Rw, _, setValueOf_eq ho1 hrel ho2 (fun _ => ⟨hv, fun _ => ⟨hroot, hR⟩⟩)⟩
      · exact ⟨0, _, setValueOf_eq ho1 hrel ho2 (fun _ => ⟨hv, fun h => absurd h hd⟩)⟩
    · exact ⟨0, false, @setValueOf_eq _ _ _ _ 0 _ { code := VT_INVALID, origin := VO_INVALID }
        .BaseValue ho1 hrel ho2 (fun h => absurd h hpos)⟩
  obtain ⟨Rw, dw, hset⟩ := hset
  refine ⟨{ sh with d := (d1.released obj o.value R dr).written obj val Rw dw }, ?_, rfl, ?_,
    hs2.trans (SameSkel.written _ _ _ _ _), objData_written_same _ _ _ ho2, ?_, ?_, ?_⟩
  · unfold objSetValue
    simp only [Option.bind_eq_bind, ho, Option.some_bind, hnc, Bool.false_eq_true, if_false, hrd0]
    rw [hd1, hset]
    rfl
  · simp [d1]
  · intro j o' hj hjo
    exact objData_written_ne _ _ _ hj (objData_released _ _ _ _ (objData_modEnt_of_fix _ (fun _ => rfl) hjo))
  · intro j hj
    rw [usedByAt_written_ne _ _ _ _ hj, usedByAt_released, hub1]
  · intro j y hy hm
    exact mem_usedByGlAt_written _ _ _ _ _ (mem_usedByGlAt_released _ _ hy (hgl1 j y hm))

end SymHeapCore

theorem setErase_cons_self {α : Type} [DecidableEq α] (x : α) (s : List α) (h : x ∉ s) :
    setErase x (x :: s) = s := by
  unfold setErase
  rw [List.filter_cons_of_neg (by simp)]
  rw [List.filter_eq_self]
  intro a ha
  simp only [ne_eq, decide_not, Bool.not_eq_true', decide_eq_false_iff_not]
  intro hax; subst hax; exact h ha

namespace SymHeapCore

open SymHeapCore.Private

/-- The first loop of `valReplace(v, w)`: it returns, every object it visits
ends up holding `w`, no other object changes, and `usedBy(v)` ends up empty. -/
theorem valReplaceObjs_spec {v w : Int} (hvw : v ≠ w) (rest : List Int) :
    ∀ sh : SymHeapCore, ReplaceReady sh v w rest →
    ∃ sh', sh.valReplaceObjs w rest = some sh' ∧ SameSkel sh.d sh'.d ∧ sh'.stor_ = sh.stor_ ∧
      sh'.d.neqDb = sh.d.neqDb ∧ sh'.d.usedByAt v = [] ∧
      (∀ obj ∈ rest, ∃ o, sh'.d.objData obj = some o ∧ o.value = w) ∧
      (∀ j o', j ∉ rest → sh.d.objData j = some o' → sh'.d.objData j = some o') := by
  induction rest with
  | nil =>
    intro sh hready
    obtain ⟨⟨b, x, R, rb, rx, hv, hub, -⟩, -⟩ := hready
    refine ⟨sh, rfl, SameSkel.refl _, rfl, rfl, ?_, ?_, ?_⟩
    · rw [usedByAt_of_valData hv, hub]
    · intro obj hobj; cases hobj
    · intro j o' _ h; exact h
  | cons obj rest' ih =>
    intro sh hready
    obtain ⟨⟨b, x, R, rb, rx, hv, hub, hroot, hR, hgl⟩, hw, hnd, hobjs⟩ := hready
    have hvpos : 0 < v := (valData_eq_some.mp hv).1
    obtain ⟨hnotin, hnd'⟩ := List.nodup_cons.mp hnd
    obtain ⟨o, ho, hoval, hnc, hr⟩ := hobjs obj (List.mem_cons_self _ _)
    have hrel : Releasable sh.d obj o.value := by
      intro _
      rw [hoval]
      refine ⟨b, x, R, rb, rx, hv, by rw [hub]; exact List.mem_cons_self _ _, hroot, hR, ?_⟩
      intro hd
      obtain ⟨rd, hrx, hm⟩ := hgl hd
      exact ⟨rd, hrx, hm obj (List.mem_cons_self _ _)⟩
    obtain ⟨sh1, hset, hstor, hneq, hs, ho1, hframe, hub1, hgl1⟩ :=
      objSetValue_spec ho hnc hr hrel hw
    have hready1 : ReplaceReady sh1 v w rest' := by
      obtain ⟨b1, x1, hv1, -, -, -, hroot1⟩ := hs.valData hv
      obtain ⟨rb1, rx1, hR1, hc1, -, -, -⟩ := hs.valData hR
      refine ⟨⟨b1, x1, R, rb1, rx1, hv1, ?_, hroot1.trans hroot, hR1, ?_⟩, hw.transport hs, hnd', ?_⟩
      · rw [← usedByAt_of_valData hv1, hub1 v hvw, hoval, if_pos ⟨rfl, hvpos⟩,
          usedByAt_of_valData hv, hub]
        exact setErase_cons_self obj rest' hnotin
      · intro hd
        rw [hc1] at hd
        obtain ⟨rd, hrx, hm⟩ := hgl hd
        subst hrx
        have hrdR : sh.d.rootData R = some (rb, rd) :=
          rootData_eq_some.mpr (valData_eq_some.mp hR)
        obtain ⟨rb1', rd1, hrd1, -⟩ := hs.rootData hrdR
        have := valData_of_rootData hrd1
        rw [hR1] at this
        cases this
        refine ⟨rd1, rfl, ?_⟩
        intro obj' hobj'
        rw [← usedByGlAt_of_rootData hrd1]
        apply hgl1 R obj' (by intro h; subst h; exact hnotin hobj')
        rw [usedByGlAt_of_rootData hrdR]
        exact hm obj' (List.mem_cons_of_mem _ hobj')
      · intro obj' hobj'
        obtain ⟨o', ho', hoval', hnc', hr'⟩ := hobjs obj' (List.mem_cons_of_mem _ hobj')
        have hne : obj' ≠ obj := by intro h; subst h; exact hnotin hobj'
        refine ⟨o', hframe obj' o' hne ho', hoval', by rw [hstor]; exact hnc', ?_⟩
        obtain ⟨⟨rb', rd'⟩, hrd'⟩ := Option.isSome_iff_exists.mp hr'
        obtain ⟨rb'', rd'', hrd'', -⟩ := hs.rootData hrd'
        rw [hrd'']; rfl
    obtain ⟨sh', hloop, hs', hstor', hneq', hub', hdone, hframe'⟩ := ih sh1 hready1
    refine ⟨sh', ?_, hs.trans hs', hstor'.trans hstor, hneq'.trans hneq, hub', ?_, ?_⟩
    · unfold valReplaceObjs
      simp only [Option.bind_eq_bind, hset, Option.some_bind]
      exact hloop
    · intro obj' hobj'
      rcases List.mem_cons.mp hobj' with h | h
      · subst h
        exact ⟨_, hframe' obj' _ hnotin ho1, rfl⟩
      · exact hdone obj' h
    · intro j o' hj hjo
      have hj1 : j ≠ obj := fun h => hj (h ▸ List.mem_cons_self _ _)
      have hj2 : j ∉ rest' := fun h => hj (List.mem_cons_of_mem _ h)
      exact hframe' j o' hj2 (hframe j o' hj1 hjo)

end SymHeapCore

namespace SymHeapCore.Private

theorem offFacts_of_inv {d : Private} (h : d.OffInv = true) : d.OffFacts := by
  intro a b x hv
  have hok := entOffOk_of_inv h a
  unfold entOffOk at hok
  rw [(valData_eq_some.mp hv).2] at hok
  cases x with
  | OffValue R =>
    simp only [Bool.and_eq_true, decide_eq_true_eq] at hok
    obtain ⟨⟨h1, h2⟩, h3⟩ := hok
    constructor
    · intro _
      cases hrd : d.rootData R with
      | none => rw [hrd] at h3; cases h3
      | some p =>
        obtain ⟨rb, rd⟩ := p
        rw [hrd] at h3
        simp only [decide_eq_true_eq] at h3
        exact ⟨R, rb, rd, rfl, hrd, h3⟩
    · intro _ h0; exact absurd h0 h1
  | RootValue rd =>
    simp only [Bool.and_eq_true, decide_eq_true_eq] at hok
    exact ⟨fun hne => absurd hok.1.1 hne, fun _ _ => ⟨rd, rfl⟩⟩
  | BaseValue =>
    simp only [Bool.and_eq_true, decide_eq_true_eq, Bool.not_eq_true'] at hok
    exact ⟨fun hne => absurd hok.1 hne, fun hd _ => by rw [hok.2] at hd; cases hd⟩
  | CompValue c =>
    simp only [Bool.and_eq_true, decide_eq_true_eq, Bool.not_eq_true'] at hok
    exact ⟨fun hne => absurd hok.1 hne, fun hd _ => by rw [hok.2] at hd; cases hd⟩
  | CustomValue c =>
    simp only [Bool.and_eq_true, decide_eq_true_eq, Bool.not_eq_true'] at hok
    exact ⟨fun hne => absurd hok.1 hne, fun hd _ => by rw [hok.2] at hd; cases hd⟩

theorem OffFacts.of_sameSkel {d d' : Private} (hs : SameSkel d d') (h : d.OffFacts) :
    d'.OffFacts := by
  intro a b' x' hv'
  obtain ⟨hpos, hent'⟩ := valData_eq_some.mp hv'
  simp only at hent'
  obtain ⟨b, x, hent, hc, -, hf, hx⟩ := hs.symm.ent_value hent'
  have hv : d.valData a = some (b, x) := valData_eq_some.mpr ⟨hpos, hent⟩
  obtain ⟨h1, h2⟩ := h a b x hv
  constructor
  · intro hne
    rw [hf] at h1
    obtain ⟨R, rb, rd, hxR, hrd, hfind⟩ := h1 hne
    obtain ⟨rb', rd', hrd', -, -, hom⟩ := hs.rootData hrd
    refine ⟨R, rb', rd', ?_, hrd', ?_⟩
    · rcases hx with ⟨rd0, rd0', -, h2', -⟩ | ⟨-, h2'⟩
      · rw [hxR] at h2'; cases h2'
      · rw [← h2', hxR]
    · rw [hom]; exact hfind
  · intro hd h0
    rw [hc, hf] at h2
    obtain ⟨rd, hxr⟩ := h2 hd h0
    rcases hx with ⟨rd0, rd0', h1', -⟩ | ⟨-, h2'⟩
    · exact ⟨rd0, h1'⟩
    · exact ⟨rd, by rw [← h2', hxr]⟩

/-- A valid value has a root, and the root is a valid value. -/
theorem OffFacts.valRoot {d : Private} (h : d.OffFacts) {a : Int} {b : BaseValue} {x : ValueExt}
    (hv : d.valData a = some (b, x)) :
    ∃ R rb rx, d.valRootOf a (b, x) = some R ∧ d.valData R = some (rb, rx) ∧
      (b.offRoot = 0 → R = a) ∧
      (b.offRoot ≠ 0 → ∃ rd, rx = .RootValue rd ∧ mapFind b.offRoot rd.offMap = some a) := by
  by_cases h0 : b.offRoot = 0
  · refine ⟨a, b, x, ?_, hv, fun _ => rfl, fun hne => absurd h0 hne⟩
    simp [valRootOf, h0]
  · obtain ⟨R, rb, rd, hx, hrd, hfind⟩ := (h a b x hv).1 h0
    subst hx
    have hR := valData_of_rootData hrd
    refine ⟨R, rb, .RootValue rd, ?_, hR, fun h => absurd h h0, fun _ => ⟨rd, rfl, hfind⟩⟩
    have hin : d.valOutOfRange R = false := by
      cases hc : d.valOutOfRange R with
      | false => rfl
      | true => simp [Private.valData, hc] at hR
    simp [valRootOf, h0, hin]

end SymHeapCore.Private

namespace SymHeapCore

open SymHeapCore.Private

theorem valOffset_of_valid {sh : SymHeapCore} {a : Int} (ha : validVal sh.d a = true) :
    ∃ off, sh.valOffset a = some off ∧
      (off ≠ 0 → ∃ b x, sh.d.valData a = some (b, x) ∧ b.offRoot = off) := by
  unfold validVal at ha
  unfold valOffset
  by_cases h0 : a ≤ 0
  · exact ⟨0, by rw [if_pos h0], fun h => absurd rfl h⟩
  · simp only [h0, decide_False, Bool.false_or] at ha
    obtain ⟨⟨b, x⟩, hv⟩ := Option.isSome_iff_exists.mp ha
    refine ⟨b.offRoot, ?_, fun _ => ⟨b, x, hv, rfl⟩⟩
    rw [if_neg h0]
    simp [hv]

theorem valRoot_of_valData {sh : SymHeapCore} {a : Int} {b : BaseValue} {x : ValueExt}
    (hv : sh.d.valData a = some (b, x)) : sh.valRoot a = sh.d.valRootOf a (b, x) := by
  unfold valRoot Private.valRoot
  rw [if_neg (by have := (valData_eq_some.mp hv).1; omega)]
  simp [hv]

/-- Two distinct valid values with the same non-zero offset have roots, and
the roots differ. -/
theorem roots_ne_of_same_offset {sh : SymHeapCore} (hf : sh.d.OffFacts) {a b off : Int}
    (hab : a ≠ b) (hoff : off ≠ 0) {ba bb : BaseValue} {xa xb : ValueExt}
    (hva : sh.d.valData a = some (ba, xa)) (hoa : ba.offRoot = off)
    (hvb : sh.d.valData b = some (bb, xb)) (hob : bb.offRoot = off) :
    ∃ Ra Rb, sh.valRoot a = some Ra ∧ sh.valRoot b = some Rb ∧ Ra ≠ Rb := by
  obtain ⟨Ra, rba, rxa, hra, hRa, -, hia⟩ := hf.valRoot hva
  obtain ⟨Rb, rbb, rxb, hrb, hRb, -, hib⟩ := hf.valRoot hvb
  refine ⟨Ra, Rb, by rw [valRoot_of_valData hva]; exact hra,
    by rw [valRoot_of_valData hvb]; exact hrb, ?_⟩
  intro heq
  subst heq
  obtain ⟨rda, hxa, hfa⟩ := hia (by rw [hoa]; exact hoff)
  obtain ⟨rdb, hxb, hfb⟩ := hib (by rw [hob]; exact hoff)
  rw [hRa] at hRb
  cases hRb
  cases hxa.symm.trans hxb
  rw [hoa] at hfa
  rw [hob, hfa] at hfb
  cases hfb
  exact hab rfl

theorem crossRoots_ne {sh : SymHeapCore} (hf : sh.d.OffFacts) {a b : Int} (hab : a ≠ b)
    (ha : validVal sh.d a = true) (hb : validVal sh.d b = true) {Ra Rb : Int}
    (h : sh.crossRoots a b = some (Ra, Rb)) : Ra ≠ Rb := by
  obtain ⟨off, hoa, hda⟩ := valOffset_of_valid ha
  obtain ⟨offB, hob, hdb⟩ := valOffset_of_valid hb
  unfold crossRoots at h
  simp only [hoa, hob] at h
  split at h
  · cases h
  · rename_i hne
    split at h
    · cases h
    · rename_i heq
      simp only [ne_eq, not_not] at heq
      obtain ⟨ba, xa, hva, hoa'⟩ := hda hne
      obtain ⟨bb, xb, hvb, hob'⟩ := hdb (by rw [← heq]; exact hne)
      obtain ⟨Ra', Rb', hra, hrb, hneq⟩ :=
        roots_ne_of_same_offset hf hab hne hva hoa' hvb (by rw [hob', heq])
      simp only [hra, hrb, Option.some.injEq, Prod.mk.injEq] at h
      rw [← h.1, ← h.2]; exact hneq

theorem valOffset_congr (sh sh' : SymHeapCore) (h : sh'.d.ents = sh.d.ents) (a : Int) :
    sh'.valOffset a = sh.valOffset a := by
  simp [valOffset, Private.valData, Private.valOutOfRange, Private.lastId, Private.ent, h]

theorem valRoot_congr (sh sh' : SymHeapCore) (h : sh'.d.ents = sh.d.ents) (a : Int) :
    sh'.valRoot a = sh.valRoot a := by
  simp [valRoot, Private.valRoot, Private.valRootOf, Private.valData, Private.valOutOfRange,
    Private.lastId, Private.ent, h]

theorem crossRoots_congr (sh sh' : SymHeapCore) (h : sh'.d.ents = sh.d.ents) (a b : Int) :
    sh'.crossRoots a b = sh.crossRoots a b := by
  simp [crossRoots, valOffset_congr sh sh' h, valRoot_congr sh sh' h]

/-- The normal form of `neqOp` on valid values: the operation on the pair, and
on the pair of roots `crossRoots` gives. -/
theorem neqOp_eq {sh : SymHeapCore} (hf : sh.d.OffFacts) (op : ENeqOp) {a b : Int}
    (ha : validVal sh.d a = true) (hb : validVal sh.d b = true) :
    sh.neqOp op a b =
      (sh.d.neqOpWrap op a b).bind (fun d1 =>
        match sh.crossRoots a b with
        | none => some { sh with d := d1 }
        | some (ra, rb) => (d1.neqOpWrap op ra rb).bind (fun d2 => some { sh with d := d2 })) := by
  unfold neqOp
  cases h1 : sh.d.neqOpWrap op a b with
  | none => rfl
  | some d1 =>
    simp only [Option.bind_eq_bind, Option.some_bind]
    have hents : d1.ents = sh.d.ents := by
      unfold neqOpWrap at h1
      split at h1
      · cases h1; rfl
      · simp only [Option.bind_eq_bind, Option.bind_eq_some] at h1
        obtain ⟨db, -, h1⟩ := h1
        cases h1; rfl
      · simp only [Option.bind_eq_bind, Option.bind_eq_some] at h1
        obtain ⟨db, -, h1⟩ := h1
        cases h1; rfl
    have hc : ∀ v, ({ sh with d := d1 } : SymHeapCore).valOffset v = sh.valOffset v :=
      fun v => valOffset_congr sh { sh with d := d1 } hents v
    have hr : ∀ v, ({ sh with d := d1 } : SymHeapCore).valRoot v = sh.valRoot v :=
      fun v => valRoot_congr sh { sh with d := d1 } hents v
    obtain ⟨off, hoa, hda⟩ := valOffset_of_valid ha
    obtain ⟨offB, hob, hdb⟩ := valOffset_of_valid hb
    simp only [hc, hr, hoa, hob, Option.some_bind, crossRoots]
    by_cases h0 : off = 0
    · simp [h0]
    · simp only [h0, if_false]
      by_cases he : off = offB
      · simp only [he, ne_eq, not_true_eq_false, if_false]
        obtain ⟨ba, xa, hva, hoa'⟩ := hda h0
        obtain ⟨bb, xb, hvb, hob'⟩ := hdb (by rw [← he]; exact h0)
        obtain ⟨Ra, rba, rxa, hra, -⟩ := hf.valRoot hva
        obtain ⟨Rb, rbb, rxb, hrb, -⟩ := hf.valRoot hvb
        rw [valRoot_of_valData hva, valRoot_of_valData hvb, hra, hrb]
        rfl
      · simp [he]

end SymHeapCore

namespace SymHeapCore

open SymHeapCore.Private

theorem neqOpWrap_eq (d : Private) (op : ENeqOp) {a b : Int} (hab : a ≠ b) :
    d.neqOpWrap op a b = some { d with neqDb := d.neqDb.applyOp op a b } := by
  cases op <;> simp [neqOpWrap, NeqDb.applyOp, NeqDb.add, NeqDb.del, hab]

/-- On valid values `a != b`, `neqOp` returns and changes the disequality
store only. -/
theorem neqOp_valid {sh : SymHeapCore} (hf : sh.d.OffFacts) (op : ENeqOp) {a b : Int}
    (hab : a ≠ b) (ha : validVal sh.d a = true) (hb : validVal sh.d b = true) :
    sh.neqOp op a b = some (sh.withNeqDb (sh.neqDbAfter op a b)) := by
  rw [neqOp_eq hf op ha hb, neqOpWrap_eq _ _ hab]
  simp only [Option.some_bind, neqDbAfter, withNeqDb]
  cases hc : sh.crossRoots a b with
  | none => rfl
  | some p =>
    obtain ⟨ra, rb⟩ := p
    have hne := crossRoots_ne hf hab ha hb hc
    simp only [neqOpWrap_eq _ _ hne, Option.some_bind]

@[simp] theorem ents_withNeqDb (sh : SymHeapCore) (db : NeqDb) :
    (sh.withNeqDb db).d.ents = sh.d.ents := rfl

@[simp] theorem stor_withNeqDb (sh : SymHeapCore) (db : NeqDb) :
    (sh.withNeqDb db).stor_ = sh.stor_ := rfl

@[simp] theorem neqDb_withNeqDb (sh : SymHeapCore) (db : NeqDb) :
    (sh.withNeqDb db).d.neqDb = db := rfl

theorem valData_congr (d d' : Private) (h : d'.ents = d.ents) (a : Int) :
    d'.valData a = d.valData a := by
  simp [Private.valData, Private.valOutOfRange, Private.lastId, Private.ent, h]

theorem rootData_congr (d d' : Private) (h : d'.ents = d.ents) (a : Int) :
    d'.rootData a = d.rootData a := by
  simp [Private.rootData, Private.valOutOfRange, Private.lastId, Private.ent, h]

theorem validVal_congr (d d' : Private) (h : d'.ents = d.ents) (a : Int) :
    validVal d' a = validVal d a := by
  simp [validVal, valData_congr d d' h]

theorem offFacts_congr (d d' : Private) (h : d'.ents = d.ents) (hf : d.OffFacts) :
    d'.OffFacts := by
  intro a b x hv
  rw [valData_congr d d' h] at hv
  have := hf a b x hv
  simpa only [rootData_congr d d' h] using this

@[simp] theorem withNeqDb_withNeqDb (sh : SymHeapCore) (db db' : NeqDb) :
    (sh.withNeqDb db).withNeqDb db' = sh.withNeqDb db' := rfl

@[simp] theorem validVal_withNeqDb (sh : SymHeapCore) (db : NeqDb) (a : Int) :
    validVal (sh.withNeqDb db).d a = validVal sh.d a :=
  validVal_congr sh.d (sh.withNeqDb db).d rfl a

theorem offFacts_withNeqDb {sh : SymHeapCore} (db : NeqDb) (hf : sh.d.OffFacts) :
    (sh.withNeqDb db).d.OffFacts :=
  offFacts_congr sh.d (sh.withNeqDb db).d rfl hf

@[simp] theorem crossRoots_withNeqDb (sh : SymHeapCore) (db : NeqDb) (a b : Int) :
    (sh.withNeqDb db).crossRoots a b = sh.crossRoots a b :=
  crossRoots_congr sh (sh.withNeqDb db) rfl a b

/-- The second loop of `valReplace` returns on valid values and changes the
disequality store only. -/
theorem valReplaceNeqs_valid {v w : Int} (neqs : List Int) :
    ∀ sh : SymHeapCore, sh.d.OffFacts → validVal sh.d v = true → validVal sh.d w = true →
    (∀ x ∈ neqs, validVal sh.d x = true ∧ x ≠ v ∧ x ≠ w) →
    ∃ db, sh.valReplaceNeqs v w neqs = some (sh.withNeqDb db) := by
  induction neqs with
  | nil => intro sh _ _ _ _; exact ⟨sh.d.neqDb, rfl⟩
  | cons x rest ih =>
    intro sh hf hv hw hx
    obtain ⟨hxv, hxnv, hxnw⟩ := hx x (List.mem_cons_self _ _)
    have h1 := neqOp_valid hf NEQ_DEL hxnv hxv hv
    have h2 := neqOp_valid (offFacts_withNeqDb (sh.neqDbAfter NEQ_DEL x v) hf) NEQ_ADD hxnw
      (by simpa using hxv) (by simpa using hw)
    obtain ⟨db, hrest⟩ := ih ((sh.withNeqDb (sh.neqDbAfter NEQ_DEL x v)).withNeqDb
        ((sh.withNeqDb (sh.neqDbAfter NEQ_DEL x v)).neqDbAfter NEQ_ADD x w))
      (offFacts_withNeqDb _ (offFacts_withNeqDb _ hf)) (by simpa using hv) (by simpa using hw)
      (fun y hy => by simpa using hx y (List.mem_cons_of_mem _ hy))
    refine ⟨db, ?_⟩
    unfold valReplaceNeqs
    simp only [Option.bind_eq_bind, h1, Option.some_bind, h2]
    simpa using hrest

end SymHeapCore

namespace NeqDb

theorem mem_gather_aux (v x : Int) (l : List (Int × Int)) (acc : List Int) :
    x ∈ l.foldl
        (fun acc item =>
          if item.1 = v then acc ++ [item.2]
          else if item.2 = v then acc ++ [item.1]
          else acc) acc
      ↔ x ∈ acc ∨ ∃ p ∈ l, (p.1 = v ∧ p.2 = x) ∨ (p.1 ≠ v ∧ p.2 = v ∧ p.1 = x) := by
  induction l generalizing acc with
  | nil => simp
  | cons q l ih =>
    rw [List.foldl_cons, ih]
    by_cases h1 : q.1 = v
    · simp only [h1, if_true, List.mem_append, List.mem_singleton, List.mem_cons, List.not_mem_nil,
        or_false, exists_eq_or_imp, true_and, ne_eq, not_true_eq_false, false_and]
      constructor
      · rintro ((h | h) | h)
        · exact Or.inl h
        · exact Or.inr (Or.inl h.symm)
        · exact Or.inr (Or.inr h)
      · rintro (h | h | h)
        · exact Or.inl (Or.inl h)
        · exact Or.inl (Or.inr h.symm)
        · exact Or.inr h
    · by_cases h2 : q.2 = v
      · simp only [h1, if_false, h2, if_true, List.mem_append, List.mem_singleton, List.mem_cons,
          List.not_mem_nil, or_false, exists_eq_or_imp, false_and, ne_eq, not_false_eq_true,
          true_and, false_or]
        constructor
        · rintro ((h | h) | h)
          · exact Or.inl h
          · exact Or.inr (Or.inl h.symm)
          · exact Or.inr (Or.inr h)
        · rintro (h | h | h)
          · exact Or.inl (Or.inl h)
          · exact Or.inl (Or.inr h.symm)
          · exact Or.inr h
      · simp only [h1, if_false, h2, List.mem_cons, exists_eq_or_imp, false_and, and_false,
          or_self, false_or]

/-- The values `gatherRelatedValues` collects for `v` from a store of ordered
pairs: the values paired with `v`. -/
theorem mem_gatherRelatedValues {db : NeqDb} (hord : ∀ p ∈ db.cont_, p.1 < p.2) (v x : Int) :
    x ∈ db.gatherRelatedValues [] v ↔ x ≠ v ∧ sortValues x v ∈ db.cont_ := by
  unfold gatherRelatedValues
  rw [mem_gather_aux]
  simp only [List.not_mem_nil, false_or]
  constructor
  · rintro ⟨p, hp, h⟩
    have hlt := hord p hp
    obtain ⟨p1, p2⟩ := p
    simp only at h hlt
    rcases h with ⟨h1, h2⟩ | ⟨-, h2, h3⟩
    · subst h1; subst h2
      refine ⟨by omega, ?_⟩
      have : sortValues p2 p1 = (p1, p2) := by
        unfold sortValues; rw [if_pos hlt]
      rw [this]; exact hp
    · subst h2; subst h3
      refine ⟨by omega, ?_⟩
      have : sortValues p1 p2 = (p1, p2) := by
        unfold sortValues; rw [if_neg (by omega)]
      rw [this]; exact hp
  · rintro ⟨hne, hm⟩
    refine ⟨sortValues x v, hm, ?_⟩
    unfold sortValues
    split
    · exact Or.inl ⟨rfl, rfl⟩
    · exact Or.inr ⟨hne, rfl, rfl⟩

theorem inv_ordered {db : NeqDb} (h : db.ordered = true) : ∀ p ∈ db.cont_, p.1 < p.2 := by
  unfold ordered at h
  rw [List.all_eq_true] at h
  intro p hp
  simpa using h p hp

theorem mem_applyOp_del (db : NeqDb) (a b : Int) (p : Int × Int) :
    p ∈ (db.applyOp NEQ_DEL a b).cont_ ↔ p ∈ db.cont_ ∧ p ≠ sortValues a b := by
  simp [applyOp, mem_setErase]

theorem mem_applyOp_add (db : NeqDb) (a b : Int) (p : Int × Int) :
    p ∈ (db.applyOp NEQ_ADD a b).cont_ ↔ p = sortValues a b ∨ p ∈ db.cont_ := by
  simp [applyOp, mem_setInsert]

end NeqDb

theorem sortValues_eq_iff (a b c d : Int) :
    sortValues a b = sortValues c d ↔ (a = c ∧ b = d) ∨ (a = d ∧ b = c) := by
  unfold sortValues
  constructor
  · intro h
    split at h <;> split at h <;> simp only [Prod.mk.injEq] at h <;> omega
  · rintro (⟨h1, h2⟩ | ⟨h1, h2⟩)
    · subst h1; subst h2; rfl
    · subst h1; subst h2
      split <;> split <;> simp only [Prod.mk.injEq] <;> omega

theorem sortValues_fst_snd (a b : Int) :
    ((sortValues a b).1 = a ∧ (sortValues a b).2 = b) ∨
    ((sortValues a b).1 = b ∧ (sortValues a b).2 = a) := by
  unfold sortValues
  split
  · exact Or.inr ⟨rfl, rfl⟩
  · exact Or.inl ⟨rfl, rfl⟩

namespace SymHeapCore.Private

theorem entUseOk_of_inv {d : Private} (h : d.UseInv = true) (i : Int) : d.entUseOk i = true := by
  by_cases hi : 0 ≤ i ∧ i < d.ents.length
  · unfold UseInv at h
    rw [List.all_eq_true] at h
    have := h i.toNat (List.mem_range.mpr (by omega))
    rwa [Int.toNat_of_nonneg hi.1] at this
  · unfold entUseOk
    cases he : d.ent i with
    | none => rfl
    | some e => exact absurd ⟨(ent_eq_some he).1, (ent_eq_some he).2.1⟩ hi

/-- A value lists in `usedBy`, once each, objects that hold it. -/
theorem useInv_value {d : Private} (h : d.UseInv = true) {v : Int} {b : BaseValue} {x : ValueExt}
    (hv : d.valData v = some (b, x)) :
    b.usedBy.Nodup ∧ ∀ obj ∈ b.usedBy, ∃ o, d.objData obj = some o ∧ o.value = v := by
  have hok := entUseOk_of_inv h v
  unfold entUseOk at hok
  rw [(valData_eq_some.mp hv).2] at hok
  simp only [Bool.and_eq_true, decide_eq_true_eq, List.all_eq_true] at hok
  refine ⟨hok.1, fun obj hobj => ?_⟩
  have := hok.2 obj hobj
  cases ho : d.objData obj with
  | none => rw [ho] at this; cases this
  | some o =>
    rw [ho] at this
    exact ⟨o, rfl, by simpa using this⟩

/-- An object has a root, and the value it holds can be released. -/
theorem useInv_object {d : Private} (h : d.UseInv = true) {obj : Int} {o : HeapObject}
    (ho : d.objData obj = some o) :
    (d.rootData o.root).isSome = true ∧ SymHeapCore.Releasable d obj o.value := by
  have hok := entUseOk_of_inv h obj
  unfold entUseOk at hok
  rw [objData_eq_some.mp ho] at hok
  simp only [Bool.and_eq_true, Bool.or_eq_true, decide_eq_true_eq] at hok
  refine ⟨hok.1, fun hpos => ?_⟩
  rcases hok.2 with h0 | hrest
  · omega
  · cases hv : d.valData o.value with
    | none => rw [hv] at hrest; cases hrest
    | some p =>
      obtain ⟨b, x⟩ := p
      rw [hv] at hrest
      simp only [Bool.and_eq_true, decide_eq_true_eq] at hrest
      obtain ⟨hmem, hrest⟩ := hrest
      cases hroot : d.valRootOf o.value (b, x) with
      | none => rw [hroot] at hrest; cases hrest
      | some R =>
        rw [hroot] at hrest
        simp only at hrest
        cases hR : d.valData R with
        | none => rw [hR] at hrest; cases hrest
        | some q =>
          obtain ⟨rb, rx⟩ := q
          rw [hR] at hrest
          simp only [Bool.or_eq_true, Bool.not_eq_true'] at hrest
          refine ⟨b, x, R, rb, rx, rfl, hmem, hroot, hR, fun hd => ?_⟩
          rcases hrest with hn | hrx
          · rw [hn] at hd; cases hd
          · cases rx with
            | RootValue rd => exact ⟨rd, rfl, by simpa using hrx⟩
            | _ => cases hrx

end SymHeapCore.Private

namespace SymHeapCore

open SymHeapCore.Private

theorem rootData_of_valData {d : Private} {v : Int} {b : BaseValue} {rd : RootValue}
    (h : d.valData v = some (b, .RootValue rd)) : d.rootData v = some (b, rd) := by
  have := valData_eq_some.mp h
  exact rootData_eq_some.mpr this

/-- A valid value can be stored. -/
theorem storable_of_valid {d : Private} (hf : d.OffFacts) {w : Int} (hw : validVal d w = true) :
    Storable d w := by
  intro hpos
  unfold validVal at hw
  simp only [not_le.mpr hpos, decide_False, Bool.false_or] at hw
  obtain ⟨⟨wb, wx⟩, hv⟩ := Option.isSome_iff_exists.mp hw
  refine ⟨wb, wx, hv, fun hd => ?_⟩
  obtain ⟨R, rb, rx, hroot, hR, h0, hne⟩ := hf.valRoot hv
  refine ⟨R, hroot, ?_⟩
  by_cases hz : wb.offRoot = 0
  · obtain ⟨rd, hx⟩ := (hf w wb wx hv).2 hd hz
    have := h0 hz
    subst this; subst hx
    rw [rootData_of_valData hv]; rfl
  · obtain ⟨rd, hx, -⟩ := hne hz
    subst hx
    rw [rootData_of_valData hR]; rfl

/-- In a heap that satisfies the representation invariant, the first loop of
`valReplace(v, w)` can run over the `usedBy` set of a valid value `v` held by
objects of scalar type only. -/
theorem replaceReady_of_inv {sh : SymHeapCore} (hoff : sh.d.OffInv = true)
    (huse : sh.d.UseInv = true) {v w : Int} {vb : BaseValue} {vx : ValueExt}
    (hv : sh.d.valData v = some (vb, vx))
    (hscalar : ∀ obj ∈ vb.usedBy, ∀ o, sh.d.objData obj = some o →
      isComposite sh.stor_ o.clt = false)
    (hw : validVal sh.d w = true) : ReplaceReady sh v w vb.usedBy := by
  have hf := offFacts_of_inv hoff
  obtain ⟨hnd, hobjs⟩ := useInv_value huse hv
  obtain ⟨R, rb, rx, hroot, hR, h0, hne⟩ := hf.valRoot hv
  have hpos := (valData_eq_some.mp hv).1
  refine ⟨⟨vb, vx, R, rb, rx, hv, rfl, hroot, hR, fun hd => ?_⟩, storable_of_valid hf hw, hnd,
    fun obj hobj => ?_⟩
  · have hrd : ∃ rd, rx = ValueExt.RootValue rd := by
      by_cases hz : vb.offRoot = 0
      · have := h0 hz
        subst this
        rw [hv] at hR
        cases hR
        exact (hf _ vb vx hv).2 hd hz
      · obtain ⟨rd, hx, -⟩ := hne hz
        exact ⟨rd, hx⟩
    obtain ⟨rd, hrx⟩ := hrd
    refine ⟨rd, hrx, fun obj hobj => ?_⟩
    obtain ⟨o, ho, hoval⟩ := hobjs obj hobj
    obtain ⟨-, hrel⟩ := useInv_object huse ho
    obtain ⟨b', x', R', rb', rx', hv', -, hroot', hR', hgl'⟩ := hrel (by rw [hoval]; exact hpos)
    rw [hoval, hv] at hv'
    cases hv'
    rw [hoval, hroot] at hroot'
    cases hroot'
    rw [hR] at hR'
    cases hR'
    obtain ⟨rd', hrx', hm⟩ := hgl' hd
    rw [hrx] at hrx'
    cases hrx'
    exact hm
  · obtain ⟨o, ho, hoval⟩ := hobjs obj hobj
    exact ⟨o, ho, hoval, hscalar obj hobj o ho, (useInv_object huse ho).1⟩

end SymHeapCore

namespace SymHeapCore

open SymHeapCore.Private

theorem validVal_sameSkel {d d' : Private} (hs : SameSkel d d') (a : Int) :
    validVal d' a = validVal d a := by
  unfold validVal
  by_cases h0 : a ≤ 0
  · simp [h0]
  · simp only [h0, decide_False, Bool.false_or]
    cases hv : d.valData a with
    | some p =>
      obtain ⟨b, x⟩ := p
      obtain ⟨b', x', hv', -⟩ := hs.valData hv
      rw [hv']; rfl
    | none =>
      cases hv' : d'.valData a with
      | none => rfl
      | some p =>
        obtain ⟨b', x'⟩ := p
        obtain ⟨b, x, hv'', -⟩ := hs.symm.valData hv'
        rw [hv] at hv''; cases hv''

theorem mem_neqDbAfter_del {sh : SymHeapCore} {a b : Int} {p : Int × Int}
    (h : p ∈ (sh.neqDbAfter NEQ_DEL a b).cont_) : p ∈ sh.d.neqDb.cont_ ∧ p ≠ sortValues a b := by
  unfold neqDbAfter at h
  split at h
  · exact (NeqDb.mem_applyOp_del _ _ _ _).mp h
  · exact (NeqDb.mem_applyOp_del _ _ _ _).mp ((NeqDb.mem_applyOp_del _ _ _ _).mp h).1

theorem neqValid_mem {d : Private} (h : d.neqValid = true) {p : Int × Int} (hp : p ∈ d.neqDb.cont_) :
    validVal d p.1 = true ∧ validVal d p.2 = true := by
  unfold Private.neqValid at h
  rw [List.all_eq_true] at h
  simpa using h p hp

theorem heapInv_parts {sh : SymHeapCore} (h : sh.HeapInv = true) :
    sh.d.OffInv = true ∧ sh.d.UseInv = true ∧ sh.d.neqValid = true ∧ sh.d.neqDb.ordered = true := by
  unfold HeapInv at h
  simp only [Bool.and_eq_true] at h
  exact ⟨h.1.1.1, h.1.1.2, h.1.2, h.2⟩

/-- The normal form of `valReplace(v, w)` in a heap that satisfies the
representation invariant, for a valid value `v` held by objects of scalar type
only and a valid value `w != v`: the first loop leaves a heap `sh1` with the
same skeleton and the same disequality store, in which the objects that held
`v` hold `w` and `usedBy(v)` is empty; what is left is the second loop, over
valid values other than `v` and `w`. -/
theorem valReplace_eq {sh : SymHeapCore} (hinv : sh.HeapInv = true) {v w : Int} {vb : BaseValue}
    {vx : ValueExt} (hv : sh.d.valData v = some (vb, vx))
    (hscalar : ∀ obj ∈ vb.usedBy, ∀ o, sh.d.objData obj = some o →
      isComposite sh.stor_ o.clt = false)
    (hw : validVal sh.d w = true) (hvw : v ≠ w) :
    ∃ sh1 : SymHeapCore, SameSkel sh.d sh1.d ∧ sh1.stor_ = sh.stor_ ∧ sh1.d.neqDb = sh.d.neqDb ∧
      sh1.d.usedByAt v = [] ∧
      (∀ obj ∈ vb.usedBy, ∃ o, sh1.d.objData obj = some o ∧ o.value = w) ∧
      sh1.d.OffFacts ∧ validVal sh1.d v = true ∧ validVal sh1.d w = true ∧
      (∀ x ∈ (sh1.neqDbAfter NEQ_DEL v w).gatherRelatedValues [] v,
        validVal sh1.d x = true ∧ x ≠ v ∧ x ≠ w) ∧
      sh.valReplace v w
        = (sh1.withNeqDb (sh1.neqDbAfter NEQ_DEL v w)).valReplaceNeqs v w
            ((sh1.neqDbAfter NEQ_DEL v w).gatherRelatedValues [] v) := by
  obtain ⟨hoff, huse, hnv, hord⟩ := heapInv_parts hinv
  have hready := replaceReady_of_inv hoff huse hv hscalar hw
  obtain ⟨sh1, hloop, hs, hstor, hneq, hub, hdone, -⟩ := valReplaceObjs_spec hvw vb.usedBy sh hready
  have hf1 : sh1.d.OffFacts := (offFacts_of_inv hoff).of_sameSkel hs
  have hvv : validVal sh.d v = true := by
    unfold validVal; rw [hv]; simp
  have hv1 : validVal sh1.d v = true := by rw [validVal_sameSkel hs]; exact hvv
  have hw1 : validVal sh1.d w = true := by rw [validVal_sameSkel hs]; exact hw
  refine ⟨sh1, hs, hstor, hneq, hub, hdone, hf1, hv1, hw1, ?_, ?_⟩
  · intro x hx
    have hord2 : ∀ p ∈ (sh1.neqDbAfter NEQ_DEL v w).cont_, p.1 < p.2 := by
      intro p hp
      have := (mem_neqDbAfter_del hp).1
      rw [hneq] at this
      exact NeqDb.inv_ordered hord p this
    obtain ⟨hxv, hmem⟩ := (NeqDb.mem_gatherRelatedValues hord2 v x).mp hx
    obtain ⟨hmem1, hne⟩ := mem_neqDbAfter_del hmem
    rw [hneq] at hmem1
    obtain ⟨hp1, hp2⟩ := neqValid_mem hnv hmem1
    refine ⟨?_, hxv, ?_⟩
    · rw [validVal_sameSkel hs]
      rcases sortValues_fst_snd x v with ⟨h1, -⟩ | ⟨-, h2⟩
      · rw [h1] at hp1; exact hp1
      · rw [h2] at hp2; exact hp2
    · intro hxw
      subst hxw
      exact hne (sortValues_comm x v)
  · unfold valReplace
    simp only [Option.bind_eq_bind, hv, Option.some_bind, hloop,
      neqOp_valid hf1 NEQ_DEL hvw hv1 hw1]
    rfl

end SymHeapCore

open SymHeapCore SymHeapCore.Private in
/-- C5 (amended): in a heap that satisfies the representation invariant, for
every valid positive value `v` held by objects of scalar type only and every
valid value `w` other than `v` and `VAL_INVALID`, `valReplace(v, w)` returns;
afterwards `valueOf` returns `w` for every object that held `v` before the
call, and `usedBy(v)` is empty. -/
theorem C5_valReplace_objects (sh : SymHeapCore) (hinv : sh.HeapInv = true) (v w : Int)
    (vb : BaseValue) (vx : ValueExt) (hv : sh.d.valData v = some (vb, vx))
    (hscalar : sh.holdersScalar vb.usedBy = true) (hw : validVal sh.d w = true)
    (hvw : v ≠ w) (hwi : w ≠ VAL_INVALID) :
    ∃ sh', sh.valReplace v w = some sh' ∧
      (∀ obj o, sh.d.objData obj = some o → o.value = v → sh'.valueOf obj = some (sh', w)) ∧
      sh'.usedBy [] v = some [] := by
  have hsc : ∀ obj ∈ vb.usedBy, ∀ o, sh.d.objData obj = some o →
      isComposite sh.stor_ o.clt = false := by
    intro obj hobj o ho
    unfold holdersScalar at hscalar
    rw [List.all_eq_true] at hscalar
    have := hscalar obj hobj
    rw [ho] at this
    simpa using this
  obtain ⟨sh1, hs, hstor, hneq, hub, hdone, hf1, hv1, hw1, hxs, heq⟩ :=
    valReplace_eq hinv hv hsc hw hvw
  obtain ⟨db, hloop⟩ := valReplaceNeqs_valid _ (sh1.withNeqDb (sh1.neqDbAfter NEQ_DEL v w))
    (offFacts_withNeqDb _ hf1) (by simpa using hv1) (by simpa using hw1)
    (fun x hx => by simpa using hxs x hx)
  refine ⟨sh1.withNeqDb db, by rw [heq, hloop]; rfl, ?_, ?_⟩
  · intro obj o ho hov
    have hpos := (valData_eq_some.mp hv).1
    obtain ⟨-, hrel⟩ := useInv_object (heapInv_parts hinv).2.1 ho
    obtain ⟨b', x', R', rb', rx', hv', hmem, -⟩ := hrel (by rw [hov]; exact hpos)
    rw [hov, hv] at hv'
    cases hv'
    obtain ⟨o1, ho1, ho1v⟩ := hdone obj hmem
    have hobj0 := (ent_eq_some (objData_eq_some.mp ho)).1
    have ho1' : (sh1.withNeqDb db).d.objData obj = some o1 := by
      rw [objData_eq_some] at ho1 ⊢
      exact ho1
    unfold valueOf
    rw [if_neg (by unfold OBJ_UNKNOWN OBJ_INVALID; omega),
      if_neg (by unfold OBJ_DEREF_FAILED; omega)]
    simp only [Option.bind_eq_bind, ho1', Option.some_bind, ho1v]
    rw [if_pos (Ne.symm hwi)]
  · have hpos := (valData_eq_some.mp hv).1
    obtain ⟨b1, x1, hv1', -⟩ := hs.valData hv
    have hv1'' : (sh1.withNeqDb db).d.valData v = some (b1, x1) := by
      rw [valData_congr sh1.d (sh1.withNeqDb db).d rfl]; exact hv1'
    unfold usedBy
    rw [if_neg (by unfold VAL_NULL; omega)]
    simp only [Option.bind_eq_bind, hv1'', Option.some_bind, List.nil_append]
    rw [← usedByAt_of_valData hv1', hub]

theorem C5_valReplace_objects_witness :
    ∃ sh', exHolderHeap.valReplace 5 2 = some sh' ∧
      (∀ obj o, exHolderHeap.d.objData obj = some o → o.value = 5 →
        sh'.valueOf obj = some (sh', 2)) ∧
      sh'.usedBy [] 5 = some [] :=
  C5_valReplace_objects exHolderHeap (by decide) 5 2
    { code := VT_UNKNOWN, origin := VO_ASSIGNED, usedBy := [3] } .BaseValue (by decide) (by decide)
    (by decide) (by decide) (by decide)

/-- C5 fails as stated: object 3 holds the value 5; after
`valReplace(5, VAL_INVALID)` the call `valueOf(3)` does not return
`VAL_INVALID` but a freshly created value, 6. -/
theorem C5_counterexample :
    exHolderHeap.HeapInv = true ∧
    (exHolderHeap.d.objData 3).map (fun o => o.value) = some 5 ∧
    (do let sh' ← exHolderHeap.valReplace 5 VAL_INVALID
        let (_, val) ← sh'.valueOf 3
        some val) = some 6 := by
  decide

namespace SymHeapCore

open SymHeapCore.Private

theorem valOffset_sameSkel {sh sh' : SymHeapCore} (hs : SameSkel sh.d sh'.d) (a : Int) :
    sh'.valOffset a = sh.valOffset a := by
  unfold valOffset
  by_cases h0 : a ≤ 0
  · simp [h0]
  · simp only [h0, if_false]
    cases hv : sh.d.valData a with
    | some p =>
      obtain ⟨b, x⟩ := p
      obtain ⟨b', x', hv', -, -, hf, -⟩ := hs.valData hv
      simp [hv', hf]
    | none =>
      cases hv' : sh'.d.valData a with
      | none => rfl
      | some p =>
        obtain ⟨b', x'⟩ := p
        obtain ⟨b, x, hv'', -⟩ := hs.symm.valData hv'
        rw [hv] at hv''; cases hv''

theorem valRoot_sameSkel {sh sh' : SymHeapCore} (hs : SameSkel sh.d sh'.d) (a : Int) :
    sh'.valRoot a = sh.valRoot a := by
  unfold valRoot Private.valRoot
  by_cases h0 : a ≤ 0
  · simp [h0]
  · simp only [h0, if_false]
    cases hv : sh.d.valData a with
    | some p =>
      obtain ⟨b, x⟩ := p
      obtain ⟨b', x', hv', -, -, -, hr⟩ := hs.valData hv
      simp [hv', hr]
    | none =>
      cases hv' : sh'.d.valData a with
      | none => rfl
      | some p =>
        obtain ⟨b', x'⟩ := p
        obtain ⟨b, x, hv'', -⟩ := hs.symm.valData hv'
        rw [hv] at hv''; cases hv''

theorem crossRoots_sameSkel {sh sh' : SymHeapCore} (hs : SameSkel sh.d sh'.d) (a b : Int) :
    sh'.crossRoots a b = sh.crossRoots a b := by
  simp [crossRoots, valOffset_sameSkel hs, valRoot_sameSkel hs]

/-- The second loop of `valReplace(v, w)` when no `neqOp` call propagates to
the roots: the pairs of `v` with the values visited are gone and the pairs of
`w` with them are there. -/
theorem valReplaceNeqs_nocross {v w : Int} (hvw : v ≠ w) (neqs : List Int) :
    ∀ sh : SymHeapCore, sh.d.OffFacts → validVal sh.d v = true → validVal sh.d w = true →
    (∀ x ∈ neqs, validVal sh.d x = true ∧ x ≠ v ∧ x ≠ w ∧
      sh.crossRoots x v = none ∧ sh.crossRoots x w = none) →
    ∃ db, sh.valReplaceNeqs v w neqs = some (sh.withNeqDb db) ∧
      ∀ p, p ∈ db.cont_ ↔
        (p ∈ sh.d.neqDb.cont_ ∧ ∀ x ∈ neqs, p ≠ sortValues x v) ∨
        ∃ x ∈ neqs, p = sortValues x w := by
  induction neqs with
  | nil =>
    intro sh _ _ _ _
    exact ⟨sh.d.neqDb, rfl, fun p => by simp⟩
  | cons x rest ih =>
    intro sh hf hv hw hx
    obtain ⟨hxv, hxnv, hxnw, hc1, hc2⟩ := hx x (List.mem_cons_self _ _)
    have h1 := neqOp_valid hf NEQ_DEL hxnv hxv hv
    have h2 := neqOp_valid (offFacts_withNeqDb (sh.neqDbAfter NEQ_DEL x v) hf) NEQ_ADD hxnw
      (by simpa using hxv) (by simpa using hw)
    have hdb1 : sh.neqDbAfter NEQ_DEL x v = sh.d.neqDb.applyOp NEQ_DEL x v := by
      unfold neqDbAfter; rw [hc1]
    have hdb2 : (sh.withNeqDb (sh.neqDbAfter NEQ_DEL x v)).neqDbAfter NEQ_ADD x w
        = (sh.d.neqDb.applyOp NEQ_DEL x v).applyOp NEQ_ADD x w := by
      simp only [neqDbAfter, crossRoots_withNeqDb, hc1, hc2, neqDb_withNeqDb]
    obtain ⟨db, hrest, hchar⟩ := ih ((sh.withNeqDb (sh.neqDbAfter NEQ_DEL x v)).withNeqDb
        ((sh.withNeqDb (sh.neqDbAfter NEQ_DEL x v)).neqDbAfter NEQ_ADD x w))
      (offFacts_withNeqDb _ (offFacts_withNeqDb _ hf)) (by simpa using hv) (by simpa using hw)
      (fun y hy => by simpa using hx y (List.mem_cons_of_mem _ hy))
    refine ⟨db, ?_, ?_⟩
    · unfold valReplaceNeqs
      simp only [Option.bind_eq_bind, h1, Option.some_bind, h2]
      simpa using hrest
    · intro p
      rw [hchar, neqDb_withNeqDb, hdb2, NeqDb.mem_applyOp_add, NeqDb.mem_applyOp_del]
      constructor
      · rintro (⟨hp | ⟨hp, hne⟩, hall⟩ | ⟨y, hy, hpy⟩)
        · exact Or.inr ⟨x, List.mem_cons_self _ _, hp⟩
        · refine Or.inl ⟨hp, fun y hy => ?_⟩
          rcases List.mem_cons.mp hy with h | h
          · subst h; exact hne
          · exact hall y h
        · exact Or.inr ⟨y, List.mem_cons_of_mem _ hy, hpy⟩
      · rintro (⟨hp, hall⟩ | ⟨y, hy, hpy⟩)
        · exact Or.inl ⟨Or.inr ⟨hp, hall x (List.mem_cons_self _ _)⟩,
            fun y hy => hall y (List.mem_cons_of_mem _ hy)⟩
        · rcases List.mem_cons.mp hy with h | h
          · subst h
            refine Or.inl ⟨Or.inl hpy, fun z hz => ?_⟩
            rw [hpy]
            intro heq
            rcases (sortValues_eq_iff _ _ _ _).mp heq with ⟨-, h2'⟩ | ⟨h1', -⟩
            · exact hvw h2'.symm
            · exact hxnv h1'
          · exact Or.inr ⟨y, h, hpy⟩

end SymHeapCore

open SymHeapCore SymHeapCore.Private in
/-- C6 (amended): in a heap that satisfies the representation invariant, for
every valid positive value `v` held by objects of scalar type only and every
valid value `w != v`, if no `neqOp` call of `valReplace(v, w)` propagates to a
pair of roots, then `valReplace(v, w)` returns; afterwards, for every value
`x != w` such that the fact `(x, v)` was recorded before the call, the fact
`(x, w)` is recorded, and no pair of the disequality store mentions `v`. -/
theorem C6_valReplace_neqs (sh : SymHeapCore) (hinv : sh.HeapInv = true) (v w : Int)
    (vb : BaseValue) (vx : ValueExt) (hv : sh.d.valData v = some (vb, vx))
    (hscalar : sh.holdersScalar vb.usedBy = true) (hw : validVal sh.d w = true)
    (hvw : v ≠ w) (hnc : sh.noCross v w = true) :
    ∃ sh', sh.valReplace v w = some sh' ∧
      (∀ x, x ≠ w → sh.d.neqDb.areNeq x v = true → sh'.d.neqDb.areNeq x w = true) ∧
      (∀ p ∈ sh'.d.neqDb.cont_, p.1 ≠ v ∧ p.2 ≠ v) := by
  have hsc : ∀ obj ∈ vb.usedBy, ∀ o, sh.d.objData obj = some o →
      isComposite sh.stor_ o.clt = false := by
    intro obj hobj o ho
    unfold holdersScalar at hscalar
    rw [List.all_eq_true] at hscalar
    have := hscalar obj hobj
    rw [ho] at this
    simpa using this
  obtain ⟨-, -, -, hord⟩ := heapInv_parts hinv
  have hordP := NeqDb.inv_ordered hord
  obtain ⟨sh1, hs, hstor, hneq, hub, hdone, hf1, hv1, hw1, hxs, heq⟩ :=
    valReplace_eq hinv hv hsc hw hvw
  unfold noCross at hnc
  simp only [Bool.and_eq_true, List.all_eq_true, Option.isNone_iff_eq_none] at hnc
  obtain ⟨hc0, hcx⟩ := hnc
  have hdb2 : sh1.neqDbAfter NEQ_DEL v w = sh.d.neqDb.applyOp NEQ_DEL v w := by
    unfold neqDbAfter; rw [crossRoots_sameSkel hs, hc0, hneq]
  have hmem2 : ∀ p, p ∈ (sh1.neqDbAfter NEQ_DEL v w).cont_ ↔
      p ∈ sh.d.neqDb.cont_ ∧ p ≠ sortValues v w := by
    intro p; rw [hdb2, NeqDb.mem_applyOp_del]
  have hord2 : ∀ p ∈ (sh1.neqDbAfter NEQ_DEL v w).cont_, p.1 < p.2 :=
    fun p hp => hordP p ((hmem2 p).mp hp).1
  have hgather : ∀ x, x ∈ (sh1.neqDbAfter NEQ_DEL v w).gatherRelatedValues [] v ↔
      x ≠ v ∧ x ≠ w ∧ sortValues x v ∈ sh.d.neqDb.cont_ := by
    intro x
    rw [NeqDb.mem_gatherRelatedValues hord2, hmem2]
    constructor
    · rintro ⟨h1, h2, h3⟩
      refine ⟨h1, ?_, h2⟩
      intro hxw; subst hxw; exact h3 (sortValues_comm x v)
    · rintro ⟨h1, h2, h3⟩
      refine ⟨h1, h3, ?_⟩
      intro heq'
      rcases (sortValues_eq_iff _ _ _ _).mp heq' with ⟨h, -⟩ | ⟨h, -⟩
      · exact h1 h
      · exact h2 h
  obtain ⟨db, hloop, hchar⟩ := valReplaceNeqs_nocross hvw _
    (sh1.withNeqDb (sh1.neqDbAfter NEQ_DEL v w))
    (offFacts_withNeqDb _ hf1) (by simpa using hv1) (by simpa using hw1)
    (fun x hx => by
      obtain ⟨h1, h2, h3⟩ := hxs x hx
      obtain ⟨-, -, hm⟩ := (hgather x).mp hx
      have hg : x ∈ sh.d.neqDb.gatherRelatedValues [] v :=
        (NeqDb.mem_gatherRelatedValues hordP v x).mpr ⟨h2, hm⟩
      obtain ⟨hcv, hcw⟩ := hcx x hg
      refine ⟨by simpa using h1, h2, h3, ?_, ?_⟩
      · rw [crossRoots_withNeqDb, crossRoots_sameSkel hs]; exact hcv
      · rw [crossRoots_withNeqDb, crossRoots_sameSkel hs]; exact hcw)
  refine ⟨sh1.withNeqDb db, by rw [heq, hloop]; rfl, ?_, ?_⟩
  · intro x hxw hxv
    rw [NeqDb.areNeq_iff] at hxv
    have hxnv : x ≠ v := by
      intro h; subst h
      have := hordP _ hxv
      simp [sortValues] at this
    rw [neqDb_withNeqDb, NeqDb.areNeq_iff, hchar]
    exact Or.inr ⟨x, (hgather x).mpr ⟨hxnv, hxw, hxv⟩, rfl⟩
  · intro p hp
    rw [neqDb_withNeqDb, hchar] at hp
    rcases hp with ⟨hp2, hall⟩ | ⟨x, hx, hpx⟩
    · rw [neqDb_withNeqDb] at hp2
      obtain ⟨hpdb, hpne⟩ := (hmem2 p).mp hp2
      have hlt := hordP p hpdb
      obtain ⟨p1, p2⟩ := p
      simp only at hlt ⊢
      constructor
      · intro h1
        have hsv : sortValues p2 v = (p1, p2) := by
          rw [← h1]; unfold sortValues; rw [if_pos hlt]
        have hg : p2 ∈ (sh1.neqDbAfter NEQ_DEL v w).gatherRelatedValues [] v :=
          (hgather p2).mpr ⟨by omega, by
            intro h
            apply hpne
            rw [← hsv, h]; exact sortValues_comm _ _,
            by rw [hsv]; exact hpdb⟩
        exact hall p2 hg hsv.symm
      · intro h2
        have hsv : sortValues p1 v = (p1, p2) := by
          rw [← h2]; unfold sortValues; rw [if_neg (by omega)]
        have hg : p1 ∈ (sh1.neqDbAfter NEQ_DEL v w).gatherRelatedValues [] v :=
          (hgather p1).mpr ⟨by omega, by
            intro h
            apply hpne
            rw [← hsv, h]; exact sortValues_comm _ _,
            by rw [hsv]; exact hpdb⟩
        exact hall p1 hg hsv.symm
    · obtain ⟨hxnv, hxnw, -⟩ := (hgather x).mp hx
      rw [hpx]
      rcases sortValues_fst_snd x w with ⟨h1, h2⟩ | ⟨h1, h2⟩
      · rw [h1, h2]; exact ⟨hxnv, fun h => hvw h.symm⟩
      · rw [h1, h2]; exact ⟨fun h => hvw h.symm, hxnv⟩

theorem C6_valReplace_neqs_witness :
    ∃ sh', exNeqNullHeap.valReplace 2 3 = some sh' ∧
      (∀ x, x ≠ 3 → exNeqNullHeap.d.neqDb.areNeq x 2 = true → sh'.d.neqDb.areNeq x 3 = true) ∧
      (∀ p ∈ sh'.d.neqDb.cont_, p.1 ≠ 2 ∧ p.2 ≠ 2) :=
  C6_valReplace_neqs exNeqNullHeap (by decide) 2 3
    { code := VT_ON_HEAP, origin := VO_ASSIGNED } (.RootValue { addr := 2, cbSize := 8 })
    (by decide) (by decide) (by decide) (by decide) (by decide)

/-- C6 fails as stated: the fact `(3, 2)` is recorded; after `valReplace(2, 3)`
the fact `(3, 3)` is not. -/
theorem C6_counterexample :
    exNeqPairHeap.HeapInv = true ∧
    exNeqPairHeap.d.neqDb.areNeq 3 2 = true ∧
    (do let sh' ← exNeqPairHeap.valReplace 2 3
        some (sh'.d.neqDb.areNeq 3 3)) = some false := by
  decide

/-! ## Doubly-linked segments and the disequality store -/

namespace SymHeapCore

open SymHeapCore.Private

/-- The offset lookup reads no disequality. -/
theorem valByOffset_withNeqDb (sh : SymHeapCore) (db : NeqDb) (a o : Int) :
    (sh.withNeqDb db).valByOffset a o
      = (sh.valByOffset a o).map (fun p => (p.1.withNeqDb db, p.2)) := by
  unfold valByOffset
  by_cases h : o = 0 ∨ a ≤ 0
  · simp [h]
  · simp only [h, if_false]
    rw [valData_congr sh.d (sh.withNeqDb db).d rfl]
    cases hv : sh.d.valData a with
    | none => rfl
    | some vd =>
      simp only [Option.bind_eq_bind, Option.some_bind]
      rw [@valRootOf_congr sh.d (sh.withNeqDb db).d rfl]
      cases hr : sh.d.valRootOf a vd with
      | none => rfl
      | some r =>
        simp only [Option.some_bind]
        by_cases h0 : offAdd o vd.1.offRoot = 0
        · simp [h0]
        · simp only [h0, if_false]
          by_cases hg : VT_UNKNOWN = vd.1.code ∨ isGone vd.1.code = true
          · simp only [hg, if_true]
            simp only [valDup, valData_congr sh.d (sh.withNeqDb db).d rfl, hv]
            rfl
          · simp only [hg, if_false]
            rw [rootData_congr sh.d (sh.withNeqDb db).d rfl]
            cases hrd : sh.d.rootData r with
            | none => rfl
            | some rp =>
              obtain ⟨rb, rd⟩ := rp
              simp only [Option.some_bind]
              cases hm : mapFind (offAdd o vd.1.offRoot) rd.offMap with
              | none => rfl
              | some v => rfl

end SymHeapCore

namespace SymHeap

open SymHeapCore SymHeapCore.Private

@[simp] theorem withCore_self (sh : SymHeap) : sh.withCore sh.toSymHeapCore = sh := rfl

@[simp] theorem toSymHeapCore_withCore (sh : SymHeap) (core : SymHeapCore) :
    (sh.withCore core).toSymHeapCore = core := rfl

@[simp] theorem data_withCore (sh : SymHeap) (core : SymHeapCore) :
    (sh.withCore core).data = sh.data := rfl

@[simp] theorem withCore_withCore (sh : SymHeap) (c1 c2 : SymHeapCore) :
    (sh.withCore c1).withCore c2 = sh.withCore c2 := rfl

@[simp] theorem toSymHeapCore_withNeqDb (sh : SymHeap) (db : NeqDb) :
    (sh.withNeqDb db).toSymHeapCore = sh.toSymHeapCore.withNeqDb db := rfl

@[simp] theorem data_withNeqDb (sh : SymHeap) (db : NeqDb) :
    (sh.withNeqDb db).data = sh.data := rfl

@[simp] theorem withNeqDb_twice (sh : SymHeap) (db db' : NeqDb) :
    (sh.withNeqDb db).withNeqDb db' = sh.withNeqDb db' := rfl

theorem segBinding_withNeqDb (sh : SymHeap) (db : NeqDb) (seg : Int) :
    (sh.withNeqDb db).segBinding seg = sh.segBinding seg := by
  simp only [segBinding, toSymHeapCore_withNeqDb, data_withNeqDb,
    valRoot_congr sh.toSymHeapCore (sh.toSymHeapCore.withNeqDb db) rfl]

end SymHeap

open SymHeapCore SymHeapCore.Private in
/-- The head address of a segment does not depend on the disequality store. -/
theorem segHeadAt_withNeqDb {sh : SymHeap} {seg head : Int} (db : NeqDb)
    (h : segHeadAt sh seg = some (sh, head)) :
    segHeadAt (sh.withNeqDb db) seg = some (sh.withNeqDb db, head) := by
  unfold segHeadAt at h ⊢
  rw [SymHeap.segBinding_withNeqDb]
  cases hb : sh.segBinding seg with
  | none => rw [hb] at h; cases h
  | some off =>
    rw [hb] at h
    simp only [Option.bind_eq_bind, Option.some_bind, SymHeap.toSymHeapCore_withNeqDb,
      valByOffset_withNeqDb] at h ⊢
    cases hv : sh.toSymHeapCore.valByOffset seg off.head with
    | none => rw [hv] at h; cases h
    | some p =>
      obtain ⟨core, v⟩ := p
      rw [hv] at h
      simp only [Option.some_bind, Option.some.injEq, Prod.mk.injEq] at h
      obtain ⟨h1, h2⟩ := h
      have hc : core = sh.toSymHeapCore := by rw [← h1]; rfl
      subst hc
      subst h2
      rfl

namespace SymHeap

open SymHeapCore SymHeapCore.Private

/-- The base-class `neqOp` on valid values `a != b` returns and changes the
disequality store only. -/
theorem coreNeqOp_valid {sh : SymHeap} (hf : sh.d.OffFacts) (op : ENeqOp) {a b : Int}
    (hab : a ≠ b) (ha : validVal sh.d a = true) (hb : validVal sh.d b = true) :
    sh.coreNeqOp op a b = some (sh.withNeqDb (sh.toSymHeapCore.neqDbAfter op a b)) := by
  unfold coreNeqOp
  rw [neqOp_valid hf op hab ha hb]
  rfl

end SymHeap

namespace SymHeapCore

theorem mem_neqDbAfter_add_self (sh : SymHeapCore) (a b : Int) :
    sortValues a b ∈ (sh.neqDbAfter NEQ_ADD a b).cont_ := by
  unfold neqDbAfter
  cases sh.crossRoots a b with
  | none => exact (NeqDb.mem_applyOp_add _ _ _ _).mpr (Or.inl rfl)
  | some p =>
    exact (NeqDb.mem_applyOp_add _ _ _ _).mpr
      (Or.inr ((NeqDb.mem_applyOp_add _ _ _ _).mpr (Or.inl rfl)))

theorem mem_neqDbAfter_add_mono (sh : SymHeapCore) (a b : Int) {p : Int × Int}
    (h : p ∈ sh.d.neqDb.cont_) : p ∈ (sh.neqDbAfter NEQ_ADD a b).cont_ := by
  unfold neqDbAfter
  cases sh.crossRoots a b with
  | none => exact (NeqDb.mem_applyOp_add _ _ _ _).mpr (Or.inr h)
  | some q =>
    exact (NeqDb.mem_applyOp_add _ _ _ _).mpr
      (Or.inr ((NeqDb.mem_applyOp_add _ _ _ _).mpr (Or.inr h)))

end SymHeapCore

open SymHeapCore SymHeapCore.Private in
/-- Claim C10: on a resolved doubly-linked segment pair whose forward values
differ from the opposite head addresses, `SymHeap::neqOp(NEQ_ADD, a, b)` with
`haveDlSegAt(a, b)` returns, changes the disequality store only, and the store
then holds the facts (value of the forward pointer of `seg1`, head address of
`seg2`) and (value of the forward pointer of `seg2`, head address of `seg1`),
next to the fact (`a`, `b`). -/
theorem C10_dls_cross_neq (sh : SymHeap) (a b : Int) (w : DlsView)
    (hinv : sh.d.OffInv = true) (hp : DlsPair sh a b w)
    (h1 : w.val1 ≠ w.head2) (h2 : w.val2 ≠ w.head1) (hab : a ≠ b) :
    ∃ db, sh.neqOp NEQ_ADD a b = some (sh.withNeqDb db) ∧
      db.areNeq w.val1 w.head2 = true ∧ db.areNeq w.val2 w.head1 = true ∧
      db.areNeq a b = true := by
  have hf := offFacts_of_inv hinv
  have hv := hp.valid
  simp only [Bool.and_eq_true] at hv
  obtain ⟨⟨⟨⟨⟨hv1, hv2⟩, hh1⟩, hh2⟩, ha⟩, hb⟩ := hv
  let db1 := sh.toSymHeapCore.neqDbAfter NEQ_ADD w.val1 w.head2
  let db2 := (sh.toSymHeapCore.withNeqDb db1).neqDbAfter NEQ_ADD w.val2 w.head1
  let db3 := (sh.toSymHeapCore.withNeqDb db2).neqDbAfter NEQ_ADD a b
  have e1 : sh.coreNeqOp NEQ_ADD w.val1 w.head2 = some (sh.withNeqDb db1) :=
    SymHeap.coreNeqOp_valid hf NEQ_ADD h1 hv1 hh2
  have e2 : (sh.withNeqDb db1).coreNeqOp NEQ_ADD w.val2 w.head1 = some (sh.withNeqDb db2) :=
    @SymHeap.coreNeqOp_valid (sh.withNeqDb db1) (offFacts_withNeqDb db1 hf) NEQ_ADD _ _ h2
      (by simpa using hv2) (by simpa using hh1)
  have e3 : (sh.withNeqDb db2).coreNeqOp NEQ_ADD a b = some (sh.withNeqDb db3) :=
    @SymHeap.coreNeqOp_valid (sh.withNeqDb db2) (offFacts_withNeqDb db2 hf) NEQ_ADD _ _ hab
      (by simpa using ha) (by simpa using hb)
  have ecross : sh.dlSegCrossNeqOp NEQ_ADD a = some (sh.withNeqDb db2) := by
    unfold SymHeap.dlSegCrossNeqOp
    simp only [hp.root, hp.peer, hp.next1, hp.value1, hp.next2, hp.value2, hp.head2,
      Option.bind_eq_bind, Option.some_bind, SymHeap.withCore_self, e1,
      segHeadAt_withNeqDb db1 hp.head1, e2]
    simp
  refine ⟨db3, ?_, ?_, ?_, ?_⟩
  · unfold SymHeap.neqOp
    simp only [if_true, hp.dls, Option.bind_eq_bind, Option.some_bind, ecross, e3]
  · have m1 : sortValues w.val1 w.head2 ∈ db1.cont_ := mem_neqDbAfter_add_self _ _ _
    have m2 : sortValues w.val1 w.head2 ∈ db2.cont_ := mem_neqDbAfter_add_mono _ _ _ m1
    have m3 : sortValues w.val1 w.head2 ∈ db3.cont_ := mem_neqDbAfter_add_mono _ _ _ m2
    simpa [NeqDb.areNeq] using m3
  · have m2 : sortValues w.val2 w.head1 ∈ db2.cont_ := mem_neqDbAfter_add_self _ _ _
    have m3 : sortValues w.val2 w.head1 ∈ db3.cont_ := mem_neqDbAfter_add_mono _ _ _ m2
    simpa [NeqDb.areNeq] using m3
  · have m3 : sortValues a b ∈ db3.cont_ := mem_neqDbAfter_add_self _ _ _
    simpa [NeqDb.areNeq] using m3

/-- Claim C10 applied to the doubly-linked segment pair of `exDlsHeap`: the
facts `(0, 6)`, `(0, 2)` and `(2, 6)` hold after `neqOp(NEQ_ADD, 2, 6)`. -/
theorem C10_dls_cross_neq_witness :
    ∃ db, exDlsHeap.neqOp NEQ_ADD 2 6 = some (exDlsHeap.withNeqDb db) ∧
      db.areNeq 0 6 = true ∧ db.areNeq 0 2 = true ∧ db.areNeq 2 6 = true :=
  C10_dls_cross_neq exDlsHeap 2 6 exDlsView (by decide)
    ⟨by decide, by decide, by decide, by decide, by decide, by decide, by decide, by decide,
      by decide, by decide⟩
    (by decide) (by decide) (by decide)


/-! ## Heap comparison -/

/-- C7 does not hold on the code: on the heap `exVarHeap`, which has one
program variable (address 3), `areEqual(H, H)` does not return, whatever the
fuel.  The pair `(3, 3)` passes `matchPlainValues` and is of known kind, so
`matchValues` calls `valGetCustom(3)`, which traps on a value that is not
custom. -/
theorem C7_areEqual_self_traps :
    exVarHeap.toSymHeapCore.gatherCVars [] = [exVar] ∧
    matchPlainValues {} exVarHeap exVarHeap 3 3 true
      = some ({ ltr := [(3, 3)], rtl := [(3, 3)] }, true) ∧
    exVarHeap.valGetUnknown 3 = some UV_KNOWN ∧
    exVarHeap.toSymHeapCore.valGetCustom 3 = none ∧
    ∀ fuel, areEqual fuel exVarHeap exVarHeap = none := by
  refine ⟨by decide, by decide, by decide, by decide, ?_⟩
  intro fuel
  cases fuel <;> rfl

/-- C8 does not hold on the code: for the heaps `exVarHeap` and
`exListHeap 7 8`, which have the same program variable, neither
`areEqual(H1, H2)` nor `areEqual(H2, H1)` returns, whatever the fuel: both trap
in `valGetCustom` on the address of the variable. -/
theorem C8_areEqual_swap_traps :
    exVarHeap.toSymHeapCore.gatherCVars [] = (exListHeap 7 8).toSymHeapCore.gatherCVars [] ∧
    (∀ fuel, areEqual fuel exVarHeap (exListHeap 7 8) = none) ∧
    (∀ fuel, areEqual fuel (exListHeap 7 8) exVarHeap = none) := by
  refine ⟨by decide, ?_, ?_⟩ <;> intro fuel <;> cases fuel <;> rfl

/-- C9 does not hold on the code: for the variable pointing to a list of two
nodes, `areEqual` returns neither true on two heaps with equal payloads nor
false on two heaps whose second payloads differ, whatever the fuel: it traps in
`valGetCustom` on the address of the variable before any payload is read. -/
theorem C9_areEqual_list_traps :
    (exListHeap 7 8).HeapInv = true ∧ (exListHeap 7 9).HeapInv = true ∧
    (∀ fuel, areEqual fuel (exListHeap 7 8) (exListHeap 7 8) = none) ∧
    (∀ fuel, areEqual fuel (exListHeap 7 8) (exListHeap 7 9) = none) := by
  refine ⟨by decide, by decide, ?_, ?_⟩ <;> intro fuel <;> cases fuel <;> rfl

/-! ## Raising and lowering the bound of a doubly-linked segment -/

theorem filter_insertBy_of_not {α : Type} (lt : α → α → Bool) (p : α → Bool) (x : α)
    (hx : p x = false) (l : List α) : (insertBy lt x l).filter p = l.filter p := by
  induction l with
  | nil => simp [insertBy, hx]
  | cons y ys ih =>
    unfold insertBy
    split
    · simp [List.filter_cons, hx]
    · simp only [List.filter_cons, ih]

theorem filter_setInsert_of_not {α : Type} [DecidableEq α] (lt : α → α → Bool) (p : α → Bool)
    (x : α) (hx : p x = false) (l : List α) : (setInsert lt x l).filter p = l.filter p := by
  unfold setInsert
  split
  · rfl
  · exact filter_insertBy_of_not lt p x hx l

theorem setInsert_of_mem {α : Type} [DecidableEq α] (lt : α → α → Bool) {x : α} {s : List α}
    (h : x ∈ s) : setInsert lt x s = s := by
  unfold setInsert
  rw [if_pos h]

namespace NeqDb

theorem applyOp_add_of_mem (db : NeqDb) {a b : Int} (h : sortValues a b ∈ db.cont_) :
    db.applyOp NEQ_ADD a b = db := by
  unfold applyOp
  simp only [setInsert_of_mem pairLt h]

/-- Erasing one or two pairs that were absent undoes their insertion. -/
theorem del_add_of_absent (db : NeqDb) (p : Int × Int) (hp : p ∉ db.cont_) :
    setErase p (setInsert pairLt p db.cont_) = db.cont_ := by
  unfold setErase
  rw [filter_setInsert_of_not pairLt _ p (by simp)]
  rw [List.filter_eq_self]
  intro y hy
  simp only [ne_eq, decide_not, Bool.not_eq_true', decide_eq_false_iff_not]
  intro h
  exact hp (h ▸ hy)

theorem del_del_add_add_of_absent (db : NeqDb) (p q : Int × Int) (hp : p ∉ db.cont_)
    (hq : q ∉ db.cont_) :
    setErase q (setErase p (setInsert pairLt q (setInsert pairLt p db.cont_))) = db.cont_ := by
  unfold setErase
  rw [List.filter_filter]
  rw [filter_setInsert_of_not pairLt _ q (by simp),
    filter_setInsert_of_not pairLt _ p (by simp)]
  rw [List.filter_eq_self]
  intro y hy
  have h1 : y ≠ p := fun h => hp (h ▸ hy)
  have h2 : y ≠ q := fun h => hq (h ▸ hy)
  simp [h1, h2]

end NeqDb

namespace SymHeapCore

open SymHeapCore.Private

theorem withNeqDb_self (sh : SymHeapCore) : sh.withNeqDb sh.d.neqDb = sh := rfl

theorem neqDbAfter_add_of_recorded {sh : SymHeapCore} {a b : Int}
    (h : sh.factRecorded a b = true) : sh.neqDbAfter NEQ_ADD a b = sh.d.neqDb := by
  unfold factRecorded at h
  unfold neqDbAfter
  simp only [Bool.and_eq_true] at h
  obtain ⟨h1, h2⟩ := h
  have m1 : sortValues a b ∈ sh.d.neqDb.cont_ := by simpa [NeqDb.areNeq] using h1
  cases hc : sh.crossRoots a b with
  | none => simp only [NeqDb.applyOp_add_of_mem _ m1]
  | some p =>
    obtain ⟨ra, rb⟩ := p
    rw [hc] at h2
    have m2 : sortValues ra rb ∈ sh.d.neqDb.cont_ := by simpa [NeqDb.areNeq] using h2
    simp only [NeqDb.applyOp_add_of_mem _ m1, NeqDb.applyOp_add_of_mem _ m2]

/-- Deleting a fact that was absent right after adding it restores the store. -/
theorem neqDbAfter_del_add_of_absent {sh : SymHeapCore} {a b : Int}
    (h : sh.factAbsent a b = true) :
    (sh.withNeqDb (sh.neqDbAfter NEQ_ADD a b)).neqDbAfter NEQ_DEL a b = sh.d.neqDb := by
  unfold factAbsent at h
  simp only [Bool.and_eq_true, Bool.not_eq_true'] at h
  obtain ⟨h1, h2⟩ := h
  have m1 : sortValues a b ∉ sh.d.neqDb.cont_ := by simpa [NeqDb.areNeq] using h1
  unfold neqDbAfter
  rw [crossRoots_withNeqDb]
  cases hc : sh.crossRoots a b with
  | none =>
    simp only [neqDb_withNeqDb, NeqDb.applyOp]
    rw [NeqDb.del_add_of_absent _ _ m1]
  | some p =>
    obtain ⟨ra, rb⟩ := p
    rw [hc] at h2
    have m2 : sortValues ra rb ∉ sh.d.neqDb.cont_ := by simpa [NeqDb.areNeq] using h2
    simp only [neqDb_withNeqDb, NeqDb.applyOp]
    rw [NeqDb.del_del_add_add_of_absent _ _ _ m1 m2]

theorem gridLookup_congr (d d1 : Private) (h : d1.ents = d.ents) (a : Int) :
    d1.gridLookup a = d.gridLookup a := by
  unfold Private.gridLookup
  simp only [valData_congr d d1 h, rootData_congr d d1 h,
    @valRootOf_congr d d1 (by rw [h])]

theorem ptrAt_withNeqDb (sh : SymHeapCore) (db : NeqDb) (a : Int) :
    (sh.withNeqDb db).ptrAt a = sh.ptrAt a := by
  unfold ptrAt
  rw [gridLookup_congr sh.d (sh.withNeqDb db).d rfl]
  rfl

theorem valueOf_withNeqDb (sh : SymHeapCore) (db : NeqDb) (obj : Int) :
    (sh.withNeqDb db).valueOf obj
      = (sh.valueOf obj).map (fun p => (p.1.withNeqDb db, p.2)) := by
  unfold valueOf
  by_cases h1 : obj = OBJ_UNKNOWN ∨ obj = OBJ_INVALID
  · simp [h1]
  · simp only [h1, if_false]
    by_cases h2 : obj = OBJ_DEREF_FAILED
    · simp [h2]
    · simp only [h2, if_false]
      have ho : (sh.withNeqDb db).d.objData obj = sh.d.objData obj := by
        simp [Private.objData, Private.objOutOfRange, Private.lastId, Private.ent, withNeqDb]
      rw [ho]
      cases hod : sh.d.objData obj with
      | none => rfl
      | some o =>
        simp only [Option.bind_eq_bind, Option.some_bind]
        by_cases h3 : VAL_INVALID ≠ o.value
        · simp [h3]
        · simp only [h3, if_false]
          have hc : (sh.withNeqDb db).valueOfCreate obj o
              = (sh.valueOfCreate obj o).map (fun p => ({ p.1 with neqDb := db }, p.2)) := by
            unfold valueOfCreate
            simp only [stor_withNeqDb]
            split
            · simp only [valCreate, withNeqDb, pushEnt, Option.bind_eq_bind, Option.some_bind]
              simp only [Private.valData, Private.valOutOfRange, Private.lastId, Private.ent,
                Private.setEnt]
              split <;> try rfl
              split <;> rfl
            · rw [rootData_congr sh.d (sh.withNeqDb db).d rfl]
              cases sh.d.rootData o.root with
              | none => rfl
              | some rp =>
                simp only [Option.bind_eq_bind, Option.some_bind]
                cases originByCode rp.1.code with
                | none => rfl
                | some vo => rfl
          rw [hc]
          cases hcr : sh.valueOfCreate obj o with
          | none => rfl
          | some p =>
            obtain ⟨d1, val⟩ := p
            simp only [Option.map_some', Option.some_bind]
            have hv : (({ d1 with neqDb := db } : Private).setEnt obj
                (.HeapObject { o with value := val })).valData val
                = (d1.setEnt obj (.HeapObject { o with value := val })).valData val := by
              simp [Private.valData, Private.valOutOfRange, Private.lastId, Private.ent,
                Private.setEnt]
            rw [hv]
            cases (d1.setEnt obj (.HeapObject { o with value := val })).valData val with
            | none => rfl
            | some q => rfl

theorem valTarget_withNeqDb (sh : SymHeapCore) (db : NeqDb) (f : Int → Bool) (v : Int) :
    (sh.withNeqDb db).valTarget f v = sh.valTarget f v := by
  unfold valTarget
  simp only [valData_congr sh.d (sh.withNeqDb db).d rfl,
    @valRootOf_congr sh.d (sh.withNeqDb db).d rfl]

end SymHeapCore

namespace SymHeap

open SymHeapCore SymHeapCore.Private

theorem withNeqDb_same (sh : SymHeap) : sh.withNeqDb sh.d.neqDb = sh := rfl

theorem valTargetKind_withNeqDb (sh : SymHeap) (db : NeqDb) (v : Int) :
    (sh.withNeqDb db).valTargetKind v = sh.valTargetKind v := by
  simp only [valTargetKind, toSymHeapCore_withNeqDb, data_withNeqDb,
    valRoot_congr sh.toSymHeapCore (sh.toSymHeapCore.withNeqDb db) rfl]

theorem valTargetAbs_withNeqDb (sh : SymHeap) (db : NeqDb) (v : Int) :
    (sh.withNeqDb db).valTarget v = sh.valTarget v := by
  simp only [valTarget, hasAbstractTarget, valTargetKind_withNeqDb, toSymHeapCore_withNeqDb,
    SymHeapCore.valTarget_withNeqDb]

end SymHeap

open SymHeapCore SymHeapCore.Private in
theorem isAbstractValue_withNeqDb (sh : SymHeap) (db : NeqDb) (v : Int) :
    isAbstractValue (sh.withNeqDb db) v = isAbstractValue sh v := by
  simp only [isAbstractValue, SymHeap.valTargetAbs_withNeqDb]


open SymHeapCore SymHeapCore.Private in
theorem nextPtrFromSeg_withNeqDb (sh : SymHeap) (db : NeqDb) (seg : Int) :
    nextPtrFromSeg (sh.withNeqDb db) seg = (nextPtrFromSeg sh seg).map (liftNeqDb db) := by
  unfold nextPtrFromSeg
  rw [SymHeap.segBinding_withNeqDb]
  cases sh.segBinding seg with
  | none => rfl
  | some off =>
    simp only [Option.bind_eq_bind, Option.some_bind, SymHeap.toSymHeapCore_withNeqDb,
      valByOffset_withNeqDb]
    cases sh.toSymHeapCore.valByOffset seg off.next with
    | none => rfl
    | some p =>
      obtain ⟨core, addr⟩ := p
      simp only [Option.map_some', Option.some_bind, ptrAt_withNeqDb]
      cases core.ptrAt addr with
      | none => rfl
      | some ptr => rfl

open SymHeapCore SymHeapCore.Private in
theorem nextValFromSeg_withNeqDb (sh : SymHeap) (db : NeqDb) (seg : Int) :
    nextValFromSeg (sh.withNeqDb db) seg = (nextValFromSeg sh seg).map (liftNeqDb db) := by
  unfold nextValFromSeg
  rw [nextPtrFromSeg_withNeqDb]
  cases nextPtrFromSeg sh seg with
  | none => rfl
  | some p =>
    obtain ⟨sh1, ptr⟩ := p
    simp only [Option.map_some', Option.bind_eq_bind, Option.some_bind, liftNeqDb,
      SymHeap.toSymHeapCore_withNeqDb, valueOf_withNeqDb]
    cases sh1.toSymHeapCore.valueOf ptr with
    | none => rfl
    | some q => rfl

open SymHeapCore SymHeapCore.Private in
theorem dlSegPeer_withNeqDb (sh : SymHeap) (db : NeqDb) (dls : Int) :
    dlSegPeer (sh.withNeqDb db) dls = (dlSegPeer sh dls).map (liftNeqDb db) := by
  unfold dlSegPeer
  rw [SymHeap.segBinding_withNeqDb]
  cases sh.segBinding dls with
  | none => rfl
  | some off =>
    simp only [Option.bind_eq_bind, Option.some_bind, SymHeap.toSymHeapCore_withNeqDb,
      valByOffset_withNeqDb]
    cases sh.toSymHeapCore.valByOffset dls off.prev with
    | none => rfl
    | some p =>
      obtain ⟨core, addr⟩ := p
      simp only [Option.map_some', Option.some_bind, ptrAt_withNeqDb]
      cases core.ptrAt addr with
      | none => rfl
      | some ptr =>
        simp only [Option.some_bind, valueOf_withNeqDb]
        cases core.valueOf ptr with
        | none => rfl
        | some q =>
          obtain ⟨core1, peer⟩ := q
          simp only [Option.map_some', Option.some_bind,
            valRoot_congr core1 (core1.withNeqDb db) rfl]
          cases core1.valRoot peer with
          | none => rfl
          | some root => rfl

open SymHeapCore SymHeapCore.Private in
theorem haveSeg_withNeqDb (sh : SymHeap) (db : NeqDb) (atAddr pointingTo : Int)
    (kind : EObjKind) :
    haveSeg (sh.withNeqDb db) atAddr pointingTo kind
      = (haveSeg sh atAddr pointingTo kind).map (liftNeqDb db) := by
  unfold haveSeg
  simp only [isAbstractValue_withNeqDb, SymHeap.toSymHeapCore_withNeqDb,
    valRoot_congr sh.toSymHeapCore (sh.toSymHeapCore.withNeqDb db) rfl,
    SymHeap.valTargetKind_withNeqDb, Option.bind_eq_bind]
  cases isAbstractValue sh atAddr with
  | none => rfl
  | some abs =>
    simp only [Option.some_bind]
    cases abs with
    | false => rfl
    | true =>
      simp only [Bool.not_true, Bool.false_eq_true, if_false]
      cases sh.toSymHeapCore.valRoot atAddr with
      | none => rfl
      | some seg =>
        simp only [Option.some_bind]
        cases sh.valTargetKind seg with
        | none => rfl
        | some k =>
          simp only [Option.some_bind]
          by_cases hk : kind ≠ k
          · rw [if_pos hk, if_pos hk]; rfl
          · rw [if_neg hk, if_neg hk]
            by_cases hd : OK_DLS = kind
            · rw [if_pos hd, if_pos hd]
              simp only [dlSegPeer_withNeqDb]
              cases dlSegPeer sh seg with
              | none => rfl
              | some p =>
                obtain ⟨sh1, seg1⟩ := p
                simp only [Option.map_some', Option.some_bind, liftNeqDb,
                  SymHeap.valTargetKind_withNeqDb]
                cases sh1.valTargetKind seg1 with
                | none => rfl
                | some k1 =>
                  simp only [Option.some_bind]
                  by_cases hk1 : OK_DLS ≠ k1
                  · rw [if_pos hk1, if_pos hk1]; rfl
                  · rw [if_neg hk1, if_neg hk1]
                    simp only [nextValFromSeg_withNeqDb]
                    cases nextValFromSeg sh1 seg1 with
                    | none => rfl
                    | some q => rfl
            · rw [if_neg hd, if_neg hd]
              simp only [nextValFromSeg_withNeqDb]
              cases nextValFromSeg sh seg with
              | none => rfl
              | some q => rfl

open SymHeapCore SymHeapCore.Private in
/-- C11 (amended): on a resolved doubly-linked segment pair of minimum length
1 (the two cross facts are recorded) and not yet of length 2 (the fact
`(a, b)` is not recorded), where neither address is the forward value of the
other end, `neqOp(NEQ_ADD, a, b)` returns a heap in which the fact `(a, b)`
holds, and `neqOp(NEQ_DEL, a, b)` on that heap returns the heap before the
raise: the lowering removes what the raise added, the cross facts stay. -/
theorem C11_dls_raise_lower (sh : SymHeap) (a b : Int) (w : DlsView)
    (hinv : sh.toSymHeapCore.HeapInv = true) (hp : DlsPair sh a b w) (hab : a ≠ b)
    (hc1 : sh.toSymHeapCore.factRecorded w.val1 w.head2 = true)
    (hc2 : sh.toSymHeapCore.factRecorded w.val2 w.head1 = true)
    (hnew : sh.toSymHeapCore.factAbsent a b = true)
    (hs1 : haveSeg sh a b OK_DLS = some (sh, false))
    (hs2 : haveSeg sh b a OK_DLS = some (sh, false)) :
    ∃ sh1, sh.neqOp NEQ_ADD a b = some sh1 ∧ sh1.d.neqDb.areNeq a b = true ∧
      sh1.d.neqDb.areNeq w.val1 w.head2 = true ∧ sh1.d.neqDb.areNeq w.val2 w.head1 = true ∧
      sh1.neqOp NEQ_DEL a b = some sh ∧
      sh.d.neqDb.areNeq w.val1 w.head2 = true ∧ sh.d.neqDb.areNeq w.val2 w.head1 = true := by
  obtain ⟨hoff, -, -, hord⟩ := heapInv_parts hinv
  have hf := offFacts_of_inv hoff
  have hv := hp.valid
  simp only [Bool.and_eq_true] at hv
  obtain ⟨⟨⟨⟨⟨hv1, hv2⟩, hh1⟩, hh2⟩, ha⟩, hb⟩ := hv
  have hr1 : sh.d.neqDb.areNeq w.val1 w.head2 = true := by
    unfold factRecorded at hc1; simp only [Bool.and_eq_true] at hc1; exact hc1.1
  have hr2 : sh.d.neqDb.areNeq w.val2 w.head1 = true := by
    unfold factRecorded at hc2; simp only [Bool.and_eq_true] at hc2; exact hc2.1
  have hne : ∀ x y : Int, sh.d.neqDb.areNeq x y = true → x ≠ y := by
    intro x y hxy heq
    have hm : sortValues x y ∈ sh.d.neqDb.cont_ := by simpa [NeqDb.areNeq] using hxy
    have hlt := (List.all_eq_true.mp hord) _ hm
    simp only [decide_eq_true_eq] at hlt
    rw [heq] at hlt
    unfold sortValues at hlt
    simp at hlt
  have h1 := hne _ _ hr1
  have h2 := hne _ _ hr2
  have e1 : sh.coreNeqOp NEQ_ADD w.val1 w.head2 = some sh := by
    rw [SymHeap.coreNeqOp_valid hf NEQ_ADD h1 hv1 hh2, neqDbAfter_add_of_recorded hc1]
    rfl
  have e2 : sh.coreNeqOp NEQ_ADD w.val2 w.head1 = some sh := by
    rw [SymHeap.coreNeqOp_valid hf NEQ_ADD h2 hv2 hh1, neqDbAfter_add_of_recorded hc2]
    rfl
  have e3 : sh.coreNeqOp NEQ_ADD a b
      = some (sh.withNeqDb (sh.toSymHeapCore.neqDbAfter NEQ_ADD a b)) :=
    SymHeap.coreNeqOp_valid hf NEQ_ADD hab ha hb
  have ecross : sh.dlSegCrossNeqOp NEQ_ADD a = some sh := by
    unfold SymHeap.dlSegCrossNeqOp
    simp only [hp.root, hp.peer, hp.next1, hp.value1, hp.next2, hp.value2, hp.head2, hp.head1,
      Option.bind_eq_bind, Option.some_bind, SymHeap.withCore_self, e1, e2]
    simp
  have eraise : sh.neqOp NEQ_ADD a b
      = some (sh.withNeqDb (sh.toSymHeapCore.neqDbAfter NEQ_ADD a b)) := by
    unfold SymHeap.neqOp
    simp only [if_true, hp.dls, Option.bind_eq_bind, Option.some_bind, ecross, e3]
  have e4 : (sh.withNeqDb (sh.toSymHeapCore.neqDbAfter NEQ_ADD a b)).coreNeqOp NEQ_DEL a b
      = some sh := by
    rw [@SymHeap.coreNeqOp_valid (sh.withNeqDb (sh.toSymHeapCore.neqDbAfter NEQ_ADD a b))
      (offFacts_withNeqDb _ hf) NEQ_DEL _ _ hab (by simpa using ha) (by simpa using hb)]
    rw [SymHeap.toSymHeapCore_withNeqDb, neqDbAfter_del_add_of_absent hnew]
    rfl
  refine ⟨_, eraise, ?_, ?_, ?_, ?_, hr1, hr2⟩
  · have m := mem_neqDbAfter_add_self sh.toSymHeapCore a b
    simpa [NeqDb.areNeq] using m
  · have m0 : sortValues w.val1 w.head2 ∈ sh.d.neqDb.cont_ := by simpa [NeqDb.areNeq] using hr1
    have m := mem_neqDbAfter_add_mono sh.toSymHeapCore a b m0
    simpa [NeqDb.areNeq] using m
  · have m0 : sortValues w.val2 w.head1 ∈ sh.d.neqDb.cont_ := by simpa [NeqDb.areNeq] using hr2
    have m := mem_neqDbAfter_add_mono sh.toSymHeapCore a b m0
    simpa [NeqDb.areNeq] using m
  · unfold SymHeap.neqOp
    rw [if_neg (by decide)]
    unfold SymHeap.neqOpSeg
    simp only [haveSeg_withNeqDb, hs1, hs2, Option.map_some', liftNeqDb, Option.bind_eq_bind,
      Option.some_bind, Bool.false_eq_true, if_false, e4]

/-- Claim C11 (amended) applied to the segment pair of `exDls1Heap`. -/
theorem C11_dls_raise_lower_witness :
    ∃ sh1, exDls1Heap.neqOp NEQ_ADD 2 6 = some sh1 ∧ sh1.d.neqDb.areNeq 2 6 = true ∧
      sh1.d.neqDb.areNeq 0 6 = true ∧ sh1.d.neqDb.areNeq 0 2 = true ∧
      sh1.neqOp NEQ_DEL 2 6 = some exDls1Heap ∧
      exDls1Heap.d.neqDb.areNeq 0 6 = true ∧ exDls1Heap.d.neqDb.areNeq 0 2 = true :=
  C11_dls_raise_lower exDls1Heap 2 6 exDlsView (by decide)
    ⟨by decide, by decide, by decide, by decide, by decide, by decide, by decide, by decide,
      by decide, by decide⟩
    (by decide) (by decide) (by decide) (by decide) (by decide) (by decide)

/-- C11 fails as stated.  On the pair of `exDls1Heap`, whose cross facts
`(0, 6)` and `(0, 2)` are recorded, the raise adds the fact `(2, 6)` and the
lowering removes that fact: the cross facts are still recorded afterwards.  On
the pair of `exDlsHeap`, where no fact is recorded, the raise records the cross
facts and the lowering leaves them: the store afterwards is not the store
before the raise. -/
theorem C11_counterexample :
    ((exDls1Heap.neqOp NEQ_ADD 2 6).bind (fun s => s.neqOp NEQ_DEL 2 6)).map
        (fun s => (s.d.neqDb.areNeq 0 6, s.d.neqDb.areNeq 0 2, s.d.neqDb.areNeq 2 6))
      = some (true, true, false) ∧
    exDlsHeap.d.neqDb.cont_ = [] ∧
    ((exDlsHeap.neqOp NEQ_ADD 2 6).bind (fun s => s.neqOp NEQ_DEL 2 6)).map
        (fun s => s.d.neqDb.cont_)
      = some [(0, 2), (0, 6)] := by
  decide

/-! ## Destruction of a root -/

namespace IHeapEntity

theorem skelV_skel (e : IHeapEntity) : e.skel.skelV = e.skelV := by
  cases e with
  | HeapObject o => rfl
  | Value b x => cases x <;> rfl

theorem skelV_of_skel {e e' : IHeapEntity} (h : e'.skel = e.skel) : e'.skelV = e.skelV := by
  rw [← skelV_skel e', h, skelV_skel]

theorem skel_of_skelV_value {e' : IHeapEntity} {b : BaseValue} {x : ValueExt}
    (h : e'.skelV = (IHeapEntity.Value b x).skelV) : e'.skel = (IHeapEntity.Value b x).skel := by
  cases e' with
  | HeapObject o => cases x <;> simp [skelV, skel] at h
  | Value b' x' => exact h

theorem skelV_wipeObject (e : IHeapEntity) : e.wipeObject.skelV = e.skelV := by
  cases e with
  | HeapObject o => rfl
  | Value b x => rfl

theorem usedBy_wipeObject (e : IHeapEntity) : e.wipeObject.usedBy = e.usedBy := by
  cases e with
  | HeapObject o => rfl
  | Value b x => rfl

theorem usedByGl_wipeObject (e : IHeapEntity) : e.wipeObject.usedByGl = e.usedByGl := by
  cases e with
  | HeapObject o => rfl
  | Value b x => rfl

end IHeapEntity

namespace SymHeapCore.Private

theorem SameVals.vrefl (d : Private) : SameVals d d := ⟨rfl, fun _ => rfl⟩

theorem SameVals.vtrans {d1 d2 d3 : Private} (h12 : SameVals d1 d2) (h23 : SameVals d2 d3) :
    SameVals d1 d3 :=
  ⟨h23.1.trans h12.1, fun j => (h23.2 j).trans (h12.2 j)⟩

theorem SameSkel.sameVals {d d' : Private} (h : SameSkel d d') : SameVals d d' := by
  refine ⟨h.1, fun j => ?_⟩
  have hj := h.2 j
  cases h1 : d'.ent j with
  | none =>
    rw [h1] at hj
    cases h2 : d.ent j with
    | none => rfl
    | some e => rw [h2] at hj; cases hj
  | some e' =>
    rw [h1] at hj
    cases h2 : d.ent j with
    | none => rw [h2] at hj; cases hj
    | some e =>
      rw [h2] at hj
      simp only [Option.map_some', Option.some.injEq] at hj ⊢
      exact IHeapEntity.skelV_of_skel hj

theorem SameVals.vmodEnt (d : Private) (id : Int) {f : IHeapEntity → IHeapEntity}
    (hf : ∀ e, (f e).skelV = e.skelV) : SameVals d (d.modEnt id f) := by
  refine ⟨length_modEnt d id f, fun j => ?_⟩
  rw [ent_modEnt]
  split
  · cases d.ent j with
    | none => rfl
    | some e => simp [hf]
  · rfl

theorem SameVals.vent_value {d d' : Private} (h : SameVals d d') {v : Int} {b : BaseValue}
    {x : ValueExt} (hv : d.ent v = some (.Value b x)) :
    ∃ b' x', d'.ent v = some (.Value b' x') ∧ b'.code = b.code ∧ b'.origin = b.origin ∧
      b'.offRoot = b.offRoot ∧
      ((∃ rd rd', x = .RootValue rd ∧ x' = .RootValue rd' ∧
          rd'.offMap = rd.offMap ∧ rd'.allObjs = rd.allObjs ∧ rd'.cVar = rd.cVar) ∨
        ((∀ rd, x ≠ .RootValue rd) ∧ x' = x)) := by
  have hj := h.2 v
  rw [hv] at hj
  cases he : d'.ent v with
  | none => rw [he] at hj; cases hj
  | some e' =>
    rw [he] at hj
    simp only [Option.map_some', Option.some.injEq] at hj
    obtain ⟨b', x', rfl, hrest⟩ := IHeapEntity.skel_eq_value (IHeapEntity.skel_of_skelV_value hj)
    exact ⟨b', x', rfl, hrest⟩

theorem SameVals.vvalData {d d' : Private} (h : SameVals d d') {v : Int} {b : BaseValue}
    {x : ValueExt} (hv : d.valData v = some (b, x)) :
    ∃ b' x', d'.valData v = some (b', x') ∧ b'.code = b.code ∧ b'.origin = b.origin ∧
      b'.offRoot = b.offRoot ∧ d'.valRootOf v (b', x') = d.valRootOf v (b, x) ∧
      ((∃ rd rd', x = .RootValue rd ∧ x' = .RootValue rd' ∧
          rd'.offMap = rd.offMap ∧ rd'.allObjs = rd.allObjs ∧ rd'.cVar = rd.cVar) ∨
        ((∀ rd, x ≠ .RootValue rd) ∧ x' = x)) := by
  obtain ⟨hpos, hent⟩ := valData_eq_some.mp hv
  obtain ⟨b', x', he', hc, ho, hf, hx⟩ := h.vent_value hent
  refine ⟨b', x', valData_eq_some.mpr ⟨hpos, he'⟩, hc, ho, hf, ?_, hx⟩
  rw [valRootOf_congr h.1]
  unfold valRootOf
  simp only [hf]
  split
  · rfl
  · rcases hx with ⟨rd, rd', h1, h2, -⟩ | ⟨-, h2⟩
    · subst h1; subst h2; rfl
    · subst h2; rfl

theorem SameVals.vrootData {d d' : Private} (h : SameVals d d') {v : Int} {b : BaseValue}
    {rd : RootValue} (hv : d.rootData v = some (b, rd)) :
    ∃ b' rd', d'.rootData v = some (b', rd') ∧ b'.code = b.code ∧ b'.offRoot = b.offRoot ∧
      rd'.offMap = rd.offMap ∧ rd'.cVar = rd.cVar := by
  obtain ⟨hpos, hent⟩ := rootData_eq_some.mp hv
  obtain ⟨b', x', he', hc, ho, hf, hx⟩ := h.vent_value hent
  rcases hx with ⟨rd0, rd', h1, h2, h3, -, h5⟩ | ⟨h1, -⟩
  · cases h1; subst h2
    exact ⟨b', rd', rootData_eq_some.mpr ⟨hpos, he'⟩, hc, hf, h3, h5⟩
  · exact absurd rfl (h1 rd)

/-- The state one round of the loop of `objDestroy` leaves: the value of the
object is released and the object is wiped. -/
theorem objDestroyLoop_cons {d : Private} {obj : Int} {o : HeapObject} {R : Int} {dr : Bool}
    (rest : List Int) (ho : d.objData obj = some o)
    (hrel : d.releaseValueOf obj o.value = some (d.released obj o.value R dr)) :
    d.objDestroyLoop (obj :: rest)
      = ((d.released obj o.value R dr).modEnt obj IHeapEntity.wipeObject).objDestroyLoop rest := by
  have ho1 := objData_released obj o.value R dr ho
  have he : (d.released obj o.value R dr).setEnt obj
      (.HeapObject { o with clt := none, value := VAL_INVALID })
      = (d.released obj o.value R dr).modEnt obj IHeapEntity.wipeObject :=
    setEnt_eq_modEnt (objData_eq_some.mp ho1) IHeapEntity.wipeObject
  rw [objDestroyLoop]
  simp only [ho, Option.bind_eq_bind, Option.some_bind, hrel, he]

end SymHeapCore.Private

namespace SymHeapCore

open SymHeapCore.Private

/-- A value that can be released is released, and the state is the normal
form `released`. -/
theorem releaseValueOf_released {d : Private} {obj val : Int} (h : Releasable d obj val) :
    ∃ R dr, d.releaseValueOf obj val = some (d.released obj val R dr) := by
  by_cases hpos : 0 < val
  · obtain ⟨b, x, R, rb, rx, hv, hmem, hroot, hR, hgl⟩ := h hpos
    refine ⟨R, isPossibleToDeref rb.code, ?_⟩
    rw [releaseValueOf_eq hv hmem hroot hR hgl]
    have hn : ¬ val ≤ 0 := by omega
    unfold Private.released
    simp only [hn, if_false]
  · refine ⟨0, false, ?_⟩
    have hn : val ≤ 0 := by omega
    unfold releaseValueOf Private.released
    simp only [hn, if_true]

end SymHeapCore

namespace SymHeapCore.Private

@[simp] theorem cVarMap_modEnt (d : Private) (id : Int) (f : IHeapEntity → IHeapEntity) :
    (d.modEnt id f).cVarMap = d.cVarMap := by
  unfold modEnt; split <;> rfl

@[simp] theorem liveRoots_modEnt (d : Private) (id : Int) (f : IHeapEntity → IHeapEntity) :
    (d.modEnt id f).liveRoots = d.liveRoots := by
  unfold modEnt; split <;> rfl

@[simp] theorem cValueMap_modEnt (d : Private) (id : Int) (f : IHeapEntity → IHeapEntity) :
    (d.modEnt id f).cValueMap = d.cValueMap := by
  unfold modEnt; split <;> rfl

theorem fields_released (d : Private) (obj old R : Int) (dr : Bool) :
    (d.released obj old R dr).cVarMap = d.cVarMap ∧
    (d.released obj old R dr).liveRoots = d.liveRoots ∧
    (d.released obj old R dr).cValueMap = d.cValueMap := by
  unfold Private.released
  split
  · exact ⟨rfl, rfl, rfl⟩
  · split <;> simp

theorem fields_destroyedObj (d : Private) (obj old R : Int) (dr : Bool) :
    (d.destroyedObj obj old R dr).cVarMap = d.cVarMap ∧
    (d.destroyedObj obj old R dr).liveRoots = d.liveRoots ∧
    (d.destroyedObj obj old R dr).cValueMap = d.cValueMap ∧
    (d.destroyedObj obj old R dr).neqDb = d.neqDb := by
  obtain ⟨h1, h2, h3⟩ := fields_released d obj old R dr
  unfold destroyedObj
  simp [h1, h2, h3]

/-- A write that keeps objects as they are and values values does not change
what `objData` reads. -/
theorem objData_modEnt_kind (d : Private) (id : Int) {f : IHeapEntity → IHeapEntity}
    (hf1 : ∀ o, f (.HeapObject o) = .HeapObject o)
    (hf2 : ∀ b x, ∃ b' x', f (.Value b x) = .Value b' x') (j : Int) :
    (d.modEnt id f).objData j = d.objData j := by
  unfold objData objOutOfRange lastId
  simp only [length_modEnt, ent_modEnt]
  by_cases hj : j = id
  · simp only [hj, if_true]
    cases he : d.ent id with
    | none => rfl
    | some e =>
      cases e with
      | HeapObject o => simp [hf1]
      | Value b x =>
        obtain ⟨b', x', hbx⟩ := hf2 b x
        simp [hbx]
  · simp only [hj, if_false]

theorem objData_released_eq (d : Private) (obj old R : Int) (dr : Bool) (j : Int) :
    (d.released obj old R dr).objData j = d.objData j := by
  have k1 : ∀ (d0 : Private) (id : Int),
      (d0.modEnt id (IHeapEntity.eraseUsedBy obj)).objData j = d0.objData j := fun d0 id =>
    objData_modEnt_kind d0 id (fun _ => rfl) (fun b x => ⟨_, _, rfl⟩) j
  have k2 : ∀ (d0 : Private) (id : Int),
      (d0.modEnt id (IHeapEntity.eraseUsedByGl obj)).objData j = d0.objData j := fun d0 id =>
    objData_modEnt_kind d0 id (fun _ => rfl)
      (fun b x => by cases x <;> exact ⟨_, _, rfl⟩) j
  unfold Private.released
  split
  · rfl
  · split
    · rw [k2, k1]
    · rw [k1]

theorem sameVals_destroyedObj (d : Private) (obj old R : Int) (dr : Bool) :
    SameVals d (d.destroyedObj obj old R dr) :=
  (SameSkel.released d obj old R dr).sameVals.vtrans
    (SameVals.vmodEnt _ obj IHeapEntity.skelV_wipeObject)

theorem objData_destroyedObj_same {d : Private} {obj : Int} {o : HeapObject} (old R : Int)
    (dr : Bool) (ho : d.objData obj = some o) :
    (d.destroyedObj obj old R dr).objData obj
      = some { o with clt := none, value := VAL_INVALID } := by
  have h1 := objData_released obj old R dr ho
  unfold destroyedObj
  rw [objData_eq_some] at h1 ⊢
  rw [ent_modEnt, if_pos rfl, h1]
  rfl

theorem objData_destroyedObj_ne (d : Private) {obj j : Int} (old R : Int) (dr : Bool)
    (hne : j ≠ obj) : (d.destroyedObj obj old R dr).objData j = d.objData j := by
  unfold destroyedObj
  rw [objData_modEnt_ne _ hne, objData_released_eq]

theorem usedByAt_destroyedObj (d : Private) (obj old R : Int) (dr : Bool) (j : Int) :
    (d.destroyedObj obj old R dr).usedByAt j
      = if j = old ∧ 0 < old then setErase obj (d.usedByAt j) else d.usedByAt j := by
  unfold destroyedObj
  rw [usedByAt_modEnt_of_eq _ _ IHeapEntity.usedBy_wipeObject, usedByAt_released]

theorem mem_usedByGlAt_destroyedObj (d : Private) {obj old R : Int} (dr : Bool) {j y : Int}
    (hy : y ≠ obj) (h : y ∈ d.usedByGlAt j) : y ∈ (d.destroyedObj obj old R dr).usedByGlAt j := by
  unfold destroyedObj
  exact mem_usedByGlAt_modEnt _ obj
    (fun e he => by rw [IHeapEntity.usedByGl_wipeObject]; exact he)
    (mem_usedByGlAt_released d dr hy h)

end SymHeapCore.Private

namespace SymHeapCore

open SymHeapCore.Private

/-- What another object needs to release its value survives one round of the
loop of `objDestroy`. -/
theorem Releasable.destroyedObj {d : Private} {obj2 val2 : Int} (obj old R : Int) (dr : Bool)
    (hne : obj2 ≠ obj) (h : Releasable d obj2 val2) :
    Releasable (d.destroyedObj obj old R dr) obj2 val2 := by
  intro hpos
  obtain ⟨b, x, R2, rb, rx, hv, hmem, hroot, hR, hgl⟩ := h hpos
  have hs := sameVals_destroyedObj d obj old R dr
  obtain ⟨b', x', hv', hc, -, -, hroot', -⟩ := hs.vvalData hv
  obtain ⟨rb', rx', hR', hrc, -, -, -, hrx⟩ := hs.vvalData hR
  refine ⟨b', x', R2, rb', rx', hv', ?_, by rw [hroot', hroot], hR', ?_⟩
  · rw [← usedByAt_of_valData hv', usedByAt_destroyedObj]
    have hm : obj2 ∈ d.usedByAt val2 := by rw [usedByAt_of_valData hv]; exact hmem
    split
    · exact (mem_setErase _ _ _).mpr ⟨hm, hne⟩
    · exact hm
  · intro hderef
    rw [hrc] at hderef
    obtain ⟨rd, hrd, hgm⟩ := hgl hderef
    rcases hrx with ⟨rd0, rd', h1, h2, -⟩ | ⟨h1, -⟩
    · refine ⟨rd', h2, ?_⟩
      subst h2
      have hR'' : (d.destroyedObj obj old R dr).rootData R2 = some (rb', rd') := by
        rw [rootData_eq_some]
        exact valData_eq_some.mp hR'
      rw [← usedByGlAt_of_rootData hR'']
      apply mem_usedByGlAt_destroyedObj d dr hne
      subst hrd
      have hR0 : d.rootData R2 = some (rb, rd) := by
        rw [rootData_eq_some]
        exact valData_eq_some.mp hR
      rw [usedByGlAt_of_rootData hR0]
      exact hgm
    · exact absurd hrd (h1 rd)

end SymHeapCore

namespace SymHeapCore

open SymHeapCore.Private

/-- What the loop of `objDestroy` over the objects `objs` leaves, when every
object of the list can release its value: the values keep their kind, code and
offset; the objects of the list are wiped, the other objects are untouched; and
each value loses from `usedBy` the objects of the list that held it. -/
theorem objDestroyLoop_spec (objs : List Int) : ∀ (d : Private), objs.Nodup →
    (∀ obj ∈ objs, ∃ o, d.objData obj = some o ∧ Releasable d obj o.value) →
    ∃ d', d.objDestroyLoop objs = some d' ∧ SameVals d d' ∧
      d'.cVarMap = d.cVarMap ∧ d'.liveRoots = d.liveRoots ∧ d'.cValueMap = d.cValueMap ∧
      d'.neqDb = d.neqDb ∧
      (∀ obj ∈ objs, ∀ o, d.objData obj = some o →
        d'.objData obj = some { o with clt := none, value := VAL_INVALID }) ∧
      (∀ j, j ∉ objs → d'.objData j = d.objData j) ∧
      (∀ j, 0 < j →
        d'.usedByAt j = (d.usedByAt j).filter (fun y => !d.heldIn objs j y)) := by
  induction objs with
  | nil =>
    intro d _ _
    refine ⟨d, rfl, SameVals.vrefl d, rfl, rfl, rfl, rfl, ?_, fun _ _ => rfl, ?_⟩
    · intro obj hobj; cases hobj
    · intro j _
      rw [List.filter_eq_self.mpr]
      intro y _
      simp [heldIn]
  | cons obj rest ih =>
    intro d hnd hall
    obtain ⟨hnotin, hnd'⟩ := List.nodup_cons.mp hnd
    obtain ⟨o, ho, hrel⟩ := hall obj (List.mem_cons_self _ _)
    obtain ⟨R, dr, hrv⟩ := releaseValueOf_released hrel
    have hstep : d.objDestroyLoop (obj :: rest)
        = (d.destroyedObj obj o.value R dr).objDestroyLoop rest :=
      objDestroyLoop_cons rest ho hrv
    have hne : ∀ y ∈ rest, y ≠ obj := fun y hy h => hnotin (h ▸ hy)
    have hall' : ∀ obj2 ∈ rest, ∃ o2, (d.destroyedObj obj o.value R dr).objData obj2 = some o2 ∧
        Releasable (d.destroyedObj obj o.value R dr) obj2 o2.value := by
      intro obj2 h2
      obtain ⟨o2, ho2, hrel2⟩ := hall obj2 (List.mem_cons_of_mem _ h2)
      refine ⟨o2, ?_, Releasable.destroyedObj obj o.value R dr (hne obj2 h2) hrel2⟩
      rw [objData_destroyedObj_ne d o.value R dr (hne obj2 h2)]
      exact ho2
    obtain ⟨d', hloop, hsv, hcv, hlr, hcm, hdb, hobjs, hother, hused⟩ :=
      ih (d.destroyedObj obj o.value R dr) hnd' hall'
    obtain ⟨f1, f2, f3, f4⟩ := fields_destroyedObj d obj o.value R dr
    refine ⟨d', by rw [hstep]; exact hloop, (sameVals_destroyedObj d obj o.value R dr).vtrans hsv,
      hcv.trans f1, hlr.trans f2, hcm.trans f3, hdb.trans f4, ?_, ?_, ?_⟩
    · intro obj2 h2 o2 ho2
      rcases List.mem_cons.mp h2 with heq | hin
      · subst heq
        rw [hother obj2 hnotin, objData_destroyedObj_same o.value R dr ho]
        rw [ho] at ho2
        cases ho2
        rfl
      · apply hobjs obj2 hin
        rw [objData_destroyedObj_ne d o.value R dr (hne obj2 hin)]
        exact ho2
    · intro j hj
      have hj1 : j ≠ obj := fun h => hj (h ▸ List.mem_cons_self _ _)
      have hj2 : j ∉ rest := fun h => hj (List.mem_cons_of_mem _ h)
      rw [hother j hj2, objData_destroyedObj_ne d o.value R dr hj1]
    · intro j hj
      rw [hused j hj, usedByAt_destroyedObj]
      have hheld : ∀ y, y ≠ obj →
          (d.destroyedObj obj o.value R dr).heldIn rest j y = d.heldIn (obj :: rest) j y := by
        intro y hy
        unfold heldIn
        rw [objData_destroyedObj_ne d o.value R dr hy]
        simp [hy]
      have hobjheld : (d.destroyedObj obj o.value R dr).heldIn rest j obj = false := by
        unfold heldIn
        simp [hnotin]
      have hobjheld2 : d.heldIn (obj :: rest) j obj = decide (o.value = j) := by
        unfold heldIn
        simp [ho]
      by_cases hc : j = o.value ∧ 0 < o.value
      · rw [if_pos hc]
        unfold setErase
        rw [List.filter_filter]
        apply List.filter_congr
        intro y _
        by_cases hy : y = obj
        · subst hy
          rw [hobjheld2]
          simp [hc.1]
        · rw [hheld y hy]
          simp [hy]
      · rw [if_neg hc]
        apply List.filter_congr
        intro y _
        by_cases hy : y = obj
        · subst hy
          rw [hobjheld, hobjheld2]
          have : o.value ≠ j := by
            intro h
            apply hc
            exact ⟨h.symm, by omega⟩
          simp [this]
        · rw [hheld y hy]

end SymHeapCore

namespace SymHeapCore

open SymHeapCore.Private

theorem ent_congr {d d2 : Private} (h : d2.ents = d.ents) (j : Int) : d2.ent j = d.ent j := by
  unfold Private.ent
  rw [h]

theorem objData_congr {d d2 : Private} (h : d2.ents = d.ents) (j : Int) :
    d2.objData j = d.objData j := by
  unfold Private.objData Private.objOutOfRange Private.lastId
  rw [ent_congr h, h]

theorem Releasable.congr {d d2 : Private} (h : d2.ents = d.ents) {obj val : Int}
    (hr : Releasable d obj val) : Releasable d2 obj val := by
  intro hpos
  obtain ⟨b, x, R, rb, rx, hv, hmem, hroot, hR, hgl⟩ := hr hpos
  refine ⟨b, x, R, rb, rx, ?_, hmem, ?_, ?_, hgl⟩
  · rw [valData_congr d d2 h]; exact hv
  · rw [@valRootOf_congr d d2 (by rw [h])]; exact hroot
  · rw [valData_congr d d2 h]; exact hR

theorem usedByAt_congr {d d2 : Private} (h : d2.ents = d.ents) (j : Int) :
    d2.usedByAt j = d.usedByAt j := by
  unfold Private.usedByAt
  rw [ent_congr h]

theorem heldIn_congr {d d2 : Private} (h : d2.ents = d.ents) (objs : List Int) (j y : Int) :
    d2.heldIn objs j y = d.heldIn objs j y := by
  unfold Private.heldIn
  rw [objData_congr h]

theorem SameVals.of_ents {d d2 : Private} (h : d2.ents = d.ents) : SameVals d d2 :=
  ⟨by rw [h], fun j => by rw [ent_congr h]⟩

theorem objDestroyCVar_eq {d : Private} {cv : CVar}
    (hcv : cv.uid ≠ -1 → (mapFind cv d.cVarMap).isSome = true) :
    d.objDestroyCVar cv = some ({ d with cVarMap := goneCVarMap d.cVarMap cv }, goneCode cv) := by
  unfold objDestroyCVar goneCVarMap goneCode
  by_cases h : cv.uid ≠ -1
  · have hs := hcv h
    have hn : (mapFind cv d.cVarMap).isNone = false := by
      cases hm : mapFind cv d.cVarMap with
      | none => rw [hm] at hs; cases hs
      | some v => rfl
    simp only [if_pos h, hn, Bool.false_eq_true, if_false]
  · simp only [if_neg h]

/-- What `objDestroy(root)` leaves of a root whose objects are listed once
each and can release their values. -/
theorem objDestroy_spec {d : Private} {root : Int} {rb : BaseValue} {rd : RootValue}
    (hr : d.rootData root = some (rb, rd))
    (hcv : rd.cVar.uid ≠ -1 → (mapFind rd.cVar d.cVarMap).isSome = true)
    (hnd : rd.allObjs.Nodup)
    (hall : ∀ obj ∈ rd.allObjs, ∃ o, d.objData obj = some o ∧ Releasable d obj o.value) :
    ∃ (d' : Private) (rb3 : BaseValue) (rd3 : RootValue), d.objDestroy root = some d' ∧
      d'.rootData root = some ({ rb3 with code := goneCode rd.cVar },
        { rd3 with lastKnownClt := none, allObjs := [], liveObjs := [], grid := [] }) ∧
      rb3.offRoot = rb.offRoot ∧
      d'.ents.length = d.ents.length ∧
      d'.cVarMap = goneCVarMap d.cVarMap rd.cVar ∧
      d'.liveRoots = setErase root d.liveRoots ∧ d'.neqDb = d.neqDb ∧
      (∀ v, v ≠ root → ∀ b x, d.valData v = some (b, x) →
        ∃ b' x', d'.valData v = some (b', x') ∧ b'.code = b.code ∧ b'.offRoot = b.offRoot ∧
          ((∀ r0, x ≠ .RootValue r0) → x' = x)) ∧
      (∀ obj ∈ rd.allObjs, ∀ o, d.objData obj = some o →
        d'.objData obj = some { o with clt := none, value := VAL_INVALID }) ∧
      (∀ j, 0 < j →
        d'.usedByAt j = (d.usedByAt j).filter (fun y => !d.heldIn rd.allObjs j y)) := by
  let d2 : Private :=
    { d with cVarMap := goneCVarMap d.cVarMap rd.cVar, liveRoots := setErase root d.liveRoots }
  have hents : d2.ents = d.ents := rfl
  have hall2 : ∀ obj ∈ rd.allObjs, ∃ o, d2.objData obj = some o ∧ Releasable d2 obj o.value := by
    intro obj hobj
    obtain ⟨o, ho, hrel⟩ := hall obj hobj
    exact ⟨o, by rw [objData_congr hents]; exact ho, hrel.congr hents⟩
  obtain ⟨d3, hloop, hsv, hcm, hlr, -, hdb, hobjs, -, hused⟩ :=
    objDestroyLoop_spec rd.allObjs d2 hnd hall2
  have hr2 : d2.rootData root = some (rb, rd) := by
    rw [rootData_congr d d2 hents]; exact hr
  obtain ⟨rb3, rd3, hr3, -, hoff3, -, -⟩ := hsv.vrootData hr2
  have hent3 := (rootData_eq_some.mp hr3).2
  have hpos := (rootData_eq_some.mp hr3).1
  let E : IHeapEntity := .Value { rb3 with code := goneCode rd.cVar }
    (.RootValue { rd3 with lastKnownClt := none, allObjs := [], liveObjs := [], grid := [] })
  have hent' : ∀ j, (d3.setEnt root E).ent j = if j = root then some E else d3.ent j :=
    fun j => ent_setEnt E hent3 j
  have hlen' : (d3.setEnt root E).ents.length = d3.ents.length := by
    simp [Private.setEnt]
  refine ⟨d3.setEnt root E, rb3, rd3, ?_, ?_, hoff3, ?_, ?_, ?_, ?_, ?_, ?_, ?_⟩
  · unfold Private.objDestroy
    simp only [hr, Option.bind_eq_bind, Option.some_bind, objDestroyCVar_eq hcv]
    show (d2.objDestroyLoop rd.allObjs).bind _ = _
    rw [hloop]
    simp only [Option.some_bind, hr3]
  · rw [rootData_eq_some]
    exact ⟨hpos, by rw [hent', if_pos rfl]⟩
  · rw [hlen', hsv.1]
  · show d3.cVarMap = _
    rw [hcm]
  · show d3.liveRoots = _
    rw [hlr]
  · show d3.neqDb = _
    rw [hdb]
  · intro v hv b x hvd
    have hvd2 : d2.valData v = some (b, x) := by rw [valData_congr d d2 hents]; exact hvd
    obtain ⟨b', x', hv3, hc, -, hf, -, hx⟩ := hsv.vvalData hvd2
    refine ⟨b', x', ?_, hc, hf, ?_⟩
    · rw [valData_eq_some] at hv3 ⊢
      exact ⟨hv3.1, by rw [hent', if_neg hv]; exact hv3.2⟩
    · intro hnr
      rcases hx with ⟨r0, -, h1, -⟩ | ⟨-, h2⟩
      · exact absurd h1 (hnr r0)
      · exact h2
  · intro obj hobj o ho
    have ho3 := hobjs obj hobj o (by rw [objData_congr hents]; exact ho)
    rw [objData_eq_some] at ho3 ⊢
    have hne : obj ≠ root := by
      intro h
      rw [h, hent3] at ho3
      cases ho3
    rw [hent', if_neg hne]
    exact ho3
  · intro j hj
    have h1 : (d3.setEnt root E).usedByAt j = d3.usedByAt j := by
      unfold Private.usedByAt
      rw [hent']
      by_cases hjr : j = root
      · rw [if_pos hjr, hjr, hent3]
        rfl
      · rw [if_neg hjr]
    rw [h1, hused j hj, usedByAt_congr hents]
    apply List.filter_congr
    intro y _
    rw [heldIn_congr hents]

end SymHeapCore

theorem mapFind_mapErase_self {κ β : Type} [DecidableEq κ] (k : κ) (m : List (κ × β)) :
    mapFind k (mapErase k m) = none := by
  induction m with
  | nil => rfl
  | cons p m ih =>
    obtain ⟨k1, v1⟩ := p
    unfold mapErase at ih ⊢
    by_cases h : k1 = k
    · simp only [List.filter_cons, h, ne_eq, not_true_eq_false, decide_False, Bool.false_eq_true,
        if_false]
      exact ih
    · simp only [List.filter_cons, ne_eq, h, not_false_eq_true, decide_True, if_true, mapFind,
        if_false]
      exact ih

theorem map_fst_mapErase {κ β : Type} [DecidableEq κ] (k : κ) (m : List (κ × β)) :
    (mapErase k m).map Prod.fst = (m.map Prod.fst).filter (fun c => decide (c ≠ k)) := by
  unfold mapErase
  rw [List.filter_map]
  rfl

namespace SymHeap

open SymHeapCore SymHeapCore.Private

theorem gatherRootObjectsLoop_subset (sh : SymHeap) (filter : EValueTarget → Bool)
    (roots : List Int) : ∀ (dst l : List Int),
    sh.gatherRootObjectsLoop filter dst roots = some l → ∀ x ∈ l, x ∈ dst ∨ x ∈ roots := by
  induction roots with
  | nil =>
    intro dst l h x hx
    simp only [gatherRootObjectsLoop, Option.some.injEq] at h
    subst h
    exact Or.inl hx
  | cons at_ rest ih =>
    intro dst l h x hx
    rw [gatherRootObjectsLoop] at h
    cases hc : sh.valTarget at_ with
    | none => rw [hc] at h; cases h
    | some code =>
      rw [hc] at h
      simp only [Option.bind_eq_bind, Option.some_bind] at h
      rcases ih _ l h x hx with h1 | h1
      · split at h1
        · rcases List.mem_append.mp h1 with h2 | h2
          · exact Or.inl h2
          · simp only [List.mem_singleton] at h2
            exact Or.inr (h2 ▸ List.mem_cons_self _ _)
        · exact Or.inl h1
      · exact Or.inr (List.mem_cons_of_mem _ h1)

/-- The heap `SymHeap::valDestroyTarget(r)` returns for a live root `r`: the
entity store `d'` of `objDestroy` and no abstract object at `r`. -/
theorem valDestroyTarget_root {sh : SymHeap} {r : Int} {rb : BaseValue} {rd : RootValue}
    {d' : Private} (hr : sh.d.rootData r = some (rb, rd)) (hoff : rb.offRoot = 0)
    (hlive : isPossibleToDeref rb.code = true) (hd : sh.d.objDestroy r = some d') :
    sh.valDestroyTarget r
      = some ({ toSymHeapCore := { sh.toSymHeapCore with d := d' },
                data := mapErase r sh.data }, true) := by
  have hv := valData_of_rootData hr
  have hpos := (rootData_eq_some.mp hr).1
  have hroot : sh.toSymHeapCore.valRoot r = some r := by
    rw [valRoot_of_valData hv]
    simp [Private.valRootOf, hoff]
  have hn : ¬ r ≤ 0 := by omega
  have hnull : ¬ VAL_NULL = r := by unfold VAL_NULL; omega
  have hcore : sh.toSymHeapCore.valDestroyTarget r
      = some ({ sh.toSymHeapCore with d := d' }, true) := by
    unfold SymHeapCore.valDestroyTarget
    simp only [hnull, if_false, hv, Option.bind_eq_bind, Option.some_bind, hoff, hlive, hd,
      ne_eq, not_true_eq_false, Bool.not_true, Bool.false_eq_true, or_self]
  unfold valDestroyTarget
  simp only [hroot, hcore, Option.bind_eq_bind, Option.some_bind, Bool.not_true,
    Bool.false_eq_true, if_false, hn]

/-- The target classification of a value whose own code is `code`, at offset
`off` of the root `R`, in a heap with no abstract object at `R`. -/
theorem valTarget_concrete {sh : SymHeap} {v R : Int} {b rb : BaseValue} {x rx : ValueExt}
    (hv : sh.d.valData v = some (b, x)) (hroot : sh.d.valRootOf v (b, x) = some R)
    (hR : sh.d.valData R = some (rb, rx)) (hdata : mapFind R sh.data = none) :
    sh.valTarget v
      = some (if b.offRoot < 0 then VT_UNKNOWN
              else if !isPossibleToDeref b.code || decide (b.offRoot = 0) then b.code
              else rb.code) := by
  have hpos := (valData_eq_some.mp hv).1
  have hn : ¬ v ≤ 0 := by omega
  have hvr : sh.toSymHeapCore.valRoot v = some R := by
    rw [valRoot_of_valData hv]; exact hroot
  unfold valTarget hasAbstractTarget valTargetKind
  simp only [hn, if_false, hvr, Option.bind_eq_bind, Option.some_bind, hdata, ne_eq,
    not_true_eq_false, decide_False]
  unfold SymHeapCore.valTarget
  simp only [hn, if_false, Bool.false_eq_true, hv, Option.bind_eq_bind, Option.some_bind]
  by_cases h1 : b.offRoot < 0
  · simp only [h1, if_true]
  · simp only [h1, if_false]
    by_cases h2 : (!isPossibleToDeref b.code || decide (b.offRoot = 0)) = true
    · simp only [h2, if_true]
    · simp only [h2, if_false, hroot, Option.some_bind, hR, Bool.false_eq_true]

end SymHeap

namespace SymHeap

open SymHeapCore SymHeapCore.Private

theorem isPossibleToDeref_of_known {c : EValueTarget} (h : isKnownObject c = true) :
    isPossibleToDeref c = true := by
  cases c <;> simp_all [isKnownObject, isPossibleToDeref, isOnHeap, isProgramVar]

/-- What `SymHeap::valDestroyTarget(r)` leaves of a heap that satisfies the
representation invariant, for a live root `r` whose objects are in order and
whose variable, if it has one, is registered. -/
theorem valDestroyTarget_spec {sh : SymHeap} (hinv : sh.toSymHeapCore.HeapInv = true) {r : Int}
    {rb : BaseValue} {rd : RootValue} (hr : sh.d.rootData r = some (rb, rd))
    (hlive : isPossibleToDeref rb.code = true) (hobjs : sh.d.rootObjsOk rd = true)
    (hcv : rd.cVar.uid ≠ -1 → (mapFind rd.cVar sh.d.cVarMap).isSome = true) :
    ∃ (sh' : SymHeap) (rb3 : BaseValue) (rd3 : RootValue),
      sh.valDestroyTarget r = some (sh', true) ∧ sh'.data = mapErase r sh.data ∧
      sh'.d.rootData r = some ({ rb3 with code := goneCode rd.cVar },
        { rd3 with lastKnownClt := none, allObjs := [], liveObjs := [], grid := [] }) ∧
      rb3.offRoot = 0 ∧ sh'.d.ents.length = sh.d.ents.length ∧
      sh'.d.cVarMap = goneCVarMap sh.d.cVarMap rd.cVar ∧
      sh'.d.liveRoots = setErase r sh.d.liveRoots ∧
      (∀ v, v ≠ r → ∀ b x, sh.d.valData v = some (b, x) →
        ∃ b' x', sh'.d.valData v = some (b', x') ∧ b'.code = b.code ∧ b'.offRoot = b.offRoot ∧
          ((∀ r0, x ≠ .RootValue r0) → x' = x)) ∧
      (∀ obj ∈ rd.allObjs, ∀ o, sh.d.objData obj = some o →
        sh'.d.objData obj = some { o with clt := none, value := VAL_INVALID }) ∧
      (∀ j, 0 < j →
        sh'.d.usedByAt j = (sh.d.usedByAt j).filter (fun y => !sh.d.heldIn rd.allObjs j y)) := by
  obtain ⟨hoffinv, huse, -, -⟩ := heapInv_parts hinv
  have hoff := root_offRoot_of_inv hoffinv hr
  unfold Private.rootObjsOk at hobjs
  simp only [Bool.and_eq_true, decide_eq_true_eq, List.all_eq_true] at hobjs
  have hall : ∀ obj ∈ rd.allObjs, ∃ o, sh.d.objData obj = some o ∧
      Releasable sh.d obj o.value := by
    intro obj hobj
    obtain ⟨o, ho⟩ := Option.isSome_iff_exists.mp (hobjs.2 obj hobj)
    exact ⟨o, ho, (useInv_object huse ho).2⟩
  obtain ⟨d', rb3, rd3, hd, hr', hoff3, hlen, hcm, hlr, -, hvals, hob, hused⟩ :=
    objDestroy_spec hr hcv hobjs.1 hall
  exact ⟨_, rb3, rd3, valDestroyTarget_root hr hoff hlive hd, rfl, hr', by rw [hoff3, hoff],
    hlen, hcm, hlr, hvals, hob, hused⟩

end SymHeap

open SymHeapCore SymHeapCore.Private in
/-- C12 (amended): in a heap that satisfies the representation invariant, for
a live root `r` that carries no program variable and whose objects are in
order, `valDestroyTarget(r)` returns true; afterwards `valTarget` reports
`VT_DELETED` for `r` and for every offset value of `r` with a positive offset,
and `VT_UNKNOWN` for every offset value of `r` with a negative offset; and
`usedBy(s)`, for every value `s`, lists the objects that held `s` before the
call and do not belong to `r`. -/
theorem C12_destroy_target (sh : SymHeap) (hinv : sh.toSymHeapCore.HeapInv = true) (r : Int)
    (rb : BaseValue) (rd : RootValue) (hr : sh.d.rootData r = some (rb, rd))
    (hlive : isPossibleToDeref rb.code = true) (hheap : rd.cVar.uid = -1)
    (hobjs : sh.d.rootObjsOk rd = true) :
    ∃ sh', sh.valDestroyTarget r = some (sh', true) ∧
      sh'.valTarget r = some VT_DELETED ∧
      (∀ s b, sh.d.valData s = some (b, .OffValue r) → 0 < b.offRoot →
        sh'.valTarget s = some VT_DELETED) ∧
      (∀ s b, sh.d.valData s = some (b, .OffValue r) → b.offRoot < 0 →
        sh'.valTarget s = some VT_UNKNOWN) ∧
      (∀ s b x, sh.d.valData s = some (b, x) →
        sh'.toSymHeapCore.usedBy [] s
          = some (b.usedBy.filter (fun y => decide (y ∉ rd.allObjs)))) := by
  obtain ⟨hoffinv, huse, -, -⟩ := heapInv_parts hinv
  obtain ⟨sh', rb3, rd3, hd, hdata, hr', hoff3, hlen, -, -, hvals, -, hused⟩ :=
    SymHeap.valDestroyTarget_spec hinv hr hlive hobjs (fun h => absurd hheap h)
  have hcode : goneCode rd.cVar = VT_DELETED := by
    unfold goneCode
    simp [hheap]
  have hvr' := valData_of_rootData hr'
  have hnone : mapFind r sh'.data = none := by rw [hdata]; exact mapFind_mapErase_self r _
  have hrange : sh'.d.valOutOfRange r = false := by
    have h1 := (valData_eq_some.mp hvr').1
    have h2 := (ent_eq_some (valData_eq_some.mp hvr').2).2.1
    unfold Private.valOutOfRange Private.lastId
    simp only [Bool.or_eq_false_iff, decide_eq_false_iff_not]
    constructor <;> omega
  have hoffval : ∀ s b, sh.d.valData s = some (b, .OffValue r) →
      ∃ b', sh'.d.valData s = some (b', .OffValue r) ∧ b'.offRoot = b.offRoot ∧
        b'.offRoot ≠ 0 ∧ isPossibleToDeref b'.code = true ∧
        sh'.d.valRootOf s (b', .OffValue r) = some r := by
    intro s b hs
    have hne : s ≠ r := by
      intro h
      rw [h, valData_of_rootData hr] at hs
      cases hs
    obtain ⟨b', x', hs', hc, hf, hx⟩ := hvals s hne b _ hs
    have hx' := hx (fun r0 h => by cases h)
    subst hx'
    have hok := entOffOk_of_inv hoffinv s
    unfold Private.entOffOk at hok
    rw [(valData_eq_some.mp hs).2] at hok
    simp only [Bool.and_eq_true, decide_eq_true_eq] at hok
    have h0 : b'.offRoot ≠ 0 := by rw [hf]; exact hok.1.1
    refine ⟨b', hs', hf, h0, ?_, ?_⟩
    · rw [hc]; exact SymHeap.isPossibleToDeref_of_known hok.1.2
    · unfold Private.valRootOf
      simp only [h0, if_false, hrange, Bool.false_eq_true]
  refine ⟨sh', hd, ?_, ?_, ?_, ?_⟩
  · rw [SymHeap.valTarget_concrete hvr' (by simp [Private.valRootOf, hoff3]) hvr' hnone]
    simp [hoff3, hcode]
  · intro s b hs hpos
    obtain ⟨b', hs', hf, h0, hderef, hroot⟩ := hoffval s b hs
    rw [SymHeap.valTarget_concrete hs' hroot hvr' hnone]
    have h1 : ¬ b'.offRoot < 0 := by omega
    simp only [h1, if_false, hderef, Bool.not_true, Bool.false_or, decide_eq_true_eq, h0, hcode]
  · intro s b hs hneg
    obtain ⟨b', hs', hf, h0, hderef, hroot⟩ := hoffval s b hs
    rw [SymHeap.valTarget_concrete hs' hroot hvr' hnone]
    have h1 : b'.offRoot < 0 := by omega
    simp only [h1, if_true]
  · intro s b x hs
    have hpos := (valData_eq_some.mp hs).1
    have hs' : ∃ b' x', sh'.d.valData s = some (b', x') := by
      by_cases hsr : s = r
      · exact ⟨_, _, hsr ▸ hvr'⟩
      · obtain ⟨b', x', h1, -⟩ := hvals s hsr b x hs
        exact ⟨b', x', h1⟩
    obtain ⟨b', x', hs'⟩ := hs'
    have hn : ¬ VAL_NULL = s := by unfold VAL_NULL; omega
    unfold SymHeapCore.usedBy
    simp only [hn, if_false, hs', Option.bind_eq_bind, Option.some_bind, List.nil_append,
      Option.some.injEq]
    rw [← usedByAt_of_valData hs', hused s hpos, usedByAt_of_valData hs]
    apply List.filter_congr
    intro y hy
    obtain ⟨o, ho, hov⟩ := (useInv_value huse hs).2 y hy
    unfold Private.heldIn
    simp [ho, hov]

/-- Claim C12 (amended) applied to the first node (the root 4) of the list of
`exListHeap 7 8`. -/
theorem C12_destroy_target_witness :
    ∃ sh', (exListHeap 7 8).valDestroyTarget 4 = some (sh', true) ∧
      sh'.valTarget 4 = some VT_DELETED ∧
      (∀ s b, (exListHeap 7 8).d.valData s = some (b, .OffValue 4) → 0 < b.offRoot →
        sh'.valTarget s = some VT_DELETED) ∧
      (∀ s b, (exListHeap 7 8).d.valData s = some (b, .OffValue 4) → b.offRoot < 0 →
        sh'.valTarget s = some VT_UNKNOWN) ∧
      (∀ s b x, (exListHeap 7 8).d.valData s = some (b, x) →
        sh'.toSymHeapCore.usedBy [] s
          = some (b.usedBy.filter (fun y => decide (y ∉ [5, 6, 7])))) :=
  C12_destroy_target (exListHeap 7 8) (by decide) 4
    { code := VT_ON_HEAP, origin := VO_ASSIGNED, usedBy := [2] }
    { offMap := [(8, 12)], addr := 4, lastKnownClt := some 2, cbSize := 16,
      allObjs := [5, 6, 7], liveObjs := [(6, true), (7, false)], usedByGl := [2],
      grid := [(0, [(some 1, 6), (some 2, 5)]), (8, [(some 0, 7)])] }
    (by decide) (by decide) (by decide) (by decide)

/-- C12 fails as stated.  In `exNegOffHeap` the value 3 is the offset value of
the heap block 2 at offset -4: after `valDestroyTarget(2)` its target is
`VT_UNKNOWN`, not `VT_DELETED`.  In `exListHeap 7 8` the variable (object 2)
holds the address 4 of the first node: after `valDestroyTarget(4)` the set
`usedBy(4)` still lists the object 2. -/
theorem C12_counterexample :
    (exAllocHeap.valByOffset 2 (-4)).map Prod.snd = some 3 ∧
    (exNegOffHeap.valDestroyTarget 2).map (fun p => (p.2, p.1.valTarget 2, p.1.valTarget 3))
      = some (true, some VT_DELETED, some VT_UNKNOWN) ∧
    ((exListHeap 7 8).valDestroyTarget 4).map
        (fun p => (p.2, p.1.valTarget 4, p.1.toSymHeapCore.usedBy [] 4))
      = some (true, some VT_DELETED, some [2]) := by
  decide

open SymHeapCore SymHeapCore.Private in
/-- The behaviour C13 describes, where the variable of the root is
registered: in a heap that satisfies the representation invariant, for
a live root `r` whose objects are in order and whose program variable, if it
carries one, is registered in the variable map, `valDestroyTarget(r)` returns
true; afterwards the target of `r` is `VT_LOST` if `r` carries a variable (and
`gatherCVars` lists the variables it listed before but that one) and
`VT_DELETED` otherwise; every object that belonged to `r` has no type and no
value and is not in the `usedBy` set of the value it held; `gatherLiveObjects(r)`
and `gatherLivePointers(r)` are empty; and `r` is not a live root any more, so
`gatherRootObjects` does not list it. -/
theorem C13_destroy_root (sh : SymHeap) (hinv : sh.toSymHeapCore.HeapInv = true) (r : Int)
    (rb : BaseValue) (rd : RootValue) (hr : sh.d.rootData r = some (rb, rd))
    (hlive : isPossibleToDeref rb.code = true) (hobjs : sh.d.rootObjsOk rd = true)
    (hcv : rd.cVar.uid ≠ -1 → (mapFind rd.cVar sh.d.cVarMap).isSome = true) :
    ∃ sh', sh.valDestroyTarget r = some (sh', true) ∧
      sh'.valTarget r = some (if rd.cVar.uid ≠ -1 then VT_LOST else VT_DELETED) ∧
      sh'.toSymHeapCore.gatherCVars []
        = (if rd.cVar.uid ≠ -1
            then (sh.toSymHeapCore.gatherCVars []).filter (fun cv => decide (cv ≠ rd.cVar))
            else sh.toSymHeapCore.gatherCVars []) ∧
      (∀ obj ∈ rd.allObjs, ∀ o, sh.d.objData obj = some o →
        sh'.d.objData obj = some { o with clt := none, value := VAL_INVALID } ∧
        (0 < o.value →
          ∃ l, sh'.toSymHeapCore.usedBy [] o.value = some l ∧ obj ∉ l)) ∧
      sh'.toSymHeapCore.gatherLiveObjects [] r = some [] ∧
      sh'.toSymHeapCore.gatherLivePointers [] r = some [] ∧
      r ∉ sh'.d.liveRoots ∧
      (∀ filter l, sh'.gatherRootObjects [] filter = some l → r ∉ l) := by
  obtain ⟨hoffinv, huse, -, -⟩ := heapInv_parts hinv
  obtain ⟨sh', rb3, rd3, hd, hdata, hr', hoff3, hlen, hcm, hlr, hvals, hob, hused⟩ :=
    SymHeap.valDestroyTarget_spec hinv hr hlive hobjs hcv
  have hvr' := valData_of_rootData hr'
  have hnone : mapFind r sh'.data = none := by rw [hdata]; exact mapFind_mapErase_self r _
  have hnotlive : r ∉ sh'.d.liveRoots := by
    rw [hlr]
    intro h
    exact ((mem_setErase _ _ _).mp h).2 rfl
  refine ⟨sh', hd, ?_, ?_, ?_, ?_, ?_, hnotlive, ?_⟩
  · rw [SymHeap.valTarget_concrete hvr' (by simp [Private.valRootOf, hoff3]) hvr' hnone]
    simp [hoff3, goneCode]
  · unfold SymHeapCore.gatherCVars
    simp only [List.nil_append, hcm, goneCVarMap]
    split
    · exact map_fst_mapErase _ _
    · rfl
  · intro obj hobj o ho
    refine ⟨hob obj hobj o ho, fun hpos => ?_⟩
    obtain ⟨b, x, -, -, -, hv, -, -, -, -⟩ := (useInv_object huse ho).2 hpos
    have hs' : ∃ b' x', sh'.d.valData o.value = some (b', x') := by
      by_cases hsr : o.value = r
      · exact ⟨_, _, hsr ▸ hvr'⟩
      · obtain ⟨b', x', h1, -⟩ := hvals o.value hsr b x hv
        exact ⟨b', x', h1⟩
    obtain ⟨b', x', hs'⟩ := hs'
    have hn : ¬ VAL_NULL = o.value := by unfold VAL_NULL; omega
    refine ⟨b'.usedBy, ?_, ?_⟩
    · unfold SymHeapCore.usedBy
      simp only [hn, if_false, hs', Option.bind_eq_bind, Option.some_bind, List.nil_append]
    · rw [← usedByAt_of_valData hs', hused o.value hpos]
      intro hmem
      have := (List.mem_filter.mp hmem).2
      unfold Private.heldIn at this
      simp [hobj, ho] at this
  · unfold SymHeapCore.gatherLiveObjects
    simp only [hr', Option.bind_eq_bind, Option.some_bind, List.map_nil, List.append_nil]
  · unfold SymHeapCore.gatherLivePointers
    simp only [hr', Option.bind_eq_bind, Option.some_bind, List.filter_nil, List.map_nil,
      List.append_nil]
  · intro filter l hl hmem
    unfold SymHeap.gatherRootObjects at hl
    rcases SymHeap.gatherRootObjectsLoop_subset sh' _ _ _ l hl r hmem with h | h
    · cases h
    · exact hnotlive h

/-- The theorem `C13_destroy_root` applied to the variable (the root 3) of
`exListHeap 7 8`. -/
theorem C13_destroy_root_witness :
    ∃ sh', (exListHeap 7 8).valDestroyTarget 3 = some (sh', true) ∧
      sh'.valTarget 3 = some (if exVar.uid ≠ -1 then VT_LOST else VT_DELETED) ∧
      sh'.toSymHeapCore.gatherCVars []
        = (if exVar.uid ≠ -1
            then ((exListHeap 7 8).toSymHeapCore.gatherCVars []).filter
              (fun cv => decide (cv ≠ exVar))
            else (exListHeap 7 8).toSymHeapCore.gatherCVars []) ∧
      (∀ obj ∈ [2], ∀ o, (exListHeap 7 8).d.objData obj = some o →
        sh'.d.objData obj = some { o with clt := none, value := VAL_INVALID } ∧
        (0 < o.value →
          ∃ l, sh'.toSymHeapCore.usedBy [] o.value = some l ∧ obj ∉ l)) ∧
      sh'.toSymHeapCore.gatherLiveObjects [] 3 = some [] ∧
      sh'.toSymHeapCore.gatherLivePointers [] 3 = some [] ∧
      3 ∉ sh'.d.liveRoots ∧
      (∀ filter l, sh'.gatherRootObjects [] filter = some l → 3 ∉ l) :=
  C13_destroy_root (exListHeap 7 8) (by decide) 3
    { code := VT_ON_STACK, origin := VO_ASSIGNED }
    { addr := 3, lastKnownClt := some 1, cbSize := 8, cVar := exVar, allObjs := [2],
      liveObjs := [(2, true)], grid := [(0, [(some 1, 2)])] }
    (by decide) (by decide) (by decide) (by decide)

/-- C13: the code does not do what the claim says on the clone of a variable.
`objDup` copies the variable of the source root to the clone and does not
register the clone in the variable map.  In `exVarCloneHeap` (the heap of one
stack variable after `valClone` of its address 3, which returns 5, and
`valDestroyTarget(3)`) the root 5 is a live root that carries the variable,
which was unregistered when the variable itself was destroyed:
`valDestroyTarget(5)` traps in `CVarMap::remove` instead of returning true. -/
theorem C13_destroy_clone_traps :
    (exVarHeap.toSymHeapCore.valClone 3).map Prod.snd = some 5 ∧
    exVarCloneHeap.toSymHeapCore.HeapInv = true ∧
    exVarCloneHeap.valTarget 5 = some VT_ON_STACK ∧
    (5 : Int) ∈ exVarCloneHeap.d.liveRoots ∧
    (exVarCloneHeap.d.rootData 5).map (fun p => p.2.cVar) = some exVar ∧
    exVarCloneHeap.toSymHeapCore.gatherCVars [] = [] ∧
    exVarCloneHeap.valDestroyTarget 5 = none := by
  decide

/-! ## Untyped lookup of an object -/

namespace SymHeapCore

open SymHeapCore.Private

/-- One round of the loop of `objAt(at, CL_TYPE_VOID)` on an item that has a
size. -/
theorem objAtCodeLoop_void_cons (sh : SymHeapCore) (cbSize : Option Nat) (acc : Int × Int)
    (it : TObjType × Int) (rest : TObjByType) (hr : sh.d.objOutOfRange it.2 = false)
    {size : Int} (hs : itemSize sh.stor_ cbSize it.1 = some size) :
    sh.objAtCodeLoop CL_TYPE_VOID cbSize acc (it :: rest)
      = sh.objAtCodeLoop CL_TYPE_VOID cbSize (objAtStep sh.stor_ acc it.1 it.2 size) rest := by
  obtain ⟨clt, obj⟩ := it
  rw [objAtCodeLoop.eq_def]
  simp only [hr, Bool.false_eq_true, if_false]
  cases clt with
  | none =>
    cases cbSize with
    | none => cases hs
    | some n =>
      have hs' : (n : Int) = size := by
        simpa [itemSize] using hs
      subst hs'
      simp
  | some i =>
    cases ht : sh.stor_.cltData (some i) with
    | none =>
      simp only [itemSize, ht] at hs
      cases hs
    | some t =>
      have hs' : t.size = size := by
        simpa [itemSize, ht] using hs
      subst hs'
      simp

theorem objAtInv_step {stor : Storage} {cbSize : Option Nat} {seen : TObjByType}
    {acc : Int × Int} (it : TObjType × Int) (h : ObjAtInv stor cbSize seen acc) :
    ObjAtInv stor cbSize (seen ++ [it])
      (objAtStep stor acc it.1 it.2 (rowSize stor cbSize it)) := by
  obtain ⟨h0, hle, hcase⟩ := h
  have hpick : ∀ l : TObjByType, rowPickable stor cbSize (l ++ [it])
      = (rowPickable stor cbSize l || (decide (0 < rowSize stor cbSize it) ||
          (decide (rowSize stor cbSize it = 0) && isComposite stor it.1))) := by
    intro l
    simp [rowPickable, List.any_append]
  unfold objAtStep
  by_cases h1 : rowSize stor cbSize it < acc.1
  · rw [if_pos h1]
    refine ⟨h0, ?_, ?_⟩
    · intro it2 h2
      rcases List.mem_append.mp h2 with h3 | h3
      · exact hle it2 h3
      · simp only [List.mem_singleton] at h3; subst h3; omega
    · rcases hcase with ⟨ha, hb, hc⟩ | ⟨w, hw, ha, hb, hc⟩
      · refine Or.inl ⟨ha, hb, ?_⟩
        rw [hpick, hc]
        have e1 : ¬ 0 < rowSize stor cbSize it := by omega
        have e2 : ¬ rowSize stor cbSize it = 0 := by omega
        simp [e1, e2]
      · refine Or.inr ⟨w, List.mem_append_left _ hw, ha, hb, ?_⟩
        intro it2 h2 hs hcomp
        rcases List.mem_append.mp h2 with h3 | h3
        · exact hc it2 h3 hs hcomp
        · simp only [List.mem_singleton] at h3; subst h3; omega
  · rw [if_neg h1]
    by_cases h2 : rowSize stor cbSize it = acc.1 ∧ (!isComposite stor it.1) = true
    · rw [if_pos h2]
      obtain ⟨hs, hnc⟩ := h2
      have hnc' : isComposite stor it.1 = false := by simpa using hnc
      refine ⟨h0, ?_, ?_⟩
      · intro it2 h2
        rcases List.mem_append.mp h2 with h3 | h3
        · exact hle it2 h3
        · simp only [List.mem_singleton] at h3; subst h3; omega
      · rcases hcase with ⟨ha, hb, hc⟩ | ⟨w, hw, ha, hb, hc⟩
        · refine Or.inl ⟨ha, hb, ?_⟩
          rw [hpick, hc, hnc']
          have e1 : ¬ 0 < rowSize stor cbSize it := by omega
          simp [e1]
        · refine Or.inr ⟨w, List.mem_append_left _ hw, ha, hb, ?_⟩
          intro it2 h2 hs2 hcomp
          rcases List.mem_append.mp h2 with h3 | h3
          · exact hc it2 h3 hs2 hcomp
          · simp only [List.mem_singleton] at h3
            subst h3
            rw [hnc'] at hcomp
            cases hcomp
    · rw [if_neg h2]
      have hge : acc.1 ≤ rowSize stor cbSize it := by omega
      refine ⟨by simp only; omega, ?_, ?_⟩
      · intro it2 h3
        rcases List.mem_append.mp h3 with h4 | h4
        · have := hle it2 h4
          simp only
          omega
        · simp only [List.mem_singleton] at h4; subst h4; simp
      · refine Or.inr ⟨it, List.mem_append_right _ (List.mem_singleton.mpr rfl), rfl, rfl, ?_⟩
        intro it2 h3 hs2 hcomp
        simp only at hs2
        rcases List.mem_append.mp h3 with h4 | h4
        · have hle2 := hle it2 h4
          have heq : rowSize stor cbSize it = acc.1 := by omega
          by_cases hc2 : isComposite stor it.1 = true
          · exact hc2
          · exfalso
            apply h2
            exact ⟨heq, by simpa using hc2⟩
        · simp only [List.mem_singleton] at h4
          subst h4
          exact hcomp

/-- The loop of `objAt(at, CL_TYPE_VOID)` returns on a row without traps, and
keeps the invariant. -/
theorem objAtCodeLoop_void_spec (sh : SymHeapCore) (cbSize : Option Nat) (row : TObjByType) :
    ∀ (seen : TObjByType) (acc : Int × Int), sh.rowOk cbSize row = true →
      ObjAtInv sh.stor_ cbSize seen acc →
      ∃ acc', sh.objAtCodeLoop CL_TYPE_VOID cbSize acc row = some acc'.2 ∧
        ObjAtInv sh.stor_ cbSize (seen ++ row) acc' := by
  induction row with
  | nil =>
    intro seen acc _ hinv
    exact ⟨acc, rfl, by simpa using hinv⟩
  | cons it rest ih =>
    intro seen acc hok hinv
    unfold rowOk at hok
    simp only [List.all_cons, Bool.and_eq_true, Bool.not_eq_true'] at hok
    obtain ⟨⟨hr, hs⟩, hrest⟩ := hok
    obtain ⟨size, hsize⟩ := Option.isSome_iff_exists.mp hs
    have hrs : rowSize sh.stor_ cbSize it = size := by
      unfold rowSize
      rw [hsize]
      rfl
    rw [objAtCodeLoop_void_cons sh cbSize acc it rest hr hsize]
    have hstep := objAtInv_step it hinv
    rw [hrs] at hstep
    obtain ⟨acc', hloop, hinv'⟩ := ih (seen ++ [it]) _ (by unfold rowOk; exact hrest) hstep
    exact ⟨acc', hloop, by simpa using hinv'⟩

end SymHeapCore

open SymHeapCore SymHeapCore.Private in
/-- C18 (amended): for an address `at` with the grid row `row` at its offset,
where the row meets no trap and has an object of positive size (or of size
zero and composite type), `objAt(at, CL_TYPE_VOID)` returns the object of an
item of the row whose size is at least the size of every item of the row, and
whose type is composite if an item of that size has a composite type. -/
theorem C18_objAt_void (sh : SymHeapCore) (at_ R : Int) (b rb : BaseValue) (x : ValueExt)
    (rd : RootValue) (row : TObjByType) (hv : sh.d.valData at_ = some (b, x))
    (hroot : sh.d.valRootOf at_ (b, x) = some R) (hR : sh.d.rootData R = some (rb, rd))
    (hgrid : sh.d.gridLookup at_ = some (.inr row))
    (hok : sh.rowOk (some rd.cbSize) row = true)
    (hpick : rowPickable sh.stor_ (some rd.cbSize) row = true) :
    ∃ it ∈ row, sh.objAtCode at_ CL_TYPE_VOID = some it.2 ∧
      (∀ it2 ∈ row, rowSize sh.stor_ (some rd.cbSize) it2 ≤ rowSize sh.stor_ (some rd.cbSize) it) ∧
      ((∃ it2 ∈ row, rowSize sh.stor_ (some rd.cbSize) it2 = rowSize sh.stor_ (some rd.cbSize) it ∧
          isComposite sh.stor_ it2.1 = true) → isComposite sh.stor_ it.1 = true) := by
  have hpos := (valData_eq_some.mp hv).1
  have hn : ¬ at_ ≤ 0 := by omega
  have hcode : ¬ (b.code = VT_COMPOSITE ∨ b.code = VT_CUSTOM) := by
    intro hc
    unfold Private.gridLookup at hgrid
    simp only [hn, if_false, hv, Option.bind_eq_bind, Option.some_bind] at hgrid
    rcases hc with hc | hc <;> rw [hc] at hgrid <;>
      simp [isPossibleToDeref, isOnHeap, isProgramVar] at hgrid
  have hinit : ObjAtInv sh.stor_ (some rd.cbSize) [] (0, OBJ_UNKNOWN) := by
    unfold ObjAtInv
    refine ⟨le_refl _, ?_, Or.inl ⟨rfl, rfl, rfl⟩⟩
    intro it h
    cases h
  obtain ⟨acc', hloop, hinv⟩ := objAtCodeLoop_void_spec sh (some rd.cbSize) row [] _ hok hinit
  simp only [List.nil_append] at hinv
  obtain ⟨-, hle, hcase⟩ := hinv
  have hres : sh.objAtCode at_ CL_TYPE_VOID = some acc'.2 := by
    unfold objAtCode
    simp only [hn, if_false, hv, Option.bind_eq_bind, Option.some_bind, hcode, hroot, hR,
      Option.map_some', hgrid, hloop]
  rcases hcase with ⟨-, -, hc⟩ | ⟨it, hit, ha, hb, hc⟩
  · rw [hc] at hpick
    cases hpick
  · refine ⟨it, hit, by rw [hres, ha], ?_, ?_⟩
    · intro it2 h2
      rw [hb]
      exact hle it2 h2
    · rintro ⟨it2, h2, hs2, hcomp⟩
      exact hc it2 h2 (by rw [hs2, hb]) hcomp

open SymHeapCore in
/-- Claim C18 (amended) applied to the block of `exUnionHeap` (address 2),
whose row at offset 0 holds three objects of size 8, one of them of the union
type. -/
theorem C18_objAt_void_witness :
    ∃ it ∈ ([(some 1, 4), (some 3, 5), (some 4, 3)] : TObjByType),
      exUnionHeap.objAtCode 2 CL_TYPE_VOID = some it.2 ∧
      (∀ it2 ∈ ([(some 1, 4), (some 3, 5), (some 4, 3)] : TObjByType),
        rowSize exUnionHeap.stor_ (some 8) it2 ≤ rowSize exUnionHeap.stor_ (some 8) it) ∧
      ((∃ it2 ∈ ([(some 1, 4), (some 3, 5), (some 4, 3)] : TObjByType),
          rowSize exUnionHeap.stor_ (some 8) it2 = rowSize exUnionHeap.stor_ (some 8) it ∧
          isComposite exUnionHeap.stor_ it2.1 = true) →
        isComposite exUnionHeap.stor_ it.1 = true) :=
  C18_objAt_void exUnionHeap 2 2
    { code := VT_ON_HEAP, origin := VO_ASSIGNED }
    { code := VT_ON_HEAP, origin := VO_ASSIGNED }
    (.RootValue { addr := 2, lastKnownClt := some 4, cbSize := 8, allObjs := [3, 4, 5],
                  grid := [(0, [(some 1, 4), (some 3, 5), (some 4, 3)])] })
    { addr := 2, lastKnownClt := some 4, cbSize := 8, allObjs := [3, 4, 5],
      grid := [(0, [(some 1, 4), (some 3, 5), (some 4, 3)])] }
    [(some 1, 4), (some 3, 5), (some 4, 3)]
    (by decide) (by decide) (by decide) (by decide) (by decide) (by decide)

/-- C18 fails as stated.  In `exZeroCloneHeap` (a consistent heap) the row at
offset 0 of the address 4 holds the object 3, the only object of the block;
its size is 0 and it has no type, so every round of the loop skips it and
`objAt(4, CL_TYPE_VOID)` returns `OBJ_UNKNOWN`. -/
theorem C18_counterexample :
    exZeroCloneHeap.HeapInv = true ∧
    exZeroCloneHeap.d.gridLookup 4 = some (.inr [(none, 3)]) ∧
    exZeroCloneHeap.objAtCode 4 CL_TYPE_VOID = some OBJ_UNKNOWN := by
  decide

/-! ## Typed lookup of an object -/

namespace SymHeapCore

open SymHeapCore.Private

theorem isDataPtr_of_ptrTypeOk {stor : Storage} {clt : TObjType} {t : ClType}
    (ht : stor.cltData clt = some t) (hp : t.code = CL_TYPE_PTR)
    (hok : ptrTypeOk stor clt = true) :
    ∃ tt, targetTypeOfPtr stor clt = some tt ∧
      isDataPtr stor clt = decide (tt.code ≠ CL_TYPE_FNC) := by
  unfold ptrTypeOk at hok
  rw [ht] at hok
  simp only [hp, ne_eq, not_true_eq_false, decide_False, Bool.false_or] at hok
  obtain ⟨tt, htt⟩ := Option.isSome_iff_exists.mp hok
  refine ⟨tt, htt, ?_⟩
  unfold isDataPtr
  rw [ht]
  simp only [hp, if_true, htt]

theorem isDataPtr_of_not_ptr {stor : Storage} {clt : TObjType} {t : ClType}
    (ht : stor.cltData clt = some t) (hp : t.code ≠ CL_TYPE_PTR) :
    isDataPtr stor clt = false := by
  unfold isDataPtr
  rw [ht]
  simp only [hp, if_false]

theorem isDataPtr_of_no_type {stor : Storage} {clt : TObjType}
    (ht : stor.cltData clt = none) : isDataPtr stor clt = false := by
  unfold isDataPtr
  rw [ht]

/-- The loop of `ptrAt` returns the object of the first pointer to data of the
row. -/
theorem ptrAtRow_eq_find (stor : Storage) (row : TObjByType)
    (hrow : row.all (fun it => ptrTypeOk stor it.1) = true) :
    ptrAtRow stor row
      = some (((row.find? (fun it => isDataPtr stor it.1)).map Prod.snd).getD OBJ_UNKNOWN) := by
  induction row with
  | nil => rfl
  | cons it rest ih =>
    obtain ⟨clt, obj⟩ := it
    simp only [List.all_cons, Bool.and_eq_true] at hrow
    obtain ⟨hok, hrest⟩ := hrow
    rw [ptrAtRow.eq_def]
    simp only
    cases ht : stor.cltData clt with
    | none =>
      simp only
      rw [ih hrest, List.find?_cons, isDataPtr_of_no_type ht]
    | some t =>
      simp only
      by_cases hp : t.code = CL_TYPE_PTR
      · obtain ⟨tt, htt, hdp⟩ := isDataPtr_of_ptrTypeOk ht hp hok
        have hnn : ¬ t.code ≠ CL_TYPE_PTR := by simpa using hp
        rw [if_neg hnn, htt]
        simp only
        by_cases hf : CL_TYPE_FNC ≠ tt.code
        · rw [if_pos hf, List.find?_cons]
          have : isDataPtr stor clt = true := by
            rw [hdp]
            simpa using fun h => hf h.symm
          simp [this]
        · rw [if_neg hf, ih hrest, List.find?_cons]
          have : isDataPtr stor clt = false := by
            rw [hdp]
            simp only [ne_eq, not_not] at hf
            simp [hf.symm]
          simp [this]
      · rw [if_pos hp, ih hrest, List.find?_cons, isDataPtr_of_not_ptr ht hp]

/-- A request that is not for a pointer to data goes to the row directly. -/
theorem objAt_of_not_dataPtr (sh : SymHeapCore) (at_ : Int) (clt : TObjType)
    (hok : ptrTypeOk sh.stor_ clt = true) (hdp : isDataPtr sh.stor_ clt = false) :
    sh.objAt at_ clt = (sh.d.gridLookup at_).map (objAtRow sh.stor_ clt) := by
  unfold objAt
  cases ht : sh.stor_.cltData clt with
  | none => rfl
  | some t =>
    simp only
    by_cases hp : t.code = CL_TYPE_PTR
    · obtain ⟨tt, htt, hd⟩ := isDataPtr_of_ptrTypeOk ht hp hok
      rw [if_pos hp, htt]
      simp only
      rw [hdp] at hd
      have hf : ¬ CL_TYPE_FNC ≠ tt.code := by
        intro h
        have : decide (tt.code ≠ CL_TYPE_FNC) = true := by simpa using fun h2 => h h2.symm
        rw [this] at hd
        cases hd
      rw [if_neg hf]
    · rw [if_neg hp]

/-- A request for a pointer to data goes to `ptrAt`. -/
theorem objAt_of_dataPtr (sh : SymHeapCore) (at_ : Int) (clt : TObjType)
    (hdp : isDataPtr sh.stor_ clt = true) : sh.objAt at_ clt = sh.ptrAt at_ := by
  unfold objAt
  unfold isDataPtr at hdp
  cases ht : sh.stor_.cltData clt with
  | none => rw [ht] at hdp; cases hdp
  | some t =>
    rw [ht] at hdp
    simp only at hdp ⊢
    by_cases hp : t.code = CL_TYPE_PTR
    · rw [if_pos hp] at hdp ⊢
      cases htt : targetTypeOfPtr sh.stor_ clt with
      | none => rw [htt] at hdp; cases hdp
      | some tt =>
        rw [htt] at hdp
        simp only [ne_eq, decide_not, Bool.not_eq_true', decide_eq_false_iff_not] at hdp
        simp only
        rw [if_pos (fun h => hdp h.symm)]
    · rw [if_neg hp] at hdp
      cases hdp

end SymHeapCore

namespace SymHeapCore

open SymHeapCore.Private

/-- A value whose own target code is not that of a known object has offset
zero. -/
theorem offRoot_of_not_known {d : Private} (h : d.OffInv = true) {v : Int} {b : BaseValue}
    {x : ValueExt} (hv : d.valData v = some (b, x)) (hk : isKnownObject b.code = false) :
    b.offRoot = 0 := by
  have hok := entOffOk_of_inv h v
  unfold entOffOk at hok
  rw [(valData_eq_some.mp hv).2] at hok
  cases x <;> simp only [Bool.and_eq_true, decide_eq_true_eq, hk, Bool.false_eq_true,
    and_false, false_and] at hok <;> first | exact hok.1 | exact hok.1.1

theorem valRootOf_self {d : Private} {v : Int} {b : BaseValue} {x : ValueExt}
    (h0 : b.offRoot = 0) : d.valRootOf v (b, x) = some v := by
  unfold valRootOf
  simp only [h0, if_true]

/-- The lookups `ptrAt` and `objAt(at, clt)` return the fail code of the grid
lookup. -/
theorem lookups_of_failCode (sh : SymHeapCore) (at_ : Int) (clt : TObjType) (f : Int)
    (hclt : ptrTypeOk sh.stor_ clt = true) (hg : sh.d.gridLookup at_ = some (.inl f)) :
    sh.ptrAt at_ = some f ∧ sh.objAt at_ clt = some f := by
  have hp : sh.ptrAt at_ = some f := by
    unfold ptrAt
    simp only [hg, Option.bind_eq_bind, Option.some_bind]
  refine ⟨hp, ?_⟩
  cases hdp : isDataPtr sh.stor_ clt with
  | true => rw [objAt_of_dataPtr sh at_ clt hdp, hp]
  | false =>
    rw [objAt_of_not_dataPtr sh at_ clt hclt hdp, hg]
    rfl

/-- The lookup `objAt(at, code)` returns the fail code of the grid lookup, for a
value that is no composite or custom value and has a root. -/
theorem objAtCode_of_failCode (sh : SymHeapCore) (at_ : Int) (code : ClTypeE) (f R : Int)
    {b : BaseValue} {x : ValueExt} (hv : sh.d.valData at_ = some (b, x))
    (hc : ¬ (b.code = VT_COMPOSITE ∨ b.code = VT_CUSTOM))
    (hroot : sh.d.valRootOf at_ (b, x) = some R)
    (hg : sh.d.gridLookup at_ = some (.inl f)) : sh.objAtCode at_ code = some f := by
  have hn : ¬ at_ ≤ 0 := by
    have := (valData_eq_some.mp hv).1
    omega
  unfold objAtCode
  simp only [hn, if_false, hv, Option.bind_eq_bind, Option.some_bind, hc, hroot, hg]

/-- The loop of `objAt(at, code)` leaves the maximum as it is on a row without
an item of the requested type code. -/
theorem objAtCodeLoop_of_misses (sh : SymHeapCore) (code : ClTypeE) (hcode : CL_TYPE_VOID ≠ code)
    (cbSize : Option Nat) (acc : Int × Int) (row : TObjByType)
    (hrow : sh.rowMisses code row = true) :
    sh.objAtCodeLoop code cbSize acc row = some acc.2 := by
  induction row with
  | nil => rfl
  | cons it rest ih =>
    obtain ⟨clt, obj⟩ := it
    unfold rowMisses at hrow
    simp only [List.all_cons, Bool.and_eq_true, Bool.not_eq_true'] at hrow
    obtain ⟨⟨hr, hit⟩, hrest⟩ := hrow
    rw [objAtCodeLoop.eq_def]
    simp only [hr, Bool.false_eq_true, if_false]
    have ih' := ih (by unfold rowMisses; exact hrest)
    cases clt with
    | none => simp only [hcode, ne_eq, not_false_eq_true, if_true, ih']
    | some i =>
      cases ht : sh.stor_.cltData (some i) with
      | none => rw [ht] at hit; cases hit
      | some t =>
        rw [ht] at hit
        simp only [decide_eq_true_eq] at hit
        simp only [hcode, hit, ne_eq, not_false_eq_true, and_self, if_true, ih']

end SymHeapCore

open SymHeapCore SymHeapCore.Private in
/-- C20 (amended): in a heap with a consistent offset bookkeeping, for a
requested type `clt` whose target type is there if it is a pointer type, the
lookups `ptrAt(at)`, `objAt(at, clt)` and `objAt(at, code)` return without a
trap in these cases: `OBJ_INVALID` for a special address (`at <= 0`);
`OBJ_UNKNOWN` for a value whose own target code is `VT_UNKNOWN`; `OBJ_INVALID`
for a value whose own target code is another code that cannot be dereferenced
(deleted, lost, custom, composite, invalid); `OBJ_UNKNOWN` for a value of a
root whose grid is not empty and has no row at the offset of the value.  For a
value with a row at its offset, `ptrAt` returns `OBJ_UNKNOWN` if no type of the
row is a pointer to data, and `objAt(at, code)` with `code` other than
`CL_TYPE_VOID` returns `OBJ_UNKNOWN` if no type of the row has that code. -/
theorem C20_lookup_sentinels (sh : SymHeapCore) (hoff : sh.d.OffInv = true) (at_ : Int)
    (clt : TObjType) (code : ClTypeE) (hclt : ptrTypeOk sh.stor_ clt = true) :
    (at_ ≤ 0 → sh.lookupsGive at_ clt code OBJ_INVALID) ∧
    (∀ b x, sh.d.valData at_ = some (b, x) →
      (b.code = VT_UNKNOWN → sh.lookupsGive at_ clt code OBJ_UNKNOWN) ∧
      (isPossibleToDeref b.code = false → b.code ≠ VT_UNKNOWN →
        sh.lookupsGive at_ clt code OBJ_INVALID) ∧
      (isPossibleToDeref b.code = true → ∀ R rb rd, sh.d.valRootOf at_ (b, x) = some R →
        sh.d.rootData R = some (rb, rd) → rd.grid.isEmpty = false →
        mapFind b.offRoot rd.grid = none → sh.lookupsGive at_ clt code OBJ_UNKNOWN) ∧
      (∀ row, sh.d.gridLookup at_ = some (.inr row) →
        (row.all (fun it => ptrTypeOk sh.stor_ it.1) = true →
          (∀ it ∈ row, isDataPtr sh.stor_ it.1 = false) → sh.ptrAt at_ = some OBJ_UNKNOWN) ∧
        (CL_TYPE_VOID ≠ code → sh.rowMisses code row = true →
          sh.objAtCode at_ code = some OBJ_UNKNOWN))) := by
  refine ⟨fun h0 => ?_, fun b x hv => ?_⟩
  · have hg : sh.d.gridLookup at_ = some (.inl OBJ_INVALID) := by
      unfold Private.gridLookup
      rw [if_pos h0]
    obtain ⟨h1, h2⟩ := lookups_of_failCode sh at_ clt _ hclt hg
    refine ⟨h1, h2, ?_⟩
    unfold objAtCode
    rw [if_pos h0]
  · have hn : ¬ at_ ≤ 0 := by
      have := (valData_eq_some.mp hv).1
      omega
    refine ⟨fun hu => ?_, fun hd hu => ?_, fun hd R rb rd hroot hR hgr hrow => ?_,
      fun row hg => ⟨fun hrow hnone => ?_, fun hcode hmiss => ?_⟩⟩
    · have hg : sh.d.gridLookup at_ = some (.inl OBJ_UNKNOWN) := by
        unfold Private.gridLookup
        simp only [hn, if_false, hv, Option.bind_eq_bind, Option.some_bind, hu, if_true]
      obtain ⟨h1, h2⟩ := lookups_of_failCode sh at_ clt _ hclt hg
      have h0 : b.offRoot = 0 := offRoot_of_not_known hoff hv (by rw [hu]; rfl)
      exact ⟨h1, h2, objAtCode_of_failCode sh at_ code _ at_ hv (by rw [hu]; decide)
        (valRootOf_self h0) hg⟩
    · have hg : sh.d.gridLookup at_ = some (.inl OBJ_INVALID) := by
        unfold Private.gridLookup
        simp only [hn, if_false, hv, Option.bind_eq_bind, Option.some_bind, hu, hd,
          Bool.not_false, if_true]
      obtain ⟨h1, h2⟩ := lookups_of_failCode sh at_ clt _ hclt hg
      refine ⟨h1, h2, ?_⟩
      by_cases hc : b.code = VT_COMPOSITE ∨ b.code = VT_CUSTOM
      · unfold objAtCode
        simp only [hn, if_false, hv, Option.bind_eq_bind, Option.some_bind, hc, if_true]
      · have hk : isKnownObject b.code = false := by
          revert hd
          cases b.code <;> simp [isPossibleToDeref, isOnHeap, isProgramVar, isKnownObject]
        exact objAtCode_of_failCode sh at_ code _ at_ hv hc
          (valRootOf_self (offRoot_of_not_known hoff hv hk)) hg
    · have hu : b.code ≠ VT_UNKNOWN := by
        intro h
        rw [h] at hd
        cases hd
      have hg : sh.d.gridLookup at_ = some (.inl OBJ_UNKNOWN) := by
        unfold Private.gridLookup
        simp only [hn, if_false, hv, Option.bind_eq_bind, Option.some_bind, hu, hd,
          Bool.not_true, Bool.false_eq_true, hroot, hR, hgr, hrow]
      obtain ⟨h1, h2⟩ := lookups_of_failCode sh at_ clt _ hclt hg
      refine ⟨h1, h2, objAtCode_of_failCode sh at_ code _ R hv ?_ hroot hg⟩
      rintro (hc | hc) <;> rw [hc] at hd <;> cases hd
    · unfold ptrAt
      simp only [hg, Option.bind_eq_bind, Option.some_bind]
      rw [ptrAtRow_eq_find sh.stor_ row hrow, List.find?_eq_none.mpr]
      · rfl
      · intro it hit
        rw [hnone it hit]
        decide
    · have hd : isPossibleToDeref b.code = true ∧ b.code ≠ VT_UNKNOWN ∧
          ∃ R, sh.d.valRootOf at_ (b, x) = some R := by
        unfold Private.gridLookup at hg
        simp only [hn, if_false, hv, Option.bind_eq_bind, Option.some_bind] at hg
        by_cases hu : b.code = VT_UNKNOWN
        · simp [hu] at hg
        · cases hd : isPossibleToDeref b.code with
          | false => simp [hu, hd] at hg
          | true =>
            refine ⟨rfl, hu, ?_⟩
            cases hr : sh.d.valRootOf at_ (b, x) with
            | none => simp [hu, hd, hr] at hg
            | some R => exact ⟨R, rfl⟩
      obtain ⟨hd1, -, R, hroot⟩ := hd
      have hc : ¬ (b.code = VT_COMPOSITE ∨ b.code = VT_CUSTOM) := by
        rintro (hc | hc) <;> rw [hc] at hd1 <;> cases hd1
      unfold objAtCode
      simp only [hn, if_false, hv, Option.bind_eq_bind, Option.some_bind, hc, hroot, hg]
      exact objAtCodeLoop_of_misses sh code hcode _ _ row hmiss

open SymHeapCore in
/-- Claim C20 (amended) applied to the custom value 14 of `exListHeap 7 8`, the
type 1 and the untyped request. -/
theorem C20_lookup_sentinels_witness :
    ((14 : Int) ≤ 0 → (exListHeap 7 8).toSymHeapCore.lookupsGive 14 (some 1) CL_TYPE_VOID
      OBJ_INVALID) ∧
    (∀ b x, (exListHeap 7 8).d.valData 14 = some (b, x) →
      (b.code = VT_UNKNOWN →
        (exListHeap 7 8).toSymHeapCore.lookupsGive 14 (some 1) CL_TYPE_VOID OBJ_UNKNOWN) ∧
      (isPossibleToDeref b.code = false → b.code ≠ VT_UNKNOWN →
        (exListHeap 7 8).toSymHeapCore.lookupsGive 14 (some 1) CL_TYPE_VOID OBJ_INVALID) ∧
      (isPossibleToDeref b.code = true → ∀ R rb rd,
        (exListHeap 7 8).d.valRootOf 14 (b, x) = some R →
        (exListHeap 7 8).d.rootData R = some (rb, rd) → rd.grid.isEmpty = false →
        mapFind b.offRoot rd.grid = none →
        (exListHeap 7 8).toSymHeapCore.lookupsGive 14 (some 1) CL_TYPE_VOID OBJ_UNKNOWN) ∧
      (∀ row, (exListHeap 7 8).d.gridLookup 14 = some (.inr row) →
        (row.all (fun it => ptrTypeOk (exListHeap 7 8).stor_ it.1) = true →
          (∀ it ∈ row, isDataPtr (exListHeap 7 8).stor_ it.1 = false) →
          (exListHeap 7 8).toSymHeapCore.ptrAt 14 = some OBJ_UNKNOWN) ∧
        (CL_TYPE_VOID ≠ CL_TYPE_VOID →
          (exListHeap 7 8).toSymHeapCore.rowMisses CL_TYPE_VOID row = true →
          (exListHeap 7 8).toSymHeapCore.objAtCode 14 CL_TYPE_VOID = some OBJ_UNKNOWN))) :=
  C20_lookup_sentinels (exListHeap 7 8).toSymHeapCore (by decide) 14 (some 1) CL_TYPE_VOID
    (by decide)

open SymHeapCore in
/-- C20 fails as stated.  In `exAllocHeap` (a consistent heap) the address 2 is
the root of a freshly allocated block without a declared type: its grid is
empty, and `ptrAt`, `objAt(2, clt)` and `objAt(2, code)` trap on the assertion
of `gridLookup`.  In `exListGoneHeap` the root 4 was destroyed: its offset
value 12 has the target `VT_DELETED`, and the three lookups trap on it the same
way, while they return `OBJ_INVALID` for the root 4 itself. -/
theorem C20_counterexample :
    exAllocHeap.HeapInv = true ∧
    (exAllocHeap.ptrAt 2, exAllocHeap.objAt 2 none, exAllocHeap.objAtCode 2 CL_TYPE_VOID)
      = (none, none, none) ∧
    exListGoneHeap.toSymHeapCore.HeapInv = true ∧
    exListGoneHeap.valTarget 12 = some VT_DELETED ∧
    (exListGoneHeap.ptrAt 12, exListGoneHeap.objAt 12 none,
      exListGoneHeap.objAtCode 12 CL_TYPE_VOID) = (none, none, none) ∧
    (exListGoneHeap.ptrAt 4, exListGoneHeap.objAt 4 none,
      exListGoneHeap.objAtCode 4 CL_TYPE_VOID)
      = (some OBJ_INVALID, some OBJ_INVALID, some OBJ_INVALID) := by
  decide

/-! ## Look-through -/

theorem valTarget_of_isAbstractValue {sh : SymHeap} {val : Int} {a : Bool}
    (h : isAbstractValue sh val = some a) :
    ∃ code, sh.valTarget val = some code ∧ a = decide (code = VT_ABSTRACT) := by
  unfold isAbstractValue at h
  cases hc : sh.valTarget val with
  | none => simp [hc] at h
  | some code =>
    refine ⟨code, rfl, ?_⟩
    simpa [hc] using h.symm

/-- The loop of `lookThrough` is over at a special value. -/
theorem lookThroughLoop_of_nonpos (api : SegApi) (off : Int) (fuel : Nat) (sh : SymHeap)
    {val : Int} (pSeen : Option TValSet) (h : ¬ 0 < val) :
    lookThroughLoop api off fuel sh val pSeen = .done (sh, val, pSeen) := by
  cases fuel <;> simp only [lookThroughLoop, h, if_false]

/-- One round of `lookThrough` at the head address of a singly-linked segment
of minimum length 0: the loop goes on with the forward value. -/
theorem lookThroughStep_empty_sls (api : SegApi) (sh sh1 : SymHeap) (val root next : Int)
    (b : BindingOff) (pSeen : Option TValSet)
    (hseen : ∀ s, pSeen = some s → val ∉ s)
    (habs : isAbstractValue sh val = some true)
    (hroot : sh.toSymHeapCore.valRoot val = some root)
    (hkind : sh.valTargetKind root = some OK_SLS)
    (hpeer : api.segPeer sh root = some (sh, root))
    (hlen : api.segMinLength sh root = some 0)
    (hbind : sh.segBinding root = some b)
    (hnext : nextValFromSeg sh root = some (sh1, next)) :
    lookThroughStep api b.head sh val pSeen = some (true, sh1, next, seenAfter pSeen val) := by
  cases pSeen with
  | none =>
    unfold lookThroughStep
    simp only [Bool.not_true, Bool.false_eq_true, if_false, habs, hroot, hpeer, hlen,
      hkind, hbind, hnext, Option.bind_eq_bind, Option.some_bind, Option.pure_def, ne_eq,
      not_true_eq_false, sub_self, SymHeapCore.valByOffset, true_or, if_true, reduceCtorEq,
      SymHeap.withCore_self, seenAfter, Option.map_none']
  | some s =>
    have hs : (insertOnce s val).1 = true := by
      have := hseen s rfl
      simp only [insertOnce, this, if_false]
    unfold lookThroughStep
    simp only [hs, Bool.not_true, Bool.false_eq_true, if_false, habs, hroot, hpeer, hlen,
      hkind, hbind, hnext, Option.bind_eq_bind, Option.some_bind, Option.pure_def, ne_eq,
      not_true_eq_false, sub_self, SymHeapCore.valByOffset, true_or, if_true, reduceCtorEq,
      SymHeap.withCore_self, seenAfter, Option.map_some']

/-- C14: in a heap with an abstract singly-linked segment `root` of minimum
length 0 whose forward pointer holds `VAL_NULL`, `lookThrough` applied to the
head address `val` of the segment returns `VAL_NULL`, for a null `pSeen` and
for every set `*pSeen` that does not hold `val` yet, with every fuel from 1 on.
The segment is its own peer (`segPeer`), as a segment that is not doubly-linked
has none. -/
theorem C14_lookThrough_empty_sls (api : SegApi) (sh sh1 : SymHeap) (val root : Int)
    (b : BindingOff) (pSeen : Option TValSet) (fuel : Nat) (hfuel : 1 ≤ fuel)
    (hpos : 0 < val) (hseen : ∀ s, pSeen = some s → val ∉ s)
    (habs : isAbstractValue sh val = some true)
    (hroot : sh.toSymHeapCore.valRoot val = some root)
    (hkind : sh.valTargetKind root = some OK_SLS)
    (hpeer : api.segPeer sh root = some (sh, root))
    (hlen : api.segMinLength sh root = some 0)
    (hbind : sh.segBinding root = some b)
    (hhead : sh.toSymHeapCore.valOffset val = some b.head)
    (hnext : nextValFromSeg sh root = some (sh1, VAL_NULL)) :
    lookThrough api fuel sh val pSeen = .done (sh1, VAL_NULL, seenAfter pSeen val) := by
  obtain ⟨n, rfl⟩ : ∃ n, fuel = n + 1 := ⟨fuel - 1, by omega⟩
  obtain ⟨code, hcode, -⟩ := valTarget_of_isAbstractValue habs
  unfold lookThrough
  rw [hcode, hhead]
  simp only
  rw [lookThroughLoop, if_pos hpos,
    lookThroughStep_empty_sls api sh sh1 val root VAL_NULL b pSeen hseen habs hroot hkind hpeer
      hlen hbind hnext]
  simp only
  exact lookThroughLoop_of_nonpos api b.head n sh1 _ (by decide)

/-- Claim C14 applied to the segment of `exSlsHeap` (root and head address 2),
with the operations of `specSegApi` and a null `pSeen`. -/
theorem C14_lookThrough_empty_sls_witness :
    lookThrough specSegApi 2 exSlsHeap 2 none = .done (exSlsHeap, VAL_NULL, seenAfter none 2) :=
  C14_lookThrough_empty_sls specSegApi exSlsHeap exSlsHeap 2 2 exBinding none 2 (by decide)
    (by decide) (by intro s h; cases h) (by decide) (by decide) (by decide) (by decide)
    (by decide) (by decide) (by decide) (by decide)

/-! ## Look-through on a cycle -/

/-- The loop of `lookThrough` with a null `pSeen` never ends on a value whose
round leads back to the same heap and value. -/
theorem lookThroughLoop_fixpoint (api : SegApi) (off : Int) (sh : SymHeap) (val : Int)
    (hpos : 0 < val) (hstep : lookThroughStep api off sh val none = some (true, sh, val, none)) :
    ∀ fuel, lookThroughLoop api off fuel sh val none = .fuelOut := by
  intro fuel
  induction fuel with
  | zero => simp only [lookThroughLoop, hpos, if_true]
  | succ n ih =>
    rw [lookThroughLoop, if_pos hpos, hstep]
    exact ih

/-- C15, the failing run: in a heap with an abstract singly-linked segment
`root` of minimum length 0 whose forward pointer holds the head address `val`
of the segment itself, `lookThrough` applied to `val` with a null `pSeen` has
no result within any fuel: every round leads back to the same value.  With a
set `*pSeen` that does not hold `val` yet, the second round finds `val` in the
set and returns it. -/
theorem C15_lookThrough_cycle_diverges (api : SegApi) (sh : SymHeap) (val root : Int)
    (b : BindingOff) (hpos : 0 < val)
    (habs : isAbstractValue sh val = some true)
    (hroot : sh.toSymHeapCore.valRoot val = some root)
    (hkind : sh.valTargetKind root = some OK_SLS)
    (hpeer : api.segPeer sh root = some (sh, root))
    (hlen : api.segMinLength sh root = some 0)
    (hbind : sh.segBinding root = some b)
    (hhead : sh.toSymHeapCore.valOffset val = some b.head)
    (hnext : nextValFromSeg sh root = some (sh, val)) :
    (∀ fuel, lookThrough api fuel sh val none = .fuelOut) ∧
    (∀ fuel s, val ∉ s →
      lookThrough api (fuel + 2) sh val (some s) = .done (sh, val, some (setInsert intLt val s))) := by
  obtain ⟨code, hcode, -⟩ := valTarget_of_isAbstractValue habs
  constructor
  · intro fuel
    unfold lookThrough
    rw [hcode, hhead]
    simp only
    exact lookThroughLoop_fixpoint api b.head sh val hpos
      (lookThroughStep_empty_sls api sh sh val root val b none (by intro s h; cases h) habs hroot
        hkind hpeer hlen hbind hnext) fuel
  · intro fuel s hs
    have hmem : val ∈ setInsert intLt val s := (mem_setInsert intLt val val s).mpr (Or.inl rfl)
    unfold lookThrough
    rw [hcode, hhead]
    simp only
    rw [lookThroughLoop, if_pos hpos,
      lookThroughStep_empty_sls api sh sh val root val b (some s) (by intro t h; cases h; exact hs)
        habs hroot hkind hpeer hlen hbind hnext]
    simp only [seenAfter, Option.map_some', insertOnce, hs, if_false]
    rw [lookThroughLoop, if_pos hpos]
    unfold lookThroughStep
    simp only [insertOnce, hmem, if_true, Bool.not_false]

/-- The failing run of C15 on `exCycleHeap` (root and head address 2) with the
operations of `specSegApi`. -/
theorem C15_lookThrough_cycle_diverges_witness :
    (∀ fuel, lookThrough specSegApi fuel exCycleHeap 2 none = .fuelOut) ∧
    (∀ fuel s, (2 : Int) ∉ s →
      lookThrough specSegApi (fuel + 2) exCycleHeap 2 (some s)
        = .done (exCycleHeap, 2, some (setInsert intLt 2 s))) :=
  C15_lookThrough_cycle_diverges specSegApi exCycleHeap 2 2 exBinding (by decide) (by decide)
    (by decide) (by decide) (by decide) (by decide) (by decide) (by decide) (by decide)

/-! ## The prover of `symseg.cc` -/

/-- On a special value `lookThrough` returns the value at once. -/
theorem lookThrough_of_nonpos (api : SegApi) (fuel : Nat) (sh : SymHeap) {val : Int}
    (pSeen : Option TValSet) (h : val ≤ 0) :
    lookThrough api fuel sh val pSeen = .done (sh, val, pSeen) := by
  unfold lookThrough
  have h1 : sh.valTarget val = some VT_INVALID := by
    unfold SymHeap.valTarget
    rw [if_pos h]
  have h2 : sh.toSymHeapCore.valOffset val = some 0 := by
    unfold SymHeapCore.valOffset
    rw [if_pos h]
  rw [h1, h2]
  exact lookThroughLoop_of_nonpos api 0 fuel sh pSeen (by omega)

/-- A value that is not looked through is returned by `lookThrough` as it is,
after it was put in the set `*pSeen`. -/
theorem lookThrough_of_notLookedThrough (api : SegApi) (fuel : Nat) (sh : SymHeap) {val : Int}
    (pSeen : Option TValSet) (h : NotLookedThrough api sh val) :
    lookThrough api (fuel + 1) sh val pSeen = .done (sh, val, seenAfter pSeen val) := by
  obtain ⟨hpos, hoff, hcase⟩ := h
  obtain ⟨off, hoff⟩ := Option.isSome_iff_exists.mp hoff
  have hvt : ∃ code, sh.valTarget val = some code := by
    rcases hcase with h | ⟨h, -⟩
    · obtain ⟨code, hc, -⟩ := valTarget_of_isAbstractValue h
      exact ⟨code, hc⟩
    · obtain ⟨code, hc, -⟩ := valTarget_of_isAbstractValue h
      exact ⟨code, hc⟩
  obtain ⟨code, hcode⟩ := hvt
  unfold lookThrough
  rw [hcode, hoff]
  simp only
  rw [lookThroughLoop, if_pos hpos]
  have hstep : lookThroughStep api off sh val pSeen
      = some (false, sh, val, seenAfter pSeen val) := by
    cases pSeen with
    | none =>
      unfold lookThroughStep
      rcases hcase with h | ⟨h, root, segAt, n, hroot, hpeer, hlen, hn⟩
      · simp only [Bool.not_true, Bool.false_eq_true, if_false, h, Option.bind_eq_bind,
          Option.some_bind, Bool.not_false, if_true, seenAfter, Option.map_none']
      · simp only [Bool.not_true, Bool.false_eq_true, if_false, h, Option.bind_eq_bind,
          Option.some_bind, hroot, hpeer, hlen, ne_eq, hn, not_false_eq_true, if_true,
          seenAfter, Option.map_none']
    | some s =>
      by_cases hs : val ∈ s
      · unfold lookThroughStep
        simp only [insertOnce, hs, if_true, Bool.not_false, seenAfter, Option.map_some']
      · have h1 : (insertOnce s val).1 = true := by
          simp only [insertOnce, hs, if_false]
        unfold lookThroughStep
        rcases hcase with h | ⟨h, root, segAt, n, hroot, hpeer, hlen, hn⟩
        · simp only [h1, Bool.not_true, Bool.false_eq_true, if_false, h, Option.bind_eq_bind,
            Option.some_bind, Bool.not_false, if_true, seenAfter, Option.map_some']
        · simp only [h1, Bool.not_true, Bool.false_eq_true, if_false, h, Option.bind_eq_bind,
            Option.some_bind, hroot, hpeer, hlen, ne_eq, hn, not_false_eq_true, if_true,
            seenAfter, Option.map_some']
  rw [hstep]

/-- The part of `segProveNeq` after the look-through, for `VAL_NULL` and a
value with a target of positive size in a root of non-zero minimum length. -/
theorem segProveNeqTail_null (api : SegApi) (sh : SymHeap) (a c val root : Int) (size : Int)
    (len : Nat) (hroot : sh.toSymHeapCore.valRoot val = some root)
    (hsize : api.valSizeOfTargetLo sh val = some size) (hs : 0 < size)
    (hlen : api.objMinLength sh root = some len) (hl : len ≠ 0)
    (hneq : (api.proveNeq sh a c).isSome = true)
    (hmk : api.moveKnownValueToLeft sh a c = (VAL_NULL, val)) :
    segProveNeqTail api sh a c = some (sh, true) := by
  obtain ⟨r, hr⟩ := Option.isSome_iff_exists.mp hneq
  have hs' : ¬ size ≤ 0 := by omega
  unfold segProveNeqTail
  cases r with
  | true => simp only [hr, Option.bind_eq_bind, Option.some_bind, if_true]
  | false =>
    simp only [hr, Option.bind_eq_bind, Option.some_bind, Bool.false_eq_true, if_false, hmk,
      hsize, hs', hroot, hlen, hl, if_true]

/-- C16: for a value `val` of the heap that is not looked through, whose target
has a positive lower bound of the size (`valSizeOfTarget`) and whose root has a
non-zero minimum length (`objMinLength`), `segProveNeq(sh, VAL_NULL, val)` and
`segProveNeq(sh, val, VAL_NULL)` return true, with every fuel from 1 on.  The
operations the sources do not define are read through their results:
`proveNeq` returns, and `moveKnownValueToLeft` puts `VAL_NULL` on the left. -/
theorem C16_segProveNeq_null (api : SegApi) (sh : SymHeap) (val root : Int) (size : Int)
    (len : Nat) (fuel : Nat) (hfuel : 1 ≤ fuel) (hstay : NotLookedThrough api sh val)
    (hroot : sh.toSymHeapCore.valRoot val = some root)
    (hsize : api.valSizeOfTargetLo sh val = some size) (hs : 0 < size)
    (hlen : api.objMinLength sh root = some len) (hl : len ≠ 0)
    (hneq1 : (api.proveNeq sh VAL_NULL val).isSome = true)
    (hneq2 : (api.proveNeq sh val VAL_NULL).isSome = true)
    (hmk1 : api.moveKnownValueToLeft sh VAL_NULL val = (VAL_NULL, val))
    (hmk2 : api.moveKnownValueToLeft sh val VAL_NULL = (VAL_NULL, val)) :
    segProveNeq api fuel sh VAL_NULL val = .done (sh, true) ∧
    segProveNeq api fuel sh val VAL_NULL = .done (sh, true) := by
  obtain ⟨n, rfl⟩ : ∃ n, fuel = n + 1 := ⟨fuel - 1, by omega⟩
  have hpos := hstay.1
  have hnull : (VAL_NULL : Int) ≤ 0 := by decide
  have hinv0 : ¬ VAL_INVALID = VAL_NULL := by decide
  have hinvv : ¬ VAL_INVALID = val := by
    have : VAL_INVALID = -1 := rfl
    omega
  have hnv : ¬ VAL_NULL = val := by
    have : VAL_NULL = 0 := rfl
    omega
  have hvn : ¬ val = VAL_NULL := fun h => hnv h.symm
  constructor
  · unfold segProveNeq
    obtain ⟨r, hr⟩ := Option.isSome_iff_exists.mp hneq1
    cases r with
    | true => simp only [hr]
    | false =>
      simp only [hr, lookThrough_of_nonpos api (n + 1) sh _ hnull,
        lookThrough_of_notLookedThrough api n sh _ hstay, Run.bind, hinv0, hinvv, hnv,
        if_false]
      rw [segProveNeqTail_null api sh VAL_NULL val val root size len hroot hsize hs hlen hl
        hneq1 hmk1]
      rfl
  · unfold segProveNeq
    obtain ⟨r, hr⟩ := Option.isSome_iff_exists.mp hneq2
    cases r with
    | true => simp only [hr]
    | false =>
      simp only [hr, lookThrough_of_nonpos api (n + 1) sh _ hnull,
        lookThrough_of_notLookedThrough api n sh _ hstay, Run.bind, hinv0, hinvv, hvn,
        if_false]
      rw [segProveNeqTail_null api sh val VAL_NULL val root size len hroot hsize hs hlen hl
        hneq2 hmk2]
      rfl

/-- Claim C16 applied to the head address 2 of the segment of `exSls1Heap` (a
singly-linked segment of minimum length 1 in a block of 16 bytes), with the
operations of `specSegApi`. -/
theorem C16_segProveNeq_null_witness :
    segProveNeq specSegApi 1 exSls1Heap VAL_NULL 2 = .done (exSls1Heap, true) ∧
    segProveNeq specSegApi 1 exSls1Heap 2 VAL_NULL = .done (exSls1Heap, true) :=
  C16_segProveNeq_null specSegApi exSls1Heap 2 2 16 1 1 (by decide)
    ⟨by decide, by decide, Or.inr ⟨by decide, 2, 2, 1, by decide, by decide, by decide,
      by decide⟩⟩
    (by decide) (by decide) (by decide) (by decide) (by decide) (by decide) (by decide)
    (by decide) (by decide)

/-- The part of `segProveNeq` after the look-through, for two abstract values
that `proveNeq` does not tell apart, in the order `(ref, val)` that
`moveKnownValueToLeft` leaves them in. -/
theorem segProveNeqTail_segments (api : SegApi) (sh : SymHeap) (a c ref val root1 root2 peer1 : Int)
    (size1 size2 : Int) (n1 n2 : Nat)
    (hneq : api.proveNeq sh a c = some false)
    (hmk : api.moveKnownValueToLeft sh a c = (ref, val)) (hpos : 0 < ref)
    (habs : isAbstractValue sh ref = some true)
    (hroot1 : sh.toSymHeapCore.valRoot ref = some root1)
    (hroot2 : sh.toSymHeapCore.valRoot val = some root2)
    (hpeer : api.segPeer sh root1 = some (sh, peer1))
    (hsize1 : api.valSizeOfTargetLo sh ref = some size1) (hs1 : 0 < size1)
    (hsize2 : api.valSizeOfTargetLo sh val = some size2) (hs2 : 0 < size2)
    (hlen1 : api.objMinLength sh root1 = some n1) (hn1 : n1 ≠ 0)
    (hlen2 : api.objMinLength sh root2 = some n2) (hn2 : n2 ≠ 0) :
    (root2 ≠ peer1 → segProveNeqTail api sh a c = some (sh, true)) ∧
    (root2 = peer1 → n1 = n2 → segProveNeqTail api sh a c = some (sh, decide (1 < n1))) := by
  have hs1' : ¬ size1 ≤ 0 := by omega
  have hs2' : ¬ size2 ≤ 0 := by omega
  have hnull : ¬ VAL_NULL = ref := by
    have : VAL_NULL = 0 := rfl
    omega
  constructor
  · intro hp
    unfold segProveNeqTail
    simp only [hneq, Option.bind_eq_bind, Option.some_bind, Bool.false_eq_true, if_false, hmk,
      hsize2, hs2', hroot2, hlen2, hn2, hnull, hsize1, hs1', hroot1, hlen1, hn1, habs,
      Bool.not_true, hpeer, ne_eq, hp, not_false_eq_true, if_true]
  · intro hp hn
    unfold segProveNeqTail
    subst hn
    subst hp
    simp only [hneq, Option.bind_eq_bind, Option.some_bind, Bool.false_eq_true, if_false, hmk,
      hsize2, hs2', hroot2, hlen2, hn2, hnull, hsize1, hs1', hroot1, hlen1, habs,
      Bool.not_true, hpeer, ne_eq, not_true_eq_false]

/-- C17 (amended): for two different values `ref` and `val` of the heap, each
the address of an abstract segment that is not looked through, with targets of
positive size and roots of non-zero minimum length: if neither root is the
segment peer of the other, `segProveNeq` returns true; if each root is the
segment peer of the other and `n` is their common minimum length,
`segProveNeq` returns true exactly if `proveNeq` tells the values apart or `n`
exceeds 1.  The operations the sources do not define are read through their
results; `moveKnownValueToLeft` leaves the two values in one of the two
orders. -/
theorem C17_segProveNeq_segments (api : SegApi) (sh : SymHeap)
    (ref val root1 root2 peer1 peer2 : Int) (size1 size2 : Int) (n1 n2 : Nat) (b : Bool)
    (fuel : Nat) (hfuel : 1 ≤ fuel) (hne : ref ≠ val)
    (hstay1 : NotLookedThrough api sh ref) (hstay2 : NotLookedThrough api sh val)
    (habs1 : isAbstractValue sh ref = some true) (habs2 : isAbstractValue sh val = some true)
    (hroot1 : sh.toSymHeapCore.valRoot ref = some root1)
    (hroot2 : sh.toSymHeapCore.valRoot val = some root2)
    (hpeer1 : api.segPeer sh root1 = some (sh, peer1))
    (hpeer2 : api.segPeer sh root2 = some (sh, peer2))
    (hsize1 : api.valSizeOfTargetLo sh ref = some size1) (hs1 : 0 < size1)
    (hsize2 : api.valSizeOfTargetLo sh val = some size2) (hs2 : 0 < size2)
    (hlen1 : api.objMinLength sh root1 = some n1) (hn1 : n1 ≠ 0)
    (hlen2 : api.objMinLength sh root2 = some n2) (hn2 : n2 ≠ 0)
    (hneq : api.proveNeq sh ref val = some b)
    (hmk : api.moveKnownValueToLeft sh ref val = (ref, val) ∨
      api.moveKnownValueToLeft sh ref val = (val, ref)) :
    ((root2 ≠ peer1 ∧ root1 ≠ peer2) → segProveNeq api fuel sh ref val = .done (sh, true)) ∧
    ((root2 = peer1 ∧ root1 = peer2) → n1 = n2 →
      segProveNeq api fuel sh ref val = .done (sh, b || decide (1 < n1))) := by
  obtain ⟨n, rfl⟩ : ∃ n, fuel = n + 1 := ⟨fuel - 1, by omega⟩
  have hinv1 : ¬ VAL_INVALID = ref := by
    have h0 := hstay1.1
    have : VAL_INVALID = -1 := rfl
    omega
  have hinv2 : ¬ VAL_INVALID = val := by
    have h0 := hstay2.1
    have : VAL_INVALID = -1 := rfl
    omega
  cases b with
  | true =>
    have : segProveNeq api (n + 1) sh ref val = .done (sh, true) := by
      unfold segProveNeq
      simp only [hneq]
    exact ⟨fun _ => this, fun _ _ => by rw [this]; rfl⟩
  | false =>
    have hrun : segProveNeq api (n + 1) sh ref val
        = Run.ofOption (segProveNeqTail api sh ref val) := by
      unfold segProveNeq
      simp only [hneq, lookThrough_of_notLookedThrough api n sh _ hstay1,
        lookThrough_of_notLookedThrough api n sh _ hstay2, Run.bind, hinv1, hinv2, hne,
        if_false]
    rw [hrun]
    rcases hmk with hmk | hmk
    · obtain ⟨h1, h2⟩ := segProveNeqTail_segments api sh ref val ref val root1 root2 peer1 size1
        size2 n1 n2 hneq hmk hstay1.1 habs1 hroot1 hroot2 hpeer1 hsize1 hs1 hsize2 hs2 hlen1 hn1
        hlen2 hn2
      refine ⟨fun hp => ?_, fun hp hn => ?_⟩
      · rw [h1 hp.1]
        rfl
      · rw [h2 hp.1 hn]
        simp [Run.ofOption]
    · obtain ⟨h1, h2⟩ := segProveNeqTail_segments api sh ref val val ref root2 root1 peer2 size2
        size1 n2 n1 hneq hmk hstay2.1 habs2 hroot2 hroot1 hpeer2 hsize2 hs2 hsize1 hs1 hlen2 hn2
        hlen1 hn1
      refine ⟨fun hp => ?_, fun hp hn => ?_⟩
      · rw [h1 hp.2]
        rfl
      · rw [h2 hp.2 hn.symm, hn]
        simp [Run.ofOption]

/-- Claim C17 (amended) applied to the two ends of the doubly-linked segment of
`exDls1Heap` (the addresses 2 and 6, each the peer of the other, of minimum
length 1), with the operations of `specSegApi`. -/
theorem C17_segProveNeq_segments_witness :
    (((6 : Int) ≠ 6 ∧ (2 : Int) ≠ 2) →
      segProveNeq specSegApi 1 exDls1Heap 2 6 = .done (exDls1Heap, true)) ∧
    (((6 : Int) = 6 ∧ (2 : Int) = 2) → (1 : Nat) = 1 →
      segProveNeq specSegApi 1 exDls1Heap 2 6 = .done (exDls1Heap, false || decide (1 < 1))) :=
  C17_segProveNeq_segments specSegApi exDls1Heap 2 6 2 6 6 2 16 16 1 1 false 1 (by decide)
    (by decide)
    ⟨by decide, by decide, Or.inr ⟨by decide, 2, 6, 1, by decide, by decide, by decide,
      by decide⟩⟩
    ⟨by decide, by decide, Or.inr ⟨by decide, 6, 2, 1, by decide, by decide, by decide,
      by decide⟩⟩
    (by decide) (by decide) (by decide) (by decide) (by decide) (by decide) (by decide)
    (by decide) (by decide) (by decide) (by decide) (by decide) (by decide) (by decide)
    (by decide) (Or.inr (by decide))

/-- C17 fails as stated.  In `exDls1Heap` the address 2 is the address of an
abstract root of minimum length 1 in a block of 16 bytes, and the root 2 is not
its own segment peer (the peer is the root 6); for the two values `ref = 2` and
`val = 2` `segProveNeq` returns false: after the look-through it finds the two
values equal. -/
theorem C17_counterexample :
    isAbstractValue exDls1Heap 2 = some true ∧
    specSegApi.objMinLength exDls1Heap 2 = some 1 ∧
    specSegApi.valSizeOfTargetLo exDls1Heap 2 = some 16 ∧
    specSegApi.segPeer exDls1Heap 2 = some (exDls1Heap, 6) ∧
    segProveNeq specSegApi 1 exDls1Heap 2 2 = .done (exDls1Heap, false) := by
  decide

/-! ## Duplication of a value that cannot be dereferenced -/

namespace SymHeapCore

open SymHeapCore.Private

theorem objData_pushEnt_of_some {d : Private} {obj : Int} {o : HeapObject} (e : IHeapEntity)
    (h : d.objData obj = some o) : (d.pushEnt e).objData obj = some o :=
  objData_eq_some.mpr (ent_pushEnt_of_some e (objData_eq_some.mp h))

theorem valData_pushEnt_of_some {d : Private} {v : Int} {p : BaseValue × ValueExt}
    (e : IHeapEntity) (h : d.valData v = some p) : (d.pushEnt e).valData v = some p := by
  have := valData_eq_some.mp h
  exact valData_eq_some.mpr ⟨this.1, ent_pushEnt_of_some e this.2⟩

theorem valData_pushEnt_last (d : Private) (b : BaseValue) (x : ValueExt)
    (hlen : 0 < d.ents.length) :
    (d.pushEnt (.Value b x)).valData d.ents.length = some (b, x) :=
  valData_eq_some.mpr ⟨by omega, ent_pushEnt_last d _⟩

theorem valData_length_none (d : Private) : d.valData d.ents.length = none := by
  unfold Private.valData Private.valOutOfRange Private.lastId
  simp

end SymHeapCore

open SymHeapCore SymHeapCore.Private in
/-- The behaviour C26 describes, where the premise is read on the value
itself: for every value `v` of the heap whose own target code cannot
be dereferenced (unknown, custom, composite, deleted, lost, invalid),
`valClone(v)` returns the handle `d` of a new entity (the next free slot, not a
value before the call and different from `v`) with the target code, the
origin and the offset of `v`, hence the same target, and with an empty `usedBy`;
the call changes no other entity: `usedBy(v)` and every object, with the value
it holds, are as before. -/
theorem C26_valClone_unknown (sh : SymHeapCore) (v : Int) (b : BaseValue) (x : ValueExt)
    (hv : sh.d.valData v = some (b, x)) (hnd : isPossibleToDeref b.code = false) :
    ∃ sh', sh.valClone v = some (sh', (sh.d.ents.length : Int)) ∧
      (sh.d.ents.length : Int) ≠ v ∧ sh.d.valData sh.d.ents.length = none ∧
      sh'.d.valData sh.d.ents.length = some ({ b with usedBy := [] }, x) ∧
      sh'.valTarget (fun _ => false) sh.d.ents.length = sh.valTarget (fun _ => false) v ∧
      sh'.usedBy [] sh.d.ents.length = some [] ∧
      sh'.usedBy [] v = sh.usedBy [] v ∧
      sh'.d.ents.length = sh.d.ents.length + 1 ∧
      (∀ j, j ≠ (sh.d.ents.length : Int) → sh'.d.ent j = sh.d.ent j) ∧
      (∀ obj o, sh.d.objData obj = some o → sh'.d.objData obj = some o) := by
  have hpos := (valData_eq_some.mp hv).1
  have hlt := (ent_eq_some (valData_eq_some.mp hv).2).2.1
  have hlen : 0 < sh.d.ents.length := by omega
  have hnew := valData_pushEnt_last sh.d { b with usedBy := [] } x hlen
  refine ⟨{ sh with d := sh.d.pushEnt (.Value { b with usedBy := [] } x) }, ?_, by omega,
    valData_length_none sh.d, hnew, ?_, ?_, ?_, length_pushEnt _ _, ?_, ?_⟩
  · unfold valClone
    simp only [hv, Option.bind_eq_bind, Option.some_bind, hnd, Bool.not_false, if_true,
      Private.valDup, lastId_pushEnt]
  · have hn : ¬ ((sh.d.ents.length : Int) ≤ 0) := by omega
    have hn' : ¬ (v ≤ 0) := by omega
    unfold valTarget
    simp only [hn, hn', if_false, Bool.false_eq_true, hnew, hv, Option.bind_eq_bind,
      Option.some_bind, hnd, Bool.not_false, Bool.true_or, if_true]
  · have hn : ¬ (VAL_NULL = (sh.d.ents.length : Int)) := by
      have : VAL_NULL = 0 := rfl
      omega
    unfold usedBy
    simp only [hn, if_false, hnew, Option.bind_eq_bind, Option.some_bind, List.append_nil]
  · unfold usedBy
    simp only [valData_pushEnt_of_some _ hv, hv]
  · intro j hj
    by_cases hjl : j < sh.d.ents.length
    · exact ent_pushEnt_lt _ hjl
    · have h1 : sh.d.ent j = none := by
        cases he : sh.d.ent j with
        | none => rfl
        | some e => exact absurd (ent_eq_some he).2.1 hjl
      have h2 : (sh.d.pushEnt (.Value { b with usedBy := [] } x)).ent j = none := by
        cases he : (sh.d.pushEnt (.Value { b with usedBy := [] } x)).ent j with
        | none => rfl
        | some e =>
          have := (ent_eq_some he).2.1
          rw [length_pushEnt] at this
          push_cast at this
          omega
      rw [h1]
      exact h2
  · intro obj o ho
    exact objData_pushEnt_of_some _ ho

/-- The theorem `C26_valClone_unknown` applied to the destroyed heap block of `exDestroyedHeap`
(the value 2, of target code `VT_DELETED`). -/
theorem C26_valClone_unknown_witness :
    ∃ sh', exDestroyedHeap.valClone 2 = some (sh', (exDestroyedHeap.d.ents.length : Int)) ∧
      (exDestroyedHeap.d.ents.length : Int) ≠ 2 ∧
      exDestroyedHeap.d.valData exDestroyedHeap.d.ents.length = none ∧
      sh'.d.valData exDestroyedHeap.d.ents.length
        = some ({ ({ code := VT_DELETED, origin := VO_ASSIGNED } : BaseValue) with usedBy := [] },
            .RootValue { addr := 2, cbSize := 8 }) ∧
      sh'.valTarget (fun _ => false) exDestroyedHeap.d.ents.length
        = exDestroyedHeap.valTarget (fun _ => false) 2 ∧
      sh'.usedBy [] exDestroyedHeap.d.ents.length = some [] ∧
      sh'.usedBy [] 2 = exDestroyedHeap.usedBy [] 2 ∧
      sh'.d.ents.length = exDestroyedHeap.d.ents.length + 1 ∧
      (∀ j, j ≠ (exDestroyedHeap.d.ents.length : Int) → sh'.d.ent j = exDestroyedHeap.d.ent j) ∧
      (∀ obj o, exDestroyedHeap.d.objData obj = some o → sh'.d.objData obj = some o) :=
  C26_valClone_unknown exDestroyedHeap 2 { code := VT_DELETED, origin := VO_ASSIGNED }
    (.RootValue { addr := 2, cbSize := 8 }) (by decide) (by decide)

/-- C26: the code does not do what the claim says on an offset value of a
destroyed root.  In `exListGoneHeap` (a consistent heap) the value 12 is the
offset value of the destroyed root 4: its target is `VT_DELETED`, which cannot
be dereferenced, but its own target code is still `VT_ON_HEAP` (`valClone` tests
the code of the value where `valTarget` reads the code of the root), so
`valClone(12)` takes the branch that duplicates the root and traps instead of
returning a fresh handle: `objDup` creates the address of the clone with the
code `VT_DELETED` of the root, which is no root entity, and dereferences the
failed downcast. -/
theorem C26_valClone_gone_traps :
    (exListGoneHeap.d.valData 12).map (fun p => (p.1.code, p.1.offRoot, p.2))
      = some (VT_ON_HEAP, 8, .OffValue 4) ∧
    exListGoneHeap.toSymHeapCore.HeapInv = true ∧
    exListGoneHeap.toSymHeapCore.valTarget (fun _ => false) 12 = some VT_DELETED ∧
    exListGoneHeap.valTarget 12 = some VT_DELETED ∧
    isPossibleToDeref VT_DELETED = false ∧
    exListGoneHeap.toSymHeapCore.valClone 12 = none := by
  decide

/-! ## Handles out of range -/

namespace SymHeapCore

open SymHeapCore.Private

theorem valData_of_outOfRange {d : Private} {v : Int} (h : v ≤ 0 ∨ d.lastId < v) :
    d.valOutOfRange v = true ∧ d.valData v = none ∧ d.rootData v = none := by
  have hr : d.valOutOfRange v = true := by
    unfold Private.valOutOfRange
    rcases h with h | h <;> simp [h]
  refine ⟨hr, ?_, ?_⟩
  · unfold Private.valData
    rw [if_pos hr]
  · unfold Private.rootData
    rw [if_pos hr]

theorem objData_of_outOfRange {d : Private} {o : Int} (h : o < 0 ∨ d.lastId < o) :
    d.objOutOfRange o = true ∧ d.objData o = none := by
  have hr : d.objOutOfRange o = true := by
    unfold Private.objOutOfRange
    rcases h with h | h <;> simp [h]
  refine ⟨hr, ?_⟩
  unfold Private.objData
  rw [if_pos hr]

theorem objData_of_ent_none {d : Private} {o : Int} (h : d.ent o = none) :
    d.objData o = none := by
  unfold Private.objData
  split
  · rfl
  · rw [h]

end SymHeapCore

open SymHeapCore SymHeapCore.Private in
/-- C29: in a heap whose slot 0 holds the null pointer (as the constructor
leaves it), the entity accessors give no entity for a handle out of the
allocated range: `valData` and `rootData` fail the range assertion for every
value handle `v <= 0` or `v > lastId()`, `objData` fails it for every object
handle `o < 0` or `o > lastId()`, and for the object handle 0, which passes the
range check, `objData` finds the null pointer.  So the queries `valueOf`,
`objType` and `placedAt` return nothing for an object handle that is 0 or
beyond `lastId()`, and `usedBy`, `valTarget`, `valOffset` and `valRoot` return
nothing for a value handle beyond `lastId()`. -/
theorem C29_out_of_range (sh : SymHeapCore) (hslot : sh.d.ents.head? = some none) :
    (∀ v, v ≤ 0 ∨ sh.d.lastId < v →
      sh.d.valOutOfRange v = true ∧ sh.d.valData v = none ∧ sh.d.rootData v = none) ∧
    (∀ o, o < 0 ∨ sh.d.lastId < o → sh.d.objOutOfRange o = true ∧ sh.d.objData o = none) ∧
    (sh.d.objOutOfRange 0 = false ∧ sh.d.objData 0 = none) ∧
    (∀ o, o = 0 ∨ sh.d.lastId < o →
      sh.valueOf o = none ∧ sh.objType o = none ∧ sh.placedAt o = none) ∧
    (∀ v, sh.d.lastId < v →
      sh.usedBy [] v = none ∧ sh.valTarget (fun _ => false) v = none ∧ sh.valOffset v = none ∧
      sh.valRoot v = none) := by
  obtain ⟨l, hl⟩ : ∃ l, sh.d.ents = none :: l := by
    cases he : sh.d.ents with
    | nil => rw [he] at hslot; cases hslot
    | cons a l =>
      rw [he] at hslot
      simp only [List.head?_cons, Option.some.injEq] at hslot
      exact ⟨l, by rw [hslot]⟩
  have hlast : 0 ≤ sh.d.lastId := by
    unfold Private.lastId
    rw [hl]
    simp
  have h0 : sh.d.ent 0 = none := by
    unfold Private.ent
    rw [hl]
    simp
  have hobj0 : sh.d.objData 0 = none := objData_of_ent_none h0
  have hobjQ : ∀ o, sh.d.objData o = none → 0 ≤ o →
      sh.valueOf o = none ∧ sh.objType o = none ∧ sh.placedAt o = none := by
    intro o ho hpos
    have h1 : ¬ (o = OBJ_UNKNOWN ∨ o = OBJ_INVALID) := by
      have : OBJ_UNKNOWN < 0 := by decide
      have : OBJ_INVALID < 0 := by decide
      omega
    have h2 : ¬ o = OBJ_DEREF_FAILED := by
      have : OBJ_DEREF_FAILED < 0 := by decide
      omega
    have h3 : ¬ o < 0 := by omega
    refine ⟨?_, ?_, ?_⟩
    · unfold valueOf
      simp only [h1, h2, if_false, ho, Option.bind_eq_bind, Option.none_bind]
    · unfold objType
      simp only [h3, if_false, ho, Option.bind_eq_bind, Option.none_bind]
    · unfold placedAt
      simp only [h3, if_false, ho, Option.bind_eq_bind, Option.none_bind]
  refine ⟨fun v hv => valData_of_outOfRange hv, fun o ho => objData_of_outOfRange ho, ?_, ?_, ?_⟩
  · refine ⟨?_, hobj0⟩
    unfold Private.objOutOfRange
    simp [hlast]
  · intro o ho
    rcases ho with rfl | ho
    · exact hobjQ 0 hobj0 (le_refl _)
    · exact hobjQ o (objData_of_outOfRange (Or.inr ho)).2 (by omega)
  · intro v hv
    have hd : sh.d.valData v = none := (valData_of_outOfRange (Or.inr hv)).2.1
    have hn : ¬ v ≤ 0 := by omega
    have hn2 : ¬ VAL_NULL = v := by
      have : VAL_NULL = 0 := rfl
      omega
    refine ⟨?_, ?_, ?_, ?_⟩
    · unfold usedBy
      simp only [hn2, if_false, hd, Option.bind_eq_bind, Option.none_bind]
    · unfold valTarget
      simp only [hn, if_false, Bool.false_eq_true, hd, Option.bind_eq_bind, Option.none_bind]
    · unfold valOffset
      simp only [hn, if_false, hd, Option.bind_eq_bind, Option.none_bind]
    · unfold SymHeapCore.valRoot Private.valRoot
      simp only [hn, if_false, hd, Option.bind_eq_bind, Option.none_bind]

open SymHeapCore in
/-- Claim C29 applied to `exAllocHeap` (slots 0 to 2; `lastId()` is 2). -/
theorem C29_out_of_range_witness :
    (∀ v, v ≤ 0 ∨ exAllocHeap.d.lastId < v →
      exAllocHeap.d.valOutOfRange v = true ∧ exAllocHeap.d.valData v = none ∧
      exAllocHeap.d.rootData v = none) ∧
    (∀ o, o < 0 ∨ exAllocHeap.d.lastId < o →
      exAllocHeap.d.objOutOfRange o = true ∧ exAllocHeap.d.objData o = none) ∧
    (exAllocHeap.d.objOutOfRange 0 = false ∧ exAllocHeap.d.objData 0 = none) ∧
    (∀ o, o = 0 ∨ exAllocHeap.d.lastId < o →
      exAllocHeap.valueOf o = none ∧ exAllocHeap.objType o = none ∧
      exAllocHeap.placedAt o = none) ∧
    (∀ v, exAllocHeap.d.lastId < v →
      exAllocHeap.usedBy [] v = none ∧ exAllocHeap.valTarget (fun _ => false) v = none ∧
      exAllocHeap.valOffset v = none ∧ exAllocHeap.valRoot v = none) :=
  C29_out_of_range exAllocHeap (by decide)

/-! ## Lazy creation of the value of an object -/

namespace SymHeapCore

open SymHeapCore.Private

/-- The result of `valueOf(obj)` for an object without a value, given the state
`d1` in which the new value was created in the next free slot. -/
theorem valueOf_fresh {sh : SymHeapCore} {obj : Int} {o : HeapObject}
    (ho : sh.d.objData obj = some o) (hnew : o.value = VAL_INVALID) (b : BaseValue) (x : ValueExt)
    (d1 : Private)
    (hcreate : sh.valueOfCreate obj o = some (d1, (sh.d.ents.length : Int)))
    (hd1new : d1.ent sh.d.ents.length = some (.Value b x))
    (hd1old : ∀ j, j ≠ (sh.d.ents.length : Int) → d1.ent j = sh.d.ent j)
    (hd1len : d1.ents.length = sh.d.ents.length + 1)
    (hub : b.usedBy = []) :
    ∃ sh', sh.valueOf obj = some (sh', (sh.d.ents.length : Int)) ∧
      sh'.stor_ = sh.stor_ ∧
      sh'.d.ents.length = sh.d.ents.length + 1 ∧
      sh'.d.valData sh.d.ents.length = some ({ b with usedBy := [obj] }, x) ∧
      sh'.d.objData obj = some { o with value := (sh.d.ents.length : Int) } ∧
      (∀ j, j ≠ obj → j ≠ (sh.d.ents.length : Int) → sh'.d.ent j = sh.d.ent j) := by
  have hobj := objData_eq_some.mp ho
  have hr := ent_eq_some hobj
  have hne : obj ≠ (sh.d.ents.length : Int) := by omega
  have h1 : ¬ (obj = OBJ_UNKNOWN ∨ obj = OBJ_INVALID) := by
    have : OBJ_UNKNOWN < 0 := by decide
    have : OBJ_INVALID < 0 := by decide
    omega
  have h2 : ¬ obj = OBJ_DEREF_FAILED := by
    have : OBJ_DEREF_FAILED < 0 := by decide
    omega
  have hd1obj : d1.ent obj = some (.HeapObject o) := by rw [hd1old obj hne]; exact hobj
  let d2 := d1.setEnt obj (.HeapObject { o with value := (sh.d.ents.length : Int) })
  have hd2 : ∀ j, d2.ent j
      = if j = obj then some (.HeapObject { o with value := (sh.d.ents.length : Int) })
        else d1.ent j := fun j => ent_setEnt _ hd1obj j
  have hd2new : d2.ent sh.d.ents.length = some (.Value b x) := by
    rw [hd2, if_neg (Ne.symm hne), hd1new]
  have hd2val : d2.valData sh.d.ents.length = some (b, x) :=
    valData_eq_some.mpr ⟨by omega, hd2new⟩
  let d3 := d2.setEnt sh.d.ents.length
    (.Value { b with usedBy := setInsert intLt obj b.usedBy } x)
  have hd3 : ∀ j, d3.ent j
      = if j = (sh.d.ents.length : Int)
        then some (.Value { b with usedBy := setInsert intLt obj b.usedBy } x)
        else d2.ent j := fun j => ent_setEnt _ hd2new j
  have hins : setInsert intLt obj b.usedBy = [obj] := by
    rw [hub]
    rfl
  refine ⟨{ sh with d := d3 }, ?_, rfl, ?_, ?_, ?_, ?_⟩
  · unfold valueOf
    simp only [h1, h2, if_false, ho, Option.bind_eq_bind, Option.some_bind, hnew, ne_eq,
      not_true_eq_false, hcreate]
    show (d2.valData sh.d.ents.length).bind _ = _
    rw [hd2val]
    rfl
  · show d3.ents.length = _
    simp only [d3, d2, length_setEnt, hd1len]
  · apply valData_eq_some.mpr
    refine ⟨by omega, ?_⟩
    show d3.ent _ = _
    rw [hd3, if_pos rfl, hins]
  · apply objData_eq_some.mpr
    show d3.ent _ = _
    rw [hd3, if_neg hne, hd2, if_pos rfl]
  · intro j hj1 hj2
    show d3.ent _ = _
    rw [hd3, if_neg hj2, hd2, if_neg hj1, hd1old j hj2]

/-- The entities of the store after one entity was pushed. -/
theorem ent_pushEnt_ne {d : Private} (e : IHeapEntity) {j : Int}
    (hj : j ≠ (d.ents.length : Int)) : (d.pushEnt e).ent j = d.ent j := by
  by_cases hjl : j < d.ents.length
  · exact ent_pushEnt_lt _ hjl
  · have e1 : d.ent j = none := by
      cases he : d.ent j with
      | none => rfl
      | some e0 => exact absurd (ent_eq_some he).2.1 hjl
    rw [e1]
    cases he : (d.pushEnt e).ent j with
    | none => rfl
    | some e0 =>
      have := (ent_eq_some he).2.1
      rw [length_pushEnt] at this
      push_cast at this
      omega

end SymHeapCore

open SymHeapCore SymHeapCore.Private in
/-- C30 (amended): for an object `obj` that holds no value (`VAL_INVALID`) and
either has a composite type or belongs to a root whose target code is that of a
known object (`VT_ON_HEAP`, `VT_ON_STACK`, `VT_STATIC`), the first `valueOf(obj)`
creates exactly one entity, the value in the next free slot: of target code
`VT_COMPOSITE` with `valGetComposite` equal to `obj` for a composite type,
otherwise of target code `VT_UNKNOWN` with the origin `VO_HEAP`, `VO_STACK` or
`VO_STATIC` by the code of the root; its `usedBy` is `{obj}`, the object holds
it, and every other entity is as before.  The next `valueOf(obj)` returns the
same handle and leaves the heap as it is.  The special objects `OBJ_INVALID`
and `OBJ_UNKNOWN` read as `VAL_INVALID`, and `OBJ_DEREF_FAILED` as
`VAL_DEREF_FAILED`. -/
theorem C30_valueOf_lazy (sh : SymHeapCore) (obj : Int) (o : HeapObject)
    (ho : sh.d.objData obj = some o) (hnew : o.value = VAL_INVALID)
    (hcase : isComposite sh.stor_ o.clt = true ∨
      ∃ rb rd, sh.d.rootData o.root = some (rb, rd) ∧ isKnownObject rb.code = true) :
    (∃ sh' b x, sh.valueOf obj = some (sh', (sh.d.ents.length : Int)) ∧
      sh.d.valData sh.d.ents.length = none ∧
      sh'.d.ents.length = sh.d.ents.length + 1 ∧
      sh'.d.valData sh.d.ents.length = some (b, x) ∧
      sh'.usedBy [] sh.d.ents.length = some [obj] ∧
      (isComposite sh.stor_ o.clt = true →
        b.code = VT_COMPOSITE ∧ sh'.valGetComposite sh.d.ents.length = some obj) ∧
      (isComposite sh.stor_ o.clt = false →
        b.code = VT_UNKNOWN ∧ x = .BaseValue ∧
        ∀ rb rd, sh.d.rootData o.root = some (rb, rd) →
          (rb.code = VT_ON_HEAP → b.origin = VO_HEAP) ∧
          (rb.code = VT_ON_STACK → b.origin = VO_STACK) ∧
          (rb.code = VT_STATIC → b.origin = VO_STATIC)) ∧
      sh'.d.objData obj = some { o with value := (sh.d.ents.length : Int) } ∧
      (∀ j, j ≠ obj → j ≠ (sh.d.ents.length : Int) → sh'.d.ent j = sh.d.ent j) ∧
      sh'.valueOf obj = some (sh', (sh.d.ents.length : Int))) ∧
    sh.valueOf OBJ_INVALID = some (sh, VAL_INVALID) ∧
    sh.valueOf OBJ_UNKNOWN = some (sh, VAL_INVALID) ∧
    sh.valueOf OBJ_DEREF_FAILED = some (sh, VAL_DEREF_FAILED) := by
  refine ⟨?_, by simp [valueOf, OBJ_INVALID, OBJ_UNKNOWN], by simp [valueOf], by simp [valueOf, OBJ_INVALID, OBJ_UNKNOWN, OBJ_DEREF_FAILED]⟩
  have hobj := objData_eq_some.mp ho
  have hr := ent_eq_some hobj
  have hlen : 0 < sh.d.ents.length := by omega
  have hsecond : ∀ sh' : SymHeapCore,
      sh'.d.objData obj = some { o with value := (sh.d.ents.length : Int) } →
      sh'.valueOf obj = some (sh', (sh.d.ents.length : Int)) := by
    intro sh' ho'
    have h1 : ¬ (obj = OBJ_UNKNOWN ∨ obj = OBJ_INVALID) := by
      have : OBJ_UNKNOWN < 0 := by decide
      have : OBJ_INVALID < 0 := by decide
      omega
    have h2 : ¬ obj = OBJ_DEREF_FAILED := by
      have : OBJ_DEREF_FAILED < 0 := by decide
      omega
    have h3 : VAL_INVALID ≠ (sh.d.ents.length : Int) := by
      have : VAL_INVALID = -1 := rfl
      omega
    unfold valueOf
    simp only [h1, h2, if_false, ho', Option.bind_eq_bind, Option.some_bind, ne_eq, h3,
      not_false_eq_true, if_true]
  have husedBy : ∀ (sh' : SymHeapCore) (b : BaseValue) (x : ValueExt),
      sh'.d.valData sh.d.ents.length = some ({ b with usedBy := [obj] }, x) →
      sh'.usedBy [] sh.d.ents.length = some [obj] := by
    intro sh' b x hvd
    have hn : ¬ (VAL_NULL = (sh.d.ents.length : Int)) := by
      have : VAL_NULL = 0 := rfl
      omega
    unfold usedBy
    simp only [hn, if_false, hvd, Option.bind_eq_bind, Option.some_bind, List.nil_append]
  cases hc : isComposite sh.stor_ o.clt with
  | true =>
    let b0 : BaseValue := { code := VT_COMPOSITE, origin := VO_INVALID }
    let d0 := sh.d.pushEnt (.Value b0 (.CompValue OBJ_INVALID))
    have hd0new : d0.ent sh.d.ents.length = some (.Value b0 (.CompValue OBJ_INVALID)) :=
      ent_pushEnt_last _ _
    have hd0val : d0.valData sh.d.ents.length = some (b0, .CompValue OBJ_INVALID) :=
      valData_eq_some.mpr ⟨by omega, hd0new⟩
    let d1 := d0.setEnt sh.d.ents.length (.Value b0 (.CompValue obj))
    have hd1 : ∀ j, d1.ent j
        = if j = (sh.d.ents.length : Int) then some (.Value b0 (.CompValue obj)) else d0.ent j :=
      fun j => ent_setEnt _ hd0new j
    have hcreate : sh.valueOfCreate obj o = some (d1, (sh.d.ents.length : Int)) := by
      unfold valueOfCreate
      simp only [hc, if_true, Private.valCreate, Option.bind_eq_bind, Option.some_bind,
        lastId_pushEnt]
      show (d0.valData sh.d.ents.length).bind _ = _
      rw [hd0val]
      rfl
    obtain ⟨sh', h1, -, h3, h4, h5, h6⟩ := valueOf_fresh ho hnew b0 (.CompValue obj) d1 hcreate
      (by rw [hd1, if_pos rfl])
      (fun j hj => by rw [hd1, if_neg hj]; exact ent_pushEnt_ne _ hj)
      (by show (d0.setEnt _ _).ents.length = _; rw [length_setEnt, length_pushEnt]) rfl
    refine ⟨sh', { b0 with usedBy := [obj] }, .CompValue obj, h1, valData_length_none _, h3, h4,
      husedBy sh' b0 _ h4, fun _ => ⟨rfl, ?_⟩, (fun h => Bool.noConfusion h), h5, h6,
      hsecond sh' h5⟩
    unfold valGetComposite
    simp only [h4, Option.bind_eq_bind, Option.some_bind]
    rfl
  | false =>
    rcases hcase with hcmp | ⟨rb, rd, hrd, hk⟩
    · rw [hc] at hcmp
      cases hcmp
    · obtain ⟨vo, hvo, hvo'⟩ : ∃ vo, originByCode rb.code = some vo ∧
          ((rb.code = VT_ON_HEAP → vo = VO_HEAP) ∧ (rb.code = VT_ON_STACK → vo = VO_STACK) ∧
            (rb.code = VT_STATIC → vo = VO_STATIC)) := by
        revert hk
        cases rb.code <;> simp [isKnownObject, originByCode]
      let b0 : BaseValue := { code := VT_UNKNOWN, origin := vo }
      let d1 := sh.d.pushEnt (.Value b0 .BaseValue)
      have hcreate : sh.valueOfCreate obj o = some (d1, (sh.d.ents.length : Int)) := by
        unfold valueOfCreate
        simp only [hc, Bool.false_eq_true, if_false, hrd, Option.bind_eq_bind, Option.some_bind,
          hvo, Private.valCreate, lastId_pushEnt]
      obtain ⟨sh', h1, -, h3, h4, h5, h6⟩ := valueOf_fresh ho hnew b0 .BaseValue d1 hcreate
        (ent_pushEnt_last _ _) (fun j hj => ent_pushEnt_ne _ hj) (length_pushEnt _ _) rfl
      refine ⟨sh', { b0 with usedBy := [obj] }, .BaseValue, h1, valData_length_none _, h3, h4,
        husedBy sh' b0 _ h4, (fun h => Bool.noConfusion h), fun _ => ⟨rfl, rfl, ?_⟩, h5, h6,
        hsecond sh' h5⟩
      intro rb' rd' hrd'
      rw [hrd] at hrd'
      cases hrd'
      exact hvo'

open SymHeapCore in
/-- Claim C30 (amended) applied to the pointer `next` (object 4) of the block of
`exTypedHeap`. -/
theorem C30_valueOf_lazy_witness :
    (∃ sh' b x, exTypedHeap.valueOf 4 = some (sh', (exTypedHeap.d.ents.length : Int)) ∧
      exTypedHeap.d.valData exTypedHeap.d.ents.length = none ∧
      sh'.d.ents.length = exTypedHeap.d.ents.length + 1 ∧
      sh'.d.valData exTypedHeap.d.ents.length = some (b, x) ∧
      sh'.usedBy [] exTypedHeap.d.ents.length = some [4] ∧
      (isComposite exTypedHeap.stor_ (some 1) = true →
        b.code = VT_COMPOSITE ∧ sh'.valGetComposite exTypedHeap.d.ents.length = some 4) ∧
      (isComposite exTypedHeap.stor_ (some 1) = false →
        b.code = VT_UNKNOWN ∧ x = .BaseValue ∧
        ∀ rb rd, exTypedHeap.d.rootData 2 = some (rb, rd) →
          (rb.code = VT_ON_HEAP → b.origin = VO_HEAP) ∧
          (rb.code = VT_ON_STACK → b.origin = VO_STACK) ∧
          (rb.code = VT_STATIC → b.origin = VO_STATIC)) ∧
      sh'.d.objData 4
        = some { ({ value := VAL_INVALID, root := 2, off := 0, clt := some 1 } : HeapObject) with
            value := (exTypedHeap.d.ents.length : Int) } ∧
      (∀ j, j ≠ 4 → j ≠ (exTypedHeap.d.ents.length : Int) → sh'.d.ent j = exTypedHeap.d.ent j) ∧
      sh'.valueOf 4 = some (sh', (exTypedHeap.d.ents.length : Int))) ∧
    exTypedHeap.valueOf OBJ_INVALID = some (exTypedHeap, VAL_INVALID) ∧
    exTypedHeap.valueOf OBJ_UNKNOWN = some (exTypedHeap, VAL_INVALID) ∧
    exTypedHeap.valueOf OBJ_DEREF_FAILED = some (exTypedHeap, VAL_DEREF_FAILED) :=
  C30_valueOf_lazy exTypedHeap 4 { value := VAL_INVALID, root := 2, off := 0, clt := some 1 }
    (by decide) (by decide)
    (Or.inr ⟨{ code := VT_ON_HEAP, origin := VO_ASSIGNED },
      (exTypedHeap.d.rootData 2).elim {} Prod.snd, by decide, by decide⟩)

/-- C30 fails as stated.  In `exTypedGoneHeap` (a consistent heap) the object 4
was never written and holds no value, and its root 2 was destroyed (target code
`VT_DELETED`): `valueOf(4)` traps on the assertion of `originByCode`, which
knows no origin for that code. -/
theorem C30_counterexample :
    exTypedGoneHeap.HeapInv = true ∧
    exTypedGoneHeap.d.objData 4 = some { value := VAL_INVALID, root := 2, off := 0, clt := none } ∧
    (exTypedGoneHeap.d.rootData 2).map (fun p => p.1.code) = some VT_DELETED ∧
    SymHeapCore.originByCode VT_DELETED = none ∧
    exTypedGoneHeap.valueOf 4 = none := by
  decide

/-! ## Live objects -/

namespace SymHeapCore.Private

theorem liveAt_modEnt_of_eq (d : Private) (id : Int) {f : IHeapEntity → IHeapEntity}
    (hf : ∀ e, (f e).liveObjs = e.liveObjs) (j : Int) :
    (d.modEnt id f).liveAt j = d.liveAt j := by
  unfold liveAt
  rw [ent_modEnt]
  by_cases hj : j = id
  · rw [if_pos hj]
    cases d.ent j with
    | none => rfl
    | some e => simp [hf]
  · rw [if_neg hj]

theorem liveAt_of_rootData {d : Private} {v : Int} {b : BaseValue} {rd : RootValue}
    (h : d.rootData v = some (b, rd)) : d.liveAt v = rd.liveObjs := by
  unfold liveAt
  rw [(rootData_eq_some.mp h).2]; rfl

theorem liveObjs_eraseUsedBy (obj : Int) (e : IHeapEntity) :
    (IHeapEntity.eraseUsedBy obj e).liveObjs = e.liveObjs := by
  cases e with
  | HeapObject o => rfl
  | Value b x => cases x <;> rfl

theorem liveObjs_insertUsedBy (obj : Int) (e : IHeapEntity) :
    (IHeapEntity.insertUsedBy obj e).liveObjs = e.liveObjs := by
  cases e with
  | HeapObject o => rfl
  | Value b x => cases x <;> rfl

theorem liveObjs_eraseUsedByGl (obj : Int) (e : IHeapEntity) :
    (IHeapEntity.eraseUsedByGl obj e).liveObjs = e.liveObjs := by
  cases e with
  | HeapObject o => rfl
  | Value b x => cases x <;> rfl

theorem liveObjs_insertUsedByGl (obj : Int) (e : IHeapEntity) :
    (IHeapEntity.insertUsedByGl obj e).liveObjs = e.liveObjs := by
  cases e with
  | HeapObject o => rfl
  | Value b x => cases x <;> rfl

theorem liveObjs_setValue (val : Int) (e : IHeapEntity) :
    (IHeapEntity.setValue val e).liveObjs = e.liveObjs := by
  cases e with
  | HeapObject o => rfl
  | Value b x => cases x <;> rfl

theorem liveAt_released (d : Private) (obj old R : Int) (dr : Bool) (j : Int) :
    (d.released obj old R dr).liveAt j = d.liveAt j := by
  unfold Private.released
  split
  · rfl
  · split
    · rw [liveAt_modEnt_of_eq _ _ (liveObjs_eraseUsedByGl obj),
        liveAt_modEnt_of_eq _ _ (liveObjs_eraseUsedBy obj)]
    · rw [liveAt_modEnt_of_eq _ _ (liveObjs_eraseUsedBy obj)]

theorem liveAt_written (d : Private) (obj val Rw : Int) (dw : Bool) (j : Int) :
    (d.written obj val Rw dw).liveAt j = d.liveAt j := by
  unfold Private.written
  split
  · rw [liveAt_modEnt_of_eq _ _ (liveObjs_setValue val)]
  · split
    · rw [liveAt_modEnt_of_eq _ _ (liveObjs_insertUsedByGl obj),
        liveAt_modEnt_of_eq _ _ (liveObjs_insertUsedBy obj),
        liveAt_modEnt_of_eq _ _ (liveObjs_setValue val)]
    · rw [liveAt_modEnt_of_eq _ _ (liveObjs_insertUsedBy obj),
        liveAt_modEnt_of_eq _ _ (liveObjs_setValue val)]

end SymHeapCore.Private

namespace SymHeapCore

open SymHeapCore.Private

/-- The state `objSetValue(obj, val)` leaves, for an object of scalar type whose
old value can be released and whose new value can be stored: the root gets the
object as a live object, the old value is released, the new one is stored. -/
theorem objSetValue_eq {sh : SymHeapCore} {obj val : Int} {o : HeapObject}
    (ho : sh.d.objData obj = some o) (hnc : isComposite sh.stor_ o.clt = false)
    (hr : (sh.d.rootData o.root).isSome = true)
    (hold : Releasable sh.d obj o.value) (hw : Storable sh.d val) :
    ∃ R dr Rw dw, sh.objSetValue obj val = some { sh with d :=
      (((sh.d.modEnt o.root (IHeapEntity.setLive obj (isDataPtr sh.stor_ o.clt))).released obj
        o.value R dr).written obj val Rw dw) } := by
  obtain ⟨⟨rb0, rd0⟩, hrd0⟩ := Option.isSome_iff_exists.mp hr
  let p := isDataPtr sh.stor_ o.clt
  let d1 := sh.d.modEnt o.root (IHeapEntity.setLive obj p)
  have hd1 : sh.d.setEnt o.root
      (.Value rb0 (.RootValue { rd0 with liveObjs := mapSet intLt obj p rd0.liveObjs })) = d1 :=
    setEnt_eq_modEnt (rootData_eq_some.mp hrd0).2 (IHeapEntity.setLive obj p)
  have hs1 : SameSkel sh.d d1 := SameSkel.modEnt _ _ (IHeapEntity.skel_setLive obj p)
  have ho1 : d1.objData obj = some o := objData_modEnt_of_fix _ (fun _ => rfl) ho
  have hub1 : ∀ j, d1.usedByAt j = sh.d.usedByAt j :=
    usedByAt_modEnt_of_eq _ _ (IHeapEntity.usedBy_setLive obj p)
  have hgl1 : ∀ j y, y ∈ sh.d.usedByGlAt j → y ∈ d1.usedByGlAt j := fun j y hy =>
    mem_usedByGlAt_modEnt _ _ (fun e he => by rw [IHeapEntity.usedByGl_setLive]; exact he) hy
  have hrel : ∃ R dr, d1.releaseValueOf obj o.value = some (d1.released obj o.value R dr) := by
    by_cases hpos : 0 < o.value
    · obtain ⟨b, x, R, rb, rx, hv, hmem, hroot, hR, hgl⟩ := hold hpos
      obtain ⟨b1, x1, hv1, -, -, -, hroot1⟩ := hs1.valData hv
      obtain ⟨rb1, rx1, hR1, hc1, -, -, -⟩ := hs1.valData hR
      have hmem1 : obj ∈ b1.usedBy := by
        rw [← usedByAt_of_valData hv1, hub1, usedByAt_of_valData hv]; exact hmem
      have hgl1' : isPossibleToDeref rb1.code = true →
          ∃ rd, rx1 = .RootValue rd ∧ obj ∈ rd.usedByGl := by
        intro hd
        rw [hc1] at hd
        obtain ⟨rd, hrx, hm⟩ := hgl hd
        subst hrx
        have hrdR : sh.d.rootData R = some (rb, rd) :=
          rootData_eq_some.mpr (valData_eq_some.mp hR)
        obtain ⟨rb1', rd1, hrd1, -⟩ := hs1.rootData hrdR
        have := valData_of_rootData hrd1
        rw [hR1] at this
        cases this
        refine ⟨rd1, rfl, ?_⟩
        rw [← usedByGlAt_of_rootData hrd1]
        apply hgl1
        rw [usedByGlAt_of_rootData hrdR]; exact hm
      refine ⟨R, isPossibleToDeref rb1.code, ?_⟩
      rw [releaseValueOf_eq hv1 hmem1 (hroot1.trans hroot) hR1 hgl1']
      have h0 : ¬ o.value ≤ 0 := by omega
      simp only [Private.released, h0, if_false]
    · refine ⟨0, false, ?_⟩
      have h0 : o.value ≤ 0 := by omega
      simp only [Private.released, releaseValueOf, h0, if_true]
  obtain ⟨R, dr, hrel⟩ := hrel
  have hs2 : SameSkel sh.d (d1.released obj o.value R dr) := hs1.trans (SameSkel.released _ _ _ _ _)
  have ho2 : (d1.released obj o.value R dr).objData obj = some o := objData_released _ _ _ _ ho1
  have hw2 := hw.transport hs2
  have hset : ∃ Rw dw, d1.setValueOf obj val
      = some ((d1.released obj o.value R dr).written obj val Rw dw) := by
    by_cases hpos : 0 < val
    · obtain ⟨wb, wx, hv, hrest⟩ := hw2 hpos
      by_cases hd : isPossibleToDeref wb.code = true
      · obtain ⟨Rw, hroot, hR⟩ := hrest hd
        exact ⟨Rw, _, setValueOf_eq ho1 hrel ho2 (fun _ => ⟨hv, fun _ => ⟨hroot, hR⟩⟩)⟩
      · exact ⟨0, _, setValueOf_eq ho1 hrel ho2 (fun _ => ⟨hv, fun h => absurd h hd⟩)⟩
    · exact ⟨0, false, @setValueOf_eq _ _ _ _ 0 _ { code := VT_INVALID, origin := VO_INVALID }
        .BaseValue ho1 hrel ho2 (fun h => absurd h hpos)⟩
  obtain ⟨Rw, dw, hset⟩ := hset
  refine ⟨R, dr, Rw, dw, ?_⟩
  unfold objSetValue
  simp only [Option.bind_eq_bind, ho, Option.some_bind, hnc, Bool.false_eq_true, if_false, hrd0]
  rw [hd1, hset]
  rfl

end SymHeapCore

theorem mapFind_ne_none_of_mem {κ β : Type} [DecidableEq κ] {k : κ} {v : β} {m : List (κ × β)}
    (h : (k, v) ∈ m) : mapFind k m ≠ none := by
  induction m with
  | nil => cases h
  | cons q m ih =>
    obtain ⟨k', v'⟩ := q
    unfold mapFind
    by_cases hk : k' = k
    · rw [if_pos hk]
      exact fun h => by cases h
    · rw [if_neg hk]
      rcases List.mem_cons.mp h with h1 | h1
      · cases h1
        exact absurd rfl hk
      · exact ih h1

theorem mem_mapInsertNew {κ β : Type} (lt : κ → κ → Bool) (k : κ) (v : β) (m : List (κ × β))
    (q : κ × β) : q ∈ mapInsertNew lt k v m ↔ q = (k, v) ∨ q ∈ m := by
  induction m with
  | nil => simp [mapInsertNew]
  | cons p m ih =>
    unfold mapInsertNew
    split
    · simp
    · simp only [List.mem_cons, ih]
      tauto

/-- In a map that holds each key once, the assignment `m[k] = v` leaves `v` as
the only value under `k`. -/
theorem mem_mapSet_key {κ β : Type} [DecidableEq κ] (lt : κ → κ → Bool) (k : κ) (v v' : β)
    (m : List (κ × β)) (hm : (m.map Prod.fst).Nodup) (h : (k, v') ∈ mapSet lt k v m) :
    v' = v := by
  unfold mapSet at h
  split at h
  · clear * - hm h
    induction m with
    | nil => cases h
    | cons p m ih =>
      obtain ⟨k', v0⟩ := p
      simp only [List.map_cons, List.nodup_cons] at hm
      unfold mapReplace at h
      by_cases hk : k' = k
      · rw [if_pos hk] at h
        rcases List.mem_cons.mp h with h1 | h1
        · cases h1
          rfl
        · exfalso
          apply hm.1
          rw [hk]
          exact List.mem_map.mpr ⟨(k, v'), h1, rfl⟩
      · rw [if_neg hk] at h
        rcases List.mem_cons.mp h with h1 | h1
        · cases h1
          exact absurd rfl hk
        · exact ih hm.2 h1
  · rename_i hf
    rcases (mem_mapInsertNew lt k v m _).mp h with h1 | h1
    · cases h1
      rfl
    · exact absurd hf (mapFind_ne_none_of_mem h1)

namespace SymHeapCore.Private

theorem liveAt_setLive {d : Private} {r : Int} {rb : BaseValue} {rd : RootValue}
    (hr : d.rootData r = some (rb, rd)) (obj : Int) (p : Bool) :
    (d.modEnt r (IHeapEntity.setLive obj p)).liveAt r = mapSet intLt obj p rd.liveObjs := by
  unfold liveAt
  rw [ent_modEnt, if_pos rfl, (rootData_eq_some.mp hr).2]
  rfl

end SymHeapCore.Private

open SymHeapCore SymHeapCore.Private in
/-- C21: in a heap that satisfies the representation invariant, for every
object `obj` of scalar type, with the root `o.root` whose map of live objects
holds each key once, and every valid value `val`: `objSetValue(obj, val)`
returns, and afterwards `obj` is listed by `gatherLiveObjects` of the root, and
is listed by `gatherLivePointers` of the root exactly if its type is a pointer
to data.  In every heap `gatherLivePointers(r)` lists only objects that
`gatherLiveObjects(r)` lists. -/
theorem C21_objSetValue_live (sh : SymHeapCore) (hinv : sh.HeapInv = true) (obj val : Int)
    (o : HeapObject) (rb : BaseValue) (rd : RootValue)
    (ho : sh.d.objData obj = some o) (hnc : isComposite sh.stor_ o.clt = false)
    (hval : validVal sh.d val = true) (hrd : sh.d.rootData o.root = some (rb, rd))
    (hmap : (rd.liveObjs.map Prod.fst).Nodup) :
    (∃ sh' objs ptrs, sh.objSetValue obj val = some sh' ∧
      sh'.gatherLiveObjects [] o.root = some objs ∧
      sh'.gatherLivePointers [] o.root = some ptrs ∧
      obj ∈ objs ∧ (obj ∈ ptrs ↔ isDataPtr sh.stor_ o.clt = true)) ∧
    (∀ (h : SymHeapCore) (r : Int) (l p : TObjList), h.gatherLiveObjects [] r = some l →
      h.gatherLivePointers [] r = some p → p ⊆ l) := by
  constructor
  · obtain ⟨hoff, huse, -, -⟩ := heapInv_parts hinv
    have hf := offFacts_of_inv hoff
    obtain ⟨hr, hold⟩ := useInv_object huse ho
    have hw := storable_of_valid hf hval
    obtain ⟨sh1, hset1, -, -, hs, -⟩ := objSetValue_spec ho hnc hr hold hw
    obtain ⟨R, dr, Rw, dw, hset⟩ := objSetValue_eq ho hnc hr hold hw
    obtain ⟨rb', rd', hrd', -⟩ := hs.rootData hrd
    have hsh : sh1 = { sh with d :=
        (((sh.d.modEnt o.root (IHeapEntity.setLive obj (isDataPtr sh.stor_ o.clt))).released obj
          o.value R dr).written obj val Rw dw) } := by
      rw [hset1] at hset
      exact Option.some.inj hset
    have hlive : rd'.liveObjs = mapSet intLt obj (isDataPtr sh.stor_ o.clt) rd.liveObjs := by
      rw [← liveAt_of_rootData hrd', hsh]
      show Private.liveAt _ _ = _
      rw [liveAt_written, liveAt_released, liveAt_setLive hrd]
    have hmem : (obj, isDataPtr sh.stor_ o.clt) ∈ rd'.liveObjs := by
      rw [hlive]
      exact mem_of_mapFind (mapFind_mapSet_same _ _ _ _)
    refine ⟨sh1, rd'.liveObjs.map Prod.fst,
      (rd'.liveObjs.filter (fun item => item.2)).map Prod.fst, hset1, ?_, ?_, ?_, ?_⟩
    · unfold gatherLiveObjects
      simp only [hrd', Option.bind_eq_bind, Option.some_bind, List.nil_append]
    · unfold gatherLivePointers
      simp only [hrd', Option.bind_eq_bind, Option.some_bind, List.nil_append]
    · exact List.mem_map.mpr ⟨_, hmem, rfl⟩
    · constructor
      · intro h
        obtain ⟨⟨k, q⟩, hq, hk⟩ := List.mem_map.mp h
        simp only at hk
        subst hk
        obtain ⟨hq1, hq2⟩ := List.mem_filter.mp hq
        simp only at hq2
        rw [hlive] at hq1
        rw [← mem_mapSet_key intLt k _ q rd.liveObjs hmap hq1]
        exact hq2
      · intro h
        exact List.mem_map.mpr ⟨_, List.mem_filter.mpr ⟨hmem, h⟩, rfl⟩
  · intro h r l p hl hp
    unfold gatherLiveObjects at hl
    unfold gatherLivePointers at hp
    cases hr : h.d.rootData r with
    | none => simp [hr] at hl
    | some q =>
      simp only [hr, Option.bind_eq_bind, Option.some_bind, List.nil_append,
        Option.some.injEq] at hl hp
      subst hl
      subst hp
      intro x hx
      obtain ⟨y, hy, hxy⟩ := List.mem_map.mp hx
      exact List.mem_map.mpr ⟨y, (List.mem_filter.mp hy).1, hxy⟩

open SymHeapCore in
/-- Claim C21 applied to the pointer `next` (object 4) of the block of
`exTypedHeap` and the value `VAL_NULL`. -/
theorem C21_objSetValue_live_witness :
    (∃ sh' objs ptrs, exTypedHeap.objSetValue 4 VAL_NULL = some sh' ∧
      sh'.gatherLiveObjects [] 2 = some objs ∧
      sh'.gatherLivePointers [] 2 = some ptrs ∧
      (4 : Int) ∈ objs ∧ ((4 : Int) ∈ ptrs ↔ isDataPtr exTypedHeap.stor_ (some 1) = true)) ∧
    (∀ (h : SymHeapCore) (r : Int) (l p : TObjList), h.gatherLiveObjects [] r = some l →
      h.gatherLivePointers [] r = some p → p ⊆ l) :=
  C21_objSetValue_live exTypedHeap (by decide) 4 VAL_NULL
    { value := VAL_INVALID, root := 2, off := 0, clt := some 1 }
    { code := VT_ON_HEAP, origin := VO_ASSIGNED }
    ((exTypedHeap.d.rootData 2).elim {} Prod.snd)
    (by decide) (by decide) (by decide) (by decide) (by decide)

/-! ## Recorded disequalities and `proveNeq` -/

namespace SymHeapCore

open SymHeapCore.Private

/-- The member `valTarget` returns on every value of a heap with a consistent
offset bookkeeping. -/
theorem valTarget_isSome {sh : SymHeapCore} (hf : sh.d.OffFacts) (abs : Int → Bool) {v : Int}
    {b : BaseValue} {x : ValueExt} (hv : sh.d.valData v = some (b, x)) :
    ∃ code, sh.valTarget abs v = some code := by
  have hpos := (valData_eq_some.mp hv).1
  have hn : ¬ v ≤ 0 := by omega
  unfold valTarget
  rw [if_neg hn]
  by_cases ha : abs v = true
  · rw [if_pos ha]
    exact ⟨_, rfl⟩
  · rw [if_neg ha]
    simp only [hv, Option.bind_eq_bind, Option.some_bind]
    by_cases h1 : b.offRoot < 0
    · rw [if_pos h1]
      exact ⟨_, rfl⟩
    · rw [if_neg h1]
      by_cases h2 : (!isPossibleToDeref b.code || decide (b.offRoot = 0)) = true
      · rw [if_pos h2]
        exact ⟨_, rfl⟩
      · rw [if_neg h2]
        obtain ⟨R, rb, rx, hroot, hR, -, -⟩ := hf.valRoot hv
        simp only [hroot, hR, Option.some_bind]
        exact ⟨_, rfl⟩

/-- The member `proveNeq` returns true on a pair that `moveKnownValueToLeft`
leaves as `(l, r)` when `l` is not `VAL_TRUE`, `r` is a value of the heap, and
the pair is recorded distinct. -/
theorem proveNeq_of_recorded {sh : SymHeapCore} (hf : sh.d.OffFacts)
    (mk : SymHeapCore → Int → Int → Int × Int) (abs : Int → Bool) {a b l r : Int}
    (hab : a ≠ b) (ha : a ≠ VAL_INVALID) (hb : b ≠ VAL_INVALID)
    (hmk : mk sh a b = (l, r)) (hl : l ≠ VAL_TRUE) {rb : BaseValue} {rx : ValueExt}
    (hr : sh.d.valData r = some (rb, rx)) (hrec : sh.d.neqDb.areNeq l r = true) :
    sh.proveNeq mk abs a b = some true := by
  obtain ⟨code, hcode⟩ := valTarget_isSome hf abs hr
  have hrange : sh.d.valOutOfRange r = false := by
    cases h : sh.d.valOutOfRange r with
    | false => rfl
    | true =>
      unfold Private.valData at hr
      rw [if_pos h] at hr
      cases hr
  have h1 : ¬ (VAL_INVALID = a ∨ VAL_INVALID = b) := by
    rintro (h | h)
    · exact ha h.symm
    · exact hb h.symm
  have hl' : ¬ VAL_TRUE = l := fun h => hl h.symm
  unfold proveNeq
  simp only [h1, if_false, hab, hmk, hl', hrange, Bool.false_eq_true,
    hcode, Option.bind_eq_bind, Option.some_bind, hrec, if_true]
  split <;> rfl

end SymHeapCore

open SymHeapCore SymHeapCore.Private in
/-- C22 (amended): in a heap with a consistent offset bookkeeping, for all
distinct valid values `a` and `b` other than `VAL_INVALID` and `VAL_TRUE`, where
`moveKnownValueToLeft` (the parameter `mk`) leaves the pair in one of the two
orders with a value of the heap on the right: after
`SymHeapCore::neqOp(NEQ_ADD, a, b)` both `proveNeq(a, b)` and `proveNeq(b, a)`
return true, and after a subsequent `neqOp(NEQ_DEL, a, b)` the fact is gone:
`areNeq(a, b)` and `areNeq(b, a)` are false. -/
theorem C22_neq_add_del (sh : SymHeapCore) (hoff : sh.d.OffInv = true)
    (mk : SymHeapCore → Int → Int → Int × Int) (abs : Int → Bool) (a b : Int) (hab : a ≠ b)
    (ha : validVal sh.d a = true) (hb : validVal sh.d b = true)
    (hia : a ≠ VAL_INVALID) (hib : b ≠ VAL_INVALID) (hta : a ≠ VAL_TRUE) (htb : b ≠ VAL_TRUE)
    (hmk1 : mk (sh.withNeqDb (sh.neqDbAfter NEQ_ADD a b)) a b = (a, b) ∨
      mk (sh.withNeqDb (sh.neqDbAfter NEQ_ADD a b)) a b = (b, a))
    (hmk2 : mk (sh.withNeqDb (sh.neqDbAfter NEQ_ADD a b)) b a = (a, b) ∨
      mk (sh.withNeqDb (sh.neqDbAfter NEQ_ADD a b)) b a = (b, a))
    (hr1 : 0 < (mk (sh.withNeqDb (sh.neqDbAfter NEQ_ADD a b)) a b).2)
    (hr2 : 0 < (mk (sh.withNeqDb (sh.neqDbAfter NEQ_ADD a b)) b a).2) :
    ∃ sh1, sh.neqOp NEQ_ADD a b = some sh1 ∧
      sh1.proveNeq mk abs a b = some true ∧ sh1.proveNeq mk abs b a = some true ∧
      ∃ sh2, sh1.neqOp NEQ_DEL a b = some sh2 ∧
        sh2.d.neqDb.areNeq a b = false ∧ sh2.d.neqDb.areNeq b a = false := by
  have hf := offFacts_of_inv hoff
  have hf1 : (sh.withNeqDb (sh.neqDbAfter NEQ_ADD a b)).d.OffFacts := offFacts_withNeqDb _ hf
  have hrec : (sh.withNeqDb (sh.neqDbAfter NEQ_ADD a b)).d.neqDb.areNeq a b = true := by
    rw [neqDb_withNeqDb, NeqDb.areNeq_iff]
    exact mem_neqDbAfter_add_self sh a b
  have hrec' : (sh.withNeqDb (sh.neqDbAfter NEQ_ADD a b)).d.neqDb.areNeq b a = true := by
    rw [NeqDb.areNeq_comm]
    exact hrec
  have hval : ∀ r, validVal sh.d r = true → 0 < r →
      ∃ rb rx, (sh.withNeqDb (sh.neqDbAfter NEQ_ADD a b)).d.valData r = some (rb, rx) := by
    intro r hv hpos
    unfold validVal at hv
    simp only [not_le.mpr hpos, decide_False, Bool.false_or] at hv
    obtain ⟨⟨rb, rx⟩, h⟩ := Option.isSome_iff_exists.mp hv
    exact ⟨rb, rx, (valData_congr sh.d (sh.withNeqDb (sh.neqDbAfter NEQ_ADD a b)).d rfl r).trans h⟩
  have hprove : ∀ x y, x ≠ y → x ≠ VAL_INVALID → y ≠ VAL_INVALID →
      (mk (sh.withNeqDb (sh.neqDbAfter NEQ_ADD a b)) x y = (a, b) ∨
        mk (sh.withNeqDb (sh.neqDbAfter NEQ_ADD a b)) x y = (b, a)) →
      0 < (mk (sh.withNeqDb (sh.neqDbAfter NEQ_ADD a b)) x y).2 →
      (sh.withNeqDb (sh.neqDbAfter NEQ_ADD a b)).proveNeq mk abs x y = some true := by
    intro x y hxy hx hy hmk hr
    rcases hmk with hmk | hmk
    · rw [hmk] at hr
      obtain ⟨rb, rx, hvd⟩ := hval b hb hr
      exact proveNeq_of_recorded hf1 mk abs hxy hx hy hmk hta hvd hrec
    · rw [hmk] at hr
      obtain ⟨rb, rx, hvd⟩ := hval a ha hr
      exact proveNeq_of_recorded hf1 mk abs hxy hx hy hmk htb hvd hrec'
  refine ⟨sh.withNeqDb (sh.neqDbAfter NEQ_ADD a b), neqOp_valid hf NEQ_ADD hab ha hb,
    hprove a b hab hia hib hmk1 hr1, hprove b a (Ne.symm hab) hib hia hmk2 hr2,
    (sh.withNeqDb (sh.neqDbAfter NEQ_ADD a b)).withNeqDb
      ((sh.withNeqDb (sh.neqDbAfter NEQ_ADD a b)).neqDbAfter NEQ_DEL a b),
    neqOp_valid hf1 NEQ_DEL hab (by rw [validVal_withNeqDb]; exact ha)
      (by rw [validVal_withNeqDb]; exact hb), ?_⟩
  have hgone : ((sh.withNeqDb (sh.neqDbAfter NEQ_ADD a b)).neqDbAfter NEQ_DEL a b).areNeq a b
      = false := by
    cases h : ((sh.withNeqDb (sh.neqDbAfter NEQ_ADD a b)).neqDbAfter NEQ_DEL a b).areNeq a b with
    | false => rfl
    | true =>
      have hm := (NeqDb.areNeq_iff _ a b).mp h
      exact absurd rfl (mem_neqDbAfter_del hm).2
  refine ⟨hgone, ?_⟩
  rw [NeqDb.areNeq_comm]
  exact hgone

open SymHeapCore in
/-- Claim C22 (amended) applied to the two heap blocks 2 and 3 of `exTwoBlocks`,
with `moveKnownValueToLeft` read as `sortValues`. -/
theorem C22_neq_add_del_witness :
    ∃ sh1, exTwoBlocks.neqOp NEQ_ADD 2 3 = some sh1 ∧
      sh1.proveNeq (fun _ x y => sortValues x y) (fun _ => false) 2 3 = some true ∧
      sh1.proveNeq (fun _ x y => sortValues x y) (fun _ => false) 3 2 = some true ∧
      ∃ sh2, sh1.neqOp NEQ_DEL 2 3 = some sh2 ∧
        sh2.d.neqDb.areNeq 2 3 = false ∧ sh2.d.neqDb.areNeq 3 2 = false :=
  C22_neq_add_del exTwoBlocks (by decide) (fun _ x y => sortValues x y) (fun _ => false) 2 3
    (by decide) (by decide) (by decide) (by decide) (by decide) (by decide) (by decide)
    (by decide) (by decide) (by decide) (by decide)

open SymHeapCore in
/-- C22 fails as stated.  In `exTwoBlocks`, after `neqOp(NEQ_ADD, VAL_TRUE, 2)`
the fact is recorded, but `proveNeq(VAL_TRUE, 2)` does not return true: with
`VAL_TRUE` on the left it returns `VAL_FALSE == 2`, which is false, and with
`VAL_TRUE` on the right it fails the range assertion.  After
`neqOp(NEQ_ADD, VAL_NULL, VAL_DEREF_FAILED)` the call
`proveNeq(VAL_NULL, VAL_DEREF_FAILED)` fails the range assertion in either
order of the two special values. -/
theorem C22_counterexample :
    (exTwoBlocks.neqOp NEQ_ADD VAL_TRUE 2).map (fun sh =>
        (sh.d.neqDb.areNeq VAL_TRUE 2,
         sh.proveNeq (fun _ x y => (x, y)) (fun _ => false) VAL_TRUE 2,
         sh.proveNeq (fun _ x y => (y, x)) (fun _ => false) VAL_TRUE 2))
      = some (true, some false, none) ∧
    (exTwoBlocks.neqOp NEQ_ADD VAL_NULL VAL_DEREF_FAILED).map (fun sh =>
        (sh.d.neqDb.areNeq VAL_NULL VAL_DEREF_FAILED,
         sh.proveNeq (fun _ x y => (x, y)) (fun _ => false) VAL_NULL VAL_DEREF_FAILED,
         sh.proveNeq (fun _ x y => (y, x)) (fun _ => false) VAL_NULL VAL_DEREF_FAILED))
      = some (true, none, none) := by
  decide

/-! ## Disequality of offset values through their roots -/

namespace SymHeapCore

open SymHeapCore.Private

theorem valOutOfRange_of_valData {d : Private} {v : Int} (h : (d.valData v).isSome = true) :
    d.valOutOfRange v = false := by
  cases hr : d.valOutOfRange v with
  | false => rfl
  | true =>
    unfold Private.valData at h
    rw [if_pos hr] at h
    cases h

/-- The offset value of a live root at a non-zero offset: `valByOffset` returns
an offset value of that root with that offset, and changes no entity but the
root, which stays a root. -/
theorem valByOffset_live {sh : SymHeapCore} {R : Int} {rb : BaseValue} {rd : RootValue}
    (hr : sh.d.rootData R = some (rb, rd)) (h0 : rb.offRoot = 0)
    (hlive : isPossibleToDeref rb.code = true) (hmap : sh.d.offMapOk R = true) {o : Int}
    (ho : o ≠ 0) :
    ∃ sh' v b rd', sh.valByOffset R o = some (sh', v) ∧
      sh'.d.valData v = some (b, .OffValue R) ∧ b.offRoot = o ∧
      sh'.d.neqDb = sh.d.neqDb ∧ sh'.d.rootData R = some (rb, rd') ∧
      (∀ j e, j ≠ R → sh.d.ent j = some e → sh'.d.ent j = some e) := by
  cases hfind : mapFind o rd.offMap with
  | some v =>
    refine ⟨sh, v, ?_⟩
    have hmem := mem_of_mapFind hfind
    unfold Private.offMapOk at hmap
    rw [hr] at hmap
    simp only [List.all_eq_true] at hmap
    have hv := hmap (o, v) hmem
    simp only at hv
    cases hvd : sh.d.valData v with
    | none => rw [hvd] at hv; cases hv
    | some q =>
      obtain ⟨b, x⟩ := q
      rw [hvd] at hv
      cases x with
      | OffValue R1 =>
        simp only [Bool.and_eq_true, decide_eq_true_eq] at hv
        obtain ⟨h1, h2⟩ := hv
        subst h1
        exact ⟨b, rd, valByOffset_root_found hr h0 hlive ho hfind, rfl, h2, rfl, hr,
          fun _ _ _ h => h⟩
      | BaseValue => cases hv
      | CompValue c => cases hv
      | CustomValue c => cases hv
      | RootValue r => cases hv
  | none =>
    have hposR : 0 < R := (rootData_eq_some.mp hr).1
    have hentR := (rootData_eq_some.mp hr).2
    refine ⟨sh.withOffValue R rb rd o, sh.d.ents.length,
      { code := rb.code, origin := rb.origin, offRoot := o }, _,
      valByOffset_root_new hr h0 hlive ho hfind, valData_withOffValue_new hr o, rfl, ?_,
      rootData_withOffValue_root hr o, ?_⟩
    · simp [withOffValue, Private.setEnt, Private.pushEnt]
    · intro j e hj he
      simp only [withOffValue]
      rw [ent_setEnt_ne _ (by omega) hj]
      exact ent_pushEnt_of_some _ he

/-- The bookkeeping of `offMap` of a root survives a change of the store that
keeps every entity but another root. -/
theorem offMapOk_of_ext {d d' : Private} {R R' : Int} {rb : BaseValue} {rd : RootValue}
    (hR : d.rootData R = some (rb, rd)) (hne : R' ≠ R)
    (hext : ∀ j e, j ≠ R → d.ent j = some e → d'.ent j = some e)
    (h : d.offMapOk R' = true) : d'.offMapOk R' = true := by
  unfold Private.offMapOk at h ⊢
  cases hr' : d.rootData R' with
  | none => rw [hr'] at h; cases h
  | some q =>
    obtain ⟨b', rd'⟩ := q
    rw [hr'] at h
    have h1 : d'.rootData R' = some (b', rd') :=
      rootData_eq_some.mpr ⟨(rootData_eq_some.mp hr').1,
        hext _ _ hne (rootData_eq_some.mp hr').2⟩
    rw [h1]
    simp only [List.all_eq_true] at h ⊢
    intro p hp
    have := h p hp
    simp only at this ⊢
    cases hv : d.valData p.2 with
    | none => rw [hv] at this; cases this
    | some q =>
      obtain ⟨b, x⟩ := q
      rw [hv] at this
      have hv' := valData_eq_some.mp hv
      have hpne : p.2 ≠ R := by
        intro heq
        rw [heq, (rootData_eq_some.mp hR).2] at hv'
        have h2 := hv'.2
        simp only [Option.some.injEq, IHeapEntity.Value.injEq] at h2
        rw [← h2.2] at this
        cases this
      have hv2 : d'.valData p.2 = some (b, x) :=
        valData_eq_some.mpr ⟨hv'.1, hext _ _ hpne hv'.2⟩
      rw [hv2]
      exact this

/-- The member `valTarget` returns on an offset value whose root is a value. -/
theorem valTarget_offValue {sh : SymHeapCore} (abs : Int → Bool) {v R : Int} {b : BaseValue}
    (hv : sh.d.valData v = some (b, .OffValue R)) (hR : (sh.d.valData R).isSome = true) :
    ∃ code, sh.valTarget abs v = some code := by
  have hpos := (valData_eq_some.mp hv).1
  have hn : ¬ v ≤ 0 := by omega
  obtain ⟨q, hq⟩ := Option.isSome_iff_exists.mp hR
  unfold valTarget
  rw [if_neg hn]
  by_cases ha : abs v = true
  · rw [if_pos ha]
    exact ⟨_, rfl⟩
  · rw [if_neg ha]
    simp only [hv, Option.bind_eq_bind, Option.some_bind]
    by_cases h1 : b.offRoot < 0
    · rw [if_pos h1]
      exact ⟨_, rfl⟩
    · rw [if_neg h1]
      by_cases h2 : (!isPossibleToDeref b.code || decide (b.offRoot = 0)) = true
      · rw [if_pos h2]
        exact ⟨_, rfl⟩
      · rw [if_neg h2]
        have h3 : ¬ b.offRoot = 0 := by
          intro h
          apply h2
          simp [h]
        simp only [Private.valRootOf, h3, if_false, valOutOfRange_of_valData hR,
          Bool.false_eq_true, hq, Option.some_bind]
        exact ⟨_, rfl⟩

/-- The member `proveNeq` on a pair `(l, r)` of offset values with the same
non-zero offset, whose roots differ and are recorded distinct. -/
theorem proveNeq_offPair {sh : SymHeapCore} (mk : SymHeapCore → Int → Int → Int × Int)
    (abs : Int → Bool) {x y l r Rl Rr o : Int} {bl br : BaseValue}
    (hxy : x ≠ y) (hx : 0 < x) (hy : 0 < y) (hmk : mk sh x y = (l, r)) (ho : o ≠ 0)
    (hne : Rl ≠ Rr) (hvl : sh.d.valData l = some (bl, .OffValue Rl)) (hol : bl.offRoot = o)
    (hvr : sh.d.valData r = some (br, .OffValue Rr)) (hor : br.offRoot = o)
    (hRl : (sh.d.valData Rl).isSome = true) (hRr : (sh.d.valData Rr).isSome = true)
    (hrec : sh.d.neqDb.areNeq Rl Rr = true) : sh.proveNeq mk abs x y = some true := by
  obtain ⟨code, hcode⟩ := valTarget_offValue abs hvr hRr
  have hposl := (valData_eq_some.mp hvl).1
  have hposr := (valData_eq_some.mp hvr).1
  have h1 : ¬ (VAL_INVALID = x ∨ VAL_INVALID = y) := by
    have : VAL_INVALID = -1 := rfl
    omega
  have hl' : ¬ VAL_TRUE = l := by
    have : VAL_TRUE = -3 := rfl
    omega
  have hrange : sh.d.valOutOfRange r = false :=
    valOutOfRange_of_valData (by rw [hvr]; rfl)
  have hol' : ¬ bl.offRoot = 0 := by rw [hol]; exact ho
  have hor' : ¬ br.offRoot = 0 := by rw [hor]; exact ho
  have hrootl : sh.d.valRoot l = some Rl := by
    unfold Private.valRoot
    simp only [hvl, Option.bind_eq_bind, Option.some_bind, Private.valRootOf, hol', if_false,
      valOutOfRange_of_valData hRl, Bool.false_eq_true]
  have hrootr : sh.d.valRoot r = some Rr := by
    unfold Private.valRoot
    simp only [hvr, Option.bind_eq_bind, Option.some_bind, Private.valRootOf, hor', if_false,
      valOutOfRange_of_valData hRr, Bool.false_eq_true]
  have hoffl : sh.valOffset l = some o := by
    unfold valOffset
    simp only [not_le.mpr hposl, if_false, hvl, Option.bind_eq_bind, Option.some_bind, hol]
  have hoffr : sh.valOffset r = some o := by
    unfold valOffset
    simp only [not_le.mpr hposr, if_false, hvr, Option.bind_eq_bind, Option.some_bind, hor]
  have hpos2 : ¬ (l ≤ 0 ∨ r ≤ 0) := by omega
  unfold proveNeq
  simp only [h1, if_false, hxy, hmk, hl', hrange, Bool.false_eq_true, hcode, Option.bind_eq_bind,
    Option.some_bind]
  by_cases hk : isKnownObject code = true
  · rw [if_pos hk]
  · rw [if_neg hk]
    by_cases hn : sh.d.neqDb.areNeq l r = true
    · rw [if_pos hn]
    · rw [if_neg hn]
      simp only [hpos2, if_false, hrootl, hrootr, Option.some_bind, hne, hoffl, ho, hoffr, ne_eq,
        not_true_eq_false, hrec]

end SymHeapCore

namespace SymHeapCore

open SymHeapCore.Private

theorem offMapOk_congr {d d' : Private} (h : d'.ents = d.ents) (R : Int) :
    d'.offMapOk R = d.offMapOk R := by
  unfold Private.offMapOk
  simp only [rootData_congr d d' h, valData_congr d d' h]

theorem valData_of_ext {d d' : Private} {R v : Int} {rb : BaseValue} {rd : RootValue}
    (hR : d.rootData R = some (rb, rd))
    (hext : ∀ j e, j ≠ R → d.ent j = some e → d'.ent j = some e) {b : BaseValue} {R1 : Int}
    (hv : d.valData v = some (b, .OffValue R1)) : d'.valData v = some (b, .OffValue R1) := by
  have hv' := valData_eq_some.mp hv
  have hne : v ≠ R := by
    intro heq
    rw [heq, (rootData_eq_some.mp hR).2] at hv'
    have h2 := hv'.2
    simp only [Option.some.injEq, IHeapEntity.Value.injEq] at h2
    cases h2.2
  exact valData_eq_some.mpr ⟨hv'.1, hext _ _ hne hv'.2⟩

end SymHeapCore

open SymHeapCore SymHeapCore.Private in
/-- C23 (amended): in a heap with a consistent offset bookkeeping, for distinct
values `a` and `b` that are offset values, with the same non-zero offset, of the
roots `Ra` and `Rb`, both roots with a target that can be dereferenced and with
their own offset values in `offMap`: after `SymHeapCore::neqOp(NEQ_ADD, a, b)`
the fact `areNeq(Ra, Rb)` is recorded, and for every non-zero offset `o`
`proveNeq(valByOffset(Ra, o), valByOffset(Rb, o))` returns true.  The parameter
`mk` stands for `moveKnownValueToLeft`, which leaves the two values in one of
the two orders. -/
theorem C23_cross_root_neq (sh : SymHeapCore) (hoff : sh.d.OffInv = true)
    (mk : SymHeapCore → Int → Int → Int × Int)
    (hmk : ∀ s x y, mk s x y = (x, y) ∨ mk s x y = (y, x)) (abs : Int → Bool)
    (a b Ra Rb : Int) (ba bb rba rbb : BaseValue) (rda rdb : RootValue) (hab : a ≠ b)
    (hva : sh.d.valData a = some (ba, .OffValue Ra))
    (hvb : sh.d.valData b = some (bb, .OffValue Rb))
    (ho : ba.offRoot ≠ 0) (hsame : bb.offRoot = ba.offRoot)
    (hRa : sh.d.rootData Ra = some (rba, rda)) (hRb : sh.d.rootData Rb = some (rbb, rdb))
    (hliveA : isPossibleToDeref rba.code = true) (hliveB : isPossibleToDeref rbb.code = true)
    (hmapA : sh.d.offMapOk Ra = true) (hmapB : sh.d.offMapOk Rb = true) :
    ∃ sh1, sh.neqOp NEQ_ADD a b = some sh1 ∧ sh1.d.neqDb.areNeq Ra Rb = true ∧
      ∀ o, o ≠ 0 → ∃ sh2 a' sh3 b', sh1.valByOffset Ra o = some (sh2, a') ∧
        sh2.valByOffset Rb o = some (sh3, b') ∧ sh3.proveNeq mk abs a' b' = some true := by
  have hf := offFacts_of_inv hoff
  have hvalA : validVal sh.d a = true := by
    unfold validVal
    rw [hva]
    simp
  have hvalB : validVal sh.d b = true := by
    unfold validVal
    rw [hvb]
    simp
  obtain ⟨Ra', Rb', hra, hrb, hne⟩ := roots_ne_of_same_offset hf hab ho hva rfl hvb hsame
  have hRaR : (sh.d.valData Ra).isSome = true := by rw [valData_of_rootData hRa]; rfl
  have hRbR : (sh.d.valData Rb).isSome = true := by rw [valData_of_rootData hRb]; rfl
  have hob : ¬ bb.offRoot = 0 := by rw [hsame]; exact ho
  have hra' : sh.valRoot a = some Ra := by
    rw [valRoot_of_valData hva]
    simp only [Private.valRootOf, ho, if_false, valOutOfRange_of_valData hRaR, Bool.false_eq_true]
  have hrb' : sh.valRoot b = some Rb := by
    rw [valRoot_of_valData hvb]
    simp only [Private.valRootOf, hob, if_false, valOutOfRange_of_valData hRbR,
      Bool.false_eq_true]
  rw [hra'] at hra
  rw [hrb'] at hrb
  cases hra
  cases hrb
  have hcross : sh.crossRoots a b = some (Ra, Rb) := by
    have hposa := (valData_eq_some.mp hva).1
    have hposb := (valData_eq_some.mp hvb).1
    have hoa : sh.valOffset a = some ba.offRoot := by
      unfold valOffset
      simp only [not_le.mpr hposa, if_false, hva, Option.bind_eq_bind, Option.some_bind]
    have hob2 : sh.valOffset b = some ba.offRoot := by
      unfold valOffset
      simp only [not_le.mpr hposb, if_false, hvb, Option.bind_eq_bind, Option.some_bind, hsame]
    unfold crossRoots
    simp only [hoa, ho, if_false, hob2, ne_eq, not_true_eq_false, hra', hrb']
  let sh1 := sh.withNeqDb (sh.neqDbAfter NEQ_ADD a b)
  have hrec : sh1.d.neqDb.areNeq Ra Rb = true := by
    show (sh.neqDbAfter NEQ_ADD a b).areNeq Ra Rb = true
    rw [NeqDb.areNeq_iff]
    unfold neqDbAfter
    rw [hcross]
    exact (NeqDb.mem_applyOp_add _ _ _ _).mpr (Or.inl rfl)
  refine ⟨sh1, neqOp_valid hf NEQ_ADD hab hvalA hvalB, hrec, ?_⟩
  intro o hoz
  have hR1a : sh1.d.rootData Ra = some (rba, rda) := (rootData_congr sh.d sh1.d rfl Ra).trans hRa
  have hR1b : sh1.d.rootData Rb = some (rbb, rdb) := (rootData_congr sh.d sh1.d rfl Rb).trans hRb
  have hm1a : sh1.d.offMapOk Ra = true := (offMapOk_congr (rfl : sh1.d.ents = sh.d.ents) Ra).trans hmapA
  have hm1b : sh1.d.offMapOk Rb = true := (offMapOk_congr (rfl : sh1.d.ents = sh.d.ents) Rb).trans hmapB
  obtain ⟨sh2, a', ba', rda', hby1, hva', hoa', hdb2, hR2a, hext2⟩ :=
    valByOffset_live hR1a (root_offRoot_of_inv hoff hRa) hliveA hm1a hoz
  have hR2b : sh2.d.rootData Rb = some (rbb, rdb) :=
    rootData_eq_some.mpr ⟨(rootData_eq_some.mp hR1b).1,
      hext2 _ _ (Ne.symm hne) (rootData_eq_some.mp hR1b).2⟩
  have hm2b : sh2.d.offMapOk Rb = true := offMapOk_of_ext hR1a (Ne.symm hne) hext2 hm1b
  obtain ⟨sh3, b', bb', rdb', hby2, hvb', hob', hdb3, hR3b, hext3⟩ :=
    valByOffset_live hR2b (root_offRoot_of_inv hoff hRb) hliveB hm2b hoz
  refine ⟨sh2, a', sh3, b', hby1, hby2, ?_⟩
  have hva3 : sh3.d.valData a' = some (ba', .OffValue Ra) := valData_of_ext hR2b hext3 hva'
  have hR3a : (sh3.d.valData Ra).isSome = true := by
    have : sh3.d.valData Ra = some (rba, .RootValue rda') :=
      valData_eq_some.mpr ⟨(rootData_eq_some.mp hR2a).1,
        hext3 _ _ hne (rootData_eq_some.mp hR2a).2⟩
    rw [this]
    rfl
  have hR3b' : (sh3.d.valData Rb).isSome = true := by
    rw [valData_of_rootData hR3b]
    rfl
  have hrec3 : sh3.d.neqDb.areNeq Ra Rb = true := by
    rw [hdb3, hdb2]
    exact hrec
  have hne' : a' ≠ b' := by
    intro heq
    rw [heq, hvb'] at hva3
    simp only [Option.some.injEq, Prod.mk.injEq, ValueExt.OffValue.injEq] at hva3
    exact hne hva3.2.symm
  have hpa := (valData_eq_some.mp hva3).1
  have hpb := (valData_eq_some.mp hvb').1
  rcases hmk sh3 a' b' with h | h
  · exact proveNeq_offPair mk abs hne' hpa hpb h hoz hne hva3 hoa' hvb' hob' hR3a hR3b' hrec3
  · exact proveNeq_offPair mk abs hne' hpa hpb h hoz (Ne.symm hne) hvb' hob' hva3 hoa' hR3b' hR3a
      (by rw [NeqDb.areNeq_comm]; exact hrec3)

open SymHeapCore in
/-- Claim C23 (amended) applied to the offset values 4 and 5 (offset 4) of the
two blocks 2 and 3 of `exOffPairHeap`, with `moveKnownValueToLeft` read as
`sortValues`. -/
theorem C23_cross_root_neq_witness :
    ∃ sh1, exOffPairHeap.neqOp NEQ_ADD 4 5 = some sh1 ∧ sh1.d.neqDb.areNeq 2 3 = true ∧
      ∀ o, o ≠ 0 → ∃ sh2 a' sh3 b', sh1.valByOffset 2 o = some (sh2, a') ∧
        sh2.valByOffset 3 o = some (sh3, b') ∧
        sh3.proveNeq (fun _ x y => sortValues x y) (fun _ => false) a' b' = some true :=
  C23_cross_root_neq exOffPairHeap (by decide) (fun _ x y => sortValues x y)
    (fun _ x y => sortValues_cases x y) (fun _ => false) 4 5 2 3
    { code := VT_ON_HEAP, origin := VO_ASSIGNED, offRoot := 4 }
    { code := VT_ON_HEAP, origin := VO_ASSIGNED, offRoot := 4 }
    { code := VT_ON_HEAP, origin := VO_ASSIGNED } { code := VT_ON_HEAP, origin := VO_ASSIGNED }
    { offMap := [(4, 4)], addr := 2, cbSize := 8 } { offMap := [(4, 5)], addr := 3, cbSize := 8 }
    (by decide) (by decide) (by decide) (by decide) (by decide) (by decide) (by decide)
    (by decide) (by decide) (by decide) (by decide)

open SymHeapCore in
/-- C23 fails as stated.  In `exOffGoneHeap` (a consistent heap) the values 4
and 5 are the offset values at offset 4 of the roots 2 and 3, both destroyed.
After `neqOp(NEQ_ADD, 4, 5)` the fact `areNeq(2, 3)` is recorded, but
`valByOffset` of a destroyed root returns a duplicate of the root with offset
zero, and `proveNeq` of the two duplicates (the values 6 and 7) returns false,
in either order of the two values. -/
theorem C23_counterexample :
    exOffGoneHeap.HeapInv = true ∧
    (exOffGoneHeap.valOffset 4, exOffGoneHeap.valOffset 5) = (some 4, some 4) ∧
    (exOffGoneHeap.valRoot 4, exOffGoneHeap.valRoot 5) = (some 2, some 3) ∧
    ((exOffGoneHeap.neqOp NEQ_ADD 4 5).bind (fun sh1 =>
      (sh1.valByOffset 2 8).bind (fun p =>
        (p.1.valByOffset 3 8).map (fun q =>
          (sh1.d.neqDb.areNeq 2 3, p.2, q.2,
           q.1.proveNeq (fun _ x y => (x, y)) (fun _ => false) p.2 q.2,
           q.1.proveNeq (fun _ x y => (y, x)) (fun _ => false) p.2 q.2)))))
      = some (true, 6, 7, some false, some false) := by
  decide

/-! ## Program variables -/

namespace SymHeapCore.Private

theorem SubsFrame.rfl' (rootAt : Int) (d : Private) : SubsFrame rootAt d d :=
  ⟨rfl, le_refl _, fun _ _ _ h => h, fun _ rd h => ⟨rd, h, rfl, rfl, rfl, rfl, rfl, rfl, rfl⟩⟩

theorem SubsFrame.comp {rootAt : Int} {d1 d2 d3 : Private} (h12 : SubsFrame rootAt d1 d2)
    (h23 : SubsFrame rootAt d2 d3) : SubsFrame rootAt d1 d3 := by
  obtain ⟨a1, b1, c1, e1⟩ := h12
  obtain ⟨a2, b2, c2, e2⟩ := h23
  refine ⟨a2.trans a1, le_trans b1 b2, fun j e hj he => c2 j e hj (c1 j e hj he), ?_⟩
  intro rb rd hr
  obtain ⟨rd', hr', f1, f2, f3, f4, f5, f6, f7⟩ := e1 rb rd hr
  obtain ⟨rd'', hr'', g1, g2, g3, g4, g5, g6, g7⟩ := e2 rb rd' hr'
  exact ⟨rd'', hr'', g1.trans f1, g2.trans f2, g3.trans f3, g4.trans f4, g5.trans f5,
    g6.trans f6, g7.trans f7⟩

/-- One sub-object created by `subsCreate`. -/
theorem subsFrame_item {d : Private} {rootAt : Int} {rb : BaseValue} {rd : RootValue}
    (hr : d.rootData rootAt = some (rb, rd)) (o : HeapObject) (grid : TGrid) (objs : TObjList) :
    SubsFrame rootAt d
      (((d.pushEnt (.HeapObject {})).setEnt d.ents.length (.HeapObject o)).setEnt rootAt
        (.Value rb (.RootValue { rd with grid := grid, allObjs := objs }))) := by
  have hpos := (rootData_eq_some.mp hr).1
  have hent := (rootData_eq_some.mp hr).2
  have hlt := (ent_eq_some hent).2.1
  have hlen : (0 : Int) ≤ d.ents.length := by omega
  refine ⟨rfl, by simp [Private.setEnt, Private.pushEnt], ?_, ?_⟩
  · intro j e hj he
    have hjl := (ent_eq_some he).2.1
    rw [ent_setEnt_ne _ (by omega) hj, ent_setEnt_ne _ hlen (by omega)]
    exact ent_pushEnt_of_some _ he
  · intro rb' rd' hr'
    rw [hr] at hr'
    cases hr'
    refine ⟨{ rd with grid := grid, allObjs := objs }, ?_, rfl, rfl, rfl, rfl, rfl, rfl, rfl⟩
    apply rootData_eq_some.mpr
    refine ⟨hpos, ?_⟩
    apply ent_setEnt_same _ (by omega)
    rw [length_setEnt, length_pushEnt]
    push_cast
    omega

theorem subsCreateItems_frame (rootAt offRoot : Int) (items : List ClTypeItem) :
    ∀ (d : Private) (todo : List (Int × TObjType)) (d' : Private) (todo' : List (Int × TObjType)),
      (d.rootData rootAt).isSome = true →
      subsCreateItems d rootAt offRoot items todo = some (d', todo') → SubsFrame rootAt d d' := by
  induction items with
  | nil =>
    intro d todo d' todo' _ h
    simp only [subsCreateItems, Option.some.injEq, Prod.mk.injEq] at h
    rw [← h.1]
    exact SubsFrame.rfl' _ _
  | cons item rest ih =>
    intro d todo d' todo' hroot h
    obtain ⟨⟨rb, rd⟩, hr⟩ := Option.isSome_iff_exists.mp hroot
    have hpos := (rootData_eq_some.mp hr).1
    have hent := (rootData_eq_some.mp hr).2
    have hlt := (ent_eq_some hent).2.1
    have hobj : (d.pushEnt (.HeapObject {})).objData d.ents.length = some {} :=
      objData_eq_some.mpr (ent_pushEnt_last _ _)
    have hr2 : ((d.pushEnt (.HeapObject {})).setEnt d.ents.length
        (.HeapObject { ({} : HeapObject) with
          clt := item.type, root := rootAt, off := offRoot + item.offset })).rootData rootAt
        = some (rb, rd) := by
      apply rootData_eq_some.mpr
      refine ⟨hpos, ?_⟩
      rw [ent_setEnt_ne _ (by omega) (by omega)]
      exact ent_pushEnt_of_some _ hent
    rw [subsCreateItems] at h
    simp only [Private.objCreate, lastId_pushEnt, hobj, Option.bind_eq_bind, Option.some_bind,
      hr2] at h
    have hstep := subsFrame_item hr
      { ({} : HeapObject) with clt := item.type, root := rootAt, off := offRoot + item.offset }
      (gridSet rd.grid (offRoot + item.offset) item.type d.ents.length)
      (rd.allObjs ++ [(d.ents.length : Int)])
    have hroot' := (hstep.2.2.2 rb rd hr)
    obtain ⟨rd', hr', -⟩ := hroot'
    exact hstep.comp (ih _ _ _ _ (by rw [hr']; rfl) h)

theorem subsCreateLoop_frame (stor : Storage) (rootAt : Int) (fuel : Nat) :
    ∀ (d : Private) (todo : List (Int × TObjType)) (d' : Private),
      (d.rootData rootAt).isSome = true →
      subsCreateLoop stor rootAt fuel d todo = some d' → SubsFrame rootAt d d' := by
  induction fuel with
  | zero =>
    intro d todo d' _ h
    cases todo with
    | nil =>
      simp only [subsCreateLoop, Option.some.injEq] at h
      rw [← h]
      exact SubsFrame.rfl' _ _
    | cons p todo => simp [subsCreateLoop] at h
  | succ n ih =>
    intro d todo d' hroot h
    cases todo with
    | nil =>
      simp only [subsCreateLoop, Option.some.injEq] at h
      rw [← h]
      exact SubsFrame.rfl' _ _
    | cons p todo =>
      obtain ⟨obj, clt⟩ := p
      rw [subsCreateLoop] at h
      cases ht : stor.cltData clt with
      | none => simp [ht] at h
      | some t =>
        simp only [ht] at h
        by_cases hc : isComposite stor clt = true
        · simp only [hc, Bool.not_true, Bool.false_eq_true, if_false, Option.bind_eq_bind] at h
          cases ho : d.objData obj with
          | none => simp [ho] at h
          | some o =>
            simp only [ho, Option.some_bind] at h
            cases hi : subsCreateItems d rootAt o.off t.items todo with
            | none => simp [hi] at h
            | some q =>
              obtain ⟨d1, todo1⟩ := q
              simp only [hi, Option.some_bind] at h
              have f1 := subsCreateItems_frame rootAt o.off t.items d todo d1 todo1 hroot hi
              obtain ⟨⟨rb, rd⟩, hr⟩ := Option.isSome_iff_exists.mp hroot
              obtain ⟨rd', hr', -⟩ := f1.2.2.2 rb rd hr
              exact f1.comp (ih d1 todo1 d' (by rw [hr']; rfl) h)
        · simp only [hc, Bool.not_false, if_true] at h
          exact ih d todo d' hroot h

/-- The frame of `subsCreate(rootAt)`, when it returns. -/
theorem subsCreate_frame {d d' : Private} {stor : Storage} {fuel : Nat} {rootAt : Int}
    (h : d.subsCreate stor fuel rootAt = some d') : SubsFrame rootAt d d' := by
  unfold subsCreate at h
  simp only [Option.bind_eq_bind] at h
  have hcongr : ∀ j, ({ d with liveRoots := setInsert intLt rootAt d.liveRoots } : Private).ent j
      = d.ent j := fun j => rfl
  cases hr : ({ d with liveRoots := setInsert intLt rootAt d.liveRoots } : Private).rootData rootAt with
  | none => simp [hr] at h
  | some q =>
    obtain ⟨rb, rd⟩ := q
    simp only [hr, Option.some_bind] at h
    cases ht : stor.cltData rd.lastKnownClt with
    | none => simp [ht] at h
    | some t =>
      simp only [ht, Option.some_bind] at h
      have hr0 : d.rootData rootAt = some (rb, rd) := hr
      have hpos := (rootData_eq_some.mp hr0).1
      have hent := (rootData_eq_some.mp hr0).2
      have hlt := (ent_eq_some hent).2.1
      split at h
      · rename_i obj hobjs
        have hroot2 : (({ d with liveRoots := setInsert intLt rootAt d.liveRoots } : Private).setEnt
            rootAt (.Value rb (.RootValue { rd with
              cbSize := t.size.toNat, grid := gridSet rd.grid 0 rd.lastKnownClt obj }))).rootData
            rootAt = some (rb, { rd with
              cbSize := t.size.toNat, grid := gridSet rd.grid 0 rd.lastKnownClt obj }) := by
          apply rootData_eq_some.mpr
          exact ⟨hpos, ent_setEnt_same _ (by omega) hlt⟩
        have f1 : SubsFrame rootAt d
            (({ d with liveRoots := setInsert intLt rootAt d.liveRoots } : Private).setEnt
              rootAt (.Value rb (.RootValue { rd with
                cbSize := t.size.toNat, grid := gridSet rd.grid 0 rd.lastKnownClt obj }))) := by
          refine ⟨rfl, by simp [Private.setEnt], ?_, ?_⟩
          · intro j e hj he
            rw [ent_setEnt_ne _ (by omega) hj]
            exact he
          · intro rb' rd' hr'
            rw [hr0] at hr'
            cases hr'
            exact ⟨_, hroot2, rfl, rfl, rfl, rfl, rfl, rfl, rfl⟩
        exact f1.comp (subsCreateLoop_frame stor rootAt fuel _ _ d' (by rw [hroot2]; rfl) h)
      · cases h

end SymHeapCore.Private

namespace SymHeapCore

open SymHeapCore.Private

/-- The heap `addrOfVar` leaves when it creates the variable. -/
theorem addrOfVar_created {sh sh1 : SymHeapCore} {fuel : Nat} {cv : CVar} {addr addr0 : Int}
    (hf : cVarMapFind sh.d.cVarMap cv = some addr0) (hn : ¬ 0 < addr0)
    (h : sh.addrOfVar fuel cv = some (sh1, addr)) :
    addr = (sh.d.ents.length : Int) + 1 ∧ sh1.stor_ = sh.stor_ ∧
    mapFind cv sh.d.cVarMap = none ∧ sh1.d.cVarMap = mapSet cVarLt cv addr sh.d.cVarMap ∧
    (∀ j e, sh.d.ent j = some e → sh1.d.ent j = some e) ∧
    ∃ var rd, mapFind cv.uid sh.stor_.vars = some var ∧
      sh1.d.rootData addr = some ({ code := varCode var, origin := VO_ASSIGNED }, rd) ∧
      rd.cVar = cv := by
  unfold addrOfVar at h
  simp only [hf, Option.bind_eq_bind, Option.some_bind, if_neg hn] at h
  cases hv : mapFind cv.uid sh.stor_.vars with
  | none => simp [hv] at h
  | some var =>
    simp only [hv, Option.some_bind] at h
    cases ht : sh.stor_.cltData var.type with
    | none => simp [ht] at h
    | some t =>
      simp only [ht, Option.some_bind] at h
      split at h
      · cases h
      · have hobj : (sh.d.pushEnt (.HeapObject {})).objData (sh.d.pushEnt (.HeapObject {})).lastId
            = some {} := by
          rw [lastId_pushEnt]
          exact objData_eq_some.mpr (ent_pushEnt_last _ _)
        have hvc : (sh.d.pushEnt (.HeapObject {})).valCreate
            (if var.isOnStack then VT_ON_STACK else VT_STATIC) VO_ASSIGNED
            = some ((sh.d.pushEnt (.HeapObject {})).pushEnt
                (.Value { code := varCode var, origin := VO_ASSIGNED } (.RootValue {})),
              (sh.d.ents.length : Int) + 1) := by
          unfold varCode
          cases var.isOnStack <;>
            simp [Private.valCreate, lastId_pushEnt, length_pushEnt]
        simp only [Private.objCreate, hobj, Option.some_bind, hvc] at h
        rw [lastId_pushEnt] at h
        have hlen0 : (0 : Int) ≤ sh.d.ents.length := by omega
        have hroot3 : (((sh.d.pushEnt (.HeapObject {})).pushEnt
              (.Value { code := varCode var, origin := VO_ASSIGNED } (.RootValue {}))).setEnt
              sh.d.ents.length
              (.HeapObject { ({} : HeapObject) with
                clt := var.type, root := (sh.d.ents.length : Int) + 1 })).rootData
              ((sh.d.ents.length : Int) + 1)
            = some ({ code := varCode var, origin := VO_ASSIGNED }, {}) := by
          apply rootData_eq_some.mpr
          refine ⟨by omega, ?_⟩
          rw [ent_setEnt_ne _ hlen0 (by omega)]
          have := ent_pushEnt_last (sh.d.pushEnt (.HeapObject {}))
            (.Value { code := varCode var, origin := VO_ASSIGNED } (.RootValue {}))
          rw [length_pushEnt] at this
          push_cast at this
          exact this
        simp only [hroot3, Option.some_bind] at h
        generalize hd4 : Private.setEnt _ ((sh.d.ents.length : Int) + 1) _ = d4 at h
        cases hs : d4.subsCreate sh.stor_ fuel ((sh.d.ents.length : Int) + 1) with
        | none => simp [hs] at h
        | some d5 =>
          simp only [hs, Option.some_bind] at h
          have hfr := subsCreate_frame hs
          have hroot4 : d4.rootData ((sh.d.ents.length : Int) + 1)
              = some ({ code := varCode var, origin := VO_ASSIGNED },
                  { ({} : RootValue) with
                    cVar := cv, addr := (sh.d.ents.length : Int) + 1, lastKnownClt := var.type,
                    allObjs := ({} : RootValue).allObjs ++ [(sh.d.ents.length : Int)] }) := by
            rw [← hd4]
            apply rootData_eq_some.mpr
            refine ⟨by omega, ?_⟩
            apply ent_setEnt_same _ (by omega)
            rw [length_setEnt, length_pushEnt, length_pushEnt]
            push_cast
            omega
          have hmap4 : d4.cVarMap = sh.d.cVarMap := by
            rw [← hd4]
            rfl
          have hold4 : ∀ j e, sh.d.ent j = some e → d4.ent j = some e ∧ j ≠ sh.d.ents.length + 1 := by
            intro j e he
            have hjl := (ent_eq_some he).2.1
            refine ⟨?_, by omega⟩
            rw [← hd4, ent_setEnt_ne _ (by omega) (by omega), ent_setEnt_ne _ hlen0 (by omega)]
            exact ent_pushEnt_of_some _ (ent_pushEnt_of_some _ he)
          obtain ⟨rd', hr', hcv, -⟩ := hfr.2.2.2 _ _ hroot4
          unfold Private.cVarMapInsert at h
          rw [hfr.1, hmap4] at h
          cases hm : mapFind cv sh.d.cVarMap with
          | some _ => simp [hm] at h
          | none =>
            simp only [hm, Option.some_bind, Option.some.injEq, Prod.mk.injEq] at h
            obtain ⟨h1, h2⟩ := h
            subst h2
            subst h1
            refine ⟨rfl, rfl, rfl, rfl, ?_, var, rd', rfl, hr', hcv⟩
            intro j e he
            obtain ⟨h4, hj⟩ := hold4 j e he
            exact hfr.2.2.1 j e hj h4


theorem cVarMapOk_mem {sh : SymHeapCore} (hmap : sh.cVarMapOk = true) {cv : CVar} {a : Int}
    (hm : (cv, a) ∈ sh.d.cVarMap) :
    0 < a ∧ ∃ rb rd var, sh.d.rootData a = some (rb, rd) ∧
      mapFind cv.uid sh.stor_.vars = some var ∧ rd.cVar = cv ∧ rb.code = varCode var ∧
      rb.offRoot = 0 := by
  unfold cVarMapOk at hmap
  have h := List.all_eq_true.mp hmap _ hm
  simp only [Bool.and_eq_true, decide_eq_true_eq] at h
  refine ⟨h.1, ?_⟩
  have h2 := h.2
  split at h2
  · rename_i rb rd var hr hv
    simp only [Bool.and_eq_true, decide_eq_true_eq] at h2
    exact ⟨rb, rd, var, hr, hv, h2.1.1, h2.1.2, h2.2⟩
  · cases h2

theorem valTarget_of_root {sh : SymHeapCore} {a : Int} {rb : BaseValue} {rd : RootValue}
    (hr : sh.d.rootData a = some (rb, rd)) (ho : rb.offRoot = 0) :
    sh.valTarget (fun _ => false) a = some rb.code := by
  have hpos := (rootData_eq_some.mp hr).1
  unfold valTarget
  rw [if_neg (by omega)]
  simp [valData_of_rootData hr, ho]

/-- C24 (amended): when `addrOfVar(cv)` returns, a second call returns the same
address and the same heap.  In a heap whose variable map is consistent the
returned root has the target code `VT_ON_STACK` for an automatic variable and
`VT_STATIC` otherwise, and `cVarByRoot` of it is `cv`, unless `cv` is absent
from the map while the global instance of the same variable (instance 0) is
there: then the address and the variable are those of the global instance. -/
theorem C24_addrOfVar_again (sh sh1 : SymHeapCore) (fuel : Nat) (cv : CVar) (addr : Int)
    (hmap : sh.cVarMapOk = true) (h : sh.addrOfVar fuel cv = some (sh1, addr)) :
    sh1.addrOfVar fuel cv = some (sh1, addr) ∧
    ∃ var, mapFind cv.uid sh1.stor_.vars = some var ∧
      sh1.valTarget (fun _ => false) addr = some (varCode var) ∧
      sh1.cVarByRoot addr = some
        (if (mapFind cv sh.d.cVarMap).isNone &&
            (mapFind ({ cv with inst := 0 } : CVar) sh.d.cVarMap).isSome
          then { cv with inst := 0 } else cv) := by
  cases hf : cVarMapFind sh.d.cVarMap cv with
  | none => simp [addrOfVar, hf] at h
  | some addr0 =>
    by_cases hp : 0 < addr0
    · -- the variable is in the map
      have h0 := h
      unfold addrOfVar at h
      simp only [hf, Option.bind_eq_bind, Option.some_bind, if_pos hp, Option.some.injEq,
        Prod.mk.injEq] at h
      obtain ⟨h1, h2⟩ := h
      subst h1
      subst h2
      refine ⟨h0, ?_⟩
      have key : ∃ cv', (cv', addr0) ∈ sh.d.cVarMap ∧ cv'.uid = cv.uid ∧
          cv' = (if (mapFind cv sh.d.cVarMap).isNone &&
            (mapFind ({ cv with inst := 0 } : CVar) sh.d.cVarMap).isSome
          then { cv with inst := 0 } else cv) := by
        unfold cVarMapFind at hf
        simp only at hf
        by_cases hi : cv.inst = 0
        · rw [if_pos hi] at hf
          cases hm : mapFind cv sh.d.cVarMap with
          | none =>
            rw [hm] at hf
            simp only [Option.getD_none, Option.some.injEq] at hf
            rw [← hf] at hp
            exact absurd hp (by decide)
          | some v =>
            rw [hm] at hf
            simp only [Option.getD_some, Option.some.injEq] at hf
            subst hf
            exact ⟨cv, mem_of_mapFind hm, rfl, by simp⟩
        · rw [if_neg hi] at hf
          cases hm : mapFind cv sh.d.cVarMap with
          | none =>
            cases hg : mapFind ({ cv with inst := 0 } : CVar) sh.d.cVarMap with
            | none =>
              rw [hm, hg] at hf
              simp only [Option.some.injEq] at hf
              rw [← hf] at hp
              exact absurd hp (by decide)
            | some v =>
              rw [hm, hg] at hf
              simp only [Option.some.injEq] at hf
              subst hf
              exact ⟨_, mem_of_mapFind hg, rfl, by simp⟩
          | some v =>
            cases hg : mapFind ({ cv with inst := 0 } : CVar) sh.d.cVarMap with
            | none =>
              rw [hm, hg] at hf
              simp only [Option.some.injEq] at hf
              subst hf
              exact ⟨cv, mem_of_mapFind hm, rfl, by simp⟩
            | some w =>
              rw [hm, hg] at hf
              cases hf
      obtain ⟨cv', hmem, huid, hcv'⟩ := key
      obtain ⟨-, rb, rd, var, hr, hv, hc, hcode, ho⟩ := cVarMapOk_mem hmap hmem
      rw [huid] at hv
      refine ⟨var, hv, ?_, ?_⟩
      · rw [valTarget_of_root hr ho, hcode]
      · unfold cVarByRoot
        simp only [hr, Option.bind_eq_bind, Option.some_bind, hc, hcv']
    · -- the variable is created
      obtain ⟨haddr, hstor, hnone, hmap1, -, var, rd, hv, hr, hc⟩ := addrOfVar_created hf hp h
      have hapos : 0 < addr := by omega
      have hgl : cv.inst ≠ 0 → mapFind ({ cv with inst := 0 } : CVar) sh.d.cVarMap = none := by
        intro hi
        unfold cVarMapFind at hf
        simp only [if_neg hi, hnone] at hf
        cases hg : mapFind ({ cv with inst := 0 } : CVar) sh.d.cVarMap with
        | none => rfl
        | some v =>
          rw [hg] at hf
          simp only [Option.some.injEq] at hf
          subst hf
          exact absurd (cVarMapOk_mem hmap (mem_of_mapFind hg)).1 hp
      refine ⟨?_, var, by rw [hstor]; exact hv, ?_, ?_⟩
      · have hfind : cVarMapFind sh1.d.cVarMap cv = some addr := by
          unfold cVarMapFind
          simp only
          rw [hmap1, mapFind_mapSet_same]
          by_cases hi : cv.inst = 0
          · rw [if_pos hi]
            rfl
          · rw [if_neg hi, mapFind_mapSet_ne _ _ _ _ _ (by
              intro he
              exact hi (by rw [← he])), hgl hi]
        unfold addrOfVar
        simp only [hfind, Option.bind_eq_bind, Option.some_bind, if_pos hapos]
      · exact valTarget_of_root hr rfl
      · unfold cVarByRoot
        simp only [hr, Option.bind_eq_bind, Option.some_bind, hc, hnone, Option.isNone_none,
          Bool.true_and]
        by_cases hi : cv.inst = 0
        · have : ({ cv with inst := 0 } : CVar) = cv := by
            cases cv
            simp only at hi
            subst hi
            rfl
          rw [this]
          simp
        · rw [hgl hi]
          simp

/-- C24, witness: the automatic variable 1 of the example program, created in a
fresh heap. -/
theorem C24_addrOfVar_again_witness :
    ∃ sh sh1 addr, SymHeapCore.create exListStor = some sh ∧
      sh.addrOfVar 4 exVar = some (sh1, addr) ∧ sh1.addrOfVar 4 exVar = some (sh1, addr) ∧
      sh1.valTarget (fun _ => false) addr = some VT_ON_STACK ∧
      sh1.cVarByRoot addr = some exVar := by
  obtain ⟨sh, hsh⟩ : ∃ sh, SymHeapCore.create exListStor = some sh := ⟨_, rfl⟩
  obtain ⟨p, hp⟩ : ∃ p, sh.addrOfVar 4 exVar = some p := by
    cases hsh
    exact ⟨_, rfl⟩
  have hmap : sh.cVarMapOk = true := by
    cases hsh
    rfl
  have hres := C24_addrOfVar_again sh p.1 4 exVar p.2 hmap hp
  refine ⟨sh, p.1, p.2, hsh, hp, hres.1, ?_, ?_⟩
  · cases hsh
    cases hp
    decide
  · cases hsh
    cases hp
    decide

/-- C24, counterexample: in the heap that holds the static variable 1 as the
global instance, `addrOfVar` of the instance 1 of the same variable returns the
address 3 of the global instance, and `cVarByRoot(3)` is the global instance,
not the variable asked for. -/
theorem C24_counterexample :
    exGlHeap.cVarMapOk = true ∧
    exGlHeap.addrOfVar 4 { uid := 1, inst := 1 } = some (exGlHeap, 3) ∧
    exGlHeap.cVarByRoot 3 = some { uid := 1, inst := 0 } ∧
    exGlHeap.cVarByRoot 3 ≠ some { uid := 1, inst := 1 } := by
  refine ⟨by decide, by decide, by decide, by decide⟩

end SymHeapCore

/-! ## Duplication of a root -/

namespace IHeapEntity

/-- What `skelD` tells about a value entity. -/
theorem skelD_value {e' : IHeapEntity} {b : BaseValue} {x : ValueExt}
    (h : e'.skelD = (IHeapEntity.Value b x).skelD) :
    ∃ b' x', e' = .Value b' x' ∧ b'.code = b.code ∧ b'.origin = b.origin ∧
      b'.offRoot = b.offRoot ∧
      ((∃ rd rd', x = .RootValue rd ∧ x' = .RootValue rd' ∧ rd'.offMap = rd.offMap ∧
          rd'.cbSize = rd.cbSize ∧ rd'.lastKnownClt = rd.lastKnownClt ∧
          rd'.isProto = rd.isProto ∧ rd'.cVar = rd.cVar ∧ rd'.addr = rd.addr) ∨
       ((∀ rd, x ≠ .RootValue rd) ∧ x' = x)) := by
  cases e' with
  | HeapObject o' => cases x <;> cases h
  | Value b' x' =>
    refine ⟨b', x', rfl, ?_⟩
    cases b
    cases b'
    cases x <;> cases x' <;> simp only [skelD, Value.injEq, reduceCtorEq, and_false,
        ValueExt.RootValue.injEq, ValueExt.OffValue.injEq, ValueExt.CompValue.injEq,
        ValueExt.CustomValue.injEq, and_true, BaseValue.mk.injEq] at h
    all_goals first
      | exact ⟨h.1, h.2.1, h.2.2, Or.inr ⟨fun _ hh => ValueExt.noConfusion hh, rfl⟩⟩
      | exact ⟨h.1.1, h.1.2.1, h.1.2.2, Or.inr ⟨fun _ hh => ValueExt.noConfusion hh, by rw [h.2]⟩⟩
      | skip
    rename_i rd rd'
    cases rd
    cases rd'
    simp only [RootValue.mk.injEq, and_true, true_and] at h
    obtain ⟨⟨h1, h2, h3⟩, h4, h5, h6, h7, h8, h9⟩ := h
    exact ⟨h1, h2, h3, Or.inl ⟨_, _, rfl, rfl, h4, h7, h6, h9, h8, h5⟩⟩

theorem skelD_object {e' : IHeapEntity} {o : Predator.HeapObject}
    (h : e'.skelD = (IHeapEntity.HeapObject o).skelD) : ∃ o', e' = .HeapObject o' := by
  cases e' with
  | HeapObject o' => exact ⟨o', rfl⟩
  | Value b' x' => cases x' <;> cases h

theorem skelD_of_skel {e e' : IHeapEntity} (h : e'.skel = e.skel) : e'.skelD = e.skelD := by
  cases e with
  | HeapObject o =>
    cases e' with
    | HeapObject o' => exact h
    | Value b' x' => cases x' <;> cases h
  | Value b x =>
    cases e' with
    | HeapObject o' => cases x <;> cases h
    | Value b' x' =>
      cases x <;> cases x' <;> simp only [skel, skelD, Value.injEq, reduceCtorEq, and_false,
        ValueExt.RootValue.injEq, ValueExt.OffValue.injEq, ValueExt.CompValue.injEq,
        ValueExt.CustomValue.injEq, and_true] at h ⊢
      all_goals first
        | exact h
        | skip
      rename_i rd rd'
      refine ⟨h.1, ?_⟩
      have h2 := h.2
      cases rd
      cases rd'
      simp only [RootValue.mk.injEq, and_true, true_and] at h2 ⊢
      tauto

end IHeapEntity

namespace SymHeapCore.Private

theorem DupStep.drefl (imageAt : Int) (d : Private) : DupStep imageAt d d :=
  ⟨le_refl _, fun _ _ h => h, fun _ e h => ⟨e, h, rfl⟩, fun _ _ h => h⟩

theorem DupStep.dtrans {imageAt : Int} {d1 d2 d3 : Private} (h12 : DupStep imageAt d1 d2)
    (h23 : DupStep imageAt d2 d3) : DupStep imageAt d1 d3 := by
  obtain ⟨a1, b1, c1, e1⟩ := h12
  obtain ⟨a2, b2, c2, e2⟩ := h23
  refine ⟨le_trans a1 a2, fun j o h => b2 j o (b1 j o h), ?_, fun k f h => e2 k f (e1 k f h)⟩
  intro j e he
  obtain ⟨e', he', hs'⟩ := c1 j e he
  obtain ⟨e'', he'', hs''⟩ := c2 j e' he'
  exact ⟨e'', he'', hs''.trans hs'⟩

theorem DupStep.dvalData {imageAt : Int} {d d' : Private} (h : DupStep imageAt d d') {v : Int}
    {b : BaseValue} {x : ValueExt} (hv : d.valData v = some (b, x)) :
    ∃ b' x', d'.valData v = some (b', x') ∧ b'.code = b.code ∧ b'.origin = b.origin ∧
      b'.offRoot = b.offRoot ∧
      ((∃ rd rd', x = .RootValue rd ∧ x' = .RootValue rd' ∧ rd'.offMap = rd.offMap ∧
          rd'.cbSize = rd.cbSize ∧ rd'.lastKnownClt = rd.lastKnownClt ∧
          rd'.isProto = rd.isProto ∧ rd'.cVar = rd.cVar ∧ rd'.addr = rd.addr) ∨
       ((∀ rd, x ≠ .RootValue rd) ∧ x' = x)) := by
  obtain ⟨hpos, hent⟩ := valData_eq_some.mp hv
  obtain ⟨e', he', hs⟩ := h.2.2.1 v _ hent
  obtain ⟨b', x', rfl, hrest⟩ := IHeapEntity.skelD_value hs
  exact ⟨b', x', valData_eq_some.mpr ⟨hpos, he'⟩, hrest⟩

theorem DupStep.drootData {imageAt : Int} {d d' : Private} (h : DupStep imageAt d d') {v : Int}
    {b : BaseValue} {rd : RootValue} (hv : d.rootData v = some (b, rd)) :
    ∃ b' rd', d'.rootData v = some (b', rd') ∧ b'.code = b.code ∧ b'.origin = b.origin ∧
      b'.offRoot = b.offRoot ∧ rd'.offMap = rd.offMap ∧
      rd'.cbSize = rd.cbSize ∧ rd'.lastKnownClt = rd.lastKnownClt ∧
      rd'.isProto = rd.isProto ∧ rd'.cVar = rd.cVar ∧ rd'.addr = rd.addr := by
  obtain ⟨b', x', hv', hc, ho, hf, hx⟩ := h.dvalData (valData_of_rootData hv)
  rcases hx with ⟨rd0, rd', h1, h2, h3⟩ | ⟨h1, -⟩
  · cases h1
    subst h2
    exact ⟨b', rd', rootData_of_valData hv', hc, ho, hf, h3⟩
  · exact absurd rfl (h1 rd)

theorem DupStep.dstorable {imageAt : Int} {d d' : Private} (h : DupStep imageAt d d') {val : Int}
    (hs : Storable d val) : Storable d' val := by
  intro hpos
  obtain ⟨wb, wx, hv, hd⟩ := hs hpos
  obtain ⟨b', x', hv', hc, -, hf, hx⟩ := h.dvalData hv
  refine ⟨b', x', hv', ?_⟩
  intro hderef
  rw [hc] at hderef
  obtain ⟨Rw, hroot, hrd⟩ := hd hderef
  obtain ⟨⟨rb, rd⟩, hrd⟩ := Option.isSome_iff_exists.mp hrd
  obtain ⟨rb', rd', hrd', -⟩ := h.drootData hrd
  refine ⟨Rw, ?_, by rw [hrd']; rfl⟩
  unfold valRootOf at hroot ⊢
  simp only [hf]
  simp only at hroot
  by_cases h0 : wb.offRoot = 0
  · rw [if_pos h0] at hroot ⊢
    exact hroot
  · rw [if_neg h0] at hroot ⊢
    rcases hx with ⟨rd0, rd1, h1, -⟩ | ⟨-, h2⟩
    · subst h1
      cases hroot
    · subst h2
      cases x' with
      | OffValue R =>
        simp only at hroot ⊢
        have hin : d'.valOutOfRange Rw = false :=
          valOutOfRange_of_valData (by rw [valData_of_rootData hrd']; rfl)
        split at hroot
        · cases hroot
        · cases hroot
          rw [hin]
          rfl
      | _ => cases hroot

/-- The entity store with one more slot. -/
theorem DupStep.dpushEnt (imageAt : Int) (d : Private) (e : IHeapEntity) :
    DupStep imageAt d (d.pushEnt e) := by
  refine ⟨by rw [length_pushEnt]; omega, fun j o h => objData_pushEnt_of_some _ h,
    fun j e0 h => ⟨e0, ent_pushEnt_of_some _ h, rfl⟩, ?_⟩
  intro k f h
  have : (d.pushEnt e).liveAt imageAt = d.liveAt imageAt ∨ d.liveAt imageAt = [] := by
    unfold liveAt
    cases he : d.ent imageAt with
    | none => exact Or.inr rfl
    | some e0 => rw [ent_pushEnt_of_some _ he]; exact Or.inl rfl
  rcases this with h1 | h1
  · rw [h1]; exact h
  · rw [h1] at h; cases h

end SymHeapCore.Private

namespace SymHeapCore.Private

/-- A fresh object takes any value that can be stored. -/
theorem setValueOf_fresh {d1 : Private} {dst val : Int} (hobj : d1.objData dst = some {})
    (hst : Storable d1 val) :
    ∃ Rw dw, d1.setValueOf dst val = some (d1.written dst val Rw dw) := by
  have hrel : d1.releaseValueOf dst ({} : HeapObject).value = some d1 := by
    unfold releaseValueOf
    rfl
  by_cases hpos : 0 < val
  · obtain ⟨wb, wx, hv, hd⟩ := hst hpos
    by_cases hderef : isPossibleToDeref wb.code = true
    · obtain ⟨Rw, hr, hrd⟩ := hd hderef
      exact ⟨Rw, _, setValueOf_eq hobj hrel hobj (fun _ => ⟨hv, fun _ => ⟨hr, hrd⟩⟩)⟩
    · exact ⟨0, _, @setValueOf_eq _ _ _ _ 0 _ _ _ hobj hrel hobj
        (fun _ => ⟨hv, fun h => absurd h hderef⟩)⟩
  · exact ⟨0, false, @setValueOf_eq _ _ _ _ 0 _ { code := VT_INVALID, origin := VO_INVALID }
      .BaseValue hobj hrel hobj (fun h => absurd h hpos)⟩

theorem SameSkel.ent_some {d d' : Private} (h : SameSkel d d') {j : Int} {e : IHeapEntity}
    (he : d.ent j = some e) : ∃ e', d'.ent j = some e' ∧ e'.skel = e.skel := by
  have := h.2 j
  rw [he] at this
  cases he' : d'.ent j with
  | none => rw [he'] at this; cases this
  | some e' =>
    rw [he'] at this
    simp only [Option.map_some', Option.some.injEq] at this
    exact ⟨e', rfl, this⟩

/-- One round of the loop of `objDup`. -/
theorem objDupLoop_cons {d : Private} (liveSrc : TLiveObjs) {imageAt src : Int}
    (rest : List Int) {rb : BaseValue} {rd : RootValue} {o : HeapObject}
    (hroot : d.rootData imageAt = some (rb, rd)) (hlb : LiveBound imageAt d)
    (ho : d.objData src = some o) (hst : Storable d o.value) :
    ∃ d4, d.objDupLoop liveSrc imageAt (src :: rest) = d4.objDupLoop liveSrc imageAt rest ∧
      DupStep imageAt d d4 ∧ LiveBound imageAt d4 ∧
      d4.objData d.ents.length
        = some { value := o.value, root := imageAt, off := o.off, clt := o.clt } ∧
      (∀ f, mapFind src liveSrc = some f →
        mapFind (d.ents.length : Int) (d4.liveAt imageAt) = some f) := by
  have hposI := (rootData_eq_some.mp hroot).1
  have hentI := (rootData_eq_some.mp hroot).2
  have hltI := (ent_eq_some hentI).2.1
  have hlen0 : (0 : Int) ≤ d.ents.length := by omega
  have hstep1 := DupStep.dpushEnt imageAt d (.HeapObject {})
  have hobj1 : (d.pushEnt (.HeapObject {})).objData d.ents.length = some {} :=
    objData_eq_some.mpr (ent_pushEnt_last _ _)
  obtain ⟨Rw, dw, hset⟩ := setValueOf_fresh hobj1 (hstep1.dstorable hst)
  have hobj2 := objData_written_same o.value Rw dw hobj1
  have hskel := SameSkel.written (d.pushEnt (.HeapObject {})) d.ents.length o.value Rw dw
  have hlen2 : ((d.pushEnt (.HeapObject {})).written d.ents.length o.value Rw dw).ents.length
      = d.ents.length + 1 := by
    rw [hskel.1, length_pushEnt]
  obtain ⟨rb2, rd2, hroot2, -⟩ := hskel.rootData
    (rootData_eq_some.mpr ⟨hposI, ent_pushEnt_of_some _ hentI⟩ :
      (d.pushEnt (.HeapObject {})).rootData imageAt = some (rb, rd))
  have hlive2 : rd2.liveObjs = d.liveAt imageAt := by
    rw [← liveAt_of_rootData hroot2, liveAt_written]
    unfold liveAt
    rw [ent_pushEnt_of_some _ hentI, hentI]
  have hent2 := (rootData_eq_some.mp hroot2).2
  have hroot3 : (((d.pushEnt (.HeapObject {})).written d.ents.length o.value Rw dw).setEnt
      d.ents.length (.HeapObject
        { value := o.value, root := imageAt, off := o.off, clt := o.clt })).rootData imageAt
      = some (rb2, rd2) := by
    apply rootData_eq_some.mpr
    refine ⟨hposI, ?_⟩
    rw [ent_setEnt_ne _ hlen0 (by omega)]
    exact hent2
  have hent3 : ∀ j, j ≠ (d.ents.length : Int) →
      (((d.pushEnt (.HeapObject {})).written d.ents.length o.value Rw dw).setEnt
        d.ents.length (.HeapObject
          { value := o.value, root := imageAt, off := o.off, clt := o.clt })).ent j
      = ((d.pushEnt (.HeapObject {})).written d.ents.length o.value Rw dw).ent j :=
    fun j hj => ent_setEnt_ne _ hlen0 hj
  have hent3s : (((d.pushEnt (.HeapObject {})).written d.ents.length o.value Rw dw).setEnt
        d.ents.length (.HeapObject
          { value := o.value, root := imageAt, off := o.off, clt := o.clt })).ent d.ents.length
      = some (.HeapObject { value := o.value, root := imageAt, off := o.off, clt := o.clt }) :=
    ent_setEnt_same _ hlen0 (by rw [hlen2]; push_cast; omega)
  generalize hd3 : (((d.pushEnt (.HeapObject {})).written d.ents.length o.value Rw dw).setEnt
      d.ents.length (.HeapObject
        { value := o.value, root := imageAt, off := o.off, clt := o.clt })) = d3
    at hroot3 hent3 hent3s
  have hlen3 : d3.ents.length = d.ents.length + 1 := by
    rw [← hd3, length_setEnt, hlen2]
  obtain ⟨live1, hlive1⟩ : ∃ l, l = (match mapFind src liveSrc with
      | some isPtr => mapSet intLt (d.ents.length : Int) isPtr rd2.liveObjs
      | none => rd2.liveObjs) := ⟨_, rfl⟩
  have hent4 : ∀ j, j ≠ imageAt →
      (d3.setEnt imageAt (.Value rb2 (.RootValue { rd2 with
        liveObjs := live1, allObjs := rd2.allObjs ++ [(d.ents.length : Int)],
        grid := gridSet rd2.grid o.off o.clt d.ents.length }))).ent j = d3.ent j :=
    fun j hj => ent_setEnt_ne _ (by omega) hj
  have hroot4 : (d3.setEnt imageAt (.Value rb2 (.RootValue { rd2 with
        liveObjs := live1, allObjs := rd2.allObjs ++ [(d.ents.length : Int)],
        grid := gridSet rd2.grid o.off o.clt d.ents.length }))).rootData imageAt
      = some (rb2, { rd2 with
        liveObjs := live1, allObjs := rd2.allObjs ++ [(d.ents.length : Int)],
        grid := gridSet rd2.grid o.off o.clt d.ents.length }) :=
    rootData_eq_some.mpr ⟨hposI, ent_setEnt_same _ (by omega) (by rw [hlen3]; push_cast; omega)⟩
  have hlive4 := liveAt_of_rootData hroot4
  simp only at hlive4
  have hfind : ∀ k f, mapFind k (d.liveAt imageAt) = some f → mapFind k live1 = some f := by
    intro k f hk
    have hkl := hlb k f hk
    rw [hlive1]
    cases mapFind src liveSrc with
    | none => simp only; rw [hlive2]; exact hk
    | some isPtr =>
      simp only
      rw [mapFind_mapSet_ne _ _ _ _ _ (by omega), hlive2]
      exact hk
  refine ⟨d3.setEnt imageAt (.Value rb2 (.RootValue { rd2 with
        liveObjs := live1, allObjs := rd2.allObjs ++ [(d.ents.length : Int)],
        grid := gridSet rd2.grid o.off o.clt d.ents.length })), ?_, ?_, ?_, ?_, ?_⟩
  · rw [objDupLoop]
    simp only [ho, Option.bind_eq_bind, Option.some_bind, Private.objCreate, lastId_pushEnt,
      hset, hobj2]
    rw [hd3]
    simp only [hroot3, Option.some_bind]
    rw [hlive1]
  · refine ⟨by rw [length_setEnt, hlen3]; omega, ?_, ?_, ?_⟩
    · intro j o' hj
      have hje := objData_eq_some.mp hj
      have hjl := (ent_eq_some hje).2.1
      have hjI : j ≠ imageAt := by
        intro h
        rw [h, hentI] at hje
        cases hje
      apply objData_eq_some.mpr
      rw [hent4 j hjI, hent3 j (by omega)]
      exact objData_eq_some.mp
        (objData_written_ne o.value Rw dw (by omega) (objData_pushEnt_of_some _ hj))
    · intro j e hj
      have hjl := (ent_eq_some hj).2.1
      obtain ⟨e2, he2, hs2⟩ := hskel.ent_some (ent_pushEnt_of_some (.HeapObject {}) hj)
      by_cases hjI : j = imageAt
      · subst hjI
        rw [hent2] at he2
        cases he2
        exact ⟨_, (rootData_eq_some.mp hroot4).2,
          (Eq.trans (b := (IHeapEntity.Value rb2 (.RootValue rd2)).skelD) rfl
              (IHeapEntity.skelD_of_skel hs2) :
            (IHeapEntity.Value rb2 (.RootValue { rd2 with
              liveObjs := live1, allObjs := rd2.allObjs ++ [(d.ents.length : Int)],
              grid := gridSet rd2.grid o.off o.clt d.ents.length })).skelD = e.skelD)⟩
      · refine ⟨e2, ?_, IHeapEntity.skelD_of_skel hs2⟩
        rw [hent4 j hjI, hent3 j (by omega)]
        exact he2
    · intro k f hk
      rw [hlive4]
      exact hfind k f hk
  · intro k f hk
    rw [hlive4] at hk
    rw [length_setEnt, hlen3]
    by_cases hkd : k = (d.ents.length : Int)
    · push_cast
      omega
    · have : mapFind k (d.liveAt imageAt) = some f := by
        rw [hlive1] at hk
        cases hm : mapFind src liveSrc with
        | none =>
          rw [hm] at hk
          simp only at hk
          rw [← hlive2]
          exact hk
        | some isPtr =>
          rw [hm] at hk
          simp only at hk
          rw [mapFind_mapSet_ne _ _ _ _ _ hkd] at hk
          rw [← hlive2]
          exact hk
      have := hlb k f this
      push_cast
      omega
  · apply objData_eq_some.mpr
    rw [hent4 _ (by omega)]
    exact hent3s
  · intro f hf
    rw [hlive4, hlive1, hf]
    exact mapFind_mapSet_same _ _ _ _

end SymHeapCore.Private

namespace SymHeapCore.Private

/-- The loop of `objDup` returns, and every live source object has its live
copy under the clone. -/
theorem objDupLoop_spec (liveSrc : TLiveObjs) (imageAt : Int) :
    ∀ (srcs : List Int) (d : Private),
      (d.rootData imageAt).isSome = true → LiveBound imageAt d →
      (∀ s ∈ srcs, ∃ o, d.objData s = some o ∧ Storable d o.value) →
      ∃ d', d.objDupLoop liveSrc imageAt srcs = some d' ∧ DupStep imageAt d d' ∧
        LiveBound imageAt d' ∧
        ∀ s ∈ srcs, ∀ o f, d.objData s = some o → mapFind s liveSrc = some f →
          ∃ dst, mapFind dst (d'.liveAt imageAt) = some f ∧
            d'.objData dst
              = some { value := o.value, root := imageAt, off := o.off, clt := o.clt } := by
  intro srcs
  induction srcs with
  | nil =>
    intro d _ hlb _
    exact ⟨d, rfl, DupStep.drefl _ _, hlb, fun s hs => absurd hs (List.not_mem_nil s)⟩
  | cons src rest ih =>
    intro d hroot hlb hsrc
    obtain ⟨⟨rb, rd⟩, hrd⟩ := Option.isSome_iff_exists.mp hroot
    obtain ⟨o0, ho0, hst0⟩ := hsrc src (List.mem_cons_self _ _)
    obtain ⟨d4, heq, hstep, hlb4, hobj4, hlive4⟩ := objDupLoop_cons liveSrc rest hrd hlb ho0 hst0
    obtain ⟨rb4, rd4, hrd4, -⟩ := hstep.drootData hrd
    obtain ⟨d', hrun, hstep', hlb', hres⟩ := ih d4 (by rw [hrd4]; rfl) hlb4 (by
      intro s hs
      obtain ⟨o, ho, hst⟩ := hsrc s (List.mem_cons_of_mem _ hs)
      exact ⟨o, hstep.2.1 s o ho, hstep.dstorable hst⟩)
    refine ⟨d', heq.trans hrun, hstep.dtrans hstep', hlb', ?_⟩
    intro s hs o f ho hf
    rcases List.mem_cons.mp hs with h1 | h1
    · subst h1
      rw [ho0] at ho
      cases ho
      exact ⟨d.ents.length, hstep'.2.2.2 _ _ (hlive4 f hf), hstep'.2.1 _ _ hobj4⟩
    · exact hres s h1 o f (hstep.2.1 s o ho) hf

theorem valCreate_deref (d : Private) {code : EValueTarget} (origin : EValueOrigin)
    (h : isPossibleToDeref code = true) (hna : code ≠ VT_ABSTRACT) :
    d.valCreate code origin
      = some (d.pushEnt (.Value { code := code, origin := origin } (.RootValue {})),
          (d.ents.length : Int)) := by
  cases code <;> first
    | exact absurd rfl hna
    | exact absurd h (by decide)
    | simp [valCreate, lastId_pushEnt]

/-- The member `objDup` on a root that is possible to dereference: the clone is
the value in the second new slot, a root of the same target code, size, type and
prototype flag with an empty `offMap`, and every live object of the source root
has a live copy under the clone. -/
theorem objDup_spec {d : Private} {rootAt : Int} {rb : BaseValue} {rd : RootValue}
    (hroot : d.rootData rootAt = some (rb, rd)) (hderef : isPossibleToDeref rb.code = true)
    (hna : rb.code ≠ VT_ABSTRACT)
    (hsrc : ∀ s ∈ rd.allObjs, ∃ o, d.objData s = some o ∧ Storable d o.value) :
    ∃ d' rb' rd', d.objDup rootAt = some (d', (d.ents.length : Int) + 1) ∧
      DupStep ((d.ents.length : Int) + 1) d d' ∧
      d'.rootData ((d.ents.length : Int) + 1) = some (rb', rd') ∧
      rb'.code = rb.code ∧ rb'.offRoot = 0 ∧ rd'.offMap = [] ∧ rd'.cbSize = rd.cbSize ∧
      rd'.lastKnownClt = rd.lastKnownClt ∧ rd'.isProto = rd.isProto ∧
      ∀ s ∈ rd.allObjs, ∀ o f, d.objData s = some o → mapFind s rd.liveObjs = some f →
        ∃ dst, mapFind dst rd'.liveObjs = some f ∧
          d'.objData dst = some
            { value := o.value, root := (d.ents.length : Int) + 1, off := o.off, clt := o.clt } := by
  have hlen0 : (0 : Int) ≤ d.ents.length := by omega
  have hobj1 : (d.pushEnt (.HeapObject {})).objData d.ents.length = some {} :=
    objData_eq_some.mpr (ent_pushEnt_last _ _)
  have hroot2 : ((d.pushEnt (.HeapObject {})).pushEnt
      (.Value { code := rb.code, origin := VO_ASSIGNED } (.RootValue {}))).rootData
        ((d.ents.length : Int) + 1)
      = some ({ code := rb.code, origin := VO_ASSIGNED }, {}) := by
    apply rootData_eq_some.mpr
    refine ⟨by omega, ?_⟩
    have := ent_pushEnt_last (d.pushEnt (.HeapObject {}))
      (.Value { code := rb.code, origin := VO_ASSIGNED } (.RootValue {}))
    rw [length_pushEnt] at this
    push_cast at this
    exact this
  -- the state before the loop
  obtain ⟨d5, hd5⟩ : ∃ d5 : Private, d5 =
      { ((((d.pushEnt (.HeapObject {})).pushEnt
          (.Value { code := rb.code, origin := VO_ASSIGNED } (.RootValue {}))).setEnt
          d.ents.length (.HeapObject { ({} : HeapObject) with
            clt := rd.lastKnownClt, root := (d.ents.length : Int) + 1 })).setEnt
          ((d.ents.length : Int) + 1)
          (.Value { code := rb.code, origin := VO_ASSIGNED }
            (.RootValue { ({} : RootValue) with
              addr := (d.ents.length : Int) + 1,
              grid := gridSet ({} : RootValue).grid 0 rd.lastKnownClt d.ents.length,
              cVar := rd.cVar, isProto := rd.isProto, cbSize := rd.cbSize,
              lastKnownClt := rd.lastKnownClt,
              allObjs := ({} : RootValue).allObjs ++ [(d.ents.length : Int)] }))) with
        liveRoots := setInsert intLt ((d.ents.length : Int) + 1)
          ((((d.pushEnt (.HeapObject {})).pushEnt
          (.Value { code := rb.code, origin := VO_ASSIGNED } (.RootValue {}))).setEnt
          d.ents.length (.HeapObject { ({} : HeapObject) with
            clt := rd.lastKnownClt, root := (d.ents.length : Int) + 1 })).setEnt
          ((d.ents.length : Int) + 1)
          (.Value { code := rb.code, origin := VO_ASSIGNED }
            (.RootValue { ({} : RootValue) with
              addr := (d.ents.length : Int) + 1,
              grid := gridSet ({} : RootValue).grid 0 rd.lastKnownClt d.ents.length,
              cVar := rd.cVar, isProto := rd.isProto, cbSize := rd.cbSize,
              lastKnownClt := rd.lastKnownClt,
              allObjs := ({} : RootValue).allObjs ++ [(d.ents.length : Int)] }))).liveRoots } :=
    ⟨_, rfl⟩
  have hrun : d.objDup rootAt
      = (d5.objDupLoop rd.liveObjs ((d.ents.length : Int) + 1) rd.allObjs).bind
          (fun d6 => some (d6, (d.ents.length : Int) + 1)) := by
    unfold objDup
    simp only [hroot, Option.bind_eq_bind, Option.some_bind, Private.objCreate, lastId_pushEnt,
      hobj1, valCreate_deref _ _ hderef hna, length_pushEnt, Nat.cast_add, Nat.cast_one, hroot2]
    rw [hd5]
  have hent5 : ∀ j e, d.ent j = some e → d5.ent j = some e := by
    intro j e he
    have hjl := (ent_eq_some he).2.1
    rw [hd5]
    show (Private.setEnt _ _ _).ent j = some e
    rw [ent_setEnt_ne _ (by omega) (by omega), ent_setEnt_ne _ hlen0 (by omega)]
    exact ent_pushEnt_of_some _ (ent_pushEnt_of_some _ he)
  have hroot5 : d5.rootData ((d.ents.length : Int) + 1)
      = some ({ code := rb.code, origin := VO_ASSIGNED },
          { ({} : RootValue) with
              addr := (d.ents.length : Int) + 1,
              grid := gridSet ({} : RootValue).grid 0 rd.lastKnownClt d.ents.length,
              cVar := rd.cVar, isProto := rd.isProto, cbSize := rd.cbSize,
              lastKnownClt := rd.lastKnownClt,
              allObjs := ({} : RootValue).allObjs ++ [(d.ents.length : Int)] }) := by
    apply rootData_eq_some.mpr
    refine ⟨by omega, ?_⟩
    rw [hd5]
    show (Private.setEnt _ _ _).ent _ = _
    apply ent_setEnt_same _ (by omega)
    rw [length_setEnt, length_pushEnt, length_pushEnt]
    push_cast
    omega
  have hnone : d.ent ((d.ents.length : Int) + 1) = none := by
    cases he : d.ent ((d.ents.length : Int) + 1) with
    | none => rfl
    | some e =>
      have := (ent_eq_some he).2.1
      omega
  have hstep5 : DupStep ((d.ents.length : Int) + 1) d d5 := by
    refine ⟨?_, fun j o h => objData_eq_some.mpr (hent5 j _ (objData_eq_some.mp h)),
      fun j e h => ⟨e, hent5 j e h, rfl⟩, ?_⟩
    · rw [hd5]
      show _ ≤ (Private.setEnt _ _ _).ents.length
      rw [length_setEnt, length_setEnt, length_pushEnt, length_pushEnt]
      omega
    · intro k f hk
      unfold liveAt at hk
      rw [hnone] at hk
      cases hk
  have hlb5 : LiveBound ((d.ents.length : Int) + 1) d5 := by
    intro k f hk
    rw [liveAt_of_rootData hroot5] at hk
    cases hk
  obtain ⟨d6, hloop, hstep6, -, hres⟩ := objDupLoop_spec rd.liveObjs ((d.ents.length : Int) + 1)
    rd.allObjs d5 (by rw [hroot5]; rfl) hlb5 (by
      intro s hs
      obtain ⟨o, ho, hst⟩ := hsrc s hs
      exact ⟨o, hstep5.2.1 s o ho, hstep5.dstorable hst⟩)
  obtain ⟨rb6, rd6, hroot6, hc6, -, hf6, hm6, hcb6, hclt6, hp6, -⟩ := hstep6.drootData hroot5
  refine ⟨d6, rb6, rd6, ?_, hstep5.dtrans hstep6, hroot6, hc6, hf6, hm6, hcb6, hclt6, hp6, ?_⟩
  · rw [hrun, hloop]
    rfl
  · intro s hs o f ho hf
    obtain ⟨dst, h1, h2⟩ := hres s hs o f (hstep5.2.1 s o ho) hf
    rw [liveAt_of_rootData hroot6] at h1
    exact ⟨dst, h1, h2⟩

end SymHeapCore.Private

namespace SymHeapCore

open SymHeapCore.Private

theorem DupStep.dvalRoot {imageAt : Int} {d d' : Private} (h : DupStep imageAt d d') {v R : Int}
    {b : BaseValue} {x : ValueExt} (hv : d.valData v = some (b, x))
    (hroot : d.valRootOf v (b, x) = some R) (hR : (d.valData R).isSome = true) :
    d'.valRoot v = some R := by
  obtain ⟨b', x', hv', -, -, hf, hx⟩ := h.dvalData hv
  obtain ⟨⟨rb, rx⟩, hR⟩ := Option.isSome_iff_exists.mp hR
  obtain ⟨rb', rx', hR', -⟩ := h.dvalData hR
  unfold Private.valRoot
  simp only [hv', Option.bind_eq_bind, Option.some_bind]
  unfold valRootOf at hroot ⊢
  simp only [hf]
  simp only at hroot
  by_cases h0 : b.offRoot = 0
  · rw [if_pos h0] at hroot ⊢
    exact hroot
  · rw [if_neg h0] at hroot ⊢
    rcases hx with ⟨rd0, rd1, h1, -⟩ | ⟨-, h2⟩
    · subst h1
      cases hroot
    · subst h2
      cases x' with
      | OffValue R0 =>
        simp only at hroot ⊢
        have hin : d'.valOutOfRange R = false :=
          valOutOfRange_of_valData (by rw [hR']; rfl)
        split at hroot
        · cases hroot
        · cases hroot
          rw [hin]
          rfl
      | _ => cases hroot

/-- The member `valClone` on a value whose target and whose root's target are
possible to dereference. -/
theorem valClone_deref {sh : SymHeapCore} {v R : Int} {b rb : BaseValue} {x : ValueExt}
    {rd : RootValue} (hv : sh.d.valData v = some (b, x))
    (hb : isPossibleToDeref b.code = true) (hroot : sh.d.valRootOf v (b, x) = some R)
    (hrd : sh.d.rootData R = some (rb, rd)) (hderef : isPossibleToDeref rb.code = true)
    (hna : rb.code ≠ VT_ABSTRACT)
    (hsrc : ∀ s ∈ rd.allObjs, ∃ o, sh.d.objData s = some o ∧ Storable sh.d o.value) :
    ∃ sh1 dup rb' rd', sh.valClone v = some (sh1, dup) ∧ 0 < dup ∧
      DupStep ((sh.d.ents.length : Int) + 1) sh.d sh1.d ∧
      sh1.valOffset dup = some b.offRoot ∧
      sh1.d.valRoot dup = some ((sh.d.ents.length : Int) + 1) ∧
      sh1.d.rootData ((sh.d.ents.length : Int) + 1) = some (rb', rd') ∧
      rb'.code = rb.code ∧ rd'.cbSize = rd.cbSize ∧
      rd'.lastKnownClt = rd.lastKnownClt ∧ rd'.isProto = rd.isProto ∧
      ∀ s ∈ rd.allObjs, ∀ o f, sh.d.objData s = some o → mapFind s rd.liveObjs = some f →
        ∃ dst, mapFind dst rd'.liveObjs = some f ∧
          sh1.d.objData dst = some
            { value := o.value, root := (sh.d.ents.length : Int) + 1, off := o.off,
              clt := o.clt } := by
  obtain ⟨d6, rb6, rd6, hdup, hstep, hroot6, hc6, hf6, hm6, hcb6, hclt6, hp6, hres⟩ :=
    objDup_spec hrd hderef hna hsrc
  have hposI : (0 : Int) < (sh.d.ents.length : Int) + 1 := by omega
  have hrun : sh.valClone v
      = valByOffset { sh with d := d6 } ((sh.d.ents.length : Int) + 1) b.offRoot := by
    unfold valClone
    simp only [hv, Option.bind_eq_bind, Option.some_bind, hb, Bool.not_true, Bool.false_eq_true,
      if_false, hroot, hdup]
  have hvd6 := valData_of_rootData hroot6
  have hderef6 : isPossibleToDeref rb6.code = true := by rw [hc6]; exact hderef
  by_cases ho : b.offRoot = 0
  · refine ⟨{ sh with d := d6 }, (sh.d.ents.length : Int) + 1, rb6, rd6, ?_, hposI, hstep, ?_, ?_,
      hroot6, hc6, hcb6, hclt6, hp6, hres⟩
    · rw [hrun, ho]
      exact valByOffset_zero _ _
    · unfold valOffset
      rw [if_neg (by omega)]
      simp only [hvd6, Option.bind_eq_bind, Option.some_bind, hf6, ho]
    · unfold Private.valRoot
      simp only [hvd6, Option.bind_eq_bind, Option.some_bind, valRootOf, hf6, if_true]
  · have hnew := @valByOffset_root_new { sh with d := d6 } _ _ _ hroot6 hf6 hderef6 _ ho
      (by rw [hm6]; rfl)
    have hlenI := (ent_eq_some (rootData_eq_some.mp hroot6).2).2.1
    have hvnew := @valData_withOffValue_new { sh with d := d6 } _ _ _ hroot6 b.offRoot
    have hrnew := @rootData_withOffValue_root { sh with d := d6 } _ _ _ hroot6 b.offRoot
    have hentO : ∀ j e, d6.ent j = some e → j ≠ (sh.d.ents.length : Int) + 1 →
        (withOffValue { sh with d := d6 } ((sh.d.ents.length : Int) + 1) rb6 rd6
          b.offRoot).d.ent j = some e := by
      intro j e he hj
      simp only [withOffValue]
      rw [ent_setEnt_ne _ (by omega) hj]
      exact ent_pushEnt_of_some _ he
    refine ⟨_, _, rb6, _, hrun.trans hnew, ?_, ?_, ?_, ?_, hrnew, hc6, hcb6, hclt6, hp6, ?_⟩
    · show (0 : Int) < (d6.ents.length : Int)
      omega
    · refine ⟨?_, ?_, ?_, ?_⟩
      · simp only [withOffValue, length_setEnt, length_pushEnt]
        have := hstep.1
        omega
      · intro j o hj
        have hj6 := objData_eq_some.mp (hstep.2.1 j o hj)
        apply objData_eq_some.mpr
        apply hentO j _ hj6
        intro h
        rw [h, (rootData_eq_some.mp hroot6).2] at hj6
        cases hj6
      · intro j e hj
        have hjl := (ent_eq_some hj).2.1
        obtain ⟨e', he', hs'⟩ := hstep.2.2.1 j e hj
        exact ⟨e', hentO j e' he' (by omega), hs'⟩
      · intro k f hk
        have hnone : sh.d.ent ((sh.d.ents.length : Int) + 1) = none := by
          cases he : sh.d.ent ((sh.d.ents.length : Int) + 1) with
          | none => rfl
          | some e =>
            have := (ent_eq_some he).2.1
            omega
        unfold liveAt at hk
        rw [hnone] at hk
        cases hk
    · unfold valOffset
      rw [if_neg (by show ¬ (d6.ents.length : Int) ≤ 0; omega)]
      simp only [hvnew, Option.bind_eq_bind, Option.some_bind]
    · unfold Private.valRoot
      simp only [hvnew, Option.bind_eq_bind, Option.some_bind, valRootOf, ho, if_false]
      rw [valOutOfRange_of_valData (by rw [valData_of_rootData hrnew]; rfl)]
      rfl
    · intro s hs o f ho' hf
      obtain ⟨dst, h1, h2⟩ := hres s hs o f ho' hf
      refine ⟨dst, h1, ?_⟩
      have h2e := objData_eq_some.mp h2
      apply objData_eq_some.mpr
      apply hentO dst _ h2e
      intro h
      rw [h, (rootData_eq_some.mp hroot6).2] at h2e
      cases h2e

end SymHeapCore

namespace SymHeapCore

open SymHeapCore.Private

/-- What a target that is possible to dereference tells about the value, in a
heap whose offset bookkeeping is intact. -/
theorem deref_facts {sh : SymHeapCore} (hoff : sh.d.OffInv = true) {v R : Int}
    {code : EValueTarget} {rb : BaseValue} {rd : RootValue}
    (hv : sh.valTarget (fun _ => false) v = some code) (hderef : isPossibleToDeref code = true)
    (hR : sh.valRoot v = some R) (hrd : sh.d.rootData R = some (rb, rd)) :
    0 < v ∧ ∃ b x, sh.d.valData v = some (b, x) ∧ isPossibleToDeref b.code = true ∧
      sh.d.valRootOf v (b, x) = some R ∧ isPossibleToDeref rb.code = true ∧
      rb.code ≠ VT_ABSTRACT := by
  have hpos : 0 < v := by
    by_contra hn
    unfold valTarget at hv
    rw [if_pos (by omega)] at hv
    cases hv
    exact absurd hderef (by decide)
  refine ⟨hpos, ?_⟩
  unfold valTarget at hv
  rw [if_neg (by omega)] at hv
  simp only [Bool.false_eq_true, if_false, Option.bind_eq_bind] at hv
  unfold valRoot at hR
  rw [if_neg (by omega)] at hR
  unfold Private.valRoot at hR
  cases hvd : sh.d.valData v with
  | none => simp [hvd] at hv
  | some p =>
    obtain ⟨b, x⟩ := p
    simp only [hvd, Option.some_bind, Option.bind_eq_bind] at hv hR
    have hrootok := entOffOk_of_inv hoff R
    unfold entOffOk at hrootok
    rw [(rootData_eq_some.mp hrd).2] at hrootok
    simp only [Bool.and_eq_true, decide_eq_true_eq] at hrootok
    have hna : rb.code ≠ VT_ABSTRACT := by
      intro h
      have := hrootok.1.2
      rw [h] at this
      exact absurd this (by decide)
    have hRvd := valData_of_rootData hrd
    split at hv
    · cases hv
      exact absurd hderef (by decide)
    · split at hv
      · rename_i hcond
        cases hv
        simp only [Bool.or_eq_true, Bool.not_eq_true', decide_eq_true_eq] at hcond
        rcases hcond with hc | hc
        · rw [hc] at hderef
          cases hderef
        · have hR' := hR
          unfold valRootOf at hR'
          simp only [hc, if_true, Option.some.injEq] at hR'
          subst hR'
          rw [hvd] at hRvd
          cases hRvd
          exact ⟨_, _, rfl, hderef, hR, hderef, hna⟩
      · rename_i hcond
        simp only [Bool.or_eq_true, Bool.not_eq_true', decide_eq_true_eq, not_or,
          Bool.not_eq_false] at hcond
        simp only [hR, Option.some_bind, hRvd, Option.some.injEq] at hv
        exact ⟨_, _, rfl, hcond.1, hR, by rw [hv]; exact hderef, hna⟩

end SymHeapCore

namespace SymHeap

open SymHeapCore SymHeapCore.Private

/-- C27: in a heap that satisfies the representation invariant, for every value
`v` whose target is possible to dereference and whose root lists its objects
(the live ones among them), `valClone(v)` returns a value `d` with
`valOffset(d) == valOffset(v)` whose root is a root that was not there before,
different from `valRoot(v)`, of the same target code, size, last-known type and
prototype flag and, in `SymHeap`, with the same abstract kind and binding
offsets; and every live object of the source root has under the new root a live
object with the same pointer flag, the same offset, the same type and the same
value. -/
theorem C27_valClone_root (sh : SymHeap) (v R : Int) (code : EValueTarget) (rb : BaseValue)
    (rd : RootValue) (hinv : sh.toSymHeapCore.HeapInv = true)
    (hv : sh.toSymHeapCore.valTarget (fun _ => false) v = some code)
    (hderef : isPossibleToDeref code = true)
    (hR : sh.toSymHeapCore.valRoot v = some R) (hrd : sh.d.rootData R = some (rb, rd))
    (hobjs : sh.d.rootObjsOk rd = true)
    (hlive : rd.liveObjs.all (fun p => decide (p.1 ∈ rd.allObjs)) = true)
    (hdata : sh.data.all (fun p => decide (p.1 < (sh.d.ents.length : Int))) = true) :
    ∃ sh1 dup R' rb' rd', sh.valClone v = some (sh1, dup) ∧
      sh1.toSymHeapCore.valOffset dup = sh.toSymHeapCore.valOffset v ∧
      sh1.toSymHeapCore.valRoot dup = some R' ∧ R' ≠ R ∧ sh.d.ent R' = none ∧
      sh1.d.rootData R' = some (rb', rd') ∧ rb'.code = rb.code ∧ rd'.cbSize = rd.cbSize ∧
      rd'.lastKnownClt = rd.lastKnownClt ∧ rd'.isProto = rd.isProto ∧
      mapFind R' sh1.data = mapFind R sh.data ∧
      sh1.valTargetKind dup = sh.valTargetKind v ∧ sh1.segBinding dup = sh.segBinding v ∧
      ∀ src f o, mapFind src rd.liveObjs = some f → sh.d.objData src = some o →
        ∃ dst o', mapFind dst rd'.liveObjs = some f ∧ sh1.d.objData dst = some o' ∧
          o'.off = o.off ∧ o'.clt = o.clt ∧ o'.value = o.value ∧ o'.root = R' := by
  obtain ⟨hoff, huse, -, -⟩ := heapInv_parts hinv
  have hfacts := offFacts_of_inv hoff
  obtain ⟨hpos, b, x, hvd, hb, hroot, hrbd, hna⟩ := deref_facts hoff hv hderef hR hrd
  have hposR := (rootData_eq_some.mp hrd).1
  have hltR := (ent_eq_some (rootData_eq_some.mp hrd).2).2.1
  have hsrc : ∀ s ∈ rd.allObjs, ∃ o, sh.d.objData s = some o ∧ Storable sh.d o.value := by
    intro s hs
    unfold rootObjsOk at hobjs
    simp only [Bool.and_eq_true, decide_eq_true_eq, List.all_eq_true] at hobjs
    obtain ⟨o, ho⟩ := Option.isSome_iff_exists.mp (hobjs.2 s hs)
    refine ⟨o, ho, storable_of_valid hfacts ?_⟩
    have hok := entUseOk_of_inv huse s
    unfold entUseOk at hok
    rw [objData_eq_some.mp ho] at hok
    simp only [Bool.and_eq_true, Bool.or_eq_true, decide_eq_true_eq] at hok
    unfold validVal
    rcases hok.2 with h1 | h1
    · simp [h1]
    · cases hval : sh.d.valData o.value with
      | none => rw [hval] at h1; cases h1
      | some p => simp
  obtain ⟨core1, dup, rb', rd', hclone, hdpos, hstep, hoffd, hrootd, hrd', hc, hcb, hclt, hp, hres⟩ :=
    valClone_deref hvd hb hroot hrd hrbd hna hsrc
  have hvroot1 : core1.valRoot v = some R := by
    unfold SymHeapCore.valRoot
    rw [if_neg (by omega)]
    exact DupStep.dvalRoot hstep hvd hroot (by rw [valData_of_rootData hrd]; rfl)
  have hdroot1 : core1.valRoot dup = some ((sh.d.ents.length : Int) + 1) := by
    unfold SymHeapCore.valRoot
    rw [if_neg (by omega)]
    exact hrootd
  have hnone : sh.d.ent ((sh.d.ents.length : Int) + 1) = none := by
    cases he : sh.d.ent ((sh.d.ents.length : Int) + 1) with
    | none => rfl
    | some e =>
      have := (ent_eq_some he).2.1
      omega
  have hvoff : sh.toSymHeapCore.valOffset v = some b.offRoot := by
    unfold SymHeapCore.valOffset
    rw [if_neg (by omega)]
    simp only [hvd, Option.bind_eq_bind, Option.some_bind]
  have hlivefacts : ∀ (sh1 : SymHeap), sh1.toSymHeapCore = core1 →
      ∀ src f o, mapFind src rd.liveObjs = some f → sh.d.objData src = some o →
        ∃ dst o', mapFind dst rd'.liveObjs = some f ∧ sh1.d.objData dst = some o' ∧
          o'.off = o.off ∧ o'.clt = o.clt ∧ o'.value = o.value ∧
          o'.root = (sh.d.ents.length : Int) + 1 := by
    intro sh1 h1 src f o hf ho
    have hmem : src ∈ rd.allObjs := by
      have := List.all_eq_true.mp hlive _ (mem_of_mapFind hf)
      simpa using this
    obtain ⟨dst, hd1, hd2⟩ := hres src hmem o f ho hf
    rw [h1]
    exact ⟨dst, _, hd1, hd2, rfl, rfl, rfl, rfl⟩
  have hkind : ∀ (sh1 : SymHeap), sh1.toSymHeapCore = core1 →
      mapFind ((sh.d.ents.length : Int) + 1) sh1.data = mapFind R sh.data →
      sh1.valTargetKind dup = sh.valTargetKind v ∧ sh1.segBinding dup = sh.segBinding v := by
    intro sh1 h1 hm
    unfold valTargetKind segBinding
    rw [if_neg (by omega), if_neg (by omega), h1]
    simp only [hdroot1, hR, Option.bind_eq_bind, Option.some_bind, hm]
    exact ⟨trivial, trivial⟩
  cases hfind : mapFind R sh.data with
  | some ao =>
    refine ⟨{ toSymHeapCore := core1, data := mapSet intLt ((sh.d.ents.length : Int) + 1) ao sh.data },
      dup, _, rb', rd', ?_, hoffd.trans hvoff.symm, hdroot1, by omega, hnone, hrd', hc, hcb, hclt, hp,
      ?_, ?_, ?_, hlivefacts _ rfl⟩
    · unfold valClone
      simp only [hclone, Option.bind_eq_bind, Option.some_bind, if_neg (not_le.mpr hdpos),
        hvroot1, hdroot1, hfind]
      rw [if_neg (by omega)]
    · exact (mapFind_mapSet_same _ _ _ _).trans rfl
    · exact (hkind _ rfl ((mapFind_mapSet_same _ _ _ _).trans hfind.symm)).1
    · exact (hkind _ rfl ((mapFind_mapSet_same _ _ _ _).trans hfind.symm)).2
  | none =>
    have hnoneI : mapFind ((sh.d.ents.length : Int) + 1) sh.data = none := by
      cases hm : mapFind ((sh.d.ents.length : Int) + 1) sh.data with
      | none => rfl
      | some ao =>
        have := List.all_eq_true.mp hdata _ (mem_of_mapFind hm)
        simp only [decide_eq_true_eq] at this
        omega
    refine ⟨{ sh with toSymHeapCore := core1 },
      dup, _, rb', rd', ?_, hoffd.trans hvoff.symm, hdroot1, by omega, hnone, hrd', hc, hcb, hclt, hp,
      hnoneI, ?_, ?_, hlivefacts _ rfl⟩
    · unfold valClone
      simp only [hclone, Option.bind_eq_bind, Option.some_bind, if_neg (not_le.mpr hdpos),
        hvroot1, hdroot1, hfind]
      rw [if_neg (by omega)]
    · exact (hkind { sh with toSymHeapCore := core1 } rfl (hnoneI.trans hfind.symm)).1
    · exact (hkind { sh with toSymHeapCore := core1 } rfl (hnoneI.trans hfind.symm)).2


set_option maxRecDepth 100000 in
/-- C27, witness: the off-value 7 (offset 8) of the singly-linked segment at the
address 2, whose forward pointer (object 4) is live. -/
theorem C27_valClone_root_witness :
    ∃ sh1 dup R', exSlsOffHeap.valClone 7 = some (sh1, dup) ∧
      sh1.toSymHeapCore.valOffset dup = some 8 ∧
      sh1.toSymHeapCore.valRoot dup = some R' ∧ R' ≠ 2 ∧
      sh1.valTargetKind dup = some OK_SLS ∧
      ∃ dst o', (dst, true) ∈ sh1.d.liveAt R' ∧
        sh1.d.objData dst = some o' ∧ o'.value = 6 := by
  obtain ⟨sh1, dup, R', rb', rd', h1, h2, h3, h4, -, h6, -, -, -, -, -, h7, -, h8⟩ :=
    C27_valClone_root exSlsOffHeap 7 2 VT_ON_HEAP
      { code := VT_ON_HEAP, origin := VO_ASSIGNED }
      { offMap := [(8, 7)], addr := 2, lastKnownClt := some 0, cbSize := 16,
        allObjs := [3, 4, 5], liveObjs := [(4, true)],
        grid := [(0, [(some 0, 3), (some 1, 4)]), (8, [(some 1, 5)])] }
      (by decide) (by decide) (by decide) (by decide) (by decide) (by decide) (by decide)
      (by decide)
  obtain ⟨dst, o', g1, g2, -, -, g3, -⟩ := h8 4 true
    { value := 6, root := 2, off := 0, clt := some 1 } (by decide) (by decide)
  refine ⟨sh1, dup, R', h1, h2.trans (by decide), h3, h4, h7.trans (by decide), dst, o', ?_, g2,
    g3⟩
  rw [liveAt_of_rootData h6]
  exact mem_of_mapFind g1

end SymHeap

/-! ## Snapshots in memory: the copy shares nothing -/

theorem cell_append_lt {α : Type} (l x : List (Option α)) {a : Nat} (h : a < l.length) :
    cell (l ++ x) a = cell l a := by
  unfold cell
  rw [List.getElem?_append_left h]

theorem cell_append_len {α : Type} (l : List (Option α)) (v : Option α) :
    cell (l ++ [v]) l.length = v := by
  unfold cell
  simp

theorem cell_set_ne {α : Type} (l : List (Option α)) {a b : Nat} (v : Option α) (h : a ≠ b) :
    cell (l.set a v) b = cell l b := by
  unfold cell
  rw [List.getElem?_set_ne h]

theorem cell_set_eq {α : Type} (l : List (Option α)) {a : Nat} (v : Option α)
    (h : a < l.length) : cell (l.set a v) a = v := by
  unfold cell
  simp [h]

theorem cell_some_lt {α : Type} {l : List (Option α)} {a : Nat} {e : α}
    (h : cell l a = some e) : a < l.length := by
  unfold cell at h
  by_contra hn
  rw [List.getElem?_eq_none (by omega)] at h
  cases h

theorem addrs_cons_some (a : Nat) (ps : List (Option Nat)) :
    addrs (some a :: ps) = a :: addrs ps := rfl

theorem addrs_cons_none (ps : List (Option Nat)) : addrs (none :: ps) = addrs ps := rfl

theorem derefEnts_congr (c c' : List (Option IHeapEntity)) :
    ∀ ptrs : List (Option Nat), (∀ a ∈ addrs ptrs, cell c' a = cell c a) →
      derefEnts c' ptrs = derefEnts c ptrs := by
  intro ptrs
  induction ptrs with
  | nil => intro _; rfl
  | cons p ps ih =>
    intro h
    cases p with
    | none =>
      simp only [derefEnts]
      rw [ih (fun a ha => h a (by rw [addrs_cons_none]; exact ha))]
    | some a =>
      simp only [derefEnts]
      rw [ih (fun x hx => h x (by rw [addrs_cons_some]; exact List.mem_cons_of_mem _ hx)),
        h a (by rw [addrs_cons_some]; exact List.mem_cons_self _ _)]

theorem derefEnts_valid {c : List (Option IHeapEntity)} :
    ∀ {ptrs : List (Option Nat)} {es : List (Option IHeapEntity)},
      derefEnts c ptrs = some es → ∀ a ∈ addrs ptrs, a < c.length := by
  intro ptrs
  induction ptrs with
  | nil => intro es _ a ha; cases ha
  | cons p ps ih =>
    intro es h a ha
    cases p with
    | none =>
      simp only [derefEnts, Option.map_eq_some'] at h
      obtain ⟨es', h', -⟩ := h
      exact ih h' a ha
    | some b =>
      simp only [derefEnts] at h
      cases hc : cell c b with
      | none => rw [hc] at h; cases h
      | some e =>
        cases hd : derefEnts c ps with
        | none => rw [hc, hd] at h; cases h
        | some es' =>
          rw [addrs_cons_some] at ha
          rcases List.mem_cons.mp ha with h1 | h1
          · rw [h1]; exact cell_some_lt hc
          · exact ih hd a h1

/-- The loop of the copy constructor: every entity is cloned into a fresh cell,
the cells that were there are left as they are, and the new pointers denote
equal entities. -/
theorem cloneEnts_spec :
    ∀ (ptrs : List (Option Nat)) (cells es : List (Option IHeapEntity)),
      derefEnts cells ptrs = some es →
      ∃ c ps, cloneEnts cells ptrs = some (c, ps) ∧ cells.length ≤ c.length ∧
        (∀ a, a < cells.length → cell c a = cell cells a) ∧
        (∀ a ∈ addrs ps, cells.length ≤ a ∧ a < c.length) ∧ (addrs ps).Nodup ∧
        derefEnts c ps = some es := by
  intro ptrs
  induction ptrs with
  | nil =>
    intro cells es h
    simp only [derefEnts, Option.some.injEq] at h
    subst h
    exact ⟨cells, [], rfl, le_refl _, fun _ _ => rfl, fun a ha => absurd ha (List.not_mem_nil a),
      List.nodup_nil, rfl⟩
  | cons p rest ih =>
    intro cells es h
    cases p with
    | none =>
      simp only [derefEnts, Option.map_eq_some'] at h
      obtain ⟨es', h', hes⟩ := h
      obtain ⟨c, ps, hc, hlen, hold, hnew, hnd, hd⟩ := ih cells es' h'
      refine ⟨c, none :: ps, by simp only [cloneEnts, hc], hlen, hold, hnew, hnd, ?_⟩
      simp only [derefEnts, hd, Option.map_some', hes]
    | some a =>
      simp only [derefEnts] at h
      cases hca : cell cells a with
      | none => rw [hca] at h; cases h
      | some e =>
        cases hdr : derefEnts cells rest with
        | none => rw [hca, hdr] at h; cases h
        | some es' =>
          rw [hca, hdr] at h
          simp only [Option.some.injEq] at h
          have hdr1 : derefEnts (cells ++ [some e]) rest = some es' := by
            rw [derefEnts_congr cells _ rest (fun x hx =>
              cell_append_lt _ _ (derefEnts_valid hdr x hx))]
            exact hdr
          obtain ⟨c, ps, hc, hlen, hold, hnew, hnd, hd⟩ := ih (cells ++ [some e]) es' hdr1
          have hlen1 : (cells ++ [some e]).length = cells.length + 1 := by simp
          rw [hlen1] at hlen hold hnew
          refine ⟨c, some cells.length :: ps, by simp only [cloneEnts, hca, hc], by omega, ?_, ?_,
            ?_, ?_⟩
          · intro x hx
            rw [hold x (by omega)]
            exact cell_append_lt _ _ hx
          · intro x hx
            rw [addrs_cons_some] at hx
            rcases List.mem_cons.mp hx with h1 | h1
            · rw [h1]; exact ⟨le_refl _, by omega⟩
            · have := hnew x h1
              exact ⟨by omega, this.2⟩
          · rw [addrs_cons_some]
            refine List.nodup_cons.mpr ⟨?_, hnd⟩
            intro hm
            have := (hnew _ hm).1
            omega
          · simp only [derefEnts, hd]
            rw [hold cells.length (by omega), cell_append_len]
            simp only [h]

/-- The write-back of a state through a vector of distinct live pointers: the
cells the pointers do not denote are left as they are, the new pointers denote
the entities of the state, and a new pointer is an old one or a fresh cell. -/
theorem writeEnts_spec :
    ∀ (es : List (Option IHeapEntity)) (ptrs : List (Option Nat))
      (cells : List (Option IHeapEntity)),
      (∀ a ∈ addrs ptrs, a < cells.length) → (addrs ptrs).Nodup →
      cells.length ≤ (writeEnts cells ptrs es).1.length ∧
      (∀ b, b < cells.length → b ∉ addrs ptrs →
        cell (writeEnts cells ptrs es).1 b = cell cells b) ∧
      (∀ a ∈ addrs (writeEnts cells ptrs es).2,
        (a ∈ addrs ptrs ∨ cells.length ≤ a) ∧ a < (writeEnts cells ptrs es).1.length) ∧
      (addrs (writeEnts cells ptrs es).2).Nodup ∧
      derefEnts (writeEnts cells ptrs es).1 (writeEnts cells ptrs es).2 = some es := by
  intro es
  induction es with
  | nil =>
    intro ptrs cells _ _
    have hw : writeEnts cells ptrs [] = (cells, []) := by
      cases ptrs with
      | nil => rfl
      | cons p ps => cases p <;> rfl
    rw [hw]
    exact ⟨le_refl _, fun _ _ _ => rfl, fun a ha => absurd ha (List.not_mem_nil a),
      List.nodup_nil, rfl⟩
  | cons e es ih =>
    intro ptrs cells hval hnd
    cases ptrs with
    | nil =>
      cases e with
      | none =>
        obtain ⟨h1, h2, h3, h4, h5⟩ := ih [] cells hval hnd
        simp only [writeEnts]
        refine ⟨h1, h2, ?_, ?_, ?_⟩
        · intro a ha; rw [addrs_cons_none] at ha; exact h3 a ha
        · rw [addrs_cons_none]; exact h4
        · simp only [derefEnts, h5, Option.map_some']
      | some e =>
        have hlen1 : (cells ++ [some e]).length = cells.length + 1 := by simp
        obtain ⟨h1, h2, h3, h4, h5⟩ := ih [] (cells ++ [some e])
          (fun a ha => by cases ha) List.nodup_nil
        rw [hlen1] at h1 h2 h3
        simp only [writeEnts]
        refine ⟨by omega, ?_, ?_, ?_, ?_⟩
        · intro b hb hnb
          rw [h2 b (by omega) (fun h => by cases h)]
          exact cell_append_lt _ _ hb
        · intro a ha
          rw [addrs_cons_some] at ha
          rcases List.mem_cons.mp ha with h | h
          · rw [h]; exact ⟨Or.inr (le_refl _), by omega⟩
          · have := h3 a h
            rcases this.1 with h' | h'
            · cases h'
            · exact ⟨Or.inr (by omega), this.2⟩
        · rw [addrs_cons_some]
          refine List.nodup_cons.mpr ⟨?_, h4⟩
          intro hm
          have := h3 _ hm
          rcases this.1 with h' | h'
          · cases h'
          · omega
        · simp only [derefEnts, h5]
          rw [h2 cells.length (by omega) (fun h => by cases h), cell_append_len]
    | cons p ptrs =>
      cases p with
      | none =>
        rw [addrs_cons_none] at hval hnd
        cases e with
        | none =>
          obtain ⟨h1, h2, h3, h4, h5⟩ := ih ptrs cells hval hnd
          simp only [writeEnts]
          refine ⟨h1, ?_, ?_, ?_, ?_⟩
          · intro b hb hnb; rw [addrs_cons_none] at hnb; exact h2 b hb hnb
          · intro a ha
            rw [addrs_cons_none] at ha ⊢
            exact h3 a ha
          · rw [addrs_cons_none]; exact h4
          · simp only [derefEnts, h5, Option.map_some']
        | some e =>
          have hlen1 : (cells ++ [some e]).length = cells.length + 1 := by simp
          obtain ⟨h1, h2, h3, h4, h5⟩ := ih ptrs (cells ++ [some e])
            (fun a ha => by rw [hlen1]; have := hval a ha; omega) hnd
          rw [hlen1] at h1 h2 h3
          have hfresh : cells.length ∉ addrs ptrs := fun h => by
            have := hval _ h
            omega
          simp only [writeEnts]
          refine ⟨by omega, ?_, ?_, ?_, ?_⟩
          · intro b hb hnb
            rw [addrs_cons_none] at hnb
            rw [h2 b (by omega) hnb]
            exact cell_append_lt _ _ hb
          · intro a ha
            rw [addrs_cons_some] at ha
            rw [addrs_cons_none]
            rcases List.mem_cons.mp ha with h | h
            · rw [h]; exact ⟨Or.inr (le_refl _), by omega⟩
            · have := h3 a h
              rcases this.1 with h' | h'
              · exact ⟨Or.inl h', this.2⟩
              · exact ⟨Or.inr (by omega), this.2⟩
          · rw [addrs_cons_some]
            refine List.nodup_cons.mpr ⟨?_, h4⟩
            intro hm
            have := h3 _ hm
            rcases this.1 with h' | h'
            · exact hfresh h'
            · omega
          · simp only [derefEnts, h5]
            rw [h2 cells.length (by omega) hfresh, cell_append_len]
      | some a =>
        rw [addrs_cons_some] at hval hnd
        have ha : a < cells.length := hval a (List.mem_cons_self _ _)
        have hna : a ∉ addrs ptrs := (List.nodup_cons.mp hnd).1
        have hnd' := (List.nodup_cons.mp hnd).2
        have key : ∀ v : Option IHeapEntity,
            cells.length ≤ (writeEnts (cells.set a v) ptrs es).1.length ∧
            (∀ b, b < cells.length → b ∉ a :: addrs ptrs →
              cell (writeEnts (cells.set a v) ptrs es).1 b = cell cells b) ∧
            (∀ x ∈ addrs (writeEnts (cells.set a v) ptrs es).2,
              (x ∈ addrs ptrs ∨ cells.length ≤ x) ∧
                x < (writeEnts (cells.set a v) ptrs es).1.length) ∧
            (addrs (writeEnts (cells.set a v) ptrs es).2).Nodup ∧
            derefEnts (writeEnts (cells.set a v) ptrs es).1
              (writeEnts (cells.set a v) ptrs es).2 = some es ∧
            cell (writeEnts (cells.set a v) ptrs es).1 a = v ∧
            a ∉ addrs (writeEnts (cells.set a v) ptrs es).2 := by
          intro v
          have hlen1 : (cells.set a v).length = cells.length := List.length_set _ _ _
          obtain ⟨h1, h2, h3, h4, h5⟩ := ih ptrs (cells.set a v)
            (fun x hx => by rw [hlen1]; exact hval x (List.mem_cons_of_mem _ hx)) hnd'
          rw [hlen1] at h1 h2 h3
          refine ⟨h1, ?_, h3, h4, h5, ?_, ?_⟩
          · intro b hb hnb
            rw [h2 b hb (fun h => hnb (List.mem_cons_of_mem _ h))]
            exact cell_set_ne _ _ (fun h => hnb (by rw [h]; exact List.mem_cons_self _ _))
          · rw [h2 a ha hna]
            exact cell_set_eq _ _ ha
          · intro hm
            rcases (h3 a hm).1 with h' | h'
            · exact hna h'
            · omega
        cases e with
        | none =>
          obtain ⟨k1, k2, k3, k4, k5, -, -⟩ := key none
          simp only [writeEnts]
          refine ⟨k1, ?_, ?_, ?_, ?_⟩
          · intro b hb hnb; rw [addrs_cons_some] at hnb; exact k2 b hb hnb
          · intro x hx
            rw [addrs_cons_none] at hx
            rw [addrs_cons_some]
            have := k3 x hx
            rcases this.1 with h' | h'
            · exact ⟨Or.inl (List.mem_cons_of_mem _ h'), this.2⟩
            · exact ⟨Or.inr h', this.2⟩
          · rw [addrs_cons_none]; exact k4
          · simp only [derefEnts, k5, Option.map_some']
        | some e =>
          obtain ⟨k1, k2, k3, k4, k5, k6, k7⟩ := key (some e)
          simp only [writeEnts]
          refine ⟨k1, ?_, ?_, ?_, ?_⟩
          · intro b hb hnb; rw [addrs_cons_some] at hnb; exact k2 b hb hnb
          · intro x hx
            rw [addrs_cons_some] at hx ⊢
            rcases List.mem_cons.mp hx with h | h
            · rw [h]; exact ⟨Or.inl (List.mem_cons_self _ _), by omega⟩
            · have := k3 x h
              rcases this.1 with h' | h'
              · exact ⟨Or.inl (List.mem_cons_of_mem _ h'), this.2⟩
              · exact ⟨Or.inr h', this.2⟩
          · rw [addrs_cons_some]
            exact List.nodup_cons.mpr ⟨k7, k4⟩
          · simp only [derefEnts, k5, k6]

theorem freeEnts_spec :
    ∀ (ptrs : List (Option Nat)) (cells : List (Option IHeapEntity)),
      (freeEnts cells ptrs).length = cells.length ∧
      ∀ b, b ∉ addrs ptrs → cell (freeEnts cells ptrs) b = cell cells b := by
  intro ptrs
  induction ptrs with
  | nil => intro cells; exact ⟨rfl, fun _ _ => rfl⟩
  | cons p rest ih =>
    intro cells
    cases p with
    | none =>
      simp only [freeEnts]
      exact ih cells
    | some a =>
      simp only [freeEnts]
      obtain ⟨h1, h2⟩ := ih (cells.set a none)
      refine ⟨by rw [h1, List.length_set], ?_⟩
      intro b hb
      rw [addrs_cons_some] at hb
      rw [h2 b (fun h => hb (List.mem_cons_of_mem _ h))]
      exact cell_set_ne _ _ (fun h => hb (by rw [h]; exact List.mem_cons_self _ _))

theorem WF_iff {m : Mem} {o : SymHeapObj} :
    WF m o = true ↔ ∃ p es data, cell m.privs o.d = some p ∧
      derefEnts m.ents p.ents = some es ∧ (addrs p.ents).Nodup ∧
      cell m.datas o.dAbs = some data := by
  unfold WF
  constructor
  · intro h
    cases hp : cell m.privs o.d with
    | none => rw [hp] at h; cases h
    | some p =>
      rw [hp] at h
      simp only [Bool.and_eq_true, decide_eq_true_eq] at h
      obtain ⟨es, hes⟩ := Option.isSome_iff_exists.mp h.1.1
      obtain ⟨data, hdata⟩ := Option.isSome_iff_exists.mp h.2
      exact ⟨p, es, data, rfl, hes, h.1.2, hdata⟩
  · rintro ⟨p, es, data, hp, hes, hnd, hdata⟩
    rw [hp]
    simp only [hes, hdata, Option.isSome_some, Bool.and_eq_true, decide_eq_true_eq, true_and,
      and_true]
    exact hnd

theorem view_of_parts {m : Mem} {o : SymHeapObj} {p : PPrivate}
    {es : List (Option IHeapEntity)} {data : List (Int × AbstractObject)}
    (hp : cell m.privs o.d = some p) (hes : derefEnts m.ents p.ents = some es)
    (hdata : cell m.datas o.dAbs = some data) :
    view m o = some
      { stor_ := o.stor_,
        d := { cVarMap := p.cVarMap, cValueMap := p.cValueMap, ents := es,
               liveRoots := p.liveRoots, neqDb := p.neqDb },
        data := data } := by
  unfold view viewPrivate
  simp only [hp, hes, hdata, Option.map_some']

/-- The heap an object denotes depends on the cells of the object only. -/
theorem view_congr {m m' : Mem} {o : SymHeapObj} {p : PPrivate}
    (hp : cell m.privs o.d = some p) (hp' : cell m'.privs o.d = some p)
    (he : ∀ a ∈ addrs p.ents, cell m'.ents a = cell m.ents a)
    (hd : cell m'.datas o.dAbs = cell m.datas o.dAbs) :
    view m' o = view m o ∧ WF m' o = WF m o := by
  unfold view viewPrivate WF
  simp only [hp, hp', hd, derefEnts_congr m.ents m'.ents p.ents he]
  exact ⟨trivial, trivial⟩

theorem Separate_iff {m : Mem} {a b : SymHeapObj} :
    Separate m a b = true ↔ a.d ≠ b.d ∧ a.dAbs ≠ b.dAbs ∧
      ∃ pa pb, cell m.privs a.d = some pa ∧ cell m.privs b.d = some pb ∧
        ∀ x ∈ addrs pa.ents, x ∉ addrs pb.ents := by
  unfold Separate
  constructor
  · intro h
    simp only [Bool.and_eq_true, decide_eq_true_eq] at h
    refine ⟨h.1.1, h.1.2, ?_⟩
    have h2 := h.2
    cases hpa : cell m.privs a.d with
    | none => rw [hpa] at h2; cases h2
    | some pa =>
      cases hpb : cell m.privs b.d with
      | none => rw [hpa, hpb] at h2; cases h2
      | some pb =>
        rw [hpa, hpb] at h2
        simp only [List.all_eq_true, Bool.not_eq_true', List.contains_eq_any_beq,
          List.any_eq_false, beq_iff_eq] at h2
        refine ⟨pa, pb, rfl, rfl, ?_⟩
        intro x hx hm
        exact h2 x hx x hm rfl
  · rintro ⟨h1, h2, pa, pb, hpa, hpb, h3⟩
    rw [hpa, hpb]
    simp only [Bool.and_eq_true, decide_eq_true_eq, List.all_eq_true, Bool.not_eq_true',
      List.contains_eq_any_beq, List.any_eq_false, beq_iff_eq]
    refine ⟨⟨h1, h2⟩, ?_⟩
    intro x hx y hy hxy
    subst hxy
    exact h3 x hx hy

theorem Indep_symm {m : Mem} {a b : SymHeapObj} (h : Indep m a b = true) :
    Indep m b a = true := by
  unfold Indep at h ⊢
  simp only [Bool.and_eq_true] at h ⊢
  refine ⟨⟨h.1.2, h.1.1⟩, ?_⟩
  obtain ⟨h1, h2, pa, pb, hpa, hpb, h3⟩ := Separate_iff.mp h.2
  exact Separate_iff.mpr ⟨fun e => h1 e.symm, fun e => h2 e.symm, pb, pa, hpb, hpa,
    fun x hx hm => h3 x hm hx⟩

/-- The copy constructor returns a snapshot that denotes the same heap as the
original, leaves the original as it is, and shares no cell with it. -/
theorem copy_spec {m : Mem} {s1 : SymHeapObj} (hwf : WF m s1 = true) :
    ∃ m1 s2, s1.copy m = some (m1, s2) ∧ view m1 s2 = view m s1 ∧ view m1 s1 = view m s1 ∧
      Indep m1 s1 s2 = true := by
  obtain ⟨p, es, data, hp, hes, hnd, hdata⟩ := WF_iff.mp hwf
  obtain ⟨c, ps, hc, hlen, hold, hnew, hndps, hd⟩ := cloneEnts_spec p.ents m.ents es hes
  have hlp := cell_some_lt hp
  have hld := cell_some_lt hdata
  have hval := derefEnts_valid hes
  obtain ⟨m1, hm1⟩ : ∃ m1 : Mem, m1 =
      { ents := c, privs := m.privs ++ [some { p with ents := ps }],
        datas := m.datas ++ [some data] } := ⟨_, rfl⟩
  have hp1 : cell m1.privs m.privs.length = some { p with ents := ps } := by
    rw [hm1]
    exact cell_append_len _ _
  have hd1 : cell m1.datas m.datas.length = some data := by
    rw [hm1]
    exact cell_append_len _ _
  have hes1 : derefEnts m1.ents ps = some es := by
    rw [hm1]
    exact hd
  have hcong := @view_congr m m1 s1 p hp (by rw [hm1]; exact (cell_append_lt _ _ hlp).trans hp)
    (fun a ha => by rw [hm1]; exact hold a (hval a ha))
    (by rw [hm1]; exact cell_append_lt _ _ hld)
  refine ⟨m1, { stor_ := s1.stor_, d := m.privs.length, dAbs := m.datas.length }, ?_, ?_,
    hcong.1, ?_⟩
  · unfold SymHeapObj.copy copyPrivate
    simp only [hp, hc, hdata]
    rw [hm1]
  · rw [view_of_parts hp hes hdata]
    exact @view_of_parts m1 { stor_ := s1.stor_, d := m.privs.length, dAbs := m.datas.length }
      { p with ents := ps } es data hp1 hes1 hd1
  · unfold Indep
    simp only [Bool.and_eq_true]
    refine ⟨⟨hcong.2.trans hwf, ?_⟩, ?_⟩
    · exact WF_iff.mpr ⟨{ p with ents := ps }, es, data, hp1, hes1, hndps, hd1⟩
    · refine Separate_iff.mpr ⟨?_, ?_, p, { p with ents := ps },
        by rw [hm1]; exact (cell_append_lt _ _ hlp).trans hp, hp1, ?_⟩
      · show s1.d ≠ m.privs.length
        omega
      · show s1.dAbs ≠ m.datas.length
        omega
      · intro x hx hm
        have h1 := hval x hx
        have h2 := (hnew x hm).1
        omega

/-- A member function run on one of two snapshots that share no cell: the
snapshot it is run on denotes the new heap, the other one denotes the heap it
denoted, and the two still share no cell. -/
theorem runOn_spec {m : Mem} {a b : SymHeapObj} (hind : Indep m a b = true)
    (op : SymHeap → Option SymHeap) {sh sh1 : SymHeap} (hview : view m b = some sh)
    (hop : op sh = some sh1) :
    ∃ m2, runOn m b op = some m2 ∧ view m2 b = some { sh1 with stor_ := b.stor_ } ∧
      view m2 a = view m a ∧ Indep m2 a b = true := by
  unfold Indep at hind
  simp only [Bool.and_eq_true] at hind
  obtain ⟨pa, esa, da, hpa, hesa, hnda, hda⟩ := WF_iff.mp hind.1.1
  obtain ⟨pb, esb, db, hpb, hesb, hndb, hdb⟩ := WF_iff.mp hind.1.2
  obtain ⟨hd, hdAbs, pa', pb', hpa', hpb', hsep⟩ := Separate_iff.mp hind.2
  rw [hpa] at hpa'
  rw [hpb] at hpb'
  cases hpa'
  cases hpb'
  obtain ⟨w1, w2, w3, w4, w5⟩ := writeEnts_spec sh1.d.ents pb.ents m.ents (derefEnts_valid hesb) hndb
  have hlpb := cell_some_lt hpb
  have hldb := cell_some_lt hdb
  have hvala := derefEnts_valid hesa
  obtain ⟨m2, hm2⟩ : ∃ m2 : Mem, m2 =
      { ents := (writeEnts m.ents pb.ents sh1.d.ents).1,
        privs := m.privs.set b.d (some
          { cVarMap := sh1.d.cVarMap, cValueMap := sh1.d.cValueMap,
            ents := (writeEnts m.ents pb.ents sh1.d.ents).2,
            liveRoots := sh1.d.liveRoots, neqDb := sh1.d.neqDb }),
        datas := m.datas.set b.dAbs (some sh1.data) } := ⟨_, rfl⟩
  have hpb2 : cell m2.privs b.d = some
      { cVarMap := sh1.d.cVarMap, cValueMap := sh1.d.cValueMap,
        ents := (writeEnts m.ents pb.ents sh1.d.ents).2,
        liveRoots := sh1.d.liveRoots, neqDb := sh1.d.neqDb } := by
    rw [hm2]
    exact cell_set_eq _ _ hlpb
  have hes2 : derefEnts m2.ents (writeEnts m.ents pb.ents sh1.d.ents).2 = some sh1.d.ents := by
    rw [hm2]
    exact w5
  have hdb2 : cell m2.datas b.dAbs = some sh1.data := by
    rw [hm2]
    exact cell_set_eq _ _ hldb
  have hca := @view_congr m m2 a pa hpa
    (by rw [hm2]; exact (cell_set_ne _ _ (fun e => hd e.symm)).trans hpa)
    (fun x hx => by rw [hm2]; exact w2 x (hvala x hx) (hsep x hx))
    (by rw [hm2]; exact cell_set_ne _ _ (fun e => hdAbs e.symm))
  refine ⟨m2, ?_, ?_, hca.1, ?_⟩
  · unfold runOn
    simp only [hview, hpb, hop]
    rw [hm2]
  · rw [view_of_parts hpb2 hes2 hdb2]
  · unfold Indep
    simp only [Bool.and_eq_true]
    refine ⟨⟨hca.2.trans hind.1.1, ?_⟩, ?_⟩
    · exact WF_iff.mpr ⟨_, _, _, hpb2, hes2, w4, hdb2⟩
    · refine Separate_iff.mpr ⟨hd, hdAbs, pa, _,
        by rw [hm2]; exact (cell_set_ne _ _ (fun e => hd e.symm)).trans hpa, hpb2, ?_⟩
      intro x hx hm
      rcases (w3 x hm).1 with h | h
      · exact hsep x hx h
      · have := hvala x hx
        omega

/-- The assignment to a snapshot that shares no cell with the source: the
assigned snapshot denotes the heap of the source, the source is left as it is,
and the two share no cell. -/
theorem assign_spec {m : Mem} {s1 s0 : SymHeapObj} (hind : Indep m s1 s0 = true)
    (hstor : s0.stor_ = s1.stor_) :
    ∃ m1 s2, SymHeapObj.assign m s0 s1 = some (m1, s2) ∧ view m1 s2 = view m s1 ∧
      view m1 s1 = view m s1 ∧ Indep m1 s1 s2 = true := by
  unfold Indep at hind
  simp only [Bool.and_eq_true] at hind
  obtain ⟨p, es, data, hp, hes, hnd, hdata⟩ := WF_iff.mp hind.1.1
  obtain ⟨p0, es0, data0, hp0, hes0, hnd0, hdata0⟩ := WF_iff.mp hind.1.2
  obtain ⟨hd, hdAbs, pa', pb', hpa', hpb', hsep⟩ := Separate_iff.mp hind.2
  rw [hp] at hpa'
  rw [hp0] at hpb'
  cases hpa'
  cases hpb'
  have hlp := cell_some_lt hp
  have hld := cell_some_lt hdata
  have hlp0 := cell_some_lt hp0
  have hld0 := cell_some_lt hdata0
  have hval := derefEnts_valid hes
  obtain ⟨hflen, hfree⟩ := freeEnts_spec p0.ents m.ents
  have hesf : derefEnts (freeEnts m.ents p0.ents) p.ents = some es := by
    rw [derefEnts_congr m.ents _ p.ents (fun x hx => hfree x (hsep x hx))]
    exact hes
  obtain ⟨c, ps, hc, hlen, hold, hnew, hndps, hdc⟩ :=
    cloneEnts_spec p.ents (freeEnts m.ents p0.ents) es hesf
  rw [hflen] at hlen hold hnew
  have hpriv1 : cell (m.privs.set s0.d none) s1.d = some p :=
    (cell_set_ne _ _ (fun e => hd e.symm)).trans hp
  have hdat1 : cell (m.datas.set s0.dAbs none) s1.dAbs = some data :=
    (cell_set_ne _ _ (fun e => hdAbs e.symm)).trans hdata
  obtain ⟨m1, hm1⟩ : ∃ m1 : Mem, m1 =
      { ents := c, privs := m.privs.set s0.d none ++ [some { p with ents := ps }],
        datas := m.datas.set s0.dAbs none ++ [some data] } := ⟨_, rfl⟩
  have hlps : (m.privs.set s0.d none).length = m.privs.length := List.length_set _ _ _
  have hlds : (m.datas.set s0.dAbs none).length = m.datas.length := List.length_set _ _ _
  have hp1 : cell m1.privs m.privs.length = some { p with ents := ps } := by
    rw [hm1, ← hlps]
    exact cell_append_len _ _
  have hd1 : cell m1.datas m.datas.length = some data := by
    rw [hm1, ← hlds]
    exact cell_append_len _ _
  have hes1 : derefEnts m1.ents ps = some es := by
    rw [hm1]
    exact hdc
  have hpc : cell m1.privs s1.d = some p := by
    rw [hm1]
    exact (cell_append_lt _ _ (by rw [hlps]; exact hlp)).trans hpriv1
  have hdc1 : cell m1.datas s1.dAbs = cell m.datas s1.dAbs := by
    rw [hm1]
    exact (cell_append_lt _ _ (by rw [hlds]; exact hld)).trans (hdat1.trans hdata.symm)
  have hec : ∀ a ∈ addrs p.ents, cell m1.ents a = cell m.ents a := by
    intro a ha
    rw [hm1]
    exact (hold a (hval a ha)).trans (hfree a (hsep a ha))
  have hcong := @view_congr m m1 s1 p hp hpc hec hdc1
  refine ⟨m1, { s0 with d := m.privs.length, dAbs := m.datas.length }, ?_, ?_, hcong.1, ?_⟩
  · unfold SymHeapObj.assign copyPrivate
    simp only [hstor, ne_eq, not_true_eq_false, if_false, hp0, hpriv1, hc, hdata0, hdat1, hlps,
      hlds]
    rw [hm1]
  · rw [view_of_parts hp hes hdata]
    have := @view_of_parts m1 { s0 with d := m.privs.length, dAbs := m.datas.length }
      { p with ents := ps } es data hp1 hes1 hd1
    rw [this]
    simp only [hstor]
  · unfold Indep
    simp only [Bool.and_eq_true]
    refine ⟨⟨hcong.2.trans hind.1.1, ?_⟩, ?_⟩
    · exact WF_iff.mpr ⟨{ p with ents := ps }, es, data, hp1, hes1, hndps, hd1⟩
    · refine Separate_iff.mpr ⟨?_, ?_, p, { p with ents := ps }, hpc, hp1, ?_⟩
      · show s1.d ≠ m.privs.length
        omega
      · show s1.dAbs ≠ m.datas.length
        omega
      · intro x hx hm
        have h1 := hval x hx
        have h2 := (hnew x hm).1
        omega

/-- The assignment of a snapshot to itself deletes the state it is about to
copy: the dereference of the freed `d` is the trap. -/
theorem assign_self (m : Mem) (s : SymHeapObj) : SymHeapObj.assign m s s = none := by
  unfold SymHeapObj.assign
  simp only [ne_eq, not_true_eq_false, if_false]
  cases hp : cell m.privs s.d with
  | none => rfl
  | some p =>
    simp only
    rw [cell_set_eq _ _ (cell_some_lt hp)]

/-- C28: a snapshot `s2` copy-constructed from a snapshot `s1` in order denotes
the same heap as `s1` (every handle denotes an equal entity, and every query
gives the same result), `s1` denotes the heap it denoted, and the two share no
cell; the same holds after the assignment of `s1` to another snapshot that
shared no cell with it.  For two snapshots that share no cell, a member
function run on either of them (`objSetValue`, `neqOp`, `valDestroyTarget`,
`valTargetSetAbstract`, or any other: `op` is its effect on the heap) leaves the
heap the other one denotes, and so every query on it, as it was, and the two
still share no cell. -/
theorem C28_copy_independent (m : Mem) (s1 : SymHeapObj) (hwf : WF m s1 = true) :
    (∃ m1 s2, s1.copy m = some (m1, s2) ∧ view m1 s2 = view m s1 ∧ view m1 s1 = view m s1 ∧
      Indep m1 s1 s2 = true) ∧
    (∀ s0, Indep m s1 s0 = true → s0.stor_ = s1.stor_ →
      ∃ m1 s2, SymHeapObj.assign m s0 s1 = some (m1, s2) ∧ view m1 s2 = view m s1 ∧
        view m1 s1 = view m s1 ∧ Indep m1 s1 s2 = true) ∧
    (∀ m1 s2, Indep m1 s1 s2 = true → ∀ (op : SymHeap → Option SymHeap) (sh sh1 : SymHeap),
      op sh = some sh1 →
      (view m1 s2 = some sh →
        ∃ m2, runOn m1 s2 op = some m2 ∧ view m2 s2 = some { sh1 with stor_ := s2.stor_ } ∧
          view m2 s1 = view m1 s1 ∧ Indep m2 s1 s2 = true) ∧
      (view m1 s1 = some sh →
        ∃ m2, runOn m1 s1 op = some m2 ∧ view m2 s1 = some { sh1 with stor_ := s1.stor_ } ∧
          view m2 s2 = view m1 s2 ∧ Indep m2 s1 s2 = true)) := by
  refine ⟨copy_spec hwf, fun s0 hind hstor => assign_spec hind hstor, ?_⟩
  intro m1 s2 hind op sh sh1 hop
  refine ⟨fun hview => runOn_spec hind op hview hop, fun hview => ?_⟩
  obtain ⟨m2, h1, h2, h3, h4⟩ := runOn_spec (Indep_symm hind) op hview hop
  exact ⟨m2, h1, h2, h3, Indep_symm h4⟩

set_option maxRecDepth 100000 in
/-- C28, witness: the segment heap `exSls1Heap` laid out in memory, copied, and
`objSetValue(4, VAL_NULL)` run on the copy: the copy holds the new value, the
original denotes `exSls1Heap` as before. -/
theorem C28_copy_independent_witness :
    WF (Mem.ofHeap exSls1Heap).1 (Mem.ofHeap exSls1Heap).2 = true ∧
    view (Mem.ofHeap exSls1Heap).1 (Mem.ofHeap exSls1Heap).2 = some exSls1Heap ∧
    ∃ m1 s2, (Mem.ofHeap exSls1Heap).2.copy (Mem.ofHeap exSls1Heap).1 = some (m1, s2) ∧
      view m1 s2 = some exSls1Heap ∧
      ∃ m2, runOn m1 s2
          (fun sh => (sh.toSymHeapCore.objSetValue 4 VAL_NULL).map sh.withCore) = some m2 ∧
        view m2 (Mem.ofHeap exSls1Heap).2 = some exSls1Heap ∧
        (view m2 s2).map (fun sh => (sh.d.objData 4).map (fun o => o.value))
          = some (some VAL_NULL) ∧
        (view m2 (Mem.ofHeap exSls1Heap).2).map
          (fun sh => (sh.d.objData 4).map (fun o => o.value)) = some (some 6) := by
  have hview : view (Mem.ofHeap exSls1Heap).1 (Mem.ofHeap exSls1Heap).2 = some exSls1Heap := by
    decide
  obtain ⟨⟨m1, s2, hcopy, hv2, hv1, hind⟩, -, hrun⟩ :=
    C28_copy_independent (Mem.ofHeap exSls1Heap).1 (Mem.ofHeap exSls1Heap).2 (by decide)
  have hstor : s2.stor_ = exStor := by
    unfold SymHeapObj.copy at hcopy
    split at hcopy
    · cases hcopy
    · split at hcopy
      · cases hcopy
      · split at hcopy
        · cases hcopy
        · simp only [Option.some.injEq, Prod.mk.injEq] at hcopy
          rw [← hcopy.2]
          rfl
  obtain ⟨m2, hr, hw2, hw1, -⟩ := (hrun m1 s2 hind
    (fun sh => (sh.toSymHeapCore.objSetValue 4 VAL_NULL).map sh.withCore) exSls1Heap
    (((exSls1Heap.toSymHeapCore.objSetValue 4 VAL_NULL).map exSls1Heap.withCore).getD {})
    (by decide)).1 (hv2.trans hview)
  refine ⟨by decide, hview, m1, s2, hcopy, hv2.trans hview, m2, hr, hw1.trans (hv1.trans hview),
    ?_, ?_⟩
  · rw [hw2, hstor]
    decide
  · rw [hw1, hv1, hview]
    decide

/-- Two objects that point to the same entity are not independent: a write
through one of them is seen through the other. -/
theorem shared_cell_aliases :
    ∃ (m m2 : Mem) (a b : SymHeapObj) (op : SymHeap → Option SymHeap),
      WF m a = true ∧ WF m b = true ∧ Separate m a b = false ∧
      runOn m b op = some m2 ∧ view m2 a ≠ view m a :=
  ⟨{ ents := [some (.HeapObject {})],
     privs := [some { ents := [some 0] }, some { ents := [some 0] }],
     datas := [some [], some []] }, _,
   { d := 0, dAbs := 0 }, { d := 1, dAbs := 1 },
   fun sh => some { sh with d := { sh.d with ents := [some (.HeapObject { value := 1 })] } },
   by decide, by decide, by decide, rfl, by decide⟩

/-! ## The tree of sub-objects -/

theorem mem_mapReplace_or {κ β : Type} [DecidableEq κ] (k : κ) (v : β) (m : List (κ × β))
    (q : κ × β) (h : q ∈ mapReplace k v m) : q = (k, v) ∨ q ∈ m := by
  induction m with
  | nil => cases h
  | cons p m ih =>
    obtain ⟨k', v'⟩ := p
    unfold mapReplace at h
    by_cases hk : k' = k
    · rw [if_pos hk] at h
      rcases List.mem_cons.mp h with h1 | h1
      · exact Or.inl h1
      · exact Or.inr (List.mem_cons_of_mem _ h1)
    · rw [if_neg hk] at h
      rcases List.mem_cons.mp h with h1 | h1
      · exact Or.inr (by rw [h1]; exact List.mem_cons_self _ _)
      · rcases ih h1 with h2 | h2
        · exact Or.inl h2
        · exact Or.inr (List.mem_cons_of_mem _ h2)

theorem mem_mapSet_or {κ β : Type} [DecidableEq κ] (lt : κ → κ → Bool) (k : κ) (v : β)
    (m : List (κ × β)) (q : κ × β) (h : q ∈ mapSet lt k v m) : q = (k, v) ∨ q ∈ m := by
  unfold mapSet at h
  split at h
  · exact mem_mapReplace_or k v m q h
  · exact (mem_mapInsertNew lt k v m q).mp h

namespace SymHeapCore.Private

theorem mapFind_gridSet (grid : TGrid) (off off' : Int) (clt : TObjType) (obj : Int) :
    mapFind off' (gridSet grid off clt obj)
      = if off' = off then some (mapSet cltLt clt obj ((mapFind off grid).getD []))
        else mapFind off' grid := by
  unfold gridSet
  by_cases h : off' = off
  · rw [if_pos h, h]
    exact mapFind_mapSet_same _ _ _ _
  · rw [if_neg h]
    exact mapFind_mapSet_ne _ _ _ _ _ h

theorem gridGet_gridSet_same (grid : TGrid) (off : Int) (clt : TObjType) (obj : Int) :
    gridGet (gridSet grid off clt obj) off clt = some obj := by
  unfold gridGet
  rw [mapFind_gridSet, if_pos rfl]
  exact mapFind_mapSet_same _ _ _ _

theorem gridGet_gridSet_mono (grid : TGrid) (off off' : Int) (clt clt' : TObjType) (obj : Int)
    (h : gridGet grid off' clt' ≠ none) : gridGet (gridSet grid off clt obj) off' clt' ≠ none := by
  unfold gridGet at h ⊢
  rw [mapFind_gridSet]
  by_cases ho : off' = off
  · rw [if_pos ho]
    subst ho
    cases hr : mapFind off' grid with
    | none => rw [hr] at h; exact absurd rfl h
    | some row =>
      rw [hr] at h
      simp only [Option.some_bind, Option.getD_some] at h ⊢
      by_cases hc : clt' = clt
      · rw [hc, mapFind_mapSet_same]
        exact fun h => by cases h
      · rw [mapFind_mapSet_ne _ _ _ _ _ hc]
        exact h
  · rw [if_neg ho]
    exact h

theorem gridGet_gridSet_inv (grid : TGrid) (off off' : Int) (clt clt' : TObjType) (obj : Int)
    (h : gridGet (gridSet grid off clt obj) off' clt' ≠ none) :
    gridGet grid off' clt' ≠ none ∨ (off' = off ∧ clt' = clt) := by
  by_cases hk : off' = off ∧ clt' = clt
  · exact Or.inr hk
  · refine Or.inl ?_
    unfold gridGet at h ⊢
    rw [mapFind_gridSet] at h
    by_cases ho : off' = off
    · rw [if_pos ho] at h
      subst ho
      have hc : clt' ≠ clt := fun hc => hk ⟨rfl, hc⟩
      simp only [Option.some_bind] at h
      rw [mapFind_mapSet_ne _ _ _ _ _ hc] at h
      cases hr : mapFind off' grid with
      | none =>
        rw [hr] at h
        exact absurd rfl h
      | some row =>
        rw [hr] at h
        exact h
    · rw [if_neg ho] at h
      exact h

theorem GridOk.set {d d' : Private} {rootAt : Int} {grid : TGrid} (h : GridOk d rootAt grid)
    (hold : ∀ j o, d.objData j = some o → d'.objData j = some o) (off : Int) (clt : TObjType)
    (obj : Int)
    (hnew : d'.objData obj = some { value := VAL_INVALID, root := rootAt, off := off, clt := clt }) :
    GridOk d' rootAt (gridSet grid off clt obj) := by
  intro off' row hrow q hq
  rw [mapFind_gridSet] at hrow
  by_cases ho : off' = off
  · rw [if_pos ho] at hrow
    cases hrow
    rcases mem_mapSet_or _ _ _ _ _ hq with h1 | h1
    · rw [h1, ho]
      exact hnew
    · cases hr : mapFind off grid with
      | none =>
        rw [hr] at h1
        cases h1
      | some row0 =>
        rw [hr] at h1
        rw [ho]
        exact hold _ _ (h off row0 hr q h1)
  · rw [if_neg ho] at hrow
    exact hold _ _ (h off' row hrow q hq)

theorem GridOk.grow {d d' : Private} {rootAt : Int} {grid : TGrid} (h : GridOk d rootAt grid)
    (hold : ∀ j o, d.objData j = some o → d'.objData j = some o) : GridOk d' rootAt grid :=
  fun off row hrow q hq => hold _ _ (h off row hrow q hq)

end SymHeapCore.Private

namespace SymHeapCore.Private

/-- The inner loop of `subsCreate` returns: every member of the composite type
gets a sub-object in the grid and an entry on the stack. -/
theorem subsCreateItems_spec (rootAt offRoot : Int) (rb : BaseValue) :
    ∀ (items : List ClTypeItem) (d : Private) (rd : RootValue) (todo : List (Int × TObjType)),
      d.rootData rootAt = some (rb, rd) → GridOk d rootAt rd.grid →
      ∃ d' rd' new, subsCreateItems d rootAt offRoot items todo = some (d', new ++ todo) ∧
        d'.rootData rootAt = some (rb, rd') ∧ GridOk d' rootAt rd'.grid ∧
        (∀ off c, gridGet rd.grid off c ≠ none → gridGet rd'.grid off c ≠ none) ∧
        (∀ off c, gridGet rd'.grid off c ≠ none →
          gridGet rd.grid off c ≠ none ∨
            ∃ item ∈ items, off = offRoot + item.offset ∧ c = item.type) ∧
        (∀ item ∈ items, gridGet rd'.grid (offRoot + item.offset) item.type ≠ none) ∧
        (∀ item ∈ items, ∃ obj od, (obj, item.type) ∈ new ∧ d'.objData obj = some od ∧
          od.off = offRoot + item.offset) ∧
        (∀ e ∈ new, ∃ od, d'.objData e.1 = some od) ∧
        new.map Prod.snd = (items.map (fun item => item.type)).reverse := by
  intro items
  induction items with
  | nil =>
    intro d rd todo hr hg
    exact ⟨d, rd, [], rfl, hr, hg, fun _ _ h => h, fun _ _ h => Or.inl h,
      fun item hi => absurd hi (List.not_mem_nil item),
      fun item hi => absurd hi (List.not_mem_nil item),
      fun e he => absurd he (List.not_mem_nil e), rfl⟩
  | cons item rest ih =>
    intro d rd todo hr hg
    have hpos := (rootData_eq_some.mp hr).1
    have hent := (rootData_eq_some.mp hr).2
    have hlt := (ent_eq_some hent).2.1
    have hlen0 : (0 : Int) ≤ d.ents.length := by omega
    have hobj : (d.pushEnt (.HeapObject {})).objData d.ents.length = some {} :=
      objData_eq_some.mpr (ent_pushEnt_last _ _)
    have hr2 : ((d.pushEnt (.HeapObject {})).setEnt d.ents.length
        (.HeapObject { ({} : HeapObject) with
          clt := item.type, root := rootAt, off := offRoot + item.offset })).rootData rootAt
        = some (rb, rd) := by
      apply rootData_eq_some.mpr
      refine ⟨hpos, ?_⟩
      rw [ent_setEnt_ne _ hlen0 (by omega)]
      exact ent_pushEnt_of_some _ hent
    obtain ⟨d3, hd3⟩ : ∃ d3 : Private, d3 = ((d.pushEnt (.HeapObject {})).setEnt d.ents.length
        (.HeapObject { ({} : HeapObject) with
          clt := item.type, root := rootAt, off := offRoot + item.offset })).setEnt rootAt
        (.Value rb (.RootValue { rd with
          grid := gridSet rd.grid (offRoot + item.offset) item.type d.ents.length,
          allObjs := rd.allObjs ++ [(d.ents.length : Int)] })) := ⟨_, rfl⟩
    have hstep : subsCreateItems d rootAt offRoot (item :: rest) todo
        = subsCreateItems d3 rootAt offRoot rest (((d.ents.length : Int), item.type) :: todo) := by
      rw [subsCreateItems]
      simp only [Private.objCreate, lastId_pushEnt, hobj, Option.bind_eq_bind, Option.some_bind,
        hr2]
      rw [hd3]
    have hr3 : d3.rootData rootAt = some (rb, { rd with
          grid := gridSet rd.grid (offRoot + item.offset) item.type d.ents.length,
          allObjs := rd.allObjs ++ [(d.ents.length : Int)] }) := by
      rw [hd3]
      apply rootData_eq_some.mpr
      refine ⟨hpos, ?_⟩
      apply ent_setEnt_same _ (by omega)
      rw [length_setEnt, length_pushEnt]
      push_cast
      omega
    have hold3 : ∀ j e, j ≠ rootAt → d.ent j = some e → d3.ent j = some e := by
      intro j e hj he
      have hjl := (ent_eq_some he).2.1
      rw [hd3, ent_setEnt_ne _ (by omega) hj, ent_setEnt_ne _ hlen0 (by omega)]
      exact ent_pushEnt_of_some _ he
    have hobjs3 : ∀ j o, d.objData j = some o → d3.objData j = some o := by
      intro j o hj
      have hje := objData_eq_some.mp hj
      apply objData_eq_some.mpr
      apply hold3 j _ _ hje
      intro h
      rw [h, hent] at hje
      cases hje
    have hnew3 : d3.objData d.ents.length = some
        { value := VAL_INVALID, root := rootAt, off := offRoot + item.offset, clt := item.type } := by
      apply objData_eq_some.mpr
      rw [hd3, ent_setEnt_ne _ (by omega) (by omega)]
      exact ent_setEnt_same _ hlen0 (by rw [length_pushEnt]; push_cast; omega)
    have hg3 : GridOk d3 rootAt
        (gridSet rd.grid (offRoot + item.offset) item.type d.ents.length) :=
      hg.set hobjs3 _ _ _ hnew3
    obtain ⟨d', rd', new, hrun, hr', hg', hmono, hinv, hpres, hpend, hvalid, hmap⟩ :=
      ih d3 _ (((d.ents.length : Int), item.type) :: todo) hr3 hg3
    have hfr := subsCreateItems_frame rootAt offRoot rest d3 _ d' _ (by rw [hr3]; rfl) hrun
    have hkeep : ∀ j o, d3.objData j = some o → d'.objData j = some o := by
      intro j o hj
      have hje := objData_eq_some.mp hj
      apply objData_eq_some.mpr
      apply hfr.2.2.1 j _ _ hje
      intro h
      rw [h, (rootData_eq_some.mp hr3).2] at hje
      cases hje
    refine ⟨d', rd', new ++ [((d.ents.length : Int), item.type)], ?_, hr', hg', ?_, ?_, ?_, ?_, ?_,
      ?_⟩
    · rw [hstep, hrun, List.append_assoc]
      rfl
    · intro off c h
      exact hmono off c (gridGet_gridSet_mono _ _ _ _ _ _ h)
    · intro off c h
      rcases hinv off c h with h1 | ⟨it, hit, h2⟩
      · rcases gridGet_gridSet_inv _ _ _ _ _ _ h1 with h3 | h3
        · exact Or.inl h3
        · exact Or.inr ⟨item, List.mem_cons_self _ _, h3.1, h3.2⟩
      · exact Or.inr ⟨it, List.mem_cons_of_mem _ hit, h2⟩
    · intro it hit
      rcases List.mem_cons.mp hit with h1 | h1
      · rw [h1]
        apply hmono
        rw [gridGet_gridSet_same]
        exact fun h => by cases h
      · exact hpres it h1
    · intro it hit
      rcases List.mem_cons.mp hit with h1 | h1
      · rw [h1]
        exact ⟨d.ents.length, _, List.mem_append_right _ (List.mem_cons_self _ _),
          hkeep _ _ hnew3, rfl⟩
      · obtain ⟨obj, od, hm, ho, hoff⟩ := hpend it h1
        exact ⟨obj, od, List.mem_append_left _ hm, ho, hoff⟩
    · intro e he
      rcases List.mem_append.mp he with h1 | h1
      · exact hvalid e h1
      · rw [List.mem_singleton] at h1
        rw [h1]
        exact ⟨_, hkeep _ _ hnew3⟩
    · rw [List.map_append, hmap]
      simp

end SymHeapCore.Private

namespace SymHeapCore.Private

theorem typesSize_append (stor : Storage) :
    ∀ (l1 l2 : List TObjType) (k1 k2 : Nat), typesSize stor l1 k1 → typesSize stor l2 k2 →
      typesSize stor (l1 ++ l2) (k1 + k2) := by
  intro l1
  induction l1 with
  | nil =>
    intro l2 k1 k2 h1 h2
    simp only [typesSize] at h1
    subst h1
    simpa using h2
  | cons c rest ih =>
    intro l2 k1 k2 h1 h2
    obtain ⟨n, a, b, ha, hb, hk⟩ := h1
    exact ⟨n, a, b + k2, ha, ih l2 b k2 hb h2, by omega⟩

theorem typesSize_reverse (stor : Storage) :
    ∀ (l : List TObjType) (k : Nat), typesSize stor l k → typesSize stor l.reverse k := by
  intro l
  induction l with
  | nil => intro k h; exact h
  | cons c rest ih =>
    intro k h
    obtain ⟨n, a, b, ha, hb, hk⟩ := h
    rw [List.reverse_cons, hk, Nat.add_comm]
    exact typesSize_append stor _ _ _ _ (ih b hb) ⟨n, a, 0, ha, rfl, rfl⟩

theorem typeSize_items (stor : Storage) (n : Nat) :
    ∀ (items : List ClTypeItem) (a : Nat),
      items.foldr (fun item acc =>
          match typeSize stor n item.type, acc with
          | some a, some b => some (a + b)
          | _, _ => none) (some 1) = some a →
      ∃ k, typesSize stor (items.map (fun item => item.type)) k ∧ a = k + 1 := by
  intro items
  induction items with
  | nil =>
    intro a h
    simp only [List.foldr_nil, Option.some.injEq] at h
    exact ⟨0, rfl, h.symm⟩
  | cons item rest ih =>
    intro a h
    simp only [List.foldr_cons] at h
    cases hx : typeSize stor n item.type with
    | none => rw [hx] at h; cases h
    | some x =>
      rw [hx] at h
      cases hy : List.foldr (fun item acc =>
          match typeSize stor n item.type, acc with
          | some a, some b => some (a + b)
          | _, _ => none) (some 1) rest with
      | none => rw [hy] at h; cases h
      | some y =>
        rw [hy] at h
        simp only [Option.some.injEq] at h
        obtain ⟨k, hk, hyk⟩ := ih y hy
        exact ⟨x + k, ⟨n, x, k, hx, hk, rfl⟩, by omega⟩

/-- The tree under a type with a size: the type is in the table, and under a
composite type every member has a size. -/
theorem typeSize_unfold {stor : Storage} {n a : Nat} {c : TObjType}
    (h : typeSize stor n c = some a) :
    ∃ t, stor.cltData c = some t ∧ (isComposite stor c = false → a = 1) ∧
      (isComposite stor c = true →
        ∃ k, typesSize stor (t.items.map (fun item => item.type)) k ∧ a = k + 1) := by
  cases n with
  | zero => cases h
  | succ n =>
    unfold typeSize at h
    cases ht : stor.cltData c with
    | none => rw [ht] at h; cases h
    | some t =>
      rw [ht] at h
      simp only at h
      refine ⟨t, rfl, ?_, ?_⟩
      · intro hc
        rw [hc] at h
        simp only [Bool.false_eq_true, if_false, Option.some.injEq] at h
        exact h.symm
      · intro hc
        rw [hc] at h
        simp only [if_true] at h
        exact typeSize_items stor n t.items a h

theorem typeSize_pos {stor : Storage} {n a : Nat} {c : TObjType}
    (h : typeSize stor n c = some a) : 1 ≤ a := by
  obtain ⟨t, -, h1, h2⟩ := typeSize_unfold h
  cases hc : isComposite stor c with
  | false => rw [h1 hc]
  | true =>
    obtain ⟨k, -, hk⟩ := h2 hc
    omega

/-- The loop of `subsCreate` returns when the fuel covers the trees of the
types on the stack, and leaves a grid in which every entry has its members. -/
theorem subsCreateLoop_spec (stor : Storage) (rootAt : Int) (rb : BaseValue) :
    ∀ (fuel : Nat) (d : Private) (rd : RootValue) (todo : List (Int × TObjType)) (k : Nat),
      d.rootData rootAt = some (rb, rd) → GridOk d rootAt rd.grid →
      GridClosed stor d rd.grid todo → (∀ e ∈ todo, ∃ od, d.objData e.1 = some od) →
      typesSize stor (todo.map Prod.snd) k → k ≤ fuel →
      ∃ d' rd', subsCreateLoop stor rootAt fuel d todo = some d' ∧
        d'.rootData rootAt = some (rb, rd') ∧ GridOk d' rootAt rd'.grid ∧
        GridClosed stor d' rd'.grid [] ∧
        (∀ off c, gridGet rd.grid off c ≠ none → gridGet rd'.grid off c ≠ none) := by
  intro fuel
  induction fuel with
  | zero =>
    intro d rd todo k hr hg hc hv hs hk
    cases todo with
    | nil => exact ⟨d, rd, rfl, hr, hg, hc, fun _ _ h => h⟩
    | cons e rest =>
      obtain ⟨n, a, b, ha, -, hab⟩ := hs
      have := typeSize_pos ha
      omega
  | succ fuel ih =>
    intro d rd todo k hr hg hc hv hs hk
    cases todo with
    | nil => exact ⟨d, rd, rfl, hr, hg, hc, fun _ _ h => h⟩
    | cons e rest =>
      obtain ⟨obj, c⟩ := e
      obtain ⟨n, a, b, ha, hb, hab⟩ := hs
      obtain ⟨t, ht, hleaf, hnode⟩ := typeSize_unfold ha
      have hapos := typeSize_pos ha
      have hvrest : ∀ e ∈ rest, ∃ od, d.objData e.1 = some od :=
        fun e he => hv e (List.mem_cons_of_mem _ he)
      cases hcomp : isComposite stor c with
      | false =>
        have hc' : GridClosed stor d rd.grid rest := by
          intro off c' hp
          rcases hc off c' hp with ⟨o, od, hm, ho, hoff⟩ | h2
          · rcases List.mem_cons.mp hm with h1 | h1
            · simp only [Prod.mk.injEq] at h1
              refine Or.inr ?_
              intro ct hct hcc
              rw [h1.2, hcomp] at hcc
              cases hcc
            · exact Or.inl ⟨o, od, h1, ho, hoff⟩
          · exact Or.inr h2
        obtain ⟨d', rd', hrun, hr', hg', hc'', hmono⟩ :=
          ih d rd rest b hr hg hc' hvrest hb (by omega)
        refine ⟨d', rd', ?_, hr', hg', hc'', hmono⟩
        rw [subsCreateLoop]
        simp only [ht, hcomp, Bool.not_false, if_true]
        exact hrun
      | true =>
        obtain ⟨ki, hki, haki⟩ := hnode hcomp
        obtain ⟨od, hod⟩ := hv (obj, c) (List.mem_cons_self _ _)
        obtain ⟨d1, rd1, new, hitems, hr1, hg1, hmono1, hinv1, hpres1, hpend1, hvalid1, hmap1⟩ :=
          subsCreateItems_spec rootAt od.off rb t.items d rd rest hr hg
        have hfr := subsCreateItems_frame rootAt od.off t.items d rest d1 _ (by rw [hr]; rfl)
          hitems
        have hkeep : ∀ j o, d.objData j = some o → d1.objData j = some o := by
          intro j o hj
          have hje := objData_eq_some.mp hj
          apply objData_eq_some.mpr
          apply hfr.2.2.1 j _ _ hje
          intro h
          rw [h, (rootData_eq_some.mp hr).2] at hje
          cases hje
        have hc1 : GridClosed stor d1 rd1.grid (new ++ rest) := by
          intro off c' hp
          rcases hinv1 off c' hp with h1 | ⟨it, hit, h2, h3⟩
          · rcases hc off c' h1 with ⟨o, od', hm, ho, hoff⟩ | h2
            · rcases List.mem_cons.mp hm with h4 | h4
              · simp only [Prod.mk.injEq] at h4
                refine Or.inr ?_
                intro ct hct _ it hit
                rw [h4.2, ht] at hct
                cases hct
                rw [h4.1, hod] at ho
                cases ho
                rw [← hoff]
                exact hpres1 it hit
              · exact Or.inl ⟨o, od', List.mem_append_right _ h4, hkeep _ _ ho, hoff⟩
            · refine Or.inr ?_
              intro ct hct hcc it hit
              exact hmono1 _ _ (h2 ct hct hcc it hit)
          · obtain ⟨o, od', hm, ho, hoff⟩ := hpend1 it hit
            rw [h2, h3]
            exact Or.inl ⟨o, od', List.mem_append_left _ hm, ho, hoff⟩
        have hv1 : ∀ e ∈ new ++ rest, ∃ od, d1.objData e.1 = some od := by
          intro e he
          rcases List.mem_append.mp he with h1 | h1
          · exact hvalid1 e h1
          · obtain ⟨od', ho'⟩ := hvrest e h1
            exact ⟨od', hkeep _ _ ho'⟩
        have hs1 : typesSize stor ((new ++ rest).map Prod.snd) (ki + b) := by
          rw [List.map_append, hmap1]
          exact typesSize_append stor _ _ _ _ (typesSize_reverse stor _ _ hki) hb
        obtain ⟨d', rd', hrun, hr', hg', hc'', hmono⟩ :=
          ih d1 rd1 (new ++ rest) (ki + b) hr1 hg1 hc1 hv1 hs1 (by omega)
        refine ⟨d', rd', ?_, hr', hg', hc'', fun off c' h => hmono _ _ (hmono1 _ _ h)⟩
        rw [subsCreateLoop]
        simp only [ht, hcomp, Bool.not_true, Bool.false_eq_true, if_false, Option.bind_eq_bind,
          hod, Option.some_bind, hitems]
        exact hrun

end SymHeapCore.Private

namespace SymHeapCore.Private

/-- The member `subsCreate` on a fresh root with its root object: with fuel for
the tree of the type it returns, and the grid then holds a sub-object for every
member reachable through nested composite types. -/
theorem subsCreate_spec {d : Private} {stor : Storage} {rootAt obj : Int} {rb : BaseValue}
    {rd : RootValue} {n k fuel : Nat} (hr : d.rootData rootAt = some (rb, rd))
    (hall : rd.allObjs = [obj]) (hgrid : rd.grid = [])
    (hobj : d.objData obj
      = some { value := VAL_INVALID, root := rootAt, off := 0, clt := rd.lastKnownClt })
    (hsize : typeSize stor n rd.lastKnownClt = some k) (hk : k ≤ fuel) :
    ∃ d' rd', d.subsCreate stor fuel rootAt = some d' ∧ d'.rootData rootAt = some (rb, rd') ∧
      GridOk d' rootAt rd'.grid ∧
      ∀ off t, Member stor rd.lastKnownClt off t → gridGet rd'.grid off t ≠ none := by
  obtain ⟨t, ht, -, -⟩ := typeSize_unfold hsize
  have hpos := (rootData_eq_some.mp hr).1
  have hent := (rootData_eq_some.mp hr).2
  have hlt := (ent_eq_some hent).2.1
  obtain ⟨d2, hd2⟩ : ∃ d2 : Private, d2 =
      ({ d with liveRoots := setInsert intLt rootAt d.liveRoots } : Private).setEnt rootAt
        (.Value rb (.RootValue { rd with
          cbSize := t.size.toNat, grid := gridSet rd.grid 0 rd.lastKnownClt obj })) := ⟨_, rfl⟩
  have hrun : d.subsCreate stor fuel rootAt
      = subsCreateLoop stor rootAt fuel d2 [(obj, rd.lastKnownClt)] := by
    unfold subsCreate
    have hr1 : ({ d with liveRoots := setInsert intLt rootAt d.liveRoots } : Private).rootData
        rootAt = some (rb, rd) := hr
    simp only [hr1, Option.bind_eq_bind, Option.some_bind, ht, hall]
    rw [hd2, hall]
  have hr2 : d2.rootData rootAt = some (rb, { rd with
      cbSize := t.size.toNat, grid := gridSet rd.grid 0 rd.lastKnownClt obj }) := by
    rw [hd2]
    apply rootData_eq_some.mpr
    exact ⟨hpos, ent_setEnt_same _ (by omega) hlt⟩
  have hold : ∀ j o, d.objData j = some o → d2.objData j = some o := by
    intro j o hj
    have hje := objData_eq_some.mp hj
    apply objData_eq_some.mpr
    rw [hd2, ent_setEnt_ne _ (by omega) (by
      intro h
      rw [h, hent] at hje
      cases hje)]
    exact hje
  have hg0 : GridOk d rootAt rd.grid := by
    rw [hgrid]
    intro off row h
    cases h
  have hg2 : GridOk d2 rootAt (gridSet rd.grid 0 rd.lastKnownClt obj) :=
    hg0.set hold 0 _ obj (hold _ _ hobj)
  have hc2 : GridClosed stor d2 (gridSet rd.grid 0 rd.lastKnownClt obj)
      [(obj, rd.lastKnownClt)] := by
    intro off c hp
    rcases gridGet_gridSet_inv _ _ _ _ _ _ hp with h1 | h1
    · rw [hgrid] at h1
      exact absurd rfl h1
    · rw [h1.1, h1.2]
      exact Or.inl ⟨obj, _, List.mem_cons_self _ _, hold _ _ hobj, rfl⟩
  obtain ⟨d', rd', hloop, hr', hg', hc', hmono⟩ :=
    subsCreateLoop_spec stor rootAt rb fuel d2 _ [(obj, rd.lastKnownClt)] k hr2 hg2 hc2
      (by
        intro e he
        rw [List.mem_singleton] at he
        rw [he]
        exact ⟨_, hold _ _ hobj⟩)
      ⟨n, k, 0, hsize, rfl, rfl⟩ hk
  refine ⟨d', rd', hrun.trans hloop, hr', hg', ?_⟩
  intro off c hm
  induction hm with
  | root =>
    apply hmono
    show gridGet (gridSet rd.grid 0 rd.lastKnownClt obj) 0 rd.lastKnownClt ≠ none
    rw [gridGet_gridSet_same]
    exact fun h => by cases h
  | step _ hct hcomp hitem ih =>
    rcases hc' _ _ ih with ⟨o, od, hmem, -⟩ | h2
    · cases hmem
    · exact h2 _ hct hcomp _ hitem

end SymHeapCore.Private

namespace SymHeapCore

open SymHeapCore.Private

/-- The member `addrOfVar` on a variable that is not in the variable map, of a
type with a finite tree: with fuel for the tree it returns the second new slot,
a root of the storage class of the variable at its own address with no
off-values yet, whose grid holds a sub-object for every member reachable through
nested composite types. -/
theorem addrOfVar_creates {sh : SymHeapCore} {cv : CVar} {var : Var} {t : ClType}
    {n k fuel : Nat} (hnew : mapFind cv sh.d.cVarMap = none)
    (hgl : mapFind ({ cv with inst := 0 } : CVar) sh.d.cVarMap = none)
    (hvar : mapFind cv.uid sh.stor_.vars = some var)
    (ht : sh.stor_.cltData var.type = some t) (hnv : t.code ≠ CL_TYPE_VOID)
    (hsize : typeSize sh.stor_ n var.type = some k) (hk : k ≤ fuel) :
    ∃ sh1 rd, sh.addrOfVar fuel cv = some (sh1, (sh.d.ents.length : Int) + 1) ∧
      sh1.stor_ = sh.stor_ ∧
      sh1.d.rootData ((sh.d.ents.length : Int) + 1)
        = some ({ code := varCode var, origin := VO_ASSIGNED }, rd) ∧
      rd.addr = (sh.d.ents.length : Int) + 1 ∧ rd.offMap = [] ∧
      GridOk sh1.d ((sh.d.ents.length : Int) + 1) rd.grid ∧
      ∀ off c, Member sh.stor_ var.type off c → gridGet rd.grid off c ≠ none := by
  have hf : cVarMapFind sh.d.cVarMap cv = some VAL_INVALID := by
    unfold cVarMapFind
    simp only [hnew, hgl, Option.getD_none, ite_self]
  have hobj : (sh.d.pushEnt (.HeapObject {})).objData (sh.d.pushEnt (.HeapObject {})).lastId
      = some {} := by
    rw [lastId_pushEnt]
    exact objData_eq_some.mpr (ent_pushEnt_last _ _)
  have hvc : (sh.d.pushEnt (.HeapObject {})).valCreate
      (if var.isOnStack then VT_ON_STACK else VT_STATIC) VO_ASSIGNED
      = some ((sh.d.pushEnt (.HeapObject {})).pushEnt
          (.Value { code := varCode var, origin := VO_ASSIGNED } (.RootValue {})),
        (sh.d.ents.length : Int) + 1) := by
    unfold varCode
    cases var.isOnStack <;>
      simp [Private.valCreate, lastId_pushEnt, length_pushEnt]
  have hlen0 : (0 : Int) ≤ sh.d.ents.length := by omega
  have hroot3 : (((sh.d.pushEnt (.HeapObject {})).pushEnt
        (.Value { code := varCode var, origin := VO_ASSIGNED } (.RootValue {}))).setEnt
        sh.d.ents.length
        (.HeapObject { ({} : HeapObject) with
          clt := var.type, root := (sh.d.ents.length : Int) + 1 })).rootData
        ((sh.d.ents.length : Int) + 1)
      = some ({ code := varCode var, origin := VO_ASSIGNED }, {}) := by
    apply rootData_eq_some.mpr
    refine ⟨by omega, ?_⟩
    rw [ent_setEnt_ne _ hlen0 (by omega)]
    have := ent_pushEnt_last (sh.d.pushEnt (.HeapObject {}))
      (.Value { code := varCode var, origin := VO_ASSIGNED } (.RootValue {}))
    rw [length_pushEnt] at this
    push_cast at this
    exact this
  obtain ⟨d4, hd4⟩ : ∃ d4 : Private, d4 =
      (((sh.d.pushEnt (.HeapObject {})).pushEnt
        (.Value { code := varCode var, origin := VO_ASSIGNED } (.RootValue {}))).setEnt
        sh.d.ents.length
        (.HeapObject { ({} : HeapObject) with
          clt := var.type, root := (sh.d.ents.length : Int) + 1 })).setEnt
        ((sh.d.ents.length : Int) + 1)
        (.Value { code := varCode var, origin := VO_ASSIGNED }
          (.RootValue { ({} : RootValue) with
            cVar := cv, addr := (sh.d.ents.length : Int) + 1, lastKnownClt := var.type,
            allObjs := ({} : RootValue).allObjs ++ [(sh.d.ents.length : Int)] })) := ⟨_, rfl⟩
  have hroot4 : d4.rootData ((sh.d.ents.length : Int) + 1)
      = some ({ code := varCode var, origin := VO_ASSIGNED },
          { ({} : RootValue) with
            cVar := cv, addr := (sh.d.ents.length : Int) + 1, lastKnownClt := var.type,
            allObjs := ({} : RootValue).allObjs ++ [(sh.d.ents.length : Int)] }) := by
    rw [hd4]
    apply rootData_eq_some.mpr
    refine ⟨by omega, ?_⟩
    apply ent_setEnt_same _ (by omega)
    rw [length_setEnt, length_pushEnt, length_pushEnt]
    push_cast
    omega
  have hobj4 : d4.objData sh.d.ents.length = some
      { value := VAL_INVALID, root := (sh.d.ents.length : Int) + 1, off := 0, clt := var.type } := by
    rw [hd4]
    apply objData_eq_some.mpr
    rw [ent_setEnt_ne _ (by omega) (by omega)]
    apply ent_setEnt_same _ hlen0
    rw [length_pushEnt, length_pushEnt]
    push_cast
    omega
  obtain ⟨d5, rd5, hsub, hroot5, hg5, hmem5⟩ :=
    @subsCreate_spec d4 sh.stor_ _ _ _ _ n k fuel hroot4 rfl rfl hobj4 hsize hk
  have hfr := subsCreate_frame hsub
  obtain ⟨rd5', hroot5', -, haddr, -, hoffMap, -⟩ := hfr.2.2.2 _ _ hroot4
  rw [hroot5] at hroot5'
  cases hroot5'
  have hmap5 : d5.cVarMap = sh.d.cVarMap := by
    rw [hfr.1, hd4]
    rfl
  obtain ⟨m5, hm5⟩ : ∃ m5, m5 = mapSet cVarLt cv ((sh.d.ents.length : Int) + 1) sh.d.cVarMap :=
    ⟨_, rfl⟩
  refine ⟨{ sh with d := { d5 with cVarMap := m5 } }, rd5, ?_, rfl, ?_, haddr, hoffMap, ?_,
    hmem5⟩
  · unfold addrOfVar
    simp only [hf, Option.bind_eq_bind, Option.some_bind, hvar, ht, hnv, if_false,
      Private.objCreate, hobj, hvc]
    rw [if_neg (by decide)]
    rw [lastId_pushEnt]
    simp only [hroot3, Option.some_bind]
    rw [← hd4]
    simp only [hsub, Option.some_bind, Private.cVarMapInsert, hmap5, hnew]
    rw [hm5]
  · exact (rootData_congr d5 _ rfl _).trans hroot5
  · intro off row hrow q hq
    exact (objData_congr (d := d5) rfl _).trans (hg5 off row hrow q hq)

end SymHeapCore

namespace SymHeapCore

open SymHeapCore.Private

theorem ptrTypeOk_of_table {stor : Storage} (h : ptrTypesOk stor = true) (c : TObjType) :
    ptrTypeOk stor c = true := by
  cases c with
  | none => rfl
  | some i =>
    by_cases hi : i < stor.types.length
    · unfold ptrTypesOk at h
      exact List.all_eq_true.mp h i (List.mem_range.mpr hi)
    · unfold ptrTypeOk
      have : stor.cltData (some i) = none := by
        unfold Storage.cltData
        simp only
        exact List.getElem?_eq_none (by omega)
      rw [this]

theorem gridGet_eq_some {grid : TGrid} {off : Int} {c : TObjType} {o : Int}
    (h : gridGet grid off c = some o) :
    ∃ row, mapFind off grid = some row ∧ mapFind c row = some o := by
  unfold gridGet at h
  cases hr : mapFind off grid with
  | none => rw [hr] at h; cases h
  | some row =>
    rw [hr] at h
    exact ⟨row, rfl, h⟩

/-- The value `valByOffset(addr, off)` of a fresh root `addr` with a row at
`off` in its grid: it has the root `addr` and the offset `off`, and the grid
lookup at it gives that row. -/
theorem grid_at_offset {sh1 : SymHeapCore} {addr off : Int} {rb : BaseValue} {rd : RootValue}
    {row : TObjByType} (hr : sh1.d.rootData addr = some (rb, rd))
    (hderef : isPossibleToDeref rb.code = true) (hoff : rb.offRoot = 0)
    (hmap : rd.offMap = []) (hrow : mapFind off rd.grid = some row) (hne : row ≠ []) :
    ∃ sh2 v, sh1.valByOffset addr off = some (sh2, v) ∧ sh2.stor_ = sh1.stor_ ∧
      sh2.valRoot v = some addr ∧ sh2.valOffset v = some off ∧
      sh2.d.gridLookup v = some (.inr row) ∧
      ∀ j o, sh1.d.objData j = some o → sh2.d.objData j = some o := by
  have hpos := (rootData_eq_some.mp hr).1
  have hent := (rootData_eq_some.mp hr).2
  have hlt := (ent_eq_some hent).2.1
  have hcode := not_unknown_gone_of_deref hderef
  have hgne : rd.grid.isEmpty = false := by
    cases hg : rd.grid with
    | nil => rw [hg] at hrow; cases hrow
    | cons _ _ => rfl
  have hrne : row.isEmpty = false := by
    cases row with
    | nil => exact absurd rfl hne
    | cons _ _ => rfl
  have hunk : rb.code ≠ VT_UNKNOWN := fun h => hcode (Or.inl h.symm)
  by_cases ho : off = 0
  · subst ho
    have hvd := valData_of_rootData hr
    refine ⟨sh1, addr, valByOffset_zero _ _, rfl, ?_, ?_, ?_, fun _ _ h => h⟩
    · unfold valRoot Private.valRoot
      rw [if_neg (by omega)]
      simp only [hvd, Option.bind_eq_bind, Option.some_bind, valRootOf, hoff, if_true]
    · unfold valOffset
      rw [if_neg (by omega)]
      simp only [hvd, Option.bind_eq_bind, Option.some_bind, hoff]
    · unfold gridLookup
      rw [if_neg (by omega)]
      simp only [hvd, Option.bind_eq_bind, Option.some_bind, hunk, if_false, hderef,
        Bool.not_true, Bool.false_eq_true, valRootOf, hoff, if_true, hr, hgne, hrow, hrne]
  · have hnew := valByOffset_root_new hr hoff hderef ho (by rw [hmap]; rfl)
    have hvnew := valData_withOffValue_new hr off
    have hrnew := rootData_withOffValue_root hr off
    have hin : (sh1.withOffValue addr rb rd off).d.valOutOfRange addr = false :=
      valOutOfRange_of_valData (by rw [valData_of_rootData hrnew]; rfl)
    have hvpos : ¬ ((sh1.d.ents.length : Int) ≤ 0) := by omega
    refine ⟨_, _, hnew, rfl, ?_, ?_, ?_, ?_⟩
    · unfold valRoot Private.valRoot
      rw [if_neg hvpos]
      simp only [hvnew, Option.bind_eq_bind, Option.some_bind, valRootOf, ho, if_false, hin,
        Bool.false_eq_true]
    · unfold valOffset
      rw [if_neg hvpos]
      simp only [hvnew, Option.bind_eq_bind, Option.some_bind]
    · unfold gridLookup
      rw [if_neg hvpos]
      simp only [hvnew, Option.bind_eq_bind, Option.some_bind, hunk, if_false, hderef,
        Bool.not_true, Bool.false_eq_true, valRootOf, ho, hin, hrnew, hgne, hrow, hrne]
    · intro j o hj
      have hje := objData_eq_some.mp hj
      have hjl := (ent_eq_some hje).2.1
      apply objData_eq_some.mpr
      simp only [withOffValue]
      rw [ent_setEnt_ne _ (by omega) (by
        intro h
        rw [h, hent] at hje
        cases hje)]
      exact ent_pushEnt_of_some _ hje

/-- C25 (amended): `addrOfVar(cv)` on a variable that is not in the variable
map, of a type `T` whose tree of nested composite types is finite, with fuel for
the tree: it returns, and for every member reachable through nested composite
types of `T` at the cumulative offset `off` with the type `c` (and for `T`
itself at offset 0) the grid of the returned root holds an object `o` at
`(off, c)` with `objType(o) == c`, `valRoot(placedAt(o))` the returned address
and `valOffset(placedAt(o)) == off`.  `objAt(valByOffset(addr, off), c)` returns
`o` itself when `c` is not a pointer to data; when it is, it returns an object
of the root at that offset whose type is a pointer to data, not necessarily
`c`. -/
theorem C25_addrOfVar_tree (sh : SymHeapCore) (cv : CVar) (var : Var) (t : ClType)
    (n k fuel : Nat) (hnew : mapFind cv sh.d.cVarMap = none)
    (hgl : mapFind ({ cv with inst := 0 } : CVar) sh.d.cVarMap = none)
    (hvar : mapFind cv.uid sh.stor_.vars = some var)
    (ht : sh.stor_.cltData var.type = some t) (hnv : t.code ≠ CL_TYPE_VOID)
    (hsize : typeSize sh.stor_ n var.type = some k) (hk : k ≤ fuel)
    (hptr : ptrTypesOk sh.stor_ = true) :
    ∃ sh1 addr rb rd, sh.addrOfVar fuel cv = some (sh1, addr) ∧
      sh1.d.rootData addr = some (rb, rd) ∧
      ∀ off c, Member sh.stor_ var.type off c →
        ∃ o, gridGet rd.grid off c = some o ∧ sh1.objType o = some c ∧
          (∃ sh2 v, sh1.placedAt o = some (sh2, v) ∧ sh2.valRoot v = some addr ∧
            sh2.valOffset v = some off) ∧
          ∃ sh2 v o' od, sh1.valByOffset addr off = some (sh2, v) ∧
            sh2.objAt v c = some o' ∧ sh2.d.objData o' = some od ∧ od.off = off ∧
            od.root = addr ∧ (isDataPtr sh.stor_ c = false → o' = o ∧ od.clt = c) ∧
            (isDataPtr sh.stor_ c = true → isDataPtr sh.stor_ od.clt = true) := by
  obtain ⟨sh1, rd, hrun, hstor, hr, haddr, hmap, hg, hmem⟩ :=
    addrOfVar_creates hnew hgl hvar ht hnv hsize hk
  refine ⟨sh1, _, _, rd, hrun, hr, ?_⟩
  intro off c hm
  have hpres := hmem off c hm
  cases hgo : gridGet rd.grid off c with
  | none => exact absurd hgo hpres
  | some o =>
    obtain ⟨row, hrow, hfind⟩ := gridGet_eq_some hgo
    have hmemrow := mem_of_mapFind hfind
    have ho := hg off row hrow _ hmemrow
    have hopos := (ent_eq_some (objData_eq_some.mp ho)).1
    have hderef : isPossibleToDeref (varCode var) = true := by
      unfold varCode
      cases var.isOnStack <;> rfl
    have hrne : row ≠ [] := by
      intro h
      rw [h] at hmemrow
      cases hmemrow
    obtain ⟨sh2, v, hvo, hstor2, hvroot, hvoff, hgl2, hkeep⟩ :=
      grid_at_offset hr hderef rfl hmap hrow hrne
    have hapos : ¬ ((sh.d.ents.length : Int) + 1 ≤ 0) := by omega
    refine ⟨o, rfl, ?_, ⟨sh2, v, ?_, hvroot, hvoff⟩, ?_⟩
    · unfold objType
      rw [if_neg (by omega)]
      simp only [ho, Option.bind_eq_bind, Option.some_bind]
    · unfold placedAt
      rw [if_neg (by omega)]
      simp only [ho, Option.bind_eq_bind, Option.some_bind, hr, haddr, hapos, if_false]
      exact hvo
    · have hok : ∀ c, ptrTypeOk sh2.stor_ c = true := by
        intro c
        rw [hstor2, hstor]
        exact ptrTypeOk_of_table hptr c
      cases hdp : isDataPtr sh.stor_ c with
      | false =>
        refine ⟨sh2, v, o, _, hvo, ?_, hkeep _ _ ho, rfl, rfl, fun _ => ⟨rfl, rfl⟩,
          fun h => Bool.noConfusion h⟩
        rw [objAt_of_not_dataPtr sh2 v c (hok c) (by rw [hstor2, hstor]; exact hdp), hgl2]
        simp only [Option.map_some', objAtRow, hfind]
      | true =>
        have hrowok : row.all (fun it => ptrTypeOk sh2.stor_ it.1) = true :=
          List.all_eq_true.mpr (fun it _ => hok it.1)
        have hpa : sh2.objAt v c = some
            (((row.find? (fun it => isDataPtr sh2.stor_ it.1)).map Prod.snd).getD OBJ_UNKNOWN) := by
          rw [objAt_of_dataPtr sh2 v c (by rw [hstor2, hstor]; exact hdp)]
          unfold ptrAt
          simp only [hgl2, Option.bind_eq_bind, Option.some_bind]
          exact ptrAtRow_eq_find sh2.stor_ row hrowok
        cases hfq : row.find? (fun it => isDataPtr sh2.stor_ it.1) with
        | none =>
          have := List.find?_eq_none.mp hfq _ hmemrow
          simp only [hstor2, hstor, hdp, not_true_eq_false] at this
        | some q =>
          have hq1 := List.find?_some hfq
          have hq2 := List.mem_of_find?_eq_some hfq
          have hoq := hg off row hrow _ hq2
          rw [hfq] at hpa
          simp only [Option.map_some', Option.getD_some] at hpa
          rw [hstor2, hstor] at hq1
          exact ⟨sh2, v, q.2, _, hvo, hpa, hkeep _ _ hoq, rfl, rfl,
            fun h => Bool.noConfusion h, fun _ => hq1⟩

end SymHeapCore

open SymHeapCore in
/-- The pointer to `char` is a member of the union type of `exUnionVarStor`, at
offset 0. -/
theorem exUnion_member : Member exUnionVarStor (some 4) 0 (some 3) :=
  @Member.step exUnionVarStor (some 4) 0 (some 4) _ { type := some 3, offset := 0 } Member.root
    (rfl : exUnionVarStor.cltData (some 4) = some
      { code := CL_TYPE_UNION, size := 8,
        items := [{ type := some 1, offset := 0 }, { type := some 3, offset := 0 }] })
    (by decide) (by decide)

set_option maxRecDepth 100000 in
open SymHeapCore in
/-- C25, witness: the stack variable of the union type, created in a fresh heap
with fuel 4; the member of type pointer to `char` at offset 0. -/
theorem C25_addrOfVar_tree_witness :
    ∃ sh1 addr rb rd, ((SymHeapCore.create exUnionVarStor).getD {}).addrOfVar 4 exVar
        = some (sh1, addr) ∧
      sh1.d.rootData addr = some (rb, rd) ∧
      ∃ o, gridGet rd.grid 0 (some 3) = some o ∧ sh1.objType o = some (some 3) ∧
        (∃ sh2 v, sh1.placedAt o = some (sh2, v) ∧ sh2.valRoot v = some addr ∧
          sh2.valOffset v = some 0) := by
  obtain ⟨sh1, addr, rb, rd, h1, h2, h3⟩ :=
    C25_addrOfVar_tree ((SymHeapCore.create exUnionVarStor).getD {}) exVar
      { type := some 4, isOnStack := true }
      { code := CL_TYPE_UNION, size := 8,
        items := [{ type := some 1, offset := 0 }, { type := some 3, offset := 0 }] }
      3 3 4 (by decide) (by decide) (by decide) (by decide) (by decide) (by decide) (by decide)
      (by decide)
  obtain ⟨o, g1, g2, g3, -⟩ := h3 0 (some 3) exUnion_member
  exact ⟨sh1, addr, rb, rd, h1, h2, o, g1, g2, g3⟩

set_option maxRecDepth 100000 in
open SymHeapCore in
/-- C25 fails as stated.  In `exUnionVarHeap`, the heap `addrOfVar` leaves when
it creates the variable of the union type at the address 3, the grid holds the
object 5 at offset 0 under the pointer to `char` (type 3), a member of the
union, but `objAt(valByOffset(3, 0), pointer to char)` returns the object 4,
whose type is the pointer to `int` (type 1). -/
theorem C25_counterexample :
    ((SymHeapCore.create exUnionVarStor).bind (fun sh => sh.addrOfVar 4 exVar))
      = some (exUnionVarHeap, 3) ∧
    Member exUnionVarStor (some 4) 0 (some 3) ∧
    (exUnionVarHeap.d.rootData 3).map (fun p => gridGet p.2.grid 0 (some 3)) = some (some 5) ∧
    exUnionVarHeap.objType 5 = some (some 3) ∧
    exUnionVarHeap.valByOffset 3 0 = some (exUnionVarHeap, 3) ∧
    exUnionVarHeap.objAt 3 (some 3) = some 4 ∧
    exUnionVarHeap.objType 4 = some (some 1) :=
  ⟨by decide, exUnion_member, by decide, by decide, by decide, by decide, by decide⟩

theorem matchPlainValuesCore_inverse (m : TValMapBidir) (v1 v2 : Int) (hinv : m.Inverse) :
    (matchPlainValuesCore m v1 v2).1.Inverse := by
  unfold matchPlainValuesCore
  cases h1 : mapFind v1 m.ltr with
  | some x => exact hinv
  | none =>
    cases h2 : mapFind v2 m.rtl with
    | some y => exact hinv
    | none =>
      intro a b
      show mapFind a (mapSet intLt v1 v2 m.ltr) = some b ↔
        mapFind b (mapSet intLt v2 v1 m.rtl) = some a
      by_cases ha : a = v1
      · by_cases hb : b = v2
        · subst ha; subst hb
          rw [mapFind_mapSet_same, mapFind_mapSet_same]
          exact ⟨fun _ => rfl, fun _ => rfl⟩
        · subst ha
          rw [mapFind_mapSet_same, mapFind_mapSet_ne _ _ _ _ _ hb]
          constructor
          · intro h; exact absurd (Option.some.inj h).symm hb
          · intro h; rw [(hinv a b).2 h] at h1; exact Option.noConfusion h1
      · by_cases hb : b = v2
        · subst hb
          rw [mapFind_mapSet_same, mapFind_mapSet_ne _ _ _ _ _ ha]
          constructor
          · intro h; rw [(hinv a b).1 h] at h2; exact Option.noConfusion h2
          · intro h; exact absurd (Option.some.inj h).symm ha
        · rw [mapFind_mapSet_ne _ _ _ _ _ ha, mapFind_mapSet_ne _ _ _ _ _ hb]
          exact hinv a b

/-- C32 (amended): for mutually inverse maps, `matchPlainValuesCore` returns
true exactly when `v1` is already mapped to `v2`, or neither `v1` is mapped
left-to-right nor `v2` right-to-left; in the latter case it records
`ltr[v1] = v2` and `rtl[v2] = v1` and touches no other key; when it returns
false both maps are left unchanged. -/
theorem C32_matchPlainValuesCore (m : TValMapBidir) (v1 v2 : Int) (hinv : m.Inverse) :
    ((matchPlainValuesCore m v1 v2).2 = true ↔
      (mapFind v1 m.ltr = some v2 ∨ (mapFind v1 m.ltr = none ∧ mapFind v2 m.rtl = none))) ∧
    (mapFind v1 m.ltr = some v2 → (matchPlainValuesCore m v1 v2).1 = m) ∧
    (mapFind v1 m.ltr = none → mapFind v2 m.rtl = none →
      (matchPlainValuesCore m v1 v2).1 =
        { ltr := mapSet intLt v1 v2 m.ltr, rtl := mapSet intLt v2 v1 m.rtl } ∧
      mapFind v1 (matchPlainValuesCore m v1 v2).1.ltr = some v2 ∧
      mapFind v2 (matchPlainValuesCore m v1 v2).1.rtl = some v1 ∧
      (∀ k, k ≠ v1 → mapFind k (matchPlainValuesCore m v1 v2).1.ltr = mapFind k m.ltr) ∧
      (∀ k, k ≠ v2 → mapFind k (matchPlainValuesCore m v1 v2).1.rtl = mapFind k m.rtl)) ∧
    ((matchPlainValuesCore m v1 v2).2 = false → (matchPlainValuesCore m v1 v2).1 = m) := by
  unfold matchPlainValuesCore
  cases h1 : mapFind v1 m.ltr with
  | some x =>
    refine ⟨?_, fun _ => rfl, fun h => Option.noConfusion h, fun _ => rfl⟩
    simp
  | none =>
    cases h2 : mapFind v2 m.rtl with
    | some y =>
      refine ⟨?_, fun _ => rfl, fun _ h => Option.noConfusion h, fun _ => rfl⟩
      have hne : y ≠ v1 := by
        intro hy
        rw [hy] at h2
        rw [(hinv v1 v2).2 h2] at h1
        exact Option.noConfusion h1
      simp [hne]
    | none =>
      refine ⟨by simp, fun h => Option.noConfusion h, fun _ _ => ⟨rfl, ?_, ?_, ?_, ?_⟩,
        fun h => Bool.noConfusion h⟩
      · exact mapFind_mapSet_same _ _ _ _
      · exact mapFind_mapSet_same _ _ _ _
      · intro k hk; exact mapFind_mapSet_ne _ _ _ _ _ hk
      · intro k hk; exact mapFind_mapSet_ne _ _ _ _ _ hk

theorem C32_matchPlainValuesCore_witness :
    ((matchPlainValuesCore { ltr := [(1, 2)], rtl := [(2, 1)] } 3 4).2 = true ↔
      (mapFind 3 [((1 : Int), (2 : Int))] = some 4 ∨
        (mapFind 3 [((1 : Int), (2 : Int))] = none ∧ mapFind 4 [((2 : Int), (1 : Int))] = none))) ∧
    ((matchPlainValuesCore { ltr := [(1, 2)], rtl := [(2, 1)] } 1 4).2 = false →
      (matchPlainValuesCore { ltr := [(1, 2)], rtl := [(2, 1)] } 1 4).1 =
        { ltr := [(1, 2)], rtl := [(2, 1)] }) :=
  have hinv : TValMapBidir.Inverse { ltr := [(1, 2)], rtl := [(2, 1)] } := by
    intro a b
    simp only [mapFind]
    constructor
    · intro h
      split at h
      · rename_i ha
        have hb := Option.some.inj h
        subst ha; subst hb; rfl
      · exact Option.noConfusion h
    · intro h
      split at h
      · rename_i hb
        have ha := Option.some.inj h
        subst ha; subst hb; rfl
      · exact Option.noConfusion h
  ⟨(C32_matchPlainValuesCore _ 3 4 hinv).1, (C32_matchPlainValuesCore _ 1 4 hinv).2.2.2⟩

/-- C32, counterexample: with maps that are not mutually inverse (nothing
left-to-right, `rtl[2] = 1`) the call on `(1, 2)` returns true although `1` is
not mapped to `2` and `2` is mapped right-to-left. -/
theorem C32_counterexample :
    (matchPlainValuesCore { ltr := [], rtl := [(2, 1)] } 1 2).2 = true ∧
    mapFind (1 : Int) ([] : TValMap) ≠ some 2 ∧
    mapFind (2 : Int) [((2 : Int), (1 : Int))] ≠ none ∧
    (matchPlainValuesCore { ltr := [], rtl := [(2, 1)] } 1 2).1 = { ltr := [], rtl := [(2, 1)] } := by
  decide

theorem MapsReached.inverse {m : TValMapBidir} (h : MapsReached m) : m.Inverse := by
  induction h with
  | empty => intro a b; exact ⟨fun h => Option.noConfusion h, fun h => Option.noConfusion h⟩
  | call m v1 v2 _ ih => exact matchPlainValuesCore_inverse m v1 v2 ih

theorem matchPlainValues_reached {m : TValMapBidir} {sh1 sh2 : SymHeap} {v1 v2 : Int} {ng : Bool}
    {r : TValMapBidir × Bool} (h : matchPlainValues m sh1 sh2 v1 v2 ng = some r)
    (hm : MapsReached m) : MapsReached r.1 := by
  unfold matchPlainValues at h
  split at h
  · cases h; exact hm
  split at h
  · cases h; exact hm
  cases ht1 : sh1.valTarget v1 with
  | none => simp [ht1] at h
  | some c1 =>
  cases ht2 : sh2.valTarget v2 with
  | none => simp [ht1, ht2] at h
  | some c2 =>
  simp only [ht1, ht2, Option.bind_eq_bind, Option.some_bind] at h
  split at h
  · cases h; exact MapsReached.call _ _ _ hm
  cases ho1 : sh1.toSymHeapCore.valOffset v1 with
  | none => simp [ho1] at h
  | some o1 =>
  cases ho2 : sh2.toSymHeapCore.valOffset v2 with
  | none => simp [ho1, ho2] at h
  | some o2 =>
  simp only [ho1, ho2, Option.some_bind] at h
  split at h
  · cases h; exact hm
  cases hr1 : sh1.toSymHeapCore.valRoot v1 with
  | none => simp [hr1] at h
  | some r1 =>
  cases hr2 : sh2.toSymHeapCore.valRoot v2 with
  | none => simp [hr1, hr2] at h
  | some r2 =>
  simp only [hr1, hr2, Option.some_bind] at h
  split at h
  · cases h; exact MapsReached.call _ _ _ hm
  split at h
  · cases h; exact MapsReached.call _ _ _ hm
  · cases h; exact MapsReached.call _ _ _ (MapsReached.call _ _ _ hm)

theorem matchValues_reached {m : TValMapBidir} {sh1 sh2 : SymHeap} {v1 v2 : Int}
    {r : TValMapBidir × Bool} (h : matchValues m sh1 sh2 v1 v2 = some r)
    (hm : MapsReached m) : MapsReached r.1 := by
  unfold matchValues at h
  cases hp : matchPlainValues m sh1 sh2 v1 v2 true with
  | none => simp [hp] at h
  | some p =>
  have hp1 := matchPlainValues_reached hp hm
  simp only [hp, Option.bind_eq_bind, Option.some_bind] at h
  split at h
  · cases h; exact hp1
  split at h
  · exact Option.noConfusion h
  split at h
  · cases h; exact hp1
  cases hu1 : sh1.valGetUnknown v1 with
  | none => simp [hu1] at h
  | some u1 =>
  cases hu2 : sh2.valGetUnknown v2 with
  | none => simp [hu1, hu2] at h
  | some u2 =>
  simp only [hu1, hu2, Option.some_bind] at h
  split at h
  · cases h; exact hp1
  split at h
  · cases hk : matchValuesKnown sh1 sh2 v1 v2 with
    | none => simp [hk] at h
    | some ok => simp only [hk, Option.some_bind] at h; cases h; exact hp1
  · cases hk : matchValuesKnown sh1 sh2 v1 v2 with
    | none => simp [hk] at h
    | some ok => simp only [hk, Option.some_bind] at h; cases h; exact hp1
  · cases h; exact hp1
  · cases h; exact hp1
  · cases h; exact hp1

theorem valueComparator_reached {st : CmpState} {item : Int × Int} {r : CmpState × Bool}
    (h : valueComparator st item = some r) (hm : MapsReached st.vMap) :
    MapsReached r.1.vMap := by
  unfold valueComparator at h
  cases h1 : st.sh1.toSymHeapCore.valueOf item.1 with
  | none => simp [h1] at h
  | some p1 =>
  cases h2 : st.sh2.toSymHeapCore.valueOf item.2 with
  | none => simp [h1, h2] at h
  | some p2 =>
  obtain ⟨c1, v1⟩ := p1
  obtain ⟨c2, v2⟩ := p2
  simp only [h1, h2, Option.bind_eq_bind, Option.some_bind] at h
  cases hmv : matchValues st.vMap (st.sh1.withCore c1) (st.sh2.withCore c2) v1 v2 with
  | none => simp [hmv] at h
  | some q =>
  have hq := matchValues_reached hmv hm
  simp only [hmv, Option.some_bind] at h
  split at h
  · cases h; exact hq
  · cases h; exact hq

theorem visitLiveItems_reached (roots : Int × Int) :
    ∀ (l : List (Int × TObjType)) (st : CmpState) (r : CmpState × Bool),
      visitLiveItems roots st l = some r → MapsReached st.vMap → MapsReached r.1.vMap := by
  intro l
  induction l with
  | nil =>
    intro st r h hm
    simp only [visitLiveItems] at h
    cases h; exact hm
  | cons x rest ih =>
    intro st r h hm
    obtain ⟨off, clt⟩ := x
    simp only [visitLiveItems, Option.bind_eq_bind] at h
    cases h1 : st.sh1.toSymHeapCore.valByOffset roots.1 off with
    | none => simp [h1] at h
    | some p1 =>
    obtain ⟨c1, a1⟩ := p1
    simp only [h1, Option.some_bind] at h
    cases ho1 : c1.objAt a1 clt with
    | none => simp [ho1] at h
    | some o1 =>
    simp only [ho1, Option.some_bind] at h
    cases h2 : st.sh2.toSymHeapCore.valByOffset roots.2 off with
    | none => simp [h2] at h
    | some p2 =>
    obtain ⟨c2, a2⟩ := p2
    simp only [h2, Option.some_bind] at h
    cases ho2 : c2.objAt a2 clt with
    | none => simp [ho2] at h
    | some o2 =>
    simp only [ho2, Option.some_bind] at h
    cases hv : valueComparator { st with sh1 := st.sh1.withCore c1, sh2 := st.sh2.withCore c2 }
        (o1, o2) with
    | none => simp [hv] at h
    | some q =>
    have hq : MapsReached q.1.vMap := valueComparator_reached hv hm
    simp only [hv, Option.some_bind] at h
    split at h
    · cases h; exact hq
    · exact ih _ _ h hq

theorem traverseLiveObjs_reached {st : CmpState} {roots : Int × Int} {r : CmpState × Bool}
    (h : traverseLiveObjs st roots = some r) (hm : MapsReached st.vMap) :
    MapsReached r.1.vMap := by
  unfold traverseLiveObjs at h
  simp only [Option.bind_eq_bind] at h
  have key : ∀ (o : Option (List Int)) (a : SymHeap × List (Int × TObjType)),
      (o.bind fun y => (gatherLiveItems st.sh2 a.2 y).bind fun p =>
        visitLiveItems roots { wl := st.wl, vMap := st.vMap, sh1 := a.1, sh2 := p.1 } p.2)
        = some r → MapsReached r.1.vMap := by
    intro o a hk
    obtain ⟨y, _, hy⟩ := Option.bind_eq_some.1 hk
    obtain ⟨p, _, hp⟩ := Option.bind_eq_some.1 hy
    exact visitLiveItems_reached roots _ _ r hp hm
  split at h
  · obtain ⟨y, _, hy⟩ := Option.bind_eq_some.1 h
    obtain ⟨a, _, ha⟩ := Option.bind_eq_some.1 hy
    split at ha
    · exact key _ a ha
    · exact key _ a ha
  · obtain ⟨y, _, hy⟩ := Option.bind_eq_some.1 h
    obtain ⟨a, _, ha⟩ := Option.bind_eq_some.1 hy
    split at ha
    · exact key _ a ha
    · exact key _ a ha

theorem digRoots_reached {st : CmpState} {v1 v2 : Int} {r : CmpState × Bool}
    (h : digRoots st v1 v2 = some r) (hm : MapsReached st.vMap) : MapsReached r.1.vMap := by
  unfold digRoots at h
  simp only [Option.bind_eq_bind] at h
  cases h1 : st.sh1.toSymHeapCore.valRoot v1 with
  | none => simp [h1] at h
  | some r1 =>
  cases h2 : st.sh2.toSymHeapCore.valRoot v2 with
  | none => simp [h1, h2] at h
  | some r2 =>
  simp only [h1, h2, Option.some_bind] at h
  exact traverseLiveObjs_reached h hm

theorem dfsCmp_reached : ∀ (fuel : Nat) (st : CmpState) (r : CmpState × Bool),
    dfsCmp fuel st = some r → MapsReached st.vMap → MapsReached r.1.vMap := by
  intro fuel
  induction fuel with
  | zero =>
    intro st r h hm
    simp only [dfsCmp] at h
    split at h
    · cases h; exact hm
    · exact Option.noConfusion h
  | succ n ih =>
    intro st r h hm
    simp only [dfsCmp] at h
    split at h
    · cases h; exact hm
    rename_i v1 v2 wl hnext
    simp only [Option.bind_eq_bind] at h
    cases hc1 : st.sh1.valTarget v1 with
    | none => simp [hc1] at h
    | some c1 =>
    cases hc2 : st.sh2.valTarget v2 with
    | none => simp [hc1, hc2] at h
    | some c2 =>
    simp only [hc1, hc2, Option.some_bind] at h
    split at h
    · cases h; exact hm
    cases hmv : matchValues st.vMap st.sh1 st.sh2 v1 v2 with
    | none => simp [hmv] at h
    | some q =>
    have hq := matchValues_reached hmv hm
    simp only [hmv, Option.some_bind] at h
    split at h
    · cases h; exact hq
    split at h
    · exact ih _ _ h hq
    cases hd : digRoots { wl := wl, vMap := q.1, sh1 := st.sh1, sh2 := st.sh2 } v1 v2 with
    | none => simp [hd] at h
    | some r2 =>
    have hr2 : MapsReached r2.1.vMap := digRoots_reached hd hq
    simp only [hd, Option.some_bind] at h
    split at h
    · cases h; exact hr2
    · exact ih _ _ h hr2

theorem scheduleCVars_vMap (fuel : Nat) : ∀ (l : List CVar) (st st2 : CmpState),
    scheduleCVars fuel st l = some st2 → st2.vMap = st.vMap := by
  intro l
  induction l with
  | nil => intro st st2 h; simp only [scheduleCVars] at h; cases h; rfl
  | cons cv rest ih =>
    intro st st2 h
    simp only [scheduleCVars, Option.bind_eq_bind] at h
    cases h1 : st.sh1.toSymHeapCore.addrOfVar fuel cv with
    | none => simp [h1] at h
    | some p1 =>
    cases h2 : st.sh2.toSymHeapCore.addrOfVar fuel cv with
    | none => simp [h1, h2] at h
    | some p2 =>
    obtain ⟨c1, v1⟩ := p1
    obtain ⟨c2, v2⟩ := p2
    simp only [h1, h2, Option.some_bind] at h
    have h3 := ih _ _ h
    exact h3

theorem areEqual_reached {fuel : Nat} {sh1 sh2 : SymHeap} {m1 m2 : TValMap}
    (h : areEqual fuel sh1 sh2 = some (true, m1, m2)) :
    MapsReached { ltr := m1, rtl := m2 } := by
  unfold areEqual at h
  simp only [Option.bind_eq_bind] at h
  split at h
  · cases h
  cases hs : scheduleCVars fuel { sh1 := sh1, sh2 := sh2 } (sh1.toSymHeapCore.gatherCVars []) with
  | none => simp [hs] at h
  | some st =>
  simp only [hs, Option.some_bind] at h
  cases hd : dfsCmp fuel st with
  | none => simp [hd] at h
  | some r =>
  simp only [hd, Option.some_bind] at h
  have hst : MapsReached st.vMap := by
    rw [scheduleCVars_vMap fuel _ _ _ hs]; exact MapsReached.empty
  have hr := dfsCmp_reached fuel st r hd hst
  split at h
  · cases h
  split at h
  · cases h
  · cases h; exact hr
/-- C37: starting from two empty maps, every sequence of `matchPlainValuesCore`
calls keeps the two maps mutually inverse (`ltr[a] == b` if and only if
`rtl[b] == a`), hence both injective; the maps a successful `areEqual` returns
as `srcToDst` and `dstToSrc` are reached that way, so they are mutually inverse
injections, inverse bijections between their key sets. -/
theorem C37_maps_inverse :
    (∀ m : TValMapBidir, MapsReached m →
      (∀ a b, mapFind a m.ltr = some b ↔ mapFind b m.rtl = some a) ∧
      (∀ a a2 b, mapFind a m.ltr = some b → mapFind a2 m.ltr = some b → a = a2) ∧
      (∀ b b2 a, mapFind b m.rtl = some a → mapFind b2 m.rtl = some a → b = b2)) ∧
    (∀ (fuel : Nat) (sh1 sh2 : SymHeap) (srcToDst dstToSrc : TValMap),
      areEqual fuel sh1 sh2 = some (true, srcToDst, dstToSrc) →
      (∀ a b, mapFind a srcToDst = some b ↔ mapFind b dstToSrc = some a) ∧
      (∀ a a2 b, mapFind a srcToDst = some b → mapFind a2 srcToDst = some b → a = a2) ∧
      (∀ b b2 a, mapFind b dstToSrc = some a → mapFind b2 dstToSrc = some a → b = b2)) := by
  have key : ∀ m : TValMapBidir, MapsReached m →
      (∀ a b, mapFind a m.ltr = some b ↔ mapFind b m.rtl = some a) ∧
      (∀ a a2 b, mapFind a m.ltr = some b → mapFind a2 m.ltr = some b → a = a2) ∧
      (∀ b b2 a, mapFind b m.rtl = some a → mapFind b2 m.rtl = some a → b = b2) := by
    intro m hm
    have hinv := hm.inverse
    refine ⟨hinv, ?_, ?_⟩
    · intro a a2 b h1 h2
      have e1 := (hinv a b).1 h1
      have e2 := (hinv a2 b).1 h2
      rw [e1] at e2
      exact Option.some.inj e2
    · intro b b2 a h1 h2
      have e1 := (hinv a b).2 h1
      have e2 := (hinv a b2).2 h2
      rw [e1] at e2
      exact Option.some.inj e2
  exact ⟨key, fun fuel sh1 sh2 m1 m2 h => key _ (areEqual_reached h)⟩

theorem C37_maps_inverse_witness :
    ((∀ a b, mapFind a (matchPlainValuesCore (matchPlainValuesCore {} 1 2).1 3 4).1.ltr = some b ↔
        mapFind b (matchPlainValuesCore (matchPlainValuesCore {} 1 2).1 3 4).1.rtl = some a) ∧
      (matchPlainValuesCore (matchPlainValuesCore {} 1 2).1 3 4).1 =
        { ltr := [(1, 2), (3, 4)], rtl := [(2, 1), (4, 3)] }) ∧
    (areEqual 1 exCycleHeap exCycleHeap = some (true, [], []) ∧
      ∀ a b, mapFind a ([] : TValMap) = some b ↔ mapFind b ([] : TValMap) = some a) :=
  ⟨⟨(C37_maps_inverse.1 _
      (MapsReached.call _ 3 4 (MapsReached.call _ 1 2 MapsReached.empty))).1, by decide⟩,
    by decide, (C37_maps_inverse.2 1 exCycleHeap exCycleHeap [] [] (by decide)).1⟩

namespace SymHeapCore

theorem valMapLookup_eq_some (valMap : List (Int × Int)) (a x : Int) :
    valMapLookup valMap a = some x ↔
      (a ≤ VAL_NULL ∧ x = a) ∨ (VAL_NULL < a ∧ mapFind a valMap = some x) := by
  unfold valMapLookup
  split
  · rename_i h
    constructor
    · intro e; exact Or.inl ⟨h, (Option.some.inj e).symm⟩
    · rintro (⟨_, e⟩ | ⟨h2, _⟩)
      · rw [e]
      · exact absurd h (not_le.2 h2)
  · rename_i h
    constructor
    · intro e; exact Or.inr ⟨not_le.1 h, e⟩
    · rintro (⟨h2, _⟩ | ⟨_, e⟩)
      · exact absurd h2 h
      · exact e

theorem matchPredsLoop_iff (ref : SymHeapCore) (valMap : List (Int × Int)) :
    ∀ l : List (Int × Int), matchPredsLoop ref valMap l = true ↔
      ∀ a b, (a, b) ∈ l → ∀ x y, valMapLookup valMap a = some x →
        valMapLookup valMap b = some y → ref.d.neqDb.areNeq x y = true := by
  intro l
  induction l with
  | nil =>
    simp only [matchPredsLoop, true_iff]
    intro a b h; exact absurd h (List.not_mem_nil _)
  | cons item rest ih =>
    obtain ⟨p, q⟩ := item
    have hskip : (∀ x y, valMapLookup valMap p = some x → valMapLookup valMap q = some y → False) →
        (matchPredsLoop ref valMap rest = true ↔
          ∀ a b, (a, b) ∈ (p, q) :: rest → ∀ x y, valMapLookup valMap a = some x →
            valMapLookup valMap b = some y → ref.d.neqDb.areNeq x y = true) := by
      intro hno
      rw [ih]
      constructor
      · intro h a b hab x y hx hy
        rcases List.mem_cons.1 hab with e | hmem
        · cases e; exact (hno x y hx hy).elim
        · exact h a b hmem x y hx hy
      · intro h a b hab x y hx hy
        exact h a b (List.mem_cons_of_mem _ hab) x y hx hy
    cases hp : valMapLookup valMap p with
    | none =>
      simp only [matchPredsLoop, hp]
      exact hskip (fun x y hx _ => by rw [hp] at hx; exact Option.noConfusion hx)
    | some x0 =>
      cases hq : valMapLookup valMap q with
      | none =>
        simp only [matchPredsLoop, hp, hq]
        exact hskip (fun x y _ hy => by rw [hq] at hy; exact Option.noConfusion hy)
      | some y0 =>
        simp only [matchPredsLoop, hp, hq]
        cases hn : ref.d.neqDb.areNeq x0 y0 with
        | false =>
          simp only [Bool.not_false, if_true]
          constructor
          · intro h; exact Bool.noConfusion h
          · intro h
            have := h p q (List.mem_cons_self _ _) x0 y0 hp hq
            rw [hn] at this; exact this
        | true =>
          simp only [Bool.not_true, Bool.false_eq_true, if_false]
          rw [ih]
          constructor
          · intro h a b hab x y hx hy
            rcases List.mem_cons.1 hab with e | hmem
            · cases e
              rw [hp] at hx; rw [hq] at hy
              cases hx; cases hy; exact hn
            · exact h a b hmem x y hx hy
          · intro h a b hab x y hx hy
            exact h a b (List.mem_cons_of_mem _ hab) x y hx hy

/-- C33: `matchPreds(ref, valMap)` returns true if and only if for every pair
`(a, b)` stored in this heap's disequality database such that each of `a` and
`b` is either a special value (at most `VAL_NULL`) or a key of `valMap`, the
database of `ref` contains the pair of their images (a special value is its
own image); so a false result always comes from a pair with both members
mapped, never from a pair with an unmapped positive member. -/
theorem C33_matchPreds (sh ref : SymHeapCore) (valMap : List (Int × Int)) :
    (sh.matchPreds ref valMap = true ↔
      ∀ a b, (a, b) ∈ sh.d.neqDb.cont_ →
        ∀ x y, ((a ≤ VAL_NULL ∧ x = a) ∨ (VAL_NULL < a ∧ mapFind a valMap = some x)) →
          ((b ≤ VAL_NULL ∧ y = b) ∨ (VAL_NULL < b ∧ mapFind b valMap = some y)) →
          ref.d.neqDb.areNeq x y = true ∧ sortValues x y ∈ ref.d.neqDb.cont_) ∧
    (sh.matchPreds ref valMap = false ↔
      ∃ a b x y, (a, b) ∈ sh.d.neqDb.cont_ ∧
        ((a ≤ VAL_NULL ∧ x = a) ∨ (VAL_NULL < a ∧ mapFind a valMap = some x)) ∧
        ((b ≤ VAL_NULL ∧ y = b) ∨ (VAL_NULL < b ∧ mapFind b valMap = some y)) ∧
        sortValues x y ∉ ref.d.neqDb.cont_) := by
  have h1 : sh.matchPreds ref valMap = true ↔
      ∀ a b, (a, b) ∈ sh.d.neqDb.cont_ →
        ∀ x y, ((a ≤ VAL_NULL ∧ x = a) ∨ (VAL_NULL < a ∧ mapFind a valMap = some x)) →
          ((b ≤ VAL_NULL ∧ y = b) ∨ (VAL_NULL < b ∧ mapFind b valMap = some y)) →
          ref.d.neqDb.areNeq x y = true ∧ sortValues x y ∈ ref.d.neqDb.cont_ := by
    unfold matchPreds
    rw [matchPredsLoop_iff]
    constructor
    · intro h a b hab x y hx hy
      have := h a b hab x y ((valMapLookup_eq_some _ _ _).2 hx) ((valMapLookup_eq_some _ _ _).2 hy)
      exact ⟨this, by simpa [NeqDb.areNeq] using this⟩
    · intro h a b hab x y hx hy
      exact (h a b hab x y ((valMapLookup_eq_some _ _ _).1 hx) ((valMapLookup_eq_some _ _ _).1 hy)).1
  refine ⟨h1, ?_⟩
  constructor
  · intro hf
    by_contra hne
    have ht : sh.matchPreds ref valMap = true := by
      rw [h1]
      intro a b hab x y hx hy
      by_cases hmem : sortValues x y ∈ ref.d.neqDb.cont_
      · exact ⟨by simpa [NeqDb.areNeq] using hmem, hmem⟩
      · exact (hne ⟨a, b, x, y, hab, hx, hy, hmem⟩).elim
    rw [hf] at ht; exact Bool.noConfusion ht
  · rintro ⟨a, b, x, y, hab, hx, hy, hmem⟩
    cases hm : sh.matchPreds ref valMap with
    | false => rfl
    | true => exact absurd ((h1.1 hm) a b hab x y hx hy).2 hmem

end SymHeapCore

namespace SymHeapCore

open SymHeapCore.Private

/-- The loop of `copyRelevantPreds` on a destination with consistent offset
bookkeeping and a map whose images are distinct positive values of the
destination: it returns, changes the disequality store only, keeps what the
store had, records the image of every relevant pair, and records nothing but
images and the root pairs that `neqOp` derives from them. -/
theorem copyRelevantPredsLoop_spec (m : List (Int × Int))
    (hinj : ∀ k k2 x, mapFind k m = some x → mapFind k2 m = some x → k = k2) :
    ∀ (l : List (Int × Int)) (dst : SymHeapCore), dst.d.OffFacts →
      (∀ k x, mapFind k m = some x → 0 < x ∧ validVal dst.d x = true) →
      (∀ p ∈ l, p.1 ≠ p.2) →
      ∃ db : NeqDb, copyRelevantPredsLoop dst m l = some (dst.withNeqDb db) ∧
        (∀ p ∈ dst.d.neqDb.cont_, p ∈ db.cont_) ∧
        (∀ a b, (a, b) ∈ l → ∀ x y, valMapLookup m a = some x → valMapLookup m b = some y →
          sortValues x y ∈ db.cont_) ∧
        (∀ p ∈ db.cont_, p ∈ dst.d.neqDb.cont_ ∨
          ∃ a b x y, (a, b) ∈ l ∧ valMapLookup m a = some x ∧ valMapLookup m b = some y ∧
            (p = sortValues x y ∨
              ∃ ra rb, dst.crossRoots x y = some (ra, rb) ∧ p = sortValues ra rb)) := by
  intro l
  induction l with
  | nil =>
    intro dst _ _ _
    refine ⟨dst.d.neqDb, rfl, fun p hp => hp, ?_, fun p hp => Or.inl hp⟩
    intro a b hab; exact absurd hab (List.not_mem_nil _)
  | cons item rest ih =>
    intro dst hf hval hne
    obtain ⟨p, q⟩ := item
    have hne' : ∀ p ∈ rest, p.1 ≠ p.2 := fun p hp => hne p (List.mem_cons_of_mem _ hp)
    have hskip : (∀ x y, valMapLookup m p = some x → valMapLookup m q = some y → False) →
        copyRelevantPredsLoop dst m ((p, q) :: rest) = copyRelevantPredsLoop dst m rest →
        ∃ db : NeqDb, copyRelevantPredsLoop dst m ((p, q) :: rest) = some (dst.withNeqDb db) ∧
        (∀ p ∈ dst.d.neqDb.cont_, p ∈ db.cont_) ∧
        (∀ a b, (a, b) ∈ (p, q) :: rest → ∀ x y, valMapLookup m a = some x →
          valMapLookup m b = some y → sortValues x y ∈ db.cont_) ∧
        (∀ p1 ∈ db.cont_, p1 ∈ dst.d.neqDb.cont_ ∨
          ∃ a b x y, (a, b) ∈ (p, q) :: rest ∧ valMapLookup m a = some x ∧
            valMapLookup m b = some y ∧
            (p1 = sortValues x y ∨
              ∃ ra rb, dst.crossRoots x y = some (ra, rb) ∧ p1 = sortValues ra rb)) := by
      intro hno heq
      obtain ⟨db, h1, h2, h3, h4⟩ := ih dst hf hval hne'
      refine ⟨db, heq.trans h1, h2, ?_, ?_⟩
      · intro a b hab x y hx hy
        rcases List.mem_cons.1 hab with e | hmem
        · cases e; exact (hno x y hx hy).elim
        · exact h3 a b hmem x y hx hy
      · intro p1 hp1
        rcases h4 p1 hp1 with h | ⟨a, b, x, y, hab, hx, hy, h⟩
        · exact Or.inl h
        · exact Or.inr ⟨a, b, x, y, List.mem_cons_of_mem _ hab, hx, hy, h⟩
    cases hp : valMapLookup m p with
    | none =>
      exact hskip (fun x y hx _ => by rw [hp] at hx; exact Option.noConfusion hx)
        (by simp only [copyRelevantPredsLoop, hp])
    | some x0 =>
      cases hq : valMapLookup m q with
      | none =>
        exact hskip (fun x y _ hy => by rw [hq] at hy; exact Option.noConfusion hy)
          (by simp only [copyRelevantPredsLoop, hp, hq])
      | some y0 =>
        have hpq : p ≠ q := hne (p, q) (List.mem_cons_self _ _)
        have hx0 := (valMapLookup_eq_some m p x0).1 hp
        have hy0 := (valMapLookup_eq_some m q y0).1 hq
        have hvx : validVal dst.d x0 = true := by
          rcases hx0 with ⟨h, e⟩ | ⟨_, h⟩
          · rw [e]; unfold validVal; simp only [VAL_NULL] at h; simp [h]
          · exact (hval p x0 h).2
        have hvy : validVal dst.d y0 = true := by
          rcases hy0 with ⟨h, e⟩ | ⟨_, h⟩
          · rw [e]; unfold validVal; simp only [VAL_NULL] at h; simp [h]
          · exact (hval q y0 h).2
        have hxy : x0 ≠ y0 := by
          rcases hx0 with ⟨h1, e1⟩ | ⟨_, h1⟩
          · rcases hy0 with ⟨h2, e2⟩ | ⟨_, h2⟩
            · rw [e1, e2]; exact hpq
            · have := (hval q y0 h2).1
              simp only [VAL_NULL] at h1
              rw [e1]; omega
          · rcases hy0 with ⟨h2, e2⟩ | ⟨_, h2⟩
            · have := (hval p x0 h1).1
              simp only [VAL_NULL] at h2
              rw [e2]; omega
            · intro e
              rw [e] at h1
              exact hpq (hinj p q y0 h1 h2)
        have hop := neqOp_valid hf NEQ_ADD hxy hvx hvy
        obtain ⟨db, h1, h2, h3, h4⟩ :=
          ih (dst.withNeqDb (dst.neqDbAfter NEQ_ADD x0 y0)) (offFacts_withNeqDb _ hf)
            (fun k x hk => ⟨(hval k x hk).1, by rw [validVal_withNeqDb]; exact (hval k x hk).2⟩)
            hne'
        have hfirst : sortValues x0 y0 ∈ (dst.neqDbAfter NEQ_ADD x0 y0).cont_ := by
          unfold neqDbAfter
          cases dst.crossRoots x0 y0 with
          | none => exact (mem_setInsert _ _ _ _).2 (Or.inl rfl)
          | some r =>
            exact (mem_setInsert _ _ _ _).2 (Or.inr ((mem_setInsert _ _ _ _).2 (Or.inl rfl)))
        have hkeep : ∀ p1 ∈ dst.d.neqDb.cont_, p1 ∈ (dst.neqDbAfter NEQ_ADD x0 y0).cont_ := by
          intro p1 hp1
          unfold neqDbAfter
          cases dst.crossRoots x0 y0 with
          | none => exact (mem_setInsert _ _ _ _).2 (Or.inr hp1)
          | some r =>
            exact (mem_setInsert _ _ _ _).2 (Or.inr ((mem_setInsert _ _ _ _).2 (Or.inr hp1)))
        have hnew : ∀ p1 ∈ (dst.neqDbAfter NEQ_ADD x0 y0).cont_, p1 ∈ dst.d.neqDb.cont_ ∨
            p1 = sortValues x0 y0 ∨
            ∃ ra rb, dst.crossRoots x0 y0 = some (ra, rb) ∧ p1 = sortValues ra rb := by
          intro p1 hp1
          unfold neqDbAfter at hp1
          cases hc : dst.crossRoots x0 y0 with
          | none =>
            rw [hc] at hp1
            rcases (mem_setInsert _ _ _ _).1 hp1 with e | h
            · exact Or.inr (Or.inl e)
            · exact Or.inl h
          | some r =>
            rw [hc] at hp1
            rcases (mem_setInsert _ _ _ _).1 hp1 with e | h
            · exact Or.inr (Or.inr ⟨r.1, r.2, rfl, e⟩)
            · rcases (mem_setInsert _ _ _ _).1 h with e | h
              · exact Or.inr (Or.inl e)
              · exact Or.inl h
        refine ⟨db, ?_, ?_, ?_, ?_⟩
        · simp only [copyRelevantPredsLoop, hp, hq, hop, Option.bind_eq_bind, Option.some_bind]
          rw [h1]; rfl
        · intro p1 hp1; exact h2 p1 (hkeep p1 hp1)
        · intro a b hab x y hx hy
          rcases List.mem_cons.1 hab with e | hmem
          · cases e
            rw [hp] at hx; rw [hq] at hy
            cases hx; cases hy
            exact h2 _ hfirst
          · exact h3 a b hmem x y hx hy
        · intro p1 hp1
          rcases h4 p1 hp1 with h | ⟨a, b, x, y, hab, hx, hy, h⟩
          · rcases hnew p1 h with h | h | h
            · exact Or.inl h
            · exact Or.inr ⟨p, q, x0, y0, List.mem_cons_self _ _, hp, hq, Or.inl h⟩
            · exact Or.inr ⟨p, q, x0, y0, List.mem_cons_self _ _, hp, hq, Or.inr h⟩
          · refine Or.inr ⟨a, b, x, y, List.mem_cons_of_mem _ hab, hx, hy, ?_⟩
            rcases h with h | ⟨ra, rb, hc, h⟩
            · exact Or.inl h
            · rw [crossRoots_withNeqDb] at hc
              exact Or.inr ⟨ra, rb, hc, h⟩

/-- C38 (amended): for a source heap whose disequality store holds ordered
pairs, a `SymHeapCore` destination with consistent offset bookkeeping and a
value map whose images are pairwise distinct positive values of the
destination, `src.copyRelevantPreds(dst, m)` returns, changes nothing but the
disequality store of the destination, `src.matchPreds(dst, m)` then returns
true, and every fact the destination gained is the image of a fact of the
source or the pair of roots `neqOp` derives from such an image. -/
theorem C38_copy_then_match (src dst : SymHeapCore) (m : List (Int × Int))
    (hsrc : src.d.neqDb.ordered = true) (hdst : dst.d.OffInv = true)
    (hval : ∀ k x, mapFind k m = some x → 0 < x ∧ validVal dst.d x = true)
    (hinj : ∀ k k2 x, mapFind k m = some x → mapFind k2 m = some x → k = k2) :
    ∃ db : NeqDb, src.copyRelevantPreds dst m = some (dst.withNeqDb db) ∧
      src.matchPreds (dst.withNeqDb db) m = true ∧
      (∀ p ∈ dst.d.neqDb.cont_, p ∈ db.cont_) ∧
      (∀ p ∈ db.cont_, p ∈ dst.d.neqDb.cont_ ∨
        ∃ a b x y, (a, b) ∈ src.d.neqDb.cont_ ∧
          valMapLookup m a = some x ∧ valMapLookup m b = some y ∧
          (p = sortValues x y ∨
            ∃ off ra rb, off ≠ 0 ∧ dst.valOffset x = some off ∧ dst.valOffset y = some off ∧
              dst.valRoot x = some ra ∧ dst.valRoot y = some rb ∧ p = sortValues ra rb)) := by
  have hne : ∀ p ∈ src.d.neqDb.cont_, p.1 ≠ p.2 := by
    intro p hp
    unfold NeqDb.ordered at hsrc
    rw [List.all_eq_true] at hsrc
    have := hsrc p hp
    simp only [decide_eq_true_eq] at this
    omega
  obtain ⟨db, h1, h2, h3, h4⟩ :=
    copyRelevantPredsLoop_spec m hinj src.d.neqDb.cont_ dst (offFacts_of_inv hdst) hval hne
  refine ⟨db, h1, ?_, h2, ?_⟩
  · unfold matchPreds
    rw [matchPredsLoop_iff]
    intro a b hab x y hx hy
    have := h3 a b hab x y hx hy
    simpa [NeqDb.areNeq] using this
  · intro p hp
    rcases h4 p hp with h | ⟨a, b, x, y, hab, hx, hy, h⟩
    · exact Or.inl h
    · refine Or.inr ⟨a, b, x, y, hab, hx, hy, ?_⟩
      rcases h with h | ⟨ra, rb, hc, h⟩
      · exact Or.inl h
      · right
        unfold crossRoots at hc
        cases hox : dst.valOffset x with
        | none => simp [hox] at hc
        | some off =>
          simp only [hox] at hc
          split at hc
          · cases hc
          rename_i h0
          cases hoy : dst.valOffset y with
          | none => simp [hoy] at hc
          | some offB =>
            simp only [hoy] at hc
            split at hc
            · cases hc
            rename_i he
            simp only [ne_eq, not_not] at he
            cases hrx : dst.valRoot x with
            | none => simp [hrx] at hc
            | some rx =>
              cases hry : dst.valRoot y with
              | none => simp [hrx, hry] at hc
              | some ry =>
                simp only [hrx, hry, Option.some.injEq, Prod.mk.injEq] at hc
                refine ⟨off, ra, rb, h0, rfl, by rw [he], ?_, ?_, h⟩
                · rw [hc.1]
                · rw [hc.2]

end SymHeapCore
namespace SymHeapCore

open SymHeapCore.Private

theorem C38_copy_then_match_witness :
    ∃ db : NeqDb,
      exSls1Heap.toSymHeapCore.copyRelevantPreds (exSls1Heap.toSymHeapCore.withNeqDb {})
          [(2, 6), (6, 2)] = some ((exSls1Heap.toSymHeapCore.withNeqDb {}).withNeqDb db) ∧
      exSls1Heap.toSymHeapCore.matchPreds
          ((exSls1Heap.toSymHeapCore.withNeqDb {}).withNeqDb db) [(2, 6), (6, 2)] = true ∧
      db.cont_ = [(2, 6)] :=
  have hval : ∀ k x : Int, mapFind k [((2 : Int), (6 : Int)), (6, 2)] = some x →
      0 < x ∧ validVal (exSls1Heap.toSymHeapCore.withNeqDb {}).d x = true := by
    intro k x h
    simp only [mapFind] at h
    split at h
    · cases h; decide
    · split at h
      · cases h; decide
      · exact Option.noConfusion h
  have hinj : ∀ k k2 x : Int, mapFind k [((2 : Int), (6 : Int)), (6, 2)] = some x →
      mapFind k2 [((2 : Int), (6 : Int)), (6, 2)] = some x → k = k2 := by
    intro k k2 x h h2
    simp only [mapFind] at h h2
    split at h <;> split at h2 <;> (try split at h) <;> (try split at h2) <;>
      simp_all
  match C38_copy_then_match exSls1Heap.toSymHeapCore (exSls1Heap.toSymHeapCore.withNeqDb {})
      [(2, 6), (6, 2)] (by decide) (by decide) hval hinj with
  | ⟨db, h1, h2, _, _⟩ =>
    ⟨db, h1, h2, by
      have e : exSls1Heap.toSymHeapCore.copyRelevantPreds (exSls1Heap.toSymHeapCore.withNeqDb {})
          [(2, 6), (6, 2)] =
          some ((exSls1Heap.toSymHeapCore.withNeqDb {}).withNeqDb { cont_ := [(2, 6)] }) := by
        decide
      rw [e] at h1
      have := congrArg (fun s : SymHeapCore => s.d.neqDb.cont_) (Option.some.inj h1)
      exact this.symm⟩

/-- C38, counterexample: the source `exSls1Heap` records that the values 2 and
6 differ; the destination is a fresh heap (which has no value 7 or 9) and the
map sends 2 to 7 and 6 to 9, two distinct positive images.
`copyRelevantPreds` does not return: `neqOp` asks for the offset of the image
7, which is out of the range of the destination. -/
theorem C38_counterexample :
    (2, 6) ∈ exSls1Heap.toSymHeapCore.d.neqDb.cont_ ∧
    exSls1Heap.toSymHeapCore.d.neqDb.ordered = true ∧
    ((SymHeapCore.create exStor).getD {}).d.OffInv = true ∧
    ((SymHeapCore.create exStor).getD {}).d.valOutOfRange 7 = true ∧
    exSls1Heap.toSymHeapCore.copyRelevantPreds ((SymHeapCore.create exStor).getD {})
      [(2, 7), (6, 9)] = none := by
  decide

end SymHeapCore

namespace SymHeapCore

open SymHeapCore.Private

theorem offMapOk_find {d : Private} {r : Int} {rb : BaseValue} {rd : RootValue}
    (hok : d.offMapOk r = true) (hr : d.rootData r = some (rb, rd)) {o v : Int}
    (hv : mapFind o rd.offMap = some v) : ∃ b, d.valData v = some (b, .OffValue r) := by
  unfold offMapOk at hok
  rw [hr] at hok
  simp only [List.all_eq_true] at hok
  have := hok (o, v) (mem_of_mapFind hv)
  simp only at this
  split at this
  · rename_i b R hvd
    simp only [Bool.and_eq_true, decide_eq_true_eq] at this
    obtain ⟨h1, -⟩ := this
    subst h1
    exact ⟨b, hvd⟩
  · exact Bool.noConfusion this

/-- A value the root `r` keeps in `offMap` under the offset `o` is an off-value
of `r` with the offset `o`. -/
theorem offMapOk_find_off {d : Private} {r : Int} {rb : BaseValue} {rd : RootValue}
    (hok : d.offMapOk r = true) (hr : d.rootData r = some (rb, rd)) {o v : Int}
    (hv : mapFind o rd.offMap = some v) :
    ∃ b, d.valData v = some (b, .OffValue r) ∧ b.offRoot = o := by
  unfold offMapOk at hok
  rw [hr] at hok
  simp only [List.all_eq_true] at hok
  have := hok (o, v) (mem_of_mapFind hv)
  simp only at this
  split at this
  · rename_i b R hvd
    simp only [Bool.and_eq_true, decide_eq_true_eq] at this
    obtain ⟨h1, h2⟩ := this
    subst h1
    exact ⟨b, hvd, h2⟩
  · exact Bool.noConfusion this

/-- The values of the heap keep their data when `valByOffset` creates a new
off-value of the root `r`, the offset map of `r` apart. -/
theorem valData_withOffValue_old {sh : SymHeapCore} {r : Int} {rb : BaseValue} {rd : RootValue}
    (hr : sh.d.rootData r = some (rb, rd)) (o : Int) {w : Int} {bw : BaseValue} {R : Int}
    (hw : sh.d.valData w = some (bw, .OffValue R)) :
    (sh.withOffValue r rb rd o).d.valData w = some (bw, .OffValue R) := by
  have hrpos : 0 < r := (rootData_eq_some.mp hr).1
  obtain ⟨hwpos, hwent⟩ := valData_eq_some.mp hw
  have hwlen := (ent_eq_some hwent).2.1
  have hne : w ≠ r := by
    intro h
    subst h
    rw [(rootData_eq_some.mp hr).2] at hwent
    cases hwent
  rw [valData_eq_some]
  refine ⟨hwpos, ?_⟩
  simp only [withOffValue]
  rw [ent_setEnt_ne _ (by omega) hne, ent_pushEnt_lt _ hwlen]
  exact hwent

/-- The call `valByOffset(r, o)` on a live root with a non-zero offset: the
value it returns is the off-value the root keeps under `o` afterwards, and the
values the root keeps in `offMap` afterwards are its off-values, each with the
offset it is kept under. -/
theorem valByOffset_root_spec {sh : SymHeapCore} (hinv : sh.d.OffInv = true) {r : Int}
    {rb : BaseValue} {rd : RootValue} (hr : sh.d.rootData r = some (rb, rd))
    (hlive : isPossibleToDeref rb.code = true) (hok : sh.d.offMapOk r = true) {o : Int}
    (ho : o ≠ 0) :
    ∃ sh1 v rd1 bv, sh.valByOffset r o = some (sh1, v) ∧
      sh1.d.rootData r = some (rb, rd1) ∧ mapFind o rd1.offMap = some v ∧
      sh1.d.valData v = some (bv, .OffValue r) ∧ bv.offRoot = o ∧
      ¬ (VT_UNKNOWN = bv.code ∨ isGone bv.code = true) ∧
      (∀ k w, mapFind k rd1.offMap = some w →
        ∃ bw, sh1.d.valData w = some (bw, .OffValue r) ∧ bw.offRoot = k) := by
  have hoff := root_offRoot_of_inv hinv hr
  cases hfind : mapFind o rd.offMap with
  | some v =>
    obtain ⟨b, hvd⟩ := offMapOk_find hok hr hfind
    obtain ⟨b2, x2, hvd2, hbo⟩ := offMap_offRoot_of_inv hinv hr hfind
    rw [hvd] at hvd2
    cases hvd2
    refine ⟨sh, v, rd, b, valByOffset_root_found hr hoff hlive ho hfind, hr, hfind, hvd, hbo, ?_,
      fun k w hk => offMapOk_find_off hok hr hk⟩
    have hent := entOffOk_of_inv hinv v
    unfold entOffOk at hent
    rw [(valData_eq_some.mp hvd).2] at hent
    simp only [Bool.and_eq_true, decide_eq_true_eq] at hent
    have hk := hent.1.2
    revert hk
    cases b.code <;> simp [isKnownObject, isGone]
  | none =>
    refine ⟨_, _, _, _, valByOffset_root_new hr hoff hlive ho hfind,
      rootData_withOffValue_root hr o, mapFind_mapSet_same _ _ _ _,
      valData_withOffValue_new hr o, rfl, not_unknown_gone_of_deref hlive, ?_⟩
    intro k w hk
    by_cases hko : k = o
    · subst hko
      rw [mapFind_mapSet_same] at hk
      cases hk
      exact ⟨_, valData_withOffValue_new hr k, rfl⟩
    · rw [mapFind_mapSet_ne _ _ _ _ _ hko] at hk
      obtain ⟨bw, hw, hbw⟩ := offMapOk_find_off hok hr hk
      exact ⟨bw, valData_withOffValue_old hr o hw, hbw⟩

/-- The call `valByOffset(v, b)` on the off-value `v` the live root `r` keeps
under the offset `a`: it returns a value of offset `offAdd a b`, which is the
handle `valByOffset(r, offAdd a b)` returns in the same heap and in the heap
left behind. -/
theorem valByOffset_off_spec {sh : SymHeapCore} {r : Int} {rb : BaseValue} {rd : RootValue}
    (hr : sh.d.rootData r = some (rb, rd)) (hoff : rb.offRoot = 0)
    (hlive : isPossibleToDeref rb.code = true) {v a : Int} {bv : BaseValue}
    (hv : sh.d.valData v = some (bv, .OffValue r)) (hbo : bv.offRoot = a) (ha : a ≠ 0)
    (hcode : ¬ (VT_UNKNOWN = bv.code ∨ isGone bv.code = true))
    (hfind : mapFind a rd.offMap = some v)
    (hkeys : ∀ k w, mapFind k rd.offMap = some w →
      ∃ bw, sh.d.valData w = some (bw, .OffValue r) ∧ bw.offRoot = k) (b : Int) :
    ∃ sh2 w, sh.valByOffset v b = some (sh2, w) ∧
      (∃ sh3, sh.valByOffset r (offAdd a b) = some (sh3, w)) ∧
      sh2.valByOffset r (offAdd a b) = some (sh2, w) ∧
      sh2.valOffset w = some (offAdd a b) := by
  have hvpos : 0 < v := (valData_eq_some.mp hv).1
  have hrpos : 0 < r := (rootData_eq_some.mp hr).1
  have hrlen := (ent_eq_some (rootData_eq_some.mp hr).2).2.1
  have hin : sh.d.valOutOfRange r = false :=
    valOutOfRange_of_valData (by rw [valData_of_rootData hr]; rfl)
  have hroot : sh.d.valRootOf v (bv, .OffValue r) = some r := by
    simp [valRootOf, hbo, ha, hin]
  have hvalOff : ∀ (s : SymHeapCore) (w : Int) (bw : BaseValue) (xw : ValueExt),
      s.d.valData w = some (bw, xw) → s.valOffset w = some bw.offRoot := by
    intro s w bw xw hw
    have hwpos := (valData_eq_some.mp hw).1
    simp [valOffset, not_le.mpr hwpos, hw]
  by_cases hb : b = 0
  · subst hb
    have h1 := valByOffset_root_found hr hoff hlive ha hfind
    refine ⟨sh, v, valByOffset_zero sh v, ⟨sh, ?_⟩, ?_, ?_⟩
    · rw [offAdd_zero]; exact h1
    · rw [offAdd_zero]; exact h1
    · rw [offAdd_zero, hvalOff sh v bv _ hv, hbo]
  · by_cases hab : offAdd a b = 0
    · have hba : offAdd b a = 0 := by rw [offAdd_comm]; exact hab
      refine ⟨sh, r, ?_, ⟨sh, ?_⟩, ?_, ?_⟩
      · simp [valByOffset, hb, not_le.mpr hvpos, hv, hroot, hbo, hba]
      · rw [hab]; exact valByOffset_zero sh r
      · rw [hab]; exact valByOffset_zero sh r
      · rw [hab, hvalOff sh r rb _ (valData_of_rootData hr), hoff]
    · have hba : offAdd b a ≠ 0 := by rw [offAdd_comm]; exact hab
      cases hf2 : mapFind (offAdd a b) rd.offMap with
      | some w =>
        have h1 := valByOffset_root_found hr hoff hlive hab hf2
        obtain ⟨bw, hw, hbw⟩ := hkeys _ _ hf2
        refine ⟨sh, w, ?_, ⟨sh, h1⟩, h1, ?_⟩
        · have hf3 : mapFind (offAdd b a) rd.offMap = some w := by rw [offAdd_comm]; exact hf2
          simp [valByOffset, hb, not_le.mpr hvpos, hv, hroot, hbo, hba, hcode, hr, hf3]
        · rw [hvalOff sh w bw _ hw, hbw]
      | none =>
        have hf3 : mapFind (offAdd b a) rd.offMap = none := by rw [offAdd_comm]; exact hf2
        obtain ⟨e1, he1⟩ : ∃ e1 : IHeapEntity, e1 =
            .Value { code := bv.code, origin := bv.origin, offRoot := offAdd a b } (.OffValue r) :=
          ⟨_, rfl⟩
        obtain ⟨rd2, hrd2⟩ : ∃ rd2 : RootValue, rd2 =
            { rd with offMap := mapSet intLt (offAdd a b) (sh.d.ents.length : Int) rd.offMap } :=
          ⟨_, rfl⟩
        obtain ⟨sh2, hsh2⟩ : ∃ sh2 : SymHeapCore, sh2 =
            { sh with d := (sh.d.pushEnt e1).setEnt r (.Value rb (.RootValue rd2)) } :=
          ⟨_, rfl⟩
        have hcall : sh.valByOffset v b = some (sh2, (sh.d.ents.length : Int)) := by
          rw [hsh2, he1, hrd2]
          simp [valByOffset, hb, not_le.mpr hvpos, hv, hroot, hbo, hba, hcode, hr, hf3,
            lastId_pushEnt, offAdd_comm b a, hab, hf2]
        have hr2 : sh2.d.rootData r = some (rb, rd2) := by
          rw [rootData_eq_some]
          refine ⟨hrpos, ?_⟩
          rw [hsh2]
          exact ent_setEnt_same _ (by omega) (by rw [length_pushEnt]; push_cast; omega)
        have hnew : sh2.d.valData sh.d.ents.length
            = some ({ code := bv.code, origin := bv.origin, offRoot := offAdd a b },
                .OffValue r) := by
          rw [valData_eq_some]
          refine ⟨by omega, ?_⟩
          rw [hsh2, he1]
          simp only
          rw [ent_setEnt_ne _ (by omega) (by omega)]
          exact ent_pushEnt_last _ _
        refine ⟨sh2, _, hcall, ⟨_, valByOffset_root_new hr hoff hlive hab hf2⟩, ?_, ?_⟩
        · exact valByOffset_root_found hr2 hoff hlive hab
            (by rw [hrd2]; exact mapFind_mapSet_same _ _ _ _)
        · rw [hvalOff sh2 _ _ _ hnew]

/-- C40: in a heap with consistent offset bookkeeping, for every root `r`
whose target is possible to dereference and all offsets `a` and `b`:
`valByOffset(r, a)` returns a value `v`, `valByOffset(v, b)` returns a value
`w`, and `valByOffset(r, a + b)` returns the handle `w` as well, both in the
heap the outer call starts from and in the heap it leaves (which it then does
not change); the sum `a + b` is the sum in `TOffset` (`offAdd a b`, which wraps
around where it leaves the range of the type and is the integer `a + b`
wherever that is an offset), and it is the offset of `w`; `valByOffset(v, c)`
returns `r` for every `c` whose sum with `a` is zero, so `valByOffset(v, -a)`
returns `r`; and `valRoot(v)` is `r`. -/
theorem C40_offset_composes (sh : SymHeapCore) (hinv : sh.d.OffInv = true) (r : Int)
    (rb : BaseValue) (rd : RootValue) (hr : sh.d.rootData r = some (rb, rd))
    (hlive : isPossibleToDeref rb.code = true) (hok : sh.d.offMapOk r = true) (a b : Int) :
    ∃ sh1 v sh2 w, sh.valByOffset r a = some (sh1, v) ∧
      sh1.valByOffset v b = some (sh2, w) ∧
      (∃ sh3, sh1.valByOffset r (offAdd a b) = some (sh3, w)) ∧
      sh2.valByOffset r (offAdd a b) = some (sh2, w) ∧
      sh2.valOffset w = some (offAdd a b) ∧
      (isOffset (a + b) = true → offAdd a b = a + b) ∧
      (isOffset a = true → isOffset b = true →
        isOffset (offAdd a b) = true ∧ (offAdd a b - (a + b)) % 4294967296 = 0) ∧
      (∀ c, offAdd a c = 0 → sh1.valByOffset v c = some (sh1, r)) ∧
      sh1.valByOffset v (-a) = some (sh1, r) ∧
      sh1.valRoot v = some r := by
  have hoff := root_offRoot_of_inv hinv hr
  have hrpos : 0 < r := (rootData_eq_some.mp hr).1
  have hvr := valData_of_rootData hr
  have hroot0 : sh.valOffset r = some 0 := by
    simp [valOffset, not_le.mpr hrpos, hvr, hoff]
  by_cases ha : a = 0
  · subst ha
    have hroot : sh.valRoot r = some r := by
      rw [valRoot_of_valData hvr]; simp [valRootOf, hoff]
    have hneg : ∀ c, offAdd 0 c = 0 → sh.valByOffset r c = some (sh, r) := by
      intro c hc
      rw [zero_offAdd] at hc
      subst hc
      exact valByOffset_zero sh r
    by_cases hb : b = 0
    · subst hb
      exact ⟨sh, r, sh, r, valByOffset_zero sh r, valByOffset_zero sh r,
        ⟨sh, valByOffset_zero sh r⟩, valByOffset_zero sh r, hroot0,
        offAdd_of_isOffset, offAdd_isOffset, hneg, valByOffset_zero sh r, hroot⟩
    · obtain ⟨sh2, w, rd2, bw, hcall, hr2, hf2, hw2, hbw, -, -⟩ :=
        valByOffset_root_spec hinv hr hlive hok hb
      have hwpos := (valData_eq_some.mp hw2).1
      refine ⟨sh, r, sh2, w, valByOffset_zero sh r, hcall, ⟨sh2, ?_⟩, ?_, ?_,
        offAdd_of_isOffset, offAdd_isOffset, hneg, valByOffset_zero sh r, hroot⟩
      · rw [zero_offAdd]; exact hcall
      · rw [zero_offAdd]; exact valByOffset_root_found hr2 hoff hlive hb hf2
      · rw [zero_offAdd]
        simp [valOffset, not_le.mpr hwpos, hw2, hbw]
  · obtain ⟨sh1, v, rd1, bv, hcall, hr1, hf1, hv1, hbo, hcode, hkeys⟩ :=
      valByOffset_root_spec hinv hr hlive hok ha
    obtain ⟨sh2, w, h2, h3, h4, h5⟩ :=
      valByOffset_off_spec hr1 hoff hlive hv1 hbo ha hcode hf1 hkeys b
    have hvpos : 0 < v := (valData_eq_some.mp hv1).1
    have hin : sh1.d.valOutOfRange r = false :=
      valOutOfRange_of_valData (by rw [valData_of_rootData hr1]; rfl)
    have hroot : sh1.d.valRootOf v (bv, .OffValue r) = some r := by
      simp [valRootOf, hbo, ha, hin]
    have hneg : ∀ c, offAdd a c = 0 → sh1.valByOffset v c = some (sh1, r) := by
      intro c hc
      have hc0 : c ≠ 0 := by
        intro h0
        subst h0
        rw [offAdd_zero] at hc
        exact ha hc
      have hca : offAdd c a = 0 := by rw [offAdd_comm]; exact hc
      simp [valByOffset, hc0, not_le.mpr hvpos, hv1, hroot, hbo, hca]
    refine ⟨sh1, v, sh2, w, hcall, h2, h3, h4, h5, offAdd_of_isOffset, offAdd_isOffset,
      hneg, ?_, ?_⟩
    · exact hneg (-a) (by rw [offAdd_comm]; exact offAdd_neg_self a)
    · rw [valRoot_of_valData hv1]; exact hroot

/-- Claim C40 applied to the block of `exAllocHeap` with the offsets
`2147483647` and `1`, whose sum in `TOffset` is `-2147483648`. -/
theorem C40_offset_composes_witness :
    offAdd 2147483647 1 = -2147483648 ∧
    ∃ sh1 v sh2 w, exAllocHeap.valByOffset 2 2147483647 = some (sh1, v) ∧
      sh1.valByOffset v 1 = some (sh2, w) ∧
      (∃ sh3, sh1.valByOffset 2 (offAdd 2147483647 1) = some (sh3, w)) ∧
      sh2.valByOffset 2 (offAdd 2147483647 1) = some (sh2, w) ∧
      sh2.valOffset w = some (offAdd 2147483647 1) ∧
      (isOffset (2147483647 + 1) = true → offAdd 2147483647 1 = 2147483647 + 1) ∧
      (isOffset 2147483647 = true → isOffset 1 = true →
        isOffset (offAdd 2147483647 1) = true ∧
          (offAdd 2147483647 1 - (2147483647 + 1)) % 4294967296 = 0) ∧
      (∀ c, offAdd 2147483647 c = 0 → sh1.valByOffset v c = some (sh1, 2)) ∧
      sh1.valByOffset v (-2147483647) = some (sh1, 2) ∧
      sh1.valRoot v = some 2 :=
  ⟨by decide, C40_offset_composes exAllocHeap (by decide) 2
    { code := VT_ON_HEAP, origin := VO_ASSIGNED } { addr := 2, cbSize := 8 } (by decide)
    (by decide) (by decide) 2147483647 1⟩

end SymHeapCore

namespace SymHeapCore

open SymHeapCore.Private

/-- The handle `valueOf(obj)` returns for an object without a value: the next
free slot, provided the object has a composite type or its root has a target
code that `originByCode` accepts. -/
theorem valueOf_fresh_handle {sh : SymHeapCore} {obj : Int} {o : HeapObject}
    (ho : sh.d.objData obj = some o) (hnew : o.value = VAL_INVALID) :
    (sh.valueOf obj).map Prod.snd =
      if isComposite sh.stor_ o.clt = true then some (sh.d.ents.length : Int)
      else (sh.d.rootData o.root).bind (fun r =>
        (originByCode r.1.code).map (fun _ => (sh.d.ents.length : Int))) := by
  have hobj := objData_eq_some.mp ho
  have hr := ent_eq_some hobj
  have h1 : ¬ (obj = OBJ_UNKNOWN ∨ obj = OBJ_INVALID) := by
    have : OBJ_UNKNOWN < 0 := by decide
    have : OBJ_INVALID < 0 := by decide
    omega
  have h2 : ¬ obj = OBJ_DEREF_FAILED := by
    have : OBJ_DEREF_FAILED < 0 := by decide
    omega
  cases hc : isComposite sh.stor_ o.clt with
  | true =>
    simp only [if_true]
    obtain ⟨b0, hb0⟩ : ∃ b0 : BaseValue, b0 = { code := VT_COMPOSITE, origin := VO_INVALID } :=
      ⟨_, rfl⟩
    obtain ⟨d0, hd0⟩ : ∃ d0 : Private, d0 = sh.d.pushEnt (.Value b0 (.CompValue OBJ_INVALID)) :=
      ⟨_, rfl⟩
    have hd0new : d0.ent sh.d.ents.length = some (.Value b0 (.CompValue OBJ_INVALID)) := by
      rw [hd0]; exact ent_pushEnt_last _ _
    have hd0val : d0.valData sh.d.ents.length = some (b0, .CompValue OBJ_INVALID) :=
      valData_eq_some.mpr ⟨by omega, hd0new⟩
    obtain ⟨d1, hd1e⟩ : ∃ d1 : Private,
        d1 = d0.setEnt sh.d.ents.length (.Value b0 (.CompValue obj)) := ⟨_, rfl⟩
    have hd1 : ∀ j, d1.ent j
        = if j = (sh.d.ents.length : Int) then some (.Value b0 (.CompValue obj)) else d0.ent j := by
      intro j; rw [hd1e]; exact ent_setEnt _ hd0new j
    have hcreate : sh.valueOfCreate obj o = some (d1, (sh.d.ents.length : Int)) := by
      unfold valueOfCreate
      simp only [hc, if_true, Private.valCreate, Option.bind_eq_bind, Option.some_bind,
        lastId_pushEnt]
      rw [← hb0, ← hd0]
      show (d0.valData sh.d.ents.length).bind _ = _
      rw [hd0val, hd1e]
      rfl
    obtain ⟨sh', h1', -⟩ := valueOf_fresh ho hnew b0 (.CompValue obj) d1 hcreate
      (by rw [hd1, if_pos rfl])
      (fun j hj => by rw [hd1, if_neg hj, hd0]; exact ent_pushEnt_ne _ hj)
      (by rw [hd1e, length_setEnt, hd0, length_pushEnt]) (by rw [hb0])
    rw [h1']; rfl
  | false =>
    simp only [Bool.false_eq_true, if_false]
    cases hrd : sh.d.rootData o.root with
    | none =>
      unfold valueOf valueOfCreate
      simp [h1, h2, ho, hnew, hc, hrd]
    | some p =>
      obtain ⟨rb, rd⟩ := p
      cases hvo : originByCode rb.code with
      | none =>
        unfold valueOf valueOfCreate
        simp [h1, h2, ho, hnew, hc, hrd, hvo]
      | some vo =>
        have hcreate : sh.valueOfCreate obj o =
            some (sh.d.pushEnt (.Value { code := VT_UNKNOWN, origin := vo } .BaseValue),
              (sh.d.ents.length : Int)) := by
          unfold valueOfCreate
          simp only [hc, Bool.false_eq_true, if_false, hrd, Option.bind_eq_bind, Option.some_bind,
            hvo, Private.valCreate, lastId_pushEnt]
        obtain ⟨sh', h1', -⟩ := valueOf_fresh ho hnew { code := VT_UNKNOWN, origin := vo }
          .BaseValue _ hcreate (ent_pushEnt_last _ _) (fun j hj => ent_pushEnt_ne _ hj)
          (length_pushEnt _ _) rfl
        rw [h1']
        simp [hvo]

theorem Private.SameSkel.rootCode {d d2 : Private} (h : SameSkel d d2) (R : Int) :
    (d2.rootData R).map (fun r => r.1.code) = (d.rootData R).map (fun r => r.1.code) := by
  cases h1 : d.rootData R with
  | some p =>
    obtain ⟨b2, rd2, h2, hc, -⟩ := h.rootData h1
    rw [h2]; simp [hc]
  | none =>
    cases h2 : d2.rootData R with
    | none => rfl
    | some p =>
      obtain ⟨b1, rd1, h3, -⟩ := h.symm.rootData h2
      rw [h1] at h3; cases h3

/-- C36: in a heap that satisfies the representation invariant, for every
object `o` of non-composite type and every valid value `v` other than
`VAL_INVALID`, `objSetValue(o, v)` returns, afterwards `valueOf(o)` returns `v`
(and leaves the heap as it is), and `valueOf` of every other object returns
what it returned before. -/
theorem C36_set_then_get (sh : SymHeapCore) (hinv : sh.HeapInv = true) (obj v : Int)
    (o : HeapObject) (ho : sh.d.objData obj = some o)
    (hnc : isComposite sh.stor_ o.clt = false) (hv : validVal sh.d v = true)
    (hne : v ≠ VAL_INVALID) :
    ∃ sh', sh.objSetValue obj v = some sh' ∧ sh'.valueOf obj = some (sh', v) ∧
      ∀ j, j ≠ obj → (sh'.valueOf j).map Prod.snd = (sh.valueOf j).map Prod.snd := by
  obtain ⟨hoff, huse, -, -⟩ := heapInv_parts hinv
  obtain ⟨hroot, hrel⟩ := useInv_object huse ho
  obtain ⟨sh', hset, hstor, -, hskel, hobj', hothers, -, -⟩ :=
    objSetValue_spec ho hnc hroot hrel (storable_of_valid (offFacts_of_inv hoff) hv)
  have hobj := objData_eq_some.mp ho
  have hr := ent_eq_some hobj
  have h1 : ¬ (obj = OBJ_UNKNOWN ∨ obj = OBJ_INVALID) := by
    have : OBJ_UNKNOWN < 0 := by decide
    have : OBJ_INVALID < 0 := by decide
    omega
  have h2 : ¬ obj = OBJ_DEREF_FAILED := by
    have : OBJ_DEREF_FAILED < 0 := by decide
    omega
  refine ⟨sh', hset, ?_, ?_⟩
  · unfold valueOf
    simp only [h1, h2, if_false, hobj', Option.bind_eq_bind, Option.some_bind, ne_eq,
      Ne.symm hne, not_false_eq_true, if_true]
  · intro j hj
    by_cases hs1 : j = OBJ_UNKNOWN ∨ j = OBJ_INVALID
    · simp [valueOf, hs1]
    by_cases hs2 : j = OBJ_DEREF_FAILED
    · subst hs2
      unfold valueOf
      rw [if_neg hs1, if_neg hs1, if_pos rfl, if_pos rfl]
      rfl
    cases hoj : sh.d.objData j with
    | none =>
      have hoj' : sh'.d.objData j = none := by
        cases h' : sh'.d.objData j with
        | none => rfl
        | some o2 =>
          obtain ⟨o3, h3, -⟩ := hskel.symm.objData h'
          rw [hoj] at h3; cases h3
      simp [valueOf, hs1, hs2, hoj, hoj']
    | some o2 =>
      have hoj' := hothers j o2 hj hoj
      by_cases hval : VAL_INVALID ≠ o2.value
      · simp [valueOf, hs1, hs2, hoj, hoj', hval]
      · have hnew : o2.value = VAL_INVALID := by
          simp only [ne_eq, not_not] at hval; exact hval.symm
        rw [valueOf_fresh_handle hoj' hnew, valueOf_fresh_handle hoj hnew, hstor, hskel.1]
        have hcode := hskel.rootCode o2.root
        cases hc : isComposite sh.stor_ o2.clt with
        | true => simp
        | false =>
          simp only [Bool.false_eq_true, if_false]
          cases hr1 : sh.d.rootData o2.root with
          | none =>
            rw [hr1] at hcode
            cases hr2 : sh'.d.rootData o2.root with
            | none => rfl
            | some p => rw [hr2] at hcode; cases hcode
          | some p =>
            rw [hr1] at hcode
            cases hr2 : sh'.d.rootData o2.root with
            | none => rw [hr2] at hcode; cases hcode
            | some q =>
              rw [hr2] at hcode
              simp only [Option.map_some', Option.some.injEq] at hcode
              simp only [Option.some_bind, hcode]

theorem C36_set_then_get_witness :
    ∃ sh', exTypedHeap.objSetValue 4 2 = some sh' ∧ sh'.valueOf 4 = some (sh', 2) ∧
      ∀ j, j ≠ 4 → (sh'.valueOf j).map Prod.snd = (exTypedHeap.valueOf j).map Prod.snd :=
  C36_set_then_get exTypedHeap (by decide) 4 2
    { clt := some 1, root := 2, off := 0 } (by decide) (by decide) (by decide) (by decide)

end SymHeapCore

namespace SymHeap

open SymHeapCore SymHeapCore.Private

/-- A call of `SymHeap::valDestroyTarget` that returns false leaves the heap as
it is. -/
theorem valDestroyTarget_false {sh sh2 : SymHeap} {val : Int}
    (h : sh.valDestroyTarget val = some (sh2, false)) : sh2 = sh := by
  unfold valDestroyTarget at h
  simp only [Option.bind_eq_bind] at h
  obtain ⟨root, -, h⟩ := Option.bind_eq_some.1 h
  obtain ⟨p, hp, h⟩ := Option.bind_eq_some.1 h
  obtain ⟨core, ok⟩ := p
  cases ok with
  | true =>
    simp only [Bool.not_true, Bool.false_eq_true, if_false] at h
    split at h
    · cases h
    · cases h
  | false =>
    simp only [Bool.not_false, if_true, Option.some.injEq, Prod.mk.injEq, and_true] at h
    have hcore : core = sh.toSymHeapCore := by
      unfold SymHeapCore.valDestroyTarget at hp
      split at hp
      · cases hp; rfl
      · simp only [Option.bind_eq_bind] at hp
        obtain ⟨q, -, hp⟩ := Option.bind_eq_some.1 hp
        split at hp
        · cases hp; rfl
        · obtain ⟨d1, -, hp⟩ := Option.bind_eq_some.1 hp
          cases hp
    rw [← h, hcore]
    rfl

/-- The calls of `SymHeap::valDestroyTarget` that return false: on a value with
a non-zero offset and on a value whose target is not possible to
dereference. -/
theorem valDestroyTarget_refused {sh : SymHeap} (hoff : sh.d.OffInv = true) {s : Int}
    {b : BaseValue} {x : ValueExt} (hs : sh.d.valData s = some (b, x))
    (h : b.offRoot ≠ 0 ∨ isPossibleToDeref b.code = false) :
    sh.valDestroyTarget s = some (sh, false) := by
  obtain ⟨R, rb, rx, hroot, -⟩ := (offFacts_of_inv hoff).valRoot hs
  have hpos := (valData_eq_some.mp hs).1
  have hnull : ¬ VAL_NULL = s := by unfold VAL_NULL; omega
  have hvr : sh.toSymHeapCore.valRoot s = some R := by
    rw [valRoot_of_valData hs]; exact hroot
  have hcore : sh.toSymHeapCore.valDestroyTarget s = some (sh.toSymHeapCore, false) := by
    unfold SymHeapCore.valDestroyTarget
    simp only [hnull, if_false, hs, Option.bind_eq_bind, Option.some_bind]
    rw [if_pos]
    rcases h with h | h
    · exact Or.inl h
    · right; rw [h]; rfl
  unfold valDestroyTarget
  simp only [hvr, hcore, Option.bind_eq_bind, Option.some_bind, Bool.not_false, if_true]
  rfl

end SymHeap

open SymHeapCore SymHeapCore.Private in
/-- C31 (amended): in a heap that satisfies the representation invariant, for
the address `r` of an abstract root (a live root with abstraction metadata)
that carries no program variable and whose objects are in order,
`SymHeap::valDestroyTarget(r)` returns true and removes the metadata together
with the block: afterwards `valTargetKind` reports `OK_CONCRETE` and
`hasAbstractTarget` is false for `r` and its offset values, and `valTarget`
reports `VT_DELETED` for `r` and for its offset values with a positive offset
(`VT_UNKNOWN` for those with a negative offset).  A call that returns false
leaves the heap, metadata included, unchanged; the call returns false on
`VAL_NULL`, on a value with a non-zero offset and on a value whose target is
not possible to dereference. -/
theorem C31_destroy_abstract (sh : SymHeap) (hinv : sh.toSymHeapCore.HeapInv = true) (r : Int)
    (rb : BaseValue) (rd : RootValue) (ao : AbstractObject)
    (hr : sh.d.rootData r = some (rb, rd)) (hlive : isPossibleToDeref rb.code = true)
    (habs : mapFind r sh.data = some ao) (hheap : rd.cVar.uid = -1)
    (hobjs : sh.d.rootObjsOk rd = true) :
    (∃ sh', sh.valDestroyTarget r = some (sh', true) ∧
      mapFind r sh'.data = none ∧
      sh'.valTargetKind r = some OK_CONCRETE ∧ sh'.hasAbstractTarget r = some false ∧
      sh'.valTarget r = some VT_DELETED ∧
      (∀ s b, sh.d.valData s = some (b, .OffValue r) →
        sh'.valTargetKind s = some OK_CONCRETE ∧ sh'.hasAbstractTarget s = some false ∧
        (0 < b.offRoot → sh'.valTarget s = some VT_DELETED) ∧
        (b.offRoot < 0 → sh'.valTarget s = some VT_UNKNOWN))) ∧
    (∀ val sh2, sh.valDestroyTarget val = some (sh2, false) → sh2 = sh) ∧
    sh.valDestroyTarget VAL_NULL = some (sh, false) ∧
    (∀ s b x, sh.d.valData s = some (b, x) →
      b.offRoot ≠ 0 ∨ isPossibleToDeref b.code = false →
      sh.valDestroyTarget s = some (sh, false)) := by
  obtain ⟨hoffinv, huse, -, -⟩ := heapInv_parts hinv
  refine ⟨?_, fun val sh2 h => SymHeap.valDestroyTarget_false h, ?_,
    fun s b x hs h => SymHeap.valDestroyTarget_refused hoffinv hs h⟩
  · obtain ⟨sh', rb3, rd3, hd, hdata, hr', hoff3, hlen, -, -, hvals, -, -⟩ :=
      SymHeap.valDestroyTarget_spec hinv hr hlive hobjs (fun h => absurd hheap h)
    have hcode : goneCode rd.cVar = VT_DELETED := by
      unfold goneCode
      simp [hheap]
    have hvr' := valData_of_rootData hr'
    have hnone : mapFind r sh'.data = none := by rw [hdata]; exact mapFind_mapErase_self r _
    have hrpos := (rootData_eq_some.mp hr).1
    have hrange : sh'.d.valOutOfRange r = false :=
      valOutOfRange_of_valData (by rw [hvr']; rfl)
    have hkind : ∀ s R, sh'.toSymHeapCore.valRoot s = some R → R = r → 0 < s →
        sh'.valTargetKind s = some OK_CONCRETE ∧ sh'.hasAbstractTarget s = some false := by
      intro s R hroot hR hpos
      subst hR
      have hk : sh'.valTargetKind s = some OK_CONCRETE := by
        unfold SymHeap.valTargetKind
        simp only [not_le.mpr hpos, if_false, hroot, Option.bind_eq_bind, Option.some_bind, hnone]
      refine ⟨hk, ?_⟩
      unfold SymHeap.hasAbstractTarget
      simp [hk]
    have hrootr : sh'.toSymHeapCore.valRoot r = some r := by
      rw [valRoot_of_valData hvr']; simp [Private.valRootOf, hoff3]
    refine ⟨sh', hd, hnone, (hkind r r hrootr rfl hrpos).1, (hkind r r hrootr rfl hrpos).2, ?_, ?_⟩
    · rw [SymHeap.valTarget_concrete hvr' (by simp [Private.valRootOf, hoff3]) hvr' hnone]
      simp [hoff3, hcode]
    · intro s b hs
      have hne : s ≠ r := by
        intro h
        rw [h, valData_of_rootData hr] at hs
        cases hs
      obtain ⟨b', x', hs', hc, hf, hx⟩ := hvals s hne b _ hs
      have hx' := hx (fun r0 h => by cases h)
      subst hx'
      have hok := entOffOk_of_inv hoffinv s
      unfold Private.entOffOk at hok
      rw [(valData_eq_some.mp hs).2] at hok
      simp only [Bool.and_eq_true, decide_eq_true_eq] at hok
      have h0 : b'.offRoot ≠ 0 := by rw [hf]; exact hok.1.1
      have hderef : isPossibleToDeref b'.code = true := by
        rw [hc]; exact SymHeap.isPossibleToDeref_of_known hok.1.2
      have hroot : sh'.d.valRootOf s (b', .OffValue r) = some r := by
        unfold Private.valRootOf
        simp only [h0, if_false, hrange, Bool.false_eq_true]
      have hspos := (valData_eq_some.mp hs').1
      have hvroot : sh'.toSymHeapCore.valRoot s = some r := by
        rw [valRoot_of_valData hs']; exact hroot
      refine ⟨(hkind s r hvroot rfl hspos).1, (hkind s r hvroot rfl hspos).2, ?_, ?_⟩
      · intro hpos
        rw [SymHeap.valTarget_concrete hs' hroot hvr' hnone]
        have h1 : ¬ b'.offRoot < 0 := by omega
        simp only [h1, if_false, hderef, Bool.not_true, Bool.false_or, decide_eq_true_eq, h0,
          hcode]
      · intro hneg
        rw [SymHeap.valTarget_concrete hs' hroot hvr' hnone]
        have h1 : b'.offRoot < 0 := by omega
        simp only [h1, if_true]
  · unfold SymHeap.valDestroyTarget SymHeapCore.valDestroyTarget SymHeapCore.valRoot
    simp [VAL_NULL]

/-- Claim C31 (amended) applied to the segment at the address 2 of
`exSlsOffHeap`, which has the off-value 7 at the offset 8. -/
theorem C31_destroy_abstract_witness :
    (∃ sh', exSlsOffHeap.valDestroyTarget 2 = some (sh', true) ∧
      mapFind 2 sh'.data = none ∧
      sh'.valTargetKind 2 = some OK_CONCRETE ∧ sh'.hasAbstractTarget 2 = some false ∧
      sh'.valTarget 2 = some VT_DELETED ∧
      (∀ s b, exSlsOffHeap.d.valData s = some (b, .OffValue 2) →
        sh'.valTargetKind s = some OK_CONCRETE ∧ sh'.hasAbstractTarget s = some false ∧
        (0 < b.offRoot → sh'.valTarget s = some VT_DELETED) ∧
        (b.offRoot < 0 → sh'.valTarget s = some VT_UNKNOWN))) ∧
    exSlsOffHeap.valTarget 2 = some VT_ABSTRACT ∧
    exSlsOffHeap.d.valData 7 = some ({ code := VT_ON_HEAP, origin := VO_ASSIGNED, offRoot := 8 },
      .OffValue 2) :=
  ⟨(C31_destroy_abstract exSlsOffHeap (by decide) 2
    { code := VT_ON_HEAP, origin := VO_ASSIGNED, usedBy := [] }
    { offMap := [(8, 7)], addr := 2, lastKnownClt := some 0, cbSize := 16,
      allObjs := [3, 4, 5], liveObjs := [(4, true)],
      grid := [(0, [(some 0, 3), (some 1, 4)]), (8, [(some 1, 5)])] }
    { kind := OK_SLS, off := exBinding }
    (by decide) (by decide) (by decide) (by decide) (by decide)).1, by decide, by decide⟩

/-- C31 fails as stated.  In `exSlsNegHeap` the value 6 is the offset value of
the segment at the address 2 at the offset -4: after `valDestroyTarget(2)`
returned true its target is `VT_UNKNOWN`, not `VT_DELETED`. -/
theorem C31_counterexample :
    exSlsNegHeap.valTarget 2 = some VT_ABSTRACT ∧
    exSlsNegHeap.d.valData 6
      = some ({ code := VT_ON_HEAP, origin := VO_ASSIGNED, offRoot := -4 }, .OffValue 2) ∧
    (exSlsNegHeap.valDestroyTarget 2).map
        (fun p => (p.2, p.1.valTargetKind 2, p.1.valTarget 2, p.1.valTarget 6))
      = some (true, some OK_CONCRETE, some VT_DELETED, some VT_UNKNOWN) := by
  decide

/-- For two positive values with dereferenceable targets and different
offsets, `matchValues` returns false and leaves the maps as they are. -/
theorem matchValues_offset_mismatch (vMap : TValMapBidir) (sh1 sh2 : SymHeap) (v1 v2 : Int)
    (c1 c2 : EValueTarget) (o1 o2 : Int) (h1 : 0 < v1) (h2 : 0 < v2)
    (ht1 : sh1.valTarget v1 = some c1) (ht2 : sh2.valTarget v2 = some c2)
    (hd1 : isPossibleToDeref c1 = true) (hd2 : isPossibleToDeref c2 = true)
    (ho1 : sh1.toSymHeapCore.valOffset v1 = some o1)
    (ho2 : sh2.toSymHeapCore.valOffset v2 = some o2) (hne : o1 ≠ o2) :
    matchValues vMap sh1 sh2 v1 v2 = some (vMap, false) := by
  have hp : matchPlainValues vMap sh1 sh2 v1 v2 true = some (vMap, false) := by
    unfold matchPlainValues
    have hc : checkNonPosValues v1 v2 = true := by simp [checkNonPosValues, h1, h2]
    have hn : ¬ v1 ≤ VAL_NULL := by unfold VAL_NULL; omega
    simp [hc, hn, ht1, ht2, hd1, hd2, ho1, ho2, hne]
  unfold matchValues
  simp [hp]

/-- For two positive values with dereferenceable targets and equal offsets
whose pair of roots contradicts the recorded renaming, `matchValues` returns
false and leaves the maps as they are. -/
theorem matchValues_root_mismatch (vMap : TValMapBidir) (sh1 sh2 : SymHeap) (v1 v2 : Int)
    (c1 c2 : EValueTarget) (o r1 r2 : Int) (h1 : 0 < v1) (h2 : 0 < v2)
    (ht1 : sh1.valTarget v1 = some c1) (ht2 : sh2.valTarget v2 = some c2)
    (hd1 : isPossibleToDeref c1 = true) (hd2 : isPossibleToDeref c2 = true)
    (ho1 : sh1.toSymHeapCore.valOffset v1 = some o)
    (ho2 : sh2.toSymHeapCore.valOffset v2 = some o)
    (hr1 : sh1.toSymHeapCore.valRoot v1 = some r1)
    (hr2 : sh2.toSymHeapCore.valRoot v2 = some r2)
    (hbad : (matchPlainValuesCore vMap r1 r2).2 = false) :
    matchValues vMap sh1 sh2 v1 v2 = some (vMap, false) := by
  have hsame : (matchPlainValuesCore vMap r1 r2).1 = vMap := by
    unfold matchPlainValuesCore at hbad ⊢
    cases hf1 : mapFind r1 vMap.ltr with
    | some x => rfl
    | none =>
      cases hf2 : mapFind r2 vMap.rtl with
      | some y => rfl
      | none => simp [hf1, hf2] at hbad
  have hp : matchPlainValues vMap sh1 sh2 v1 v2 true = some (vMap, false) := by
    unfold matchPlainValues
    have hc : checkNonPosValues v1 v2 = true := by simp [checkNonPosValues, h1, h2]
    have hn : ¬ v1 ≤ VAL_NULL := by unfold VAL_NULL; omega
    simp [hc, hn, ht1, ht2, hd1, hd2, ho1, ho2, hr1, hr2, hbad, hsame]
  unfold matchValues
  simp [hp]

/-- The loop of `dfsCmp` returns false on a scheduled pair whose `valTarget`
classifications differ. -/
theorem dfsCmp_target_mismatch (fuel : Nat) (st : CmpState) (v1 v2 : Int) (wl : WorkList)
    (c1 c2 : EValueTarget) (hnext : st.wl.next = some ((v1, v2), wl))
    (ht1 : st.sh1.valTarget v1 = some c1) (ht2 : st.sh2.valTarget v2 = some c2)
    (hne : c1 ≠ c2) :
    dfsCmp (fuel + 1) st = some ({ st with wl := wl }, false) := by
  simp [dfsCmp, hnext, ht1, ht2, hne]

/-- C34 does not hold on the code for two abstract targets.  The value 2 is
the address of a segment in each of the three heaps: a singly-linked segment
with the binding `exBinding`, a doubly-linked segment with the same binding,
and a singly-linked segment with another binding.  For the pair `(2, 2)` of the
first heap and either of the other two, `matchValues` does not return false: the
pair passes `matchPlainValues`, both values are of the abstract kind, and
`matchValues` calls `valGetCustom(2)`, which traps on a value that is not
custom. -/
theorem C34_matchValues_traps :
    (exSegHeap OK_SLS exBinding).valTarget 2 = some VT_ABSTRACT ∧
    (exSegHeap OK_DLS exBinding).valTarget 2 = some VT_ABSTRACT ∧
    (exSegHeap OK_SLS { head := 0, next := 8, prev := 0 }).valTarget 2 = some VT_ABSTRACT ∧
    (exSegHeap OK_SLS exBinding).valTargetKind 2 = some OK_SLS ∧
    (exSegHeap OK_DLS exBinding).valTargetKind 2 = some OK_DLS ∧
    (exSegHeap OK_SLS exBinding).segBinding 2 = some exBinding ∧
    (exSegHeap OK_SLS { head := 0, next := 8, prev := 0 }).segBinding 2
      = some { head := 0, next := 8, prev := 0 } ∧
    matchPlainValues {} (exSegHeap OK_SLS exBinding) (exSegHeap OK_DLS exBinding) 2 2 true
      = some ({ ltr := [(2, 2)], rtl := [(2, 2)] }, true) ∧
    (exSegHeap OK_SLS exBinding).valGetUnknown 2 = some UV_ABSTRACT ∧
    (exSegHeap OK_DLS exBinding).valGetUnknown 2 = some UV_ABSTRACT ∧
    (exSegHeap OK_SLS exBinding).toSymHeapCore.valGetCustom 2 = none ∧
    matchValues {} (exSegHeap OK_SLS exBinding) (exSegHeap OK_DLS exBinding) 2 2 = none ∧
    matchValues {} (exSegHeap OK_SLS exBinding)
      (exSegHeap OK_SLS { head := 0, next := 8, prev := 0 }) 2 2 = none := by
  decide

namespace SymHeapCore.Private

theorem UsedByOk.sameEnts {d d2 : Private} (h : d2.ents = d.ents) (hu : d.UsedByOk) :
    d2.UsedByOk := by
  have he : ∀ j, d2.ent j = d.ent j := fun j => by simp [ent, h]
  unfold UsedByOk
  simp only [he]
  exact hu

/-- A write of an entity that keeps the kind of the entity, the value it holds
and its `usedBy` set keeps the backward references in order. -/
theorem UsedByOk.setEnt {d : Private} (hu : d.UsedByOk) {id : Int} {e0 e : IHeapEntity}
    (h0 : d.ent id = some e0) (hh : e.held = e0.held) (hs : e.users = e0.users) :
    (d.setEnt id e).UsedByOk := by
  have hent : ∀ j, (d.setEnt id e).ent j = if j = id then some e else d.ent j :=
    fun j => ent_setEnt e h0 j
  have hobj : ∀ j od, (d.setEnt id e).ent j = some (.HeapObject od) →
      ∃ od0, d.ent j = some (.HeapObject od0) ∧ od0.value = od.value := by
    intro j od hj
    rw [hent] at hj
    split at hj
    · rename_i hji
      subst hji
      cases hj
      cases e0 with
      | HeapObject o0 =>
        simp only [IHeapEntity.held, Option.some.injEq] at hh
        exact ⟨o0, h0, hh.symm⟩
      | Value b x => simp [IHeapEntity.held] at hh
    · exact ⟨od, hj, rfl⟩
  have hobj2 : ∀ j od0, d.ent j = some (.HeapObject od0) →
      ∃ od, (d.setEnt id e).ent j = some (.HeapObject od) ∧ od.value = od0.value := by
    intro j od0 hj
    rw [hent]
    split
    · rename_i hji
      subst hji
      rw [h0] at hj
      cases hj
      cases e with
      | HeapObject o =>
        simp only [IHeapEntity.held, Option.some.injEq] at hh
        exact ⟨o, rfl, hh⟩
      | Value b x => simp [IHeapEntity.held] at hh
    · exact ⟨od0, hj, rfl⟩
  have hval : ∀ j b x, (d.setEnt id e).ent j = some (.Value b x) →
      ∃ b0 x0, d.ent j = some (.Value b0 x0) ∧ b0.usedBy = b.usedBy := by
    intro j b x hj
    rw [hent] at hj
    split at hj
    · rename_i hji
      subst hji
      cases hj
      cases e0 with
      | HeapObject o0 => simp [IHeapEntity.users] at hs
      | Value b0 x0 =>
        simp only [IHeapEntity.users, Option.some.injEq] at hs
        exact ⟨b0, x0, h0, hs.symm⟩
    · exact ⟨b, x, hj, rfl⟩
  have hval2 : ∀ j b0 x0, d.ent j = some (.Value b0 x0) →
      ∃ b x, (d.setEnt id e).ent j = some (.Value b x) ∧ b.usedBy = b0.usedBy := by
    intro j b0 x0 hj
    rw [hent]
    split
    · rename_i hji
      subst hji
      rw [h0] at hj
      cases hj
      cases e with
      | HeapObject o => simp [IHeapEntity.users] at hs
      | Value b x =>
        simp only [IHeapEntity.users, Option.some.injEq] at hs
        exact ⟨b, x, rfl, hs⟩
    · exact ⟨b0, x0, hj, rfl⟩
  constructor
  · intro o od ho hpos
    obtain ⟨od0, ho0, hv0⟩ := hobj o od ho
    obtain ⟨b0, x0, hb0, hm0⟩ := hu.1 o od0 ho0 (by rw [hv0]; exact hpos)
    rw [hv0] at hb0
    obtain ⟨b, x, hb, hub⟩ := hval2 _ b0 x0 hb0
    exact ⟨b, x, hb, by rw [hub]; exact hm0⟩
  · intro v b x hpos hv o ho
    obtain ⟨b0, x0, hb0, hub⟩ := hval v b x hv
    obtain ⟨od0, ho0, hv0⟩ := hu.2 v b0 x0 hpos hb0 o (by rw [hub]; exact ho)
    obtain ⟨od, hod, hvv⟩ := hobj2 o od0 ho0
    exact ⟨od, hod, by rw [hvv, hv0]⟩

/-- A new entity that holds no positive value and has an empty `usedBy` set
keeps the backward references in order. -/
theorem UsedByOk.pushEnt {d : Private} (hu : d.UsedByOk) {e : IHeapEntity}
    (hh : ∀ v, e.held = some v → v ≤ 0) (hs : ∀ u, e.users = some u → u = []) :
    (d.pushEnt e).UsedByOk := by
  have hnone : d.ent d.ents.length = none := by
    cases he : d.ent d.ents.length with
    | none => rfl
    | some e0 => exact absurd (ent_eq_some he).2.1 (lt_irrefl _)
  constructor
  · intro o od ho hpos
    have hne : o ≠ (d.ents.length : Int) := by
      intro h
      rw [h, ent_pushEnt_last] at ho
      cases ho
      have := hh od.value rfl
      omega
    rw [ent_pushEnt_ne _ hne] at ho
    obtain ⟨b, x, hb, hm⟩ := hu.1 o od ho hpos
    have hne2 : od.value ≠ (d.ents.length : Int) := by
      intro h
      rw [h, hnone] at hb
      cases hb
    exact ⟨b, x, by rw [ent_pushEnt_ne _ hne2]; exact hb, hm⟩
  · intro v b x hpos hv o ho
    have hne : v ≠ (d.ents.length : Int) := by
      intro h
      rw [h, ent_pushEnt_last] at hv
      cases hv
      have := hs b.usedBy rfl
      rw [this] at ho
      exact absurd ho (List.not_mem_nil _)
    rw [ent_pushEnt_ne _ hne] at hv
    obtain ⟨od, hod, hvv⟩ := hu.2 v b x hpos hv o ho
    have hne2 : o ≠ (d.ents.length : Int) := by
      intro h
      rw [h, hnone] at hod
      cases hod
    exact ⟨od, by rw [ent_pushEnt_ne _ hne2]; exact hod, hvv⟩

end SymHeapCore.Private
namespace SymHeapCore.Private

theorem usedByOk_iff (d : Private) :
    d.UsedByOk ↔
      (∀ o v, d.heldAt o = some v → 0 < v → ∃ u, d.usersAt v = some u ∧ o ∈ u) ∧
      (∀ v u, 0 < v → d.usersAt v = some u → ∀ o ∈ u, d.heldAt o = some v) := by
  unfold UsedByOk heldAt usersAt
  constructor
  · rintro ⟨h1, h2⟩
    constructor
    · intro o v ho hpos
      cases he : d.ent o with
      | none => simp [he] at ho
      | some e =>
        cases e with
        | Value b x => simp [he, IHeapEntity.held] at ho
        | HeapObject od =>
          simp only [he, Option.some_bind, IHeapEntity.held, Option.some.injEq] at ho
          subst ho
          obtain ⟨b, x, hb, hm⟩ := h1 o od he hpos
          exact ⟨b.usedBy, by simp [hb, IHeapEntity.users], hm⟩
    · intro v u hpos hv o ho
      cases he : d.ent v with
      | none => simp [he] at hv
      | some e =>
        cases e with
        | HeapObject od => simp [he, IHeapEntity.users] at hv
        | Value b x =>
          simp only [he, Option.some_bind, IHeapEntity.users, Option.some.injEq] at hv
          subst hv
          obtain ⟨od, hod, hvv⟩ := h2 v b x hpos he o ho
          simp [hod, IHeapEntity.held, hvv]
  · rintro ⟨h1, h2⟩
    constructor
    · intro o od ho hpos
      obtain ⟨u, hu, hm⟩ := h1 o od.value (by simp [ho, IHeapEntity.held]) hpos
      cases he : d.ent od.value with
      | none => simp [he] at hu
      | some e =>
        cases e with
        | HeapObject od2 => simp [he, IHeapEntity.users] at hu
        | Value b x =>
          simp only [he, Option.some_bind, IHeapEntity.users, Option.some.injEq] at hu
          subst hu
          exact ⟨b, x, rfl, hm⟩
    · intro v b x hpos hv o ho
      have := h2 v b.usedBy hpos (by simp [hv, IHeapEntity.users]) o ho
      cases he : d.ent o with
      | none => simp [he] at this
      | some e =>
        cases e with
        | Value b2 x2 => simp [he, IHeapEntity.held] at this
        | HeapObject od =>
          simp only [he, Option.some_bind, IHeapEntity.held, Option.some.injEq] at this
          exact ⟨od, rfl, this⟩

theorem heldAt_setEnt {d : Private} {id : Int} {e0 : IHeapEntity} (e : IHeapEntity)
    (h0 : d.ent id = some e0) (j : Int) :
    (d.setEnt id e).heldAt j = if j = id then e.held else d.heldAt j := by
  unfold heldAt
  rw [ent_setEnt e h0 j]
  split <;> rfl

theorem usersAt_setEnt {d : Private} {id : Int} {e0 : IHeapEntity} (e : IHeapEntity)
    (h0 : d.ent id = some e0) (j : Int) :
    (d.setEnt id e).usersAt j = if j = id then e.users else d.usersAt j := by
  unfold usersAt
  rw [ent_setEnt e h0 j]
  split <;> rfl

/-- A write that keeps what the entity holds and its `usedBy` set. -/
theorem heldAt_setEnt_same {d : Private} {id : Int} {e0 : IHeapEntity} (e : IHeapEntity)
    (h0 : d.ent id = some e0) (hh : e.held = e0.held) (j : Int) :
    (d.setEnt id e).heldAt j = d.heldAt j := by
  rw [heldAt_setEnt e h0]
  split
  · rename_i hj; subst hj; unfold heldAt; rw [h0, hh]; rfl
  · rfl

theorem usersAt_setEnt_same {d : Private} {id : Int} {e0 : IHeapEntity} (e : IHeapEntity)
    (h0 : d.ent id = some e0) (hs : e.users = e0.users) (j : Int) :
    (d.setEnt id e).usersAt j = d.usersAt j := by
  rw [usersAt_setEnt e h0]
  split
  · rename_i hj; subst hj; unfold usersAt; rw [h0, hs]; rfl
  · rfl

/-- What `releaseValueOf(obj, old)` does to the backward references when it
returns: `obj` leaves the `usedBy` set of `old`, of which it was a member. -/
theorem releaseValueOf_use {d d1 : Private} {obj old : Int}
    (h : d.releaseValueOf obj old = some d1) :
    (∀ j, d1.heldAt j = d.heldAt j) ∧
    (∀ j, d1.usersAt j
      = if j = old ∧ 0 < old then (d.usersAt j).map (setErase obj) else d.usersAt j) ∧
    (0 < old → ∃ u, d.usersAt old = some u ∧ obj ∈ u) := by
  unfold releaseValueOf at h
  split at h
  · rename_i hle
    cases h
    refine ⟨fun j => rfl, fun j => ?_, fun hp => absurd hp (by omega)⟩
    rw [if_neg (by omega)]
  rename_i hpos
  simp only [Option.bind_eq_bind] at h
  obtain ⟨p, hp, h⟩ := Option.bind_eq_some.1 h
  obtain ⟨b, x⟩ := p
  have hent := (valData_eq_some.mp hp).2
  simp only at hent
  split at h
  · cases h
  rename_i hmem
  simp only [not_not] at hmem
  obtain ⟨d2, hd2⟩ : ∃ d2 : Private,
      d2 = d.setEnt old (.Value { b with usedBy := setErase obj b.usedBy } x) := ⟨_, rfl⟩
  rw [← hd2] at h
  have hh2 : ∀ j, d2.heldAt j = d.heldAt j := by
    intro j; rw [hd2]
    exact heldAt_setEnt_same (.Value { b with usedBy := setErase obj b.usedBy } x) hent rfl j
  have hu2 : ∀ j, d2.usersAt j
      = if j = old ∧ 0 < old then (d.usersAt j).map (setErase obj) else d.usersAt j := by
    intro j
    rw [hd2, usersAt_setEnt _ hent]
    by_cases hj : j = old
    · subst hj
      rw [if_pos rfl, if_pos ⟨rfl, by omega⟩]
      unfold usersAt
      rw [hent]
      rfl
    · rw [if_neg hj, if_neg (fun hc => hj hc.1)]
  have hold : 0 < old → ∃ u, d.usersAt old = some u ∧ obj ∈ u := by
    intro _
    exact ⟨b.usedBy, by unfold usersAt; rw [hent]; rfl, hmem⟩
  obtain ⟨root, -, h⟩ := Option.bind_eq_some.1 h
  obtain ⟨q, hq, h⟩ := Option.bind_eq_some.1 h
  obtain ⟨rb, rx⟩ := q
  have hentr := (valData_eq_some.mp hq).2
  simp only at hentr
  split at h
  · cases h
    exact ⟨hh2, hu2, hold⟩
  cases rx with
  | RootValue rd =>
    simp only at h
    split at h
    · cases h
    · cases h
      refine ⟨fun j => ?_, fun j => ?_, hold⟩
      · rw [heldAt_setEnt_same
          (.Value rb (.RootValue { rd with usedByGl := setErase obj rd.usedByGl })) hentr rfl]
        exact hh2 j
      · rw [usersAt_setEnt_same
          (.Value rb (.RootValue { rd with usedByGl := setErase obj rd.usedByGl })) hentr rfl]
        exact hu2 j
  | BaseValue => cases h
  | CompValue c => cases h
  | CustomValue c => cases h
  | OffValue r => cases h

end SymHeapCore.Private
namespace SymHeapCore.Private

theorem ent_of_heldAt {d : Private} {j v : Int} (h : d.heldAt j = some v) :
    ∃ od, d.ent j = some (.HeapObject od) ∧ od.value = v := by
  unfold heldAt at h
  cases he : d.ent j with
  | none => simp [he] at h
  | some e =>
    cases e with
    | Value b x => simp [he, IHeapEntity.held] at h
    | HeapObject od =>
      simp only [he, Option.some_bind, IHeapEntity.held, Option.some.injEq] at h
      exact ⟨od, rfl, h⟩

theorem usersAt_of_heldAt {d : Private} {j v : Int} (h : d.heldAt j = some v) :
    d.usersAt j = none := by
  obtain ⟨od, he, -⟩ := ent_of_heldAt h
  unfold usersAt
  rw [he]; rfl

theorem heldAt_of_usersAt {d : Private} {j : Int} {u : TUsedBy} (h : d.usersAt j = some u) :
    d.heldAt j = none := by
  cases hh : d.heldAt j with
  | none => rfl
  | some v => rw [usersAt_of_heldAt hh] at h; cases h

/-- The backward references after the value `old` of the object `obj` was
released and the value `val` stored in its place, with `obj` added to the
`usedBy` set of `val` if `val` is positive. -/
theorem UsedByOk.store {d d2 : Private} {obj old val : Int} (hu : d.UsedByOk)
    (ho : d.heldAt obj = some old)
    (hh : ∀ j, d2.heldAt j = if j = obj then some val else d.heldAt j)
    (hus : ∀ j, d2.usersAt j
      = if j = val ∧ 0 < val then
          (if j = old ∧ 0 < old then (d.usersAt j).map (setErase obj) else d.usersAt j).map
            (setInsert intLt obj)
        else (if j = old ∧ 0 < old then (d.usersAt j).map (setErase obj) else d.usersAt j))
    (hval : 0 < val → ∃ u, d.usersAt val = some u) : d2.UsedByOk := by
  rw [usedByOk_iff] at hu ⊢
  obtain ⟨h1, h2⟩ := hu
  constructor
  · intro o v hov hpos
    rw [hh] at hov
    by_cases hobj : o = obj
    · subst hobj
      rw [if_pos rfl] at hov
      cases hov
      obtain ⟨u0, hu0⟩ := hval hpos
      rw [hus, if_pos ⟨rfl, hpos⟩, hu0]
      by_cases hc : val = old ∧ 0 < old
      · rw [if_pos hc]
        exact ⟨_, rfl, (mem_setInsert _ _ _ _).2 (Or.inl rfl)⟩
      · rw [if_neg hc]
        exact ⟨_, rfl, (mem_setInsert _ _ _ _).2 (Or.inl rfl)⟩
    · rw [if_neg hobj] at hov
      obtain ⟨u0, hu0, hm⟩ := h1 o v hov hpos
      rw [hus, hu0]
      have hkeep : o ∈ setErase obj u0 := (mem_setErase _ _ _).2 ⟨hm, hobj⟩
      by_cases hc1 : v = val ∧ 0 < val
      · rw [if_pos hc1]
        by_cases hc : v = old ∧ 0 < old
        · rw [if_pos hc]
          exact ⟨_, rfl, (mem_setInsert _ _ _ _).2 (Or.inr hkeep)⟩
        · rw [if_neg hc]
          exact ⟨_, rfl, (mem_setInsert _ _ _ _).2 (Or.inr hm)⟩
      · rw [if_neg hc1]
        by_cases hc : v = old ∧ 0 < old
        · rw [if_pos hc]
          exact ⟨_, rfl, hkeep⟩
        · rw [if_neg hc]
          exact ⟨_, rfl, hm⟩
  · intro v u hpos hv o hmem
    rw [hus] at hv
    have hinner : ∀ w, (if v = old ∧ 0 < old then (d.usersAt v).map (setErase obj)
        else d.usersAt v) = some w → o ∈ w → d2.heldAt o = some v := by
      intro w hw how
      by_cases hc : v = old ∧ 0 < old
      · rw [if_pos hc] at hw
        cases hu0 : d.usersAt v with
        | none => rw [hu0] at hw; cases hw
        | some u0 =>
          rw [hu0] at hw
          simp only [Option.map_some', Option.some.injEq] at hw
          subst hw
          obtain ⟨hm, hne⟩ := (mem_setErase _ _ _).1 how
          rw [hh, if_neg hne]
          exact h2 v u0 hpos hu0 o hm
      · rw [if_neg hc] at hw
        have hd := h2 v w hpos hw o how
        by_cases hobj : o = obj
        · subst hobj
          rw [ho] at hd
          cases hd
          exact absurd ⟨rfl, hpos⟩ hc
        · rw [hh, if_neg hobj]
          exact hd
    by_cases hc1 : v = val ∧ 0 < val
    · rw [if_pos hc1] at hv
      cases hw : (if v = old ∧ 0 < old then (d.usersAt v).map (setErase obj)
          else d.usersAt v) with
      | none => rw [hw] at hv; cases hv
      | some w =>
        rw [hw] at hv
        simp only [Option.map_some', Option.some.injEq] at hv
        subst hv
        rcases (mem_setInsert _ _ _ _).1 hmem with e | hm
        · subst e
          rw [hh, if_pos rfl, hc1.1]
        · exact hinner w hw hm
    · rw [if_neg hc1] at hv
      exact hinner u hv hmem

/-- The backward references after `releaseValueOf(obj, old)` and a write of the
object `obj`. -/
theorem release_write_use {d d1 : Private} {obj : Int} {od od2 : HeapObject}
    (ho : d.ent obj = some (.HeapObject od))
    (h : d.releaseValueOf obj od.value = some d1) :
    (∀ j, (d1.setEnt obj (.HeapObject od2)).heldAt j
      = if j = obj then some od2.value else d.heldAt j) ∧
    (∀ j, (d1.setEnt obj (.HeapObject od2)).usersAt j
      = if j = od.value ∧ 0 < od.value then (d.usersAt j).map (setErase obj)
        else d.usersAt j) ∧
    ∃ e1, d1.ent obj = some e1 := by
  obtain ⟨hh1, hu1, -⟩ := releaseValueOf_use h
  have hheld : d.heldAt obj = some od.value := by unfold heldAt; rw [ho]; rfl
  have hheld1 : d1.heldAt obj = some od.value := by rw [hh1]; exact hheld
  obtain ⟨od1, he1, -⟩ := ent_of_heldAt hheld1
  refine ⟨fun j => ?_, fun j => ?_, _, he1⟩
  · rw [heldAt_setEnt _ he1]
    split
    · rfl
    · exact hh1 j
  · rw [usersAt_setEnt _ he1]
    split
    · rename_i hj
      subst hj
      have hn : d.usersAt j = none := usersAt_of_heldAt hheld
      rw [hn]
      split <;> rfl
    · exact hu1 j

/-- A call of `setValueOf` that returns keeps the backward references in
order. -/
theorem UsedByOk.setValueOf {d d2 : Private} {obj val : Int} (hu : d.UsedByOk)
    (h : d.setValueOf obj val = some d2) : d2.UsedByOk := by
  unfold Private.setValueOf at h
  simp only [Option.bind_eq_bind] at h
  obtain ⟨od, hod, h⟩ := Option.bind_eq_some.1 h
  have ho := objData_eq_some.mp hod
  obtain ⟨d1, hrel, h⟩ := Option.bind_eq_some.1 h
  obtain ⟨hh2, hu2, e1, he1⟩ := @release_write_use d d1 obj od { od with value := val } ho hrel
  simp only at hh2
  have hheld : d.heldAt obj = some od.value := by unfold heldAt; rw [ho]; rfl
  obtain ⟨dw, hdw⟩ : ∃ dw : Private, dw = d1.setEnt obj (.HeapObject { od with value := val }) :=
    ⟨_, rfl⟩
  rw [← hdw] at h hh2 hu2
  split at h
  · rename_i hle
    cases h
    refine hu.store hheld hh2 (fun j => ?_) (fun hp => absurd hp (by omega))
    rw [if_neg (fun hc => by omega), hu2]
  rename_i hpos
  have hpos' : 0 < val := by omega
  obtain ⟨p, hp, h⟩ := Option.bind_eq_some.1 h
  obtain ⟨b, x⟩ := p
  have hentv := (valData_eq_some.mp hp).2
  simp only at hentv
  obtain ⟨d3, hd3⟩ : ∃ d3 : Private,
      d3 = dw.setEnt val (.Value { b with usedBy := setInsert intLt obj b.usedBy } x) := ⟨_, rfl⟩
  rw [← hd3] at h
  have husw : dw.usersAt val = some b.usedBy := by unfold usersAt; rw [hentv]; rfl
  have hh3 : ∀ j, d3.heldAt j = if j = obj then some val else d.heldAt j := by
    intro j
    rw [hd3, heldAt_setEnt_same (.Value { b with usedBy := setInsert intLt obj b.usedBy } x)
      hentv rfl]
    exact hh2 j
  have hu3 : ∀ j, d3.usersAt j
      = if j = val ∧ 0 < val then
          (if j = od.value ∧ 0 < od.value then (d.usersAt j).map (setErase obj)
            else d.usersAt j).map (setInsert intLt obj)
        else (if j = od.value ∧ 0 < od.value then (d.usersAt j).map (setErase obj)
          else d.usersAt j) := by
    intro j
    rw [hd3, usersAt_setEnt _ hentv]
    by_cases hj : j = val
    · subst hj
      rw [if_pos rfl, if_pos ⟨rfl, hpos'⟩, ← hu2, husw]
      rfl
    · rw [if_neg hj, if_neg (fun hc => hj hc.1)]
      exact hu2 j
  have hval : 0 < val → ∃ u, d.usersAt val = some u := by
    intro _
    have := hu2 val
    rw [husw] at this
    split at this
    · cases hd : d.usersAt val with
      | none => rw [hd] at this; cases this
      | some u => exact ⟨u, rfl⟩
    · exact ⟨_, this.symm⟩
  split at h
  · cases h
    exact hu.store hheld hh3 hu3 hval
  obtain ⟨root, -, h⟩ := Option.bind_eq_some.1 h
  obtain ⟨q, hq, h⟩ := Option.bind_eq_some.1 h
  obtain ⟨rb, rd⟩ := q
  have hentr := (rootData_eq_some.mp hq).2
  simp only at hentr
  cases h
  refine hu.store hheld (fun j => ?_) (fun j => ?_) hval
  · rw [heldAt_setEnt_same
      (.Value rb (.RootValue { rd with usedByGl := setInsert intLt obj rd.usedByGl })) hentr rfl]
    exact hh3 j
  · rw [usersAt_setEnt_same
      (.Value rb (.RootValue { rd with usedByGl := setInsert intLt obj rd.usedByGl })) hentr rfl]
    exact hu3 j

end SymHeapCore.Private
namespace SymHeapCore.Private

theorem UsedByOk.init : ({} : Private).UsedByOk := by
  have hnone : ∀ j, ({} : Private).ent j = none := by
    intro j
    cases he : ({} : Private).ent j with
    | none => rfl
    | some e =>
      obtain ⟨h0, h1, h2⟩ := ent_eq_some he
      have hj : j = 0 := by
        have : (({} : Private).ents.length : Int) = 1 := rfl
        omega
      subst hj
      cases h2
  constructor
  · intro o od ho; rw [hnone] at ho; cases ho
  · intro v b x _ hv; rw [hnone] at hv; cases hv

theorem UsedByOk.objCreate {d : Private} (hu : d.UsedByOk) : d.objCreate.1.UsedByOk := by
  unfold Private.objCreate
  refine hu.pushEnt (fun v hv => ?_) (fun u hu => by cases hu)
  simp only [IHeapEntity.held, Option.some.injEq] at hv
  rw [← hv]
  decide

theorem UsedByOk.valCreate {d d2 : Private} {code : EValueTarget} {origin : EValueOrigin}
    {v : Int} (hu : d.UsedByOk) (h : d.valCreate code origin = some (d2, v)) : d2.UsedByOk := by
  unfold Private.valCreate at h
  cases code <;> simp only [Option.some.injEq, Prod.mk.injEq] at h <;>
    first
    | (obtain ⟨h1, -⟩ := h
       rw [← h1]
       exact hu.pushEnt (fun v hv => by cases hv)
         (fun u hu => by simp only [IHeapEntity.users, Option.some.injEq] at hu; exact hu.symm))
    | cases h

theorem valCreate_push {d d2 : Private} {code : EValueTarget} {origin : EValueOrigin} {v : Int}
    (h : d.valCreate code origin = some (d2, v)) : ∃ e, d2 = d.pushEnt e := by
  unfold Private.valCreate at h
  cases code <;> simp only [Option.some.injEq, Prod.mk.injEq] at h <;>
    first
    | exact ⟨_, h.1.symm⟩
    | cases h

theorem UsedByOk.valDup {d d2 : Private} {val v : Int} (hu : d.UsedByOk)
    (h : d.valDup val = some (d2, v)) : d2.UsedByOk := by
  unfold Private.valDup at h
  simp only [Option.bind_eq_bind] at h
  obtain ⟨p, -, h⟩ := Option.bind_eq_some.1 h
  simp only [Option.some.injEq, Prod.mk.injEq] at h
  obtain ⟨h1, -⟩ := h
  rw [← h1]
  exact hu.pushEnt (fun v hv => by cases hv)
    (fun u hu => by simp only [IHeapEntity.users, Option.some.injEq] at hu; exact hu.symm)

/-- A write of the root entity that keeps its `BaseValue` part. -/
theorem UsedByOk.setRoot {d : Private} (hu : d.UsedByOk) {r : Int} {rb : BaseValue}
    {rd : RootValue} (h : d.rootData r = some (rb, rd)) (c : EValueTarget) (rd2 : RootValue) :
    (d.setEnt r (.Value { rb with code := c } (.RootValue rd2))).UsedByOk :=
  hu.setEnt (rootData_eq_some.mp h).2 rfl rfl

/-- A write of an object entity that keeps the value it holds. -/
theorem UsedByOk.setObj {d : Private} (hu : d.UsedByOk) {obj : Int} {od : HeapObject}
    (h : d.ent obj = some (.HeapObject od)) (od2 : HeapObject) (hv : od2.value = od.value) :
    (d.setEnt obj (.HeapObject od2)).UsedByOk :=
  hu.setEnt h (by simp [IHeapEntity.held, hv]) rfl

theorem UsedByOk.objDestroyLoop : ∀ (l : List Int) (d d2 : Private), d.UsedByOk →
    d.objDestroyLoop l = some d2 → d2.UsedByOk := by
  intro l
  induction l with
  | nil => intro d d2 hu h; simp only [Private.objDestroyLoop] at h; cases h; exact hu
  | cons obj rest ih =>
    intro d d2 hu h
    simp only [Private.objDestroyLoop, Option.bind_eq_bind] at h
    obtain ⟨od, hod, h⟩ := Option.bind_eq_some.1 h
    obtain ⟨d1, hrel, h⟩ := Option.bind_eq_some.1 h
    have ho := objData_eq_some.mp hod
    obtain ⟨hh2, hu2, -⟩ :=
      @release_write_use d d1 obj od { od with clt := none, value := VAL_INVALID } ho hrel
    simp only at hh2
    have hheld : d.heldAt obj = some od.value := by unfold heldAt; rw [ho]; rfl
    refine ih _ _ (hu.store hheld hh2 (fun j => ?_) (fun hp => absurd hp (by decide))) h
    rw [if_neg (fun hc => absurd hc.2 (by decide)), hu2]

theorem UsedByOk.objDestroy {d d2 : Private} {root : Int} (hu : d.UsedByOk)
    (h : d.objDestroy root = some d2) : d2.UsedByOk := by
  unfold Private.objDestroy at h
  simp only [Option.bind_eq_bind] at h
  obtain ⟨p, -, h⟩ := Option.bind_eq_some.1 h
  obtain ⟨q, hq, h⟩ := Option.bind_eq_some.1 h
  obtain ⟨d1, code⟩ := q
  have hu1 : d1.UsedByOk := by
    unfold Private.objDestroyCVar at hq
    split at hq
    · split at hq
      · cases hq
      · cases hq; exact hu.sameEnts rfl
    · cases hq; exact hu
  obtain ⟨d3, hd3, h⟩ := Option.bind_eq_some.1 h
  have hu3 : d3.UsedByOk :=
    UsedByOk.objDestroyLoop _ _ _
      (@UsedByOk.sameEnts d1 { d1 with liveRoots := setErase root d1.liveRoots } rfl hu1) hd3
  obtain ⟨r, hr, h⟩ := Option.bind_eq_some.1 h
  obtain ⟨rb, rd⟩ := r
  cases h
  exact hu3.setRoot hr code _

theorem UsedByOk.subsCreateItems (rootAt offRoot : Int) :
    ∀ (items : List ClTypeItem) (d : Private) (todo : List (Int × TObjType))
      (r : Private × List (Int × TObjType)), d.UsedByOk →
      d.subsCreateItems rootAt offRoot items todo = some r → r.1.UsedByOk := by
  intro items
  induction items with
  | nil => intro d todo r hu h; simp only [Private.subsCreateItems] at h; cases h; exact hu
  | cons item rest ih =>
    intro d todo r hu h
    simp only [Private.subsCreateItems, Option.bind_eq_bind] at h
    obtain ⟨sub, hsub, h⟩ := Option.bind_eq_some.1 h
    obtain ⟨q, hq, h⟩ := Option.bind_eq_some.1 h
    obtain ⟨rb, rd⟩ := q
    have hu1 := hu.objCreate
    have hu2 := hu1.setObj (objData_eq_some.mp hsub)
      { sub with clt := item.type, root := rootAt, off := offRoot + item.offset } rfl
    have hu3 := hu2.setRoot hq rb.code
      { rd with grid := gridSet rd.grid (offRoot + item.offset) item.type d.objCreate.2,
                allObjs := rd.allObjs ++ [d.objCreate.2] }
    exact ih _ _ r hu3 h

theorem UsedByOk.subsCreateLoop (stor : Storage) (rootAt : Int) :
    ∀ (fuel : Nat) (d : Private) (todo : List (Int × TObjType)) (d2 : Private), d.UsedByOk →
      subsCreateLoop stor rootAt fuel d todo = some d2 → d2.UsedByOk := by
  intro fuel
  induction fuel with
  | zero =>
    intro d todo d2 hu h
    cases todo with
    | nil => simp only [Private.subsCreateLoop] at h; cases h; exact hu
    | cons p todo => simp [Private.subsCreateLoop] at h
  | succ n ih =>
    intro d todo d2 hu h
    cases todo with
    | nil => simp only [Private.subsCreateLoop] at h; cases h; exact hu
    | cons p todo =>
      obtain ⟨obj, clt⟩ := p
      simp only [Private.subsCreateLoop] at h
      split at h
      · cases h
      split at h
      · exact ih _ _ _ hu h
      · simp only [Option.bind_eq_bind] at h
        obtain ⟨od, -, h⟩ := Option.bind_eq_some.1 h
        obtain ⟨q, hq, h⟩ := Option.bind_eq_some.1 h
        exact ih _ _ _ (UsedByOk.subsCreateItems _ _ _ _ _ q hu hq) h

theorem UsedByOk.subsCreate {d d2 : Private} {stor : Storage} {fuel : Nat} {rootAt : Int}
    (hu : d.UsedByOk) (h : d.subsCreate stor fuel rootAt = some d2) : d2.UsedByOk := by
  unfold Private.subsCreate at h
  simp only [Option.bind_eq_bind] at h
  obtain ⟨q, hq, h⟩ := Option.bind_eq_some.1 h
  obtain ⟨rb, rd⟩ := q
  obtain ⟨t, -, h⟩ := Option.bind_eq_some.1 h
  have hu1 : ({ d with liveRoots := setInsert intLt rootAt d.liveRoots } : Private).UsedByOk :=
    hu.sameEnts rfl
  split at h
  · rename_i obj _
    exact UsedByOk.subsCreateLoop _ _ _ _ _ _ (hu1.setRoot hq rb.code _) h
  · cases h

theorem UsedByOk.objDupLoop (liveSrc : TLiveObjs) (imageAt : Int) :
    ∀ (srcs : List Int) (d d2 : Private), d.UsedByOk →
      d.objDupLoop liveSrc imageAt srcs = some d2 → d2.UsedByOk := by
  intro srcs
  induction srcs with
  | nil => intro d d2 hu h; simp only [Private.objDupLoop] at h; cases h; exact hu
  | cons src rest ih =>
    intro d d2 hu h
    simp only [Private.objDupLoop, Option.bind_eq_bind] at h
    obtain ⟨os, -, h⟩ := Option.bind_eq_some.1 h
    obtain ⟨d3, hset, h⟩ := Option.bind_eq_some.1 h
    obtain ⟨od, hod, h⟩ := Option.bind_eq_some.1 h
    obtain ⟨q, hq, h⟩ := Option.bind_eq_some.1 h
    obtain ⟨rb, rd⟩ := q
    have hu3 : d3.UsedByOk := hu.objCreate.setValueOf hset
    have hu4 := hu3.setObj (objData_eq_some.mp hod)
      { od with off := os.off, clt := os.clt, root := imageAt } rfl
    exact ih _ _ (hu4.setRoot hq rb.code _) h

theorem UsedByOk.objDup {d d2 : Private} {rootAt v : Int} (hu : d.UsedByOk)
    (h : d.objDup rootAt = some (d2, v)) : d2.UsedByOk := by
  unfold Private.objDup at h
  simp only [Option.bind_eq_bind] at h
  obtain ⟨p, -, h⟩ := Option.bind_eq_some.1 h
  obtain ⟨od, hod, h⟩ := Option.bind_eq_some.1 h
  obtain ⟨q, hq, h⟩ := Option.bind_eq_some.1 h
  obtain ⟨d3, imageAt⟩ := q
  obtain ⟨r, hr, h⟩ := Option.bind_eq_some.1 h
  obtain ⟨rb, rd⟩ := r
  obtain ⟨d6, hd6, h⟩ := Option.bind_eq_some.1 h
  cases h
  have hu3 : d3.UsedByOk := hu.objCreate.valCreate hq
  have hobj : ∃ od3, d3.ent d.objCreate.2 = some (.HeapObject od3) ∧ od3.value = od.value := by
    have h1 := objData_eq_some.mp hod
    obtain ⟨e, he⟩ := valCreate_push hq
    rw [he]
    exact ⟨od, ent_pushEnt_of_some _ h1, rfl⟩
  obtain ⟨od3, hod3, hv3⟩ := hobj
  have hu4 := hu3.setObj hod3 { od with clt := p.2.lastKnownClt, root := imageAt } hv3.symm
  have hr4 : (d3.setEnt d.objCreate.2
      (.HeapObject { od with clt := p.2.lastKnownClt, root := imageAt })).rootData imageAt
      = some (rb, rd) := by
    have hne : imageAt ≠ d.objCreate.2 := by
      intro he
      have h1 := (rootData_eq_some.mp hr).2
      rw [he, hod3] at h1
      cases h1
    rw [rootData_eq_some]
    refine ⟨(rootData_eq_some.mp hr).1, ?_⟩
    rw [ent_setEnt _ hod3, if_neg hne]
    exact (rootData_eq_some.mp hr).2
  have hu5 := hu4.setRoot hr4 rb.code
    { rd with addr := imageAt, grid := gridSet rd.grid 0 p.2.lastKnownClt d.objCreate.2,
              cVar := p.2.cVar, isProto := p.2.isProto, cbSize := p.2.cbSize,
              lastKnownClt := p.2.lastKnownClt, allObjs := rd.allObjs ++ [d.objCreate.2] }
  refine UsedByOk.objDupLoop _ _ _ _ _ ?_ hd6
  exact UsedByOk.sameEnts rfl hu5

end SymHeapCore.Private
namespace SymHeapCore

open SymHeapCore.Private

theorem neqOpWrap_ents {d d2 : Private} {op : ENeqOp} {a b : Int}
    (h : d.neqOpWrap op a b = some d2) : d2.ents = d.ents := by
  unfold Private.neqOpWrap at h
  split at h
  · cases h; rfl
  · simp only [Option.bind_eq_bind] at h
    obtain ⟨db, -, h⟩ := Option.bind_eq_some.1 h
    cases h; rfl
  · simp only [Option.bind_eq_bind] at h
    obtain ⟨db, -, h⟩ := Option.bind_eq_some.1 h
    cases h; rfl

theorem neqOp_ents {sh sh2 : SymHeapCore} {op : ENeqOp} {a b : Int}
    (h : sh.neqOp op a b = some sh2) : sh2.d.ents = sh.d.ents := by
  unfold neqOp at h
  simp only [Option.bind_eq_bind] at h
  obtain ⟨d1, hd1, h⟩ := Option.bind_eq_some.1 h
  have e1 := neqOpWrap_ents hd1
  obtain ⟨off, -, h⟩ := Option.bind_eq_some.1 h
  split at h
  · cases h; exact e1
  obtain ⟨offB, -, h⟩ := Option.bind_eq_some.1 h
  split at h
  · cases h; exact e1
  obtain ⟨ra, -, h⟩ := Option.bind_eq_some.1 h
  obtain ⟨rb, -, h⟩ := Option.bind_eq_some.1 h
  obtain ⟨d2, hd2, h⟩ := Option.bind_eq_some.1 h
  cases h
  exact (neqOpWrap_ents hd2).trans e1

theorem usedByOk_neqOp {sh sh2 : SymHeapCore} {op : ENeqOp} {a b : Int} (hu : sh.d.UsedByOk)
    (h : sh.neqOp op a b = some sh2) : sh2.d.UsedByOk :=
  hu.sameEnts (neqOp_ents h)

theorem usedByOk_create {stor : Storage} {sh : SymHeapCore} (h : create stor = some sh) :
    sh.d.UsedByOk := by
  unfold create at h
  simp only [Option.bind_eq_bind] at h
  obtain ⟨p, hp, h⟩ := Option.bind_eq_some.1 h
  obtain ⟨d1, addrRet⟩ := p
  have hu1 : d1.UsedByOk := UsedByOk.init.valCreate hp
  split at h
  · cases h
  obtain ⟨q, hq, h⟩ := Option.bind_eq_some.1 h
  obtain ⟨rb, rd⟩ := q
  cases h
  exact hu1.setRoot hq rb.code _

theorem usedByOk_heapAlloc {sh sh2 : SymHeapCore} {cbSize : Nat} {v : Int} (hu : sh.d.UsedByOk)
    (h : sh.heapAlloc cbSize = some (sh2, v)) : sh2.d.UsedByOk := by
  unfold heapAlloc at h
  simp only [Option.bind_eq_bind] at h
  obtain ⟨p, hp, h⟩ := Option.bind_eq_some.1 h
  obtain ⟨d1, addr⟩ := p
  obtain ⟨q, hq, h⟩ := Option.bind_eq_some.1 h
  obtain ⟨rb, rd⟩ := q
  cases h
  exact (hu.valCreate hp).setRoot hq rb.code _

theorem usedByOk_objSetValue {sh sh2 : SymHeapCore} {obj val : Int} (hu : sh.d.UsedByOk)
    (h : sh.objSetValue obj val = some sh2) : sh2.d.UsedByOk := by
  unfold objSetValue at h
  simp only [Option.bind_eq_bind] at h
  obtain ⟨od, -, h⟩ := Option.bind_eq_some.1 h
  split at h
  · cases h
  obtain ⟨q, hq, h⟩ := Option.bind_eq_some.1 h
  obtain ⟨rb, rd⟩ := q
  obtain ⟨d2, hd2, h⟩ := Option.bind_eq_some.1 h
  cases h
  exact (hu.setRoot hq rb.code _).setValueOf hd2

theorem usedByOk_valByOffset {sh sh2 : SymHeapCore} {at_ off v : Int} (hu : sh.d.UsedByOk)
    (h : sh.valByOffset at_ off = some (sh2, v)) : sh2.d.UsedByOk := by
  unfold valByOffset at h
  split at h
  · cases h; exact hu
  simp only [Option.bind_eq_bind] at h
  obtain ⟨vd, -, h⟩ := Option.bind_eq_some.1 h
  obtain ⟨root, -, h⟩ := Option.bind_eq_some.1 h
  split at h
  · cases h; exact hu
  split at h
  · obtain ⟨p, hp, h⟩ := Option.bind_eq_some.1 h
    obtain ⟨d1, dup⟩ := p
    cases h
    exact hu.valDup hp
  obtain ⟨q, hq, h⟩ := Option.bind_eq_some.1 h
  obtain ⟨rb, rd⟩ := q
  split at h
  · cases h; exact hu
  · cases h
    have hu1 := @UsedByOk.pushEnt sh.d hu
      (.Value { code := vd.1.code, origin := vd.1.origin, offRoot := offAdd off vd.1.offRoot }
        (.OffValue root))
      (fun v hv => by cases hv)
      (fun u hu => by simp only [IHeapEntity.users, Option.some.injEq] at hu; exact hu.symm)
    exact hu1.setEnt (ent_pushEnt_of_some _ (rootData_eq_some.mp hq).2) rfl rfl

theorem valueOfCreate_use {sh : SymHeapCore} {obj val : Int} {od : HeapObject} {d1 : Private}
    (hu : sh.d.UsedByOk) (hobj : sh.d.ent obj = some (.HeapObject od))
    (hp : sh.valueOfCreate obj od = some (d1, val)) :
    d1.UsedByOk ∧ d1.ent obj = some (.HeapObject od) := by
  unfold valueOfCreate at hp
  split at hp
  · simp only [Option.bind_eq_bind] at hp
    obtain ⟨r, hr, hp⟩ := Option.bind_eq_some.1 hp
    obtain ⟨d0, val0⟩ := r
    obtain ⟨bx, hbx, hp⟩ := Option.bind_eq_some.1 hp
    obtain ⟨b0, x0⟩ := bx
    simp only [Option.some.injEq, Prod.mk.injEq] at hp
    obtain ⟨hd, -⟩ := hp
    subst hd
    have hu0 := hu.valCreate hr
    obtain ⟨e, he⟩ := valCreate_push hr
    have hent0 := (valData_eq_some.mp hbx).2
    simp only at hent0
    have hobj0 : d0.ent obj = some (.HeapObject od) := by
      rw [he]; exact ent_pushEnt_of_some _ hobj
    refine ⟨hu0.setEnt hent0 rfl rfl, ?_⟩
    have hne : obj ≠ val0 := by
      intro hc
      rw [hc, hent0] at hobj0
      cases hobj0
    rw [ent_setEnt _ hent0, if_neg hne]
    exact hobj0
  · simp only [Option.bind_eq_bind] at hp
    obtain ⟨r, -, hp⟩ := Option.bind_eq_some.1 hp
    obtain ⟨vo, -, hp⟩ := Option.bind_eq_some.1 hp
    obtain ⟨e, he⟩ := valCreate_push hp
    refine ⟨hu.valCreate hp, ?_⟩
    rw [he]; exact ent_pushEnt_of_some _ hobj

theorem usedByOk_valueOf {sh sh2 : SymHeapCore} {obj v : Int} (hu : sh.d.UsedByOk)
    (h : sh.valueOf obj = some (sh2, v)) : sh2.d.UsedByOk := by
  unfold valueOf at h
  split at h
  · cases h; exact hu
  split at h
  · cases h; exact hu
  simp only [Option.bind_eq_bind] at h
  obtain ⟨od, hod, h⟩ := Option.bind_eq_some.1 h
  split at h
  · cases h; exact hu
  rename_i hnew
  simp only [ne_eq, not_not] at hnew
  obtain ⟨p, hp, h⟩ := Option.bind_eq_some.1 h
  obtain ⟨d1, val⟩ := p
  obtain ⟨q, hq, h⟩ := Option.bind_eq_some.1 h
  obtain ⟨b, x⟩ := q
  cases h
  have hobj := objData_eq_some.mp hod
  have hcr := valueOfCreate_use hu hobj hp
  obtain ⟨hu1, hobj1⟩ := hcr
  have hentv := (valData_eq_some.mp hq).2
  have hvpos := (valData_eq_some.mp hq).1
  simp only at hentv hvpos
  have hheld : d1.heldAt obj = some od.value := by unfold heldAt; rw [hobj1]; rfl
  have husv : (d1.setEnt obj (.HeapObject { od with value := val })).usersAt val
      = some b.usedBy := by unfold usersAt; rw [hentv]; rfl
  have hne : val ≠ obj := by
    intro hc
    rw [hc, ent_setEnt _ hobj1, if_pos rfl] at hentv
    cases hentv
  have hold : ¬ 0 < od.value := by rw [← hnew]; decide
  refine @UsedByOk.store d1 _ obj od.value val hu1 hheld (fun j => ?_) (fun j => ?_) (fun _ => ?_)
  · show (Private.setEnt _ _ _).heldAt j = _
    rw [heldAt_setEnt_same (.Value { b with usedBy := setInsert intLt obj b.usedBy } x) hentv rfl,
      heldAt_setEnt _ hobj1]
    rfl
  · show (Private.setEnt _ _ _).usersAt j = _
    rw [usersAt_setEnt _ hentv]
    have hinner : ∀ k, (d1.setEnt obj (.HeapObject { od with value := val })).usersAt k
        = d1.usersAt k :=
      fun k => usersAt_setEnt_same (.HeapObject { od with value := val }) hobj1 rfl k
    by_cases hj : j = val
    · subst hj
      rw [if_pos rfl, if_pos ⟨rfl, hvpos⟩, if_neg (fun hc => hold hc.2), ← hinner, husv]
      rfl
    · rw [if_neg hj, if_neg (fun hc => hj hc.1), if_neg (fun hc => hold hc.2)]
      exact hinner j
  · rw [← usersAt_setEnt_same (.HeapObject { od with value := val }) hobj1 rfl, husv]
    exact ⟨_, rfl⟩

end SymHeapCore
namespace SymHeapCore

open SymHeapCore.Private

theorem usedByOk_valReplaceObjs (replaceBy : Int) : ∀ (l : List Int) (sh sh2 : SymHeapCore),
    sh.d.UsedByOk → sh.valReplaceObjs replaceBy l = some sh2 → sh2.d.UsedByOk := by
  intro l
  induction l with
  | nil => intro sh sh2 hu h; simp only [valReplaceObjs] at h; cases h; exact hu
  | cons obj rest ih =>
    intro sh sh2 hu h
    simp only [valReplaceObjs, Option.bind_eq_bind] at h
    obtain ⟨sh1, h1, h⟩ := Option.bind_eq_some.1 h
    exact ih _ _ (usedByOk_objSetValue hu h1) h

theorem usedByOk_valReplaceNeqs (val replaceBy : Int) : ∀ (l : List Int) (sh sh2 : SymHeapCore),
    sh.d.UsedByOk → sh.valReplaceNeqs val replaceBy l = some sh2 → sh2.d.UsedByOk := by
  intro l
  induction l with
  | nil => intro sh sh2 hu h; simp only [valReplaceNeqs] at h; cases h; exact hu
  | cons x rest ih =>
    intro sh sh2 hu h
    simp only [valReplaceNeqs, Option.bind_eq_bind] at h
    obtain ⟨sh1, h1, h⟩ := Option.bind_eq_some.1 h
    obtain ⟨sh3, h3, h⟩ := Option.bind_eq_some.1 h
    exact ih _ _ (usedByOk_neqOp (usedByOk_neqOp hu h1) h3) h

theorem usedByOk_valReplace {sh sh2 : SymHeapCore} {val replaceBy : Int} (hu : sh.d.UsedByOk)
    (h : sh.valReplace val replaceBy = some sh2) : sh2.d.UsedByOk := by
  unfold valReplace at h
  simp only [Option.bind_eq_bind] at h
  obtain ⟨p, -, h⟩ := Option.bind_eq_some.1 h
  obtain ⟨sh1, h1, h⟩ := Option.bind_eq_some.1 h
  obtain ⟨sh3, h3, h⟩ := Option.bind_eq_some.1 h
  exact usedByOk_valReplaceNeqs _ _ _ _ _
    (usedByOk_neqOp (usedByOk_valReplaceObjs _ _ _ _ hu h1) h3) h

theorem usedByOk_valMerge {sh sh2 : SymHeapCore} {mk : SymHeapCore → Int → Int → Int × Int}
    {abs : Int → Bool} {val replaceBy : Int} (hu : sh.d.UsedByOk)
    (h : sh.valMerge mk abs val replaceBy = some sh2) : sh2.d.UsedByOk := by
  unfold valMerge at h
  simp only [Option.bind_eq_bind] at h
  obtain ⟨neq, -, h⟩ := Option.bind_eq_some.1 h
  split at h
  · cases h
  · exact usedByOk_valReplace hu h

theorem usedByOk_valClone {sh sh2 : SymHeapCore} {val v : Int} (hu : sh.d.UsedByOk)
    (h : sh.valClone val = some (sh2, v)) : sh2.d.UsedByOk := by
  unfold valClone at h
  simp only [Option.bind_eq_bind] at h
  obtain ⟨vd, -, h⟩ := Option.bind_eq_some.1 h
  split at h
  · obtain ⟨p, hp, h⟩ := Option.bind_eq_some.1 h
    obtain ⟨d1, dup⟩ := p
    cases h
    exact hu.valDup hp
  · obtain ⟨root, -, h⟩ := Option.bind_eq_some.1 h
    obtain ⟨p, hp, h⟩ := Option.bind_eq_some.1 h
    obtain ⟨d1, dupAt⟩ := p
    exact @usedByOk_valByOffset { sh with d := d1 } sh2 _ _ _ (hu.objDup hp) h

theorem usedByOk_valDestroyTarget {sh sh2 : SymHeapCore} {val : Int} {r : Bool}
    (hu : sh.d.UsedByOk) (h : sh.valDestroyTarget val = some (sh2, r)) : sh2.d.UsedByOk := by
  unfold valDestroyTarget at h
  split at h
  · cases h; exact hu
  simp only [Option.bind_eq_bind] at h
  obtain ⟨vd, -, h⟩ := Option.bind_eq_some.1 h
  split at h
  · cases h; exact hu
  obtain ⟨d1, hd1, h⟩ := Option.bind_eq_some.1 h
  cases h
  exact hu.objDestroy hd1

theorem usedByOk_valCreateCustom {sh sh2 : SymHeapCore} {cVal v : Int} (hu : sh.d.UsedByOk)
    (h : sh.valCreateCustom cVal = some (sh2, v)) : sh2.d.UsedByOk := by
  unfold valCreateCustom at h
  split at h
  · cases h; exact hu
  simp only [Option.bind_eq_bind] at h
  obtain ⟨p, hp, h⟩ := Option.bind_eq_some.1 h
  obtain ⟨d1, val⟩ := p
  have hu1 := hu.valCreate hp
  simp only at h
  split at h
  · rename_i b c hent
    cases h
    exact UsedByOk.sameEnts rfl (hu1.setEnt hent rfl rfl)
  · cases h

theorem usedByOk_copyRelevantPredsLoop (valMap : List (Int × Int)) :
    ∀ (l : List (Int × Int)) (dst dst2 : SymHeapCore), dst.d.UsedByOk →
      copyRelevantPredsLoop dst valMap l = some dst2 → dst2.d.UsedByOk := by
  intro l
  induction l with
  | nil => intro dst dst2 hu h; simp only [copyRelevantPredsLoop] at h; cases h; exact hu
  | cons item rest ih =>
    intro dst dst2 hu h
    simp only [copyRelevantPredsLoop] at h
    split at h
    · simp only [Option.bind_eq_bind] at h
      obtain ⟨dst1, h1, h⟩ := Option.bind_eq_some.1 h
      exact ih _ _ (usedByOk_neqOp hu h1) h
    · exact ih _ _ hu h

theorem usedByOk_addrOfVar {sh sh2 : SymHeapCore} {fuel : Nat} {cv : CVar} {v : Int}
    (hu : sh.d.UsedByOk) (h : sh.addrOfVar fuel cv = some (sh2, v)) : sh2.d.UsedByOk := by
  unfold addrOfVar at h
  simp only [Option.bind_eq_bind] at h
  obtain ⟨addr0, -, h⟩ := Option.bind_eq_some.1 h
  split at h
  · cases h; exact hu
  obtain ⟨var, -, h⟩ := Option.bind_eq_some.1 h
  obtain ⟨t, -, h⟩ := Option.bind_eq_some.1 h
  split at h
  · cases h
  obtain ⟨od, hod, h⟩ := Option.bind_eq_some.1 h
  obtain ⟨p, hp, h⟩ := Option.bind_eq_some.1 h
  obtain ⟨d2, addr⟩ := p
  obtain ⟨q, hq, h⟩ := Option.bind_eq_some.1 h
  obtain ⟨rb, rd⟩ := q
  obtain ⟨d5, hd5, h⟩ := Option.bind_eq_some.1 h
  obtain ⟨cm, -, h⟩ := Option.bind_eq_some.1 h
  cases h
  have hu2 : d2.UsedByOk := hu.objCreate.valCreate hp
  obtain ⟨e, he⟩ := valCreate_push hp
  have hobj2 : d2.ent sh.d.objCreate.2 = some (.HeapObject od) := by
    rw [he]; exact ent_pushEnt_of_some _ (objData_eq_some.mp hod)
  have hu3 := hu2.setObj hobj2 { od with clt := var.type, root := addr } rfl
  have hu4 := hu3.setRoot hq rb.code
    { rd with cVar := cv, addr := addr, lastKnownClt := var.type,
              allObjs := rd.allObjs ++ [sh.d.objCreate.2] }
  have hu5 : d5.UsedByOk := by
    refine UsedByOk.subsCreate ?_ hd5
    exact hu4
  exact UsedByOk.sameEnts rfl hu5

theorem usedByOk_valSetLastKnownTypeOfTarget {sh sh2 : SymHeapCore} {fuel : Nat} {root : Int}
    {clt : TObjType} (hu : sh.d.UsedByOk)
    (h : sh.valSetLastKnownTypeOfTarget fuel root clt = some sh2) : sh2.d.UsedByOk := by
  unfold valSetLastKnownTypeOfTarget at h
  simp only [Option.bind_eq_bind] at h
  obtain ⟨r0, -, h⟩ := Option.bind_eq_some.1 h
  have tail : ∀ (d3 d1 : Private), d3.UsedByOk →
      ((d3.objData d1.objCreate.2).bind fun objData =>
        ((d3.setEnt d1.objCreate.2
            (.HeapObject { objData with root := root, clt := clt })).rootData root).bind fun q =>
          (((d3.setEnt d1.objCreate.2
              (.HeapObject { objData with root := root, clt := clt })).setEnt root
              (.Value q.1 (.RootValue { q.2 with
                allObjs := q.2.allObjs ++ [d1.objCreate.2], lastKnownClt := clt }))).subsCreate
            sh.stor_ fuel root).bind fun d6 => some ({ sh with d := d6 } : SymHeapCore))
        = some sh2 → sh2.d.UsedByOk := by
    intro d3 d1 hu3 ht
    obtain ⟨od, hod, ht⟩ := Option.bind_eq_some.1 ht
    obtain ⟨q, hq, ht⟩ := Option.bind_eq_some.1 ht
    obtain ⟨rb, rd⟩ := q
    obtain ⟨d6, hd6, ht⟩ := Option.bind_eq_some.1 ht
    cases ht
    have hu4 := hu3.setObj (objData_eq_some.mp hod) { od with root := root, clt := clt } rfl
    have hu5 := hu4.setRoot hq rb.code
      { rd with allObjs := rd.allObjs ++ [d1.objCreate.2], lastKnownClt := clt }
    refine UsedByOk.subsCreate ?_ hd6
    exact hu5
  by_cases hret : VAL_ADDR_OF_RET = root
  · simp only [hret, if_true] at h
    obtain ⟨d1, hd1, h⟩ := Option.bind_eq_some.1 h
    have hu1 : d1.UsedByOk := hu.objDestroy hd1
    obtain ⟨q, hq, h⟩ := Option.bind_eq_some.1 h
    obtain ⟨rb, rd⟩ := q
    obtain ⟨d3, hd3, h⟩ := Option.bind_eq_some.1 h
    cases hd3
    exact tail _ d1 (hu1.objCreate.setRoot hq VT_ON_STACK rd) h
  · simp only [hret, if_false] at h
    obtain ⟨d1, hd1, h⟩ := Option.bind_eq_some.1 h
    cases hd1
    obtain ⟨d3, hd3, h⟩ := Option.bind_eq_some.1 h
    cases hd3
    exact tail _ sh.d hu.objCreate h

/-- The backward references are in order in every heap built by the public
operations. -/
theorem usedByOk_of_built {sh : SymHeapCore} (h : Built sh) : sh.d.UsedByOk := by
  induction h with
  | create hc => exact usedByOk_create hc
  | valueOf obj v _ hop ih => exact usedByOk_valueOf ih hop
  | objSetValue obj val _ hop ih => exact usedByOk_objSetValue ih hop
  | valReplace val replaceBy _ hop ih => exact usedByOk_valReplace ih hop
  | valMerge mk abs val replaceBy _ hop ih => exact usedByOk_valMerge ih hop
  | valClone val v _ hop ih => exact usedByOk_valClone ih hop
  | valByOffset at_ off v _ hop ih => exact usedByOk_valByOffset ih hop
  | addrOfVar fuel cv v _ hop ih => exact usedByOk_addrOfVar ih hop
  | valSetLastKnownTypeOfTarget fuel root clt _ hop ih =>
    exact usedByOk_valSetLastKnownTypeOfTarget ih hop
  | valDestroyTarget val r _ hop ih => exact usedByOk_valDestroyTarget ih hop
  | heapAlloc cbSize v _ hop ih => exact usedByOk_heapAlloc ih hop
  | valCreateCustom cVal v _ hop ih => exact usedByOk_valCreateCustom ih hop
  | neqOp op valA valB _ hop ih => exact usedByOk_neqOp ih hop
  | copyRelevantPreds valMap _ hop ih =>
    exact usedByOk_copyRelevantPredsLoop _ _ _ _ ih hop

end SymHeapCore
open SymHeapCore SymHeapCore.Private in
/-- C35: in every heap built from a freshly constructed heap by the public
operations that return normally (`valueOf`, `objSetValue`, `valReplace`,
`valMerge`, `valClone`, `valByOffset`, `addrOfVar`,
`valSetLastKnownTypeOfTarget`, `valDestroyTarget`, and `heapAlloc`,
`valCreateCustom`, `neqOp`, `copyRelevantPreds`), for every object `o` and
every positive value `v`: if `o` stores `v` then `v` is a value of the heap
and `o` is in `usedBy(v)`; if `o` is in `usedBy(v)` then `o` is an object that
stores `v`; so `o` is in `usedBy(v)` if and only if the value stored in `o` is
`v`. -/
theorem C35_usedBy_iff_stored (sh : SymHeapCore) (h : Built sh) :
    (∀ o od v, sh.d.objData o = some od → 0 < v → od.value = v →
      ∃ u, sh.usedBy [] v = some u ∧ o ∈ u) ∧
    (∀ v u o, 0 < v → sh.usedBy [] v = some u → o ∈ u →
      ∃ od, sh.d.objData o = some od ∧ od.value = v) ∧
    (∀ o od v u, sh.d.objData o = some od → 0 < v → sh.usedBy [] v = some u →
      (o ∈ u ↔ od.value = v)) := by
  have hu := usedByOk_of_built h
  have hq : ∀ v u, 0 < v → sh.usedBy [] v = some u →
      ∃ b x, sh.d.ent v = some (.Value b x) ∧ u = b.usedBy := by
    intro v u hpos hv
    unfold SymHeapCore.usedBy at hv
    have hn : ¬ VAL_NULL = v := by unfold VAL_NULL; omega
    simp only [hn, if_false, Option.bind_eq_bind] at hv
    obtain ⟨p, hp, hv⟩ := Option.bind_eq_some.1 hv
    obtain ⟨b, x⟩ := p
    simp only [List.nil_append, Option.some.injEq] at hv
    exact ⟨b, x, (valData_eq_some.mp hp).2, hv.symm⟩
  have h1 : ∀ o od v, sh.d.objData o = some od → 0 < v → od.value = v →
      ∃ u, sh.usedBy [] v = some u ∧ o ∈ u := by
    intro o od v ho hpos hv
    obtain ⟨b, x, hb, hm⟩ := hu.1 o od (objData_eq_some.mp ho) (by rw [hv]; exact hpos)
    rw [hv] at hb
    refine ⟨b.usedBy, ?_, hm⟩
    unfold SymHeapCore.usedBy
    have hn : ¬ VAL_NULL = v := by unfold VAL_NULL; omega
    have hvd : sh.d.valData v = some (b, x) := valData_eq_some.mpr ⟨hpos, hb⟩
    simp only [hn, if_false, Option.bind_eq_bind, hvd, Option.some_bind, List.nil_append]
  have h2 : ∀ v u o, 0 < v → sh.usedBy [] v = some u → o ∈ u →
      ∃ od, sh.d.objData o = some od ∧ od.value = v := by
    intro v u o hpos hv ho
    obtain ⟨b, x, hb, hub⟩ := hq v u hpos hv
    obtain ⟨od, hod, hvv⟩ := hu.2 v b x hpos hb o (by rw [← hub]; exact ho)
    exact ⟨od, objData_eq_some.mpr hod, hvv⟩
  refine ⟨h1, h2, ?_⟩
  intro o od v u ho hpos hv
  constructor
  · intro hm
    obtain ⟨od2, hod2, hvv⟩ := h2 v u o hpos hv hm
    rw [ho] at hod2
    cases hod2
    exact hvv
  · intro hvv
    obtain ⟨u2, hu2, hm⟩ := h1 o od v ho hpos hvv
    rw [hv] at hu2
    cases hu2
    exact hm

open SymHeapCore in
/-- Claim C35 applied to the heap `exSelfHeap`, built by the constructor,
`heapAlloc`, `valSetLastKnownTypeOfTarget` and `objSetValue`: the pointer
`next` (object 4) of the block holds the address 2 of the block, and
`usedBy(2)` is `{4}`. -/
theorem C35_usedBy_iff_stored_witness :
    exSelfHeap.usedBy [] 2 = some [4] ∧
    exSelfHeap.d.objData 4 = some { value := 2, root := 2, off := 0, clt := some 1 } ∧
    (∀ o od, exSelfHeap.d.objData o = some od → (o ∈ [(4 : Int)] ↔ od.value = 2)) :=
  have hb : Built exSelfHeap :=
    Built.objSetValue 4 2
      (Built.valSetLastKnownTypeOfTarget 4 2 (some 2)
        (Built.heapAlloc 16 2
          (Built.create (by decide :
            SymHeapCore.create exListStor = some ((SymHeapCore.create exListStor).getD {})))
          (by decide :
            ((SymHeapCore.create exListStor).getD {}).heapAlloc 16
              = some (((((SymHeapCore.create exListStor).getD {}).heapAlloc 16).map
                  Prod.fst).getD {}, 2)))
        (by decide :
          (((((SymHeapCore.create exListStor).getD {}).heapAlloc 16).map
              Prod.fst).getD {}).valSetLastKnownTypeOfTarget 4 2 (some 2) = some exTypedHeap))
      (by decide : exTypedHeap.objSetValue 4 2 = some exSelfHeap)
  ⟨by decide, by decide,
    fun o od ho => (C35_usedBy_iff_stored exSelfHeap hb).2.2 o od 2 [4] ho (by decide) (by decide)⟩

end Predator
